import Mathlib

/-!
Matching engine and its limit order book, market data publisher, snapshot synthesizer and
consumer, strategy-side order book, ring queue, memory pool and FIFO sequencer: embedding
and verification.

Shallow embedding of `src/common/Types.h`, `src/common/MemoryPool.h`,
`src/common/LockFreeQueue.h`,
`src/exchange/matcher/MatchingEngineOrder.h`,
`src/exchange/matcher/MatchingEngineOrderBook.{h,cpp}`,
`src/exchange/market_data/MarketUpdate.h`,
`src/exchange/market_data/MarketDataPublisher.{h,cpp}`,
`src/exchange/market_data/SnapshotSynthesizer.{h,cpp}`,
`src/exchange/matcher/MatchingEngine.{h,cpp}`,
`src/exchange/order_server/ClientRequest.h`,
`src/exchange/order_server/FifoSequencer.h`,
`src/trading/market_data/MarketDataConsumer.{h,cpp}`,
`src/trading/strategy/MarketOrder.h` and
`src/trading/strategy/MarketOrderBook.{h,cpp}`.

* A pointer into a `CMemoryPool` is the index of its slot; `none` is `nullptr`.
* Every function that can abort returns `Except Fault _`.
* Loops run on an explicit fuel; where a claim says that a call returns, it is proved to
  return with the fuel of the model.
* The two outbound queues of the matching engine are one list of records in
  call order (`CMEOrderBook.emitted`).
* A `std::map<size_t, _>` is the list of its entries in key order (`Trading.IsMap`).
* The queue to the strategy and the snapshot socket are lists of records in the order
  of the writes.
-/

namespace Common

/-- Maximum trading clients (`Types.h`). -/
def ME_MAX_NUM_CLIENTS : Nat := 256

/-- Maximum number of orders per trading client (`Types.h`). -/
def ME_MAX_ORDER_IDS : Nat := 1024 * 1024

/-- Maximum price level depth in the order books (`Types.h`). -/
def ME_MAX_PRICE_LEVELS : Nat := 256

/-- Invalid order id: `std::numeric_limits<uint64_t>::max()`. -/
def OrderId_INVALID : Nat := 2 ^ 64 - 1

/-- Invalid price: `std::numeric_limits<int64_t>::max()`. -/
def Price_INVALID : Int := 2 ^ 63 - 1

/-- Invalid quantity: `std::numeric_limits<uint32_t>::max()`. -/
def Qty_INVALID : Nat := 2 ^ 32 - 1

/-- Invalid priority: `std::numeric_limits<uint64_t>::max()`. -/
def Priority_INVALID : Nat := 2 ^ 64 - 1

/-- Side of an order: `enum class ESide : int8_t`. -/
inductive ESide where
  | INVALID
  | BUY
  | SELL
  | MAX
  deriving DecidableEq, Repr

/-- Ways in which a call does not return normally. -/
inductive Fault where
  /-- Thrown by `std::array::at` inside a `noexcept` function. -/
  | outOfRange
  /-- A null pointer was dereferenced. -/
  | nullDeref
  /-- An `ASSERT` failed or `FATAL` was called. -/
  | assertFailed
  /-- The fuel of a loop of the embedding ran out (never the case on a well-formed book). -/
  | outOfFuel
  deriving DecidableEq, Repr

/-- Dereferencing a pointer: the slot index, or a fault on `nullptr`. -/
def deref (p : Option Nat) : Except Fault Nat :=
  match p with
  | some i => .ok i
  | none => .error .nullDeref

/-- Bounds check of `std::array<_, n>::at(i)`. -/
def arrayAt (n i : Nat) : Except Fault Unit :=
  if i < n then .ok () else .error .outOfRange

/-- Block of a pool: `CMemoryPool<T>::SObjectBlock`. -/
structure SObjectBlock (T : Type) where
  object : T
  isFree : Bool

/-- Pool `CMemoryPool<T>`: `numElems` is `m_store.size()`. -/
structure CMemoryPool (T : Type) where
  numElems : Nat
  m_store : Nat → SObjectBlock T
  m_nextFreeIndex : Nat

namespace CMemoryPool

variable {T : Type}

/-- The constructor: every block holds `T()` and is free. -/
def init (numElems : Nat) (dflt : T) : CMemoryPool T :=
  { numElems := numElems, m_store := fun _ => ⟨dflt, true⟩, m_nextFreeIndex := 0 }

/-- Read of the object stored in slot `i`. -/
def obj (p : CMemoryPool T) (i : Nat) : T := (p.m_store i).object

/-- Write through a pointer to slot `i`: the object is replaced, the flag is kept. -/
def modify (p : CMemoryPool T) (i : Nat) (f : T → T) : CMemoryPool T :=
  { p with m_store := Function.update p.m_store i ⟨f (p.m_store i).object, (p.m_store i).isFree⟩ }

/-- The `while` loop of `UpdateNextFreeIndex`. -/
def UpdateNextFreeIndexLoop (p : CMemoryPool T) (initialFreeIndex : Nat) :
    Nat → Nat → Except Fault Nat
  | 0, _ => .error .outOfFuel
  | fuel + 1, next =>
    if (p.m_store next).isFree then .ok next
    else
      let next1 := if next + 1 = p.numElems then 0 else next + 1
      if initialFreeIndex = next1 then .error .assertFailed
      else UpdateNextFreeIndexLoop p initialFreeIndex fuel next1

/-- Cursor update `CMemoryPool::UpdateNextFreeIndex`. -/
def UpdateNextFreeIndex (p : CMemoryPool T) : Except Fault (CMemoryPool T) :=
  match UpdateNextFreeIndexLoop p p.m_nextFreeIndex (p.numElems + 1) p.m_nextFreeIndex with
  | .ok next => .ok { p with m_nextFreeIndex := next }
  | .error e => .error e

/-- Allocation `CMemoryPool::Allocate`: placement-new of `v` in the slot at the cursor. -/
def Allocate (p : CMemoryPool T) (v : T) : Except Fault (Nat × CMemoryPool T) :=
  if (p.m_store p.m_nextFreeIndex).isFree then
    match UpdateNextFreeIndex
        { p with m_store := Function.update p.m_store p.m_nextFreeIndex ⟨v, false⟩ } with
    | .ok p1 => .ok (p.m_nextFreeIndex, p1)
    | .error e => .error e
  else .error .assertFailed

/-- Release `CMemoryPool::Deallocate`. -/
def Deallocate (p : CMemoryPool T) (elemIndex : Nat) : Except Fault (CMemoryPool T) :=
  if elemIndex < p.numElems then
    if (p.m_store elemIndex).isFree then .error .assertFailed
    else .ok { p with m_store :=
                 Function.update p.m_store elemIndex ⟨(p.m_store elemIndex).object, true⟩ }
  else .error .assertFailed

end CMemoryPool

end Common

namespace Exchange

open Common

/-- Resting order: `struct SMEOrder`. -/
structure SMEOrder where
  tickerId : Nat
  clientId : Nat
  clientOrderId : Nat
  marketOrderId : Nat
  side : ESide
  price : Int
  qty : Nat
  priority : Nat
  pPrevOrder : Option Nat
  pNextOrder : Option Nat

/-- Default member initialisers of `SMEOrder`. -/
def SMEOrder.dflt : SMEOrder :=
  { tickerId := 2 ^ 32 - 1, clientId := 2 ^ 32 - 1, clientOrderId := OrderId_INVALID,
    marketOrderId := OrderId_INVALID, side := .INVALID, price := Price_INVALID,
    qty := Qty_INVALID, priority := Priority_INVALID, pPrevOrder := none, pNextOrder := none }

/-- Price level: `struct SMEOrdersAtPrice`. -/
structure SMEOrdersAtPrice where
  side : ESide
  price : Int
  pFirstMeOrder : Option Nat
  pPrevEntry : Option Nat
  pNextEntry : Option Nat

/-- Default member initialisers of `SMEOrdersAtPrice`. -/
def SMEOrdersAtPrice.dflt : SMEOrdersAtPrice :=
  { side := .INVALID, price := Price_INVALID, pFirstMeOrder := none,
    pPrevEntry := none, pNextEntry := none }

/-- Response kinds: `enum class EClientResponseType`. -/
inductive EClientResponseType where
  | INVALID
  | ACCEPTED
  | CANCELED
  | FILLED
  | CANCEL_REJECTED
  deriving DecidableEq, Repr

/-- Update kinds: `enum class EMarketUpdateType`. -/
inductive EMarketUpdateType where
  | INVALID
  | CLEAR
  | ADD
  | MODIFY
  | CANCEL
  | TRADE
  | SNAPSHOT_START
  | SNAPSHOT_END
  deriving DecidableEq, Repr

/-- Client response: `struct SMEClientResponse`. -/
structure SMEClientResponse where
  type : EClientResponseType
  clientId : Nat
  tickerId : Nat
  clientOrderId : Nat
  marketOrderId : Nat
  side : ESide
  price : Int
  execQty : Nat
  leavesQty : Nat
  deriving DecidableEq, Repr

/-- Market update: `struct SMEMarketUpdate`. -/
structure SMEMarketUpdate where
  type : EMarketUpdateType
  orderId : Nat
  tickerId : Nat
  side : ESide
  price : Int
  qty : Nat
  priority : Nat
  deriving DecidableEq, Repr

/-- A record handed to the matching engine: `SendClientResponse` or `SendMarketUpdate`. -/
inductive Emitted where
  | response (r : SMEClientResponse)
  | update (u : SMEMarketUpdate)
  deriving DecidableEq, Repr

/-- Order book `class CMEOrderBook`. The staging members `m_clientResponse` and `m_marketUpdate` are
written and sent in one step; `emitted` is what the matching engine received so far. -/
structure CMEOrderBook where
  m_tickerId : Nat
  m_cidOidToOrder : Nat → Nat → Option Nat
  m_ordersAtPricePool : CMemoryPool SMEOrdersAtPrice
  m_pBidsByPrice : Option Nat
  m_pAsksByPrice : Option Nat
  m_priceOrdersAtPrice : Nat → Option Nat
  m_orderPool : CMemoryPool SMEOrder
  m_nextMarketOrderId : Nat
  emitted : List Emitted

namespace CMEOrderBook

/-- The constructor `CMEOrderBook(ticker_id, logger, matching_engine)`. -/
def init (ticker_id : Nat) : CMEOrderBook :=
  { m_tickerId := ticker_id
    m_cidOidToOrder := fun _ _ => none
    m_ordersAtPricePool := CMemoryPool.init ME_MAX_PRICE_LEVELS SMEOrdersAtPrice.dflt
    m_pBidsByPrice := none
    m_pAsksByPrice := none
    m_priceOrdersAtPrice := fun _ => none
    m_orderPool := CMemoryPool.init ME_MAX_ORDER_IDS SMEOrder.dflt
    m_nextMarketOrderId := 1
    emitted := [] }

/-- Call `m_pMatchingEngine->SendClientResponse(&m_clientResponse)`. -/
def SendClientResponse (b : CMEOrderBook) (r : SMEClientResponse) : CMEOrderBook :=
  { b with emitted := b.emitted ++ [.response r] }

/-- Call `m_pMatchingEngine->SendMarketUpdate(&m_marketUpdate)`. -/
def SendMarketUpdate (b : CMEOrderBook) (u : SMEMarketUpdate) : CMEOrderBook :=
  { b with emitted := b.emitted ++ [.update u] }

/-- Read of the order a pointer refers to. -/
def order (b : CMEOrderBook) (p : Nat) : SMEOrder := b.m_orderPool.obj p

/-- Read of the price level a pointer refers to. -/
def level (b : CMEOrderBook) (p : Nat) : SMEOrdersAtPrice := b.m_ordersAtPricePool.obj p

/-- Write through an order pointer. -/
def setOrder (b : CMEOrderBook) (p : Nat) (f : SMEOrder → SMEOrder) : CMEOrderBook :=
  { b with m_orderPool := b.m_orderPool.modify p f }

/-- Write through a price-level pointer. -/
def setLevel (b : CMEOrderBook) (p : Nat) (f : SMEOrdersAtPrice → SMEOrdersAtPrice) :
    CMEOrderBook :=
  { b with m_ordersAtPricePool := b.m_ordersAtPricePool.modify p f }

/-- Method `GenerateNewMarketOrderId`: `m_nextMarketOrderId++` on a `uint64_t`. -/
def GenerateNewMarketOrderId (b : CMEOrderBook) : Nat × CMEOrderBook :=
  (b.m_nextMarketOrderId, { b with m_nextMarketOrderId := (b.m_nextMarketOrderId + 1) % 2 ^ 64 })

/-- Method `PriceToIndex`: the `int64_t` price is converted to `size_t` before `%`. -/
def PriceToIndex (price : Int) : Nat :=
  (price % 2 ^ 64).toNat % ME_MAX_PRICE_LEVELS

/-- Method `GetOrdersAtPrice`: `m_priceOrdersAtPrice.at(PriceToIndex(price))`. -/
def GetOrdersAtPrice (b : CMEOrderBook) (price : Int) : Except Fault (Option Nat) := do
  arrayAt ME_MAX_PRICE_LEVELS (PriceToIndex price)
  pure (b.m_priceOrdersAtPrice (PriceToIndex price))

/-- Assignment to `m_priceOrdersAtPrice.at(PriceToIndex(price))`. -/
def setOrdersAtPrice (b : CMEOrderBook) (price : Int) (v : Option Nat) :
    Except Fault CMEOrderBook := do
  arrayAt ME_MAX_PRICE_LEVELS (PriceToIndex price)
  pure { b with m_priceOrdersAtPrice := Function.update b.m_priceOrdersAtPrice (PriceToIndex price) v }

/-- Assignment to `m_cidOidToOrder.at(clientId).at(clientOrderId)`. -/
def setCidOid (b : CMEOrderBook) (clientId clientOrderId : Nat) (v : Option Nat) :
    Except Fault CMEOrderBook := do
  arrayAt ME_MAX_NUM_CLIENTS clientId
  arrayAt ME_MAX_ORDER_IDS clientOrderId
  let row := Function.update (b.m_cidOidToOrder clientId) clientOrderId v
  pure { b with m_cidOidToOrder := Function.update b.m_cidOidToOrder clientId row }

/-- The best-level pointer of a side: `side == ESide::BUY ? m_pBidsByPrice : m_pAsksByPrice`. -/
def bestOf (b : CMEOrderBook) (side : ESide) : Option Nat :=
  if side = .BUY then b.m_pBidsByPrice else b.m_pAsksByPrice

/-- Assignment to `(side == ESide::BUY ? m_pBidsByPrice : m_pAsksByPrice)`. -/
def setBestOf (b : CMEOrderBook) (side : ESide) (v : Option Nat) : CMEOrderBook :=
  if side = .BUY then { b with m_pBidsByPrice := v } else { b with m_pAsksByPrice := v }

/-- The comparison that `AddOrdersAtPrice` evaluates for `add_after`. -/
def addAfter (side : ESide) (price targetPrice : Int) : Bool :=
  (side = .SELL && decide (price > targetPrice)) || (side = .BUY && decide (price < targetPrice))

/-- The `while (add_after && target != best_orders_by_price)` loop of `AddOrdersAtPrice`;
returns the final `(target, add_after)`. -/
def AddOrdersAtPriceLoop (b : CMEOrderBook) (side : ESide) (price : Int) (best : Nat) :
    Nat → Nat → Bool → Except Fault (Nat × Bool)
  | 0, _, _ => .error .outOfFuel
  | fuel + 1, target, add_after =>
    if add_after && decide (target ≠ best) then
      if addAfter side price (b.level target).price then do
        let next ← deref (b.level target).pNextEntry
        AddOrdersAtPriceLoop b side price best fuel next true
      else .ok (target, false)
    else .ok (target, add_after)

/-- The search for `target` in `AddOrdersAtPrice`: the first comparison and step from the best
level, then the `while` loop; returns the final `(target, add_after)`. -/
def AddOrdersAtPriceScan (b : CMEOrderBook) (side : ESide) (price : Int) (best : Nat) :
    Except Fault (Nat × Bool) := do
  let first ← (if addAfter side price (b.level best).price then do
      let t ← deref (b.level best).pNextEntry
      pure (t, addAfter side price (b.level t).price)
    else pure (best, false) : Except Fault (Nat × Bool))
  AddOrdersAtPriceLoop b side price best (ME_MAX_PRICE_LEVELS + 1) first.1 first.2

/-- Method `AddOrdersAtPrice`. The side and price of the new level are read once: no statement
of the method writes them. -/
def AddOrdersAtPrice (b : CMEOrderBook) (pNew : Nat) : Except Fault CMEOrderBook := do
  let side := (b.level pNew).side
  let price := (b.level pNew).price
  let b ← b.setOrdersAtPrice price (some pNew)
  match b.bestOf side with
  | none =>
    let b := b.setBestOf side (some pNew)
    pure (b.setLevel pNew fun l => { l with pPrevEntry := some pNew, pNextEntry := some pNew })
  | some best =>
    let last ← AddOrdersAtPriceScan b side price best
    if last.2 then
      let target ← (if last.1 = best then deref (b.level best).pPrevEntry else pure last.1 :
        Except Fault Nat)
      let b := b.setLevel pNew fun l => { l with pPrevEntry := some target }
      let tn ← deref (b.level target).pNextEntry
      let b := b.setLevel tn fun l => { l with pPrevEntry := some pNew }
      let b := b.setLevel pNew fun l => { l with pNextEntry := (b.level target).pNextEntry }
      pure (b.setLevel target fun l => { l with pNextEntry := some pNew })
    else
      let target := last.1
      let b := b.setLevel pNew fun l => { l with pPrevEntry := (b.level target).pPrevEntry }
      let b := b.setLevel pNew fun l => { l with pNextEntry := some target }
      let tp ← deref (b.level target).pPrevEntry
      let b := b.setLevel tp fun l => { l with pNextEntry := some pNew }
      let b := b.setLevel target fun l => { l with pPrevEntry := some pNew }
      if (side = .BUY && decide (price > (b.level best).price)) ||
          (side = .SELL && decide (price < (b.level best).price)) then
        let b := b.setLevel target fun l =>
          { l with pNextEntry := if l.pNextEntry = some best then some pNew else l.pNextEntry }
        pure (b.setBestOf side (some pNew))
      else pure b

/-- Method `RemoveOrdersAtPrice`. -/
def RemoveOrdersAtPrice (b : CMEOrderBook) (side : ESide) (price : Int) :
    Except Fault CMEOrderBook := do
  let best := b.bestOf side
  let oap ← b.GetOrdersAtPrice price
  let oap ← deref oap
  let b ← (if (b.level oap).pNextEntry = some oap then pure (b.setBestOf side none)
    else do
      let prev ← deref (b.level oap).pPrevEntry
      let b := b.setLevel prev fun l => { l with pNextEntry := (b.level oap).pNextEntry }
      let next ← deref (b.level oap).pNextEntry
      let b := b.setLevel next fun l => { l with pPrevEntry := (b.level oap).pPrevEntry }
      let b := if some oap = best then b.setBestOf side (b.level oap).pNextEntry else b
      pure (b.setLevel oap fun l => { l with pPrevEntry := none, pNextEntry := none }) :
    Except Fault CMEOrderBook)
  let b ← b.setOrdersAtPrice price none
  let pool ← b.m_ordersAtPricePool.Deallocate oap
  pure { b with m_ordersAtPricePool := pool }

/-- Method `GetNextPriority`: `priority + 1` is computed on `uint64_t`. -/
def GetNextPriority (b : CMEOrderBook) (price : Int) : Except Fault Nat := do
  let oap ← b.GetOrdersAtPrice price
  match oap with
  | none => pure 1
  | some l =>
    let first ← deref (b.level l).pFirstMeOrder
    let last ← deref (b.order first).pPrevOrder
    pure (((b.order last).priority + 1) % 2 ^ 64)

/-- Method `RemoveOrder`. -/
def RemoveOrder (b : CMEOrderBook) (order : Nat) : Except Fault CMEOrderBook := do
  let oap ← b.GetOrdersAtPrice (b.order order).price
  let b ← (if (b.order order).pPrevOrder = some order then
      b.RemoveOrdersAtPrice (b.order order).side (b.order order).price
    else do
      let order_before := (b.order order).pPrevOrder
      let order_after := (b.order order).pNextOrder
      let pb ← deref order_before
      let b := b.setOrder pb fun o => { o with pNextOrder := order_after }
      let pa ← deref order_after
      let b := b.setOrder pa fun o => { o with pPrevOrder := order_before }
      let l ← deref oap
      let b := if (b.level l).pFirstMeOrder = some order then
          b.setLevel l fun x => { x with pFirstMeOrder := order_after }
        else b
      pure (b.setOrder order fun o => { o with pPrevOrder := none, pNextOrder := none }) :
    Except Fault CMEOrderBook)
  let b ← b.setCidOid (b.order order).clientId (b.order order).clientOrderId none
  let pool ← b.m_orderPool.Deallocate order
  pure { b with m_orderPool := pool }

/-- The overload `AddOrder(SMEOrder *order)`. -/
def AddOrderPtr (b : CMEOrderBook) (order : Nat) : Except Fault CMEOrderBook := do
  let oap ← b.GetOrdersAtPrice (b.order order).price
  let b ← (match oap with
    | none => do
      let b := b.setOrder order fun o => { o with pNextOrder := some order, pPrevOrder := some order }
      let r ← b.m_ordersAtPricePool.Allocate
        ⟨(b.order order).side, (b.order order).price, some order, none, none⟩
      AddOrdersAtPrice { b with m_ordersAtPricePool := r.2 } r.1
    | some l => do
      let first_order ← deref (b.level l).pFirstMeOrder
      let fp ← deref (b.order first_order).pPrevOrder
      let b := b.setOrder fp fun o => { o with pNextOrder := some order }
      let b := b.setOrder order fun o => { o with pPrevOrder := (b.order first_order).pPrevOrder }
      let b := b.setOrder order fun o => { o with pNextOrder := some first_order }
      pure (b.setOrder first_order fun o => { o with pPrevOrder := some order }) :
    Except Fault CMEOrderBook)
  b.setCidOid (b.order order).clientId (b.order order).clientOrderId (some order)

/-- Method `Match`: one fill of the aggressor against the resting order `itr`; returns the book
and the aggressor's new `leaves_qty`. -/
def Match (b : CMEOrderBook) (ticker_id client_id : Nat) (side : ESide)
    (client_order_id new_market_order_id : Nat) (itr : Nat) (leaves_qty : Nat) :
    Except Fault (CMEOrderBook × Nat) := do
  let order_qty := (b.order itr).qty
  let fill_qty := min leaves_qty order_qty
  let leaves_qty := leaves_qty - fill_qty
  let b := b.setOrder itr fun o => { o with qty := o.qty - fill_qty }
  let b := b.SendClientResponse ⟨.FILLED, client_id, ticker_id, client_order_id,
    new_market_order_id, side, (b.order itr).price, fill_qty, leaves_qty⟩
  let b := b.SendClientResponse ⟨.FILLED, (b.order itr).clientId, ticker_id,
    (b.order itr).clientOrderId, (b.order itr).marketOrderId, (b.order itr).side,
    (b.order itr).price, fill_qty, (b.order itr).qty⟩
  let b := b.SendMarketUpdate ⟨.TRADE, OrderId_INVALID, ticker_id, side, (b.order itr).price,
    fill_qty, Priority_INVALID⟩
  if (b.order itr).qty = 0 then
    let b := b.SendMarketUpdate ⟨.CANCEL, (b.order itr).marketOrderId, ticker_id,
      (b.order itr).side, (b.order itr).price, order_qty, Priority_INVALID⟩
    let b ← b.RemoveOrder itr
    pure (b, leaves_qty)
  else
    let b := b.SendMarketUpdate ⟨.MODIFY, (b.order itr).marketOrderId, ticker_id,
      (b.order itr).side, (b.order itr).price, (b.order itr).qty, (b.order itr).priority⟩
    pure (b, leaves_qty)

/-- The best level of the side an aggressor of side `side` trades against:
`m_pAsksByPrice` for a BUY, `m_pBidsByPrice` for a SELL. -/
def oppositeBest (b : CMEOrderBook) (side : ESide) : Option Nat :=
  if side = .BUY then b.m_pAsksByPrice else b.m_pBidsByPrice

/-- The `break` test of the matching loops: `price < ask_itr->price` for a BUY,
`price > bid_itr->price` for a SELL. -/
def limitStops (side : ESide) (price restingPrice : Int) : Bool :=
  if side = .BUY then decide (price < restingPrice) else decide (price > restingPrice)

/-- The two `while (leaves_qty && m_pAsksByPrice / m_pBidsByPrice)` loops of `CheckForMatch`,
for `side` BUY and SELL respectively. -/
def CheckForMatchLoop (client_id client_order_id ticker_id : Nat) (side : ESide) (price : Int)
    (new_market_order_id : Nat) : Nat → CMEOrderBook → Nat → Except Fault (CMEOrderBook × Nat)
  | 0, _, _ => .error .outOfFuel
  | fuel + 1, b, leaves_qty =>
    if leaves_qty ≠ 0 ∧ b.oppositeBest side ≠ none then do
      let lvl ← deref (b.oppositeBest side)
      let itr ← deref (b.level lvl).pFirstMeOrder
      if limitStops side price (b.order itr).price then pure (b, leaves_qty)
      else do
        let r ← b.Match ticker_id client_id side client_order_id new_market_order_id itr leaves_qty
        CheckForMatchLoop client_id client_order_id ticker_id side price new_market_order_id
          fuel r.1 r.2
    else pure (b, leaves_qty)

/-- Method `CheckForMatch`. Its last parameter is declared `Qty new_market_order_id`, so the
64-bit market order id is converted to `uint32_t` at the call. -/
def CheckForMatch (b : CMEOrderBook) (client_id client_order_id ticker_id : Nat) (side : ESide)
    (price : Int) (qty : Nat) (new_market_order_id : Nat) : Except Fault (CMEOrderBook × Nat) :=
  if side = .BUY ∨ side = .SELL then
    CheckForMatchLoop client_id client_order_id ticker_id side price (new_market_order_id % 2 ^ 32)
      (ME_MAX_ORDER_IDS + 1) b qty
  else pure (b, qty)

/-- Method `AddOrder(client_id, client_order_id, ticker_id, side, price, qty)`. -/
def AddOrder (b : CMEOrderBook) (client_id client_order_id ticker_id : Nat) (side : ESide)
    (price : Int) (qty : Nat) : Except Fault CMEOrderBook := do
  let g := b.GenerateNewMarketOrderId
  let new_market_order_id := g.1
  let b := g.2.SendClientResponse ⟨.ACCEPTED, client_id, ticker_id, client_order_id,
    new_market_order_id, side, price, 0, qty⟩
  let r ← b.CheckForMatch client_id client_order_id ticker_id side price qty new_market_order_id
  let b := r.1
  let leaves_qty := r.2
  if leaves_qty ≠ 0 then
    let priority ← b.GetNextPriority price
    let a ← b.m_orderPool.Allocate ⟨ticker_id, client_id, client_order_id, new_market_order_id,
      side, price, leaves_qty, priority, none, none⟩
    let b ← AddOrderPtr { b with m_orderPool := a.2 } a.1
    pure (b.SendMarketUpdate ⟨.ADD, new_market_order_id, ticker_id, side, price, leaves_qty,
      priority⟩)
  else pure b

/-- Method `CancelOrder(client_id, order_id, ticker_id)`. -/
def CancelOrder (b : CMEOrderBook) (client_id order_id ticker_id : Nat) :
    Except Fault CMEOrderBook := do
  let exchange_order ← (if client_id < ME_MAX_NUM_CLIENTS then do
      arrayAt ME_MAX_ORDER_IDS order_id
      pure (b.m_cidOidToOrder client_id order_id)
    else pure none : Except Fault (Option Nat))
  match exchange_order with
  | none =>
    pure (b.SendClientResponse ⟨.CANCEL_REJECTED, client_id, ticker_id, order_id, OrderId_INVALID,
      .INVALID, Price_INVALID, Qty_INVALID, Qty_INVALID⟩)
  | some o =>
    let response : SMEClientResponse := ⟨.CANCELED, client_id, ticker_id, order_id,
      (b.order o).marketOrderId, (b.order o).side, (b.order o).price, Qty_INVALID, (b.order o).qty⟩
    let update : SMEMarketUpdate := ⟨.CANCEL, (b.order o).marketOrderId, ticker_id,
      (b.order o).side, (b.order o).price, 0, (b.order o).priority⟩
    let b ← b.RemoveOrder o
    pure ((b.SendMarketUpdate update).SendClientResponse response)

end CMEOrderBook

end Exchange

namespace Common

namespace CMemoryPool

variable {T : Type}

/-- The pool after `Deallocate` of slot `i`. -/
def release (p : CMemoryPool T) (i : Nat) : CMemoryPool T :=
  { p with m_store := Function.update p.m_store i ⟨(p.m_store i).object, true⟩ }

end CMemoryPool

end Common

namespace Exchange

section Links

variable {α : Type}

/-- Two nodes are linked: the successor of `x` is `y` and the predecessor of `y` is `x`. -/
def Lk (nxt prv : α → Option α) (x y : α) : Prop := nxt x = some y ∧ prv y = some x

/-- A closed circular doubly-linked list through the nodes `l`, in this order: every node is
linked to the following one and the last node is linked back to the first. -/
def Cyc (nxt prv : α → Option α) : List α → Prop
  | [] => True
  | a :: l => List.Chain (Lk nxt prv) a (l ++ [a])

end Links

end Exchange

namespace Exchange

open Common

namespace CMEOrderBook

/-- The busy flag of an order slot. -/
def ofree (b : CMEOrderBook) (p : Nat) : Bool := (b.m_orderPool.m_store p).isFree

/-- The busy flag of a price-level slot. -/
def lfree (b : CMEOrderBook) (p : Nat) : Bool := (b.m_ordersAtPricePool.m_store p).isFree

/-- The `pNextOrder` link of every order slot. -/
def oNext (b : CMEOrderBook) : Nat → Option Nat := fun p => (b.order p).pNextOrder

/-- The `pPrevOrder` link of every order slot. -/
def oPrev (b : CMEOrderBook) : Nat → Option Nat := fun p => (b.order p).pPrevOrder

/-- The `pNextEntry` link of every price-level slot. -/
def lNext (b : CMEOrderBook) : Nat → Option Nat := fun p => (b.level p).pNextEntry

/-- The `pPrevEntry` link of every price-level slot. -/
def lPrev (b : CMEOrderBook) : Nat → Option Nat := fun p => (b.level p).pPrevEntry

end CMEOrderBook

open CMEOrderBook

/-- An order without its two links: what `pPrevOrder`/`pNextOrder` writes leave unchanged. -/
def SMEOrder.unlink (o : SMEOrder) : SMEOrder := { o with pPrevOrder := none, pNextOrder := none }

/-- A price level without its two links. -/
def SMEOrdersAtPrice.unlink (l : SMEOrdersAtPrice) : SMEOrdersAtPrice :=
  { l with pPrevEntry := none, pNextEntry := none }

/-- The side an aggressor of side `s` trades against. -/
def opp : ESide → ESide
  | .BUY => .SELL
  | _ => .BUY

/-- Price `p` is strictly more aggressive than `q` on side `s`: higher for BUY, lower for SELL. -/
def better (s : ESide) (p q : Int) : Prop := if s = .BUY then q < p else p < q

instance (s : ESide) (p q : Int) : Decidable (better s p q) := by
  unfold better
  infer_instance

/-- A side of the book as a listing: the live levels from the best one outward, each with its
orders from the head (oldest) to the tail. -/
abbrev SideList := List (Nat × List Nat)

/-- All order pointers of a listing, level by level from the best level outward and inside a
level from head to tail. -/
def SideList.orders (L : SideList) : List Nat := L.flatMap Prod.snd

/-- All level pointers of a listing, best first. -/
def SideList.levels (L : SideList) : List Nat := L.map Prod.fst

/-- A pool of capacity `n` whose cursor is in range and on a free slot. -/
def PoolOK {T : Type} (p : CMemoryPool T) (n : Nat) : Prop :=
  p.numElems = n ∧ p.m_nextFreeIndex < n ∧ (p.m_store p.m_nextFreeIndex).isFree = true

/-- A pool with a free slot besides the one under the cursor: the next `Allocate` finds a new
free slot for the cursor. -/
def Spare {T : Type} (p : CMemoryPool T) : Prop :=
  ∃ j, j < p.numElems ∧ j ≠ p.m_nextFreeIndex ∧ (p.m_store j).isFree = true

/-- Pool `p2` has the capacity and the cursor of `p` and every slot that is free in `p` is free
in `p2`. -/
def PoolLe {T : Type} (p p2 : CMemoryPool T) : Prop :=
  p2.numElems = p.numElems ∧ p2.m_nextFreeIndex = p.m_nextFreeIndex ∧
    ∀ q, (p.m_store q).isFree = true → (p2.m_store q).isFree = true

/-- A resting order of side `s` at price `price`: allocated, with its client ids in range. -/
structure OrderOK (b : CMEOrderBook) (s : ESide) (price : Int) (o : Nat) : Prop where
  lt : o < ME_MAX_ORDER_IDS
  busy : b.ofree o = false
  side : (b.order o).side = s
  price : (b.order o).price = price
  cid : (b.order o).clientId < ME_MAX_NUM_CLIENTS
  coid : (b.order o).clientOrderId < ME_MAX_ORDER_IDS

/-- A live level `lp` of side `s` whose FIFO queue is `os`: allocated, `pFirstMeOrder` is the
head of `os`, the orders form a closed circular doubly-linked list, they all carry the level's
side and price, and the level sits in its slot of the price index. -/
structure LevelOK (b : CMEOrderBook) (s : ESide) (lp : Nat) (os : List Nat) : Prop where
  lt : lp < ME_MAX_PRICE_LEVELS
  busy : b.lfree lp = false
  side : (b.level lp).side = s
  ne : os ≠ []
  first : (b.level lp).pFirstMeOrder = os.head?
  cyc : Cyc b.oNext b.oPrev os
  ord : ∀ o ∈ os, OrderOK b s (b.level lp).price o
  idx : b.m_priceOrdersAtPrice (PriceToIndex (b.level lp).price) = some lp

/-- A side of the book: the best pointer is the head of the listing (null when there is none),
the levels form a closed circular doubly-linked list in listing order, every level is well
formed, and prices get strictly less aggressive along the listing. -/
structure SideOK (b : CMEOrderBook) (s : ESide) (L : SideList) : Prop where
  best : b.bestOf s = L.levels.head?
  cyc : Cyc b.lNext b.lPrev L.levels
  lvl : ∀ x ∈ L, LevelOK b s x.1 x.2
  sorted : L.Pairwise (fun x y => better s (b.level x.1).price (b.level y.1).price)

/-- The structural invariant of the book seen from side `s`: `own` lists side `s` and `other`
the opposite side. No level and no order is listed twice, every entry of the price index is a
listed level in its own slot, and both pools have their cursor on a free slot. -/
structure Struct (b : CMEOrderBook) (s : ESide) (own other : SideList) : Prop where
  ownOK : SideOK b s own
  otherOK : SideOK b (opp s) other
  lnodup : (own ++ other).levels.Nodup
  onodup : (own ++ other).orders.Nodup
  idx : ∀ k lp, b.m_priceOrdersAtPrice k = some lp →
    lp ∈ (own ++ other).levels ∧ PriceToIndex (b.level lp).price = k
  lpool : PoolOK b.m_ordersAtPricePool ME_MAX_PRICE_LEVELS
  opool : PoolOK b.m_orderPool ME_MAX_ORDER_IDS

/-- Every listed order has a positive quantity. -/
def QtyPos (b : CMEOrderBook) (all : List Nat) : Prop := ∀ q ∈ all, 0 < (b.order q).qty

/-- The client-order index only refers to listed orders, under their own ids. -/
def CidOk (b : CMEOrderBook) (all : List Nat) : Prop :=
  ∀ c o p, b.m_cidOidToOrder c o = some p →
    p ∈ all ∧ (b.order p).clientId = c ∧ (b.order p).clientOrderId = o

/-- The FILLED response to the aggressor for a match of its remaining `leaves` against the
resting order `o`. -/
def aggressorFilled (ticker_id client_id : Nat) (side : ESide)
    (client_order_id new_market_order_id : Nat) (o : SMEOrder) (leaves : Nat) :
    SMEClientResponse :=
  ⟨.FILLED, client_id, ticker_id, client_order_id, new_market_order_id, side, o.price,
    min leaves o.qty, leaves - min leaves o.qty⟩

/-- The FILLED response to the owner of the resting order `o` for that match. -/
def restingFilled (ticker_id : Nat) (o : SMEOrder) (leaves : Nat) : SMEClientResponse :=
  ⟨.FILLED, o.clientId, ticker_id, o.clientOrderId, o.marketOrderId, o.side, o.price,
    min leaves o.qty, o.qty - min leaves o.qty⟩

/-- The TRADE update of that match. -/
def tradeUpdate (ticker_id : Nat) (side : ESide) (o : SMEOrder) (leaves : Nat) :
    SMEMarketUpdate :=
  ⟨.TRADE, OrderId_INVALID, ticker_id, side, o.price, min leaves o.qty, Priority_INVALID⟩

/-- The update on the resting order after that match: CANCEL when nothing is left of it, MODIFY
with the remaining quantity otherwise. -/
def lifecycleUpdate (ticker_id : Nat) (o : SMEOrder) (leaves : Nat) : SMEMarketUpdate :=
  if o.qty - min leaves o.qty = 0 then
    ⟨.CANCEL, o.marketOrderId, ticker_id, o.side, o.price, o.qty, Priority_INVALID⟩
  else
    ⟨.MODIFY, o.marketOrderId, ticker_id, o.side, o.price, o.qty - min leaves o.qty, o.priority⟩

/-- The four records of one match, in the order they are sent. -/
def matchRecords (ticker_id client_id : Nat) (side : ESide)
    (client_order_id new_market_order_id : Nat) (o : SMEOrder) (leaves : Nat) : List Emitted :=
  [.response (aggressorFilled ticker_id client_id side client_order_id new_market_order_id o
      leaves),
    .response (restingFilled ticker_id o leaves),
    .update (tradeUpdate ticker_id side o leaves),
    .update (lifecycleUpdate ticker_id o leaves)]

/-- Price-time crossing of an aggressor with limit `price` and `leaves` to fill against the
resting orders `os` of the opposite side, best level first and oldest first: every matched
order with what the aggressor had left when it met that order. -/
def crossFills (side : ESide) (price : Int) : Nat → List SMEOrder → List (SMEOrder × Nat)
  | _, [] => []
  | leaves, o :: rest =>
    if leaves = 0 ∨ limitStops side price o.price = true then []
    else (o, leaves) :: crossFills side price (leaves - o.qty) rest

/-- What the aggressor has left after that crossing. -/
def crossLeaves (side : ESide) (price : Int) : Nat → List SMEOrder → Nat
  | leaves, [] => leaves
  | leaves, o :: rest =>
    if leaves = 0 ∨ limitStops side price o.price = true then leaves
    else crossLeaves side price (leaves - o.qty) rest

/-- How many resting orders that crossing fills completely. -/
def crossDone (side : ESide) (price : Int) : Nat → List SMEOrder → Nat
  | _, [] => 0
  | leaves, o :: rest =>
    if leaves = 0 ∨ limitStops side price o.price = true then 0
    else if o.qty ≤ leaves then crossDone side price (leaves - o.qty) rest + 1
    else 0

/-- A listing without its first `k` orders; a level that loses its last order goes too. -/
def SideList.dropOrders : Nat → SideList → SideList
  | 0, L => L
  | _ + 1, [] => []
  | k + 1, (_, []) :: B => SideList.dropOrders k B
  | k + 1, (_, [_]) :: B => SideList.dropOrders k B
  | k + 1, (lp, _ :: o :: os) :: B => SideList.dropOrders k ((lp, o :: os) :: B)

/-- The orders of a listing as they stand in book `b`, without their links. -/
def snapshots (b : CMEOrderBook) (L : SideList) : List SMEOrder :=
  L.orders.map fun q => (b.order q).unlink

/-- The state of `Match` after the quantity write, the two FILLED responses and the TRADE
update. -/
def CMEOrderBook.matchPre (b : CMEOrderBook) (ticker_id client_id : Nat) (side : ESide)
    (client_order_id new_market_order_id : Nat) (itr : Nat) (leaves_qty : Nat) : CMEOrderBook :=
  let order_qty := (b.order itr).qty
  let fill_qty := min leaves_qty order_qty
  let leaves_qty := leaves_qty - fill_qty
  let b := b.setOrder itr fun o => { o with qty := o.qty - fill_qty }
  let b := b.SendClientResponse ⟨.FILLED, client_id, ticker_id, client_order_id,
    new_market_order_id, side, (b.order itr).price, fill_qty, leaves_qty⟩
  let b := b.SendClientResponse ⟨.FILLED, (b.order itr).clientId, ticker_id,
    (b.order itr).clientOrderId, (b.order itr).marketOrderId, (b.order itr).side,
    (b.order itr).price, fill_qty, (b.order itr).qty⟩
  b.SendMarketUpdate ⟨.TRADE, OrderId_INVALID, ticker_id, side, (b.order itr).price,
    fill_qty, Priority_INVALID⟩

/-- Order `q` has in `b2` the client ids and the priority it has in `b`, and a positive
quantity if it has one in `b`. -/
def Keeps (b b2 : CMEOrderBook) (q : Nat) : Prop :=
  (b2.order q).clientId = (b.order q).clientId ∧
  (b2.order q).clientOrderId = (b.order q).clientOrderId ∧
  (b2.order q).priority = (b.order q).priority ∧
  (0 < (b.order q).qty → 0 < (b2.order q).qty)

/-- Every listed order sits in the client-order index under its own ids. -/
def CidFull (b : CMEOrderBook) (all : List Nat) : Prop :=
  ∀ p ∈ all, b.m_cidOidToOrder (b.order p).clientId (b.order p).clientOrderId = some p

/-- The priorities strictly increase along the queue of every level, from `pFirstMeOrder` to
its `pPrevOrder`. -/
def PrioInc (b : CMEOrderBook) (L : SideList) : Prop :=
  ∀ x ∈ L, (x.2.map fun q => (b.order q).priority).Pairwise (· < ·)

/-- Every listed order has a priority below `n`. -/
def PrioBelow (b : CMEOrderBook) (all : List Nat) (n : Nat) : Prop :=
  ∀ q ∈ all, (b.order q).priority < n

/-- Listing `L2` has only levels of `L`, each with some of its orders in their old sequence. -/
def Shrunk (L L2 : SideList) : Prop :=
  ∀ x ∈ L2, ∃ y ∈ L, x.1 = y.1 ∧ x.2.Sublist y.2

/-- Listing `L2` is `L` without order `o`; the level of `o` goes when `o` was alone in it. -/
def Erased (o : Nat) (L L2 : SideList) : Prop :=
  ∃ A lp os1 os2 B, L = A ++ (lp, os1 ++ o :: os2) :: B ∧
    L2 = A ++ (if os1 ++ os2 = [] then B else (lp, os1 ++ os2) :: B)

/-- What `RemoveOrder` of order `o` does to the rest of book `b`: the other orders keep their
fields and flags, the entry of `o` in the client-order index is cleared, no slot gets busy and
no level changes its price. -/
structure Removed (b b2 : CMEOrderBook) (o : Nat) : Prop where
  order : ∀ q, q ≠ o → (b2.order q).unlink = (b.order q).unlink
  free : ∀ q, q ≠ o → b2.ofree q = b.ofree q
  cidOid : b2.m_cidOidToOrder = Function.update b.m_cidOidToOrder (b.order o).clientId
    (Function.update (b.m_cidOidToOrder (b.order o).clientId) (b.order o).clientOrderId none)
  nextId : b2.m_nextMarketOrderId = b.m_nextMarketOrderId
  lpool : PoolLe b.m_ordersAtPricePool b2.m_ordersAtPricePool
  opool : PoolLe b.m_orderPool b2.m_orderPool
  price : ∀ q, (b2.level q).price = (b.level q).price

/-- What a partial fill of the resting order `o` does to book `b`: only the quantity of `o`
changes, and it stays positive. -/
structure Reduced (b b2 : CMEOrderBook) (o : Nat) : Prop where
  order : ∀ q, q ≠ o → (b2.order q).unlink = (b.order q).unlink
  self : ∃ L, L < (b.order o).qty ∧ b2.order o = { b.order o with qty := (b.order o).qty - L }
  free : ∀ q, b2.ofree q = b.ofree q
  cidOid : b2.m_cidOidToOrder = b.m_cidOidToOrder
  nextId : b2.m_nextMarketOrderId = b.m_nextMarketOrderId
  lpool : PoolLe b.m_ordersAtPricePool b2.m_ordersAtPricePool
  opool : PoolLe b.m_orderPool b2.m_orderPool
  price : ∀ q, (b2.level q).price = (b.level q).price

/-- The matching phase seen as a chain of book states: the head order of the best opposite
level is filled completely and removed, again and again, and the last match may leave the head
order partially filled. -/
inductive Crossed (side : ESide) (own : SideList) :
    CMEOrderBook → SideList → CMEOrderBook → SideList → Prop
  | refl (b : CMEOrderBook) (other : SideList) : Crossed side own b other b other
  | full {b b1 b2 : CMEOrderBook} {lp o : Nat} {os : List Nat} {B other2 : SideList} :
    Struct b side own ((lp, o :: os) :: B) → Removed b b1 o →
    Crossed side own b1 (if os = [] then B else (lp, os) :: B) b2 other2 →
    Crossed side own b ((lp, o :: os) :: B) b2 other2
  | part {b b1 : CMEOrderBook} {lp o : Nat} {os : List Nat} {B : SideList} :
    Struct b side own ((lp, o :: os) :: B) → Reduced b b1 o →
    Crossed side own b ((lp, o :: os) :: B) b1 ((lp, o :: os) :: B)

/-- The statements of `AddOrder` after `CheckForMatch`, which run when `leaves_qty` is not
zero: priority, allocation of the order, linking, and the ADD update. -/
def CMEOrderBook.restResidual (b : CMEOrderBook) (client_id client_order_id ticker_id : Nat)
    (side : ESide) (price : Int) (new_market_order_id leaves_qty : Nat) :
    Except Fault CMEOrderBook := do
  let priority ← b.GetNextPriority price
  let a ← b.m_orderPool.Allocate ⟨ticker_id, client_id, client_order_id, new_market_order_id,
    side, price, leaves_qty, priority, none, none⟩
  let b ← AddOrderPtr { b with m_orderPool := a.2 } a.1
  pure (b.SendMarketUpdate ⟨.ADD, new_market_order_id, ticker_id, side, price, leaves_qty,
    priority⟩)

/-- Listing `own2` is listing `own` of side `s` with order `o` placed at `price`: at the tail of
the level of that price when `own` has one, and otherwise alone in a new level that sits after
the levels with a better price and before those with a worse one. -/
def Placed (b : CMEOrderBook) (s : ESide) (price : Int) (o : Nat) (own own2 : SideList) : Prop :=
  (∃ A lp os B, own = A ++ (lp, os) :: B ∧ (b.level lp).price = price ∧
    own2 = A ++ (lp, os ++ [o]) :: B) ∨
  (∃ A B pNew, own = A ++ B ∧ (∀ x ∈ own, (b.level x.1).price ≠ price) ∧
    (∀ x ∈ A, better s (b.level x.1).price price) ∧
    (∀ x ∈ B, better s price (b.level x.1).price) ∧ own2 = A ++ (pNew, [o]) :: B)

/-- The priority `AddOrder` gives to an order that rests at `price` in listing `own`: one more,
on 64 bits, than that of the last order of the level of that price, and 1 when `own` has no
such level. -/
def RestPriority (b : CMEOrderBook) (price : Int) (own : SideList) (prio : Nat) : Prop :=
  (∃ x ∈ own, (b.level x.1).price = price ∧
    ∃ t, x.2.getLast? = some t ∧ prio = ((b.order t).priority + 1) % 2 ^ 64) ∨
  ((∀ x ∈ own, (b.level x.1).price ≠ price) ∧ prio = 1)

/-- The slot of `price` in the price index is empty or holds a level of that very price: no
live level with another price shares the slot. -/
def NoCollision (b : CMEOrderBook) (price : Int) : Prop :=
  ∀ lp, b.m_priceOrdersAtPrice (PriceToIndex price) = some lp → (b.level lp).price = price

/-- The book states reached from an empty book by calls of `AddOrder`, with side BUY or SELL, a
positive quantity and a price that collides with no live level, and calls of `CancelOrder`;
only calls that return count. `Adm b cid coid` is a further condition on a NEW request with
client ids `cid`, `coid` arriving at book `b`. -/
inductive Reachable (Adm : CMEOrderBook → Nat → Nat → Prop) : CMEOrderBook → Prop
  | init (t : Nat) : Reachable Adm (CMEOrderBook.init t)
  | add {b b2 : CMEOrderBook} (cid coid tid : Nat) (side : ESide) (price : Int) (qty : Nat) :
    Reachable Adm b → (side = .BUY ∨ side = .SELL) → 0 < qty → NoCollision b price →
    Adm b cid coid → b.AddOrder cid coid tid side price qty = .ok b2 → Reachable Adm b2
  | cancel {b b2 : CMEOrderBook} (cid oid tid : Nat) :
    Reachable Adm b → b.CancelOrder cid oid tid = .ok b2 → Reachable Adm b2

/-- Scenario S1: `NEW(cid=0, coid=1, BUY, price=100, qty=10)` on the empty book of ticker 0. -/
def scenarioS1 : Except Fault CMEOrderBook := (CMEOrderBook.init 0).AddOrder 0 1 0 .BUY 100 10

/-- Scenario S2: after S1, `NEW(cid=1, coid=1, SELL, price=100, qty=4)`. -/
def scenarioS2 : Except Fault CMEOrderBook :=
  scenarioS1 >>= fun b => b.AddOrder 1 1 0 .SELL 100 4

/-- Scenario S3: after S1, `NEW(cid=1, coid=2, SELL, price=100, qty=15)`. -/
def scenarioS3 : Except Fault CMEOrderBook :=
  scenarioS1 >>= fun b => b.AddOrder 1 2 0 .SELL 100 15

/-- The records a scenario has handed to the matching engine, when it ran to its end. -/
def emittedOf (r : Except Fault CMEOrderBook) : Option (List Emitted) :=
  match r with
  | .ok b => some b.emitted
  | .error _ => none

/-- The book of scenario S1. -/
def bookS1 : CMEOrderBook :=
  match scenarioS1 with
  | .ok b => b
  | .error _ => CMEOrderBook.init 0

/-- Scenario S4, first request: `NEW(cid=0, coid=1, BUY, 100, 5)` on the empty book. -/
def bookS4a : CMEOrderBook :=
  match (CMEOrderBook.init 0).AddOrder 0 1 0 .BUY 100 5 with
  | .ok b => b
  | .error _ => CMEOrderBook.init 0

/-- Scenario S4, second request: `NEW(cid=0, coid=2, BUY, 100, 3)`. -/
def bookS4b : CMEOrderBook :=
  match bookS4a.AddOrder 0 2 0 .BUY 100 3 with
  | .ok b => b
  | .error _ => CMEOrderBook.init 0

/-- Scenario S4, third request: `CANCEL(cid=0, coid=1)`. -/
def bookS4 : CMEOrderBook :=
  match bookS4b.CancelOrder 0 1 0 with
  | .ok b => b
  | .error _ => CMEOrderBook.init 0

/-- No order that rests in book `b` has the client id `cid` together with the client order id
`coid`: a NEW request with these ids reuses the ids of no resting order. The resting orders are
those of the listings of the book. -/
def NoReuse (b : CMEOrderBook) (cid coid : Nat) : Prop :=
  ∀ bids asks o, Struct b .BUY bids asks → o ∈ (bids ++ asks).orders →
    (b.order o).clientId = cid → (b.order o).clientOrderId ≠ coid

/-- Book `b` holds one resting order and nothing else: a bid at price 100 of client 0, under the
client order id `k % 2` and with priority `k`. Every other slot of the order pool is free and
the level pool has a free slot to spare. -/
def LoneBid (b : CMEOrderBook) (k : Nat) : Prop :=
  ∃ lp o, Struct b .BUY [(lp, [o])] [] ∧ (b.level lp).price = 100 ∧
    (b.order o).priority = k ∧ (b.order o).clientId = 0 ∧ (b.order o).clientOrderId = k % 2 ∧
    b.m_cidOidToOrder 0 (k % 2) = some o ∧
    (∀ c d p, b.m_cidOidToOrder c d = some p → p = o ∧ c = 0 ∧ d = k % 2) ∧
    (∀ q, q < ME_MAX_ORDER_IDS → q ≠ o → b.ofree q = true) ∧
    Spare b.m_ordersAtPricePool

/-- Book `b` holds two resting orders and nothing else: two bids of client 0 in one level at
price 100, the head under the client order id `k % 2` with priority `k`, the tail under
`(k + 1) % 2` with the priority that the 64-bit increment of `k` gives. -/
def TwoBids (b : CMEOrderBook) (k : Nat) : Prop :=
  ∃ lp o o2, Struct b .BUY [(lp, [o, o2])] [] ∧ (b.level lp).price = 100 ∧
    (b.order o).priority = k ∧ (b.order o2).priority = (k + 1) % 2 ^ 64 ∧
    (b.order o).clientId = 0 ∧ (b.order o).clientOrderId = k % 2 ∧
    (b.order o2).clientId = 0 ∧ (b.order o2).clientOrderId = (k + 1) % 2 ∧
    b.m_cidOidToOrder 0 (k % 2) = some o ∧ b.m_cidOidToOrder 0 ((k + 1) % 2) = some o2 ∧
    (∀ c d p, b.m_cidOidToOrder c d = some p →
      (p = o ∧ c = 0 ∧ d = k % 2) ∨ (p = o2 ∧ c = 0 ∧ d = (k + 1) % 2)) ∧
    (∀ q, q < ME_MAX_ORDER_IDS → q ≠ o → q ≠ o2 → b.ofree q = true) ∧
    Spare b.m_ordersAtPricePool

end Exchange

namespace Exchange

/-- Wire record of the market data streams: `struct MDPMarketUpdate`, a `size_t` sequence
number in front of the update. -/
structure MDPMarketUpdate where
  seqNum : Nat
  me_market_update_ : SMEMarketUpdate
  deriving DecidableEq, Repr

end Exchange

namespace Trading

open Common Exchange

/-- Container `QueuedMarketUpdates`, a `std::map<size_t, SMEMarketUpdate>`: its entries in
iteration order, which is the increasing order of the keys. -/
abbrev QueuedMarketUpdates := List (Nat × SMEMarketUpdate)

/-- The map holds an entry for `key`: `find(key) != end()`. -/
def mapHas (m : QueuedMarketUpdates) (key : Nat) : Bool := m.any fun e => e.1 == key

/-- Assignment `m[key] = value`: the entry of `key` is replaced, or a new entry takes its
place in the order of the keys. -/
def mapAssign : QueuedMarketUpdates → Nat → SMEMarketUpdate → QueuedMarketUpdates
  | [], key, value => [(key, value)]
  | e :: m, key, value =>
    if key < e.1 then (key, value) :: e :: m
    else if key = e.1 then (key, value) :: m
    else e :: mapAssign m key value

/-- The market data consumer `CMarketDataConsumer`. The lock free queue `m_pIncomingMdUpdates`
is the list of the updates written to it, in call order; of the snapshot socket only
membership of the snapshot group is kept. -/
structure CMarketDataConsumer where
  m_nextExpIncSeqNum : Nat
  m_pIncomingMdUpdates : List SMEMarketUpdate
  m_isInRecovery : Bool
  m_snapshotQueuedMsgs : QueuedMarketUpdates
  m_incrementalQueuedMsgs : QueuedMarketUpdates
  /-- Whether `m_snapshotMcastSocket` has joined the snapshot stream. -/
  m_snapshotMcastSocket : Bool
  deriving DecidableEq, Repr

namespace CMarketDataConsumer

/-- The consumer after its constructor: the default member initialisers. -/
def init : CMarketDataConsumer :=
  { m_nextExpIncSeqNum := 1
    m_pIncomingMdUpdates := []
    m_isInRecovery := false
    m_snapshotQueuedMsgs := []
    m_incrementalQueuedMsgs := []
    m_snapshotMcastSocket := false }

/-- Method `startSnapshotSync`: both containers are cleared and the snapshot socket joins the
snapshot stream. -/
def startSnapshotSync (c : CMarketDataConsumer) : CMarketDataConsumer :=
  { c with m_snapshotQueuedMsgs := [], m_incrementalQueuedMsgs := [],
           m_snapshotMcastSocket := true }

/-- An update that `checkSnapshotSync` pushes to `final_events`: neither SNAPSHOT_START nor
SNAPSHOT_END. -/
def isEvent (u : SMEMarketUpdate) : Bool :=
  u.type != .SNAPSHOT_START && u.type != .SNAPSHOT_END

/-- The loop of `checkSnapshotSync` over `m_snapshotQueuedMsgs`, from the values
`next_snapshot_seq` and `final_events`; returns `have_complete_snapshot` and `final_events`. -/
def snapshotLoop : QueuedMarketUpdates → Nat → List SMEMarketUpdate →
    Bool × List SMEMarketUpdate
  | [], _, final_events => (true, final_events)
  | snapshot_itr :: rest, next_snapshot_seq, final_events =>
    if snapshot_itr.1 ≠ next_snapshot_seq then (false, final_events)
    else snapshotLoop rest ((next_snapshot_seq + 1) % 2 ^ 64)
      (if isEvent snapshot_itr.2 then final_events ++ [snapshot_itr.2] else final_events)

/-- The loop of `checkSnapshotSync` over `m_incrementalQueuedMsgs`, from the values
`m_nextExpIncSeqNum` and `final_events`; returns `have_complete_incremental`,
`m_nextExpIncSeqNum` and `final_events`. -/
def incrementalLoop : QueuedMarketUpdates → Nat → List SMEMarketUpdate →
    Bool × Nat × List SMEMarketUpdate
  | [], nextExpIncSeqNum, final_events => (true, nextExpIncSeqNum, final_events)
  | inc_itr :: rest, nextExpIncSeqNum, final_events =>
    if inc_itr.1 < nextExpIncSeqNum then incrementalLoop rest nextExpIncSeqNum final_events
    else if inc_itr.1 ≠ nextExpIncSeqNum then (false, nextExpIncSeqNum, final_events)
    else incrementalLoop rest ((nextExpIncSeqNum + 1) % 2 ^ 64)
      (if isEvent inc_itr.2 then final_events ++ [inc_itr.2] else final_events)

/-- Method `checkSnapshotSync`. -/
def checkSnapshotSync (c : CMarketDataConsumer) : CMarketDataConsumer :=
  match c.m_snapshotQueuedMsgs.head? with
  | none => c
  | some first_snapshot_msg =>
    if first_snapshot_msg.2.type ≠ .SNAPSHOT_START then { c with m_snapshotQueuedMsgs := [] }
    else
      let s := snapshotLoop c.m_snapshotQueuedMsgs 0 []
      if !s.1 then { c with m_snapshotQueuedMsgs := [] }
      else
        match c.m_snapshotQueuedMsgs.getLast? with
        | none => c
        | some last_snapshot_msg =>
          if last_snapshot_msg.2.type ≠ .SNAPSHOT_END then c
          else
            let r := incrementalLoop c.m_incrementalQueuedMsgs
              ((last_snapshot_msg.2.orderId + 1) % 2 ^ 64) s.2
            if !r.1 then { c with m_nextExpIncSeqNum := r.2.1, m_snapshotQueuedMsgs := [] }
            else
              { c with m_nextExpIncSeqNum := r.2.1
                       m_pIncomingMdUpdates := c.m_pIncomingMdUpdates ++ r.2.2
                       m_snapshotQueuedMsgs := []
                       m_incrementalQueuedMsgs := []
                       m_isInRecovery := false
                       m_snapshotMcastSocket := false }

/-- Method `queueMessage`. -/
def queueMessage (c : CMarketDataConsumer) (is_snapshot : Bool) (request : MDPMarketUpdate) :
    CMarketDataConsumer :=
  let c :=
    if is_snapshot then
      let c := if mapHas c.m_snapshotQueuedMsgs request.seqNum
        then { c with m_snapshotQueuedMsgs := [] } else c
      { c with m_snapshotQueuedMsgs :=
          mapAssign c.m_snapshotQueuedMsgs request.seqNum request.me_market_update_ }
    else
      { c with m_incrementalQueuedMsgs :=
          mapAssign c.m_incrementalQueuedMsgs request.seqNum request.me_market_update_ }
  c.checkSnapshotSync

/-- The body of the `for` loop of `RecvCallback`: one record `request` of the receive
buffer. -/
def recvRecord (c : CMarketDataConsumer) (is_snapshot : Bool) (request : MDPMarketUpdate) :
    CMarketDataConsumer :=
  let already_in_recovery := c.m_isInRecovery
  let c := { c with m_isInRecovery :=
    already_in_recovery || decide (request.seqNum ≠ c.m_nextExpIncSeqNum) }
  if c.m_isInRecovery then
    let c := if !already_in_recovery then c.startSnapshotSync else c
    c.queueMessage is_snapshot request
  else if !is_snapshot then
    { c with m_nextExpIncSeqNum := (c.m_nextExpIncSeqNum + 1) % 2 ^ 64
             m_pIncomingMdUpdates := c.m_pIncomingMdUpdates ++ [request.me_market_update_] }
  else c

/-- Method `RecvCallback` for a socket whose receive buffer holds the records `buffer`;
`is_snapshot` tells whether it is the snapshot socket. -/
def RecvCallback (c : CMarketDataConsumer) (is_snapshot : Bool) (buffer : List MDPMarketUpdate) :
    CMarketDataConsumer :=
  if is_snapshot && !c.m_isInRecovery then c
  else buffer.foldl (fun c request => c.recvRecord is_snapshot request) c

end CMarketDataConsumer

end Trading

namespace Common

/-- Sentinel of `TickerId`, a `uint32_t` (`Types.h`). -/
def TickerId_INVALID : Nat := 2 ^ 32 - 1

end Common

namespace Exchange

open Common

/-- The update `{SNAPSHOT_START, cursor}` of the snapshot synthesizer: the other members keep
their default initialisers. -/
def snapshotStart (cursor : Nat) : SMEMarketUpdate :=
  ⟨.SNAPSHOT_START, cursor, TickerId_INVALID, .INVALID, Price_INVALID, Qty_INVALID,
    Priority_INVALID⟩

/-- The update `{SNAPSHOT_END, cursor}` of the snapshot synthesizer. -/
def snapshotEnd (cursor : Nat) : SMEMarketUpdate :=
  ⟨.SNAPSHOT_END, cursor, TickerId_INVALID, .INVALID, Price_INVALID, Qty_INVALID,
    Priority_INVALID⟩

/-- The CLEAR update of the snapshot synthesizer for one ticker. -/
def clearUpdate (ticker_id : Nat) : SMEMarketUpdate :=
  ⟨.CLEAR, OrderId_INVALID, ticker_id, .INVALID, Price_INVALID, Qty_INVALID, Priority_INVALID⟩

/-- Records numbered from `n` on: the sequence numbers of one stream. -/
def numbered : Nat → List SMEMarketUpdate → List MDPMarketUpdate
  | _, [] => []
  | n, u :: us => ⟨n, u⟩ :: numbered (n + 1) us

end Exchange

namespace Trading

open Common Exchange

/-- An ADD update used as the payload of the incremental record `i` in the scenarios. -/
def addUpdate (i : Nat) : SMEMarketUpdate := ⟨.ADD, i, 0, .BUY, 100, 10, i⟩

/-- The consumer after the datagrams `arrivals`, each holding one record; `true` marks a
datagram of the snapshot socket. -/
def CMarketDataConsumer.receive (c : CMarketDataConsumer)
    (arrivals : List (Bool × MDPMarketUpdate)) : CMarketDataConsumer :=
  arrivals.foldl (fun c a => c.RecvCallback a.1 [a.2]) c

/-- Scenario S6: incrementals 1, 2, 3, then 7, then a snapshot cycle with cursor 5 and the
given body, then incrementals 6, 7, 8. Incremental `i` carries the update `inc i`. -/
def arrivalsS6 (inc : Nat → SMEMarketUpdate) (body : List SMEMarketUpdate) :
    List (Bool × MDPMarketUpdate) :=
  [1, 2, 3, 7].map (fun i => (false, ⟨i, inc i⟩)) ++
    (numbered 0 (snapshotStart 5 :: body ++ [snapshotEnd 5])).map (fun r => (true, r)) ++
    [6, 7, 8].map (fun i => (false, ⟨i, inc i⟩))

/-- Scenario S6 with the incrementals 6, 7, 8 arriving before the SNAPSHOT_END of the
cycle. -/
def arrivalsS6Early (inc : Nat → SMEMarketUpdate) (body : List SMEMarketUpdate) :
    List (Bool × MDPMarketUpdate) :=
  [1, 2, 3, 7].map (fun i => (false, ⟨i, inc i⟩)) ++
    (numbered 0 (snapshotStart 5 :: body)).map (fun r => (true, r)) ++
    [6, 7, 8].map (fun i => (false, ⟨i, inc i⟩)) ++
    [(true, ⟨body.length + 1, snapshotEnd 5⟩)]

/-- A consumer in recovery that holds a complete snapshot cycle with cursor 5 and, of the
incrementals after the cursor, only number 7. -/
def gapConsumer : CMarketDataConsumer :=
  { m_nextExpIncSeqNum := 4
    m_pIncomingMdUpdates := [addUpdate 1, addUpdate 2, addUpdate 3]
    m_isInRecovery := true
    m_snapshotQueuedMsgs := [(0, snapshotStart 5), (1, clearUpdate 0), (2, snapshotEnd 5)]
    m_incrementalQueuedMsgs := [(7, addUpdate 7)]
    m_snapshotMcastSocket := true }

/-- A consumer in recovery that holds a complete snapshot cycle with cursor 5 and the
incrementals 4, 6 and 7. -/
def spliceConsumer : CMarketDataConsumer :=
  { gapConsumer with
    m_incrementalQueuedMsgs := [(4, addUpdate 4), (6, addUpdate 6), (7, addUpdate 7)] }

/-- A consumer in recovery that holds a complete snapshot cycle with cursor 5 and one queued
incremental, number 6, whose update is a SNAPSHOT_START. -/
def sentinelConsumer : CMarketDataConsumer :=
  { gapConsumer with m_incrementalQueuedMsgs := [(6, snapshotStart 0)] }

/-- A consumer in recovery that holds a complete snapshot cycle whose cursor is the last
64-bit value, and the queued incremental 3. -/
def wrapConsumer : CMarketDataConsumer :=
  { gapConsumer with
    m_snapshotQueuedMsgs := [(0, snapshotStart (2 ^ 64 - 1)), (1, snapshotEnd (2 ^ 64 - 1))]
    m_incrementalQueuedMsgs := [(3, addUpdate 3)] }

end Trading

namespace Trading

open Common Exchange

/-- The representation of a `std::map<size_t, _>`: the keys strictly increase along the
entries and fit 64 bits. -/
def IsMap (q : QueuedMarketUpdates) : Prop :=
  q.Pairwise (fun a b => a.1 < b.1) ∧ ∀ e ∈ q, e.1 < 2 ^ 64

/-- The updates of the entries that `checkSnapshotSync` forwards: all but SNAPSHOT_START and
SNAPSHOT_END, in the order of the entries. -/
def events (q : QueuedMarketUpdates) : List SMEMarketUpdate :=
  (q.map Prod.snd).filter CMarketDataConsumer.isEvent

/-- A complete snapshot cycle with cursor `cur`: the keys are 0, 1, ..., n, the first entry is
SNAPSHOT_START, and the last one is SNAPSHOT_END and carries `cur` as its order id. -/
def Cycle (q : QueuedMarketUpdates) (cur : Nat) : Prop :=
  q.map Prod.fst = List.range q.length ∧
  (∃ first, q.head? = some first ∧ first.2.type = .SNAPSHOT_START) ∧
  ∃ last, q.getLast? = some last ∧ last.2.type = .SNAPSHOT_END ∧ last.2.orderId = cur

/-- The queued incrementals after the cursor `cur`. -/
def after (q : QueuedMarketUpdates) (cur : Nat) : QueuedMarketUpdates :=
  q.filter fun e => decide (cur < e.1)

end Trading

namespace Trading

open Common Exchange

/-- The container that holds the updates `us` under the keys `n`, `n + 1`, ... -/
def entriesFrom (n : Nat) (us : List SMEMarketUpdate) : QueuedMarketUpdates :=
  (numbered n us).map fun r => (r.seqNum, r.me_market_update_)

end Trading

namespace Common

/-- Number of instruments: `ME_MAX_TICKERS` (`Types.h`). -/
def ME_MAX_TICKERS : Nat := 8

end Common

namespace Exchange

open Common

/-- The default member initialisers of `SMEMarketUpdate`: what `T()` is in the pool of the
snapshot synthesizer. -/
def SMEMarketUpdate.dflt : SMEMarketUpdate :=
  ⟨.INVALID, OrderId_INVALID, TickerId_INVALID, .INVALID, Price_INVALID, Qty_INVALID,
    Priority_INVALID⟩

/-- The snapshot synthesizer `CSnapshotSynthesizer`: the image `m_tickerOrders` (by ticker id
and order id, a pointer into `m_orderPool` or `nullptr`), the last incremental sequence number
and the pool of the stored updates. -/
structure CSnapshotSynthesizer where
  m_tickerOrders : Nat → Nat → Option Nat
  m_lastIncSeqNum : Nat
  m_orderPool : CMemoryPool SMEMarketUpdate

namespace CSnapshotSynthesizer

/-- The constructor. It does not write `m_tickerOrders`, which keeps the contents
`tickerOrders` of the storage the object is built in. -/
def init (tickerOrders : Nat → Nat → Option Nat) : CSnapshotSynthesizer :=
  { m_tickerOrders := tickerOrders
    m_lastIncSeqNum := 0
    m_orderPool := CMemoryPool.init ME_MAX_ORDER_IDS SMEMarketUpdate.dflt }

/-- The synthesizer constructed in zero-filled storage: every pointer of the image is
`nullptr`. -/
def fresh : CSnapshotSynthesizer := init fun _ _ => none

/-- Assignment `orders->at(order_id) = v` for the row `orders` of ticker `ticker_id`. -/
def setOrder (s : CSnapshotSynthesizer) (ticker_id order_id : Nat) (v : Option Nat) :
    CSnapshotSynthesizer :=
  let row := Function.update (s.m_tickerOrders ticker_id) order_id v
  { s with m_tickerOrders := Function.update s.m_tickerOrders ticker_id row }

/-- The `switch` of `AddToSnapshot` on the type of the update. -/
def applyUpdate (s : CSnapshotSynthesizer) (me_market_update : SMEMarketUpdate) :
    Except Fault CSnapshotSynthesizer :=
  match me_market_update.type with
  | .ADD => do
    arrayAt ME_MAX_ORDER_IDS me_market_update.orderId
    match s.m_tickerOrders me_market_update.tickerId me_market_update.orderId with
    | some _ => .error .assertFailed
    | none =>
      let (p, pool) ← s.m_orderPool.Allocate me_market_update
      pure ({ s with m_orderPool := pool }.setOrder me_market_update.tickerId
        me_market_update.orderId (some p))
  | .MODIFY => do
    arrayAt ME_MAX_ORDER_IDS me_market_update.orderId
    match s.m_tickerOrders me_market_update.tickerId me_market_update.orderId with
    | none => .error .assertFailed
    | some order =>
      if (s.m_orderPool.obj order).orderId ≠ me_market_update.orderId then .error .assertFailed
      else if (s.m_orderPool.obj order).side ≠ me_market_update.side then .error .assertFailed
      else
        pure { s with m_orderPool := s.m_orderPool.modify order fun o =>
          { o with qty := me_market_update.qty, price := me_market_update.price } }
  | .CANCEL => do
    arrayAt ME_MAX_ORDER_IDS me_market_update.orderId
    match s.m_tickerOrders me_market_update.tickerId me_market_update.orderId with
    | none => .error .assertFailed
    | some order =>
      if (s.m_orderPool.obj order).orderId ≠ me_market_update.orderId then .error .assertFailed
      else if (s.m_orderPool.obj order).side ≠ me_market_update.side then .error .assertFailed
      else do
        let pool ← s.m_orderPool.Deallocate order
        pure ({ s with m_orderPool := pool }.setOrder me_market_update.tickerId
          me_market_update.orderId none)
  | .SNAPSHOT_START => pure s
  | .CLEAR => pure s
  | .SNAPSHOT_END => pure s
  | .TRADE => pure s
  | .INVALID => pure s

/-- Method `AddToSnapshot`. -/
def AddToSnapshot (s : CSnapshotSynthesizer) (market_update : MDPMarketUpdate) :
    Except Fault CSnapshotSynthesizer := do
  arrayAt ME_MAX_TICKERS market_update.me_market_update_.tickerId
  let s ← s.applyUpdate market_update.me_market_update_
  if market_update.seqNum ≠ (s.m_lastIncSeqNum + 1) % 2 ^ 64 then .error .assertFailed
  else pure { s with m_lastIncSeqNum := market_update.seqNum }

/-- The `for` loop of `Run` over the records `updates` of the queue `m_snapshotMdUpdates`. -/
def drain : CSnapshotSynthesizer → List MDPMarketUpdate → Except Fault CSnapshotSynthesizer
  | s, [] => .ok s
  | s, market_update :: updates =>
    match s.AddToSnapshot market_update with
    | .ok s1 => drain s1 updates
    | .error e => .error e

/-- The updates that `PublishSnapshot` sends for the instrument `ticker_id`: a CLEAR and then
the stored update of every order of the row, by order id. -/
def tickerRecords (s : CSnapshotSynthesizer) (ticker_id : Nat) : List SMEMarketUpdate :=
  clearUpdate ticker_id ::
    (List.range ME_MAX_ORDER_IDS).filterMap fun order_id =>
      (s.m_tickerOrders ticker_id order_id).map s.m_orderPool.obj

/-- Method `PublishSnapshot`: the records it sends on the snapshot socket, in order. The
counter `snapshot_size` numbers them from 0. -/
def PublishSnapshot (s : CSnapshotSynthesizer) : List MDPMarketUpdate :=
  numbered 0 (snapshotStart s.m_lastIncSeqNum ::
    (List.range ME_MAX_TICKERS).flatMap s.tickerRecords ++ [snapshotEnd s.m_lastIncSeqNum])

/-- The image of the synthesizer: the stored update of each ticker id and order id. -/
def image (s : CSnapshotSynthesizer) : Nat → Nat → Option SMEMarketUpdate :=
  fun ticker_id order_id => (s.m_tickerOrders ticker_id order_id).map s.m_orderPool.obj

/-- The effect of the `switch` of `AddToSnapshot` on the image: ADD stores the update, MODIFY
replaces the quantity and the price of the stored update, CANCEL removes it, every other type
changes nothing. -/
def imageStep (img : Nat → Nat → Option SMEMarketUpdate) (u : SMEMarketUpdate) :
    Nat → Nat → Option SMEMarketUpdate :=
  match u.type with
  | .ADD => Function.update img u.tickerId (Function.update (img u.tickerId) u.orderId (some u))
  | .MODIFY =>
    Function.update img u.tickerId (Function.update (img u.tickerId) u.orderId
      ((img u.tickerId u.orderId).map fun o => { o with qty := u.qty, price := u.price }))
  | .CANCEL => Function.update img u.tickerId (Function.update (img u.tickerId) u.orderId none)
  | _ => img

/-- Whether the synthesizer, from its fresh state, takes the updates `us`, numbered from 1 as
the publisher numbers them, without a fault. -/
def accepts (us : List SMEMarketUpdate) : Bool := (fresh.drain (numbered 1 us)).toBool

/-- Well-formed image: a pointer of the image is inside the arrays, refers to a busy slot
of the pool that no other pointer refers to, and the update stored there is an ADD with the
ticker id and the order id of its place. -/
structure ImageOK (s : CSnapshotSynthesizer) : Prop where
  bounds : ∀ t id p, s.m_tickerOrders t id = some p → t < ME_MAX_TICKERS ∧ id < ME_MAX_ORDER_IDS
  busy : ∀ t id p, s.m_tickerOrders t id = some p → (s.m_orderPool.m_store p).isFree = false
  inj : ∀ t id t2 id2 p, s.m_tickerOrders t id = some p → s.m_tickerOrders t2 id2 = some p →
    t = t2 ∧ id = id2
  keyed : ∀ t id p, s.m_tickerOrders t id = some p →
    (s.m_orderPool.obj p).type = .ADD ∧ (s.m_orderPool.obj p).tickerId = t ∧
      (s.m_orderPool.obj p).orderId = id

end CSnapshotSynthesizer

/-- The live orders of every ticker, by order id, as the splice claim speaks of them. -/
abbrev OrderSets := Nat → Nat → Option SMEMarketUpdate

/-- The splice claim's reading of one update as an order-set operation, written from the
claim and not from the code: CLEAR empties the ticker, ADD inserts the order, MODIFY updates
the quantity of the order, CANCEL removes the order, TRADE and every other type do
nothing. -/
def specApply (st : OrderSets) (u : SMEMarketUpdate) : OrderSets :=
  match u.type with
  | .CLEAR => Function.update st u.tickerId fun _ => none
  | .ADD => Function.update st u.tickerId (Function.update (st u.tickerId) u.orderId (some u))
  | .MODIFY =>
    Function.update st u.tickerId (Function.update (st u.tickerId) u.orderId
      ((st u.tickerId u.orderId).map fun o => { o with qty := u.qty }))
  | .CANCEL => Function.update st u.tickerId (Function.update (st u.tickerId) u.orderId none)
  | _ => st

/-- The splice claim's interpretation of a list of updates from the state `st`. -/
def specReplay (st : OrderSets) (us : List SMEMarketUpdate) : OrderSets := us.foldl specApply st

/-- The state without any live order. -/
def noOrders : OrderSets := fun _ _ => none

/-- Every MODIFY of the list carries the price that the order it modifies has at that point
of the interpretation of the list from the empty state. -/
def KeepsPrices (us : List SMEMarketUpdate) : Prop :=
  ∀ i u, us[i]? = some u → u.type = .MODIFY →
    ∀ o, specReplay noOrders (us.take i) u.tickerId u.orderId = some o → o.price = u.price

end Exchange

namespace Trading

open Common Exchange

/-- The body of a snapshot cycle as the consumer forwards it: the updates of the records
without SNAPSHOT_START and SNAPSHOT_END. -/
def cycleBody (cycle : List MDPMarketUpdate) : List SMEMarketUpdate :=
  (cycle.map fun r => r.me_market_update_).filter CMarketDataConsumer.isEvent

/-- An ADD of order 1 of ticker 0, a bid of 10 at 100. -/
def addOne : SMEMarketUpdate := ⟨.ADD, 1, 0, .BUY, 100, 10, 1⟩

/-- A MODIFY of order 1 of ticker 0 to the quantity 5, at the price of the order. -/
def modifyOne : SMEMarketUpdate := ⟨.MODIFY, 1, 0, .BUY, 100, 5, 1⟩

/-- A MODIFY of order 1 of ticker 0 to the quantity 5 that carries another price, 101. -/
def repriceOne : SMEMarketUpdate := ⟨.MODIFY, 1, 0, .BUY, 101, 5, 1⟩

/-- An ADD of order 2 of ticker 0, a bid of 7 at 99. -/
def addTwo : SMEMarketUpdate := ⟨.ADD, 2, 0, .BUY, 99, 7, 1⟩

end Trading

namespace Common

/-- Queue `CLockFreeQueue<T>`: `capacity` is `m_store.size()`; the three counters are
`std::atomic<size_t>`. -/
structure CLockFreeQueue (T : Type) where
  capacity : Nat
  m_store : Nat → T
  m_nextWriteIndex : Nat
  m_nextReadIndex : Nat
  m_numElements : Nat

namespace CLockFreeQueue

variable {T : Type}

/-- The constructor: `numElements` records `T()`. -/
def init (numElements : Nat) (dflt : T) : CLockFreeQueue T :=
  { capacity := numElements, m_store := fun _ => dflt, m_nextWriteIndex := 0,
    m_nextReadIndex := 0, m_numElements := 0 }

/-- Method `GetNextToWriteTo`: the slot of the pointer it returns. -/
def GetNextToWriteTo (q : CLockFreeQueue T) : Nat := q.m_nextWriteIndex

/-- Assignment through a pointer to slot `i`. -/
def assign (q : CLockFreeQueue T) (i : Nat) (v : T) : CLockFreeQueue T :=
  { q with m_store := Function.update q.m_store i v }

/-- Method `UpdateWriteIndex`. -/
def UpdateWriteIndex (q : CLockFreeQueue T) : CLockFreeQueue T :=
  { q with m_nextWriteIndex := (q.m_nextWriteIndex + 1) % q.capacity
           m_numElements := (q.m_numElements + 1) % 2 ^ 64 }

/-- Method `size`. -/
def size (q : CLockFreeQueue T) : Nat := q.m_numElements

/-- Method `GetNextToRead`: the slot of the pointer it returns, `none` for `nullptr`. -/
def GetNextToRead (q : CLockFreeQueue T) : Option Nat :=
  if q.size ≠ 0 then some q.m_nextReadIndex else none

/-- Method `UpdateReadIndex`. -/
def UpdateReadIndex (q : CLockFreeQueue T) : Except Fault (CLockFreeQueue T) :=
  let q := { q with m_nextReadIndex := (q.m_nextReadIndex + 1) % q.capacity }
  if q.m_numElements = 0 then .error .assertFailed
  else .ok { q with m_numElements := q.m_numElements - 1 }

/-- A write operation of the producer: `*(q.GetNextToWriteTo()) = v; q.UpdateWriteIndex();`. -/
def write (q : CLockFreeQueue T) (v : T) : CLockFreeQueue T :=
  (q.assign q.GetNextToWriteTo v).UpdateWriteIndex

/-- A read operation of the consumer: `d = q.GetNextToRead(); q.UpdateReadIndex();` and the
record `*d` it observes, `none` when `d` is `nullptr`. -/
def read (q : CLockFreeQueue T) : Except Fault (Option T × CLockFreeQueue T) :=
  match q.UpdateReadIndex with
  | .ok q2 => .ok (q.GetNextToRead.map q.m_store, q2)
  | .error e => .error e

end CLockFreeQueue

/-- An operation on a queue: a write of `v` by the producer or a read by the consumer. -/
inductive QueueOp (T : Type) where
  | write (v : T)
  | read

namespace CLockFreeQueue

variable {T : Type}

/-- A sequence of operations on a queue, one after the other: the queue at the end and the
records that the reads observed, in order. -/
def run : CLockFreeQueue T → List (QueueOp T) → Except Fault (CLockFreeQueue T × List (Option T))
  | q, [] => .ok (q, [])
  | q, .write v :: ops => run (q.write v) ops
  | q, .read :: ops =>
    match q.read with
    | .ok (d, q2) =>
      match run q2 ops with
      | .ok (q3, ds) => .ok (q3, d :: ds)
      | .error e => .error e
    | .error e => .error e

/-- The queue holds the unread records `pending`, oldest first: the counter is their number,
they sit in the ring from the read index on, and the write index is behind the last one. -/
structure Holds (q : CLockFreeQueue T) (pending : List T) : Prop where
  pos : 0 < q.capacity
  size_t : q.capacity < 2 ^ 64
  count : q.m_numElements = pending.length
  le : pending.length ≤ q.capacity
  rd : q.m_nextReadIndex < q.capacity
  wr : q.m_nextWriteIndex = (q.m_nextReadIndex + pending.length) % q.capacity
  slot : ∀ j (h : j < pending.length),
    q.m_store ((q.m_nextReadIndex + j) % q.capacity) = pending.get ⟨j, h⟩

end CLockFreeQueue

/-- The records written by a sequence of operations, in order. -/
def QueueOp.written {T : Type} : List (QueueOp T) → List T
  | [] => []
  | .write v :: ops => v :: QueueOp.written ops
  | .read :: ops => QueueOp.written ops

/-- The number of reads of a sequence of operations. -/
def QueueOp.reads {T : Type} : List (QueueOp T) → Nat
  | [] => 0
  | .write _ :: ops => QueueOp.reads ops
  | .read :: ops => QueueOp.reads ops + 1

/-- A sequence of operations on a queue of capacity `n` that holds `unread` records: every
read finds a record that is not read yet, and no write makes the unread records more than
`n`. -/
def QueueOp.Admissible {T : Type} (n : Nat) : Nat → List (QueueOp T) → Prop
  | _, [] => True
  | unread, .write _ :: ops => unread + 1 ≤ n ∧ QueueOp.Admissible n (unread + 1) ops
  | unread, .read :: ops => 0 < unread ∧ QueueOp.Admissible n (unread - 1) ops

end Common

namespace Common

/-- A call on a pool: `Allocate(v)` or `Deallocate` of the object in slot `elem`. -/
inductive PoolOp (T : Type) where
  | allocate (v : T)
  | deallocate (elem : Nat)

namespace CMemoryPool

variable {T : Type}

/-- A sequence of calls on a pool, one after the other, all completed: the pool at the end
and, for every call, the slot that `Allocate` returned (`none` for a `Deallocate`). -/
def run : CMemoryPool T → List (PoolOp T) → Except Fault (CMemoryPool T × List (Option Nat))
  | p, [] => .ok (p, [])
  | p, .allocate v :: ops =>
    match p.Allocate v with
    | .ok (i, p1) =>
      match run p1 ops with
      | .ok (p2, rs) => .ok (p2, some i :: rs)
      | .error e => .error e
    | .error e => .error e
  | p, .deallocate elem :: ops =>
    match p.Deallocate elem with
    | .ok p1 =>
      match run p1 ops with
      | .ok (p2, rs) => .ok (p2, none :: rs)
      | .error e => .error e
    | .error e => .error e

/-- The number of busy slots of a pool: the live objects. -/
def busyCount (p : CMemoryPool T) : Nat :=
  ((List.range p.numElems).filter fun i => !(p.m_store i).isFree).length

end CMemoryPool

end Common

namespace Common

/-- Capacity of the queues of market updates: `ME_MAX_MARKET_UPDATES` (`Types.h`). -/
def ME_MAX_MARKET_UPDATES : Nat := 256 * 1024

/-- Sentinel of `ClientId`, a `uint32_t` (`Types.h`). -/
def ClientId_INVALID : Nat := 2 ^ 32 - 1

end Common

namespace Exchange

open Common

/-- The default member initialisers of `MDPMarketUpdate`. -/
def MDPMarketUpdate.dflt : MDPMarketUpdate := ⟨0, SMEMarketUpdate.dflt⟩

/-- The market data publisher `CMarketDataPublisher`: the next sequence number of the
incremental stream, the queue to the snapshot synthesizer, and the records sent on the
incremental socket, each a sequence number followed by an update, in the order of the
sends. -/
structure CMarketDataPublisher where
  m_nextIncSeqNum : Nat
  m_snapshotMdUpdates : CLockFreeQueue MDPMarketUpdate
  m_incrementalSocket : List MDPMarketUpdate

namespace CMarketDataPublisher

/-- The constructor. -/
def init : CMarketDataPublisher :=
  { m_nextIncSeqNum := 1
    m_snapshotMdUpdates := CLockFreeQueue.init ME_MAX_MARKET_UPDATES MDPMarketUpdate.dflt
    m_incrementalSocket := [] }

/-- The body of the `for` loop of `Run` for the update `market_update` read from the queue
of the matching engine: the two sends, the write to the queue of the synthesizer and the
increment of the sequence number. -/
def publish (p : CMarketDataPublisher) (market_update : SMEMarketUpdate) :
    CMarketDataPublisher :=
  let sent := p.m_incrementalSocket ++ [⟨p.m_nextIncSeqNum, market_update⟩]
  let next_write := p.m_snapshotMdUpdates.GetNextToWriteTo
  let q := p.m_snapshotMdUpdates.assign next_write ⟨p.m_nextIncSeqNum, market_update⟩
  { m_nextIncSeqNum := (p.m_nextIncSeqNum + 1) % 2 ^ 64
    m_snapshotMdUpdates := q.UpdateWriteIndex
    m_incrementalSocket := sent }

/-- The `for` loop of `Run` over the updates `updates` that it reads, in turn, from the queue
of the matching engine. -/
def Run (p : CMarketDataPublisher) (updates : List SMEMarketUpdate) : CMarketDataPublisher :=
  updates.foldl publish p

end CMarketDataPublisher

/-- Records numbered from `n` on by the 64-bit increment: the sequence numbers that the
publisher gives. -/
def wire : Nat → List SMEMarketUpdate → List MDPMarketUpdate
  | _, [] => []
  | n, u :: us => ⟨n, u⟩ :: wire ((n + 1) % 2 ^ 64) us

/-- Capacity of the sequencer: `ME_MAX_PENDING_REQUESTS` (`FifoSequencer.h`). -/
def ME_MAX_PENDING_REQUESTS : Nat := 1024

/-- Request kinds: `enum class EClientRequestType`. -/
inductive EClientRequestType where
  | INVALID
  | NEW
  | CANCEL
  deriving DecidableEq, Repr

/-- Client request: `struct SMEClientRequest`. -/
structure SMEClientRequest where
  type : EClientRequestType
  clientId : Nat
  tickerId : Nat
  orderId : Nat
  side : ESide
  price : Int
  qty : Nat
  deriving DecidableEq, Repr

/-- The default member initialisers of `SMEClientRequest`. -/
def SMEClientRequest.dflt : SMEClientRequest :=
  ⟨.INVALID, ClientId_INVALID, TickerId_INVALID, OrderId_INVALID, .INVALID, Price_INVALID,
    Qty_INVALID⟩

/-- A request with its receive time: `struct SRecvTimeClientRequest`; `Nanos` is a signed
64-bit integer. -/
structure SRecvTimeClientRequest where
  recvTime : Int
  request_ : SMEClientRequest
  deriving DecidableEq, Repr

/-- The default member initialisers of `SRecvTimeClientRequest`. -/
def SRecvTimeClientRequest.dflt : SRecvTimeClientRequest := ⟨0, SMEClientRequest.dflt⟩

/-- The comparison `SRecvTimeClientRequest::operator<`. -/
def SRecvTimeClientRequest.lt (a rhs : SRecvTimeClientRequest) : Bool :=
  decide (a.recvTime < rhs.recvTime)

/-- The contract of `std::sort` of the C++ library on a range of `SRecvTimeClientRequest`,
with `operator<`: the range afterwards is a permutation of the range before in which no
element is less than an earlier one. The order of elements that compare equal is not part of
the contract. -/
def StdSort (sort : List SRecvTimeClientRequest → List SRecvTimeClientRequest) : Prop :=
  ∀ l, (sort l).Perm l ∧ (sort l).Pairwise fun a b => b.lt a = false

/-- The sequencer `CFIFOSequencer`: the queue to the matching engine, the array of pending
requests and the number of its entries in use. -/
structure CFIFOSequencer where
  m_pIncomingRequests : CLockFreeQueue SMEClientRequest
  m_pendingClientRequests : Nat → SRecvTimeClientRequest
  m_pendingSize : Nat

namespace CFIFOSequencer

/-- The constructor, for the queue `pClientRequests`. -/
def init (pClientRequests : CLockFreeQueue SMEClientRequest) : CFIFOSequencer :=
  { m_pIncomingRequests := pClientRequests
    m_pendingClientRequests := fun _ => SRecvTimeClientRequest.dflt
    m_pendingSize := 0 }

/-- Method `AddClientRequest`; `FATAL` ends the process. -/
def AddClientRequest (s : CFIFOSequencer) (rx_time : Int) (request : SMEClientRequest) :
    Except Fault CFIFOSequencer :=
  if s.m_pendingSize ≥ ME_MAX_PENDING_REQUESTS then .error .assertFailed
  else do
    arrayAt ME_MAX_PENDING_REQUESTS s.m_pendingSize
    pure { s with
      m_pendingClientRequests :=
        Function.update s.m_pendingClientRequests s.m_pendingSize ⟨rx_time, request⟩
      m_pendingSize := s.m_pendingSize + 1 }

/-- The entries of the array in use: the range `begin()` to `begin() + m_pendingSize`. -/
def pending (s : CFIFOSequencer) : List SRecvTimeClientRequest :=
  (List.range s.m_pendingSize).map s.m_pendingClientRequests

/-- The `for` loop of `SequenceAndPublish` over the indices `is`: each entry is read with
`at` and its request is written to the queue. -/
def publishLoop (arr : Nat → SRecvTimeClientRequest) :
    List Nat → CLockFreeQueue SMEClientRequest → Except Fault (CLockFreeQueue SMEClientRequest)
  | [], q => .ok q
  | i :: is, q =>
    match arrayAt ME_MAX_PENDING_REQUESTS i with
    | .ok _ => publishLoop arr is (q.write (arr i).request_)
    | .error e => .error e

/-- Method `SequenceAndPublish`; `sort` is the `std::sort` of the C++ library in use. -/
def SequenceAndPublish (sort : List SRecvTimeClientRequest → List SRecvTimeClientRequest)
    (s : CFIFOSequencer) : Except Fault CFIFOSequencer :=
  if s.m_pendingSize = 0 then .ok s
  else
    let sorted := sort s.pending
    let arr := fun i =>
      if i < s.m_pendingSize then sorted.getD i (s.m_pendingClientRequests i)
      else s.m_pendingClientRequests i
    match publishLoop arr (List.range s.m_pendingSize) s.m_pIncomingRequests with
    | .ok q => .ok { m_pIncomingRequests := q, m_pendingClientRequests := arr, m_pendingSize := 0 }
    | .error e => .error e

/-- Calls of `AddClientRequest` for the requests `added`, each with its receive time, one
after the other. -/
def addAll : CFIFOSequencer → List SRecvTimeClientRequest → Except Fault CFIFOSequencer
  | s, [] => .ok s
  | s, r :: rs =>
    match s.AddClientRequest r.recvTime r.request_ with
    | .ok s1 => addAll s1 rs
    | .error e => .error e

end CFIFOSequencer

/-- Order of the receive times. -/
def byTime (a b : SRecvTimeClientRequest) : Prop := a.recvTime ≤ b.recvTime

instance (a b : SRecvTimeClientRequest) : Decidable (byTime a b) := by
  unfold byTime
  infer_instance

/-- A sort that meets the contract of `std::sort` and keeps the requests of equal receive
time in their order: insertion sort. -/
def sortKeeping (l : List SRecvTimeClientRequest) : List SRecvTimeClientRequest :=
  l.insertionSort byTime

/-- A sort that meets the contract of `std::sort` and reverses the requests of equal receive
time: insertion sort of the range read backwards. -/
def sortReversing (l : List SRecvTimeClientRequest) : List SRecvTimeClientRequest :=
  l.reverse.insertionSort byTime

/-- A NEW request of client 0 with the client order id `order_id`. -/
def newRequest (order_id : Nat) : SMEClientRequest := ⟨.NEW, 0, 0, order_id, .BUY, 100, 10⟩

end Exchange

namespace Exchange

open Common

namespace CSnapshotSynthesizer

/-- The order ids of the live orders of the instrument `ticker_id`: the ids of the row with a
pointer that is not `nullptr`, in the order of the row. -/
def liveIds (s : CSnapshotSynthesizer) (ticker_id : Nat) : List Nat :=
  (List.range ME_MAX_ORDER_IDS).filter fun order_id =>
    (s.m_tickerOrders ticker_id order_id).isSome

/-- The number of live orders in the image. -/
def liveCount (s : CSnapshotSynthesizer) : Nat :=
  ((List.range ME_MAX_TICKERS).map fun ticker_id => (s.liveIds ticker_id).length).sum

/-- Well-formed synthesizer: the image is well formed, its pointers are slots of the pool,
and the cursor of the pool is on a free slot. -/
structure SynthOK (s : CSnapshotSynthesizer) : Prop where
  image : ImageOK s
  pool : PoolOK s.m_orderPool ME_MAX_ORDER_IDS
  slot_lt : ∀ t id p, s.m_tickerOrders t id = some p → p < ME_MAX_ORDER_IDS

end CSnapshotSynthesizer

/-- An ADD of the order `order_id` of ticker 0, a bid of 10 at 100. -/
def addAt (order_id : Nat) : SMEMarketUpdate := ⟨.ADD, order_id, 0, .BUY, 100, 10, 1⟩

/-- The market updates among the records that a book has handed to the matching engine, in
the order of the calls. -/
def updatesOf (es : List Emitted) : List SMEMarketUpdate :=
  es.filterMap fun e =>
    match e with
    | .update u => some u
    | .response _ => none

end Exchange

namespace Exchange

open Common

/-- The record of a resting order in the image of the synthesizer, for the instrument
`ticker_id`: an ADD with the market order id, the side, the price, the quantity and the
priority of the order. -/
def orderRecord (ticker_id : Nat) (o : SMEOrder) : SMEMarketUpdate :=
  ⟨.ADD, o.marketOrderId, ticker_id, o.side, o.price, o.qty, o.priority⟩

namespace CSnapshotSynthesizer

/-- Every busy slot of the pool is the target of a pointer of the image. -/
def Pointed (s : CSnapshotSynthesizer) : Prop :=
  ∀ p, p < ME_MAX_ORDER_IDS → (s.m_orderPool.m_store p).isFree = false →
    ∃ t id, s.m_tickerOrders t id = some p

/-- The synthesizer `s` mirrors the orders `R` of the instrument `t`, each seen as the record
`view`, after the updates `us`: it has taken `us` from its fresh state, its image holds the
record of every order of `R` under the order id of the record and nothing else, the order ids
of `R` differ, `ids` are the live order ids, all from 1 to below `m`, and the updates are not
more than `c` less twice the number of live orders. -/
structure Mirror (t m c : Nat) (us : List SMEMarketUpdate) (view : Nat → SMEMarketUpdate)
    (R : Nat → Prop) (s : CSnapshotSynthesizer) (ids : Finset Nat) : Prop where
  ok : SynthOK s
  pointed : Pointed s
  live : ∀ q, R q → s.image t (view q).orderId = some (view q)
  only : ∀ t2 id u, s.image t2 id = some u → t2 = t ∧ ∃ q, R q ∧ (view q).orderId = id
  inj : ∀ q q2, R q → R q2 → (view q).orderId = (view q2).orderId → q = q2
  ids_mem : ∀ id, id ∈ ids ↔ s.image t id ≠ none
  ids_lt : ∀ id ∈ ids, 1 ≤ id ∧ id < m
  count : us.length + 2 * ids.card ≤ c
  run : fresh.drain (numbered 1 us) = .ok s
  last : s.m_lastIncSeqNum = us.length

end CSnapshotSynthesizer

/-- The books of the instrument `t` that NEW and CANCEL requests for that instrument reach
from the empty book while every new order gets a market order id below `ME_MAX_ORDER_IDS`:
calls of `AddOrder` with side BUY or SELL and a price that collides with no live level, and
calls of `CancelOrder`; only calls that return count. -/
inductive Served (t : Nat) : CMEOrderBook → Prop
  | init : Served t (CMEOrderBook.init t)
  | add {b b2 : CMEOrderBook} (cid coid : Nat) (side : ESide) (price : Int) (qty : Nat) :
    Served t b → (side = .BUY ∨ side = .SELL) → NoCollision b price →
    b.m_nextMarketOrderId < ME_MAX_ORDER_IDS →
    b.AddOrder cid coid t side price qty = .ok b2 → Served t b2
  | cancel {b b2 : CMEOrderBook} (cid oid : Nat) :
    Served t b → b.CancelOrder cid oid t = .ok b2 → Served t b2

end Exchange

namespace Exchange

/-- The book of scenario S3. -/
def bookS3 : CMEOrderBook :=
  match scenarioS3 with
  | .ok b => b
  | .error _ => CMEOrderBook.init 0

end Exchange

namespace Trading

open Common Exchange

/-- A consumer in recovery whose snapshot queue holds the start of a cycle and one order, and
whose incremental queue holds one update. -/
def consumerS : CMarketDataConsumer :=
  { m_nextExpIncSeqNum := 5
    m_pIncomingMdUpdates := []
    m_isInRecovery := true
    m_snapshotQueuedMsgs := [(0, ⟨.SNAPSHOT_START, 4, 0, .INVALID, 0, 0, 0⟩),
      (1, ⟨.ADD, 1, 0, .BUY, 100, 10, 1⟩)]
    m_incrementalQueuedMsgs := [(7, ⟨.ADD, 2, 0, .BUY, 101, 5, 1⟩)]
    m_snapshotMcastSocket := true }

/-- A snapshot record whose sequence number the queue of `consumerS` holds already. -/
def requestS : MDPMarketUpdate := ⟨1, ⟨.ADD, 3, 0, .SELL, 102, 7, 1⟩⟩

end Trading

namespace Exchange

open Common

/-- The client responses among the records that a book has handed to the matching engine, in
the order of the calls. -/
def responsesOf (es : List Emitted) : List SMEClientResponse :=
  es.filterMap fun e =>
    match e with
    | .response r => some r
    | .update _ => none

/-- The matching engine `class CMatchingEngine`: the array `m_tickerOrderBook` of its order
books, one per ticker, and the two outgoing queues as the lists of the records written to
them by `SendClientResponse` and `SendMarketUpdate`, in call order. -/
structure CMatchingEngine where
  m_tickerOrderBook : Nat → CMEOrderBook
  m_pOutgoingOgwResponses : List SMEClientResponse
  m_pOutgoingMdUpdates : List SMEMarketUpdate

namespace CMatchingEngine

/-- The constructor: `m_tickerOrderBook[i] = new CMEOrderBook(i, &m_logger, this)` for every
ticker `i`. -/
def init : CMatchingEngine :=
  { m_tickerOrderBook := fun i => CMEOrderBook.init i
    m_pOutgoingOgwResponses := []
    m_pOutgoingMdUpdates := [] }

/-- The engine after a call on the book of `ticker_id` that led from `b` to `b2`: the book is
stored back and the records that the call sent are in the outgoing queues. -/
def afterCall (e : CMatchingEngine) (ticker_id : Nat) (b b2 : CMEOrderBook) : CMatchingEngine :=
  { m_tickerOrderBook := Function.update e.m_tickerOrderBook ticker_id b2
    m_pOutgoingOgwResponses :=
      e.m_pOutgoingOgwResponses ++ responsesOf (b2.emitted.drop b.emitted.length)
    m_pOutgoingMdUpdates :=
      e.m_pOutgoingMdUpdates ++ updatesOf (b2.emitted.drop b.emitted.length) }

/-- Method `ProcessClientRequest`. The book is read with `m_tickerOrderBook[tickerId]`, which
has no bounds check: a ticker id outside the array is a fault of the embedding. -/
def ProcessClientRequest (e : CMatchingEngine) (client_request : SMEClientRequest) :
    Except Fault CMatchingEngine :=
  if client_request.tickerId < ME_MAX_TICKERS then
    let order_book := e.m_tickerOrderBook client_request.tickerId
    match client_request.type with
    | .NEW => do
      let b2 ← order_book.AddOrder client_request.clientId client_request.orderId
        client_request.tickerId client_request.side client_request.price client_request.qty
      pure (e.afterCall client_request.tickerId order_book b2)
    | .CANCEL => do
      let b2 ← order_book.CancelOrder client_request.clientId client_request.orderId
        client_request.tickerId
      pure (e.afterCall client_request.tickerId order_book b2)
    | .INVALID => .error .assertFailed
  else .error .outOfRange

/-- The requests of a list processed one after the other. -/
def processAll : CMatchingEngine → List SMEClientRequest → Except Fault CMatchingEngine
  | e, [] => .ok e
  | e, r :: rs =>
    match e.ProcessClientRequest r with
    | .ok e2 => processAll e2 rs
    | .error f => .error f

end CMatchingEngine

/-- Two bids on the empty book of ticker 0 whose prices differ by `ME_MAX_PRICE_LEVELS`:
`NEW(cid=0, coid=1, BUY, 100, 10)` and `NEW(cid=0, coid=2, BUY, 356, 10)`. -/
def scenarioCollide : Except Fault CMEOrderBook :=
  (CMEOrderBook.init 0).AddOrder 0 1 0 .BUY 100 10 >>= fun b => b.AddOrder 0 2 0 .BUY 356 10

/-- The book of `scenarioCollide`. -/
def bookCollide : CMEOrderBook :=
  match scenarioCollide with
  | .ok b => b
  | .error _ => CMEOrderBook.init 0

end Exchange

namespace Exchange

open Common

/-- The listings `own`, of side `s`, and `other`, of the opposite side, do not cross: every
level of `other` has a price beyond that of every level of `own`, so every bid level is
strictly below every ask level. -/
def Uncrossed (b : CMEOrderBook) (s : ESide) (own other : SideList) : Prop :=
  ∀ x ∈ own, ∀ y ∈ other, better s (b.level y.1).price (b.level x.1).price

/-- The book states reached from an empty book by calls of `AddOrder` that return, with side
BUY or SELL, any quantity and a price that collides with no live level, and by calls of
`CancelOrder` that return. -/
inductive Reached : CMEOrderBook → Prop
  | init (t : Nat) : Reached (CMEOrderBook.init t)
  | add {b b2 : CMEOrderBook} (cid coid tid : Nat) (side : ESide) (price : Int) (qty : Nat) :
    Reached b → (side = .BUY ∨ side = .SELL) → NoCollision b price →
    b.AddOrder cid coid tid side price qty = .ok b2 → Reached b2
  | cancel {b b2 : CMEOrderBook} (cid oid tid : Nat) :
    Reached b → b.CancelOrder cid oid tid = .ok b2 → Reached b2

/-- The book of scenario S1 after `NEW(cid=1, coid=1, SELL, price=101, qty=4)`: a bid at 100
and an ask at 101. -/
def bookSpread : CMEOrderBook :=
  match bookS1.AddOrder 1 1 0 .SELL 101 4 with
  | .ok b => b
  | .error _ => CMEOrderBook.init 0

end Exchange

namespace Trading

open Common Exchange

/-- Order of the strategy-side book: `struct SMarketOrder` (`MarketOrder.h`). -/
structure SMarketOrder where
  orderId : Nat
  side : ESide
  price : Int
  qty : Nat
  priority : Nat
  pPrevOrder : Option Nat
  pNextOrder : Option Nat

/-- Default member initialisers of `SMarketOrder`. -/
def SMarketOrder.dflt : SMarketOrder :=
  { orderId := OrderId_INVALID, side := .INVALID, price := Price_INVALID, qty := Qty_INVALID,
    priority := Priority_INVALID, pPrevOrder := none, pNextOrder := none }

/-- Price level of the strategy-side book: `struct SMarketOrdersAtPrice`. -/
structure SMarketOrdersAtPrice where
  side : ESide
  price : Int
  pFirstMktOrder : Option Nat
  pPrevEntry : Option Nat
  pNextEntry : Option Nat

/-- Default member initialisers of `SMarketOrdersAtPrice`. -/
def SMarketOrdersAtPrice.dflt : SMarketOrdersAtPrice :=
  { side := .INVALID, price := Price_INVALID, pFirstMktOrder := none, pPrevEntry := none,
    pNextEntry := none }

/-- Best bid and offer: `struct SBBO`. -/
structure SBBO where
  bidPrice : Int
  askPrice : Int
  bidQty : Nat
  askQty : Nat
  deriving DecidableEq, Repr

/-- Default member initialisers of `SBBO`. -/
def SBBO.dflt : SBBO := ⟨Price_INVALID, Price_INVALID, Qty_INVALID, Qty_INVALID⟩

/-- The strategy-side order book `class CMarketOrderBook`. The notifications to the trade
engine (`onTradeUpdate`, `onOrderBookUpdate`) do not write the book and are left out. -/
structure CMarketOrderBook where
  m_tickerId : Nat
  m_oidToOrder : Nat → Option Nat
  m_ordersAtPricePool : CMemoryPool SMarketOrdersAtPrice
  m_pBidsByPrice : Option Nat
  m_pAsksByPrice : Option Nat
  m_priceOrdersAtPrice : Nat → Option Nat
  m_orderPool : CMemoryPool SMarketOrder
  m_pBbo : SBBO

namespace CMarketOrderBook

/-- The constructor `CMarketOrderBook(ticker_id, logger)`. It writes neither `m_oidToOrder`
nor `m_priceOrdersAtPrice`, which have no member initialiser: the two arrays start with the
values `oidToOrder` and `priceOrdersAtPrice` that the storage holds. -/
def init (ticker_id : Nat) (oidToOrder priceOrdersAtPrice : Nat → Option Nat) :
    CMarketOrderBook :=
  { m_tickerId := ticker_id
    m_oidToOrder := oidToOrder
    m_ordersAtPricePool := CMemoryPool.init ME_MAX_PRICE_LEVELS SMarketOrdersAtPrice.dflt
    m_pBidsByPrice := none
    m_pAsksByPrice := none
    m_priceOrdersAtPrice := priceOrdersAtPrice
    m_orderPool := CMemoryPool.init ME_MAX_ORDER_IDS SMarketOrder.dflt
    m_pBbo := SBBO.dflt }

/-- A freshly constructed book whose two arrays hold null pointers only. -/
def fresh (ticker_id : Nat) : CMarketOrderBook := init ticker_id (fun _ => none) (fun _ => none)

/-- Read of the order a pointer refers to. -/
def order (b : CMarketOrderBook) (p : Nat) : SMarketOrder := b.m_orderPool.obj p

/-- Read of the price level a pointer refers to. -/
def level (b : CMarketOrderBook) (p : Nat) : SMarketOrdersAtPrice := b.m_ordersAtPricePool.obj p

/-- Write through an order pointer. -/
def setOrder (b : CMarketOrderBook) (p : Nat) (f : SMarketOrder → SMarketOrder) :
    CMarketOrderBook :=
  { b with m_orderPool := b.m_orderPool.modify p f }

/-- Write through a price-level pointer. -/
def setLevel (b : CMarketOrderBook) (p : Nat) (f : SMarketOrdersAtPrice → SMarketOrdersAtPrice) :
    CMarketOrderBook :=
  { b with m_ordersAtPricePool := b.m_ordersAtPricePool.modify p f }

/-- Method `PriceToIndex`: the `int64_t` price is converted to `size_t` before `%`. -/
def PriceToIndex (price : Int) : Nat :=
  (price % 2 ^ 64).toNat % ME_MAX_PRICE_LEVELS

/-- Method `GetOrdersAtPrice`: `m_priceOrdersAtPrice.at(PriceToIndex(price))`. -/
def GetOrdersAtPrice (b : CMarketOrderBook) (price : Int) : Except Fault (Option Nat) := do
  arrayAt ME_MAX_PRICE_LEVELS (PriceToIndex price)
  pure (b.m_priceOrdersAtPrice (PriceToIndex price))

/-- Assignment to `m_priceOrdersAtPrice.at(PriceToIndex(price))`. -/
def setOrdersAtPrice (b : CMarketOrderBook) (price : Int) (v : Option Nat) :
    Except Fault CMarketOrderBook := do
  arrayAt ME_MAX_PRICE_LEVELS (PriceToIndex price)
  pure { b with
    m_priceOrdersAtPrice := Function.update b.m_priceOrdersAtPrice (PriceToIndex price) v }

/-- Assignment to `m_oidToOrder.at(orderId)`. -/
def setOidToOrder (b : CMarketOrderBook) (orderId : Nat) (v : Option Nat) :
    Except Fault CMarketOrderBook := do
  arrayAt ME_MAX_ORDER_IDS orderId
  pure { b with m_oidToOrder := Function.update b.m_oidToOrder orderId v }

/-- The best-level pointer of a side: `side == ESide::BUY ? m_pBidsByPrice : m_pAsksByPrice`. -/
def bestOf (b : CMarketOrderBook) (side : ESide) : Option Nat :=
  if side = .BUY then b.m_pBidsByPrice else b.m_pAsksByPrice

/-- Assignment to `(side == ESide::BUY ? m_pBidsByPrice : m_pAsksByPrice)`. -/
def setBestOf (b : CMarketOrderBook) (side : ESide) (v : Option Nat) : CMarketOrderBook :=
  if side = .BUY then { b with m_pBidsByPrice := v } else { b with m_pAsksByPrice := v }

/-- The comparison that `AddOrdersAtPrice` evaluates for `addAfter`. -/
def addAfter (side : ESide) (price targetPrice : Int) : Bool :=
  (side = .SELL && decide (price > targetPrice)) || (side = .BUY && decide (price < targetPrice))

/-- The `while (addAfter && pTarget != pBestOrdersByPrice)` loop of `AddOrdersAtPrice`;
returns the final `(pTarget, addAfter)`. -/
def AddOrdersAtPriceLoop (b : CMarketOrderBook) (side : ESide) (price : Int) (best : Nat) :
    Nat → Nat → Bool → Except Fault (Nat × Bool)
  | 0, _, _ => .error .outOfFuel
  | fuel + 1, target, add_after =>
    if add_after && decide (target ≠ best) then
      if addAfter side price (b.level target).price then do
        let next ← deref (b.level target).pNextEntry
        AddOrdersAtPriceLoop b side price best fuel next true
      else .ok (target, false)
    else .ok (target, add_after)

/-- The search for `pTarget` in `AddOrdersAtPrice`: the first comparison and step from the
best level, then the `while` loop; returns the final `(pTarget, addAfter)`. -/
def AddOrdersAtPriceScan (b : CMarketOrderBook) (side : ESide) (price : Int) (best : Nat) :
    Except Fault (Nat × Bool) := do
  let first ← (if addAfter side price (b.level best).price then do
      let t ← deref (b.level best).pNextEntry
      pure (t, addAfter side price (b.level t).price)
    else pure (best, false) : Except Fault (Nat × Bool))
  AddOrdersAtPriceLoop b side price best (ME_MAX_PRICE_LEVELS + 1) first.1 first.2

/-- Method `AddOrdersAtPrice`. The side and price of the new level are read once: no
statement of the method writes them. -/
def AddOrdersAtPrice (b : CMarketOrderBook) (pNew : Nat) : Except Fault CMarketOrderBook := do
  let side := (b.level pNew).side
  let price := (b.level pNew).price
  let b ← b.setOrdersAtPrice price (some pNew)
  match b.bestOf side with
  | none =>
    let b := b.setBestOf side (some pNew)
    pure (b.setLevel pNew fun l => { l with pPrevEntry := some pNew, pNextEntry := some pNew })
  | some best =>
    let last ← AddOrdersAtPriceScan b side price best
    if last.2 then
      let target ← (if last.1 = best then deref (b.level best).pPrevEntry else pure last.1 :
        Except Fault Nat)
      let b := b.setLevel pNew fun l => { l with pPrevEntry := some target }
      let tn ← deref (b.level target).pNextEntry
      let b := b.setLevel tn fun l => { l with pPrevEntry := some pNew }
      let b := b.setLevel pNew fun l => { l with pNextEntry := (b.level target).pNextEntry }
      pure (b.setLevel target fun l => { l with pNextEntry := some pNew })
    else
      let target := last.1
      let b := b.setLevel pNew fun l => { l with pPrevEntry := (b.level target).pPrevEntry }
      let b := b.setLevel pNew fun l => { l with pNextEntry := some target }
      let tp ← deref (b.level target).pPrevEntry
      let b := b.setLevel tp fun l => { l with pNextEntry := some pNew }
      let b := b.setLevel target fun l => { l with pPrevEntry := some pNew }
      if (side = .BUY && decide (price > (b.level best).price)) ||
          (side = .SELL && decide (price < (b.level best).price)) then
        let b := b.setLevel target fun l =>
          { l with pNextEntry := if l.pNextEntry = some best then some pNew else l.pNextEntry }
        pure (b.setBestOf side (some pNew))
      else pure b

/-- Method `RemoveOrdersAtPrice`. -/
def RemoveOrdersAtPrice (b : CMarketOrderBook) (side : ESide) (price : Int) :
    Except Fault CMarketOrderBook := do
  let best := b.bestOf side
  let oap ← b.GetOrdersAtPrice price
  let oap ← deref oap
  let b ← (if (b.level oap).pNextEntry = some oap then pure (b.setBestOf side none)
    else do
      let prev ← deref (b.level oap).pPrevEntry
      let b := b.setLevel prev fun l => { l with pNextEntry := (b.level oap).pNextEntry }
      let next ← deref (b.level oap).pNextEntry
      let b := b.setLevel next fun l => { l with pPrevEntry := (b.level oap).pPrevEntry }
      let b := if some oap = best then b.setBestOf side (b.level oap).pNextEntry else b
      pure (b.setLevel oap fun l => { l with pPrevEntry := none, pNextEntry := none }) :
    Except Fault CMarketOrderBook)
  let b ← b.setOrdersAtPrice price none
  let pool ← b.m_ordersAtPricePool.Deallocate oap
  pure { b with m_ordersAtPricePool := pool }

/-- Method `RemoveOrder`. -/
def RemoveOrder (b : CMarketOrderBook) (order : Nat) : Except Fault CMarketOrderBook := do
  let oap ← b.GetOrdersAtPrice (b.order order).price
  let b ← (if (b.order order).pPrevOrder = some order then
      b.RemoveOrdersAtPrice (b.order order).side (b.order order).price
    else do
      let order_before := (b.order order).pPrevOrder
      let order_after := (b.order order).pNextOrder
      let pb ← deref order_before
      let b := b.setOrder pb fun o => { o with pNextOrder := order_after }
      let pa ← deref order_after
      let b := b.setOrder pa fun o => { o with pPrevOrder := order_before }
      let l ← deref oap
      let b := if (b.level l).pFirstMktOrder = some order then
          b.setLevel l fun x => { x with pFirstMktOrder := order_after }
        else b
      pure (b.setOrder order fun o => { o with pPrevOrder := none, pNextOrder := none }) :
    Except Fault CMarketOrderBook)
  let b ← b.setOidToOrder (b.order order).orderId none
  let pool ← b.m_orderPool.Deallocate order
  pure { b with m_orderPool := pool }

/-- Method `AddOrder(SMarketOrder* pOrder)`. -/
def AddOrder (b : CMarketOrderBook) (order : Nat) : Except Fault CMarketOrderBook := do
  let oap ← b.GetOrdersAtPrice (b.order order).price
  let b ← (match oap with
    | none => do
      let b := b.setOrder order fun o => { o with pNextOrder := some order, pPrevOrder := some order }
      let r ← b.m_ordersAtPricePool.Allocate
        ⟨(b.order order).side, (b.order order).price, some order, none, none⟩
      AddOrdersAtPrice { b with m_ordersAtPricePool := r.2 } r.1
    | some l => do
      let first_order ← deref (b.level l).pFirstMktOrder
      let fp ← deref (b.order first_order).pPrevOrder
      let b := b.setOrder fp fun o => { o with pNextOrder := some order }
      let b := b.setOrder order fun o => { o with pPrevOrder := (b.order first_order).pPrevOrder }
      let b := b.setOrder order fun o => { o with pNextOrder := some first_order }
      pure (b.setOrder first_order fun o => { o with pPrevOrder := some order }) :
    Except Fault CMarketOrderBook)
  b.setOidToOrder (b.order order).orderId (some order)

/-- The `for` loop of `UpdateBBO` over the orders of the best level after the first one:
the quantities are added on the `uint32_t` of `Qty`. -/
def UpdateBBOLoop (b : CMarketOrderBook) (first : Nat) : Nat → Option Nat → Nat → Except Fault Nat
  | 0, _, _ => .error .outOfFuel
  | fuel + 1, pOrder, qty =>
    if pOrder = some first then .ok qty
    else do
      let p ← deref pOrder
      UpdateBBOLoop b first fuel (b.order p).pNextOrder ((qty + (b.order p).qty) % 2 ^ 32)

/-- The quantity that `UpdateBBO` computes for the best level `best`. -/
def bestQty (b : CMarketOrderBook) (best : Nat) : Except Fault Nat := do
  let first ← deref (b.level best).pFirstMktOrder
  UpdateBBOLoop b first (ME_MAX_ORDER_IDS + 1) (b.order first).pNextOrder (b.order first).qty

/-- Method `UpdateBBO`. -/
def UpdateBBO (b : CMarketOrderBook) (updateBid updateAsk : Bool) :
    Except Fault CMarketOrderBook := do
  let b ← (if updateBid then
      match b.m_pBidsByPrice with
      | some best => do
        let qty ← b.bestQty best
        pure { b with m_pBbo := { b.m_pBbo with bidPrice := (b.level best).price, bidQty := qty } }
      | none => pure { b with m_pBbo := { b.m_pBbo with bidPrice := Price_INVALID,
                                                         bidQty := Qty_INVALID } }
    else pure b : Except Fault CMarketOrderBook)
  if updateAsk then
    match b.m_pAsksByPrice with
    | some best => do
      let qty ← b.bestQty best
      pure { b with m_pBbo := { b.m_pBbo with askPrice := (b.level best).price, askQty := qty } }
    | none => pure { b with m_pBbo := { b.m_pBbo with askPrice := Price_INVALID,
                                                       askQty := Qty_INVALID } }
  else pure b

/-- The first loop of the CLEAR case, `for (auto &order : m_oidToOrder)`, over the indices
`ids` of the array: every order that an entry points to is returned to the pool. -/
def clearOrdersLoop (oidToOrder : Nat → Option Nat) :
    List Nat → CMemoryPool SMarketOrder → Except Fault (CMemoryPool SMarketOrder)
  | [], pool => .ok pool
  | i :: ids, pool =>
    match oidToOrder i with
    | none => clearOrdersLoop oidToOrder ids pool
    | some order =>
      match pool.Deallocate order with
      | .ok pool2 => clearOrdersLoop oidToOrder ids pool2
      | .error e => .error e

/-- The loop of the CLEAR case over the levels of a side after the best one,
`for (bid = best->pNextEntry; bid != best; bid = bid->pNextEntry)`: every level on the way is
returned to the pool; `Deallocate` of a null pointer fails its range check. -/
def clearLevelsLoop (b : CMarketOrderBook) (best : Nat) :
    Nat → Option Nat → CMemoryPool SMarketOrdersAtPrice →
      Except Fault (CMemoryPool SMarketOrdersAtPrice)
  | 0, _, _ => .error .outOfFuel
  | fuel + 1, cur, pool =>
    if cur = some best then .ok pool
    else
      match cur with
      | none => .error .assertFailed
      | some c =>
        match pool.Deallocate c with
        | .ok pool2 => clearLevelsLoop b best fuel (b.level c).pNextEntry pool2
        | .error e => .error e

/-- The statements of the CLEAR case for one side, `if (m_pBidsByPrice) ...`: the levels
after the best one are returned to the pool, then the best one. -/
def clearSide (b : CMarketOrderBook) (best : Option Nat)
    (pool : CMemoryPool SMarketOrdersAtPrice) : Except Fault (CMemoryPool SMarketOrdersAtPrice) :=
  match best with
  | none => .ok pool
  | some l => do
    let pool ← clearLevelsLoop b l (ME_MAX_PRICE_LEVELS + 1) (b.level l).pNextEntry pool
    pool.Deallocate l

/-- The CLEAR case of `OnMarketUpdate`: the orders of `m_oidToOrder` are returned to their
pool and the array is filled with null pointers, the levels of both sides are returned to
their pool, and both best pointers are set to null. No statement writes
`m_priceOrdersAtPrice`. -/
def clearBook (b : CMarketOrderBook) : Except Fault CMarketOrderBook := do
  let orderPool ← clearOrdersLoop b.m_oidToOrder (List.range ME_MAX_ORDER_IDS) b.m_orderPool
  let pool ← clearSide b b.m_pBidsByPrice b.m_ordersAtPricePool
  let pool ← clearSide b b.m_pAsksByPrice pool
  pure { b with
    m_orderPool := orderPool
    m_oidToOrder := fun _ => none
    m_ordersAtPricePool := pool
    m_pBidsByPrice := none
    m_pAsksByPrice := none }

/-- Method `OnMarketUpdate`. -/
def OnMarketUpdate (b : CMarketOrderBook) (market_update : SMEMarketUpdate) :
    Except Fault CMarketOrderBook :=
  let bid_updated : Bool :=
    match b.m_pBidsByPrice with
    | some best =>
      market_update.side = .BUY && decide (market_update.price ≥ (b.level best).price)
    | none => false
  let ask_updated : Bool :=
    match b.m_pAsksByPrice with
    | some best =>
      market_update.side = .SELL && decide (market_update.price ≤ (b.level best).price)
    | none => false
  match market_update.type with
  | .ADD => do
    let a ← b.m_orderPool.Allocate ⟨market_update.orderId, market_update.side,
      market_update.price, market_update.qty, market_update.priority, none, none⟩
    let b ← AddOrder { b with m_orderPool := a.2 } a.1
    b.UpdateBBO bid_updated ask_updated
  | .MODIFY => do
    arrayAt ME_MAX_ORDER_IDS market_update.orderId
    let order ← deref (b.m_oidToOrder market_update.orderId)
    let b := b.setOrder order fun o => { o with qty := market_update.qty }
    b.UpdateBBO bid_updated ask_updated
  | .CANCEL => do
    arrayAt ME_MAX_ORDER_IDS market_update.orderId
    let order ← deref (b.m_oidToOrder market_update.orderId)
    let b ← b.RemoveOrder order
    b.UpdateBBO bid_updated ask_updated
  | .TRADE => pure b
  | .CLEAR => do
    let b ← b.clearBook
    b.UpdateBBO bid_updated ask_updated
  | .INVALID => b.UpdateBBO bid_updated ask_updated
  | .SNAPSHOT_START => b.UpdateBBO bid_updated ask_updated
  | .SNAPSHOT_END => b.UpdateBBO bid_updated ask_updated

end CMarketOrderBook

/-- An ADD of the bid 1 of ticker 0 at 100. -/
def addBid1 : SMEMarketUpdate := ⟨.ADD, 1, 0, .BUY, 100, 10, 1⟩

/-- A CLEAR of ticker 0. -/
def clearAll : SMEMarketUpdate :=
  ⟨.CLEAR, OrderId_INVALID, 0, .INVALID, Price_INVALID, Qty_INVALID, Priority_INVALID⟩

/-- An ADD of the bid 2 of ticker 0 at 100. -/
def addBid2 : SMEMarketUpdate := ⟨.ADD, 2, 0, .BUY, 100, 5, 2⟩

/-- The fresh book of ticker 0 after `addBid1`. -/
def bookAdded : CMarketOrderBook :=
  match (CMarketOrderBook.fresh 0).OnMarketUpdate addBid1 with
  | .ok b => b
  | .error _ => CMarketOrderBook.fresh 0

/-- The book `bookAdded` after the CLEAR: both pools have their slot 0 back, the array of the
orders and the best pointers are null, and the other members are those of `bookAdded`. -/
def bookCleared : CMarketOrderBook :=
  { bookAdded with
    m_orderPool := bookAdded.m_orderPool.release 0
    m_oidToOrder := fun _ => none
    m_ordersAtPricePool := bookAdded.m_ordersAtPricePool.release 0
    m_pBidsByPrice := none
    m_pAsksByPrice := none }

/-- The book `bookCleared` after `addBid2`. -/
def bookReadded : CMarketOrderBook :=
  match bookCleared.OnMarketUpdate addBid2 with
  | .ok b => b
  | .error _ => CMarketOrderBook.fresh 0

end Trading

namespace Trading

open Common Exchange

/-- A consumer in recovery whose snapshot container holds the start of a cycle and one more
record, not yet the SNAPSHOT_END: keys 0 and 1. -/
def waitingConsumer : CMarketDataConsumer :=
  { gapConsumer with m_snapshotQueuedMsgs := [(0, snapshotStart 5), (1, clearUpdate 0)] }

/-- A consumer in recovery whose snapshot container has lost record 1: keys 0 and 2. -/
def brokenConsumer : CMarketDataConsumer :=
  { gapConsumer with m_snapshotQueuedMsgs := [(0, snapshotStart 5), (2, snapshotEnd 5)] }

/-- A consumer in recovery whose snapshot container has lost the SNAPSHOT_START: keys 1
and 2. -/
def headlessConsumer : CMarketDataConsumer :=
  { gapConsumer with m_snapshotQueuedMsgs := [(1, clearUpdate 0), (2, snapshotEnd 5)] }

end Trading

namespace Common

/-- A pool of three numbers after `Allocate(7)`: slot 0 is busy and holds 7, the cursor is on
slot 1. -/
def poolOne : CMemoryPool Nat :=
  match (CMemoryPool.init 3 (0 : Nat)).Allocate 7 with
  | .ok r => r.2
  | .error _ => CMemoryPool.init 3 0

end Common

namespace Exchange

open Common

/-- The market order ids that the ACCEPTED responses for ticker `t` carry, in the order of the
responses `rs`. -/
def acceptedIds (t : Nat) (rs : List SMEClientResponse) : List Nat :=
  (rs.filter fun r => decide (r.type = .ACCEPTED ∧ r.tickerId = t)).map fun r => r.marketOrderId

/-- The number of NEW requests for ticker `t` among the requests `rs`. -/
def newCount (t : Nat) (rs : List SMEClientRequest) : Nat :=
  (rs.filter fun r => decide (r.type = .NEW ∧ r.tickerId = t)).length

/-- The requests of the engine scenario: a NEW for ticker 0, a NEW for ticker 1 and a second
NEW for ticker 0. -/
def requestsThree : List SMEClientRequest :=
  [⟨.NEW, 0, 0, 1, .BUY, 100, 10⟩, ⟨.NEW, 1, 1, 1, .BUY, 100, 10⟩, ⟨.NEW, 0, 0, 2, .BUY, 99, 5⟩]

/-- The fresh engine after `requestsThree`. -/
def engineThree : CMatchingEngine :=
  match CMatchingEngine.init.processAll requestsThree with
  | .ok e => e
  | .error _ => CMatchingEngine.init

/-- A NEW for ticker 0 with the quantity 0. -/
def zeroNew : SMEClientRequest := ⟨.NEW, 0, 0, 0, .BUY, 100, 0⟩

/-- The requests of the wrap scenario, all NEW and all for ticker 0: a bid of client 0 at 100,
then `2 ^ 64 - 1` requests with the quantity 0, then an ask of client 1 at 101. -/
def requestsWrap : List SMEClientRequest :=
  ⟨.NEW, 0, 0, 1, .BUY, 100, 10⟩ ::
    (List.replicate (2 ^ 64 - 1) zeroNew ++ [⟨.NEW, 1, 0, 1, .SELL, 101, 5⟩])

end Exchange

/-! Theorems. -/

namespace Exchange

section Links

variable {α : Type}

theorem chain_snoc {R : α → α → Prop} {z u : α} :
    ∀ {l : List α} {a : α}, (a :: l).getLast? = some u →
      (List.Chain R a (l ++ [z]) ↔ List.Chain R a l ∧ R u z)
  | [], a, h => by
    simp at h
    subst h
    simp
  | c :: l, a, h => by
    have h2 : (c :: l).getLast? = some u := by
      rw [List.getLast?_cons_cons] at h
      exact h
    have ih := chain_snoc (R := R) (z := z) h2
    simp only [List.cons_append, List.chain_cons, ih]
    tauto

theorem chain_frame {nxt prv nxt2 prv2 : α → Option α} :
    ∀ {l : List α} {a : α}, List.Chain (Lk nxt prv) a l →
      (∀ x ∈ (a :: l).dropLast, nxt2 x = nxt x) → (∀ y ∈ l, prv2 y = prv y) →
      List.Chain (Lk nxt2 prv2) a l
  | [], _, _, _, _ => List.Chain.nil
  | c :: l, a, h, hn, hp => by
    rw [List.chain_cons] at h ⊢
    refine ⟨?_, chain_frame h.2 ?_ ?_⟩
    · refine ⟨?_, ?_⟩
      · rw [hn a (by simp)]
        exact h.1.1
      · rw [hp c (by simp)]
        exact h.1.2
    · intro x hx
      exact hn x (by
        rw [List.dropLast_cons_of_ne_nil (by simp)]
        exact List.mem_cons_of_mem _ hx)
    · intro y hy
      exact hp y (List.mem_cons_of_mem _ hy)

theorem mem_dropLast_ne_getLast {u : α} :
    ∀ {l : List α}, l.Nodup → l.getLast? = some u → ∀ x ∈ l.dropLast, x ≠ u
  | [], _, _, x, hx => by simp at hx
  | [a], _, _, x, hx => by simp at hx
  | a :: c :: l, hnd, hl, x, hx => by
    rw [List.getLast?_cons_cons] at hl
    rw [List.dropLast_cons_of_ne_nil (by simp)] at hx
    rcases List.mem_cons.1 hx with rfl | hx
    · intro h
      subst h
      have : x ∈ c :: l := List.mem_of_getLast?_eq_some hl
      exact (List.nodup_cons.1 hnd).1 this
    · exact mem_dropLast_ne_getLast (List.nodup_cons.1 hnd).2 hl x hx

theorem cyc_singleton {nxt prv : α → Option α} {a : α} :
    Cyc nxt prv [a] ↔ nxt a = some a ∧ prv a = some a := by
  simp [Cyc, Lk]

theorem cyc_frame {nxt prv nxt2 prv2 : α → Option α} {l : List α} (h : Cyc nxt prv l)
    (hf : ∀ x ∈ l, nxt2 x = nxt x ∧ prv2 x = prv x) : Cyc nxt2 prv2 l := by
  cases l with
  | nil => trivial
  | cons a l =>
    refine chain_frame h ?_ ?_
    · intro x hx
      have hx2 : x ∈ a :: l := by
        have := List.dropLast_subset _ hx
        simpa [or_comm] using this
      exact (hf x hx2).1
    · intro y hy
      have hy2 : y ∈ a :: l := by
        simpa [or_comm] using hy
      exact (hf y hy2).2

theorem cyc_rotate {nxt prv : α → Option α} {A B : List α} (h : Cyc nxt prv (A ++ B)) :
    Cyc nxt prv (B ++ A) := by
  cases A with
  | nil => simpa using h
  | cons a A =>
    cases B with
    | nil => simpa using h
    | cons c B =>
      simp only [Cyc, List.cons_append, List.append_assoc] at h ⊢
      rw [List.chain_split] at h ⊢
      obtain ⟨h1, h2⟩ := h
      rw [List.chain_split] at h2
      have h3 : List.Chain (Lk nxt prv) c (B ++ [a] ++ (A ++ [c])) := by
        cases A with
        | nil =>
          simp only [List.nil_append, List.append_assoc, List.singleton_append] at h1 ⊢
          rw [List.chain_split]
          exact ⟨h2.1, h1⟩
        | cons d A =>
          simp only [List.append_assoc, List.singleton_append, List.cons_append]
          rw [List.chain_split]
          refine ⟨h2.1, ?_⟩
          simpa using h1
      simp only [List.append_assoc, List.singleton_append] at h3
      rw [List.chain_split] at h3
      exact h3

/-- The closing link of a circular list: the last node points to the head. -/
theorem Cyc.last_head {nxt prv : α → Option α} {a u : α} {l : List α}
    (h : Cyc nxt prv (a :: l)) (hu : (a :: l).getLast? = some u) :
    nxt u = some a ∧ prv a = some u :=
  ((chain_snoc hu).1 h).2

/-- The first link of a circular list with at least two nodes. -/
theorem Cyc.head_next {nxt prv : α → Option α} {a c : α} {l : List α}
    (h : Cyc nxt prv (a :: c :: l)) : nxt a = some c ∧ prv c = some a := by
  simp only [Cyc, List.cons_append, List.chain_cons] at h
  exact h.1

/-- Linking a fresh node `x` in front of the head of a circular list `M`, between the last
node and the head. -/
theorem cyc_insert_head {nxt prv nxt2 prv2 : α → Option α} {x v u : α} {M : List α}
    (h : Cyc nxt prv M) (hnd : (x :: M).Nodup) (hv : M.head? = some v)
    (hu : M.getLast? = some u)
    (h1 : nxt2 x = some v) (h2 : prv2 v = some x) (h3 : nxt2 u = some x) (h4 : prv2 x = some u)
    (hn : ∀ a ∈ M, a ≠ u → nxt2 a = nxt a) (hp : ∀ a ∈ M, a ≠ v → prv2 a = prv a) :
    Cyc nxt2 prv2 (x :: M) := by
  cases M with
  | nil => simp at hv
  | cons w M =>
    simp only [List.head?_cons, Option.some.injEq] at hv
    subst hv
    have hndM : (w :: M).Nodup := (List.nodup_cons.1 hnd).2
    simp only [Cyc, List.cons_append, List.chain_cons]
    refine ⟨⟨h1, h2⟩, ?_⟩
    rw [chain_snoc hu]
    refine ⟨?_, h3, h4⟩
    have hc := ((chain_snoc hu).1 h).1
    refine chain_frame hc ?_ ?_
    · intro a ha
      exact hn a (List.dropLast_subset _ ha) (mem_dropLast_ne_getLast hndM hu a ha)
    · intro a ha
      refine hp a (List.mem_cons_of_mem _ ha) ?_
      intro e
      subst e
      exact (List.nodup_cons.1 hndM).1 ha

/-- Unlinking the head `x` of a circular list with at least two nodes: the last node and the
second node are linked to each other. -/
theorem cyc_remove_head {nxt prv nxt2 prv2 : α → Option α} {x v u : α} {M : List α}
    (h : Cyc nxt prv (x :: M)) (hnd : (x :: M).Nodup) (hv : M.head? = some v)
    (hu : M.getLast? = some u)
    (h1 : nxt2 u = some v) (h2 : prv2 v = some u)
    (hn : ∀ a ∈ M, a ≠ u → nxt2 a = nxt a) (hp : ∀ a ∈ M, a ≠ v → prv2 a = prv a) :
    Cyc nxt2 prv2 M := by
  cases M with
  | nil => simp at hv
  | cons w M =>
    simp only [List.head?_cons, Option.some.injEq] at hv
    subst hv
    have hndM : (w :: M).Nodup := (List.nodup_cons.1 hnd).2
    simp only [Cyc, List.cons_append, List.chain_cons] at h
    have hc := ((chain_snoc hu).1 h.2).1
    show List.Chain (Lk nxt2 prv2) w (M ++ [w])
    rw [chain_snoc hu]
    refine ⟨chain_frame hc ?_ ?_, h1, h2⟩
    · intro a ha
      exact hn a (List.dropLast_subset _ ha) (mem_dropLast_ne_getLast hndM hu a ha)
    · intro a ha
      refine hp a (List.mem_cons_of_mem _ ha) ?_
      intro e
      subst e
      exact (List.nodup_cons.1 hndM).1 ha

end Links

end Exchange

namespace Exchange

open Common

open CMEOrderBook

theorem opp_opp {s : ESide} (hs : s = .BUY ∨ s = .SELL) : opp (opp s) = s := by
  rcases hs with rfl | rfl <;> rfl

theorem opp_side {s : ESide} (hs : s = .BUY ∨ s = .SELL) : opp s = .BUY ∨ opp s = .SELL := by
  rcases hs with rfl | rfl
  · exact Or.inr rfl
  · exact Or.inl rfl

theorem opp_ne {s : ESide} (hs : s = .BUY ∨ s = .SELL) : opp s ≠ s := by
  rcases hs with rfl | rfl <;> decide

theorem SideList.levels_append (A B : SideList) : (A ++ B).levels = A.levels ++ B.levels := by
  simp [SideList.levels]

theorem SideList.orders_append (A B : SideList) : (A ++ B).orders = A.orders ++ B.orders := by
  simp [SideList.orders]

theorem SideList.orders_cons (x : Nat × List Nat) (B : SideList) :
    SideList.orders (x :: B) = x.2 ++ B.orders := by
  simp [SideList.orders]

theorem SideList.levels_cons (x : Nat × List Nat) (B : SideList) :
    SideList.levels (x :: B) = x.1 :: B.levels := by
  simp [SideList.levels]

theorem SideList.mem_levels {L : SideList} {x : Nat × List Nat} (h : x ∈ L) :
    x.1 ∈ L.levels :=
  List.mem_map_of_mem _ h

theorem SideList.mem_orders {L : SideList} {x : Nat × List Nat} {o : Nat} (h : x ∈ L)
    (ho : o ∈ x.2) : o ∈ L.orders :=
  List.mem_flatMap.2 ⟨x, h, ho⟩

/-- The invariant does not depend on the side it is seen from. -/
theorem Struct.struct_swap {b : CMEOrderBook} {s : ESide} {own other : SideList}
    (hs : s = .BUY ∨ s = .SELL) (h : Struct b s own other) : Struct b (opp s) other own where
  ownOK := h.otherOK
  otherOK := by
    rw [opp_opp hs]
    exact h.ownOK
  lnodup := by
    have := h.lnodup
    rw [SideList.levels_append] at this ⊢
    exact (List.perm_append_comm.nodup_iff).1 this
  onodup := by
    have := h.onodup
    rw [SideList.orders_append] at this ⊢
    exact (List.perm_append_comm.nodup_iff).1 this
  idx := by
    intro k lp hk
    have := h.idx k lp hk
    rw [SideList.levels_append] at this ⊢
    exact ⟨by
      rcases List.mem_append.1 this.1 with h1 | h1
      · exact List.mem_append_right _ h1
      · exact List.mem_append_left _ h1, this.2⟩
  lpool := h.lpool
  opool := h.opool

end Exchange

namespace Common

open Exchange

namespace CMemoryPool

variable {T : Type}


@[simp] theorem obj_modify (p : CMemoryPool T) (i q : Nat) (f : T → T) :
    (p.modify i f).obj q = if q = i then f (p.obj i) else p.obj q := by
  by_cases h : q = i
  · subst h
    simp [modify, obj]
  · simp [modify, obj, h]

@[simp] theorem isFree_modify (p : CMemoryPool T) (i q : Nat) (f : T → T) :
    ((p.modify i f).m_store q).isFree = (p.m_store q).isFree := by
  by_cases h : q = i
  · subst h
    simp [modify]
  · simp [modify, h]

@[simp] theorem numElems_modify (p : CMemoryPool T) (i : Nat) (f : T → T) :
    (p.modify i f).numElems = p.numElems := rfl

@[simp] theorem cursor_modify (p : CMemoryPool T) (i : Nat) (f : T → T) :
    (p.modify i f).m_nextFreeIndex = p.m_nextFreeIndex := rfl

@[simp] theorem obj_release (p : CMemoryPool T) (i q : Nat) :
    (p.release i).obj q = p.obj q := by
  by_cases h : q = i
  · subst h
    simp [release, obj]
  · simp [release, obj, h]

@[simp] theorem isFree_release (p : CMemoryPool T) (i q : Nat) :
    ((p.release i).m_store q).isFree = if q = i then true else (p.m_store q).isFree := by
  by_cases h : q = i
  · subst h
    simp [release]
  · simp [release, h]

@[simp] theorem numElems_release (p : CMemoryPool T) (i : Nat) :
    (p.release i).numElems = p.numElems := rfl

@[simp] theorem cursor_release (p : CMemoryPool T) (i : Nat) :
    (p.release i).m_nextFreeIndex = p.m_nextFreeIndex := rfl

theorem Deallocate_eq (p : CMemoryPool T) {i : Nat} (h1 : i < p.numElems)
    (h2 : (p.m_store i).isFree = false) : p.Deallocate i = .ok (p.release i) := by
  simp [Deallocate, h1, h2, release]

theorem Deallocate_def (p : CMemoryPool T) (i : Nat) :
    p.Deallocate i = if i < p.numElems then
      (if (p.m_store i).isFree then .error .assertFailed else .ok (p.release i))
      else .error .assertFailed := rfl

theorem PoolOK_release {p : CMemoryPool T} {n : Nat} (h : PoolOK p n) (i : Nat) :
    PoolOK (p.release i) n := by
  refine ⟨h.1, h.2.1, ?_⟩
  simp only [cursor_release, isFree_release]
  split
  · rfl
  · exact h.2.2

theorem PoolLe_refl (p : CMemoryPool T) : PoolLe p p := ⟨rfl, rfl, fun _ h => h⟩

theorem PoolLe_trans {p p2 p3 : CMemoryPool T} (h1 : PoolLe p p2) (h2 : PoolLe p2 p3) :
    PoolLe p p3 :=
  ⟨h2.1.trans h1.1, h2.2.1.trans h1.2.1, fun q hq => h2.2.2 q (h1.2.2 q hq)⟩

theorem PoolLe_spare {p p2 : CMemoryPool T} (h : PoolLe p p2) (hp : Spare p) : Spare p2 := by
  obtain ⟨j, h1, h2, h3⟩ := hp
  exact ⟨j, h.1 ▸ h1, h.2.1 ▸ h2, h.2.2 j h3⟩

theorem PoolLe_release (p : CMemoryPool T) (i : Nat) : PoolLe p (p.release i) := by
  refine ⟨rfl, rfl, fun q hq => ?_⟩
  rw [isFree_release]
  split
  · rfl
  · exact hq

theorem PoolLe_modify (p : CMemoryPool T) (i : Nat) (f : T → T) : PoolLe p (p.modify i f) := by
  refine ⟨rfl, rfl, fun q hq => ?_⟩
  rw [isFree_modify]
  exact hq

theorem PoolOK_modify {p : CMemoryPool T} {n : Nat} (h : PoolOK p n) (i : Nat) (f : T → T) :
    PoolOK (p.modify i f) n := by
  refine ⟨h.1, h.2.1, ?_⟩
  simp only [cursor_modify, isFree_modify]
  exact h.2.2

end CMemoryPool

end Common

namespace Exchange

open Common

namespace CMEOrderBook

theorem PriceToIndex_lt (price : Int) : PriceToIndex price < ME_MAX_PRICE_LEVELS :=
  Nat.mod_lt _ (by decide)

@[simp] theorem GetOrdersAtPrice_eq (b : CMEOrderBook) (price : Int) :
    b.GetOrdersAtPrice price = .ok (b.m_priceOrdersAtPrice (PriceToIndex price)) := by
  simp [GetOrdersAtPrice, arrayAt, PriceToIndex_lt, bind, Except.bind, pure, Except.pure]

@[simp] theorem setOrdersAtPrice_eq (b : CMEOrderBook) (price : Int) (v : Option Nat) :
    b.setOrdersAtPrice price v = .ok
      { b with m_priceOrdersAtPrice := Function.update b.m_priceOrdersAtPrice (PriceToIndex price) v } := by
  simp [setOrdersAtPrice, arrayAt, PriceToIndex_lt, bind, Except.bind, pure, Except.pure]

theorem setCidOid_eq (b : CMEOrderBook) {c o : Nat} (v : Option Nat)
    (hc : c < ME_MAX_NUM_CLIENTS) (ho : o < ME_MAX_ORDER_IDS) :
    b.setCidOid c o v = .ok
      { b with m_cidOidToOrder := Function.update b.m_cidOidToOrder c (Function.update (b.m_cidOidToOrder c) o v) } := by
  simp [setCidOid, arrayAt, hc, ho, bind, Except.bind, pure, Except.pure]

@[simp] theorem deref_some (i : Nat) : deref (some i) = .ok i := rfl

@[simp] theorem deref_none : deref none = .error .nullDeref := rfl

@[simp] theorem order_setOrder (b : CMEOrderBook) (p q : Nat) (f : SMEOrder → SMEOrder) :
    (b.setOrder p f).order q = if q = p then f (b.order p) else b.order q := by
  by_cases h : q = p
  · subst h
    simp [setOrder, order, CMemoryPool.modify, CMemoryPool.obj]
  · simp [setOrder, order, CMemoryPool.modify, CMemoryPool.obj, h]

@[simp] theorem level_setLevel (b : CMEOrderBook) (p q : Nat)
    (f : SMEOrdersAtPrice → SMEOrdersAtPrice) :
    (b.setLevel p f).level q = if q = p then f (b.level p) else b.level q := by
  by_cases h : q = p
  · subst h
    simp [setLevel, level, CMemoryPool.modify, CMemoryPool.obj]
  · simp [setLevel, level, CMemoryPool.modify, CMemoryPool.obj, h]

@[simp] theorem ofree_setOrder (b : CMEOrderBook) (p q : Nat) (f : SMEOrder → SMEOrder) :
    (b.setOrder p f).ofree q = b.ofree q := by
  by_cases h : q = p
  · subst h
    simp [setOrder, ofree, CMemoryPool.modify]
  · simp [setOrder, ofree, CMemoryPool.modify, h]

@[simp] theorem lfree_setLevel (b : CMEOrderBook) (p q : Nat)
    (f : SMEOrdersAtPrice → SMEOrdersAtPrice) :
    (b.setLevel p f).lfree q = b.lfree q := by
  by_cases h : q = p
  · subst h
    simp [setLevel, lfree, CMemoryPool.modify]
  · simp [setLevel, lfree, CMemoryPool.modify, h]

theorem level_price_setLevel (b : CMEOrderBook) (p q : Nat)
    (f : SMEOrdersAtPrice → SMEOrdersAtPrice) (hf : ∀ l, (f l).price = l.price) :
    ((b.setLevel p f).level q).price = (b.level q).price := by
  rw [level_setLevel]
  split
  · rename_i h
    rw [hf, h]
  · rfl

theorem level_side_setLevel (b : CMEOrderBook) (p q : Nat)
    (f : SMEOrdersAtPrice → SMEOrdersAtPrice) (hf : ∀ l, (f l).side = l.side) :
    ((b.setLevel p f).level q).side = (b.level q).side := by
  rw [level_setLevel]
  split
  · rename_i h
    rw [hf, h]
  · rfl

theorem level_first_setLevel (b : CMEOrderBook) (p q : Nat)
    (f : SMEOrdersAtPrice → SMEOrdersAtPrice) (hf : ∀ l, (f l).pFirstMeOrder = l.pFirstMeOrder) :
    ((b.setLevel p f).level q).pFirstMeOrder = (b.level q).pFirstMeOrder := by
  rw [level_setLevel]
  split
  · rename_i h
    rw [hf, h]
  · rfl

theorem level_unlink_setLevel (b : CMEOrderBook) (p q : Nat)
    (f : SMEOrdersAtPrice → SMEOrdersAtPrice) (hf : ∀ l, (f l).unlink = l.unlink) :
    ((b.setLevel p f).level q).unlink = (b.level q).unlink := by
  rw [level_setLevel]
  split
  · rename_i h
    rw [hf, h]
  · rfl

theorem order_unlink_setOrder (b : CMEOrderBook) (p q : Nat)
    (f : SMEOrder → SMEOrder) (hf : ∀ l, (f l).unlink = l.unlink) :
    ((b.setOrder p f).order q).unlink = (b.order q).unlink := by
  rw [order_setOrder]
  split
  · rename_i h
    rw [hf, h]
  · rfl

@[simp] theorem level_setOrder (b : CMEOrderBook) (p q : Nat) (f : SMEOrder → SMEOrder) :
    (b.setOrder p f).level q = b.level q := rfl

@[simp] theorem lfree_setOrder (b : CMEOrderBook) (p q : Nat) (f : SMEOrder → SMEOrder) :
    (b.setOrder p f).lfree q = b.lfree q := rfl

@[simp] theorem order_setLevel (b : CMEOrderBook) (p q : Nat)
    (f : SMEOrdersAtPrice → SMEOrdersAtPrice) : (b.setLevel p f).order q = b.order q := rfl

@[simp] theorem ofree_setLevel (b : CMEOrderBook) (p q : Nat)
    (f : SMEOrdersAtPrice → SMEOrdersAtPrice) : (b.setLevel p f).ofree q = b.ofree q := rfl

@[simp] theorem idx_setOrder (b : CMEOrderBook) (p : Nat) (f : SMEOrder → SMEOrder) :
    (b.setOrder p f).m_priceOrdersAtPrice = b.m_priceOrdersAtPrice := rfl

@[simp] theorem idx_setLevel (b : CMEOrderBook) (p : Nat)
    (f : SMEOrdersAtPrice → SMEOrdersAtPrice) :
    (b.setLevel p f).m_priceOrdersAtPrice = b.m_priceOrdersAtPrice := rfl

@[simp] theorem bestOf_setOrder (b : CMEOrderBook) (p : Nat) (f : SMEOrder → SMEOrder)
    (s : ESide) : (b.setOrder p f).bestOf s = b.bestOf s := rfl

@[simp] theorem bestOf_setLevel (b : CMEOrderBook) (p : Nat)
    (f : SMEOrdersAtPrice → SMEOrdersAtPrice) (s : ESide) :
    (b.setLevel p f).bestOf s = b.bestOf s := rfl

@[simp] theorem level_setBestOf (b : CMEOrderBook) (s : ESide) (v : Option Nat) (q : Nat) :
    (b.setBestOf s v).level q = b.level q := by
  unfold setBestOf
  split <;> rfl

@[simp] theorem lfree_setBestOf (b : CMEOrderBook) (s : ESide) (v : Option Nat) (q : Nat) :
    (b.setBestOf s v).lfree q = b.lfree q := by
  unfold setBestOf
  split <;> rfl

@[simp] theorem order_setBestOf (b : CMEOrderBook) (s : ESide) (v : Option Nat) (q : Nat) :
    (b.setBestOf s v).order q = b.order q := by
  unfold setBestOf
  split <;> rfl

@[simp] theorem ofree_setBestOf (b : CMEOrderBook) (s : ESide) (v : Option Nat) (q : Nat) :
    (b.setBestOf s v).ofree q = b.ofree q := by
  unfold setBestOf
  split <;> rfl

@[simp] theorem idx_setBestOf (b : CMEOrderBook) (s : ESide) (v : Option Nat) :
    (b.setBestOf s v).m_priceOrdersAtPrice = b.m_priceOrdersAtPrice := by
  unfold setBestOf
  split <;> rfl

@[simp] theorem orderPool_setBestOf (b : CMEOrderBook) (s : ESide) (v : Option Nat) :
    (b.setBestOf s v).m_orderPool = b.m_orderPool := by
  unfold setBestOf
  split <;> rfl

@[simp] theorem levelPool_setBestOf (b : CMEOrderBook) (s : ESide) (v : Option Nat) :
    (b.setBestOf s v).m_ordersAtPricePool = b.m_ordersAtPricePool := by
  unfold setBestOf
  split <;> rfl

@[simp] theorem cidOid_setBestOf (b : CMEOrderBook) (s : ESide) (v : Option Nat) :
    (b.setBestOf s v).m_cidOidToOrder = b.m_cidOidToOrder := by
  unfold setBestOf
  split <;> rfl

@[simp] theorem emitted_setBestOf (b : CMEOrderBook) (s : ESide) (v : Option Nat) :
    (b.setBestOf s v).emitted = b.emitted := by
  unfold setBestOf
  split <;> rfl

@[simp] theorem nextId_setBestOf (b : CMEOrderBook) (s : ESide) (v : Option Nat) :
    (b.setBestOf s v).m_nextMarketOrderId = b.m_nextMarketOrderId := by
  unfold setBestOf
  split <;> rfl

theorem bestOf_setBestOf_same (b : CMEOrderBook) (s : ESide) (v : Option Nat) :
    (b.setBestOf s v).bestOf s = v := by
  unfold setBestOf bestOf
  split <;> simp_all

theorem bestOf_setBestOf_opp (b : CMEOrderBook) {s : ESide} (hs : s = .BUY ∨ s = .SELL)
    (v : Option Nat) : (b.setBestOf s v).bestOf (opp s) = b.bestOf (opp s) := by
  rcases hs with rfl | rfl <;> rfl


section Views

variable (t : Nat) (c : Nat → Nat → Option Nat) (lp : CMemoryPool SMEOrdersAtPrice)
  (bb ba : Option Nat) (ix : Nat → Option Nat) (op : CMemoryPool SMEOrder) (n : Nat)
  (e : List Emitted) (q : Nat)

@[simp] theorem level_mk : level ⟨t, c, lp, bb, ba, ix, op, n, e⟩ q = lp.obj q := rfl

@[simp] theorem lfree_mk : lfree ⟨t, c, lp, bb, ba, ix, op, n, e⟩ q = (lp.m_store q).isFree := rfl

@[simp] theorem order_mk : order ⟨t, c, lp, bb, ba, ix, op, n, e⟩ q = op.obj q := rfl

@[simp] theorem ofree_mk : ofree ⟨t, c, lp, bb, ba, ix, op, n, e⟩ q = (op.m_store q).isFree := rfl

@[simp] theorem bestOf_mk (s : ESide) :
    bestOf ⟨t, c, lp, bb, ba, ix, op, n, e⟩ s = if s = .BUY then bb else ba := rfl

end Views

@[simp] theorem obj_levelPool (b : CMEOrderBook) (q : Nat) :
    b.m_ordersAtPricePool.obj q = b.level q := rfl

@[simp] theorem obj_orderPool (b : CMEOrderBook) (q : Nat) :
    b.m_orderPool.obj q = b.order q := rfl

@[simp] theorem isFree_levelPool (b : CMEOrderBook) (q : Nat) :
    (b.m_ordersAtPricePool.m_store q).isFree = b.lfree q := rfl

@[simp] theorem isFree_orderPool (b : CMEOrderBook) (q : Nat) :
    (b.m_orderPool.m_store q).isFree = b.ofree q := rfl

@[simp] theorem levelPool_setLevel (b : CMEOrderBook) (p : Nat)
    (f : SMEOrdersAtPrice → SMEOrdersAtPrice) :
    (b.setLevel p f).m_ordersAtPricePool = b.m_ordersAtPricePool.modify p f := rfl

@[simp] theorem orderPool_setLevel (b : CMEOrderBook) (p : Nat)
    (f : SMEOrdersAtPrice → SMEOrdersAtPrice) :
    (b.setLevel p f).m_orderPool = b.m_orderPool := rfl

@[simp] theorem orderPool_setOrder (b : CMEOrderBook) (p : Nat) (f : SMEOrder → SMEOrder) :
    (b.setOrder p f).m_orderPool = b.m_orderPool.modify p f := rfl

@[simp] theorem levelPool_setOrder (b : CMEOrderBook) (p : Nat) (f : SMEOrder → SMEOrder) :
    (b.setOrder p f).m_ordersAtPricePool = b.m_ordersAtPricePool := rfl

@[simp] theorem cidOid_setLevel (b : CMEOrderBook) (p : Nat)
    (f : SMEOrdersAtPrice → SMEOrdersAtPrice) :
    (b.setLevel p f).m_cidOidToOrder = b.m_cidOidToOrder := rfl

@[simp] theorem cidOid_setOrder (b : CMEOrderBook) (p : Nat) (f : SMEOrder → SMEOrder) :
    (b.setOrder p f).m_cidOidToOrder = b.m_cidOidToOrder := rfl

@[simp] theorem emitted_setLevel (b : CMEOrderBook) (p : Nat)
    (f : SMEOrdersAtPrice → SMEOrdersAtPrice) : (b.setLevel p f).emitted = b.emitted := rfl

@[simp] theorem emitted_setOrder (b : CMEOrderBook) (p : Nat) (f : SMEOrder → SMEOrder) :
    (b.setOrder p f).emitted = b.emitted := rfl

@[simp] theorem nextId_setLevel (b : CMEOrderBook) (p : Nat)
    (f : SMEOrdersAtPrice → SMEOrdersAtPrice) :
    (b.setLevel p f).m_nextMarketOrderId = b.m_nextMarketOrderId := rfl

@[simp] theorem nextId_setOrder (b : CMEOrderBook) (p : Nat) (f : SMEOrder → SMEOrder) :
    (b.setOrder p f).m_nextMarketOrderId = b.m_nextMarketOrderId := rfl

end CMEOrderBook

end Exchange

namespace Exchange

open Common CMEOrderBook

theorem OrderOK.orderOK_transfer {b b2 : CMEOrderBook} {s : ESide} {price : Int} {o : Nat}
    (h : OrderOK b s price o) (hf : b2.ofree o = b.ofree o)
    (hd : (b2.order o).unlink = (b.order o).unlink) : OrderOK b2 s price o where
  lt := h.lt
  busy := hf.trans h.busy
  side := (congrArg SMEOrder.side hd).trans h.side
  price := (congrArg SMEOrder.price hd).trans h.price
  cid := by
    have := congrArg SMEOrder.clientId hd
    exact (show (b2.order o).clientId = (b.order o).clientId from this) ▸ h.cid
  coid := by
    have := congrArg SMEOrder.clientOrderId hd
    exact (show (b2.order o).clientOrderId = (b.order o).clientOrderId from this) ▸ h.coid

theorem LevelOK.levelOK_transfer {b b2 : CMEOrderBook} {s : ESide} {lp : Nat} {os : List Nat}
    (h : LevelOK b s lp os) (hf : b2.lfree lp = b.lfree lp)
    (hd : (b2.level lp).unlink = (b.level lp).unlink)
    (hi : b2.m_priceOrdersAtPrice (PriceToIndex (b.level lp).price) =
      b.m_priceOrdersAtPrice (PriceToIndex (b.level lp).price))
    (ho : ∀ o ∈ os, b2.order o = b.order o ∧ b2.ofree o = b.ofree o) : LevelOK b2 s lp os := by
  have hp : (b2.level lp).price = (b.level lp).price := by
    have := congrArg SMEOrdersAtPrice.price hd
    exact this
  exact {
    lt := h.lt
    busy := hf.trans h.busy
    side := (congrArg SMEOrdersAtPrice.side hd).trans h.side
    ne := h.ne
    first := (congrArg SMEOrdersAtPrice.pFirstMeOrder hd).trans h.first
    cyc := cyc_frame h.cyc (fun x hx => by
      simp only [oNext, oPrev, (ho x hx).1, and_self])
    ord := fun o hmem => by
      rw [hp]
      exact (h.ord o hmem).orderOK_transfer (ho o hmem).2 (by rw [(ho o hmem).1])
    idx := by
      rw [hp, hi]
      exact h.idx }

theorem SideOK.sideOK_transfer {b b2 : CMEOrderBook} {s : ESide} {L : SideList}
    (h : SideOK b s L) (hb : b2.bestOf s = b.bestOf s)
    (hl : ∀ lp ∈ L.levels, b2.level lp = b.level lp ∧ b2.lfree lp = b.lfree lp)
    (hi : ∀ lp ∈ L.levels, b2.m_priceOrdersAtPrice (PriceToIndex (b.level lp).price) =
      b.m_priceOrdersAtPrice (PriceToIndex (b.level lp).price))
    (ho : ∀ o ∈ L.orders, b2.order o = b.order o ∧ b2.ofree o = b.ofree o) : SideOK b2 s L where
  best := hb.trans h.best
  cyc := cyc_frame h.cyc (fun x hx => by
    simp only [lNext, lPrev, (hl x hx).1, and_self])
  lvl := fun x hx =>
    (h.lvl x hx).levelOK_transfer (hl _ (SideList.mem_levels hx)).2
      (by rw [(hl _ (SideList.mem_levels hx)).1]) (hi _ (SideList.mem_levels hx))
      (fun o hmem => ho o (SideList.mem_orders hx hmem))
  sorted := h.sorted.imp_of_mem (fun {x y} hx hy hxy => by
    rw [(hl _ (SideList.mem_levels hx)).1, (hl _ (SideList.mem_levels hy)).1]
    exact hxy)

end Exchange

namespace Exchange

open Common CMEOrderBook

theorem Struct.idx_of_mem {b : CMEOrderBook} {s : ESide} {own other : SideList}
    (h : Struct b s own other) {l : Nat} (hl : l ∈ (own ++ other).levels) :
    b.m_priceOrdersAtPrice (PriceToIndex (b.level l).price) = some l := by
  rw [SideList.levels_append] at hl
  rcases List.mem_append.1 hl with h1 | h1
  · obtain ⟨x, hx, rfl⟩ := List.mem_map.1 h1
    exact (h.ownOK.lvl x hx).idx
  · obtain ⟨x, hx, rfl⟩ := List.mem_map.1 h1
    exact (h.otherOK.lvl x hx).idx

theorem Struct.idx_inj {b : CMEOrderBook} {s : ESide} {own other : SideList}
    (h : Struct b s own other) {l1 l2 : Nat} (h1 : l1 ∈ (own ++ other).levels)
    (h2 : l2 ∈ (own ++ other).levels)
    (he : PriceToIndex (b.level l1).price = PriceToIndex (b.level l2).price) : l1 = l2 := by
  have e1 := h.idx_of_mem h1
  have e2 := h.idx_of_mem h2
  rw [he, e2] at e1
  exact (Option.some.inj e1).symm

@[simp] theorem bestOf_fold (b : CMEOrderBook) (s : ESide) :
    (if s = .BUY then b.m_pBidsByPrice else b.m_pAsksByPrice) = b.bestOf s := rfl

theorem Struct.mem_other_ne {b : CMEOrderBook} {s : ESide} {own other : SideList}
    (h : Struct b s own other) {l1 l2 : Nat} (h1 : l1 ∈ own.levels) (h2 : l2 ∈ other.levels) :
    l2 ≠ l1 := by
  have := h.lnodup
  rw [SideList.levels_append] at this
  intro e
  subst e
  exact (List.nodup_append.1 this).2.2 h1 h2

theorem SMEOrdersAtPrice.level_ext_links {x y : SMEOrdersAtPrice} (h : x.unlink = y.unlink)
    (hn : x.pNextEntry = y.pNextEntry) (hp : x.pPrevEntry = y.pPrevEntry) : x = y := by
  cases x
  cases y
  simp only [SMEOrdersAtPrice.unlink, SMEOrdersAtPrice.mk.injEq] at h
  simp only [SMEOrdersAtPrice.mk.injEq]
  simp at hn hp
  tauto

theorem SMEOrder.order_ext_links {x y : SMEOrder} (h : x.unlink = y.unlink)
    (hn : x.pNextOrder = y.pNextOrder) (hp : x.pPrevOrder = y.pPrevOrder) : x = y := by
  cases x
  cases y
  simp only [SMEOrder.unlink, SMEOrder.mk.injEq] at h
  simp only [SMEOrder.mk.injEq]
  simp at hn hp
  tauto

/-- Unlinking a level from a side with at least two levels, seen on the fields of the book. -/
theorem Struct.removeLevel {b b5 : CMEOrderBook} {s : ESide} {A B other : SideList}
    {lp u v : Nat} {os : List Nat}
    (h : Struct b s (A ++ (lp, os) :: B) other)
    (hv : b.lNext lp = some v) (hu : b.lPrev lp = some u) (hvl : v ≠ lp)
    (V1 : ∀ q, q ≠ lp → (b5.level q).unlink = (b.level q).unlink)
    (Vn : ∀ q, q ≠ lp → b5.lNext q = if q = u then some v else b.lNext q)
    (Vp : ∀ q, q ≠ lp → b5.lPrev q = if q = v then some u else b.lPrev q)
    (V2 : ∀ q, q ≠ lp → b5.lfree q = b.lfree q)
    (V3 : b5.m_priceOrdersAtPrice =
      Function.update b.m_priceOrdersAtPrice (PriceToIndex (b.level lp).price) none)
    (V4 : b5.bestOf s = if b.bestOf s = some lp then some v else b.bestOf s)
    (V4o : b5.bestOf (opp s) = b.bestOf (opp s))
    (V5 : b5.m_orderPool = b.m_orderPool)
    (V6 : PoolOK b5.m_ordersAtPricePool ME_MAX_PRICE_LEVELS) :
    Struct b5 s (A ++ B) other := by
  have hLs : (A ++ (lp, os) :: B).levels = A.levels ++ lp :: B.levels := by
    simp [SideList.levels]
  have hcyc := h.ownOK.cyc
  rw [hLs] at hcyc
  have hcyc2 : Cyc b.lNext b.lPrev (lp :: (B.levels ++ A.levels)) := by
    simpa using cyc_rotate hcyc
  have hnd := h.lnodup
  rw [SideList.levels_append, hLs] at hnd
  have hndown : (A.levels ++ lp :: B.levels).Nodup := List.Nodup.of_append_left hnd
  have hnd2 : (lp :: (B.levels ++ A.levels)).Nodup := by
    refine (List.Perm.nodup_iff ?_).1 hndown
    have hp : (A.levels ++ lp :: B.levels).Perm ((lp :: B.levels) ++ A.levels) :=
      List.perm_append_comm
    simpa using hp
  have hbest := h.ownOK.best
  rw [hLs] at hbest
  have hord : ∀ q, b5.order q = b.order q ∧ b5.ofree q = b.ofree q := by
    intro q
    refine ⟨?_, ?_⟩
    · show b5.m_orderPool.obj q = b.m_orderPool.obj q
      rw [V5]
    · show (b5.m_orderPool.m_store q).isFree = (b.m_orderPool.m_store q).isFree
      rw [V5]
  have hlpmem : lp ∈ (A ++ (lp, os) :: B).levels := by
    rw [hLs]
    simp
  have hlpall : lp ∈ ((A ++ (lp, os) :: B) ++ other).levels := by
    rw [SideList.levels_append]
    exact List.mem_append_left _ hlpmem
  have hsub : ∀ q, q ∈ ((A ++ B) ++ other).levels → q ∈ ((A ++ (lp, os) :: B) ++ other).levels := by
    intro q hq
    simp only [SideList.levels_append, SideList.levels_cons, List.mem_append,
      List.mem_cons] at hq ⊢
    tauto
  have hnelp : ∀ q, q ∈ ((A ++ B) ++ other).levels → q ≠ lp := by
    intro q hq e
    subst e
    simp only [SideList.levels_append, List.mem_append] at hq
    have h1 := List.nodup_append.1 hnd
    have h2 := List.nodup_append.1 h1.1
    have h3 := List.nodup_cons.1 h2.2.1
    rcases hq with (hq | hq) | hq
    · exact h2.2.2 hq (List.mem_cons_self _ _)
    · exact h3.1 hq
    · exact h1.2.2 (by simp) hq
  have hidxne : ∀ q, q ∈ ((A ++ B) ++ other).levels →
      b5.m_priceOrdersAtPrice (PriceToIndex (b.level q).price) =
        b.m_priceOrdersAtPrice (PriceToIndex (b.level q).price) := by
    intro q hq
    rw [V3, Function.update_apply, if_neg]
    intro e
    exact hnelp q hq (h.idx_inj (hsub q hq) hlpall e)
  generalize hM : B.levels ++ A.levels = M at hcyc2 hnd2
  cases M with
  | nil =>
    exact absurd (Option.some.inj ((cyc_singleton.1 hcyc2).1.symm.trans hv)).symm hvl
  | cons w M' =>
    obtain ⟨z, hz⟩ : ∃ z, (w :: M').getLast? = some z :=
      ⟨_, List.getLast?_eq_getLast _ (List.cons_ne_nil _ _)⟩
    have hz2 : (lp :: w :: M').getLast? = some z := by
      rw [List.getLast?_cons_cons]
      exact hz
    have e1 := Cyc.head_next hcyc2
    have e2 := Cyc.last_head hcyc2 hz2
    have hwv : w = v := Option.some.inj (e1.1.symm.trans hv)
    have hzu : z = u := Option.some.inj (e2.2.symm.trans hu)
    subst hwv hzu
    have hMmem : ∀ q, q ∈ w :: M' → q ∈ (A ++ B).levels := by
      intro q hq
      rw [← hM] at hq
      simp only [SideList.levels_append, List.mem_append] at hq ⊢
      tauto
    have hMne : ∀ q, q ∈ w :: M' → q ≠ lp := by
      intro q hq e
      subst e
      exact (List.nodup_cons.1 hnd2).1 hq
    have hcyc5 : Cyc b5.lNext b5.lPrev (w :: M') := by
      refine cyc_remove_head hcyc2 hnd2 rfl hz ?_ ?_ ?_ ?_
      · rw [Vn z (hMne z (List.mem_of_getLast?_eq_some hz)), if_pos rfl]
      · rw [Vp w (hMne w (List.mem_cons_self _ _)), if_pos rfl]
      · intro a ha hne
        rw [Vn a (hMne a ha), if_neg hne]
      · intro a ha hne
        rw [Vp a (hMne a ha), if_neg hne]
    have hothne : ∀ q ∈ other.levels, q ≠ w ∧ q ≠ z := by
      intro q hq
      have hw : w ∈ (A ++ (lp, os) :: B).levels := by
        have := hMmem w (List.mem_cons_self _ _)
        simp only [SideList.levels_append, SideList.levels_cons, List.mem_append,
          List.mem_cons] at this ⊢
        tauto
      have hz' : z ∈ (A ++ (lp, os) :: B).levels := by
        have := hMmem z (List.mem_of_getLast?_eq_some hz)
        simp only [SideList.levels_append, SideList.levels_cons, List.mem_append,
          List.mem_cons] at this ⊢
        tauto
      exact ⟨h.mem_other_ne hw hq, h.mem_other_ne hz' hq⟩
    refine ⟨?_, ?_, ?_, ?_, ?_, V6, ?_⟩
    · refine ⟨?_, ?_, ?_, ?_⟩
      · rw [V4, hbest]
        cases A with
        | nil =>
          simp only [SideList.levels, List.map_nil, List.nil_append, List.head?_cons, if_true]
          simp only [SideList.levels, List.map_nil, List.append_nil] at hM
          simp [SideList.levels, hM]
        | cons a A' =>
          have : a.1 ≠ lp := by
            intro e
            have hmem1 : lp ∈ SideList.levels (a :: A') := by
              simp [SideList.levels, ← e]
            exact (List.nodup_append.1 hndown).2.2 hmem1 (List.mem_cons_self _ _)
          simp [SideList.levels, this]
      · rw [SideList.levels_append]
        rw [← hM] at hcyc5
        exact cyc_rotate hcyc5
      · intro x hx
        have hx0 : x ∈ A ++ (lp, os) :: B := by
          simp only [List.mem_append, List.mem_cons] at hx ⊢
          tauto
        have hxl : x.1 ∈ ((A ++ B) ++ other).levels := by
          rw [SideList.levels_append]
          exact List.mem_append_left _ (SideList.mem_levels hx)
        exact (h.ownOK.lvl x hx0).levelOK_transfer (V2 _ (hnelp _ hxl)) (V1 _ (hnelp _ hxl))
          (hidxne _ hxl) (fun o _ => hord o)
      · have hsl : (A ++ B).Sublist (A ++ (lp, os) :: B) :=
          List.Sublist.append (List.Sublist.refl A) (List.sublist_cons_self _ _)
        refine (h.ownOK.sorted.sublist hsl).imp_of_mem ?_
        intro x y hx hy hxy
        have hxl : x.1 ∈ ((A ++ B) ++ other).levels := by
          rw [SideList.levels_append]
          exact List.mem_append_left _ (SideList.mem_levels hx)
        have hyl : y.1 ∈ ((A ++ B) ++ other).levels := by
          rw [SideList.levels_append]
          exact List.mem_append_left _ (SideList.mem_levels hy)
        have px := congrArg SMEOrdersAtPrice.price (V1 _ (hnelp _ hxl))
        have py := congrArg SMEOrdersAtPrice.price (V1 _ (hnelp _ hyl))
        simp only [SMEOrdersAtPrice.unlink] at px py
        rw [px, py]
        exact hxy
    · refine h.otherOK.sideOK_transfer V4o ?_ ?_ (fun o _ => hord o)
      · intro q hq
        have hql : q ∈ ((A ++ B) ++ other).levels := by
          rw [SideList.levels_append]
          exact List.mem_append_right _ hq
        refine ⟨SMEOrdersAtPrice.level_ext_links (V1 _ (hnelp _ hql)) ?_ ?_, V2 _ (hnelp _ hql)⟩
        · have := Vn q (hnelp _ hql)
          rw [if_neg (hothne q hq).2] at this
          exact this
        · have := Vp q (hnelp _ hql)
          rw [if_neg (hothne q hq).1] at this
          exact this
      · intro q hq
        exact hidxne q (by
          rw [SideList.levels_append]
          exact List.mem_append_right _ hq)
    · have hsl : ((A ++ B) ++ other).levels.Sublist ((A ++ (lp, os) :: B) ++ other).levels := by
        simp only [SideList.levels]
        refine List.Sublist.map _ (List.Sublist.append ?_ (List.Sublist.refl _))
        exact List.Sublist.append (List.Sublist.refl A) (List.sublist_cons_self _ _)
      exact h.lnodup.sublist hsl
    · have hsl : ((A ++ B) ++ other).orders.Sublist ((A ++ (lp, os) :: B) ++ other).orders := by
        simp only [SideList.orders_append, SideList.orders_cons]
        refine List.Sublist.append (List.Sublist.append (List.Sublist.refl _) ?_)
          (List.Sublist.refl _)
        exact List.sublist_append_right _ _
      exact h.onodup.sublist hsl
    · intro k lq hk
      rw [V3, Function.update_apply] at hk
      split at hk
      · simp at hk
      · rename_i hkne
        have h1 := h.idx k lq hk
        have h2 : lq ≠ lp := by
          intro e
          subst e
          exact hkne h1.2.symm
        refine ⟨?_, ?_⟩
        · have := h1.1
          simp only [SideList.levels_append, SideList.levels_cons, List.mem_append,
            List.mem_cons] at this ⊢
          tauto
        · have px := congrArg SMEOrdersAtPrice.price (V1 _ h2)
          simp only [SMEOrdersAtPrice.unlink] at px
          rw [px]
          exact h1.2
    · rw [V5]
      exact h.opool

theorem RemoveOrdersAtPrice_spec {b : CMEOrderBook} {s : ESide} {A B other : SideList}
    {lp : Nat} {os : List Nat} (hs : s = .BUY ∨ s = .SELL)
    (h : Struct b s (A ++ (lp, os) :: B) other) :
    ∃ b2, b.RemoveOrdersAtPrice s (b.level lp).price = .ok b2 ∧
      Struct b2 s (A ++ B) other ∧
      b2.m_orderPool = b.m_orderPool ∧ b2.m_cidOidToOrder = b.m_cidOidToOrder ∧
      b2.emitted = b.emitted ∧ b2.m_nextMarketOrderId = b.m_nextMarketOrderId ∧
      (∀ q, q ≠ lp → (b2.level q).unlink = (b.level q).unlink) ∧
      PoolLe b.m_ordersAtPricePool b2.m_ordersAtPricePool ∧
      (∀ q, (b2.level q).price = (b.level q).price) := by
  have hl : LevelOK b s lp os := h.ownOK.lvl (lp, os) (by simp)
  have hidx := hl.idx
  have hLs : (A ++ (lp, os) :: B).levels = A.levels ++ lp :: B.levels := by
    simp [SideList.levels]
  have hcyc := h.ownOK.cyc
  rw [hLs] at hcyc
  have hcyc2 : Cyc b.lNext b.lPrev (lp :: (B.levels ++ A.levels)) := by
    simpa using cyc_rotate hcyc
  have hnd := h.lnodup
  rw [SideList.levels_append, hLs] at hnd
  have hnd2 : (lp :: (B.levels ++ A.levels)).Nodup := by
    have h1 : (A.levels ++ lp :: B.levels).Nodup := List.Nodup.of_append_left hnd
    refine (List.Perm.nodup_iff ?_).1 h1
    have hp : (A.levels ++ lp :: B.levels).Perm ((lp :: B.levels) ++ A.levels) :=
      List.perm_append_comm
    simpa using hp
  have hlt : lp < b.m_ordersAtPricePool.numElems := by
    rw [h.lpool.1]
    exact hl.lt
  have hbusy := hl.busy
  have hbest := h.ownOK.best
  rw [hLs] at hbest
  generalize hM : B.levels ++ A.levels = M at hcyc2 hnd2
  cases M with
  | nil =>
    have hA : A = [] := by
      have := (List.append_eq_nil.1 hM).2
      simpa [SideList.levels] using this
    have hB : B = [] := by
      have := (List.append_eq_nil.1 hM).1
      simpa [SideList.levels] using this
    subst hA hB
    have hself := cyc_singleton.1 hcyc2
    simp only [lNext, lPrev] at hself
    cases hres : b.RemoveOrdersAtPrice s (b.level lp).price with
    | error e =>
      simp [RemoveOrdersAtPrice, hidx, hself, bind, Except.bind, pure, Except.pure,
        CMemoryPool.Deallocate_def, hlt, hbusy] at hres
    | ok b2 =>
      simp [RemoveOrdersAtPrice, hidx, hself, bind, Except.bind, pure, Except.pure,
        CMemoryPool.Deallocate_def, hlt, hbusy] at hres
      subst hres
      have hlpmem : lp ∈ SideList.levels ([] ++ [(lp, os)]) := by simp [SideList.levels]
      have hne : ∀ q ∈ other.levels, q ≠ lp := fun q hq => h.mem_other_ne hlpmem hq
      have hine : ∀ q ∈ other.levels,
          PriceToIndex (b.level q).price ≠ PriceToIndex (b.level lp).price := by
        intro q hq he
        refine hne q hq (h.idx_inj ?_ ?_ he)
        · rw [SideList.levels_append]
          exact List.mem_append_right _ hq
        · rw [SideList.levels_append]
          exact List.mem_append_left _ hlpmem
      refine ⟨_, rfl, ?_, rfl, rfl, rfl, rfl, ?_, CMemoryPool.PoolLe_release _ _,
        fun q => by simp⟩
      · refine ⟨?_, ?_, ?_, ?_, ?_, ?_, ?_⟩
        · refine ⟨?_, trivial, ?_, List.Pairwise.nil⟩
          · simp [bestOf_setBestOf_same, SideList.levels]
          · intro x hx
            simp at hx
        · refine h.otherOK.sideOK_transfer ?_ ?_ ?_ ?_
          · simp [bestOf_setBestOf_opp _ hs]
          · intro q hq
            simp [hne q hq]
          · intro q hq
            simp [Function.update_apply, hine q hq]
          · intro o _
            simp
        · have := h.lnodup
          rw [SideList.levels_append] at this ⊢
          exact List.Nodup.of_append_right this
        · have := h.onodup
          rw [SideList.orders_append] at this ⊢
          exact List.Nodup.of_append_right this
        · intro k lq hk
          simp only [Function.update_apply] at hk
          split at hk
          · simp at hk
          · rename_i hkne
            have h1 := h.idx k lq hk
            have h2 : lq ≠ lp := by
              intro e
              subst e
              exact hkne h1.2.symm
            refine ⟨?_, ?_⟩
            · have := h1.1
              simp only [SideList.levels_append, List.mem_append] at this ⊢
              rcases this with h3 | h3
              · simp [SideList.levels] at h3
                exact absurd h3 h2
              · exact Or.inr h3
            · simp
              exact h1.2
        · exact CMemoryPool.PoolOK_release h.lpool lp
        · exact h.opool
      · intro q _
        simp
  | cons v M' =>
    obtain ⟨u, hu⟩ : ∃ u, (v :: M').getLast? = some u :=
      ⟨_, List.getLast?_eq_getLast _ (List.cons_ne_nil _ _)⟩
    have hu2 : (lp :: v :: M').getLast? = some u := by
      rw [List.getLast?_cons_cons]
      exact hu
    have e1 := Cyc.head_next hcyc2
    have e2 := Cyc.last_head hcyc2 hu2
    have hvl : v ≠ lp := by
      intro e
      subst e
      exact (List.nodup_cons.1 hnd2).1 (List.mem_cons_self _ _)
    have hul : u ≠ lp := by
      intro e
      subst e
      exact (List.nodup_cons.1 hnd2).1 (List.mem_of_getLast?_eq_some hu)
    have hlv : ¬ lp = v := fun e => hvl e.symm
    have hlu : ¬ lp = u := fun e => hul e.symm
    simp only [lNext, lPrev] at e1 e2
    have hb2 : (some lp = b.bestOf s) ↔ (b.bestOf s = some lp) := eq_comm
    by_cases hb : b.bestOf s = some lp <;>
    · cases hres : b.RemoveOrdersAtPrice s (b.level lp).price with
      | error e =>
        simp [RemoveOrdersAtPrice, hidx, e1, e2, hvl, hul, hlv, hlu, hb2, hb, bind, Except.bind,
          pure, Except.pure, CMemoryPool.Deallocate_def, hlt, hbusy] at hres
      | ok b2 =>
        simp [RemoveOrdersAtPrice, hidx, e1, e2, hvl, hul, hlv, hlu, hb2, hb, bind, Except.bind,
          pure, Except.pure, CMemoryPool.Deallocate_def, hlt, hbusy] at hres
        subst hres
        clear hb2
        have o1 : (lp = u) = (u = lp) := propext eq_comm
        have o2 : (lp = v) = (v = lp) := propext eq_comm
        have o3 : (u = v) = (v = u) := propext eq_comm
        refine ⟨_, rfl, Struct.removeLevel h e1.1 e2.2 hvl ?_ ?_ ?_ ?_ rfl ?_ ?_ rfl ?_,
          rfl, rfl, rfl, rfl, ?_, ?_, ?_⟩
        · intro q hq
          have o4 : (u = q) = (q = u) := propext eq_comm
          have o5 : (v = q) = (q = v) := propext eq_comm
          have o6 : (lp = q) = (q = lp) := propext eq_comm
          by_cases h1 : q = u <;> by_cases h2 : q = v <;> by_cases h3 : v = u <;>
            first | omega | simp [o1, o2, o3, o4, o5, o6, hq, h1, h2, h3, hul, hvl, SMEOrdersAtPrice.unlink]
        · intro q hq
          have o4 : (u = q) = (q = u) := propext eq_comm
          have o5 : (v = q) = (q = v) := propext eq_comm
          have o6 : (lp = q) = (q = lp) := propext eq_comm
          by_cases h1 : q = u <;> by_cases h2 : q = v <;> by_cases h3 : v = u <;>
            first | omega | simp [lNext, o1, o2, o3, o4, o5, o6, hq, h1, h2, h3, hul, hvl]
        · intro q hq
          have o4 : (u = q) = (q = u) := propext eq_comm
          have o5 : (v = q) = (q = v) := propext eq_comm
          have o6 : (lp = q) = (q = lp) := propext eq_comm
          by_cases h1 : q = u <;> by_cases h2 : q = v <;> by_cases h3 : v = u <;>
            first | omega | simp [lPrev, o1, o2, o3, o4, o5, o6, hq, h1, h2, h3, hul, hvl]
        · intro q hq
          simp [hq]
        · simp [bestOf_setBestOf_same, hb]
        · simp [bestOf_setBestOf_opp _ hs]
        · exact CMemoryPool.PoolOK_release
            (CMemoryPool.PoolOK_modify (CMemoryPool.PoolOK_modify
              (CMemoryPool.PoolOK_modify h.lpool _ _) _ _) _ _) _
        · intro q hq
          have o4 : (u = q) = (q = u) := propext eq_comm
          have o5 : (v = q) = (q = v) := propext eq_comm
          have o6 : (lp = q) = (q = lp) := propext eq_comm
          by_cases h1 : q = u <;> by_cases h2 : q = v <;> by_cases h3 : v = u <;>
            first | omega | simp [o1, o2, o3, o4, o5, o6, hq, h1, h2, h3, hul, hvl, SMEOrdersAtPrice.unlink]
        · exact CMemoryPool.PoolLe_trans (CMemoryPool.PoolLe_trans (CMemoryPool.PoolLe_trans
            (CMemoryPool.PoolLe_modify _ _ _) (CMemoryPool.PoolLe_modify _ _ _))
            (CMemoryPool.PoolLe_modify _ _ _)) (CMemoryPool.PoolLe_release _ _)
        · intro q
          have o4 : (u = q) = (q = u) := propext eq_comm
          have o5 : (v = q) = (q = v) := propext eq_comm
          have o6 : (lp = q) = (q = lp) := propext eq_comm
          by_cases h0 : q = lp <;> by_cases h1 : q = u <;> by_cases h2 : q = v <;>
            by_cases h3 : v = u <;>
            first | omega | simp [o1, o2, o3, o4, o5, o6, h0, h1, h2, h3, hul, hvl]

end Exchange

namespace Exchange

open Common CMEOrderBook

theorem order_views_of_pool {b b2 : CMEOrderBook} (V5 : b2.m_orderPool = b.m_orderPool) (q : Nat) :
    b2.order q = b.order q ∧ b2.ofree q = b.ofree q := by
  refine ⟨?_, ?_⟩
  · show b2.m_orderPool.obj q = b.m_orderPool.obj q
    rw [V5]
  · show (b2.m_orderPool.m_store q).isFree = (b.m_orderPool.m_store q).isFree
    rw [V5]

theorem price_of_unlink {x y : SMEOrdersAtPrice} (h : x.unlink = y.unlink) : x.price = y.price := by
  have := congrArg SMEOrdersAtPrice.price h
  exact this

/-- Linking a fresh level between the levels `A` (more aggressive) and `B` (less aggressive),
seen on the fields of the book. -/
theorem Struct.insertLevel {b b2 : CMEOrderBook} {s : ESide} {A B other : SideList}
    {pNew o u v : Nat}
    (h : Struct b s (A ++ B) other)
    (hnew : pNew ∉ ((A ++ B) ++ other).levels) (hlt : pNew < ME_MAX_PRICE_LEVELS)
    (hbusy : b.lfree pNew = false) (hside : (b.level pNew).side = s)
    (hfirst : (b.level pNew).pFirstMeOrder = some o)
    (hidx : b.m_priceOrdersAtPrice (PriceToIndex (b.level pNew).price) = none)
    (ho : o ∉ ((A ++ B) ++ other).orders) (hoOK : OrderOK b s (b.level pNew).price o)
    (hon : b.oNext o = some o) (hop : b.oPrev o = some o)
    (hA : ∀ x ∈ A, better s (b.level x.1).price (b.level pNew).price)
    (hB : ∀ x ∈ B, better s (b.level pNew).price (b.level x.1).price)
    (hv : (B.levels ++ A.levels ++ [pNew]).head? = some v)
    (hu : (pNew :: (B.levels ++ A.levels)).getLast? = some u)
    (V1 : ∀ q, (b2.level q).unlink = (b.level q).unlink)
    (Vn : ∀ q, b2.lNext q = if q = pNew then some v else if q = u then some pNew else b.lNext q)
    (Vp : ∀ q, b2.lPrev q = if q = pNew then some u else if q = v then some pNew else b.lPrev q)
    (V2 : ∀ q, b2.lfree q = b.lfree q)
    (V3 : b2.m_priceOrdersAtPrice =
      Function.update b.m_priceOrdersAtPrice (PriceToIndex (b.level pNew).price) (some pNew))
    (V4 : b2.bestOf s = if A = [] then some pNew else b.bestOf s)
    (V4o : b2.bestOf (opp s) = b.bestOf (opp s))
    (V5 : b2.m_orderPool = b.m_orderPool)
    (V6 : PoolOK b2.m_ordersAtPricePool ME_MAX_PRICE_LEVELS) :
    Struct b2 s (A ++ (pNew, [o]) :: B) other := by
  have hord := order_views_of_pool V5
  have hpr : ∀ q, (b2.level q).price = (b.level q).price := fun q => price_of_unlink (V1 q)
  have hLs : (A ++ (pNew, [o]) :: B).levels = A.levels ++ pNew :: B.levels := by
    simp [SideList.levels]
  have hnd := h.lnodup
  rw [SideList.levels_append, SideList.levels_append] at hnd
  rw [SideList.levels_append, SideList.levels_append] at hnew
  have hnewA : pNew ∉ A.levels := fun hm => hnew (by simp [hm])
  have hnewB : pNew ∉ B.levels := fun hm => hnew (by simp [hm])
  have hnewO : pNew ∉ other.levels := fun hm => hnew (by simp [hm])
  have hndown : (A.levels ++ B.levels).Nodup := List.Nodup.of_append_left hnd
  have hndM : (pNew :: (B.levels ++ A.levels)).Nodup := by
    refine List.nodup_cons.2 ⟨by simp [hnewA, hnewB], ?_⟩
    have hp : (A.levels ++ B.levels).Perm (B.levels ++ A.levels) := List.perm_append_comm
    exact (List.Perm.nodup_iff hp).1 hndown
  have hidxne : ∀ q, q ∈ ((A ++ B) ++ other).levels →
      b2.m_priceOrdersAtPrice (PriceToIndex (b.level q).price) =
        b.m_priceOrdersAtPrice (PriceToIndex (b.level q).price) := by
    intro q hq
    rw [V3, Function.update_apply, if_neg]
    intro e
    have := h.idx_of_mem hq
    rw [e, hidx] at this
    exact Option.noConfusion this
  have hcycM : Cyc b.lNext b.lPrev (B.levels ++ A.levels) := by
    have := h.ownOK.cyc
    rw [SideList.levels_append] at this
    exact cyc_rotate this
  have hcyc2 : Cyc b2.lNext b2.lPrev (pNew :: (B.levels ++ A.levels)) := by
    generalize hM : B.levels ++ A.levels = M at hcycM hndM hv hu
    cases M with
    | nil =>
      simp only [List.nil_append, List.head?_cons, Option.some.injEq] at hv
      simp only [List.getLast?_singleton, Option.some.injEq] at hu
      subst hv hu
      refine cyc_singleton.2 ⟨?_, ?_⟩
      · rw [Vn, if_pos rfl]
      · rw [Vp, if_pos rfl]
    | cons w M' =>
      simp only [List.cons_append, List.head?_cons, Option.some.injEq] at hv
      rw [List.getLast?_cons_cons] at hu
      subst hv
      have hwne : w ≠ pNew := by
        intro e
        subst e
        exact (List.nodup_cons.1 hndM).1 (List.mem_cons_self _ _)
      have hune : u ≠ pNew := by
        intro e
        subst e
        exact (List.nodup_cons.1 hndM).1 (List.mem_of_getLast?_eq_some hu)
      have hMne : ∀ q, q ∈ w :: M' → q ≠ pNew := by
        intro q hq e
        subst e
        exact (List.nodup_cons.1 hndM).1 hq
      refine cyc_insert_head hcycM hndM rfl hu ?_ ?_ ?_ ?_ ?_ ?_
      · rw [Vn, if_pos rfl]
      · rw [Vp, if_neg hwne, if_pos rfl]
      · rw [Vn, if_neg hune, if_pos rfl]
      · rw [Vp, if_pos rfl]
      · intro a ha hne
        rw [Vn, if_neg (hMne a ha), if_neg hne]
      · intro a ha hne
        rw [Vp, if_neg (hMne a ha), if_neg hne]
  have huv : ∀ q ∈ other.levels, q ≠ pNew ∧ q ≠ u ∧ q ≠ v := by
    intro q hq
    have hqne : q ≠ pNew := fun e => hnewO (e ▸ hq)
    have hdisj := (List.nodup_append.1 hnd).2.2
    refine ⟨hqne, ?_, ?_⟩
    · intro e
      subst e
      have hm := List.mem_of_getLast?_eq_some hu
      rcases List.mem_cons.1 hm with e | hm
      · exact hqne e
      · refine hdisj ?_ hq
        simp only [List.mem_append] at hm ⊢
        tauto
    · intro e
      subst e
      have hm := List.mem_of_mem_head? hv
      simp only [List.mem_append, List.mem_singleton] at hm
      rcases hm with (hm | hm) | hm
      · exact hdisj (List.mem_append_right _ hm) hq
      · exact hdisj (List.mem_append_left _ hm) hq
      · exact hqne hm
  refine ⟨?_, ?_, ?_, ?_, ?_, V6, ?_⟩
  · refine ⟨?_, ?_, ?_, ?_⟩
    · rw [V4, hLs]
      cases A with
      | nil => simp [SideList.levels]
      | cons a A' =>
        have := h.ownOK.best
        simp only [SideList.levels, List.cons_append, List.map_cons, List.head?_cons] at this ⊢
        simp [this]
    · rw [hLs]
      have : Cyc b2.lNext b2.lPrev ((pNew :: B.levels) ++ A.levels) := hcyc2
      exact cyc_rotate this
    · intro x hx
      rcases List.mem_append.1 hx with hx | hx
      · have hxl : x.1 ∈ ((A ++ B) ++ other).levels :=
          SideList.mem_levels (List.mem_append_left _ (List.mem_append_left _ hx))
        exact (h.ownOK.lvl x (List.mem_append_left _ hx)).levelOK_transfer (V2 _) (V1 _)
          (hidxne _ hxl) (fun o _ => hord o)
      · rcases List.mem_cons.1 hx with rfl | hx
        · refine ⟨hlt, (V2 _).trans hbusy, (congrArg SMEOrdersAtPrice.side (V1 _)).trans hside,
            by simp, ?_, ?_, ?_, ?_⟩
          · exact (congrArg SMEOrdersAtPrice.pFirstMeOrder (V1 pNew)).trans hfirst
          · refine cyc_singleton.2 ⟨?_, ?_⟩
            · show (b2.order o).pNextOrder = some o
              rw [(hord o).1]
              exact hon
            · show (b2.order o).pPrevOrder = some o
              rw [(hord o).1]
              exact hop
          · intro o' ho'
            simp only [List.mem_singleton] at ho'
            subst ho'
            show OrderOK b2 s (b2.level pNew).price o'
            rw [hpr]
            exact hoOK.orderOK_transfer (hord o').2 (by rw [(hord o').1])
          · show b2.m_priceOrdersAtPrice (PriceToIndex (b2.level pNew).price) = some pNew
            rw [hpr, V3, Function.update_same]
        · have hxl : x.1 ∈ ((A ++ B) ++ other).levels :=
            SideList.mem_levels (List.mem_append_left _ (List.mem_append_right _ hx))
          exact (h.ownOK.lvl x (List.mem_append_right _ hx)).levelOK_transfer (V2 _) (V1 _)
            (hidxne _ hxl) (fun o _ => hord o)
    · have hso := h.ownOK.sorted
      rw [List.pairwise_append] at hso ⊢
      refine ⟨?_, ?_, ?_⟩
      · exact hso.1.imp (fun {x y} hxy => by
          rw [hpr, hpr]
          exact hxy)
      · rw [List.pairwise_cons]
        refine ⟨?_, ?_⟩
        · intro y hy
          show better s (b2.level pNew).price (b2.level y.1).price
          rw [hpr, hpr]
          exact hB y hy
        · exact hso.2.1.imp (fun {x y} hxy => by
            rw [hpr, hpr]
            exact hxy)
      · intro x hx y hy
        rw [hpr, hpr]
        rcases List.mem_cons.1 hy with rfl | hy
        · exact hA x hx
        · exact hso.2.2 x hx y hy
  · refine h.otherOK.sideOK_transfer V4o ?_ ?_ (fun o _ => hord o)
    · intro q hq
      obtain ⟨h1, h2, h3⟩ := huv q hq
      refine ⟨SMEOrdersAtPrice.level_ext_links (V1 _) ?_ ?_, V2 _⟩
      · have := Vn q
        rw [if_neg h1, if_neg h2] at this
        exact this
      · have := Vp q
        rw [if_neg h1, if_neg h3] at this
        exact this
    · intro q hq
      exact hidxne q (SideList.levels_append _ _ ▸ List.mem_append_right _ hq)
  · rw [SideList.levels_append, hLs]
    have hp : (pNew :: (A.levels ++ B.levels ++ other.levels)).Perm
        (A.levels ++ pNew :: B.levels ++ other.levels) := by
      simp only [List.append_assoc]
      exact (List.perm_middle).symm
    refine (List.Perm.nodup_iff hp).1 (List.nodup_cons.2 ⟨?_, hnd⟩)
    simp [hnewA, hnewB, hnewO]
  · have hnd' := h.onodup
    rw [SideList.orders_append, SideList.orders_append] at hnd' ho
    rw [SideList.orders_append, SideList.orders_append, SideList.orders_cons]
    have hp : (o :: (A.orders ++ B.orders ++ other.orders)).Perm
        (A.orders ++ ([o] ++ B.orders) ++ other.orders) := by
      simp only [List.append_assoc, List.singleton_append]
      exact (List.perm_middle).symm
    exact (List.Perm.nodup_iff hp).1 (List.nodup_cons.2 ⟨ho, hnd'⟩)
  · intro k lq hk
    rw [V3, Function.update_apply] at hk
    rw [hpr]
    split at hk
    · rename_i hke
      have : lq = pNew := (Option.some.inj hk).symm
      subst this
      refine ⟨?_, hke.symm⟩
      rw [SideList.levels_append, hLs]
      simp
    · have h1 := h.idx k lq hk
      refine ⟨?_, h1.2⟩
      have := h1.1
      simp only [SideList.levels_append, SideList.levels_cons, List.mem_append,
        List.mem_cons] at this ⊢
      tauto
  · rw [V5]
    exact h.opool

end Exchange

namespace Exchange

open Common CMEOrderBook

section Links

variable {α : Type}

/-- The successor link of a node of a circular list, read off the listing. -/
theorem Cyc.next_of_split {nxt prv : α → Option α} {P R : List α} {t n : α}
    (h : Cyc nxt prv (P ++ t :: R)) (hn : (R ++ P ++ [t]).head? = some n) : nxt t = some n := by
  have h2 : Cyc nxt prv ((t :: R) ++ P) := cyc_rotate h
  generalize hM : R ++ P = M at hn
  have h3 : Cyc nxt prv (t :: M) := by
    rw [← hM]
    exact h2
  cases M with
  | nil =>
    simp only [List.nil_append, List.head?_cons, Option.some.injEq] at hn
    subst hn
    exact (cyc_singleton.1 h3).1
  | cons w M' =>
    simp only [List.cons_append, List.head?_cons, Option.some.injEq] at hn
    subst hn
    exact (Cyc.head_next h3).1

/-- The predecessor link of a node of a circular list, read off the listing. -/
theorem Cyc.prev_of_split {nxt prv : α → Option α} {P R : List α} {t p : α}
    (h : Cyc nxt prv (P ++ t :: R)) (hp : (t :: (R ++ P)).getLast? = some p) :
    prv t = some p := by
  have h2 : Cyc nxt prv (t :: (R ++ P)) := cyc_rotate h
  exact (Cyc.last_head h2 hp).2

end Links

theorem addAfter_eq {s : ESide} (hs : s = .BUY ∨ s = .SELL) (price tp : Int) :
    addAfter s price tp = decide (better s tp price) := by
  rcases hs with rfl | rfl <;> simp [addAfter, better]

/-- The scan of `AddOrdersAtPrice` stops at the first level that is not more aggressive than
the new price. -/
theorem AddOrdersAtPriceLoop_found {b : CMEOrderBook} {s : ESide} {price : Int} {best q : Nat}
    {Q2 : List Nat} (hq : q ≠ best) (hnq : addAfter s price (b.level q).price = false) :
    ∀ (S P : List Nat) (fuel : Nat) (t : Nat), S.length < fuel →
      Cyc b.lNext b.lPrev (P ++ S ++ q :: Q2) → best ∉ S →
      (∀ x ∈ S, addAfter s price (b.level x).price = true) →
      (S ++ [q]).head? = some t →
      AddOrdersAtPriceLoop b s price best fuel t true = .ok (q, false)
  | [], P, fuel, t, hf, _, _, _, ht => by
    simp only [List.nil_append, List.head?_cons, Option.some.injEq] at ht
    subst ht
    obtain ⟨f, rfl⟩ : ∃ f, fuel = f + 1 := ⟨fuel - 1, by simp at hf; omega⟩
    simp [AddOrdersAtPriceLoop, hq, hnq]
  | x :: S, P, fuel, t, hf, hc, hb, hall, ht => by
    simp only [List.cons_append, List.head?_cons, Option.some.injEq] at ht
    subst ht
    obtain ⟨f, rfl⟩ : ∃ f, fuel = f + 1 := ⟨fuel - 1, by simp at hf; omega⟩
    have hxb : x ≠ best := fun e => hb (by simp [e])
    obtain ⟨n, hn⟩ : ∃ n, (S ++ [q]).head? = some n := by
      cases S <;> simp
    have hnext : b.lNext x = some n := by
      refine Cyc.next_of_split (P := P) (R := S ++ q :: Q2) (by simpa using hc) ?_
      cases S with
      | nil => simpa using hn
      | cons y S' => simpa using hn
    have ih := AddOrdersAtPriceLoop_found hq hnq S (P ++ [x]) f n
      (by simp at hf; omega) (by simpa using hc) (fun hm => hb (List.mem_cons_of_mem _ hm))
      (fun y hy => hall y (List.mem_cons_of_mem _ hy)) hn
    simp only [lNext] at hnext
    simp [AddOrdersAtPriceLoop, hxb, hall x (List.mem_cons_self _ _), hnext, ih, bind,
      Except.bind]

/-- The scan of `AddOrdersAtPrice` comes back to the best level when every level is more
aggressive than the new price. -/
theorem AddOrdersAtPriceLoop_all {b : CMEOrderBook} {s : ESide} {price : Int} {best : Nat}
    {P0 : List Nat} :
    ∀ (S P : List Nat) (fuel : Nat) (t : Nat), S.length < fuel →
      Cyc b.lNext b.lPrev (best :: P0 ++ P ++ S) → best ∉ S →
      (∀ x ∈ S, addAfter s price (b.level x).price = true) →
      (S ++ [best]).head? = some t →
      AddOrdersAtPriceLoop b s price best fuel t true = .ok (best, true)
  | [], P, fuel, t, hf, _, _, _, ht => by
    simp only [List.nil_append, List.head?_cons, Option.some.injEq] at ht
    subst ht
    obtain ⟨f, rfl⟩ : ∃ f, fuel = f + 1 := ⟨fuel - 1, by simp at hf; omega⟩
    simp [AddOrdersAtPriceLoop]
  | x :: S, P, fuel, t, hf, hc, hb, hall, ht => by
    simp only [List.cons_append, List.head?_cons, Option.some.injEq] at ht
    subst ht
    obtain ⟨f, rfl⟩ : ∃ f, fuel = f + 1 := ⟨fuel - 1, by simp at hf; omega⟩
    have hxb : x ≠ best := fun e => hb (by simp [e])
    obtain ⟨n, hn⟩ : ∃ n, (S ++ [best]).head? = some n := by
      cases S <;> simp
    have hnext : b.lNext x = some n := by
      refine Cyc.next_of_split (P := best :: P0 ++ P) (R := S) (by simpa using hc) ?_
      cases S with
      | nil => simpa using hn
      | cons y S' => simpa using hn
    have ih := AddOrdersAtPriceLoop_all S (P ++ [x]) f n
      (by simp at hf; omega) (by simpa using hc) (fun hm => hb (List.mem_cons_of_mem _ hm))
      (fun y hy => hall y (List.mem_cons_of_mem _ hy)) hn
    simp only [lNext] at hnext
    simp [AddOrdersAtPriceLoop, hxb, hall x (List.mem_cons_self _ _), hnext, ih, bind,
      Except.bind]

end Exchange

namespace Exchange

open Common CMEOrderBook

theorem nodup_bounded_length {l : List Nat} {n : Nat} (hnd : l.Nodup) (hb : ∀ x ∈ l, x < n) :
    l.length ≤ n := by
  have h1 : l.toFinset ⊆ Finset.range n := by
    intro x hx
    exact Finset.mem_range.2 (hb x (List.mem_toFinset.1 hx))
  have h2 := Finset.card_le_card h1
  rw [List.toFinset_card_of_nodup hnd, Finset.card_range] at h2
  exact h2

theorem better_asymm {s : ESide} {p q : Int} (h : better s p q) : ¬ better s q p := by
  by_cases hs : s = .BUY <;> simp only [better, hs, if_true, if_false] at * <;> omega

theorem better_trans {s : ESide} {p q r : Int} (h1 : better s p q) (h2 : better s q r) :
    better s p r := by
  by_cases hs : s = .BUY <;> simp only [better, hs, if_true, if_false] at * <;> omega

theorem better_total {s : ESide} {p q : Int} (hne : p ≠ q) (h : ¬ better s p q) : better s q p := by
  by_cases hs : s = .BUY <;> simp only [better, hs, if_true, if_false] at * <;> omega

theorem AddOrdersAtPriceLoop_false (b : CMEOrderBook) (s : ESide) (price : Int) (best f t : Nat) :
    AddOrdersAtPriceLoop b s price best (f + 1) t false = .ok (t, false) := by
  simp [AddOrdersAtPriceLoop]


theorem AddOrdersAtPriceLoop_congr {b b1 : CMEOrderBook} (s : ESide) (price : Int) (best : Nat)
    (hl : ∀ q, b1.level q = b.level q) :
    ∀ (fuel t : Nat) (aa : Bool), AddOrdersAtPriceLoop b1 s price best fuel t aa =
      AddOrdersAtPriceLoop b s price best fuel t aa
  | 0, _, _ => rfl
  | f + 1, t, aa => by
    simp only [AddOrdersAtPriceLoop, hl, AddOrdersAtPriceLoop_congr s price best hl f]

@[simp] theorem AddOrdersAtPriceLoop_mk (b : CMEOrderBook) (t : Nat)
    (c : Nat → Nat → Option Nat) (bb ba : Option Nat) (ix : Nat → Option Nat)
    (op : CMemoryPool SMEOrder) (n : Nat) (e : List Emitted) (s : ESide) (price : Int)
    (best fuel tg : Nat) (aa : Bool) :
    AddOrdersAtPriceLoop ⟨t, c, b.m_ordersAtPricePool, bb, ba, ix, op, n, e⟩ s price best fuel
      tg aa = AddOrdersAtPriceLoop b s price best fuel tg aa := by
  apply AddOrdersAtPriceLoop_congr
  intro q
  rfl

@[simp] theorem AddOrdersAtPriceScan_mk (b : CMEOrderBook) (t : Nat)
    (c : Nat → Nat → Option Nat) (bb ba : Option Nat) (ix : Nat → Option Nat)
    (op : CMemoryPool SMEOrder) (n : Nat) (e : List Emitted) (s : ESide) (price : Int)
    (best : Nat) :
    AddOrdersAtPriceScan ⟨t, c, b.m_ordersAtPricePool, bb, ba, ix, op, n, e⟩ s price best =
      AddOrdersAtPriceScan b s price best := by
  simp only [AddOrdersAtPriceScan, AddOrdersAtPriceLoop_mk]
  rfl

theorem dropWhile_head_not {α : Type} (p : α → Bool) :
    ∀ {l : List α} {q : α} {B : List α}, l.dropWhile p = q :: B → p q = false
  | [], _, _, h => by simp at h
  | x :: l, q, B, h => by
    by_cases hx : p x = true
    · rw [List.dropWhile_cons_of_pos hx] at h
      exact dropWhile_head_not p h
    · rw [List.dropWhile_cons_of_neg hx] at h
      simp only [List.cons.injEq] at h
      rw [← h.1]
      simpa using hx

theorem Struct.own_levels_length {b : CMEOrderBook} {s : ESide} {own other : SideList}
    (h : Struct b s own other) : own.levels.length ≤ ME_MAX_PRICE_LEVELS := by
  refine nodup_bounded_length ?_ ?_
  · have := h.lnodup
    rw [SideList.levels_append] at this
    exact List.Nodup.of_append_left this
  · intro x hx
    obtain ⟨y, hy, rfl⟩ := List.mem_map.1 hx
    exact (h.ownOK.lvl y hy).lt

/-- The result of the scan of `AddOrdersAtPrice` on a non-empty side `A ++ B`, where `A` are the
levels more aggressive than the new price: the head of `B` with `add_after = false`, or the best
level with `add_after = true` when `B` is empty. -/
theorem AddOrdersAtPrice_scan {b : CMEOrderBook} {s : ESide} {A B other : SideList}
    {price : Int} {best : Nat} (h : Struct b s (A ++ B) other)
    (hbest : (A ++ B).levels.head? = some best)
    (hA : ∀ x ∈ A, addAfter s price (b.level x.1).price = true)
    (hB : ∀ q B2, B = q :: B2 → addAfter s price (b.level q.1).price = false) :
    AddOrdersAtPriceScan b s price best =
    .ok (match B.levels.head? with
      | some q => (q, false)
      | none => (best, true)) := by
  unfold AddOrdersAtPriceScan
  have hlen := h.own_levels_length
  have hcyc := h.ownOK.cyc
  have hnd : (A ++ B).levels.Nodup := by
    have := h.lnodup
    rw [SideList.levels_append] at this
    exact List.Nodup.of_append_left this
  rw [SideList.levels_append] at hlen hcyc hnd hbest
  cases A with
  | nil =>
    cases B with
    | nil => simp [SideList.levels] at hbest
    | cons q B2 =>
      simp only [SideList.levels, List.map_nil, List.nil_append, List.map_cons, List.head?_cons,
        Option.some.injEq] at hbest
      subst hbest
      have := hB q B2 rfl
      simp [this, SideList.levels, AddOrdersAtPriceLoop_false, bind, Except.bind, pure,
        Except.pure]
  | cons a A2 =>
    simp only [SideList.levels, List.cons_append, List.map_cons, List.head?_cons,
      Option.some.injEq] at hbest
    subst hbest
    have hpa := hA a (List.mem_cons_self _ _)
    have hbA : a.1 ∉ (SideList.levels A2) ++ B.levels := by
      have := hnd
      simp only [SideList.levels, List.map_cons, List.cons_append, List.nodup_cons] at this
      simpa [SideList.levels] using this.1
    simp only [SideList.levels_cons, List.cons_append] at hcyc hlen
    cases B with
    | nil =>
      obtain ⟨t, ht⟩ : ∃ t, ((SideList.levels A2) ++ [a.1]).head? = some t := by
        cases A2 <;> simp [SideList.levels]
      have hnext : (b.level a.1).pNextEntry = some t := by
        have := Cyc.next_of_split (P := []) (R := (SideList.levels A2) ++ SideList.levels [])
          (by simpa using hcyc) (by simpa [SideList.levels] using ht)
        exact this
      have hall : ∀ x ∈ (SideList.levels A2), addAfter s price (b.level x).price = true := by
        intro x hx
        obtain ⟨y, hy, rfl⟩ := List.mem_map.1 hx
        exact hA y (List.mem_cons_of_mem _ hy)
      have hat : addAfter s price (b.level t).price = true := by
        have := List.mem_of_mem_head? ht
        rcases List.mem_append.1 this with hm | hm
        · exact hall t hm
        · simp only [List.mem_singleton] at hm
          subst hm
          exact hpa
      have hloop := @AddOrdersAtPriceLoop_all b s price a.1 [] (SideList.levels A2) []
        (ME_MAX_PRICE_LEVELS + 1) t
        (by simp [SideList.levels] at hlen ⊢; omega)
        (by simpa [SideList.levels] using hcyc)
        (fun hm => hbA (List.mem_append_left _ hm)) hall ht
      simp [hpa, hnext, hat, hloop, SideList.levels, bind, Except.bind, pure, Except.pure]
    | cons q B2 =>
      have hnq := hB q B2 rfl
      obtain ⟨t, ht⟩ : ∃ t, ((SideList.levels A2) ++ [q.1]).head? = some t := by
        cases A2 <;> simp [SideList.levels]
      have hnext : (b.level a.1).pNextEntry = some t := by
        have := Cyc.next_of_split (P := []) (R := (SideList.levels A2) ++ SideList.levels (q :: B2))
          (by simpa using hcyc) (by
            cases A2 with
            | nil => simpa [SideList.levels] using ht
            | cons y A3 => simpa [SideList.levels] using ht)
        exact this
      have hall : ∀ x ∈ (SideList.levels A2), addAfter s price (b.level x).price = true := by
        intro x hx
        obtain ⟨y, hy, rfl⟩ := List.mem_map.1 hx
        exact hA y (List.mem_cons_of_mem _ hy)
      have hqb : q.1 ≠ a.1 := by
        intro e
        exact hbA (by simp [SideList.levels, e])
      have hloop := @AddOrdersAtPriceLoop_found b s price a.1 q.1 (SideList.levels B2) hqb hnq
        (SideList.levels A2) [a.1] (ME_MAX_PRICE_LEVELS + 1) t
        (by simp [SideList.levels] at hlen ⊢; omega)
        (by simpa [SideList.levels] using hcyc)
        (fun hm => hbA (List.mem_append_left _ hm)) hall ht
      by_cases hA2 : A2 = []
      · subst hA2
        simp only [SideList.levels, List.map_nil, List.nil_append, List.head?_cons,
          Option.some.injEq] at ht
        subst ht
        simp [hpa, hnext, hnq, SideList.levels, AddOrdersAtPriceLoop_false, bind, Except.bind,
          pure, Except.pure]
      · have hat : addAfter s price (b.level t).price = true := by
          cases A2 with
          | nil => exact absurd rfl hA2
          | cons y A3 =>
            simp only [SideList.levels, List.map_cons, List.cons_append, List.head?_cons,
              Option.some.injEq] at ht
            subst ht
            exact hA y (by simp)
        simp [hpa, hnext, hat, hloop, SideList.levels, bind, Except.bind, pure, Except.pure]

end Exchange

namespace Exchange

open Common CMEOrderBook

theorem bestCond_eq {s : ESide} (hs : s = .BUY ∨ s = .SELL) (price bp : Int) :
    ((decide (s = .BUY) && decide (price > bp)) || (decide (s = .SELL) && decide (price < bp))) =
      decide (better s price bp) := by
  rcases hs with rfl | rfl <;> simp [better]

theorem PoolOK_of_views {T : Type} {p p2 : CMemoryPool T} {n : Nat} (h : PoolOK p n)
    (h1 : p2.numElems = p.numElems) (h2 : p2.m_nextFreeIndex = p.m_nextFreeIndex)
    (h3 : (p2.m_store p.m_nextFreeIndex).isFree = (p.m_store p.m_nextFreeIndex).isFree) :
    PoolOK p2 n := by
  refine ⟨h1.trans h.1, h2 ▸ h.2.1, ?_⟩
  rw [h2, h3]
  exact h.2.2

theorem AddOrdersAtPrice_spec {b : CMEOrderBook} {s : ESide} {own other : SideList}
    {pNew o : Nat} (hs : s = .BUY ∨ s = .SELL) (h : Struct b s own other)
    (hnew : pNew ∉ (own ++ other).levels) (hlt : pNew < ME_MAX_PRICE_LEVELS)
    (hbusy : b.lfree pNew = false) (hside : (b.level pNew).side = s)
    (hfirst : (b.level pNew).pFirstMeOrder = some o)
    (hidx : b.m_priceOrdersAtPrice (PriceToIndex (b.level pNew).price) = none)
    (ho : o ∉ (own ++ other).orders) (hoOK : OrderOK b s (b.level pNew).price o)
    (hon : b.oNext o = some o) (hop : b.oPrev o = some o) :
    ∃ A B, own = A ++ B ∧
      (∀ x ∈ A, better s (b.level x.1).price (b.level pNew).price) ∧
      (∀ x ∈ B, better s (b.level pNew).price (b.level x.1).price) ∧
      ∃ b2, b.AddOrdersAtPrice pNew = .ok b2 ∧
        Struct b2 s (A ++ (pNew, [o]) :: B) other ∧
        b2.m_orderPool = b.m_orderPool ∧ b2.m_cidOidToOrder = b.m_cidOidToOrder ∧
        b2.emitted = b.emitted ∧ b2.m_nextMarketOrderId = b.m_nextMarketOrderId ∧
        (∀ q, (b2.level q).unlink = (b.level q).unlink) ∧ (∀ q, b2.lfree q = b.lfree q) := by
  have hpne : ∀ x ∈ own, (b.level x.1).price ≠ (b.level pNew).price := by
    intro x hx e
    have := (h.ownOK.lvl x hx).idx
    rw [e, hidx] at this
    exact Option.noConfusion this
  have hsorted := h.ownOK.sorted
  generalize hp : (fun x : Nat × List Nat =>
    addAfter s (b.level pNew).price (b.level x.1).price) = p
  have hsplit : own = own.takeWhile p ++ own.dropWhile p :=
    (List.takeWhile_append_dropWhile _ _).symm
  have hAp : ∀ x ∈ own.takeWhile p, p x = true := fun x hx => List.mem_takeWhile_imp hx
  have hBp : ∀ q B2, own.dropWhile p = q :: B2 → p q = false :=
    fun q B2 e => dropWhile_head_not p e
  generalize own.takeWhile p = A at hsplit hAp
  generalize own.dropWhile p = B at hsplit hBp
  subst hsplit
  subst hp
  simp only at hAp hBp
  have hA : ∀ x ∈ A, better s (b.level x.1).price (b.level pNew).price := by
    intro x hx
    have := hAp x hx
    rw [addAfter_eq hs, decide_eq_true_eq] at this
    exact this
  have hB : ∀ x ∈ B, better s (b.level pNew).price (b.level x.1).price := by
    cases B with
    | nil => simp
    | cons q B2 =>
      have hq0 := hBp q B2 rfl
      rw [addAfter_eq hs, decide_eq_false_iff_not] at hq0
      have hq : better s (b.level pNew).price (b.level q.1).price :=
        better_total (hpne q (by simp)) hq0
      intro x hx
      rcases List.mem_cons.1 hx with rfl | hx
      · exact hq
      · have := (List.pairwise_append.1 hsorted).2.1
        exact better_trans hq ((List.pairwise_cons.1 this).1 x hx)
  refine ⟨A, B, rfl, hA, hB, ?_⟩
  have hnewown : pNew ∉ SideList.levels (A ++ B) := by
    intro hm
    exact hnew (SideList.levels_append _ _ ▸ List.mem_append_left _ hm)
  have hcyc := h.ownOK.cyc
  rw [SideList.levels_append] at hcyc hnewown
  by_cases hown : A ++ B = []
  · obtain ⟨rfl, rfl⟩ := List.append_eq_nil.1 hown
    have hbest0 : b.bestOf s = none := by
      have := h.ownOK.best
      simpa [SideList.levels] using this
    cases hres : b.AddOrdersAtPrice pNew with
    | error e =>
      simp [AddOrdersAtPrice, hside, hbest0, bind, Except.bind, pure, Except.pure] at hres
    | ok b2 =>
      simp [AddOrdersAtPrice, hside, hbest0, bind, Except.bind, pure, Except.pure] at hres
      have V1 : ∀ q, (b2.level q).unlink = (b.level q).unlink := by
        subst hres
        intro q
        by_cases h1 : q = pNew <;> simp [h1, SMEOrdersAtPrice.unlink]
      have V2 : ∀ q, b2.lfree q = b.lfree q := by
        subst hres
        intro q
        simp
      refine ⟨b2, rfl, Struct.insertLevel (A := []) (B := []) (u := pNew) (v := pNew) h hnew hlt
        hbusy hside hfirst hidx ho hoOK hon hop hA hB (by simp [SideList.levels])
        (by simp [SideList.levels]) V1 ?_ ?_ V2 ?_ ?_ ?_ ?_ ?_, ?_, ?_, ?_, ?_, V1, V2⟩
      · subst hres
        intro q
        by_cases h1 : q = pNew <;> simp [lNext, h1]
      · subst hres
        intro q
        by_cases h1 : q = pNew <;> simp [lPrev, h1]
      · subst hres
        simp
      · subst hres
        simp [bestOf_setBestOf_same]
      · subst hres
        simp [bestOf_setBestOf_opp _ hs]
      · subst hres
        simp
      · subst hres
        exact PoolOK_of_views h.lpool (by simp) (by simp) (by simp)
      all_goals
        subst hres
        simp
  · obtain ⟨best, hhead⟩ : ∃ best, (SideList.levels (A ++ B)).head? = some best := by
      cases hAB : A ++ B with
      | nil => exact absurd hAB hown
      | cons x _ => exact ⟨x.1, by simp [SideList.levels]⟩
    have hbest : b.bestOf s = some best := h.ownOK.best.trans hhead
    have hscan := AddOrdersAtPrice_scan h hhead hAp hBp
    have hbestmem : best ∈ SideList.levels A ++ SideList.levels B := by
      rw [← SideList.levels_append]
      exact List.mem_of_mem_head? hhead
    have hnb : pNew ≠ best := fun e => hnewown (e ▸ hbestmem)
    have hndown : (SideList.levels A ++ SideList.levels B).Nodup := by
      have := h.lnodup
      rw [SideList.levels_append, SideList.levels_append] at this
      exact List.Nodup.of_append_left this
    cases B with
    | nil =>
      simp only [SideList.levels, List.map_nil, List.head?_nil] at hscan
      cases A with
      | nil => exact absurd rfl hown
      | cons a A2 =>
        simp only [SideList.levels, List.cons_append, List.map_cons, List.head?_cons,
          Option.some.injEq] at hhead
        subst hhead
        obtain ⟨u, hu⟩ : ∃ u, (a.1 :: SideList.levels A2).getLast? = some u :=
          ⟨_, List.getLast?_eq_getLast _ (List.cons_ne_nil _ _)⟩
        have hc2 : Cyc b.lNext b.lPrev (a.1 :: SideList.levels A2) := by
          simpa [SideList.levels] using hcyc
        have hlk := Cyc.last_head hc2 hu
        simp only [lNext, lPrev] at hlk
        have hnu : pNew ≠ u := by
          intro e
          refine hnewown ?_
          rw [e]
          have := List.mem_of_getLast?_eq_some hu
          simpa [SideList.levels] using this
        cases hres : b.AddOrdersAtPrice pNew with
        | error e =>
          simp [AddOrdersAtPrice, hside, hbest, hscan, hlk, hnu, hnb, hnu.symm, hnb.symm, bind,
            Except.bind, pure, Except.pure] at hres
        | ok b2 =>
          simp [AddOrdersAtPrice, hside, hbest, hscan, hlk, hnu, hnb, hnu.symm, hnb.symm, bind,
            Except.bind, pure, Except.pure] at hres
          have o1 : (pNew = u) = (u = pNew) := propext eq_comm
          have o2 : (pNew = a.1) = (a.1 = pNew) := propext eq_comm
          have o3 : (a.1 = u) = (u = a.1) := propext eq_comm
          have hun := hnu.symm
          have hbn := hnb.symm
          have hlk2 : u = a.1 → (b.level a.1).pNextEntry = some a.1 := fun e => e ▸ hlk.1
          have V1 : ∀ q, (b2.level q).unlink = (b.level q).unlink := by
            subst hres
            intro q
            have o4 : (u = q) = (q = u) := propext eq_comm
            have o5 : (a.1 = q) = (q = a.1) := propext eq_comm
            have o6 : (pNew = q) = (q = pNew) := propext eq_comm
            by_cases h1 : q = pNew <;> by_cases h2 : q = u <;> by_cases h3 : q = a.1 <;>
              by_cases h4 : u = a.1 <;>
              first
              | omega
              | simp [o1, o2, o3, o4, o5, o6, h1, h2, h3, h4, hun, hbn, hlk, hlk2, SMEOrdersAtPrice.unlink]
          have V2 : ∀ q, b2.lfree q = b.lfree q := by
            subst hres
            intro q
            simp
          refine ⟨b2, rfl, Struct.insertLevel (A := a :: A2) (B := []) (u := u) (v := a.1) h hnew
            hlt hbusy hside hfirst hidx ho hoOK hon hop hA hB (by simp [SideList.levels])
            (by
              simp only [SideList.levels, List.map_nil, List.nil_append, List.map_cons]
              rw [List.getLast?_cons_cons]
              exact hu) V1 ?_ ?_ V2 ?_ ?_ ?_ ?_ ?_, ?_, ?_, ?_, ?_, V1, V2⟩
          · subst hres
            intro q
            have o4 : (u = q) = (q = u) := propext eq_comm
            have o5 : (a.1 = q) = (q = a.1) := propext eq_comm
            have o6 : (pNew = q) = (q = pNew) := propext eq_comm
            by_cases h1 : q = pNew <;> by_cases h2 : q = u <;> by_cases h3 : q = a.1 <;>
              by_cases h4 : u = a.1 <;>
              first
              | omega
              | simp [lNext, o1, o2, o3, o4, o5, o6, h1, h2, h3, h4, hun, hbn, hlk, hlk2]
          · subst hres
            intro q
            have o4 : (u = q) = (q = u) := propext eq_comm
            have o5 : (a.1 = q) = (q = a.1) := propext eq_comm
            have o6 : (pNew = q) = (q = pNew) := propext eq_comm
            by_cases h1 : q = pNew <;> by_cases h2 : q = u <;> by_cases h3 : q = a.1 <;>
              by_cases h4 : u = a.1 <;>
              first
              | omega
              | simp [lPrev, o1, o2, o3, o4, o5, o6, h1, h2, h3, h4, hun, hbn, hlk, hlk2]
          · subst hres
            simp
          · subst hres
            simp [hbest]
          · subst hres
            simp
          · subst hres
            simp
          · subst hres
            exact PoolOK_of_views h.lpool (by simp) (by simp) (by simp)
          all_goals
            subst hres
            simp
    | cons q B2 =>
      simp only [SideList.levels, List.map_cons, List.head?_cons] at hscan
      obtain ⟨u, hu⟩ : ∃ u, (q.1 :: (SideList.levels B2 ++ SideList.levels A)).getLast? = some u :=
        ⟨_, List.getLast?_eq_getLast _ (List.cons_ne_nil _ _)⟩
      have hprevq : (b.level q.1).pPrevEntry = some u :=
        Cyc.prev_of_split (P := SideList.levels A) (R := SideList.levels B2)
          (by simpa [SideList.levels] using hcyc) hu
      obtain ⟨n, hn⟩ : ∃ n, (SideList.levels B2 ++ SideList.levels A ++ [q.1]).head? = some n := by
        cases hl : SideList.levels B2 ++ SideList.levels A <;> simp
      have hnextq : (b.level q.1).pNextEntry = some n :=
        Cyc.next_of_split (P := SideList.levels A) (R := SideList.levels B2)
          (by simpa [SideList.levels] using hcyc) hn
      have hndq : (q.1 :: (SideList.levels B2 ++ SideList.levels A)).Nodup := by
        have hp : (SideList.levels A ++ SideList.levels (q :: B2)).Perm
            (q.1 :: (SideList.levels B2 ++ SideList.levels A)) := by
          simp only [SideList.levels, List.map_cons]
          exact List.perm_append_comm
        exact (List.Perm.nodup_iff hp).1 hndown
      have hnq1 : ¬ q.1 = u → ¬ n = q.1 := by
        intro hne e
        subst e
        cases hl : SideList.levels B2 ++ SideList.levels A with
        | nil =>
          rw [hl] at hu
          simp at hu
          exact hne hu
        | cons y l =>
          rw [hl] at hn hndq
          simp only [List.cons_append, List.head?_cons, Option.some.injEq] at hn
          subst hn
          exact (List.nodup_cons.1 hndq).1 (List.mem_cons_self _ _)
      have hqmem : q.1 ∈ SideList.levels A ++ SideList.levels (q :: B2) := by
        simp [SideList.levels]
      have humem : u ∈ SideList.levels A ++ SideList.levels (q :: B2) := by
        have := List.mem_of_getLast?_eq_some hu
        simp only [SideList.levels, List.map_cons, List.mem_cons, List.mem_append] at this ⊢
        tauto
      have hnq : pNew ≠ q.1 := fun e => hnewown (e ▸ hqmem)
      have hnu : pNew ≠ u := fun e => hnewown (e ▸ humem)
      have hqn := hnq.symm
      have hun := hnu.symm
      have o1 : (pNew = u) = (u = pNew) := propext eq_comm
      have o2 : (pNew = q.1) = (q.1 = pNew) := propext eq_comm
      have o3 : (u = q.1) = (q.1 = u) := propext eq_comm
      have hcond : ((decide (s = .BUY) &&
          decide ((b.level pNew).price > (b.level best).price)) ||
          (decide (s = .SELL) && decide ((b.level pNew).price < (b.level best).price))) =
          decide (A = []) := by
        rw [bestCond_eq hs]
        cases A with
        | nil =>
          simp only [SideList.levels, List.nil_append, List.map_cons, List.head?_cons,
            Option.some.injEq] at hhead
          subst hhead
          simpa using hB q (List.mem_cons_self _ _)
        | cons a A2 =>
          simp only [SideList.levels, List.cons_append, List.map_cons, List.head?_cons,
            Option.some.injEq] at hhead
          subst hhead
          simpa using better_asymm (hA a (List.mem_cons_self _ _))
      have hbq : A = [] → best = q.1 := by
        intro e
        subst e
        simp only [SideList.levels, List.nil_append, List.map_cons, List.head?_cons,
          Option.some.injEq] at hhead
        exact hhead.symm
      by_cases hAe : A = [] <;>
      · cases hres : b.AddOrdersAtPrice pNew with
        | error e =>
          simp [AddOrdersAtPrice, hside, hbest, hscan, hprevq, hnu, hnq, hun, hqn, bind,
            Except.bind, pure, Except.pure, ↓level_price_setLevel, hcond, hAe] at hres
        | ok b2 =>
          simp [AddOrdersAtPrice, hside, hbest, hscan, hprevq, hnu, hnq, hun, hqn, bind,
            Except.bind, pure, Except.pure, ↓level_price_setLevel, hcond, hAe] at hres
          have V1 : ∀ x, (b2.level x).unlink = (b.level x).unlink := by
            subst hres
            intro x
            simp (disch := simp [SMEOrdersAtPrice.unlink]) only [level_unlink_setLevel,
              level_setBestOf, level_mk, obj_levelPool]
          have V2 : ∀ x, b2.lfree x = b.lfree x := by
            subst hres
            intro x
            simp
          refine ⟨b2, rfl, Struct.insertLevel (A := A) (B := q :: B2) (u := u) (v := q.1) h hnew
            hlt hbusy hside hfirst hidx ho hoOK hon hop hA hB (by simp [SideList.levels])
            (by
              simp only [SideList.levels, List.map_cons, List.cons_append]
              rw [List.getLast?_cons_cons]
              exact hu) V1 ?_ ?_ V2 ?_ ?_ ?_ ?_ ?_, ?_, ?_, ?_, ?_, V1, V2⟩
          · subst hres
            intro x
            have o4 : (u = x) = (x = u) := propext eq_comm
            have o5 : (q.1 = x) = (x = q.1) := propext eq_comm
            have o6 : (pNew = x) = (x = pNew) := propext eq_comm
            by_cases h1 : x = pNew <;> by_cases h2 : x = u <;> by_cases h3 : x = q.1 <;>
              by_cases h4 : q.1 = u <;>
              first
              | omega
              | simp [lNext, o1, o2, o3, o4, o5, o6, h1, h2, h3, h4, hun, hqn, hnextq, hnq1, hbq,
                  hAe]
          · subst hres
            intro x
            have o4 : (u = x) = (x = u) := propext eq_comm
            have o5 : (q.1 = x) = (x = q.1) := propext eq_comm
            have o6 : (pNew = x) = (x = pNew) := propext eq_comm
            by_cases h1 : x = pNew <;> by_cases h2 : x = u <;> by_cases h3 : x = q.1 <;>
              by_cases h4 : q.1 = u <;>
              first
              | omega
              | simp [lPrev, o1, o2, o3, o4, o5, o6, h1, h2, h3, h4, hun, hqn, hprevq, hbq, hAe]
          · subst hres
            simp
          · subst hres
            simp [hbest, hAe, bestOf_setBestOf_same]
          · subst hres
            simp [bestOf_setBestOf_opp _ hs]
          · subst hres
            simp
          · subst hres
            exact PoolOK_of_views h.lpool (by simp) (by simp) (by simp)
          all_goals
            subst hres
            simp

end Exchange

namespace Exchange

open Common CMEOrderBook

theorem levels_replace (A B : SideList) (lp : Nat) (os os2 : List Nat) :
    (A ++ (lp, os2) :: B).levels = (A ++ (lp, os) :: B).levels := by
  simp [SideList.levels]

/-- Rebuilding the invariant when only the FIFO queue of one level changed. -/
theorem Struct.replaceOrders {b b2 : CMEOrderBook} {s : ESide} {A B other : SideList}
    {lp : Nat} {os os2 : List Nat}
    (h : Struct b s (A ++ (lp, os) :: B) other)
    (hlvl : LevelOK b2 s lp os2)
    (hnd : ((A ++ (lp, os2) :: B) ++ other).orders.Nodup)
    (hO : ∀ q, q ∈ ((A ++ B) ++ other).orders → b2.order q = b.order q ∧ b2.ofree q = b.ofree q)
    (hL : ∀ q, q ≠ lp → b2.level q = b.level q)
    (hLp : (b2.level lp).price = (b.level lp).price ∧
      (b2.level lp).pNextEntry = (b.level lp).pNextEntry ∧
      (b2.level lp).pPrevEntry = (b.level lp).pPrevEntry)
    (hF : ∀ q, b2.lfree q = b.lfree q)
    (hI : b2.m_priceOrdersAtPrice = b.m_priceOrdersAtPrice)
    (hB1 : b2.bestOf s = b.bestOf s) (hB2 : b2.bestOf (opp s) = b.bestOf (opp s))
    (hP1 : PoolOK b2.m_ordersAtPricePool ME_MAX_PRICE_LEVELS)
    (hP2 : PoolOK b2.m_orderPool ME_MAX_ORDER_IDS) :
    Struct b2 s (A ++ (lp, os2) :: B) other := by
  have hpr : ∀ q, (b2.level q).price = (b.level q).price := by
    intro q
    by_cases hq : q = lp
    · rw [hq]
      exact hLp.1
    · rw [hL q hq]
  have hlk : ∀ q, b2.lNext q = b.lNext q ∧ b2.lPrev q = b.lPrev q := by
    intro q
    by_cases hq : q = lp
    · rw [hq]
      exact ⟨hLp.2.1, hLp.2.2⟩
    · simp only [lNext, lPrev, hL q hq, and_self]
  have hnl := h.lnodup
  have hlpA : ∀ x ∈ A, x.1 ≠ lp := by
    intro x hx e
    simp only [SideList.levels, List.map_append, List.map_cons, List.append_assoc] at hnl
    have hm : lp ∈ List.map Prod.fst A := e ▸ List.mem_map_of_mem Prod.fst hx
    exact (List.nodup_append.1 hnl).2.2 hm (List.mem_cons_self _ _)
  have hlpB : ∀ x ∈ B, x.1 ≠ lp := by
    intro x hx e
    simp only [SideList.levels, List.map_append, List.map_cons, List.append_assoc] at hnl
    have h1 := (List.nodup_append.1 hnl).2.1
    have h2 := (List.nodup_cons.1 h1).1
    exact h2 (List.mem_append_left _ (e ▸ List.mem_map_of_mem Prod.fst hx))
  have hlpO : ∀ x ∈ other, x.1 ≠ lp := by
    intro x hx e
    simp only [SideList.levels, List.map_append, List.map_cons, List.append_assoc] at hnl
    have h1 := (List.nodup_append.1 hnl).2.1
    have h2 := (List.nodup_cons.1 h1).1
    exact h2 (List.mem_append_right _ (e ▸ List.mem_map_of_mem Prod.fst hx))
  have hkeep : ∀ x, x ∈ A ∨ x ∈ B → LevelOK b s x.1 x.2 → LevelOK b2 s x.1 x.2 := by
    intro x hx hok
    have hne : x.1 ≠ lp := hx.elim (hlpA x) (hlpB x)
    refine hok.levelOK_transfer (hF _) (by rw [hL _ hne]) (by rw [hI]) ?_
    intro o ho
    refine hO o ?_
    simp only [SideList.orders, List.flatMap_append, List.mem_append, List.mem_flatMap]
    rcases hx with hx | hx
    · exact Or.inl (Or.inl ⟨x, hx, ho⟩)
    · exact Or.inl (Or.inr ⟨x, hx, ho⟩)
  refine ⟨?_, ?_, ?_, hnd, ?_, hP1, hP2⟩
  · refine ⟨?_, ?_, ?_, ?_⟩
    · rw [hB1, levels_replace A B lp os os2]
      exact h.ownOK.best
    · rw [levels_replace A B lp os os2]
      exact cyc_frame h.ownOK.cyc (fun x _ => hlk x)
    · intro x hx
      rcases List.mem_append.1 hx with hx | hx
      · exact hkeep x (Or.inl hx) (h.ownOK.lvl x (List.mem_append_left _ hx))
      · rcases List.mem_cons.1 hx with rfl | hx
        · exact hlvl
        · exact hkeep x (Or.inr hx)
            (h.ownOK.lvl x (List.mem_append_right _ (List.mem_cons_of_mem _ hx)))
    · have hso := h.ownOK.sorted
      rw [List.pairwise_append, List.pairwise_cons] at hso ⊢
      refine ⟨hso.1.imp ?_, ⟨?_, hso.2.1.2.imp ?_⟩, ?_⟩
      · intro x y hxy
        rw [hpr, hpr]
        exact hxy
      · intro y hy
        have := hso.2.1.1 y hy
        rw [hpr, hpr]
        exact this
      · intro x y hxy
        rw [hpr, hpr]
        exact hxy
      · intro x hx y hy
        rw [hpr, hpr]
        rcases List.mem_cons.1 hy with rfl | hy
        · exact hso.2.2 x hx (lp, os) (List.mem_cons_self _ _)
        · exact hso.2.2 x hx y (List.mem_cons_of_mem _ hy)
  · refine h.otherOK.sideOK_transfer hB2 ?_ ?_ ?_
    · intro q hq
      obtain ⟨x, hx, rfl⟩ := List.mem_map.1 hq
      exact ⟨hL _ (hlpO x hx), hF _⟩
    · intro q _
      rw [hI]
    · intro o ho
      refine hO o ?_
      rw [SideList.orders_append]
      exact List.mem_append_right _ ho
  · rw [SideList.levels_append, levels_replace A B lp os os2, ← SideList.levels_append]
    exact h.lnodup
  · intro k lq hk
    rw [hI] at hk
    have := h.idx k lq hk
    rw [hpr]
    refine ⟨?_, this.2⟩
    rw [SideList.levels_append, levels_replace A B lp os os2, ← SideList.levels_append]
    exact this.1

end Exchange

namespace Exchange

open Common CMEOrderBook

theorem level_views_of_pool {b b2 : CMEOrderBook}
    (V : b2.m_ordersAtPricePool = b.m_ordersAtPricePool) (q : Nat) :
    b2.level q = b.level q ∧ b2.lfree q = b.lfree q := by
  refine ⟨?_, ?_⟩
  · show b2.m_ordersAtPricePool.obj q = b.m_ordersAtPricePool.obj q
    rw [V]
  · show (b2.m_ordersAtPricePool.m_store q).isFree = (b.m_ordersAtPricePool.m_store q).isFree
    rw [V]

theorem orders_split (A B other : SideList) (lp : Nat) (os : List Nat) :
    ((A ++ (lp, os) :: B) ++ other).orders = A.orders ++ (os ++ (B.orders ++ other.orders)) := by
  simp [SideList.orders]

theorem orders_split0 (A B other : SideList) :
    ((A ++ B) ++ other).orders = A.orders ++ (B.orders ++ other.orders) := by
  simp [SideList.orders]

/-- Linking a fresh order at the tail of the FIFO queue of a live level, seen on the fields of
the book. -/
theorem Struct.appendOrder {b b2 : CMEOrderBook} {s : ESide} {A B other : SideList}
    {lp o f t : Nat} {os : List Nat}
    (h : Struct b s (A ++ (lp, os) :: B) other)
    (ho : o ∉ ((A ++ (lp, os) :: B) ++ other).orders)
    (hoOK : OrderOK b2 s (b.level lp).price o)
    (hf : os.head? = some f) (ht : os.getLast? = some t)
    (O1 : ∀ q, q ≠ o → (b2.order q).unlink = (b.order q).unlink)
    (On : ∀ q, b2.oNext q = if q = o then some f else if q = t then some o else b.oNext q)
    (Op : ∀ q, b2.oPrev q = if q = o then some t else if q = f then some o else b.oPrev q)
    (O2 : ∀ q, q ≠ o → b2.ofree q = b.ofree q)
    (VL : b2.m_ordersAtPricePool = b.m_ordersAtPricePool)
    (VI : b2.m_priceOrdersAtPrice = b.m_priceOrdersAtPrice)
    (VB1 : b2.bestOf s = b.bestOf s) (VB2 : b2.bestOf (opp s) = b.bestOf (opp s))
    (VP : PoolOK b2.m_orderPool ME_MAX_ORDER_IDS) :
    Struct b2 s (A ++ (lp, os ++ [o]) :: B) other := by
  have hlv := level_views_of_pool VL
  have hl : LevelOK b s lp os := h.ownOK.lvl (lp, os) (by simp)
  have hnd := h.onodup
  rw [orders_split] at hnd ho
  have hoA : o ∉ A.orders := fun hm => ho (by simp [hm])
  have hoos : o ∉ os := fun hm => ho (by simp [hm])
  have hoR : o ∉ B.orders ++ other.orders := fun hm => ho (by
    simp only [List.mem_append] at hm ⊢
    tauto)
  have hndos : os.Nodup := (List.nodup_append.1 (List.nodup_append.1 hnd).2.1).1
  have hfm := List.mem_of_mem_head? hf
  have htm := List.mem_of_getLast?_eq_some ht
  have hrest : ∀ q, q ∈ ((A ++ B) ++ other).orders → q ≠ o ∧ q ∉ os := by
    intro q hq
    rw [orders_split0] at hq
    rcases List.mem_append.1 hq with hq | hq
    · refine ⟨fun e => hoA (e ▸ hq), fun hm => ?_⟩
      exact (List.nodup_append.1 hnd).2.2 hq (List.mem_append_left _ hm)
    · refine ⟨fun e => hoR (e ▸ hq), fun hm => ?_⟩
      exact (List.nodup_append.1 (List.nodup_append.1 hnd).2.1).2.2 hm hq
  refine Struct.replaceOrders h ?_ ?_ ?_ (fun q _ => (hlv q).1)
    ⟨by rw [(hlv lp).1], by rw [(hlv lp).1], by rw [(hlv lp).1]⟩ (fun q => (hlv q).2) VI VB1 VB2
    (by rw [VL]; exact h.lpool) VP
  · refine ⟨hl.lt, ((hlv lp).2).trans hl.busy, by rw [(hlv lp).1]; exact hl.side, by simp, ?_,
      ?_, ?_, ?_⟩
    · rw [(hlv lp).1, hl.first]
      cases os with
      | nil => simp at hf
      | cons a os => simp
    · have hc : Cyc b2.oNext b2.oPrev (o :: os) := by
        have hfo : f ≠ o := fun e => hoos (e ▸ hfm)
        have hto : t ≠ o := fun e => hoos (e ▸ htm)
        refine cyc_insert_head hl.cyc (List.nodup_cons.2 ⟨hoos, hndos⟩) hf ht ?_ ?_ ?_ ?_ ?_ ?_
        · rw [On, if_pos rfl]
        · rw [Op, if_neg hfo, if_pos rfl]
        · rw [On, if_neg hto, if_pos rfl]
        · rw [Op, if_pos rfl]
        · intro a ha hne
          have hao : a ≠ o := fun e => hoos (e ▸ ha)
          rw [On, if_neg hao, if_neg hne]
        · intro a ha hne
          have hao : a ≠ o := fun e => hoos (e ▸ ha)
          rw [Op, if_neg hao, if_neg hne]
      have hc2 : Cyc b2.oNext b2.oPrev ([o] ++ os) := hc
      exact cyc_rotate hc2
    · intro q hq
      rw [(hlv lp).1]
      rcases List.mem_append.1 hq with hq | hq
      · have hqo : q ≠ o := fun e => hoos (e ▸ hq)
        exact (hl.ord q hq).orderOK_transfer (O2 q hqo) (O1 q hqo)
      · simp only [List.mem_singleton] at hq
        subst hq
        exact hoOK
    · rw [(hlv lp).1, VI]
      exact hl.idx
  · rw [orders_split]
    have hp : (o :: (A.orders ++ (os ++ (B.orders ++ other.orders)))).Perm
        (A.orders ++ (os ++ [o] ++ (B.orders ++ other.orders))) := by
      have h1 : (o :: (os ++ (B.orders ++ other.orders))).Perm
          (os ++ [o] ++ (B.orders ++ other.orders)) := by
        simp only [List.append_assoc, List.singleton_append]
        exact (List.perm_middle).symm
      exact (List.perm_middle.symm).trans (List.Perm.append_left _ h1)
    refine (List.Perm.nodup_iff hp).1 (List.nodup_cons.2 ⟨?_, hnd⟩)
    intro hm
    simp only [List.mem_append] at hm hoR
    tauto
  · intro q hq
    obtain ⟨hqo, hqos⟩ := hrest q hq
    refine ⟨SMEOrder.order_ext_links (O1 q hqo) ?_ ?_, O2 q hqo⟩
    · have hqt : q ≠ t := fun e => hqos (e ▸ htm)
      have := On q
      rw [if_neg hqo, if_neg hqt] at this
      exact this
    · have hqf : q ≠ f := fun e => hqos (e ▸ hfm)
      have := Op q
      rw [if_neg hqo, if_neg hqf] at this
      exact this

/-- Unlinking an order from a FIFO queue that keeps at least one order, seen on the fields of
the book. -/
theorem Struct.removeOrder {b b2 : CMEOrderBook} {s : ESide} {A B other : SideList}
    {lp o u v : Nat} {os1 os2 : List Nat}
    (h : Struct b s (A ++ (lp, os1 ++ o :: os2) :: B) other)
    (hv : b.oNext o = some v) (hu : b.oPrev o = some u) (hvo : v ≠ o)
    (O1 : ∀ q, q ≠ o → (b2.order q).unlink = (b.order q).unlink)
    (On : ∀ q, q ≠ o → b2.oNext q = if q = u then some v else b.oNext q)
    (Op : ∀ q, q ≠ o → b2.oPrev q = if q = v then some u else b.oPrev q)
    (O2 : ∀ q, q ≠ o → b2.ofree q = b.ofree q)
    (VL : ∀ q, q ≠ lp → b2.level q = b.level q)
    (VLp : b2.level lp = { b.level lp with pFirstMeOrder := (os1 ++ os2).head? })
    (VF : ∀ q, b2.lfree q = b.lfree q)
    (VI : b2.m_priceOrdersAtPrice = b.m_priceOrdersAtPrice)
    (VB1 : b2.bestOf s = b.bestOf s) (VB2 : b2.bestOf (opp s) = b.bestOf (opp s))
    (VP1 : PoolOK b2.m_ordersAtPricePool ME_MAX_PRICE_LEVELS)
    (VP2 : PoolOK b2.m_orderPool ME_MAX_ORDER_IDS) :
    Struct b2 s (A ++ (lp, os1 ++ os2) :: B) other := by
  have hl : LevelOK b s lp (os1 ++ o :: os2) := h.ownOK.lvl (lp, os1 ++ o :: os2) (by simp)
  have hnd := h.onodup
  rw [orders_split] at hnd
  have hndos : (os1 ++ o :: os2).Nodup := (List.nodup_append.1 (List.nodup_append.1 hnd).2.1).1
  have hndM : (o :: (os2 ++ os1)).Nodup := by
    have hp : (os1 ++ o :: os2).Perm (o :: (os2 ++ os1)) := by
      have : (os1 ++ o :: os2).Perm ((o :: os2) ++ os1) := List.perm_append_comm
      simpa using this
    exact (List.Perm.nodup_iff hp).1 hndos
  have hcyc : Cyc b.oNext b.oPrev (o :: (os2 ++ os1)) := by
    have : Cyc b.oNext b.oPrev ((o :: os2) ++ os1) := cyc_rotate hl.cyc
    exact this
  have hrest : ∀ q, q ∈ ((A ++ B) ++ other).orders → q ∉ os1 ++ o :: os2 := by
    intro q hq hm
    rw [orders_split0] at hq
    rcases List.mem_append.1 hq with hq | hq
    · exact (List.nodup_append.1 hnd).2.2 hq (List.mem_append_left _ hm)
    · exact (List.nodup_append.1 (List.nodup_append.1 hnd).2.1).2.2 hm hq
  generalize hM : os2 ++ os1 = M at hcyc hndM
  have hMmem : ∀ q, q ∈ M → q ∈ os1 ++ o :: os2 := by
    intro q hq
    rw [← hM] at hq
    simp only [List.mem_append, List.mem_cons] at hq ⊢
    tauto
  cases M with
  | nil => exact absurd (Option.some.inj ((cyc_singleton.1 hcyc).1.symm.trans hv)).symm hvo
  | cons w M2 =>
    obtain ⟨z, hz⟩ : ∃ z, (w :: M2).getLast? = some z :=
      ⟨_, List.getLast?_eq_getLast _ (List.cons_ne_nil _ _)⟩
    have hz2 : (o :: w :: M2).getLast? = some z := by
      rw [List.getLast?_cons_cons]
      exact hz
    have e1 := Cyc.head_next hcyc
    have e2 := Cyc.last_head hcyc hz2
    have hwv : w = v := Option.some.inj (e1.1.symm.trans hv)
    have hzu : z = u := Option.some.inj (e2.2.symm.trans hu)
    subst hwv hzu
    have hMne : ∀ q, q ∈ w :: M2 → q ≠ o := by
      intro q hq e
      subst e
      exact (List.nodup_cons.1 hndM).1 hq
    have hc5 : Cyc b2.oNext b2.oPrev (w :: M2) := by
      refine cyc_remove_head hcyc hndM rfl hz ?_ ?_ ?_ ?_
      · rw [On z (hMne z (List.mem_of_getLast?_eq_some hz)), if_pos rfl]
      · rw [Op w (hMne w (List.mem_cons_self _ _)), if_pos rfl]
      · intro a ha hne
        rw [On a (hMne a ha), if_neg hne]
      · intro a ha hne
        rw [Op a (hMne a ha), if_neg hne]
    have hsub : ∀ q, q ∈ os1 ++ os2 → q ∈ os1 ++ o :: os2 ∧ q ≠ o := by
      intro q hq
      have hqM : q ∈ w :: M2 := by
        rw [← hM]
        simp only [List.mem_append] at hq ⊢
        tauto
      exact ⟨hMmem q hqM, hMne q hqM⟩
    refine Struct.replaceOrders h ?_ ?_ ?_ VL ?_ VF VI VB1 VB2 VP1 VP2
    · refine ⟨hl.lt, (VF lp).trans hl.busy, by rw [VLp]; exact hl.side, ?_, by rw [VLp], ?_, ?_,
        ?_⟩
      · intro e
        have : w ∈ os2 ++ os1 := by
          rw [hM]
          exact List.mem_cons_self _ _
        simp only [List.append_eq_nil] at e
        rw [e.1, e.2] at this
        simp at this
      · rw [← hM] at hc5
        exact cyc_rotate hc5
      · intro q hq
        obtain ⟨hq1, hq2⟩ := hsub q hq
        have : (b2.level lp).price = (b.level lp).price := by rw [VLp]
        rw [this]
        exact (hl.ord q hq1).orderOK_transfer (O2 q hq2) (O1 q hq2)
      · have : (b2.level lp).price = (b.level lp).price := by rw [VLp]
        rw [this, VI]
        exact hl.idx
    · rw [orders_split]
      have hsl : (A.orders ++ (os1 ++ os2 ++ (B.orders ++ other.orders))).Sublist
          (A.orders ++ (os1 ++ o :: os2 ++ (B.orders ++ other.orders))) := by
        refine List.Sublist.append (List.Sublist.refl _) (List.Sublist.append ?_
          (List.Sublist.refl _))
        exact List.Sublist.append (List.Sublist.refl _) (List.sublist_cons_self _ _)
      exact hnd.sublist hsl
    · intro q hq
      have hqn := hrest q hq
      have hqo : q ≠ o := fun e => hqn (by simp [e])
      have hqu : q ≠ z := fun e =>
        hqn (e ▸ hMmem z (List.mem_of_getLast?_eq_some hz))
      have hqv : q ≠ w := fun e => hqn (e ▸ hMmem w (List.mem_cons_self _ _))
      refine ⟨SMEOrder.order_ext_links (O1 q hqo) ?_ ?_, O2 q hqo⟩
      · have := On q hqo
        rw [if_neg hqu] at this
        exact this
      · have := Op q hqo
        rw [if_neg hqv] at this
        exact this
    · rw [VLp]
      exact ⟨rfl, rfl, rfl⟩

end Exchange

namespace Common

namespace CMemoryPool

variable {T : Type}

theorem UpdateNextFreeIndexLoop_ok (p : CMemoryPool T) (init : Nat) :
    ∀ (fuel next k : Nat), next < p.numElems →
      UpdateNextFreeIndexLoop p init fuel next = .ok k →
      (p.m_store k).isFree = true ∧ k < p.numElems
  | 0, _, _, _, h => by simp [UpdateNextFreeIndexLoop] at h
  | fuel + 1, next, k, hlt, h => by
    unfold UpdateNextFreeIndexLoop at h
    by_cases hf : (p.m_store next).isFree = true
    · simp only [hf, if_true, Except.ok.injEq] at h
      subst h
      exact ⟨hf, hlt⟩
    · simp only [hf, Bool.false_eq_true, if_false] at h
      by_cases hi : init = (if next + 1 = p.numElems then 0 else next + 1)
      · rw [if_pos hi] at h
        exact absurd h (by simp)
      · rw [if_neg hi] at h
        refine UpdateNextFreeIndexLoop_ok p init fuel _ k ?_ h
        split <;> omega

/-- What a completed `Allocate` did: the slot at the cursor holds the new object and is busy,
every other slot is unchanged, and the cursor is again on a free slot. -/
theorem Allocate_ok {p : CMemoryPool T} {v : T} {r : Nat × CMemoryPool T} {n : Nat}
    (h : p.Allocate v = .ok r) (hp : Exchange.PoolOK p n) :
    r.1 = p.m_nextFreeIndex ∧ (∀ q, r.2.obj q = if q = r.1 then v else p.obj q) ∧
      (∀ q, (r.2.m_store q).isFree = if q = r.1 then false else (p.m_store q).isFree) ∧
      Exchange.PoolOK r.2 n := by
  unfold Allocate at h
  rw [if_pos hp.2.2] at h
  unfold UpdateNextFreeIndex at h
  simp only at h
  split at h
  · rename_i p1 heq
    split at heq
    · rename_i k hk
      simp only [Except.ok.injEq] at heq h
      subst heq
      subst h
      have hlt : p.m_nextFreeIndex < p.numElems := by
        rw [hp.1]
        exact hp.2.1
      have := UpdateNextFreeIndexLoop_ok _ _ _ _ k (by exact hlt) hk
      refine ⟨rfl, ?_, ?_, ?_⟩
      · intro q
        simp only [obj, Function.update_apply]
        split <;> rfl
      · intro q
        simp only [Function.update_apply]
        split <;> rfl
      · exact ⟨hp.1, hp.1 ▸ this.2, this.1⟩
    · exact absurd heq (by simp)
  · exact absurd h (by simp)

end CMemoryPool

end Common

namespace Exchange

open Common CMEOrderBook

/-- The invariant only reads the order pool at listed orders. -/
theorem Struct.congr_orders {b b2 : CMEOrderBook} {s : ESide} {own other : SideList}
    (h : Struct b s own other)
    (VL : b2.m_ordersAtPricePool = b.m_ordersAtPricePool)
    (VI : b2.m_priceOrdersAtPrice = b.m_priceOrdersAtPrice)
    (VB1 : b2.bestOf s = b.bestOf s) (VB2 : b2.bestOf (opp s) = b.bestOf (opp s))
    (hO : ∀ q, q ∈ (own ++ other).orders → b2.order q = b.order q ∧ b2.ofree q = b.ofree q)
    (VP : PoolOK b2.m_orderPool ME_MAX_ORDER_IDS) : Struct b2 s own other := by
  have hlv := level_views_of_pool VL
  refine ⟨?_, ?_, h.lnodup, h.onodup, ?_, by rw [VL]; exact h.lpool, VP⟩
  · exact h.ownOK.sideOK_transfer VB1 (fun q _ => hlv q) (fun q _ => by rw [VI])
      (fun q hq => hO q (SideList.orders_append _ _ ▸ List.mem_append_left _ hq))
  · exact h.otherOK.sideOK_transfer VB2 (fun q _ => hlv q) (fun q _ => by rw [VI])
      (fun q hq => hO q (SideList.orders_append _ _ ▸ List.mem_append_right _ hq))
  · intro k lq hk
    rw [VI] at hk
    rw [(hlv lq).1]
    exact h.idx k lq hk

end Exchange

namespace Exchange

open Common CMEOrderBook

theorem RemoveOrder_spec {b : CMEOrderBook} {s : ESide} {A B other : SideList}
    {lp o : Nat} {os1 os2 : List Nat} (hs : s = .BUY ∨ s = .SELL)
    (h : Struct b s (A ++ (lp, os1 ++ o :: os2) :: B) other) :
    ∃ b2, b.RemoveOrder o = .ok b2 ∧
      Struct b2 s (A ++ (if os1 ++ os2 = [] then B else (lp, os1 ++ os2) :: B)) other ∧
      (∀ q, q ≠ o → (b2.order q).unlink = (b.order q).unlink) ∧
      (∀ q, q ≠ o → b2.ofree q = b.ofree q) ∧
      b2.m_cidOidToOrder = Function.update b.m_cidOidToOrder (b.order o).clientId
        (Function.update (b.m_cidOidToOrder (b.order o).clientId) (b.order o).clientOrderId none) ∧
      b2.emitted = b.emitted ∧ b2.m_nextMarketOrderId = b.m_nextMarketOrderId ∧
      (∀ q, q ≠ lp → (b2.level q).unlink = (b.level q).unlink) ∧
      PoolLe b.m_ordersAtPricePool b2.m_ordersAtPricePool ∧
      PoolLe b.m_orderPool b2.m_orderPool ∧
      (∀ q, (b2.level q).price = (b.level q).price) := by
  have hl : LevelOK b s lp (os1 ++ o :: os2) := h.ownOK.lvl (lp, os1 ++ o :: os2) (by simp)
  have ho : OrderOK b s (b.level lp).price o := hl.ord o (by simp)
  have hidx : b.m_priceOrdersAtPrice (PriceToIndex (b.order o).price) = some lp := by
    rw [ho.price]
    exact hl.idx
  have holt : o < b.m_orderPool.numElems := by
    rw [h.opool.1]
    exact ho.lt
  have hobusy := ho.busy
  have hcid := ho.cid
  have hcoid := ho.coid
  by_cases hsingle : os1 ++ os2 = []
  · obtain ⟨rfl, rfl⟩ := List.append_eq_nil.1 hsingle
    have hself := cyc_singleton.1 hl.cyc
    simp only [oNext, oPrev] at hself
    obtain ⟨b1, hb1, hS1, hpool, hcid1, hem, hnid, hlev, hple, hlpr⟩ := RemoveOrdersAtPrice_spec hs h
    have hord1 := order_views_of_pool hpool
    have hlt1 : o < b1.m_orderPool.numElems := by
      rw [hpool]
      exact holt
    rw [← ho.price] at hb1
    cases hres : b.RemoveOrder o with
    | error e =>
      simp [RemoveOrder, hidx, hself, ho.side, hb1, bind, Except.bind, pure, Except.pure, hord1,
        setCidOid_eq, hcid, hcoid, CMemoryPool.Deallocate_def, hlt1, hobusy] at hres
    | ok b2 =>
      simp [RemoveOrder, hidx, hself, ho.side, hb1, bind, Except.bind, pure, Except.pure, hord1,
        setCidOid_eq, hcid, hcoid, CMemoryPool.Deallocate_def, hlt1, hobusy] at hres
      have hnotin : ∀ q, q ∈ ((A ++ B) ++ other).orders → q ≠ o := by
        intro q hq e
        subst e
        have hnd := h.onodup
        rw [orders_split] at hnd
        rw [orders_split0] at hq
        rcases List.mem_append.1 hq with hq | hq
        · exact (List.nodup_append.1 hnd).2.2 hq (by simp)
        · exact (List.nodup_append.1 (List.nodup_append.1 hnd).2.1).2.2 (by simp) hq
      refine ⟨b2, rfl, ?_, ?_, ?_, ?_, ?_, ?_, ?_, ?_, ?_, ?_⟩
      · simp only [List.nil_append, if_true]
        refine hS1.congr_orders ?_ ?_ ?_ ?_ ?_ ?_
        · subst hres
          rfl
        · subst hres
          rfl
        · subst hres
          rfl
        · subst hres
          rfl
        · intro q hq
          have := hnotin q hq
          subst hres
          simp [this, hord1]
        · subst hres
          exact CMemoryPool.PoolOK_release (by rw [hpool]; exact h.opool) o
      · subst hres
        intro q hq
        simp [hq, hord1]
      · subst hres
        intro q hq
        simp [hq, hord1]
      · subst hres
        simp [hcid1]
      · subst hres
        simp [hem]
      · subst hres
        simp [hnid]
      · subst hres
        intro q hq
        simpa using hlev q hq
      · subst hres
        exact hple
      · subst hres
        show PoolLe b.m_orderPool (b1.m_orderPool.release o)
        rw [hpool]
        exact CMemoryPool.PoolLe_release _ _
      · subst hres
        intro q
        simpa using hlpr q
  · have hnd := h.onodup
    rw [orders_split] at hnd
    have hndos : (os1 ++ o :: os2).Nodup :=
      (List.nodup_append.1 (List.nodup_append.1 hnd).2.1).1
    have hndM : (o :: (os2 ++ os1)).Nodup := by
      have hp : (os1 ++ o :: os2).Perm (o :: (os2 ++ os1)) := by
        have : (os1 ++ o :: os2).Perm ((o :: os2) ++ os1) := List.perm_append_comm
        simpa using this
      exact (List.Perm.nodup_iff hp).1 hndos
    have hcyc : Cyc b.oNext b.oPrev (o :: (os2 ++ os1)) := by
      have : Cyc b.oNext b.oPrev ((o :: os2) ++ os1) := cyc_rotate hl.cyc
      exact this
    obtain ⟨v, hv⟩ : ∃ v, (os2 ++ os1).head? = some v := by
      cases hM : os2 ++ os1 with
      | nil =>
        simp only [List.append_eq_nil] at hM
        exact absurd (by simp [hM.1, hM.2]) hsingle
      | cons w M => exact ⟨w, rfl⟩
    obtain ⟨u, hu⟩ : ∃ u, (os2 ++ os1).getLast? = some u := by
      cases hM : os2 ++ os1 with
      | nil => simp [hM] at hv
      | cons w M => exact ⟨_, List.getLast?_eq_getLast _ (List.cons_ne_nil _ _)⟩
    have hvm := List.mem_of_mem_head? hv
    have hum := List.mem_of_getLast?_eq_some hu
    have hvo : v ≠ o := fun e => (List.nodup_cons.1 hndM).1 (e ▸ hvm)
    have huo : u ≠ o := fun e => (List.nodup_cons.1 hndM).1 (e ▸ hum)
    have hnext : (b.order o).pNextOrder = some v := by
      cases hM : os2 ++ os1 with
      | nil => simp [hM] at hv
      | cons w M =>
        rw [hM] at hcyc hv
        simp only [List.head?_cons, Option.some.injEq] at hv
        subst hv
        exact (Cyc.head_next hcyc).1
    have hprev : (b.order o).pPrevOrder = some u := by
      cases hM : os2 ++ os1 with
      | nil => simp [hM] at hv
      | cons w M =>
        rw [hM] at hcyc hu
        exact (Cyc.last_head hcyc (by rw [List.getLast?_cons_cons]; exact hu)).2
    have hfirst : (b.level lp).pFirstMeOrder = (os1 ++ o :: os2).head? := hl.first
    have hov : ¬ o = v := fun e => hvo e.symm
    have hou : ¬ o = u := fun e => huo e.symm
    have o1 : (o = u) = (u = o) := propext eq_comm
    have o2 : (o = v) = (v = o) := propext eq_comm
    have o3 : (u = v) = (v = u) := propext eq_comm
    simp only [hsingle, if_false]
    by_cases hos1 : os1 = [] <;>
    · have hfo : ((b.level lp).pFirstMeOrder = some o) ↔ os1 = [] := by
        rw [hfirst]
        cases os1 with
        | nil => simp
        | cons a os1 =>
          simp only [List.cons_append, List.head?_cons, Option.some.injEq]
          constructor
          · intro e
            subst e
            simp at hndos
          · intro e
            simp at e
      have hhead : (os1 ++ os2).head? = if os1 = [] then some v else (b.level lp).pFirstMeOrder := by
        rw [hfirst]
        cases os1 with
        | nil => simpa using hv
        | cons a os1 => simp
      cases hres : b.RemoveOrder o with
      | error e =>
        simp [RemoveOrder, hidx, hprev, hnext, hou, hov, huo, hvo, hfo, hos1, bind, Except.bind,
          pure, Except.pure, setCidOid_eq, hcid, hcoid, CMemoryPool.Deallocate_def, holt,
          hobusy] at hres
      | ok b2 =>
        simp [RemoveOrder, hidx, hprev, hnext, hou, hov, huo, hvo, hfo, hos1, bind, Except.bind,
          pure, Except.pure, setCidOid_eq, hcid, hcoid, CMemoryPool.Deallocate_def, holt,
          hobusy] at hres
        have O1 : ∀ q, q ≠ o → (b2.order q).unlink = (b.order q).unlink := by
          subst hres
          intro q hq
          have o4 : (u = q) = (q = u) := propext eq_comm
          have o5 : (v = q) = (q = v) := propext eq_comm
          have o6 : (o = q) = (q = o) := propext eq_comm
          by_cases h2 : q = u <;> by_cases h3 : q = v <;> by_cases h4 : v = u <;>
            first
            | omega
            | simp [o1, o2, o3, o4, o5, o6, hq, h2, h3, h4, huo, hvo, SMEOrder.unlink]
        have O2 : ∀ q, q ≠ o → b2.ofree q = b.ofree q := by
          subst hres
          intro q hq
          simp [hq]
        refine ⟨b2, rfl, Struct.removeOrder h hnext hprev hvo O1 ?_ ?_ O2 ?_ ?_ ?_ ?_ ?_ ?_ ?_ ?_,
          O1, O2, ?_, ?_, ?_, ?_, ?_, ?_, ?_⟩
        · subst hres
          intro q hq
          have o4 : (u = q) = (q = u) := propext eq_comm
          have o5 : (v = q) = (q = v) := propext eq_comm
          have o6 : (o = q) = (q = o) := propext eq_comm
          by_cases h2 : q = u <;> by_cases h3 : q = v <;> by_cases h4 : v = u <;>
            first
            | omega
            | simp [oNext, o1, o2, o3, o4, o5, o6, hq, h2, h3, h4, huo, hvo]
        · subst hres
          intro q hq
          have o4 : (u = q) = (q = u) := propext eq_comm
          have o5 : (v = q) = (q = v) := propext eq_comm
          have o6 : (o = q) = (q = o) := propext eq_comm
          by_cases h2 : q = u <;> by_cases h3 : q = v <;> by_cases h4 : v = u <;>
            first
            | omega
            | simp [oPrev, o1, o2, o3, o4, o5, o6, hq, h2, h3, h4, huo, hvo]
        · subst hres
          intro q hq
          simp [hq]
        · subst hres
          rw [hhead]
          simp [hos1]
        · subst hres
          intro q
          simp
        · subst hres
          simp
        · subst hres
          simp
        · subst hres
          simp
        · subst hres
          exact PoolOK_of_views h.lpool (by simp) (by simp) (by simp)
        · subst hres
          refine CMemoryPool.PoolOK_release ?_ o
          exact PoolOK_of_views h.opool (by simp) (by simp) (by simp)
        · subst hres
          simp [hou, hov]
        · subst hres
          simp
        · subst hres
          simp
        · subst hres
          intro q hq
          simp [hq]
        · subst hres
          refine ⟨by simp, by simp, fun q hq => ?_⟩
          simp only [isFree_levelPool] at hq ⊢
          simp [hq]
        · subst hres
          refine ⟨by simp, by simp, fun q hq => ?_⟩
          simp only [isFree_orderPool] at hq ⊢
          by_cases hqo : q = o <;> simp [hq, hqo]
        · subst hres
          intro q
          by_cases hq : q = lp <;> simp [hq]

end Exchange

namespace Common

namespace CMemoryPool

variable {T : Type}

theorem succ_wrap (a n : Nat) (hn : 0 < n) :
    (if a % n + 1 = n then 0 else a % n + 1) = (a + 1) % n := by
  have hlt := Nat.mod_lt a hn
  have e : (a + 1) % n = (a % n + 1) % n := (Nat.mod_add_mod a n 1).symm
  rw [e]
  by_cases h : a % n + 1 = n
  · rw [if_pos h, h, Nat.mod_self]
  · have e2 : (a % n + 1) % n = a % n + 1 := Nat.mod_eq_of_lt (by omega)
    rw [if_neg h, e2]

theorem add_mod_ne (i m n : Nat) (hi : i < n) (h1 : 0 < m) (h2 : m < n) : (i + m) % n ≠ i := by
  by_cases h : i + m < n
  · rw [Nat.mod_eq_of_lt h]
    omega
  · rw [Nat.mod_eq_sub_mod (by omega), Nat.mod_eq_of_lt (by omega)]
    omega

/-- The cursor search finds a free slot before it is back at its start when one exists. -/
theorem UpdateNextFreeIndexLoop_total (p : CMemoryPool T) (i kj : Nat) (hi : i < p.numElems)
    (hkj : kj < p.numElems) (hfree : (p.m_store ((i + kj) % p.numElems)).isFree = true) :
    ∀ (fuel k : Nat), k ≤ kj → kj - k < fuel →
      ∃ r, UpdateNextFreeIndexLoop p i fuel ((i + k) % p.numElems) = .ok r
  | 0, _, _, h => by omega
  | fuel + 1, k, hk, hfuel => by
    unfold UpdateNextFreeIndexLoop
    by_cases hf : (p.m_store ((i + k) % p.numElems)).isFree = true
    · exact ⟨_, by rw [if_pos hf]⟩
    · rw [if_neg hf]
      have hne : k ≠ kj := fun e => hf (e ▸ hfree)
      have hn : 0 < p.numElems := by omega
      simp only [succ_wrap _ _ hn]
      have := add_mod_ne i (k + 1) p.numElems hi (by omega) (by omega)
      rw [if_neg (by rw [← Nat.add_assoc] at this; exact fun e => this e.symm)]
      exact UpdateNextFreeIndexLoop_total p i kj hi hkj hfree fuel (k + 1) (by omega) (by omega)

/-- With a free slot besides the cursor's, `Allocate` succeeds. -/
theorem Allocate_total {p : CMemoryPool T} {n : Nat} (v : T) (hp : Exchange.PoolOK p n)
    (hs : Exchange.Spare p) : ∃ r, p.Allocate v = .ok r := by
  obtain ⟨j, hj, hjc, hjf⟩ := hs
  have hc : p.m_nextFreeIndex < p.numElems := by
    rw [hp.1]
    exact hp.2.1
  obtain ⟨kj, hkj, hpos, hmod⟩ : ∃ kj, kj < p.numElems ∧ 0 < kj ∧
      (p.m_nextFreeIndex + kj) % p.numElems = j := by
    by_cases h : p.m_nextFreeIndex < j
    · exact ⟨j - p.m_nextFreeIndex, by omega, by omega, by
        rw [Nat.mod_eq_of_lt (by omega)]
        omega⟩
    · exact ⟨j + p.numElems - p.m_nextFreeIndex, by omega, by omega, by
        rw [Nat.mod_eq_sub_mod (by omega), Nat.mod_eq_of_lt (by omega)]
        omega⟩
  let p1 : CMemoryPool T :=
    { p with m_store := Function.update p.m_store p.m_nextFreeIndex ⟨v, false⟩ }
  have hfree1 : (p1.m_store ((p1.m_nextFreeIndex + kj) % p1.numElems)).isFree = true := by
    show ((Function.update p.m_store p.m_nextFreeIndex ⟨v, false⟩)
      ((p.m_nextFreeIndex + kj) % p.numElems)).isFree = true
    rw [hmod, Function.update_noteq hjc]
    exact hjf
  obtain ⟨r, hr⟩ := UpdateNextFreeIndexLoop_total p1 p1.m_nextFreeIndex kj hc hkj hfree1
    (p.numElems + 1) 0 (by omega) (by omega)
  have hr2 : UpdateNextFreeIndexLoop p1 p.m_nextFreeIndex (p.numElems + 1) p.m_nextFreeIndex
      = .ok r := by
    have e : (p1.m_nextFreeIndex + 0) % p1.numElems = p.m_nextFreeIndex :=
      Nat.mod_eq_of_lt hc
    rw [e] at hr
    exact hr
  refine ⟨(p.m_nextFreeIndex, { p1 with m_nextFreeIndex := r }), ?_⟩
  unfold Allocate
  rw [if_pos hp.2.2]
  unfold UpdateNextFreeIndex
  simp only
  rw [hr2]

end CMemoryPool

end Common

namespace Exchange

open Common CMEOrderBook

/-- The invariant survives a write to the orders that keeps links, side, price and client
ids. -/
theorem Struct.congr_fields {b b2 : CMEOrderBook} {s : ESide} {own other : SideList}
    (h : Struct b s own other)
    (VL : b2.m_ordersAtPricePool = b.m_ordersAtPricePool)
    (VI : b2.m_priceOrdersAtPrice = b.m_priceOrdersAtPrice)
    (VB1 : b2.bestOf s = b.bestOf s) (VB2 : b2.bestOf (opp s) = b.bestOf (opp s))
    (hO : ∀ q, q ∈ (own ++ other).orders →
      (b2.order q).pNextOrder = (b.order q).pNextOrder ∧
      (b2.order q).pPrevOrder = (b.order q).pPrevOrder ∧
      (b2.order q).side = (b.order q).side ∧ (b2.order q).price = (b.order q).price ∧
      (b2.order q).clientId = (b.order q).clientId ∧
      (b2.order q).clientOrderId = (b.order q).clientOrderId ∧ b2.ofree q = b.ofree q)
    (VP : PoolOK b2.m_orderPool ME_MAX_ORDER_IDS) : Struct b2 s own other := by
  have hlv := level_views_of_pool VL
  have side : ∀ (t : ESide) (L : SideList), SideOK b t L → b2.bestOf t = b.bestOf t →
      (∀ q ∈ L.orders, q ∈ (own ++ other).orders) → SideOK b2 t L := by
    intro t L hL hb hsub
    refine ⟨hb.trans hL.best, ?_, ?_, ?_⟩
    · exact cyc_frame hL.cyc (fun x _ => by simp only [lNext, lPrev, (hlv x).1, and_self])
    · intro x hx
      have hl := hL.lvl x hx
      refine ⟨hl.lt, (hlv _).2.trans hl.busy, by rw [(hlv _).1]; exact hl.side, hl.ne,
        by rw [(hlv _).1]; exact hl.first, ?_, ?_, by rw [(hlv _).1, VI]; exact hl.idx⟩
      · refine cyc_frame hl.cyc (fun q hq => ?_)
        have := hO q (hsub q (SideList.mem_orders hx hq))
        exact ⟨this.1, this.2.1⟩
      · intro q hq
        have := hO q (hsub q (SideList.mem_orders hx hq))
        have ho := hl.ord q hq
        rw [(hlv _).1]
        exact ⟨ho.lt, this.2.2.2.2.2.2.trans ho.busy, this.2.2.1.trans ho.side,
          this.2.2.2.1.trans ho.price, this.2.2.2.2.1 ▸ ho.cid, this.2.2.2.2.2.1 ▸ ho.coid⟩
    · exact hL.sorted.imp_of_mem (fun {x y} _ _ hxy => by
        rw [(hlv _).1, (hlv _).1]
        exact hxy)
  refine ⟨side s own h.ownOK VB1 ?_, side (opp s) other h.otherOK VB2 ?_, h.lnodup, h.onodup, ?_,
    by rw [VL]; exact h.lpool, VP⟩
  · intro q hq
    exact SideList.orders_append _ _ ▸ List.mem_append_left _ hq
  · intro q hq
    exact SideList.orders_append _ _ ▸ List.mem_append_right _ hq
  · intro k lq hk
    rw [VI] at hk
    rw [(hlv lq).1]
    exact h.idx k lq hk

end Exchange

namespace Exchange

open Common CMEOrderBook

/-- Method `AddOrdersAtPrice` writes to price levels only. -/
theorem AddOrdersAtPrice_orderPool {b b2 : CMEOrderBook} {pNew : Nat}
    (h : b.AddOrdersAtPrice pNew = .ok b2) : b2.m_orderPool = b.m_orderPool := by
  unfold AddOrdersAtPrice at h
  simp only [setOrdersAtPrice_eq, bind, Except.bind, pure, Except.pure] at h
  split at h
  · simp only [Except.ok.injEq] at h
    subst h
    simp
  · split at h
    · exact absurd h (by simp)
    · repeat' first
        | (cases h
           done)
        | (cases h
           simp)
        | split at h

/-- Method `AddOrder(SMEOrder*)` on an order whose price has a live level: the order becomes the
tail of that level. -/
theorem AddOrderPtr_existing {b : CMEOrderBook} {s : ESide} {A B other : SideList}
    {lp o : Nat} {os : List Nat}
    (h : Struct b s (A ++ (lp, os) :: B) other)
    (ho : o ∉ ((A ++ (lp, os) :: B) ++ other).orders)
    (hoOK : OrderOK b s (b.level lp).price o) :
    ∃ b2, b.AddOrderPtr o = .ok b2 ∧ Struct b2 s (A ++ (lp, os ++ [o]) :: B) other ∧
      (∀ q, (b2.order q).unlink = (b.order q).unlink) ∧ (∀ q, b2.ofree q = b.ofree q) ∧
      b2.m_cidOidToOrder = Function.update b.m_cidOidToOrder (b.order o).clientId
        (Function.update (b.m_cidOidToOrder (b.order o).clientId) (b.order o).clientOrderId
          (some o)) ∧
      b2.emitted = b.emitted ∧ b2.m_nextMarketOrderId = b.m_nextMarketOrderId ∧
      b2.m_ordersAtPricePool = b.m_ordersAtPricePool := by
  have hl : LevelOK b s lp os := h.ownOK.lvl (lp, os) (by simp)
  have hidx : b.m_priceOrdersAtPrice (PriceToIndex (b.order o).price) = some lp := by
    rw [hoOK.price]
    exact hl.idx
  have hoos : o ∉ os := fun hm => ho (by
    rw [orders_split]
    simp [hm])
  obtain ⟨f, hf⟩ : ∃ f, os.head? = some f := by
    cases hos : os with
    | nil => exact absurd hos hl.ne
    | cons w M => exact ⟨w, rfl⟩
  obtain ⟨t, ht⟩ : ∃ t, os.getLast? = some t := by
    cases hos : os with
    | nil => exact absurd hos hl.ne
    | cons w M => exact ⟨_, List.getLast?_eq_getLast _ (List.cons_ne_nil _ _)⟩
  have hfm := List.mem_of_mem_head? hf
  have htm := List.mem_of_getLast?_eq_some ht
  have hfo : f ≠ o := fun e => hoos (e ▸ hfm)
  have hto : t ≠ o := fun e => hoos (e ▸ htm)
  have hfirst : (b.level lp).pFirstMeOrder = some f := hl.first.trans hf
  have hprev : (b.order f).pPrevOrder = some t := by
    cases hos : os with
    | nil => exact absurd hos hl.ne
    | cons w M =>
      have hc := hl.cyc
      rw [hos] at hc hf ht
      simp only [List.head?_cons, Option.some.injEq] at hf
      subst hf
      exact (Cyc.last_head hc ht).2
  have hcid := hoOK.cid
  have hcoid := hoOK.coid
  have hof : ¬ o = f := fun e => hfo e.symm
  have hot : ¬ o = t := fun e => hto e.symm
  have o1 : (o = f) = (f = o) := propext eq_comm
  have o2 : (o = t) = (t = o) := propext eq_comm
  have o3 : (t = f) = (f = t) := propext eq_comm
  have hprev2 : f = t → (b.order t).pPrevOrder = some t := fun e => e ▸ hprev
  by_cases hft : f = t <;>
  · cases hres : b.AddOrderPtr o with
    | error e =>
      simp [AddOrderPtr, hidx, hfirst, hprev, hprev2, hft, hfo, hto, hof, hot, bind, Except.bind, pure, Except.pure,
        setCidOid_eq, hcid, hcoid] at hres
    | ok b2 =>
      simp [AddOrderPtr, hidx, hfirst, hprev, hprev2, hft, hfo, hto, hof, hot, bind, Except.bind, pure, Except.pure,
        setCidOid_eq, hcid, hcoid] at hres
      have O1 : ∀ q, (b2.order q).unlink = (b.order q).unlink := by
        subst hres
        intro q
        have o4 : (f = q) = (q = f) := propext eq_comm
        have o5 : (t = q) = (q = t) := propext eq_comm
        have o6 : (o = q) = (q = o) := propext eq_comm
        by_cases h1 : q = o <;> by_cases h2 : q = f <;> by_cases h3 : q = t <;>
            first
          | omega
          | simp [o1, o2, o3, o4, o5, o6, h1, h2, h3, hft, hfo, hto, SMEOrder.unlink]
      have O2 : ∀ q, b2.ofree q = b.ofree q := by
        subst hres
        intro q
        simp
      refine ⟨b2, rfl, Struct.appendOrder h ho ?_ hf ht (fun q _ => O1 q) ?_ ?_ (fun q _ => O2 q)
        ?_ ?_ ?_ ?_ ?_, O1, O2, ?_, ?_, ?_, ?_⟩
      · exact hoOK.orderOK_transfer (O2 o) (O1 o)
      · subst hres
        intro q
        have o4 : (f = q) = (q = f) := propext eq_comm
        have o5 : (t = q) = (q = t) := propext eq_comm
        have o6 : (o = q) = (q = o) := propext eq_comm
        by_cases h1 : q = o <;> by_cases h2 : q = f <;> by_cases h3 : q = t <;>
            first
          | omega
          | simp [oNext, o1, o2, o3, o4, o5, o6, h1, h2, h3, hft, hfo, hto]
      · subst hres
        intro q
        have o4 : (f = q) = (q = f) := propext eq_comm
        have o5 : (t = q) = (q = t) := propext eq_comm
        have o6 : (o = q) = (q = o) := propext eq_comm
        by_cases h1 : q = o <;> by_cases h2 : q = f <;> by_cases h3 : q = t <;>
            first
          | omega
          | simp [oPrev, o1, o2, o3, o4, o5, o6, h1, h2, h3, hft, hfo, hto, hprev]
      · subst hres
        simp
      · subst hres
        simp
      · subst hres
        simp
      · subst hres
        simp
      · subst hres
        exact PoolOK_of_views h.opool (by simp) (by simp) (by simp)
      · subst hres
        simp [hof, hot]
      · subst hres
        simp
      · subst hres
        simp
      · subst hres
        simp

end Exchange

namespace Exchange

open Common CMEOrderBook

/-- The invariant only reads the listed levels and orders, the price index and the best
pointers. -/
theorem Struct.congr {b b2 : CMEOrderBook} {s : ESide} {own other : SideList}
    (h : Struct b s own other)
    (hL : ∀ q, q ∈ (own ++ other).levels → b2.level q = b.level q ∧ b2.lfree q = b.lfree q)
    (VI : b2.m_priceOrdersAtPrice = b.m_priceOrdersAtPrice)
    (VB1 : b2.bestOf s = b.bestOf s) (VB2 : b2.bestOf (opp s) = b.bestOf (opp s))
    (hO : ∀ q, q ∈ (own ++ other).orders → b2.order q = b.order q ∧ b2.ofree q = b.ofree q)
    (VQ : PoolOK b2.m_ordersAtPricePool ME_MAX_PRICE_LEVELS)
    (VP : PoolOK b2.m_orderPool ME_MAX_ORDER_IDS) : Struct b2 s own other := by
  refine ⟨?_, ?_, h.lnodup, h.onodup, ?_, VQ, VP⟩
  · exact h.ownOK.sideOK_transfer VB1
      (fun q hq => hL q (SideList.levels_append _ _ ▸ List.mem_append_left _ hq))
      (fun q _ => by rw [VI])
      (fun q hq => hO q (SideList.orders_append _ _ ▸ List.mem_append_left _ hq))
  · exact h.otherOK.sideOK_transfer VB2
      (fun q hq => hL q (SideList.levels_append _ _ ▸ List.mem_append_right _ hq))
      (fun q _ => by rw [VI])
      (fun q hq => hO q (SideList.orders_append _ _ ▸ List.mem_append_right _ hq))
  · intro k lq hk
    rw [VI] at hk
    have := h.idx k lq hk
    rw [(hL lq this.1).1]
    exact this

theorem Struct.level_busy {b : CMEOrderBook} {s : ESide} {own other : SideList}
    (h : Struct b s own other) {q : Nat} (hq : q ∈ (own ++ other).levels) : b.lfree q = false := by
  rw [SideList.levels_append] at hq
  rcases List.mem_append.1 hq with hq | hq
  · obtain ⟨x, hx, rfl⟩ := List.mem_map.1 hq
    exact (h.ownOK.lvl x hx).busy
  · obtain ⟨x, hx, rfl⟩ := List.mem_map.1 hq
    exact (h.otherOK.lvl x hx).busy

theorem Struct.order_ok {b : CMEOrderBook} {s : ESide} {own other : SideList}
    (h : Struct b s own other) {q : Nat} (hq : q ∈ (own ++ other).orders) :
    ∃ t p, OrderOK b t p q := by
  rw [SideList.orders_append] at hq
  rcases List.mem_append.1 hq with hq | hq
  · obtain ⟨x, hx, hqx⟩ := List.mem_flatMap.1 hq
    exact ⟨_, _, (h.ownOK.lvl x hx).ord q hqx⟩
  · obtain ⟨x, hx, hqx⟩ := List.mem_flatMap.1 hq
    exact ⟨_, _, (h.otherOK.lvl x hx).ord q hqx⟩

/-- Method `AddOrder(SMEOrder*)` on an order whose price has no live level: a level is allocated
and linked in by price, with the order as its only entry. -/
theorem AddOrderPtr_new {b : CMEOrderBook} {s : ESide} {own other : SideList} {o : Nat}
    (hs : s = .BUY ∨ s = .SELL) (h : Struct b s own other)
    (ho : o ∉ (own ++ other).orders) (hoOK : OrderOK b s (b.order o).price o)
    (hidx : b.m_priceOrdersAtPrice (PriceToIndex (b.order o).price) = none)
    {r : Nat × CMemoryPool SMEOrdersAtPrice}
    (hA : b.m_ordersAtPricePool.Allocate
      ⟨(b.order o).side, (b.order o).price, some o, none, none⟩ = .ok r) :
    ∃ A B, own = A ++ B ∧
      (∀ x ∈ A, better s (b.level x.1).price (b.order o).price) ∧
      (∀ x ∈ B, better s (b.order o).price (b.level x.1).price) ∧
      ∃ b2, b.AddOrderPtr o = .ok b2 ∧ Struct b2 s (A ++ (r.1, [o]) :: B) other ∧
      (∀ q, (b2.order q).unlink = (b.order q).unlink) ∧ (∀ q, b2.ofree q = b.ofree q) ∧
      b2.m_cidOidToOrder = Function.update b.m_cidOidToOrder (b.order o).clientId
        (Function.update (b.m_cidOidToOrder (b.order o).clientId) (b.order o).clientOrderId
          (some o)) ∧
      b2.emitted = b.emitted ∧ b2.m_nextMarketOrderId = b.m_nextMarketOrderId := by
  obtain ⟨hr1, hobj, hfr, hpool⟩ := CMemoryPool.Allocate_ok hA h.lpool
  generalize hb1 : ({ b.setOrder o fun x => { x with pNextOrder := some o, pPrevOrder := some o }
    with m_ordersAtPricePool := r.2 } : CMEOrderBook) = b1
  have hcfree : b.lfree r.1 = true := by
    rw [hr1]
    exact h.lpool.2.2
  have hnew : r.1 ∉ (own ++ other).levels := by
    intro hm
    have := h.level_busy hm
    rw [hcfree] at this
    exact Bool.noConfusion this
  have hlev : ∀ q, b1.level q = if q = r.1 then
      ⟨(b.order o).side, (b.order o).price, some o, none, none⟩ else b.level q := by
    intro q
    subst hb1
    exact hobj q
  have hlf : ∀ q, b1.lfree q = if q = r.1 then false else b.lfree q := by
    intro q
    subst hb1
    exact hfr q
  have hord : ∀ q, b1.order q = if q = o then
      { b.order o with pNextOrder := some o, pPrevOrder := some o } else b.order q := by
    intro q
    subst hb1
    by_cases hq : q = o <;> simp [hq]
  have hof : ∀ q, b1.ofree q = b.ofree q := by
    intro q
    subst hb1
    simp
  have hS1 : Struct b1 s own other := by
    refine h.congr ?_ ?_ ?_ ?_ ?_ ?_ ?_
    · intro q hq
      have hne : q ≠ r.1 := fun e => hnew (e ▸ hq)
      rw [hlev, hlf, if_neg hne, if_neg hne]
      exact ⟨rfl, rfl⟩
    · subst hb1
      rfl
    · subst hb1
      simp
    · subst hb1
      simp
    · intro q hq
      have hne : q ≠ o := fun e => ho (e ▸ hq)
      rw [hord, if_neg hne]
      exact ⟨rfl, hof q⟩
    · subst hb1
      exact hpool
    · subst hb1
      exact CMemoryPool.PoolOK_modify h.opool _ _
  have hp1 : (b1.level r.1).price = (b.order o).price := by
    rw [hlev, if_pos rfl]
  have hoOK1 : OrderOK b1 s (b1.level r.1).price o := by
    rw [hp1]
    refine hoOK.orderOK_transfer (hof o) ?_
    rw [hord, if_pos rfl]
    rfl
  have hidx1 : b1.m_priceOrdersAtPrice (PriceToIndex (b1.level r.1).price) = none := by
    rw [hp1]
    subst hb1
    exact hidx
  obtain ⟨A, B, hAB, hbA, hbB, b2, hb2, hS2, hop2, hci2, hem2, hid2, -, -⟩ :=
    AddOrdersAtPrice_spec hs hS1 hnew (hr1 ▸ h.lpool.2.1) (by rw [hlf, if_pos rfl])
      (by rw [hlev, if_pos rfl]; exact hoOK.side) (by rw [hlev, if_pos rfl]) hidx1 ho hoOK1
      (by simp only [oNext]; rw [hord, if_pos rfl]) (by simp only [oPrev]; rw [hord, if_pos rfl])
  have hlA : ∀ x ∈ own, b1.level x.1 = b.level x.1 := by
    intro x hx
    have hne : x.1 ≠ r.1 := fun e => hnew (e ▸ (by
      rw [SideList.levels_append]
      exact List.mem_append_left _ (SideList.mem_levels hx)))
    rw [hlev, if_neg hne]
  refine ⟨A, B, hAB, ?_, ?_, ?_⟩
  · intro x hx
    have := hbA x hx
    rw [hp1, hlA x (hAB ▸ List.mem_append_left _ hx)] at this
    exact this
  · intro x hx
    have := hbB x hx
    rw [hp1, hlA x (hAB ▸ List.mem_append_right _ hx)] at this
    exact this
  have hov2 := order_views_of_pool hop2
  have hcid := hoOK.cid
  have hcoid := hoOK.coid
  have hc2 : (b2.order o).clientId = (b.order o).clientId := by
    rw [(hov2 o).1, hord, if_pos rfl]
  have hco2 : (b2.order o).clientOrderId = (b.order o).clientOrderId := by
    rw [(hov2 o).1, hord, if_pos rfl]
  have hrun : b.AddOrderPtr o = b2.setCidOid (b2.order o).clientId (b2.order o).clientOrderId
      (some o) := by
    subst hb1
    simp only [AddOrderPtr, GetOrdersAtPrice_eq, hidx, bind, Except.bind, pure, Except.pure,
      levelPool_setOrder, order_setOrder, if_true]
    simp only [hA, hb2]
  rw [hrun, hc2, hco2, setCidOid_eq _ _ hcid hcoid]
  refine ⟨_, rfl, ?_, ?_, ?_, ?_, ?_, ?_⟩
  · refine hS2.congr (fun q _ => ⟨rfl, rfl⟩) rfl ?_ ?_ (fun q _ => ⟨rfl, rfl⟩) hS2.lpool hS2.opool
    · rfl
    · rfl
  · intro q
    show (b2.order q).unlink = _
    rw [(hov2 q).1, hord]
    split
    · rename_i e
      subst e
      rfl
    · rfl
  · intro q
    show b2.ofree q = _
    rw [(hov2 q).2, hof]
  · show Function.update b2.m_cidOidToOrder _ _ = _
    rw [hci2]
    subst hb1
    rfl
  · show b2.emitted = _
    rw [hem2]
    subst hb1
    rfl
  · show b2.m_nextMarketOrderId = _
    rw [hid2]
    subst hb1
    rfl

end Exchange

namespace Exchange

open Common CMEOrderBook

namespace CMEOrderBook

@[simp] theorem order_SendClientResponse (b : CMEOrderBook) (r : SMEClientResponse) (q : Nat) :
    (b.SendClientResponse r).order q = b.order q := rfl

@[simp] theorem order_SendMarketUpdate (b : CMEOrderBook) (u : SMEMarketUpdate) (q : Nat) :
    (b.SendMarketUpdate u).order q = b.order q := rfl

@[simp] theorem ofree_SendClientResponse (b : CMEOrderBook) (r : SMEClientResponse) (q : Nat) :
    (b.SendClientResponse r).ofree q = b.ofree q := rfl

@[simp] theorem ofree_SendMarketUpdate (b : CMEOrderBook) (u : SMEMarketUpdate) (q : Nat) :
    (b.SendMarketUpdate u).ofree q = b.ofree q := rfl

@[simp] theorem emitted_SendClientResponse (b : CMEOrderBook) (r : SMEClientResponse) :
    (b.SendClientResponse r).emitted = b.emitted ++ [.response r] := rfl

@[simp] theorem emitted_SendMarketUpdate (b : CMEOrderBook) (u : SMEMarketUpdate) :
    (b.SendMarketUpdate u).emitted = b.emitted ++ [.update u] := rfl

/-- Sending a response leaves the book as it is. -/
theorem Struct_SendClientResponse {b : CMEOrderBook} {s : ESide} {own other : SideList}
    (h : Struct b s own other) (r : SMEClientResponse) :
    Struct (b.SendClientResponse r) s own other :=
  h.congr (fun _ _ => ⟨rfl, rfl⟩) rfl rfl rfl (fun _ _ => ⟨rfl, rfl⟩) h.lpool h.opool

/-- Sending an update leaves the book as it is. -/
theorem Struct_SendMarketUpdate {b : CMEOrderBook} {s : ESide} {own other : SideList}
    (h : Struct b s own other) (u : SMEMarketUpdate) :
    Struct (b.SendMarketUpdate u) s own other :=
  h.congr (fun _ _ => ⟨rfl, rfl⟩) rfl rfl rfl (fun _ _ => ⟨rfl, rfl⟩) h.lpool h.opool

/-- Method `Match` is `matchPre` followed by the update on the resting order. -/
theorem Match_eq (b : CMEOrderBook) (ticker_id client_id : Nat) (side : ESide)
    (client_order_id new_market_order_id itr leaves_qty : Nat) :
    b.Match ticker_id client_id side client_order_id new_market_order_id itr leaves_qty =
      (let X := b.matchPre ticker_id client_id side client_order_id new_market_order_id itr
          leaves_qty
       if (X.order itr).qty = 0 then
        (X.SendMarketUpdate ⟨.CANCEL, (X.order itr).marketOrderId, ticker_id,
            (X.order itr).side, (X.order itr).price, (b.order itr).qty,
            Priority_INVALID⟩).RemoveOrder itr >>= fun b2 =>
          pure (b2, leaves_qty - min leaves_qty (b.order itr).qty)
       else
        pure (X.SendMarketUpdate ⟨.MODIFY, (X.order itr).marketOrderId, ticker_id,
            (X.order itr).side, (X.order itr).price, (X.order itr).qty,
            (X.order itr).priority⟩, leaves_qty - min leaves_qty (b.order itr).qty)) := by
  rfl

theorem matchPre_order (b : CMEOrderBook) (ticker_id client_id : Nat) (side : ESide)
    (client_order_id new_market_order_id itr leaves_qty q : Nat) :
    (b.matchPre ticker_id client_id side client_order_id new_market_order_id itr
      leaves_qty).order q =
      if q = itr then { b.order itr with qty := (b.order itr).qty - min leaves_qty (b.order itr).qty }
      else b.order q := by
  simp only [matchPre, order_SendMarketUpdate, order_SendClientResponse, order_setOrder]

theorem matchPre_emitted (b : CMEOrderBook) (ticker_id client_id : Nat) (side : ESide)
    (client_order_id new_market_order_id itr leaves_qty : Nat) :
    (b.matchPre ticker_id client_id side client_order_id new_market_order_id itr
      leaves_qty).emitted = b.emitted ++
      [.response (aggressorFilled ticker_id client_id side client_order_id new_market_order_id
          (b.order itr).unlink leaves_qty),
        .response (restingFilled ticker_id (b.order itr).unlink leaves_qty),
        .update (tradeUpdate ticker_id side (b.order itr).unlink leaves_qty)] := by
  simp [matchPre, aggressorFilled, restingFilled, tradeUpdate, SMEOrder.unlink]

end CMEOrderBook

end Exchange

namespace Exchange

open Common CMEOrderBook

/-- One match against the head of the best opposite level. -/
theorem Match_spec {b : CMEOrderBook} {side : ESide} {own B : SideList} {lp o : Nat}
    {os : List Nat} (hs : side = .BUY ∨ side = .SELL)
    (h : Struct b side own ((lp, o :: os) :: B)) (tid cid coid moid L : Nat) :
    ∃ b2, b.Match tid cid side coid moid o L = .ok (b2, L - (b.order o).qty) ∧
      b2.emitted = b.emitted ++ matchRecords tid cid side coid moid (b.order o).unlink L ∧
      b2.m_nextMarketOrderId = b.m_nextMarketOrderId ∧
      PoolLe b.m_ordersAtPricePool b2.m_ordersAtPricePool ∧
      PoolLe b.m_orderPool b2.m_orderPool ∧
      (∀ q, q ≠ o → (b2.order q).unlink = (b.order q).unlink) ∧
      (∀ q, q ≠ o → b2.ofree q = b.ofree q) ∧
      ((b.order o).qty ≤ L →
        Struct b2 side own (if os = [] then B else (lp, os) :: B) ∧
        b2.m_cidOidToOrder = Function.update b.m_cidOidToOrder (b.order o).clientId
          (Function.update (b.m_cidOidToOrder (b.order o).clientId) (b.order o).clientOrderId
            none)) ∧
      (L < (b.order o).qty →
        Struct b2 side own ((lp, o :: os) :: B) ∧ b2.m_cidOidToOrder = b.m_cidOidToOrder ∧
        b2.ofree o = b.ofree o ∧
        b2.order o = { b.order o with qty := (b.order o).qty - L }) ∧
      (∀ q, (b2.level q).price = (b.level q).price) := by
  have hM := Match_eq b tid cid side coid moid o L
  have hXo := matchPre_order b tid cid side coid moid o L
  have hXe := matchPre_emitted b tid cid side coid moid o L
  have hXl : (b.matchPre tid cid side coid moid o L).m_ordersAtPricePool =
    b.m_ordersAtPricePool := rfl
  have hXi : (b.matchPre tid cid side coid moid o L).m_priceOrdersAtPrice =
    b.m_priceOrdersAtPrice := rfl
  have hXb : ∀ t, (b.matchPre tid cid side coid moid o L).bestOf t = b.bestOf t := fun _ => rfl
  have hXc : (b.matchPre tid cid side coid moid o L).m_cidOidToOrder = b.m_cidOidToOrder := rfl
  have hXn : (b.matchPre tid cid side coid moid o L).m_nextMarketOrderId =
    b.m_nextMarketOrderId := rfl
  have hXf : ∀ q, (b.matchPre tid cid side coid moid o L).ofree q = b.ofree q := by
    intro q
    simp [matchPre]
  have hXp : (b.matchPre tid cid side coid moid o L).m_orderPool =
    b.m_orderPool.modify o fun x => { x with qty := x.qty - min L (b.order o).qty } := rfl
  generalize b.matchPre tid cid side coid moid o L = X at hM hXo hXe hXl hXi hXb hXc hXn hXf hXp
  simp only [] at hM
  have hlv : (L - min L (b.order o).qty) = L - (b.order o).qty := by
    rcases Nat.le_total L (b.order o).qty with hle | hle
    · rw [Nat.min_eq_left hle]
      omega
    · rw [Nat.min_eq_right hle]
  rw [hlv] at hM
  have hfields : ∀ (Y : CMEOrderBook), (∀ q, Y.order q = X.order q) → (∀ q, Y.ofree q = X.ofree q) →
      ∀ q, (Y.order q).pNextOrder = (b.order q).pNextOrder ∧
        (Y.order q).pPrevOrder = (b.order q).pPrevOrder ∧
        (Y.order q).side = (b.order q).side ∧ (Y.order q).price = (b.order q).price ∧
        (Y.order q).clientId = (b.order q).clientId ∧
        (Y.order q).clientOrderId = (b.order q).clientOrderId ∧ Y.ofree q = b.ofree q := by
    intro Y hY hYf q
    rw [hY, hYf, hXo, hXf]
    by_cases hq : q = o
    · subst hq
      simp
    · simp [hq]
  have hXu : ∀ q, q ≠ o → X.order q = b.order q := by
    intro q hq
    rw [hXo, if_neg hq]
  have hXpool : PoolOK X.m_orderPool ME_MAX_ORDER_IDS := by
    rw [hXp]
    exact CMemoryPool.PoolOK_modify h.opool _ _
  by_cases hfull : (b.order o).qty ≤ L
  · have hz : (X.order o).qty = 0 := by
      rw [hXo, if_pos rfl]
      show (b.order o).qty - min L (b.order o).qty = 0
      rw [Nat.min_eq_right hfull]
      omega
    rw [if_pos hz] at hM
    generalize hY : X.SendMarketUpdate ⟨.CANCEL, (X.order o).marketOrderId, tid,
      (X.order o).side, (X.order o).price, (b.order o).qty, Priority_INVALID⟩ = Y at hM
    have hYo : ∀ q, Y.order q = X.order q := fun q => by
      subst hY
      rfl
    have hYf : ∀ q, Y.ofree q = X.ofree q := fun q => by
      subst hY
      rfl
    have hSY : Struct Y (opp side) ([] ++ (lp, [] ++ o :: os) :: B) own := by
      refine (h.struct_swap hs).congr_fields ?_ ?_ ?_ ?_ (fun q _ => hfields Y hYo hYf q) ?_
      · subst hY
        exact hXl
      · subst hY
        exact hXi
      · subst hY
        exact hXb _
      · subst hY
        exact hXb _
      · subst hY
        exact hXpool
    obtain ⟨b2, hb2, hS2, hu2, hf2, hc2, he2, hn2, -, hpl, hpo, hlp2⟩ :=
      RemoveOrder_spec (opp_side hs) hSY
    rw [hb2] at hM
    refine ⟨b2, hM, ?_, ?_, ?_, ?_, ?_, ?_, ?_, ?_, ?_⟩
    · rw [he2]
      subst hY
      rw [emitted_SendMarketUpdate, hXe]
      have hlc : lifecycleUpdate tid (b.order o).unlink L =
          ⟨.CANCEL, (X.order o).marketOrderId, tid, (X.order o).side, (X.order o).price,
            (b.order o).qty, Priority_INVALID⟩ := by
        have hz2 : (b.order o).qty - min L (b.order o).qty = 0 := by
          rw [Nat.min_eq_right hfull]
          omega
        rw [hXo, if_pos rfl]
        simp [lifecycleUpdate, SMEOrder.unlink, hz2]
      simp [matchRecords, hlc]
    · rw [hn2]
      subst hY
      exact hXn
    · refine CMemoryPool.PoolLe_trans ?_ hpl
      subst hY
      show PoolLe b.m_ordersAtPricePool X.m_ordersAtPricePool
      rw [hXl]
      exact CMemoryPool.PoolLe_refl _
    · refine CMemoryPool.PoolLe_trans ?_ hpo
      subst hY
      show PoolLe b.m_orderPool X.m_orderPool
      rw [hXp]
      exact CMemoryPool.PoolLe_modify _ _ _
    · intro q hq
      rw [hu2 q hq, hYo, hXu q hq]
    · intro q hq
      rw [hf2 q hq, hYf, hXf]
    · intro _
      refine ⟨?_, ?_⟩
      · have := hS2.struct_swap (opp_side hs)
        rw [opp_opp hs] at this
        simpa using this
      · rw [hc2]
        have e1 : (Y.order o).clientId = (b.order o).clientId := (hfields Y hYo hYf o).2.2.2.2.1
        have e2 : (Y.order o).clientOrderId = (b.order o).clientOrderId :=
          (hfields Y hYo hYf o).2.2.2.2.2.1
        have hYc : Y.m_cidOidToOrder = b.m_cidOidToOrder := by
          subst hY
          exact hXc
        rw [e1, e2, hYc]
    · intro hlt
      omega
    · intro q
      rw [hlp2]
      subst hY
      show (X.m_ordersAtPricePool.obj q).price = (b.m_ordersAtPricePool.obj q).price
      rw [hXl]
  · have hnz : ¬ (X.order o).qty = 0 := by
      rw [hXo, if_pos rfl]
      show ¬ (b.order o).qty - min L (b.order o).qty = 0
      rw [Nat.min_eq_left (by omega)]
      omega
    rw [if_neg hnz] at hM
    refine ⟨_, hM, ?_, hXn, ?_, ?_, ?_, ?_, ?_, ?_, ?_⟩
    · rw [emitted_SendMarketUpdate, hXe]
      have hlc : lifecycleUpdate tid (b.order o).unlink L =
          ⟨.MODIFY, (X.order o).marketOrderId, tid, (X.order o).side, (X.order o).price,
            (X.order o).qty, (X.order o).priority⟩ := by
        have hz2 : ¬ (b.order o).qty - min L (b.order o).qty = 0 := by
          rw [Nat.min_eq_left (by omega)]
          omega
        rw [hXo, if_pos rfl]
        simp [lifecycleUpdate, SMEOrder.unlink, hz2]
      simp [matchRecords, hlc]
    · show PoolLe b.m_ordersAtPricePool X.m_ordersAtPricePool
      rw [hXl]
      exact CMemoryPool.PoolLe_refl _
    · show PoolLe b.m_orderPool X.m_orderPool
      rw [hXp]
      exact CMemoryPool.PoolLe_modify _ _ _
    · intro q hq
      show (X.order q).unlink = _
      rw [hXu q hq]
    · intro q _
      exact hXf q
    · intro hle
      exact absurd hle hfull
    · intro _
      refine ⟨?_, hXc, hXf o, ?_⟩
      · refine h.congr_fields hXl hXi (hXb _) (hXb _)
          (fun q _ => hfields _ (fun _ => rfl) (fun _ => rfl) q) hXpool
      · show X.order o = _
        rw [hXo, if_pos rfl, Nat.min_eq_left (by omega)]
    · intro q
      show (X.m_ordersAtPricePool.obj q).price = (b.m_ordersAtPricePool.obj q).price
      rw [hXl]

end Exchange

namespace Exchange

open Common CMEOrderBook

theorem oppositeBest_eq (b : CMEOrderBook) {side : ESide} (hs : side = .BUY ∨ side = .SELL) :
    b.oppositeBest side = b.bestOf (opp side) := by
  rcases hs with rfl | rfl <;> rfl

@[simp] theorem crossFills_zero (side : ESide) (price : Int) (os : List SMEOrder) :
    crossFills side price 0 os = [] := by
  cases os <;> simp [crossFills]

@[simp] theorem crossLeaves_zero (side : ESide) (price : Int) (os : List SMEOrder) :
    crossLeaves side price 0 os = 0 := by
  cases os <;> simp [crossLeaves]

@[simp] theorem crossDone_zero (side : ESide) (price : Int) (os : List SMEOrder) :
    crossDone side price 0 os = 0 := by
  cases os <;> simp [crossDone]

theorem snapshots_cons (b : CMEOrderBook) (lp o : Nat) (os : List Nat) (B : SideList) :
    snapshots b ((lp, o :: os) :: B) =
      (b.order o).unlink :: snapshots b (if os = [] then B else (lp, os) :: B) := by
  by_cases h : os = []
  · subst h
    simp [snapshots, SideList.orders]
  · simp [snapshots, SideList.orders, h]

theorem snapshots_congr {b b2 : CMEOrderBook} {L : SideList}
    (h : ∀ q ∈ L.orders, (b2.order q).unlink = (b.order q).unlink) :
    snapshots b2 L = snapshots b L :=
  List.map_congr_left h

theorem dropOrders_succ (k lp o : Nat) (os : List Nat) (B : SideList) :
    SideList.dropOrders (k + 1) ((lp, o :: os) :: B) =
      SideList.dropOrders k (if os = [] then B else (lp, os) :: B) := by
  cases os with
  | nil => simp [SideList.dropOrders]
  | cons a os => simp [SideList.dropOrders]

theorem popped_orders (lp o : Nat) (os : List Nat) (B : SideList) :
    SideList.orders ((lp, o :: os) :: B) =
      o :: SideList.orders (if os = [] then B else (lp, os) :: B) := by
  by_cases h : os = []
  · subst h
    simp [SideList.orders]
  · simp [SideList.orders, h]

theorem Struct.other_head {b : CMEOrderBook} {side : ESide} {own B : SideList} {x : Nat × List Nat}
    (h : Struct b side own (x :: B)) :
    ∃ o os, x.2 = o :: os ∧ b.bestOf (opp side) = some x.1 ∧
      (b.level x.1).pFirstMeOrder = some o := by
  have hl := h.otherOK.lvl x (by simp)
  cases hx : x.2 with
  | nil => exact absurd hx hl.ne
  | cons o os =>
    refine ⟨o, os, rfl, ?_, ?_⟩
    · rw [h.otherOK.best]
      simp [SideList.levels]
    · rw [hl.first, hx]
      rfl

theorem CheckForMatchLoop_zero (cid coid tid : Nat) (side : ESide) (price : Int) (moid fuel : Nat)
    (b : CMEOrderBook) :
    CheckForMatchLoop cid coid tid side price moid (fuel + 1) b 0 = .ok (b, 0) := by
  simp [CheckForMatchLoop, pure, Except.pure]

end Exchange

namespace Exchange

open Common CMEOrderBook

/-- The matching loop on a well-formed book: it returns, with the fuel of the model, what the
price-time crossing of the opposite listing prescribes. -/
theorem CheckForMatchLoop_spec {side : ESide} {own : SideList} (hs : side = .BUY ∨ side = .SELL)
    (cid coid tid : Nat) (price : Int) (moid : Nat) :
    ∀ (fuel : Nat) (b : CMEOrderBook) (L : Nat) (other : SideList),
      Struct b side own other → other.orders.length < fuel →
      ∃ b2, CheckForMatchLoop cid coid tid side price moid fuel b L =
          .ok (b2, crossLeaves side price L (snapshots b other)) ∧
        Struct b2 side own (other.dropOrders (crossDone side price L (snapshots b other))) ∧
        b2.emitted = b.emitted ++ (crossFills side price L (snapshots b other)).flatMap
          (fun f => matchRecords tid cid side coid moid f.1 f.2) ∧
        Crossed side own b other b2
          (other.dropOrders (crossDone side price L (snapshots b other))) ∧
        (crossLeaves side price L (snapshots b other) = 0 ∨
          ∀ q, (other.dropOrders (crossDone side price L (snapshots b other))).orders.head? =
            some q → limitStops side price (b2.order q).price = true)
  | 0, _, _, _, _, hf => by omega
  | fuel + 1, b, L, other, h, hf => by
    by_cases hL : L = 0
    · subst hL
      refine ⟨b, CheckForMatchLoop_zero _ _ _ _ _ _ _ _ |>.trans (by simp), ?_, ?_, ?_, Or.inl ?_⟩
      · simpa [SideList.dropOrders] using h
      · simp
      · simpa [SideList.dropOrders] using Crossed.refl b other
      · simp
    cases other with
    | nil =>
      have hb : b.oppositeBest side = none := by
        rw [oppositeBest_eq b hs, h.otherOK.best]
        rfl
      refine ⟨b, ?_, ?_, ?_, ?_, Or.inr ?_⟩
      · simp [CheckForMatchLoop, hb, snapshots, SideList.orders, crossLeaves, pure, Except.pure]
      · simpa [snapshots, SideList.orders, crossDone, SideList.dropOrders] using h
      · simp [snapshots, SideList.orders, crossFills]
      · simpa [snapshots, SideList.orders, crossDone, SideList.dropOrders] using
          Crossed.refl b []
      · intro q hq
        simp [snapshots, SideList.orders, crossDone, SideList.dropOrders] at hq
    | cons x B =>
      obtain ⟨lp, os0⟩ := x
      obtain ⟨o, os, hx, hbest, hfirst⟩ := h.other_head
      simp only at hx hbest hfirst
      subst hx
      have hb : b.oppositeBest side = some lp := by
        rw [oppositeBest_eq b hs, hbest]
      rw [snapshots_cons]
      by_cases hstop : limitStops side price (b.order o).price = true
      · have hstop2 : limitStops side price (b.order o).unlink.price = true := hstop
        refine ⟨b, ?_, ?_, ?_, ?_, Or.inr ?_⟩
        · simp [CheckForMatchLoop, hb, hL, hfirst, hstop, hstop2, crossLeaves, bind, Except.bind,
            pure, Except.pure]
        · simpa [crossDone, hstop2, SideList.dropOrders] using h
        · simp [crossFills, hstop2]
        · simpa [crossDone, hstop2, SideList.dropOrders] using
            Crossed.refl b ((lp, o :: os) :: B)
        · intro q hq
          simp [crossDone, hstop2, SideList.dropOrders, SideList.orders] at hq
          subst hq
          exact hstop
      · have hstop2 : ¬ limitStops side price (b.order o).unlink.price = true := hstop
        obtain ⟨b1, hm, hem, hnid, hpl, hpo, hord, hfree, hfullc, hpartc, hlpr⟩ :=
          Match_spec hs h tid cid coid moid L
        have hrun : CheckForMatchLoop cid coid tid side price moid (fuel + 1) b L =
            CheckForMatchLoop cid coid tid side price moid fuel b1 (L - (b.order o).qty) := by
          simp [CheckForMatchLoop, hb, hL, hfirst, hstop, hm, bind, Except.bind, pure,
            Except.pure]
        have hcl : crossLeaves side price L ((b.order o).unlink ::
            snapshots b (if os = [] then B else (lp, os) :: B)) =
            crossLeaves side price (L - (b.order o).qty)
              (snapshots b (if os = [] then B else (lp, os) :: B)) := by
          simp [crossLeaves, hL, hstop, SMEOrder.unlink]
        have hcf : crossFills side price L ((b.order o).unlink ::
            snapshots b (if os = [] then B else (lp, os) :: B)) =
            ((b.order o).unlink, L) :: crossFills side price (L - (b.order o).qty)
              (snapshots b (if os = [] then B else (lp, os) :: B)) := by
          simp [crossFills, hL, hstop, SMEOrder.unlink]
        rw [hrun, hcl, hcf]
        by_cases hfull : (b.order o).qty ≤ L
        · obtain ⟨hS1, hcid1⟩ := hfullc hfull
          have hcd : crossDone side price L ((b.order o).unlink ::
              snapshots b (if os = [] then B else (lp, os) :: B)) =
              crossDone side price (L - (b.order o).qty)
                (snapshots b (if os = [] then B else (lp, os) :: B)) + 1 := by
            simp [crossDone, hL, hstop, hfull, SMEOrder.unlink]
          rw [hcd, dropOrders_succ]
          have hnd := h.onodup
          rw [SideList.orders_append, popped_orders] at hnd
          have hnotin : o ∉ SideList.orders (if os = [] then B else (lp, os) :: B) := by
            intro hm
            have := (List.nodup_append.1 hnd).2.1
            exact (List.nodup_cons.1 this).1 hm
          have hsn : snapshots b1 (if os = [] then B else (lp, os) :: B) =
              snapshots b (if os = [] then B else (lp, os) :: B) :=
            snapshots_congr (fun q hq => hord q (fun e => hnotin (e ▸ hq)))
          have hlen : (SideList.orders (if os = [] then B else (lp, os) :: B)).length < fuel := by
            rw [popped_orders] at hf
            simp only [List.length_cons] at hf
            omega
          obtain ⟨b2, hr2, hS2, he2, hc2, hx2⟩ :=
            CheckForMatchLoop_spec hs cid coid tid price moid fuel b1 (L - (b.order o).qty)
              _ hS1 hlen
          rw [hsn] at hr2 hS2 he2 hc2 hx2
          refine ⟨b2, hr2, hS2, ?_, ?_, hx2⟩
          · rw [he2, hem]
            simp
          · exact Crossed.full h ⟨hord, hfree, hcid1, hnid, hpl, hpo, hlpr⟩ hc2
        · have hlt : L < (b.order o).qty := by omega
          obtain ⟨hS1, hcid1, hfo, hself⟩ := hpartc hlt
          have hz : L - (b.order o).qty = 0 := by omega
          have hcd : crossDone side price L ((b.order o).unlink ::
              snapshots b (if os = [] then B else (lp, os) :: B)) = 0 := by
            simp [crossDone, hL, hstop, hfull, SMEOrder.unlink]
          have hfuel : ∃ f, fuel = f + 1 := by
            rw [popped_orders] at hf
            simp only [List.length_cons] at hf
            exact ⟨fuel - 1, by omega⟩
          obtain ⟨f, rfl⟩ := hfuel
          rw [hz, hcd, CheckForMatchLoop_zero]
          refine ⟨b1, by simp, ?_, ?_, ?_, Or.inl (by simp)⟩
          · simpa [SideList.dropOrders] using hS1
          · rw [hem]
            simp
          · have hred : Reduced b b1 o := by
              refine ⟨hord, ⟨L, hlt, hself⟩, ?_, hcid1, hnid, hpl, hpo, hlpr⟩
              intro q
              by_cases hq : q = o
              · subst hq
                exact hfo
              · exact hfree q hq
            simpa [SideList.dropOrders] using Crossed.part h hred

end Exchange

namespace Exchange

open Common CMEOrderBook

theorem setCidOid_bounds {b b2 : CMEOrderBook} {c d : Nat} {v : Option Nat}
    (h : b.setCidOid c d v = .ok b2) : c < ME_MAX_NUM_CLIENTS ∧ d < ME_MAX_ORDER_IDS := by
  unfold setCidOid arrayAt at h
  by_cases hc : c < ME_MAX_NUM_CLIENTS
  · by_cases hd : d < ME_MAX_ORDER_IDS
    · exact ⟨hc, hd⟩
    · simp [hc, hd, bind, Except.bind] at h
  · simp [hc, bind, Except.bind] at h

theorem clientId_setOrder (b : CMEOrderBook) (p q : Nat) (g : SMEOrder → SMEOrder)
    (hg : ∀ x, (g x).clientId = x.clientId) :
    ((b.setOrder p g).order q).clientId = (b.order q).clientId := by
  rw [order_setOrder]
  split
  · rename_i e
    subst e
    exact hg _
  · rfl

theorem clientOrderId_setOrder (b : CMEOrderBook) (p q : Nat) (g : SMEOrder → SMEOrder)
    (hg : ∀ x, (g x).clientOrderId = x.clientOrderId) :
    ((b.setOrder p g).order q).clientOrderId = (b.order q).clientOrderId := by
  rw [order_setOrder]
  split
  · rename_i e
    subst e
    exact hg _
  · rfl

/-- A completed `AddOrder(SMEOrder*)` had the client ids of its order inside the index. -/
theorem AddOrderPtr_bounds {b b2 : CMEOrderBook} {o : Nat} (h : b.AddOrderPtr o = .ok b2) :
    (b.order o).clientId < ME_MAX_NUM_CLIENTS ∧ (b.order o).clientOrderId < ME_MAX_ORDER_IDS := by
  unfold AddOrderPtr at h
  simp only [GetOrdersAtPrice_eq, bind, Except.bind, pure, Except.pure] at h
  split at h
  · cases h
  · rename_i b1 heq
    have hb := setCidOid_bounds h
    have hfr : (b1.order o).clientId = (b.order o).clientId ∧
        (b1.order o).clientOrderId = (b.order o).clientOrderId := by
      split at heq
      · split at heq
        · cases heq
        · rename_i r hr
          have := AddOrdersAtPrice_orderPool heq
          have hv := order_views_of_pool this o
          rw [hv.1]
          simp
      · split at heq
        · cases heq
        · split at heq
          · cases heq
          · simp only [Except.ok.injEq] at heq
            subst heq
            constructor
            · repeat rw [clientId_setOrder]
              all_goals (intro _; rfl)
            · repeat rw [clientOrderId_setOrder]
              all_goals (intro _; rfl)
    rw [hfr.1, hfr.2] at hb
    exact hb

end Exchange

namespace Exchange

open Common CMEOrderBook

theorem AddOrderPtr_alloc_error {b : CMEOrderBook} {o : Nat} {e : Fault}
    (hidx : b.m_priceOrdersAtPrice (PriceToIndex (b.order o).price) = none)
    (hA : b.m_ordersAtPricePool.Allocate
      ⟨(b.order o).side, (b.order o).price, some o, none, none⟩ = .error e) :
    b.AddOrderPtr o = .error e := by
  simp only [AddOrderPtr, GetOrdersAtPrice_eq, hidx, bind, Except.bind, pure, Except.pure,
    levelPool_setOrder, order_setOrder, if_true]
  simp only [hA]

/-- Method `AddOrder(SMEOrder*)` on a freshly allocated order of side `side`: it returns when
the client ids are inside the index and the level pool has room, and a call that returns has
placed the order in the listing of its side. -/
theorem AddOrderPtr_fresh {b : CMEOrderBook} {side : ESide} {own other : SideList} {o : Nat}
    (hs : side = .BUY ∨ side = .SELL) (h : Struct b side own other)
    (ho : o ∉ (own ++ other).orders) (holt : o < ME_MAX_ORDER_IDS) (hbusy : b.ofree o = false)
    (hside : (b.order o).side = side)
    (hcol : ∀ lp, b.m_priceOrdersAtPrice (PriceToIndex (b.order o).price) = some lp →
      lp ∈ own.levels ∧ (b.level lp).price = (b.order o).price) :
    ((b.order o).clientId < ME_MAX_NUM_CLIENTS → (b.order o).clientOrderId < ME_MAX_ORDER_IDS →
      Spare b.m_ordersAtPricePool → ∃ b2, b.AddOrderPtr o = .ok b2) ∧
    ∀ b2, b.AddOrderPtr o = .ok b2 →
      (b.order o).clientId < ME_MAX_NUM_CLIENTS ∧ (b.order o).clientOrderId < ME_MAX_ORDER_IDS ∧
      (∃ own2, Placed b side (b.order o).price o own own2 ∧ Struct b2 side own2 other) ∧
      (∀ q, (b2.order q).unlink = (b.order q).unlink) ∧ (∀ q, b2.ofree q = b.ofree q) ∧
      b2.m_cidOidToOrder = Function.update b.m_cidOidToOrder (b.order o).clientId
        (Function.update (b.m_cidOidToOrder (b.order o).clientId) (b.order o).clientOrderId
          (some o)) ∧
      b2.emitted = b.emitted ∧ b2.m_nextMarketOrderId = b.m_nextMarketOrderId := by
  by_cases hbd : (b.order o).clientId < ME_MAX_NUM_CLIENTS ∧
      (b.order o).clientOrderId < ME_MAX_ORDER_IDS
  swap
  · exact ⟨fun h1 h2 => absurd ⟨h1, h2⟩ hbd, fun b2 hb2 => absurd (AddOrderPtr_bounds hb2) hbd⟩
  have hoOK : OrderOK b side (b.order o).price o := ⟨holt, hbusy, hside, rfl, hbd.1, hbd.2⟩
  cases hidx : b.m_priceOrdersAtPrice (PriceToIndex (b.order o).price) with
  | none =>
    have hnone : ∀ x ∈ own, (b.level x.1).price ≠ (b.order o).price := by
      intro x hx e
      have := (h.ownOK.lvl x hx).idx
      rw [e, hidx] at this
      exact Option.noConfusion this
    cases hA : b.m_ordersAtPricePool.Allocate
        ⟨(b.order o).side, (b.order o).price, some o, none, none⟩ with
    | error e =>
      have herr := AddOrderPtr_alloc_error hidx hA
      refine ⟨fun _ _ hsp => ?_, fun b2 hb2 => ?_⟩
      · obtain ⟨r, hr⟩ := CMemoryPool.Allocate_total
          (⟨(b.order o).side, (b.order o).price, some o, none, none⟩ : SMEOrdersAtPrice)
          h.lpool hsp
        rw [hr] at hA
        exact Except.noConfusion hA
      · rw [herr] at hb2
        exact Except.noConfusion hb2
    | ok r =>
      obtain ⟨A, B, hAB, hbA, hbB, b3, hb3, hS3, hu3, hf3, hc3, he3, hn3⟩ :=
        AddOrderPtr_new hs h ho hoOK hidx hA
      refine ⟨fun _ _ _ => ⟨b3, hb3⟩, fun b2 hb2 => ?_⟩
      rw [hb3] at hb2
      cases hb2
      exact ⟨hbd.1, hbd.2, ⟨_, Or.inr ⟨A, B, r.1, hAB, hnone, hbA, hbB, rfl⟩, hS3⟩, hu3, hf3, hc3,
        he3, hn3⟩
  | some lp =>
    obtain ⟨hlpm, hlpp⟩ := hcol lp hidx
    obtain ⟨x, hx, hx1⟩ := List.mem_map.1 hlpm
    obtain ⟨A, B, hAB⟩ := List.append_of_mem hx
    obtain ⟨lp0, os⟩ := x
    simp only at hx1
    subst hx1
    subst hAB
    obtain ⟨b3, hb3, hS3, hu3, hf3, hc3, he3, hn3, -⟩ :=
      AddOrderPtr_existing h ho (by rw [hlpp]; exact hoOK)
    refine ⟨fun _ _ _ => ⟨b3, hb3⟩, fun b2 hb2 => ?_⟩
    rw [hb3] at hb2
    cases hb2
    exact ⟨hbd.1, hbd.2, ⟨_, Or.inl ⟨A, lp0, os, B, rfl, hlpp, rfl⟩, hS3⟩, hu3, hf3, hc3, he3, hn3⟩

end Exchange

namespace Exchange

open Common CMEOrderBook

/-- Method `GetNextPriority` at a price whose index slot is empty or holds a level of that
price on listing `own`. -/
theorem GetNextPriority_spec {b : CMEOrderBook} {side : ESide} {own other : SideList}
    {price : Int} (h : Struct b side own other)
    (hcol : ∀ lp, b.m_priceOrdersAtPrice (PriceToIndex price) = some lp →
      lp ∈ own.levels ∧ (b.level lp).price = price) :
    ∃ prio, b.GetNextPriority price = .ok prio ∧ RestPriority b price own prio := by
  cases hidx : b.m_priceOrdersAtPrice (PriceToIndex price) with
  | none =>
    refine ⟨1, by simp [GetNextPriority, hidx, bind, Except.bind, pure, Except.pure],
      Or.inr ⟨?_, rfl⟩⟩
    intro x hx e
    have := (h.ownOK.lvl x hx).idx
    rw [e, hidx] at this
    exact Option.noConfusion this
  | some lp =>
    obtain ⟨hlpm, hlpp⟩ := hcol lp hidx
    obtain ⟨x, hx, hx1⟩ := List.mem_map.1 hlpm
    have hl := h.ownOK.lvl x hx
    rw [hx1] at hl
    cases hos : x.2 with
    | nil => exact absurd hos hl.ne
    | cons f l =>
      have hfirst : (b.level lp).pFirstMeOrder = some f := by
        rw [hl.first, hos]
        rfl
      have hc := hl.cyc
      rw [hos] at hc
      obtain ⟨t, ht⟩ : ∃ t, (f :: l).getLast? = some t :=
        ⟨_, List.getLast?_eq_getLast _ (List.cons_ne_nil _ _)⟩
      have hprev : (b.order f).pPrevOrder = some t := (Cyc.last_head hc ht).2
      refine ⟨((b.order t).priority + 1) % 2 ^ 64, ?_, Or.inl ⟨x, hx, ?_, t, ?_, rfl⟩⟩
      · simp [GetNextPriority, hidx, hfirst, hprev, bind, Except.bind, pure, Except.pure]
      · rw [hx1]
        exact hlpp
      · rw [hos]
        exact ht

/-- The resting phase of `AddOrder` on a well-formed book: it returns when the client ids are
inside the index and both pools have room, and a call that returns has placed one new order with
the residual quantity and sent one ADD update. -/
theorem restResidual_spec {b : CMEOrderBook} {side : ESide} {own other : SideList}
    {price : Int} (hs : side = .BUY ∨ side = .SELL) (h : Struct b side own other)
    (hcol : ∀ lp, b.m_priceOrdersAtPrice (PriceToIndex price) = some lp →
      lp ∈ own.levels ∧ (b.level lp).price = price)
    (cid coid tid moid L : Nat) :
    (cid < ME_MAX_NUM_CLIENTS → coid < ME_MAX_ORDER_IDS → Spare b.m_orderPool →
      Spare b.m_ordersAtPricePool →
      ∃ b2, b.restResidual cid coid tid side price moid L = .ok b2) ∧
    ∀ b2, b.restResidual cid coid tid side price moid L = .ok b2 →
      ∃ o prio own2, cid < ME_MAX_NUM_CLIENTS ∧ coid < ME_MAX_ORDER_IDS ∧
        o ∉ (own ++ other).orders ∧ b.ofree o = true ∧
        RestPriority b price own prio ∧ Placed b side price o own own2 ∧
        Struct b2 side own2 other ∧
        (b2.order o).unlink = ⟨tid, cid, coid, moid, side, price, L, prio, none, none⟩ ∧
        b2.ofree o = false ∧
        (∀ q, q ≠ o → (b2.order q).unlink = (b.order q).unlink) ∧
        (∀ q, q ≠ o → b2.ofree q = b.ofree q) ∧
        b2.m_cidOidToOrder = Function.update b.m_cidOidToOrder cid
          (Function.update (b.m_cidOidToOrder cid) coid (some o)) ∧
        b2.emitted = b.emitted ++ [.update ⟨.ADD, moid, tid, side, price, L, prio⟩] ∧
        b2.m_nextMarketOrderId = b.m_nextMarketOrderId := by
  obtain ⟨prio, hprio, hrp⟩ := GetNextPriority_spec h hcol
  cases hA : b.m_orderPool.Allocate
      ⟨tid, cid, coid, moid, side, price, L, prio, none, none⟩ with
  | error e =>
    have herr : b.restResidual cid coid tid side price moid L = .error e := by
      simp only [restResidual, hprio, hA, bind, Except.bind]
    refine ⟨fun _ _ hsp _ => ?_, fun b2 hb2 => ?_⟩
    · obtain ⟨r, hr⟩ := CMemoryPool.Allocate_total
        (⟨tid, cid, coid, moid, side, price, L, prio, none, none⟩ : SMEOrder) h.opool hsp
      rw [hr] at hA
      exact Except.noConfusion hA
    · rw [herr] at hb2
      exact Except.noConfusion hb2
  | ok a =>
    obtain ⟨ha1, hobj, hfr, hpool⟩ := CMemoryPool.Allocate_ok hA h.opool
    have hrun : b.restResidual cid coid tid side price moid L =
        (AddOrderPtr { b with m_orderPool := a.2 } a.1 >>= fun b3 =>
          pure (b3.SendMarketUpdate ⟨.ADD, moid, tid, side, price, L, prio⟩)) := by
      simp only [restResidual, hprio, hA, bind, Except.bind]
    generalize hb1 : ({ b with m_orderPool := a.2 } : CMEOrderBook) = b1 at hrun
    have hord : ∀ q, b1.order q = if q = a.1 then
        ⟨tid, cid, coid, moid, side, price, L, prio, none, none⟩ else b.order q := by
      intro q
      subst hb1
      exact hobj q
    have hof : ∀ q, b1.ofree q = if q = a.1 then false else b.ofree q := by
      intro q
      subst hb1
      exact hfr q
    have hcfree : b.ofree a.1 = true := by
      rw [ha1]
      exact h.opool.2.2
    have ho : a.1 ∉ (own ++ other).orders := by
      intro hm
      obtain ⟨t, p, hok⟩ := h.order_ok hm
      have := hok.busy
      rw [hcfree] at this
      exact Bool.noConfusion this
    have hS1 : Struct b1 side own other := by
      refine h.congr (fun q _ => ?_) ?_ ?_ ?_ (fun q hq => ?_) ?_ ?_
      · subst hb1
        exact ⟨rfl, rfl⟩
      · subst hb1
        rfl
      · subst hb1
        rfl
      · subst hb1
        rfl
      · have hne : q ≠ a.1 := fun e => ho (e ▸ hq)
        rw [hord, hof, if_neg hne, if_neg hne]
        exact ⟨rfl, rfl⟩
      · subst hb1
        exact h.lpool
      · subst hb1
        exact hpool
    have ho1 : b1.order a.1 = ⟨tid, cid, coid, moid, side, price, L, prio, none, none⟩ := by
      rw [hord, if_pos rfl]
    have hlev : ∀ q, b1.level q = b.level q := fun q => by
      subst hb1
      rfl
    have hcol1 : ∀ lp, b1.m_priceOrdersAtPrice (PriceToIndex (b1.order a.1).price) = some lp →
        lp ∈ own.levels ∧ (b1.level lp).price = (b1.order a.1).price := by
      intro lp hlp
      rw [ho1] at hlp ⊢
      rw [hlev]
      subst hb1
      exact hcol lp hlp
    obtain ⟨htot, hpost⟩ := AddOrderPtr_fresh hs hS1 ho (ha1 ▸ h.opool.2.1)
      (by rw [hof, if_pos rfl]) (by rw [ho1]) hcol1
    rw [ho1] at htot hpost
    refine ⟨fun hc hd _ hsp => ?_, fun b2 hb2 => ?_⟩
    · obtain ⟨b3, hb3⟩ := htot hc hd (by subst hb1; exact hsp)
      exact ⟨_, by rw [hrun, hb3]; rfl⟩
    · rw [hrun] at hb2
      cases hb3 : b1.AddOrderPtr a.1 with
      | error e =>
        rw [hb3] at hb2
        exact Except.noConfusion hb2
      | ok b3 =>
        rw [hb3] at hb2
        have hb2e : b3.SendMarketUpdate ⟨.ADD, moid, tid, side, price, L, prio⟩ = b2 := by
          simpa [bind, Except.bind, pure, Except.pure] using hb2
        obtain ⟨hc, hd, ⟨own2, hpl, hS3⟩, hu3, hf3, hc3, he3, hn3⟩ := hpost b3 hb3
        refine ⟨a.1, prio, own2, hc, hd, ho, hcfree, hrp, ?_, ?_, ?_, ?_, ?_, ?_, ?_, ?_, ?_⟩
        · rcases hpl with ⟨A, lp, os, B, e1, e2, e3⟩ | ⟨A, B, pNew, e1, e2, e3, e4, e5⟩
          · exact Or.inl ⟨A, lp, os, B, e1, by rw [← hlev]; exact e2, e3⟩
          · refine Or.inr ⟨A, B, pNew, e1, ?_, ?_, ?_, e5⟩
            · intro x hx
              rw [← hlev]
              exact e2 x hx
            · intro x hx
              rw [← hlev]
              exact e3 x hx
            · intro x hx
              rw [← hlev]
              exact e4 x hx
        · subst hb2e
          exact Struct_SendMarketUpdate hS3 _
        · subst hb2e
          show (b3.order a.1).unlink = _
          rw [hu3, ho1]
          rfl
        · subst hb2e
          show b3.ofree a.1 = false
          rw [hf3, hof, if_pos rfl]
        · intro q hq
          subst hb2e
          show (b3.order q).unlink = _
          rw [hu3, hord, if_neg hq]
        · intro q hq
          subst hb2e
          show b3.ofree q = _
          rw [hf3, hof, if_neg hq]
        · subst hb2e
          show b3.m_cidOidToOrder = _
          rw [hc3]
          subst hb1
          rfl
        · subst hb2e
          show b3.emitted ++ _ = _
          rw [he3]
          subst hb1
          rfl
        · subst hb2e
          show b3.m_nextMarketOrderId = _
          rw [hn3]
          subst hb1
          rfl

end Exchange

namespace Exchange

open Common CMEOrderBook

theorem popped_levels_sub (lp o : Nat) (os : List Nat) (B : SideList) :
    ∀ x ∈ SideList.levels (if os = [] then B else (lp, os) :: B),
      x ∈ SideList.levels ((lp, o :: os) :: B) := by
  intro x hx
  by_cases h : os = []
  · rw [if_pos h] at hx
    simp only [SideList.levels, List.map_cons, List.mem_cons]
    exact Or.inr hx
  · rw [if_neg h] at hx
    simpa [SideList.levels] using hx

theorem Crossed.nextId {side : ESide} {own other other2 : SideList} {b b2 : CMEOrderBook}
    (h : Crossed side own b other b2 other2) :
    b2.m_nextMarketOrderId = b.m_nextMarketOrderId := by
  induction h with
  | refl => rfl
  | full _ hr _ ih => exact ih.trans hr.nextId
  | part _ hr => exact hr.nextId

theorem Crossed.level_price {side : ESide} {own other other2 : SideList} {b b2 : CMEOrderBook}
    (h : Crossed side own b other b2 other2) (q : Nat) :
    (b2.level q).price = (b.level q).price := by
  induction h with
  | refl => rfl
  | full _ hr _ ih => exact ih.trans (hr.price q)
  | part _ hr => exact hr.price q

theorem Crossed.levels_sub {side : ESide} {own other other2 : SideList} {b b2 : CMEOrderBook}
    (h : Crossed side own b other b2 other2) : ∀ x ∈ other2.levels, x ∈ other.levels := by
  induction h with
  | refl => exact fun _ hx => hx
  | full _ _ _ ih => exact fun x hx => popped_levels_sub _ _ _ _ x (ih x hx)
  | part _ _ => exact fun _ hx => hx

theorem Crossed.pools {side : ESide} {own other other2 : SideList} {b b2 : CMEOrderBook}
    (h : Crossed side own b other b2 other2) :
    PoolLe b.m_ordersAtPricePool b2.m_ordersAtPricePool ∧
      PoolLe b.m_orderPool b2.m_orderPool := by
  induction h with
  | refl => exact ⟨CMemoryPool.PoolLe_refl _, CMemoryPool.PoolLe_refl _⟩
  | full _ hr _ ih =>
    exact ⟨CMemoryPool.PoolLe_trans hr.lpool ih.1, CMemoryPool.PoolLe_trans hr.opool ih.2⟩
  | part _ hr => exact ⟨hr.lpool, hr.opool⟩

/-- When the head order of the opposite listing stops the aggressor, no opposite level has the
aggressor's price. -/
theorem Struct.other_worse {b : CMEOrderBook} {side : ESide} {own other : SideList}
    {price : Int} {q : Nat} (hs : side = .BUY ∨ side = .SELL) (h : Struct b side own other)
    (hq : other.orders.head? = some q) (hstop : limitStops side price (b.order q).price = true) :
    ∀ x ∈ other, (b.level x.1).price ≠ price := by
  cases other with
  | nil => exact fun x hx => absurd hx (List.not_mem_nil _)
  | cons x0 B =>
    obtain ⟨o, os, hx0, -, -⟩ := h.other_head
    have hl0 := h.otherOK.lvl x0 (by simp)
    have hq0 : q = o := by
      simp [SideList.orders, hx0] at hq
      exact hq.symm
    subst hq0
    have hp0 : (b.order q).price = (b.level x0.1).price :=
      (hl0.ord q (by rw [hx0]; simp)).price
    rw [hp0] at hstop
    have hsorted := h.otherOK.sorted
    rw [List.pairwise_cons] at hsorted
    intro x hx e
    rcases List.mem_cons.1 hx with rfl | hxB
    · rw [e] at hstop
      rcases hs with rfl | rfl <;> simp [limitStops] at hstop
    · have hb := hsorted.1 x hxB
      rw [e] at hb
      rcases hs with rfl | rfl
      · simp [limitStops] at hstop
        simp [better, opp] at hb
        omega
      · simp [limitStops] at hstop
        simp [better, opp] at hb
        omega

/-- Method `AddOrder` is the ACCEPTED response, `CheckForMatch`, and the resting phase when
something is left. -/
theorem AddOrder_eq (b : CMEOrderBook) (cid coid tid : Nat) (side : ESide) (price : Int)
    (qty : Nat) :
    b.AddOrder cid coid tid side price qty =
      ((b.GenerateNewMarketOrderId.2.SendClientResponse ⟨.ACCEPTED, cid, tid, coid,
          b.m_nextMarketOrderId, side, price, 0, qty⟩).CheckForMatch cid coid tid side price qty
          b.m_nextMarketOrderId >>= fun r =>
        if r.2 ≠ 0 then r.1.restResidual cid coid tid side price b.m_nextMarketOrderId r.2
        else pure r.1) := rfl

theorem Struct.other_orders_length {b : CMEOrderBook} {s : ESide} {own other : SideList}
    (h : Struct b s own other) : other.orders.length ≤ ME_MAX_ORDER_IDS := by
  refine nodup_bounded_length ?_ ?_
  · have := h.onodup
    rw [SideList.orders_append] at this
    exact List.Nodup.of_append_right this
  · intro x hx
    obtain ⟨y, hy, hxy⟩ := List.mem_flatMap.1 hx
    exact ((h.otherOK.lvl y hy).ord x hxy).lt

end Exchange

namespace Exchange

open Common CMEOrderBook

/-- The matching phase of `AddOrder` on a well-formed book, and what is left to the resting
phase. -/
theorem AddOrder_match {b : CMEOrderBook} {side : ESide} {own other : SideList} {price : Int}
    (hs : side = .BUY ∨ side = .SELL) (h : Struct b side own other)
    (hcol : ∀ lp, b.m_priceOrdersAtPrice (PriceToIndex price) = some lp →
      (b.level lp).price = price)
    (cid coid tid qty : Nat) :
    ∃ b1,
      Struct b1 side own (other.dropOrders (crossDone side price qty (snapshots b other))) ∧
      Crossed side own (b.GenerateNewMarketOrderId.2.SendClientResponse ⟨.ACCEPTED, cid, tid,
        coid, b.m_nextMarketOrderId, side, price, 0, qty⟩) other b1
        (other.dropOrders (crossDone side price qty (snapshots b other))) ∧
      b1.emitted = b.emitted ++ .response ⟨.ACCEPTED, cid, tid, coid, b.m_nextMarketOrderId,
          side, price, 0, qty⟩ ::
        (crossFills side price qty (snapshots b other)).flatMap
          (fun f => matchRecords tid cid side coid (b.m_nextMarketOrderId % 2 ^ 32) f.1 f.2) ∧
      (crossLeaves side price qty (snapshots b other) = 0 ∨
        ∀ q, (other.dropOrders (crossDone side price qty (snapshots b other))).orders.head? =
          some q → limitStops side price (b1.order q).price = true) ∧
      (b.GenerateNewMarketOrderId.2.SendClientResponse ⟨.ACCEPTED, cid, tid, coid,
        b.m_nextMarketOrderId, side, price, 0, qty⟩).CheckForMatch cid coid tid side price qty
        b.m_nextMarketOrderId = .ok (b1, crossLeaves side price qty (snapshots b other)) ∧
      b.AddOrder cid coid tid side price qty =
        (if crossLeaves side price qty (snapshots b other) ≠ 0 then
          b1.restResidual cid coid tid side price b.m_nextMarketOrderId
            (crossLeaves side price qty (snapshots b other))
        else pure b1) ∧
      (crossLeaves side price qty (snapshots b other) ≠ 0 →
        ∀ lp, b1.m_priceOrdersAtPrice (PriceToIndex price) = some lp →
          lp ∈ own.levels ∧ (b1.level lp).price = price) := by
  generalize hb0 : b.GenerateNewMarketOrderId.2.SendClientResponse ⟨.ACCEPTED, cid, tid,
    coid, b.m_nextMarketOrderId, side, price, 0, qty⟩ = b0
  have hS0 : Struct b0 side own other := by
    subst hb0
    exact h.congr (fun _ _ => ⟨rfl, rfl⟩) rfl rfl rfl (fun _ _ => ⟨rfl, rfl⟩) h.lpool h.opool
  have hsn : snapshots b0 other = snapshots b other := by
    subst hb0
    rfl
  have hlev0 : ∀ q, b0.level q = b.level q := fun q => by
    subst hb0
    rfl
  have hem0 : b0.emitted = b.emitted ++ [.response ⟨.ACCEPTED, cid, tid, coid,
      b.m_nextMarketOrderId, side, price, 0, qty⟩] := by
    subst hb0
    rfl
  obtain ⟨b1, hrun, hS1, hem1, hcr, hexit⟩ :=
    CheckForMatchLoop_spec hs cid coid tid price (b.m_nextMarketOrderId % 2 ^ 32)
      (ME_MAX_ORDER_IDS + 1) b0 qty other hS0 (Nat.lt_succ_of_le hS0.other_orders_length)
  rw [hsn] at hrun hS1 hem1 hcr hexit
  have hcfm : b0.CheckForMatch cid coid tid side price qty b.m_nextMarketOrderId =
      .ok (b1, crossLeaves side price qty (snapshots b other)) := by
    rw [← hrun]
    simp [CheckForMatch, hs]
  refine ⟨b1, hS1, hcr, ?_, hexit, hcfm, ?_, ?_⟩
  · rw [hem1, hem0]
    simp
  · rw [AddOrder_eq, hb0, hcfm]
    rfl
  · intro hL lp hlp
    have hidx1 := hS1.idx _ lp hlp
    have hpr : (b1.level lp).price = (b.level lp).price := by
      rw [hcr.level_price, hlev0]
    have hmem : lp ∈ (own ++ other).levels := by
      rw [SideList.levels_append] at hidx1 ⊢
      rcases List.mem_append.1 hidx1.1 with hm | hm
      · exact List.mem_append_left _ hm
      · exact List.mem_append_right _ (hcr.levels_sub lp hm)
    have hslot : b.m_priceOrdersAtPrice (PriceToIndex price) = some lp := by
      have := h.idx_of_mem hmem
      rw [← hpr, hidx1.2] at this
      exact this
    have hprice : (b1.level lp).price = price := by
      rw [hpr]
      exact hcol lp hslot
    refine ⟨?_, hprice⟩
    rw [SideList.levels_append] at hidx1
    rcases List.mem_append.1 hidx1.1 with hm | hm
    · exact hm
    · exfalso
      rcases hexit with hz | hstop
      · exact hL hz
      · obtain ⟨x, hx, hx1⟩ := List.mem_map.1 hm
        cases hhd : (other.dropOrders (crossDone side price qty (snapshots b other))).orders.head?
          with
        | none =>
          have hnil := List.head?_eq_none_iff.1 hhd
          have hl := hS1.otherOK.lvl x hx
          cases hx2 : x.2 with
          | nil => exact hl.ne hx2
          | cons w l =>
            have : w ∈ (other.dropOrders (crossDone side price qty (snapshots b other))).orders :=
              SideList.mem_orders hx (by rw [hx2]; simp)
            rw [hnil] at this
            exact List.not_mem_nil _ this
        | some q =>
          exact hS1.other_worse hs hhd (hstop q hhd) x hx (by rw [hx1]; exact hprice)

end Exchange

namespace Exchange

open Common CMEOrderBook

/-- Method `AddOrder` on a well-formed book whose price index has no foreign level in the slot
of the new price. The call returns when the client ids are inside the client-order index and
both pools have a free slot to spare. A call that returns has crossed the opposite listing in
price-time order and, when something was left, placed it as one new order. -/
theorem AddOrder_spec {b : CMEOrderBook} {side : ESide} {own other : SideList} {price : Int}
    (hs : side = .BUY ∨ side = .SELL) (h : Struct b side own other)
    (hcol : ∀ lp, b.m_priceOrdersAtPrice (PriceToIndex price) = some lp →
      (b.level lp).price = price)
    (cid coid tid qty : Nat) :
    (cid < ME_MAX_NUM_CLIENTS → coid < ME_MAX_ORDER_IDS → Spare b.m_orderPool →
      Spare b.m_ordersAtPricePool → ∃ b2, b.AddOrder cid coid tid side price qty = .ok b2) ∧
    ∀ b2, b.AddOrder cid coid tid side price qty = .ok b2 →
      ∃ b1,
        Struct b1 side own (other.dropOrders (crossDone side price qty (snapshots b other))) ∧
        Crossed side own (b.GenerateNewMarketOrderId.2.SendClientResponse ⟨.ACCEPTED, cid, tid,
          coid, b.m_nextMarketOrderId, side, price, 0, qty⟩) other b1
          (other.dropOrders (crossDone side price qty (snapshots b other))) ∧
        b1.emitted = b.emitted ++ .response ⟨.ACCEPTED, cid, tid, coid, b.m_nextMarketOrderId,
            side, price, 0, qty⟩ ::
          (crossFills side price qty (snapshots b other)).flatMap
            (fun f => matchRecords tid cid side coid (b.m_nextMarketOrderId % 2 ^ 32) f.1 f.2) ∧
        (crossLeaves side price qty (snapshots b other) = 0 ∨
          ∀ q, (other.dropOrders (crossDone side price qty (snapshots b other))).orders.head? =
            some q → limitStops side price (b1.order q).price = true) ∧
        (b.GenerateNewMarketOrderId.2.SendClientResponse ⟨.ACCEPTED, cid, tid, coid,
          b.m_nextMarketOrderId, side, price, 0, qty⟩).CheckForMatch cid coid tid side price qty
          b.m_nextMarketOrderId = .ok (b1, crossLeaves side price qty (snapshots b other)) ∧
        ((crossLeaves side price qty (snapshots b other) = 0 ∧ b2 = b1) ∨
          (crossLeaves side price qty (snapshots b other) ≠ 0 ∧
            ∃ o prio own2, cid < ME_MAX_NUM_CLIENTS ∧ coid < ME_MAX_ORDER_IDS ∧
              o ∉ (own ++ other.dropOrders
                (crossDone side price qty (snapshots b other))).orders ∧
              b1.ofree o = true ∧ RestPriority b1 price own prio ∧
              Placed b1 side price o own own2 ∧
              Struct b2 side own2
                (other.dropOrders (crossDone side price qty (snapshots b other))) ∧
              (b2.order o).unlink = ⟨tid, cid, coid, b.m_nextMarketOrderId, side, price,
                crossLeaves side price qty (snapshots b other), prio, none, none⟩ ∧
              b2.ofree o = false ∧
              (∀ q, q ≠ o → (b2.order q).unlink = (b1.order q).unlink) ∧
              (∀ q, q ≠ o → b2.ofree q = b1.ofree q) ∧
              b2.m_cidOidToOrder = Function.update b1.m_cidOidToOrder cid
                (Function.update (b1.m_cidOidToOrder cid) coid (some o)) ∧
              b2.emitted = b1.emitted ++ [.update ⟨.ADD, b.m_nextMarketOrderId, tid, side,
                price, crossLeaves side price qty (snapshots b other), prio⟩] ∧
              b2.m_nextMarketOrderId = b1.m_nextMarketOrderId)) := by
  obtain ⟨b1, hS1, hcr, hem1, hexit, hcfm, hrun, hcol1⟩ :=
    AddOrder_match hs h hcol cid coid tid qty
  by_cases hL : crossLeaves side price qty (snapshots b other) = 0
  · rw [if_neg (not_not.2 hL)] at hrun
    refine ⟨fun _ _ _ _ => ⟨b1, hrun⟩, fun b2 hb2 =>
      ⟨b1, hS1, hcr, hem1, hexit, hcfm, Or.inl ⟨hL, ?_⟩⟩⟩
    rw [hrun] at hb2
    cases hb2
    rfl
  · rw [if_pos hL] at hrun
    obtain ⟨htot, hpost⟩ := restResidual_spec hs hS1 (hcol1 hL) cid coid tid
      b.m_nextMarketOrderId (crossLeaves side price qty (snapshots b other))
    refine ⟨fun hc hd ho hl => ?_, fun b2 hb2 =>
      ⟨b1, hS1, hcr, hem1, hexit, hcfm, Or.inr ⟨hL, ?_⟩⟩⟩
    · rw [hrun]
      exact htot hc hd (CMemoryPool.PoolLe_spare hcr.pools.2 ho)
        (CMemoryPool.PoolLe_spare hcr.pools.1 hl)
    · rw [hrun] at hb2
      exact hpost b2 hb2

end Exchange

namespace Exchange

open Common CMEOrderBook

theorem Keeps.keeps_refl (b : CMEOrderBook) (q : Nat) : Keeps b b q := ⟨rfl, rfl, rfl, fun h => h⟩

theorem Keeps.keeps_trans {b b2 b3 : CMEOrderBook} {q : Nat} (h1 : Keeps b b2 q) (h2 : Keeps b2 b3 q) :
    Keeps b b3 q :=
  ⟨h2.1.trans h1.1, h2.2.1.trans h1.2.1, h2.2.2.1.trans h1.2.2.1, fun h => h2.2.2.2 (h1.2.2.2 h)⟩

theorem Keeps.of_unlink {b b2 : CMEOrderBook} {q : Nat}
    (h : (b2.order q).unlink = (b.order q).unlink) : Keeps b b2 q := by
  have h1 : (b2.order q).unlink.clientId = (b.order q).unlink.clientId := by rw [h]
  have h2 : (b2.order q).unlink.clientOrderId = (b.order q).unlink.clientOrderId := by rw [h]
  have h3 : (b2.order q).unlink.priority = (b.order q).unlink.priority := by rw [h]
  have h4 : (b2.order q).unlink.qty = (b.order q).unlink.qty := by rw [h]
  have h4 : (b2.order q).qty = (b.order q).qty := h4
  exact ⟨h1, h2, h3, fun hq => h4 ▸ hq⟩

theorem Removed.removed_keeps {b b2 : CMEOrderBook} {o q : Nat} (hr : Removed b b2 o) (hq : q ≠ o) :
    Keeps b b2 q :=
  Keeps.of_unlink (hr.order q hq)

theorem Reduced.reduced_keeps {b b2 : CMEOrderBook} {o : Nat} (hr : Reduced b b2 o) (q : Nat) :
    Keeps b b2 q := by
  by_cases hq : q = o
  · subst hq
    obtain ⟨L, hL, he⟩ := hr.self
    rw [Keeps, he]
    exact ⟨rfl, rfl, rfl, fun _ => Nat.sub_pos_of_lt hL⟩
  · exact Keeps.of_unlink (hr.order q hq)

theorem QtyPos.qtyPos_keep {b b2 : CMEOrderBook} {all all2 : List Nat}
    (hk : ∀ q ∈ all2, q ∈ all ∧ Keeps b b2 q) (h : QtyPos b all) : QtyPos b2 all2 :=
  fun q hq => (hk q hq).2.2.2.2 (h q (hk q hq).1)

theorem PrioBelow.prioBelow_keep {b b2 : CMEOrderBook} {all all2 : List Nat} {n : Nat}
    (hk : ∀ q ∈ all2, q ∈ all ∧ Keeps b b2 q) (h : PrioBelow b all n) : PrioBelow b2 all2 n :=
  fun q hq => (hk q hq).2.2.2.1 ▸ h q (hk q hq).1

theorem PrioInc.prioInc_keep {b b2 : CMEOrderBook} {L L2 : SideList} (hsh : Shrunk L L2)
    (hk : ∀ q ∈ L2.orders, Keeps b b2 q) (h : PrioInc b L) : PrioInc b2 L2 := by
  intro x hx
  obtain ⟨y, hy, -, hsub⟩ := hsh x hx
  have he : (x.2.map fun q => (b2.order q).priority) = x.2.map fun q => (b.order q).priority :=
    List.map_congr_left (fun q hq => (hk q (SideList.mem_orders hx hq)).2.2.1)
  rw [he]
  exact (h y hy).sublist (hsub.map _)

theorem Shrunk.shrunk_refl (L : SideList) : Shrunk L L :=
  fun x hx => ⟨x, hx, rfl, List.Sublist.refl _⟩

theorem Shrunk.shrunk_trans {L L2 L3 : SideList} (h1 : Shrunk L L2) (h2 : Shrunk L2 L3) :
    Shrunk L L3 := by
  intro x hx
  obtain ⟨y, hy, e1, s1⟩ := h2 x hx
  obtain ⟨z, hz, e2, s2⟩ := h1 y hy
  exact ⟨z, hz, e1.trans e2, s1.trans s2⟩

theorem Erased.erased_shrunk {o : Nat} {L L2 : SideList} (h : Erased o L L2) : Shrunk L L2 := by
  obtain ⟨A, lp, os1, os2, B, rfl, rfl⟩ := h
  intro x hx
  rcases List.mem_append.1 hx with hA | hB
  · exact ⟨x, List.mem_append_left _ hA, rfl, List.Sublist.refl _⟩
  · by_cases he : os1 ++ os2 = []
    · rw [if_pos he] at hB
      exact ⟨x, List.mem_append_right _ (List.mem_cons_of_mem _ hB), rfl, List.Sublist.refl _⟩
    · rw [if_neg he] at hB
      rcases List.mem_cons.1 hB with rfl | hB
      · refine ⟨(lp, os1 ++ o :: os2), by simp, rfl, ?_⟩
        exact List.Sublist.append (List.Sublist.refl _) (List.sublist_cons_self _ _)
      · exact ⟨x, List.mem_append_right _ (List.mem_cons_of_mem _ hB), rfl,
          List.Sublist.refl _⟩

theorem Erased.orders {o : Nat} {L L2 : SideList} (h : Erased o L L2) :
    ∃ P Q, L.orders = P ++ o :: Q ∧ L2.orders = P ++ Q := by
  obtain ⟨A, lp, os1, os2, B, rfl, rfl⟩ := h
  refine ⟨SideList.orders A ++ os1, os2 ++ SideList.orders B, ?_, ?_⟩
  · simp [SideList.orders]
  · by_cases he : os1 ++ os2 = []
    · rw [if_pos he]
      obtain ⟨rfl, rfl⟩ := List.append_eq_nil.1 he
      simp [SideList.orders]
    · rw [if_neg he]
      simp [SideList.orders]

theorem Erased.erased_mem {o : Nat} {L L2 : SideList} (h : Erased o L L2) (hnd : L.orders.Nodup)
    (q : Nat) : q ∈ L2.orders ↔ q ∈ L.orders ∧ q ≠ o := by
  obtain ⟨P, Q, e1, e2⟩ := h.orders
  rw [e1] at hnd ⊢
  rw [e2]
  have hoP : o ∉ P := fun hm => (List.nodup_append.1 hnd).2.2 hm (by simp)
  have hoQ : o ∉ Q := (List.nodup_cons.1 (List.nodup_append.1 hnd).2.1).1
  simp only [List.mem_append, List.mem_cons]
  constructor
  · rintro (hq | hq)
    · exact ⟨Or.inl hq, fun e => hoP (e ▸ hq)⟩
    · exact ⟨Or.inr (Or.inr hq), fun e => hoQ (e ▸ hq)⟩
  · rintro ⟨hq | hq | hq, hne⟩
    · exact Or.inl hq
    · exact absurd hq hne
    · exact Or.inr hq

theorem Erased.mem_self {o : Nat} {L L2 : SideList} (h : Erased o L L2) : o ∈ L.orders := by
  obtain ⟨P, Q, e1, -⟩ := h.orders
  rw [e1]
  simp

theorem update2_apply (m : Nat → Nat → Option Nat) (c d : Nat) (v : Option Nat) (c2 d2 : Nat) :
    Function.update m c (Function.update (m c) d v) c2 d2 =
      if c2 = c ∧ d2 = d then v else m c2 d2 := by
  by_cases hc : c2 = c
  · subst hc
    by_cases hd : d2 = d
    · subst hd
      simp
    · simp [hd]
  · simp [hc]

theorem Removed.removed_cidOk {b b2 : CMEOrderBook} {o : Nat} {all all2 : List Nat}
    (hr : Removed b b2 o) (hmem : ∀ q, q ∈ all2 ↔ q ∈ all ∧ q ≠ o) (h : CidOk b all) :
    CidOk b2 all2 := by
  intro c d p hp
  rw [hr.cidOid, update2_apply] at hp
  split at hp
  · exact Option.noConfusion hp
  · rename_i hne
    obtain ⟨hpm, hc, hd⟩ := h c d p hp
    have hpo : p ≠ o := by
      rintro rfl
      exact hne ⟨hc.symm, hd.symm⟩
    have hk := hr.removed_keeps hpo
    exact ⟨(hmem p).2 ⟨hpm, hpo⟩, hk.1.trans hc, hk.2.1.trans hd⟩

theorem Removed.removed_cidFull {b b2 : CMEOrderBook} {o : Nat} {all all2 : List Nat}
    (hr : Removed b b2 o) (ho : o ∈ all) (hmem : ∀ q, q ∈ all2 ↔ q ∈ all ∧ q ≠ o)
    (h : CidFull b all) : CidFull b2 all2 := by
  intro p hp
  obtain ⟨hpm, hpo⟩ := (hmem p).1 hp
  have hk := hr.removed_keeps hpo
  rw [hk.1, hk.2.1, hr.cidOid, update2_apply]
  split
  · rename_i he
    have h1 := h p hpm
    have h2 := h o ho
    rw [he.1, he.2, h2] at h1
    exact absurd (Option.some.inj h1).symm hpo
  · exact h p hpm

theorem Reduced.reduced_cidOk {b b2 : CMEOrderBook} {o : Nat} {all : List Nat}
    (hr : Reduced b b2 o) (h : CidOk b all) : CidOk b2 all := by
  intro c d p hp
  rw [hr.cidOid] at hp
  obtain ⟨hpm, hc, hd⟩ := h c d p hp
  have hk := hr.reduced_keeps p
  exact ⟨hpm, hk.1.trans hc, hk.2.1.trans hd⟩

theorem Reduced.reduced_cidFull {b b2 : CMEOrderBook} {o : Nat} {all : List Nat}
    (hr : Reduced b b2 o) (h : CidFull b all) : CidFull b2 all := by
  intro p hp
  have hk := hr.reduced_keeps p
  rw [hk.1, hk.2.1, hr.cidOid]
  exact h p hp

end Exchange

namespace Exchange

open Common CMEOrderBook

theorem popped_erased (lp o : Nat) (os : List Nat) (B : SideList) :
    Erased o ((lp, o :: os) :: B) (if os = [] then B else (lp, os) :: B) :=
  ⟨[], lp, [], os, B, rfl, by simp⟩

theorem erased_other_mem {o : Nat} {own other other2 : SideList} (hE : Erased o other other2)
    (hnd : (own ++ other).orders.Nodup) (q : Nat) :
    q ∈ (own ++ other2).orders ↔ q ∈ (own ++ other).orders ∧ q ≠ o := by
  rw [SideList.orders_append] at hnd ⊢
  rw [SideList.orders_append]
  have hoo : o ∉ own.orders := fun hm => (List.nodup_append.1 hnd).2.2 hm hE.mem_self
  have := hE.erased_mem (List.nodup_append.1 hnd).2.1 q
  simp only [List.mem_append, this]
  constructor
  · rintro (hq | hq)
    · exact ⟨Or.inl hq, fun e => hoo (e ▸ hq)⟩
    · exact ⟨Or.inr hq.1, hq.2⟩
  · rintro ⟨hq | hq, hne⟩
    · exact Or.inl hq
    · exact Or.inr ⟨hq, hne⟩

theorem erased_own_mem {o : Nat} {own own2 other : SideList} (hE : Erased o own own2)
    (hnd : (own ++ other).orders.Nodup) (q : Nat) :
    q ∈ (own2 ++ other).orders ↔ q ∈ (own ++ other).orders ∧ q ≠ o := by
  rw [SideList.orders_append] at hnd ⊢
  rw [SideList.orders_append]
  have hoo : o ∉ other.orders := fun hm => (List.nodup_append.1 hnd).2.2 hE.mem_self hm
  have := hE.erased_mem (List.nodup_append.1 hnd).1 q
  simp only [List.mem_append, this]
  constructor
  · rintro (hq | hq)
    · exact ⟨Or.inl hq.1, hq.2⟩
    · exact ⟨Or.inr hq, fun e => hoo (e ▸ hq)⟩
  · rintro ⟨hq | hq, hne⟩
    · exact Or.inl ⟨hq, hne⟩
    · exact Or.inr hq

theorem Shrunk.orders_sub {L L2 : SideList} (h : Shrunk L L2) :
    ∀ q ∈ L2.orders, q ∈ L.orders := by
  intro q hq
  obtain ⟨x, hx, hqx⟩ := List.mem_flatMap.1 hq
  obtain ⟨y, hy, -, hsub⟩ := h x hx
  exact SideList.mem_orders hy (hsub.subset hqx)

theorem Crossed.crossed_shrunk {side : ESide} {own other other2 : SideList} {b b2 : CMEOrderBook}
    (h : Crossed side own b other b2 other2) : Shrunk other other2 := by
  induction h with
  | refl => exact Shrunk.shrunk_refl _
  | full _ _ _ ih => exact (popped_erased _ _ _ _).erased_shrunk.shrunk_trans ih
  | part _ _ => exact Shrunk.shrunk_refl _

theorem Crossed.mem_sub {side : ESide} {own other other2 : SideList} {b b2 : CMEOrderBook}
    (h : Crossed side own b other b2 other2) :
    ∀ q ∈ (own ++ other2).orders, q ∈ (own ++ other).orders := by
  intro q hq
  rw [SideList.orders_append] at hq ⊢
  rcases List.mem_append.1 hq with hm | hm
  · exact List.mem_append_left _ hm
  · exact List.mem_append_right _ (h.crossed_shrunk.orders_sub q hm)

theorem Crossed.crossed_keeps {side : ESide} {own other other2 : SideList} {b b2 : CMEOrderBook}
    (h : Crossed side own b other b2 other2) :
    ∀ q ∈ (own ++ other2).orders, Keeps b b2 q := by
  induction h with
  | refl => exact fun q _ => Keeps.keeps_refl _ q
  | full hS hr hc ih =>
    intro q hq
    have hq1 := hc.mem_sub q hq
    have hne := ((erased_other_mem (popped_erased _ _ _ _) hS.onodup q).1 hq1).2
    exact (hr.removed_keeps hne).keeps_trans (ih q hq)
  | part _ hr => exact fun q _ => hr.reduced_keeps q

theorem Crossed.crossed_cidOk {side : ESide} {own other other2 : SideList} {b b2 : CMEOrderBook}
    (h : Crossed side own b other b2 other2) (hc : CidOk b (own ++ other).orders) :
    CidOk b2 (own ++ other2).orders := by
  induction h with
  | refl => exact hc
  | full hS hr _ ih =>
    exact ih (hr.removed_cidOk (erased_other_mem (popped_erased _ _ _ _) hS.onodup) hc)
  | part _ hr => exact hr.reduced_cidOk hc

theorem Crossed.crossed_cidFull {side : ESide} {own other other2 : SideList} {b b2 : CMEOrderBook}
    (h : Crossed side own b other b2 other2) (hc : CidFull b (own ++ other).orders) :
    CidFull b2 (own ++ other2).orders := by
  induction h with
  | refl => exact hc
  | full hS hr _ ih =>
    refine ih (hr.removed_cidFull ?_ (erased_other_mem (popped_erased _ _ _ _) hS.onodup) hc)
    rw [SideList.orders_append]
    exact List.mem_append_right _ (popped_erased _ _ _ _).mem_self
  | part _ hr => exact hr.reduced_cidFull hc

theorem Crossed.qtyPos {side : ESide} {own other other2 : SideList} {b b2 : CMEOrderBook}
    (h : Crossed side own b other b2 other2) (hq : QtyPos b (own ++ other).orders) :
    QtyPos b2 (own ++ other2).orders :=
  QtyPos.qtyPos_keep (fun q hm => ⟨h.mem_sub q hm, h.crossed_keeps q hm⟩) hq

theorem Crossed.prioBelow {side : ESide} {own other other2 : SideList} {b b2 : CMEOrderBook}
    {n : Nat} (h : Crossed side own b other b2 other2) (hq : PrioBelow b (own ++ other).orders n) :
    PrioBelow b2 (own ++ other2).orders n :=
  PrioBelow.prioBelow_keep (fun q hm => ⟨h.mem_sub q hm, h.crossed_keeps q hm⟩) hq

theorem Crossed.prioInc_own {side : ESide} {own other other2 : SideList} {b b2 : CMEOrderBook}
    (h : Crossed side own b other b2 other2) (hq : PrioInc b own) : PrioInc b2 own :=
  PrioInc.prioInc_keep (Shrunk.shrunk_refl _) (fun q hm => h.crossed_keeps q (by
    rw [SideList.orders_append]
    exact List.mem_append_left _ hm)) hq

theorem Crossed.prioInc_other {side : ESide} {own other other2 : SideList} {b b2 : CMEOrderBook}
    (h : Crossed side own b other b2 other2) (hq : PrioInc b other) : PrioInc b2 other2 :=
  PrioInc.prioInc_keep h.crossed_shrunk (fun q hm => h.crossed_keeps q (by
    rw [SideList.orders_append]
    exact List.mem_append_right _ hm)) hq

end Exchange

namespace Exchange

open Common CMEOrderBook

theorem listed_split {L : SideList} {o : Nat} (ho : o ∈ L.orders) :
    ∃ A lp os1 os2 B, L = A ++ (lp, os1 ++ o :: os2) :: B := by
  obtain ⟨x, hx, hox⟩ := List.mem_flatMap.1 ho
  obtain ⟨A, B, rfl⟩ := List.append_of_mem hx
  obtain ⟨os1, os2, hsp⟩ := List.append_of_mem hox
  obtain ⟨lp, os⟩ := x
  simp only at hsp
  subst hsp
  exact ⟨A, lp, os1, os2, B, rfl⟩

/-- Method `RemoveOrder` on any listed order of a well-formed book. -/
theorem RemoveOrder_listed {b : CMEOrderBook} {s : ESide} {own other : SideList} {o : Nat}
    (hs : s = .BUY ∨ s = .SELL) (h : Struct b s own other) (ho : o ∈ (own ++ other).orders) :
    ∃ b2 own2 other2, b.RemoveOrder o = .ok b2 ∧ Struct b2 s own2 other2 ∧ Removed b b2 o ∧
      b2.emitted = b.emitted ∧
      ((Erased o own own2 ∧ other2 = other) ∨ (own2 = own ∧ Erased o other other2)) := by
  rw [SideList.orders_append] at ho
  rcases List.mem_append.1 ho with hm | hm
  · obtain ⟨A, lp, os1, os2, B, rfl⟩ := listed_split hm
    obtain ⟨b2, hb2, hS2, hu, hf, hc, he, hn, -, hpl, hpo, hpr⟩ := RemoveOrder_spec hs h
    exact ⟨b2, _, other, hb2, hS2, ⟨hu, hf, hc, hn, hpl, hpo, hpr⟩, he,
      Or.inl ⟨⟨A, lp, os1, os2, B, rfl, rfl⟩, rfl⟩⟩
  · obtain ⟨A, lp, os1, os2, B, rfl⟩ := listed_split hm
    obtain ⟨b2, hb2, hS2, hu, hf, hc, he, hn, -, hpl, hpo, hpr⟩ :=
      RemoveOrder_spec (opp_side hs) (h.struct_swap hs)
    have hS3 := hS2.struct_swap (opp_side hs)
    rw [opp_opp hs] at hS3
    exact ⟨b2, own, _, hb2, hS3, ⟨hu, hf, hc, hn, hpl, hpo, hpr⟩, he,
      Or.inr ⟨rfl, ⟨A, lp, os1, os2, B, rfl, rfl⟩⟩⟩

/-- Method `CancelOrder` on a well-formed book. It returns unless the client id is inside the
index and the order id is not. A call that returns has either sent CANCEL_REJECTED and nothing
else, or removed the order found in the index and sent a CANCEL update and a CANCELED
response. -/
theorem CancelOrder_spec {b : CMEOrderBook} {s : ESide} {own other : SideList}
    (hs : s = .BUY ∨ s = .SELL) (h : Struct b s own other)
    (hc : CidOk b (own ++ other).orders) (cid oid tid : Nat) :
    ((cid < ME_MAX_NUM_CLIENTS → oid < ME_MAX_ORDER_IDS) →
      ∃ b2, b.CancelOrder cid oid tid = .ok b2) ∧
    ∀ b2, b.CancelOrder cid oid tid = .ok b2 →
      (b2 = b.SendClientResponse ⟨.CANCEL_REJECTED, cid, tid, oid, OrderId_INVALID, .INVALID,
          Price_INVALID, Qty_INVALID, Qty_INVALID⟩ ∧
        (cid < ME_MAX_NUM_CLIENTS → b.m_cidOidToOrder cid oid = none)) ∨
      (∃ o b3 own2 other2, cid < ME_MAX_NUM_CLIENTS ∧ b.m_cidOidToOrder cid oid = some o ∧
        o ∈ (own ++ other).orders ∧
        Removed b b3 o ∧ b3.emitted = b.emitted ∧ Struct b3 s own2 other2 ∧
        ((Erased o own own2 ∧ other2 = other) ∨ (own2 = own ∧ Erased o other other2)) ∧
        b2 = (b3.SendMarketUpdate ⟨.CANCEL, (b.order o).marketOrderId, tid, (b.order o).side,
            (b.order o).price, 0, (b.order o).priority⟩).SendClientResponse
          ⟨.CANCELED, cid, tid, oid, (b.order o).marketOrderId, (b.order o).side,
            (b.order o).price, Qty_INVALID, (b.order o).qty⟩) := by
  by_cases hcid : cid < ME_MAX_NUM_CLIENTS
  · by_cases hoid : oid < ME_MAX_ORDER_IDS
    · cases hslot : b.m_cidOidToOrder cid oid with
      | none =>
        have hrun : b.CancelOrder cid oid tid = .ok (b.SendClientResponse ⟨.CANCEL_REJECTED,
            cid, tid, oid, OrderId_INVALID, .INVALID, Price_INVALID, Qty_INVALID,
            Qty_INVALID⟩) := by
          simp [CancelOrder, hcid, hoid, arrayAt, hslot, bind, Except.bind, pure, Except.pure]
        refine ⟨fun _ => ⟨_, hrun⟩, fun b2 hb2 => Or.inl ⟨?_, fun _ => rfl⟩⟩
        rw [hrun] at hb2
        cases hb2
        rfl
      | some o =>
        have hom := (hc cid oid o hslot).1
        obtain ⟨b3, own2, other2, hb3, hS3, hr, he, hE⟩ := RemoveOrder_listed hs h hom
        have hrun : b.CancelOrder cid oid tid = .ok ((b3.SendMarketUpdate ⟨.CANCEL,
            (b.order o).marketOrderId, tid, (b.order o).side, (b.order o).price, 0,
            (b.order o).priority⟩).SendClientResponse ⟨.CANCELED, cid, tid, oid,
            (b.order o).marketOrderId, (b.order o).side, (b.order o).price, Qty_INVALID,
            (b.order o).qty⟩) := by
          simp [CancelOrder, hcid, hoid, arrayAt, hslot, hb3, bind, Except.bind, pure,
            Except.pure]
        refine ⟨fun _ => ⟨_, hrun⟩, fun b2 hb2 => Or.inr ⟨o, b3, own2, other2, hcid, rfl, hom,
          hr, he, hS3, hE, ?_⟩⟩
        rw [hrun] at hb2
        cases hb2
        rfl
    · have hrun : b.CancelOrder cid oid tid = .error .outOfRange := by
        simp [CancelOrder, hcid, hoid, arrayAt, bind, Except.bind]
      refine ⟨fun hh => absurd (hh hcid) hoid, fun b2 hb2 => ?_⟩
      rw [hrun] at hb2
      exact Except.noConfusion hb2
  · have hrun : b.CancelOrder cid oid tid = .ok (b.SendClientResponse ⟨.CANCEL_REJECTED,
        cid, tid, oid, OrderId_INVALID, .INVALID, Price_INVALID, Qty_INVALID,
        Qty_INVALID⟩) := by
      simp [CancelOrder, hcid, bind, Except.bind, pure, Except.pure]
    refine ⟨fun _ => ⟨_, hrun⟩, fun b2 hb2 => Or.inl ⟨?_, fun hh => absurd hh hcid⟩⟩
    rw [hrun] at hb2
    cases hb2
    rfl

end Exchange

namespace Exchange

open Common CMEOrderBook

theorem Placed.placed_mem {b : CMEOrderBook} {s : ESide} {price : Int} {o : Nat} {own own2 : SideList}
    (h : Placed b s price o own own2) (q : Nat) :
    q ∈ own2.orders ↔ q ∈ own.orders ∨ q = o := by
  rcases h with ⟨A, lp, os, B, rfl, -, rfl⟩ | ⟨A, B, pNew, rfl, -, -, -, rfl⟩
  · simp only [SideList.orders, List.flatMap_append, List.flatMap_cons, List.mem_append,
      List.mem_singleton]
    tauto
  · simp only [SideList.orders, List.flatMap_append, List.flatMap_cons, List.mem_append,
      List.mem_singleton]
    tauto

theorem Placed.mem_all {b : CMEOrderBook} {s : ESide} {price : Int} {o : Nat}
    {own own2 other : SideList} (h : Placed b s price o own own2) (q : Nat) :
    q ∈ (own2 ++ other).orders ↔ q ∈ (own ++ other).orders ∨ q = o := by
  rw [SideList.orders_append, SideList.orders_append, List.mem_append, List.mem_append, h.placed_mem]
  tauto

theorem pairwise_le_last {l : List Nat} {t : Nat} (hp : l.Pairwise (· < ·))
    (ht : l.getLast? = some t) : ∀ a ∈ l, a ≤ t := by
  intro a ha
  obtain ⟨l', rfl⟩ : ∃ l', l = l' ++ [t] := by
    have hne : l ≠ [] := fun e => by simp [e] at ht
    refine ⟨l.dropLast, ?_⟩
    have h1 := List.dropLast_append_getLast hne
    have h2 : l.getLast hne = t := by
      rw [List.getLast?_eq_getLast _ hne] at ht
      exact Option.some.inj ht
    rw [h2] at h1
    exact h1.symm
  rw [List.pairwise_append] at hp
  rcases List.mem_append.1 ha with h1 | h1
  · exact Nat.le_of_lt (hp.2.2 a h1 t (by simp))
  · simp at h1
    omega

theorem fst_unique {L : SideList} (hnd : L.levels.Nodup) {x y : Nat × List Nat} (hx : x ∈ L)
    (hy : y ∈ L) (h : x.1 = y.1) : x = y :=
  List.inj_on_of_nodup_map hnd hx hy h

/-- The invariants over the resting phase of `AddOrder`. -/
theorem rest_step {b1 b2 : CMEOrderBook} {side : ESide} {own own2 other : SideList}
    {o prio L cid coid tid moid n : Nat} {price : Int}
    (hS1 : Struct b1 side own other) (ho : o ∉ (own ++ other).orders)
    (hpl : Placed b1 side price o own own2) (hrp : RestPriority b1 price own prio)
    (hu : (b2.order o).unlink = ⟨tid, cid, coid, moid, side, price, L, prio, none, none⟩)
    (hL : L ≠ 0) (hfr : ∀ q, q ≠ o → (b2.order q).unlink = (b1.order q).unlink)
    (hci : b2.m_cidOidToOrder = Function.update b1.m_cidOidToOrder cid
      (Function.update (b1.m_cidOidToOrder cid) coid (some o))) :
    (CidOk b1 (own ++ other).orders → CidOk b2 (own2 ++ other).orders) ∧
    (QtyPos b1 (own ++ other).orders → QtyPos b2 (own2 ++ other).orders) ∧
    ((∀ p ∈ (own ++ other).orders,
        ¬ ((b1.order p).clientId = cid ∧ (b1.order p).clientOrderId = coid)) →
      CidFull b1 (own ++ other).orders → CidFull b2 (own2 ++ other).orders) ∧
    (n + 1 < 2 ^ 64 → 1 ≤ n → PrioInc b1 own → PrioBelow b1 (own ++ other).orders n →
      PrioInc b2 own2 ∧ PrioBelow b2 (own2 ++ other).orders (n + 1)) ∧
    (PrioInc b1 other → PrioInc b2 other) := by
  have hoc : (b2.order o).clientId = cid := by
    have : (b2.order o).unlink.clientId = cid := by rw [hu]
    exact this
  have hod : (b2.order o).clientOrderId = coid := by
    have : (b2.order o).unlink.clientOrderId = coid := by rw [hu]
    exact this
  have hoq : (b2.order o).qty = L := by
    have : (b2.order o).unlink.qty = L := by rw [hu]
    exact this
  have hop : (b2.order o).priority = prio := by
    have : (b2.order o).unlink.priority = prio := by rw [hu]
    exact this
  have hk : ∀ q ∈ (own ++ other).orders, Keeps b1 b2 q := fun q hq =>
    Keeps.of_unlink (hfr q (fun e => ho (e ▸ hq)))
  have hprio : n + 1 < 2 ^ 64 → 1 ≤ n → PrioInc b1 own → PrioBelow b1 (own ++ other).orders n →
      prio ≤ n ∧ ∀ x ∈ own, (b1.level x.1).price = price →
        ∀ a ∈ x.2, (b1.order a).priority < prio := by
    intro hn h1 hi hb
    rcases hrp with ⟨x, hx, hxp, t, ht, hpt⟩ | ⟨hnone, hp1⟩
    · have htm : t ∈ (own ++ other).orders := by
        rw [SideList.orders_append]
        exact List.mem_append_left _
          (SideList.mem_orders hx (List.mem_of_getLast?_eq_some ht))
      have hbt := hb t htm
      have hpe : prio = (b1.order t).priority + 1 := by
        rw [hpt]
        exact Nat.mod_eq_of_lt (by omega)
      refine ⟨by omega, fun y hy hyp a ha => ?_⟩
      have hxy : y = x := by
        have hnd : own.levels.Nodup := by
          have := hS1.lnodup
          rw [SideList.levels_append] at this
          exact List.Nodup.of_append_left this
        refine fst_unique hnd hy hx ?_
        have e1 := (hS1.ownOK.lvl x hx).idx
        have e2 := (hS1.ownOK.lvl y hy).idx
        rw [hxp] at e1
        rw [hyp, e1] at e2
        exact (Option.some.inj e2).symm
      subst hxy
      have hle : (b1.order a).priority ≤ (b1.order t).priority :=
        pairwise_le_last (hi y hy) (by rw [List.getLast?_map, ht]; rfl)
          ((b1.order a).priority) (List.mem_map_of_mem _ ha)
      omega
    · exact ⟨by omega, fun y hy hyp => absurd hyp (hnone y hy)⟩
  refine ⟨fun hc => ?_, fun hqp => ?_, fun hnr hf => ?_, fun hn h1 hi hb => ?_, fun hi => ?_⟩
  · intro c d p hp
    rw [hci, update2_apply] at hp
    split at hp
    · rename_i he
      cases hp
      exact ⟨(hpl.mem_all _).2 (Or.inr rfl), hoc.trans he.1.symm, hod.trans he.2.symm⟩
    · obtain ⟨hpm, h1, h2⟩ := hc c d p hp
      have := hk p hpm
      exact ⟨(hpl.mem_all p).2 (Or.inl hpm), this.1.trans h1, this.2.1.trans h2⟩
  · intro q hq
    rcases (hpl.mem_all q).1 hq with hm | rfl
    · exact (hk q hm).2.2.2 (hqp q hm)
    · rw [hoq]
      omega
  · intro p hp
    rcases (hpl.mem_all p).1 hp with hm | rfl
    · have hkp := hk p hm
      rw [hkp.1, hkp.2.1, hci, update2_apply, if_neg (hnr p hm)]
      exact hf p hm
    · rw [hoc, hod, hci, update2_apply, if_pos ⟨rfl, rfl⟩]
  · obtain ⟨hpn, hlt⟩ := hprio hn h1 hi hb
    have hmap : ∀ x ∈ own, (x.2.map fun q => (b2.order q).priority) =
        x.2.map fun q => (b1.order q).priority := by
      intro x hx
      refine List.map_congr_left (fun q hq => (hk q ?_).2.2.1)
      rw [SideList.orders_append]
      exact List.mem_append_left _ (SideList.mem_orders hx hq)
    refine ⟨?_, ?_⟩
    · rcases hpl with ⟨A, lp, os, B, rfl, hp, rfl⟩ | ⟨A, B, pNew, rfl, -, -, -, rfl⟩
      · intro x hx
        rcases List.mem_append.1 hx with hA | hB
        · rw [hmap x (List.mem_append_left _ hA)]
          exact hi x (List.mem_append_left _ hA)
        · rcases List.mem_cons.1 hB with rfl | hB
          · have hmem : (lp, os) ∈ A ++ (lp, os) :: B := by simp
            simp only [List.map_append, List.map_cons, List.map_nil]
            rw [List.pairwise_append]
            refine ⟨?_, List.pairwise_singleton _ _, ?_⟩
            · have := hmap (lp, os) hmem
              simp only at this
              rw [this]
              exact hi (lp, os) hmem
            · intro a ha c hc
              simp only [List.mem_singleton] at hc
              subst hc
              obtain ⟨q, hq, rfl⟩ := List.mem_map.1 ha
              have hkq := hk q (by
                rw [SideList.orders_append]
                exact List.mem_append_left _ (SideList.mem_orders hmem hq))
              rw [hkq.2.2.1, hop]
              exact hlt (lp, os) hmem hp q hq
          · rw [hmap x (List.mem_append_right _ (List.mem_cons_of_mem _ hB))]
            exact hi x (List.mem_append_right _ (List.mem_cons_of_mem _ hB))
      · intro x hx
        rcases List.mem_append.1 hx with hA | hB
        · rw [hmap x (List.mem_append_left _ hA)]
          exact hi x (List.mem_append_left _ hA)
        · rcases List.mem_cons.1 hB with rfl | hB
          · simp
          · rw [hmap x (List.mem_append_right _ hB)]
            exact hi x (List.mem_append_right _ hB)
    · intro q hq
      rcases (hpl.mem_all q).1 hq with hm | rfl
      · rw [(hk q hm).2.2.1]
        exact Nat.lt_succ_of_lt (hb q hm)
      · rw [hop]
        omega
  · exact PrioInc.prioInc_keep (Shrunk.shrunk_refl _) (fun q hq => hk q (by
      rw [SideList.orders_append]
      exact List.mem_append_right _ hq)) hi

end Exchange

namespace Exchange

open Common CMEOrderBook

/-- The empty book is well formed. -/
theorem Struct_init (t : Nat) (s : ESide) : Struct (CMEOrderBook.init t) s [] [] := by
  refine ⟨⟨?_, trivial, ?_, List.Pairwise.nil⟩, ⟨?_, trivial, ?_, List.Pairwise.nil⟩,
    List.nodup_nil, List.nodup_nil, ?_, ?_, ?_⟩
  · simp [CMEOrderBook.init, bestOf, SideList.levels]
  · intro x hx
    exact absurd hx (List.not_mem_nil _)
  · simp [CMEOrderBook.init, bestOf, SideList.levels]
  · intro x hx
    exact absurd hx (List.not_mem_nil _)
  · intro k lp hk
    simp [CMEOrderBook.init] at hk
  · exact ⟨rfl, show 0 < ME_MAX_PRICE_LEVELS by decide, rfl⟩
  · exact ⟨rfl, show 0 < ME_MAX_ORDER_IDS by decide, rfl⟩

/-- The invariants over one `AddOrder` call that returns. -/
theorem AddOrder_step {b b2 : CMEOrderBook} {side : ESide} {own other : SideList} {price : Int}
    {cid coid tid qty : Nat} (hs : side = .BUY ∨ side = .SELL) (h : Struct b side own other)
    (hcol : NoCollision b price) (hc : CidOk b (own ++ other).orders)
    (hq : QtyPos b (own ++ other).orders)
    (hrun : b.AddOrder cid coid tid side price qty = .ok b2) :
    ∃ own2 other2, Struct b2 side own2 other2 ∧ CidOk b2 (own2 ++ other2).orders ∧
      QtyPos b2 (own2 ++ other2).orders ∧
      (b.m_cidOidToOrder cid coid = none → CidFull b (own ++ other).orders →
        CidFull b2 (own2 ++ other2).orders) ∧
      (b.m_nextMarketOrderId + 1 < 2 ^ 64 → 1 ≤ b.m_nextMarketOrderId → PrioInc b own →
        PrioInc b other → PrioBelow b (own ++ other).orders b.m_nextMarketOrderId →
        PrioInc b2 own2 ∧ PrioInc b2 other2 ∧
        PrioBelow b2 (own2 ++ other2).orders b2.m_nextMarketOrderId ∧
        1 ≤ b2.m_nextMarketOrderId) := by
  obtain ⟨b1, hS1, hcr, -, -, -, hcase⟩ := (AddOrder_spec hs h hcol cid coid tid qty).2 b2 hrun
  have hn1 : b1.m_nextMarketOrderId = (b.m_nextMarketOrderId + 1) % 2 ^ 64 := hcr.nextId
  have hc1 := hcr.crossed_cidOk hc
  have hq1 := hcr.qtyPos hq
  have hf1 : CidFull b (own ++ other).orders → CidFull b1 (own ++ _).orders :=
    fun hf => hcr.crossed_cidFull hf
  have hpb1 : PrioBelow b (own ++ other).orders b.m_nextMarketOrderId →
      PrioBelow b1 (own ++ _).orders b.m_nextMarketOrderId := fun hb => hcr.prioBelow hb
  have hpo1 : PrioInc b own → PrioInc b1 own := fun hi => hcr.prioInc_own hi
  have hpt1 : PrioInc b other → PrioInc b1 _ := fun hi => hcr.prioInc_other hi
  rcases hcase with ⟨-, rfl⟩ | ⟨hL, o, prio, own2, -, -, ho, -, hrp, hpl, hS2, hu, -, hfr, -, hci,
    -, hn2⟩
  · refine ⟨own, _, hS1, hc1, hq1, fun _ hf => hf1 hf, fun hn h1 hi1 hi2 hb => ?_⟩
    rw [hn1, Nat.mod_eq_of_lt hn]
    exact ⟨hpo1 hi1, hpt1 hi2, fun q hq => Nat.lt_succ_of_lt (hpb1 hb q hq), by omega⟩
  · obtain ⟨r1, r2, r3, r4, r5⟩ := rest_step (n := b.m_nextMarketOrderId) hS1 ho hpl hrp hu hL
      hfr hci
    refine ⟨own2, _, hS2, r1 hc1, r2 hq1, fun hnone hf => ?_, fun hn h1 hi1 hi2 hb => ?_⟩
    · refine r3 (fun p hp he => ?_) (hf1 hf)
      have hk := hcr.crossed_keeps p hp
      have := hf p (hcr.mem_sub p hp)
      have e1 : (b.order p).clientId = cid := hk.1.symm.trans he.1
      have e2 : (b.order p).clientOrderId = coid := hk.2.1.symm.trans he.2
      rw [e1, e2, hnone] at this
      exact Option.noConfusion this
    · obtain ⟨p1, p2⟩ := r4 hn h1 (hpo1 hi1) (hpb1 hb)
      rw [hn2, hn1, Nat.mod_eq_of_lt hn]
      exact ⟨p1, r5 (hpt1 hi2), p2, by omega⟩

/-- The invariants over one `CancelOrder` call that returns. -/
theorem CancelOrder_step {b b2 : CMEOrderBook} {s : ESide} {own other : SideList}
    {cid oid tid : Nat} (hs : s = .BUY ∨ s = .SELL) (h : Struct b s own other)
    (hc : CidOk b (own ++ other).orders) (hq : QtyPos b (own ++ other).orders)
    (hrun : b.CancelOrder cid oid tid = .ok b2) :
    ∃ own2 other2, Struct b2 s own2 other2 ∧ CidOk b2 (own2 ++ other2).orders ∧
      QtyPos b2 (own2 ++ other2).orders ∧
      (CidFull b (own ++ other).orders → CidFull b2 (own2 ++ other2).orders) ∧
      (PrioInc b own → PrioInc b other →
        PrioBelow b (own ++ other).orders b.m_nextMarketOrderId →
        PrioInc b2 own2 ∧ PrioInc b2 other2 ∧
        PrioBelow b2 (own2 ++ other2).orders b2.m_nextMarketOrderId) ∧
      b2.m_nextMarketOrderId = b.m_nextMarketOrderId := by
  rcases (CancelOrder_spec hs h hc cid oid tid).2 b2 hrun with ⟨rfl, -⟩ |
    ⟨o, b3, own2, other2, -, -, hom, hr, -, hS3, hE, rfl⟩
  · exact ⟨own, other, Struct_SendClientResponse h _, hc, hq, fun hf => hf,
      fun h1 h2 h3 => ⟨h1, h2, h3⟩, rfl⟩
  · have hmem : ∀ q, q ∈ (own2 ++ other2).orders ↔ q ∈ (own ++ other).orders ∧ q ≠ o := by
      rcases hE with ⟨hE, rfl⟩ | ⟨rfl, hE⟩
      · exact erased_own_mem hE h.onodup
      · exact erased_other_mem hE h.onodup
    have hk : ∀ q ∈ (own2 ++ other2).orders, q ∈ (own ++ other).orders ∧ Keeps b b3 q :=
      fun q hq => ⟨((hmem q).1 hq).1, hr.removed_keeps ((hmem q).1 hq).2⟩
    have hsh1 : Shrunk own own2 := by
      rcases hE with ⟨hE, rfl⟩ | ⟨rfl, hE⟩
      · exact hE.erased_shrunk
      · exact Shrunk.shrunk_refl _
    have hsh2 : Shrunk other other2 := by
      rcases hE with ⟨hE, rfl⟩ | ⟨rfl, hE⟩
      · exact Shrunk.shrunk_refl _
      · exact hE.erased_shrunk
    refine ⟨own2, other2, Struct_SendClientResponse (Struct_SendMarketUpdate hS3 _) _,
      hr.removed_cidOk hmem hc, QtyPos.qtyPos_keep hk hq, fun hf => hr.removed_cidFull hom hmem hf,
      fun h1 h2 h3 => ⟨?_, ?_, ?_⟩, hr.nextId⟩
    · exact PrioInc.prioInc_keep hsh1 (fun q hq => (hk q (by
        rw [SideList.orders_append]
        exact List.mem_append_left _ hq)).2) h1
    · exact PrioInc.prioInc_keep hsh2 (fun q hq => (hk q (by
        rw [SideList.orders_append]
        exact List.mem_append_right _ hq)).2) h2
    · intro q hq
      have := PrioBelow.prioBelow_keep hk h3 q hq
      rw [show (b3.SendMarketUpdate _ |>.SendClientResponse _).m_nextMarketOrderId =
        b3.m_nextMarketOrderId from rfl, hr.nextId]
      exact this

end Exchange

namespace Exchange

open Common CMEOrderBook

theorem mem_orders_swap (A B : SideList) (q : Nat) :
    q ∈ (A ++ B).orders ↔ q ∈ (B ++ A).orders := by
  rw [SideList.orders_append, SideList.orders_append, List.mem_append, List.mem_append]
  exact Or.comm

theorem CidOk.cidOk_swap {b : CMEOrderBook} {A B : SideList} (h : CidOk b (A ++ B).orders) :
    CidOk b (B ++ A).orders := fun c d p hp =>
  ⟨(mem_orders_swap A B p).1 (h c d p hp).1, (h c d p hp).2⟩

theorem QtyPos.qtyPos_swap {b : CMEOrderBook} {A B : SideList} (h : QtyPos b (A ++ B).orders) :
    QtyPos b (B ++ A).orders := fun q hq => h q ((mem_orders_swap B A q).1 hq)

theorem CidFull.cidFull_swap {b : CMEOrderBook} {A B : SideList} (h : CidFull b (A ++ B).orders) :
    CidFull b (B ++ A).orders := fun q hq => h q ((mem_orders_swap B A q).1 hq)

theorem PrioBelow.prioBelow_swap {b : CMEOrderBook} {A B : SideList} {n : Nat}
    (h : PrioBelow b (A ++ B).orders n) : PrioBelow b (B ++ A).orders n :=
  fun q hq => h q ((mem_orders_swap B A q).1 hq)

/-- Every reachable book is well formed, its client-order index refers to resting orders only,
and its resting quantities are positive. When no NEW reuses the ids of a resting order, every
resting order is in the client-order index; while the market order ids have not run through
their 64 bits, the priorities increase along every level. -/
theorem Reachable.inv {Adm : CMEOrderBook → Nat → Nat → Prop} {b : CMEOrderBook}
    (hR : Reachable Adm b) :
    ∃ bids asks, Struct b .BUY bids asks ∧ CidOk b (bids ++ asks).orders ∧
      QtyPos b (bids ++ asks).orders ∧
      ((∀ b c d, Adm b c d → b.m_cidOidToOrder c d = none) →
        CidFull b (bids ++ asks).orders) ∧
      ((∀ b c d, Adm b c d → b.m_nextMarketOrderId + 1 < 2 ^ 64) →
        PrioInc b bids ∧ PrioInc b asks ∧
        PrioBelow b (bids ++ asks).orders b.m_nextMarketOrderId ∧
        1 ≤ b.m_nextMarketOrderId) := by
  induction hR with
  | init t =>
    refine ⟨[], [], Struct_init t .BUY, ?_, ?_, fun _ => ?_, fun _ => ⟨?_, ?_, ?_, ?_⟩⟩
    · intro c d p hp
      simp [CMEOrderBook.init] at hp
    · intro q hq
      simp [SideList.orders] at hq
    · intro q hq
      simp [SideList.orders] at hq
    · intro x hx
      exact absurd hx (List.not_mem_nil _)
    · intro x hx
      exact absurd hx (List.not_mem_nil _)
    · intro q hq
      simp [SideList.orders] at hq
    · simp [CMEOrderBook.init]
  | add cid coid tid side price qty _ hs _ hcol hadm hrun ih =>
    obtain ⟨bids, asks, hS, hc, hq, hf, hp⟩ := ih
    rcases hs with rfl | rfl
    · obtain ⟨own2, other2, hS2, hc2, hq2, hf2, hp2⟩ :=
        AddOrder_step (Or.inl rfl) hS hcol hc hq hrun
      refine ⟨own2, other2, hS2, hc2, hq2, fun ha => hf2 (ha _ _ _ hadm) (hf ha), fun ha => ?_⟩
      obtain ⟨p1, p2, p3, p4⟩ := hp ha
      exact hp2 (ha _ _ _ hadm) p4 p1 p2 p3
    · obtain ⟨own2, other2, hS2, hc2, hq2, hf2, hp2⟩ :=
        AddOrder_step (Or.inr rfl) (hS.struct_swap (Or.inl rfl)) hcol hc.cidOk_swap hq.qtyPos_swap hrun
      refine ⟨other2, own2, hS2.struct_swap (Or.inr rfl), hc2.cidOk_swap, hq2.qtyPos_swap,
        fun ha => (hf2 (ha _ _ _ hadm) (hf ha).cidFull_swap).cidFull_swap, fun ha => ?_⟩
      obtain ⟨p1, p2, p3, p4⟩ := hp ha
      obtain ⟨r1, r2, r3, r4⟩ := hp2 (ha _ _ _ hadm) p4 p2 p1 p3.prioBelow_swap
      exact ⟨r2, r1, r3.prioBelow_swap, r4⟩
  | cancel cid oid tid _ hrun ih =>
    obtain ⟨bids, asks, hS, hc, hq, hf, hp⟩ := ih
    obtain ⟨own2, other2, hS2, hc2, hq2, hf2, hp2, hn2⟩ :=
      CancelOrder_step (Or.inl rfl) hS hc hq hrun
    refine ⟨own2, other2, hS2, hc2, hq2, fun ha => hf2 (hf ha), fun ha => ?_⟩
    obtain ⟨p1, p2, p3, p4⟩ := hp ha
    obtain ⟨r1, r2, r3⟩ := hp2 p1 p2 p3
    exact ⟨r1, r2, r3, hn2 ▸ p4⟩

end Exchange

namespace Exchange

open Common CMEOrderBook

theorem crossFills_take (s : ESide) (p : Int) :
    ∀ (os : List SMEOrder) (L : Nat),
      (crossFills s p L os).map Prod.fst = os.take (crossFills s p L os).length
  | [], L => by simp [crossFills]
  | o :: rest, L => by
    unfold crossFills
    split
    · simp
    · simp only [List.map_cons, List.length_cons, List.take_succ_cons, List.cons.injEq, true_and]
      exact crossFills_take s p rest _

theorem crossFills_limit (s : ESide) (p : Int) :
    ∀ (os : List SMEOrder) (L : Nat), ∀ f ∈ crossFills s p L os,
      f.2 ≠ 0 ∧ limitStops s p f.1.price = false ∧ f.1 ∈ os
  | [], L, f, hf => by simp [crossFills] at hf
  | o :: rest, L, f, hf => by
    unfold crossFills at hf
    split at hf
    · simp at hf
    · rename_i hc
      rcases List.mem_cons.1 hf with rfl | hm
      · refine ⟨fun e => hc (Or.inl e), ?_, by simp⟩
        show limitStops s p o.price = false
        cases hl : limitStops s p o.price with
        | false => rfl
        | true => exact absurd (Or.inr hl) hc
      · obtain ⟨h1, h2, h3⟩ := crossFills_limit s p rest _ f hm
        exact ⟨h1, h2, List.mem_cons_of_mem _ h3⟩

theorem crossFills_complete (s : ESide) (p : Int) :
    ∀ (os : List SMEOrder) (L : Nat), ∀ f ∈ (crossFills s p L os).dropLast, f.1.qty < f.2
  | [], L, f, hf => by simp [crossFills] at hf
  | o :: rest, L, f, hf => by
    unfold crossFills at hf
    split at hf
    · simp at hf
    · cases hF : crossFills s p (L - o.qty) rest with
      | nil =>
        rw [hF] at hf
        simp at hf
      | cons g G =>
        rw [hF, List.dropLast_cons₂] at hf
        rcases List.mem_cons.1 hf with rfl | hm
        · have hne : L - o.qty ≠ 0 := by
            intro e
            rw [e, crossFills_zero] at hF
            exact List.noConfusion hF
          show o.qty < L
          omega
        · exact crossFills_complete s p rest (L - o.qty) f (by rw [hF]; exact hm)

theorem crossFills_sum (s : ESide) (p : Int) :
    ∀ (os : List SMEOrder) (L : Nat),
      ((crossFills s p L os).map fun f => min f.2 f.1.qty).sum + crossLeaves s p L os = L
  | [], L => by simp [crossFills, crossLeaves]
  | o :: rest, L => by
    unfold crossFills crossLeaves
    split
    · simp
    · have ih := crossFills_sum s p rest (L - o.qty)
      simp only [List.map_cons, List.sum_cons]
      rcases Nat.le_total L o.qty with hle | hle
      · rw [Nat.min_eq_left hle]
        omega
      · rw [Nat.min_eq_right hle]
        omega

/-- The records of one `AddOrder` call that returns: the ACCEPTED response, the records of the
matches of the price-time crossing, and one ADD update when something is left. -/
theorem AddOrder_emitted {b b2 : CMEOrderBook} {side : ESide} {own other : SideList}
    {price : Int} {cid coid tid qty : Nat} (hs : side = .BUY ∨ side = .SELL)
    (h : Struct b side own other) (hcol : NoCollision b price)
    (hrun : b.AddOrder cid coid tid side price qty = .ok b2) :
    ∃ tail, b2.emitted = b.emitted ++ (.response ⟨.ACCEPTED, cid, tid, coid,
          b.m_nextMarketOrderId, side, price, 0, qty⟩ ::
        (crossFills side price qty (snapshots b other)).flatMap
          (fun f => matchRecords tid cid side coid (b.m_nextMarketOrderId % 2 ^ 32) f.1 f.2)) ++
        tail ∧
      ((crossLeaves side price qty (snapshots b other) = 0 ∧ tail = []) ∨
        (crossLeaves side price qty (snapshots b other) ≠ 0 ∧
          ∃ prio, tail = [.update ⟨.ADD, b.m_nextMarketOrderId, tid, side, price,
            crossLeaves side price qty (snapshots b other), prio⟩])) := by
  obtain ⟨b1, -, -, hem, -, -, hcase⟩ := (AddOrder_spec hs h hcol cid coid tid qty).2 b2 hrun
  rcases hcase with ⟨hL, rfl⟩ | ⟨hL, o, prio, own2, -, -, -, -, -, -, -, -, -, -, -, -, he2, -⟩
  · exact ⟨[], by rw [hem]; simp, Or.inl ⟨hL, rfl⟩⟩
  · exact ⟨_, by rw [he2, hem], Or.inr ⟨hL, prio, rfl⟩⟩

end Exchange

namespace Exchange

open Common CMEOrderBook

theorem NoCollision_init (t : Nat) (price : Int) : NoCollision (CMEOrderBook.init t) price := by
  intro lp hlp
  simp [CMEOrderBook.init] at hlp

theorem Spare_init_orders (t : Nat) : Spare (CMEOrderBook.init t).m_orderPool :=
  ⟨1, show 1 < ME_MAX_ORDER_IDS by decide, show 1 ≠ 0 by decide, rfl⟩

theorem Spare_init_levels (t : Nat) : Spare (CMEOrderBook.init t).m_ordersAtPricePool :=
  ⟨1, show 1 < ME_MAX_PRICE_LEVELS by decide, show 1 ≠ 0 by decide, rfl⟩

/-- Scenario S1 runs to its end, to the book `bookS1`. -/
theorem run_scenarioS1 : (CMEOrderBook.init 0).AddOrder 0 1 0 .BUY 100 10 = .ok bookS1 := rfl

theorem NoCollision_bookS1 : NoCollision bookS1 100 := by
  intro lp hlp
  have e : bookS1.m_priceOrdersAtPrice (PriceToIndex 100) = some 0 := by decide
  rw [e] at hlp
  cases hlp
  decide

/-- The book of scenario S1 is well formed: one bid level, in slot 0 of the level pool, with one
order, in slot 0 of the order pool. -/
theorem Struct_bookS1 : Struct bookS1 .BUY [(0, [0])] [] := by
  obtain ⟨b1, -, -, -, -, -, hcase⟩ :=
    (AddOrder_spec (Or.inl rfl) (Struct_init 0 .BUY) (NoCollision_init 0 100) 0 1 0 10).2
      bookS1 run_scenarioS1
  have hL : crossLeaves .BUY 100 10 (snapshots (CMEOrderBook.init 0) []) = 10 := by decide
  rw [hL] at hcase
  rcases hcase with ⟨h0, -⟩ | ⟨-, o, prio, own2, -, -, -, -, -, hpl, hS2, -⟩
  · exact absurd h0 (by decide)
  · have hd : SideList.dropOrders (crossDone .BUY 100 10 (snapshots (CMEOrderBook.init 0) []))
        [] = [] := by decide
    rw [hd] at hS2
    rcases hpl with ⟨A, lp, os, B, e1, -, -⟩ | ⟨A, B, pNew, e1, -, -, -, e2⟩
    · exact absurd e1 (by simp)
    · obtain ⟨rfl, rfl⟩ := List.append_eq_nil.1 e1.symm
      subst e2
      have hb := hS2.ownOK.best
      have e3 : bookS1.bestOf .BUY = some 0 := by decide
      rw [e3] at hb
      have hp : pNew = 0 := by
        simp [SideList.levels] at hb
        exact hb.symm
      subst hp
      have hf := (hS2.ownOK.lvl (0, [o]) (by simp)).first
      have e4 : (bookS1.level 0).pFirstMeOrder = some 0 := by decide
      rw [e4] at hf
      have ho : o = 0 := by
        simp at hf
        exact hf.symm
      subst ho
      exact hS2

theorem Spare_bookS1_orders : Spare bookS1.m_orderPool :=
  ⟨2, by decide, by decide, by decide⟩

theorem Spare_bookS1_levels : Spare bookS1.m_ordersAtPricePool :=
  ⟨2, by decide, by decide, by decide⟩

end Exchange

namespace Exchange

open Common CMEOrderBook

theorem snapshot_side {b : CMEOrderBook} {side : ESide} {own other : SideList}
    (h : Struct b side own other) {x : SMEOrder} (hx : x ∈ snapshots b other) :
    x.side = opp side := by
  obtain ⟨q, hq, rfl⟩ := List.mem_map.1 hx
  obtain ⟨y, hy, hqy⟩ := List.mem_flatMap.1 hq
  exact ((h.otherOK.lvl y hy).ord q hqy).side

theorem limitStops_false {side : ESide} {price p : Int} (hs : side = .BUY ∨ side = .SELL)
    (h : limitStops side price p = false) :
    (side = .BUY → p ≤ price) ∧ (side = .SELL → price ≤ p) := by
  rcases hs with rfl | rfl
  · simp [limitStops] at h
    exact ⟨fun _ => h, fun e => ESide.noConfusion e⟩
  · simp [limitStops] at h
    exact ⟨fun e => ESide.noConfusion e, fun _ => h⟩

theorem limitStops_true {side : ESide} {price p : Int} (hs : side = .BUY ∨ side = .SELL)
    (h : limitStops side price p = true) :
    (side = .BUY → price < p) ∧ (side = .SELL → p < price) := by
  rcases hs with rfl | rfl
  · simp [limitStops] at h
    exact ⟨fun _ => h, fun e => ESide.noConfusion e⟩
  · simp [limitStops] at h
    exact ⟨fun e => ESide.noConfusion e, fun _ => h⟩

/-- The best opposite level of a well-formed book whose first opposite order stops the
aggressor. -/
theorem exit_condition {b : CMEOrderBook} {side : ESide} {own other : SideList} {price : Int}
    (hs : side = .BUY ∨ side = .SELL) (h : Struct b side own other)
    (hstop : ∀ q, other.orders.head? = some q → limitStops side price (b.order q).price = true) :
    b.oppositeBest side = none ∨ ∃ best, b.oppositeBest side = some best ∧
      (side = .BUY → price < (b.level best).price) ∧
      (side = .SELL → (b.level best).price < price) := by
  cases other with
  | nil =>
    left
    rw [oppositeBest_eq b hs, h.otherOK.best]
    rfl
  | cons x B =>
    right
    obtain ⟨q, os, hx, hbest, -⟩ := h.other_head
    refine ⟨x.1, by rw [oppositeBest_eq b hs, hbest], ?_⟩
    have hp : (b.order q).price = (b.level x.1).price :=
      ((h.otherOK.lvl x (by simp)).ord q (by rw [hx]; simp)).price
    have := hstop q (by simp [SideList.orders, hx])
    rw [hp] at this
    exact limitStops_true hs this

theorem matchRecords_no_add (tid cid : Nat) (side : ESide) (coid moid : Nat) (o : SMEOrder)
    (L : Nat) (u : SMEMarketUpdate) (hu : Emitted.update u ∈ matchRecords tid cid side coid moid o L) :
    u.type ≠ .ADD := by
  simp only [matchRecords, List.mem_cons, List.mem_singleton, Emitted.update.injEq,
    List.not_mem_nil, or_false, false_or, reduceCtorEq] at hu
  rcases hu with rfl | rfl
  · simp [tradeUpdate]
  · unfold lifecycleUpdate
    split <;> simp

end Exchange

namespace Exchange

open Common CMEOrderBook

theorem setCidOid_levelPool {b b2 : CMEOrderBook} {c d : Nat} {v : Option Nat}
    (h : b.setCidOid c d v = .ok b2) :
    b2.m_ordersAtPricePool = b.m_ordersAtPricePool ∧ b2.m_orderPool = b.m_orderPool := by
  unfold setCidOid arrayAt at h
  by_cases hc : c < ME_MAX_NUM_CLIENTS
  · by_cases hd : d < ME_MAX_ORDER_IDS
    · simp [hc, hd, bind, Except.bind, pure, Except.pure] at h
      subst h
      exact ⟨rfl, rfl⟩
    · simp [hc, hd, bind, Except.bind] at h
  · simp [hc, bind, Except.bind] at h

/-- Linking an order into a level that is already in the price index leaves the level pool as
it is. -/
theorem AddOrderPtr_levelPool {b b2 : CMEOrderBook} {o lp : Nat}
    (hidx : b.m_priceOrdersAtPrice (PriceToIndex (b.order o).price) = some lp)
    (h : b.AddOrderPtr o = .ok b2) : b2.m_ordersAtPricePool = b.m_ordersAtPricePool := by
  unfold AddOrderPtr at h
  simp only [GetOrdersAtPrice_eq, hidx, bind, Except.bind, pure, Except.pure] at h
  split at h
  · cases h
  · rename_i b1 heq
    have e1 : b1.m_ordersAtPricePool = b.m_ordersAtPricePool := by
      split at heq
      · cases heq
      · split at heq
        · cases heq
        · simp only [Except.ok.injEq] at heq
          subst heq
          rfl
    rw [(setCidOid_levelPool h).1, e1]

/-- The resting phase of `AddOrder` at a price that is already in the price index leaves the
level pool as it is. -/
theorem restResidual_levelPool {b b2 : CMEOrderBook} {price : Int} {lp : Nat}
    (hp : PoolOK b.m_orderPool ME_MAX_ORDER_IDS)
    (hidx : b.m_priceOrdersAtPrice (PriceToIndex price) = some lp)
    {cid coid tid moid L : Nat} {side : ESide}
    (h : b.restResidual cid coid tid side price moid L = .ok b2) :
    b2.m_ordersAtPricePool = b.m_ordersAtPricePool := by
  unfold restResidual at h
  simp only [bind, Except.bind, pure, Except.pure] at h
  split at h
  · cases h
  · rename_i prio hprio
    split at h
    · cases h
    · rename_i a hA
      obtain ⟨-, hobj, -, -⟩ := CMemoryPool.Allocate_ok hA hp
      split at h
      · cases h
      · rename_i b3 hb3
        simp only [Except.ok.injEq] at h
        subst h
        have hpr : (({ b with m_orderPool := a.2 } : CMEOrderBook).order a.1).price = price := by
          show (a.2.obj a.1).price = price
          rw [hobj, if_pos rfl]
        have := @AddOrderPtr_levelPool { b with m_orderPool := a.2 } b3 a.1 lp
          (by rw [hpr]; exact hidx) hb3
        exact this

/-- Method `RemoveOrder` hands the slot of the order back to the pool. -/
theorem RemoveOrder_frees {b b2 : CMEOrderBook} {o : Nat} (h : b.RemoveOrder o = .ok b2) :
    b2.ofree o = true := by
  unfold RemoveOrder at h
  simp only [GetOrdersAtPrice_eq, bind, Except.bind, pure, Except.pure] at h
  split at h
  · cases h
  · rename_i b1 heq
    split at h
    · cases h
    · rename_i b3 hb3
      split at h
      · cases h
      · rename_i pool hpool
        simp only [Except.ok.injEq] at h
        subst h
        rw [CMemoryPool.Deallocate_def] at hpool
        split at hpool
        · split at hpool
          · cases hpool
          · simp only [Except.ok.injEq] at hpool
            subst hpool
            simp [ofree]
        · cases hpool

theorem spare_slot (o c : Nat) : ∃ j, j < 3 ∧ j ≠ o ∧ j ≠ c := by
  by_cases h0 : 0 ≠ o ∧ 0 ≠ c
  · exact ⟨0, by omega, h0.1, h0.2⟩
  by_cases h1 : 1 ≠ o ∧ 1 ≠ c
  · exact ⟨1, by omega, h1.1, h1.2⟩
  exact ⟨2, by omega, by omega, by omega⟩

theorem singleton_split {α : Type} {x y : α} {A B : List α} (h : [x] = A ++ y :: B) :
    A = [] ∧ y = x ∧ B = [] := by
  cases A with
  | nil =>
    simp only [List.nil_append, List.cons.injEq] at h
    exact ⟨rfl, h.1.symm, h.2.symm⟩
  | cons a A =>
    simp at h

/-- A NEW bid of client 0 at price 100 on a book with a lone bid there: the call returns and
the new order rests behind the old one, with the priority of the 64-bit increment. The order
has taken the next market order id, and its ADD update is among the records sent. -/
theorem LoneBid_add_run {b : CMEOrderBook} {k : Nat} (hR : Reachable (fun _ _ _ => True) b)
    (h : LoneBid b k) : ∃ b2, Reachable (fun _ _ _ => True) b2 ∧ TwoBids b2 k ∧
      b.AddOrder 0 ((k + 1) % 2) 0 .BUY 100 1 = .ok b2 ∧
      b2.m_nextMarketOrderId = (b.m_nextMarketOrderId + 1) % 2 ^ 64 ∧
      Emitted.update ⟨.ADD, b.m_nextMarketOrderId, 0, .BUY, 100, 1, (k + 1) % 2 ^ 64⟩ ∈
        b2.emitted := by
  obtain ⟨lp, o, hS, hprice, hprio, hcid, hcoid, hslot, hidx, hfree, hsp⟩ := h
  have hmem : ((lp, [o]) : Nat × List Nat) ∈ ([(lp, [o])] : SideList) := List.mem_singleton.2 rfl
  have hlvl : LevelOK b .BUY lp [o] := hS.ownOK.lvl (lp, [o]) hmem
  have hcol : NoCollision b 100 := by
    intro q hq
    have := (hS.idx _ q hq).1
    simp [SideList.levels] at this
    rw [this]
    exact hprice
  have hkey : b.m_priceOrdersAtPrice (PriceToIndex 100) = some lp := by
    have := hlvl.idx
    rwa [hprice] at this
  have hob : b.ofree o = false := (hlvl.ord o (List.mem_singleton.2 rfl)).busy
  have hspo : Spare b.m_orderPool := by
    obtain ⟨hn, -, hcf⟩ := hS.opool
    obtain ⟨j, hj, hjo, hjc⟩ := spare_slot o b.m_orderPool.m_nextFreeIndex
    have hjN : j < ME_MAX_ORDER_IDS := lt_of_lt_of_le hj (show 3 ≤ ME_MAX_ORDER_IDS by decide)
    exact ⟨j, by rw [hn]; exact hjN, hjc, hfree j hjN hjo⟩
  have hcoidlt : (k + 1) % 2 < ME_MAX_ORDER_IDS :=
    lt_of_lt_of_le (Nat.mod_lt _ (by decide)) (show 2 ≤ ME_MAX_ORDER_IDS by decide)
  obtain ⟨b1, hS1, hcr, -, -, -, hrun, hcol1⟩ :=
    AddOrder_match (Or.inl rfl) hS hcol 0 ((k + 1) % 2) 0 1
  have hL : crossLeaves .BUY 100 1 (snapshots b []) = 1 := rfl
  have hD : SideList.dropOrders (crossDone .BUY 100 1 (snapshots b [])) [] = [] := rfl
  rw [hL] at hrun hcol1
  rw [hD] at hS1 hcr
  rw [if_pos (by decide)] at hrun
  have hb1 : b1 = b.GenerateNewMarketOrderId.2.SendClientResponse ⟨.ACCEPTED, 0, 0,
      (k + 1) % 2, b.m_nextMarketOrderId, .BUY, 100, 0, 1⟩ := by
    cases hcr
    rfl
  have hord1 : ∀ q, b1.order q = b.order q := fun q => by rw [hb1]; rfl
  have hfree1 : ∀ q, b1.ofree q = b.ofree q := fun q => by rw [hb1]; rfl
  have hlev1 : ∀ q, b1.level q = b.level q := fun q => by rw [hb1]; rfl
  have hci1 : b1.m_cidOidToOrder = b.m_cidOidToOrder := by rw [hb1]; rfl
  have hop1 : b1.m_orderPool = b.m_orderPool := by rw [hb1]; rfl
  have hlp1 : b1.m_ordersAtPricePool = b.m_ordersAtPricePool := by rw [hb1]; rfl
  have hkey1 : b1.m_priceOrdersAtPrice (PriceToIndex 100) = some lp := by rw [hb1]; exact hkey
  obtain ⟨htot, hpost⟩ := restResidual_spec (Or.inl rfl) hS1 (hcol1 (by decide)) 0
    ((k + 1) % 2) 0 b.m_nextMarketOrderId 1
  obtain ⟨b2, hb2⟩ := htot (by decide) hcoidlt (by rw [hop1]; exact hspo)
    (by rw [hlp1]; exact hsp)
  obtain ⟨o2, prio, own2, -, -, ho2, -, hrp, hpl, hS2, hunl, -, hfru, hfrf, hci, hem, hnx⟩ :=
    hpost b2 hb2
  have hne : o ≠ o2 := by
    intro e
    apply ho2
    rw [← e]
    simp [SideList.orders]
  have hprio2 : prio = (k + 1) % 2 ^ 64 := by
    rcases hrp with ⟨x, hx, -, t, ht, hpr⟩ | ⟨hno, -⟩
    · have hx2 : x = (lp, [o]) := List.mem_singleton.1 hx
      subst hx2
      simp only [List.getLast?_singleton, Option.some.injEq] at ht
      subst ht
      rw [hpr, hord1, hprio]
    · exact absurd (by rw [hlev1]; exact hprice) (hno (lp, [o]) hmem)
  have hown2 : own2 = [(lp, [o, o2])] := by
    rcases hpl with ⟨A, lp2, os, B, hown, -, rfl⟩ | ⟨A, B, pNew, -, hno, -, -, -⟩
    · obtain ⟨rfl, hx, rfl⟩ := singleton_split hown
      cases hx
      rfl
    · exact absurd (by rw [hlev1]; exact hprice) (hno (lp, [o]) hmem)
  subst hown2
  have hRun : b.AddOrder 0 ((k + 1) % 2) 0 .BUY 100 1 = .ok b2 := hrun.trans hb2
  have hR2 : Reachable (fun _ _ _ => True) b2 :=
    Reachable.add 0 ((k + 1) % 2) 0 .BUY 100 1 hR (Or.inl rfl) (by decide) hcol trivial hRun
  have hf2 : ∀ (f : SMEOrder → Nat), (∀ x, f x.unlink = f x) →
      f (b2.order o2) = f ⟨0, 0, (k + 1) % 2, b.m_nextMarketOrderId, .BUY, 100, 1, prio,
        none, none⟩ := by
    intro f hf
    rw [← hf (b2.order o2), hunl]
  have hf1 : ∀ (f : SMEOrder → Nat), (∀ x, f x.unlink = f x) →
      f (b2.order o) = f (b.order o) := by
    intro f hf
    rw [← hf (b2.order o), hfru o hne, hf, hord1]
  have hpr2 : (b2.order o2).price = 100 := by
    have h1 : (b2.order o2).unlink.price = 100 := by rw [hunl]
    exact h1
  have hlvl2 := hS2.ownOK.lvl (lp, [o, o2]) (List.mem_singleton.2 rfl)
  have hne2 : k % 2 ≠ (k + 1) % 2 := by omega
  refine ⟨b2, hR2, ⟨lp, o, o2, hS2, ?_, ?_, ?_, ?_, ?_, ?_, ?_, ?_, ?_, ?_, ?_, ?_⟩, hRun, ?_, ?_⟩
  · rw [← (hlvl2.ord o2 (by simp)).price]
    exact hpr2
  · rw [hf1 SMEOrder.priority (fun _ => rfl)]
    exact hprio
  · rw [hf2 SMEOrder.priority (fun _ => rfl)]
    exact hprio2
  · rw [hf1 SMEOrder.clientId (fun _ => rfl)]
    exact hcid
  · rw [hf1 SMEOrder.clientOrderId (fun _ => rfl)]
    exact hcoid
  · exact hf2 SMEOrder.clientId (fun _ => rfl)
  · exact hf2 SMEOrder.clientOrderId (fun _ => rfl)
  · rw [hci, hci1]
    simp [Function.update, hne2, hslot]
  · rw [hci, hci1]
    simp [Function.update]
  · intro c d p hp
    rw [hci, hci1] at hp
    by_cases hc : c = 0
    · subst hc
      by_cases hd : d = (k + 1) % 2
      · subst hd
        simp [Function.update] at hp
        exact Or.inr ⟨hp.symm, rfl, rfl⟩
      · simp [Function.update, hd] at hp
        exact Or.inl (hidx 0 d p hp)
    · simp [Function.update, hc] at hp
      exact Or.inl (hidx c d p hp)
  · intro q hq hqo hqo2
    rw [hfrf q hqo2, hfree1]
    exact hfree q hq hqo
  · rw [restResidual_levelPool hS1.opool hkey1 hb2, hlp1]
    exact hsp
  · rw [hnx, hb1]
    rfl
  · rw [hem, ← hprio2]
    exact List.mem_append_right _ (List.mem_singleton.2 rfl)

/-- A NEW bid of client 0 at price 100 on a book with a lone bid there: the call returns and
the new order rests behind the old one, with the priority of the 64-bit increment. -/
theorem LoneBid_add {b : CMEOrderBook} {k : Nat} (hR : Reachable (fun _ _ _ => True) b)
    (h : LoneBid b k) : ∃ b2, Reachable (fun _ _ _ => True) b2 ∧ TwoBids b2 k := by
  obtain ⟨b2, hR2, hT, -⟩ := LoneBid_add_run hR h
  exact ⟨b2, hR2, hT⟩

/-- A CANCEL of the head order of a book with two bids in one level: the call returns and the
tail order stays alone, with its priority. The next market order id is as before. -/
theorem TwoBids_cancel_run {b : CMEOrderBook} {k : Nat} (hk : k + 1 < 2 ^ 64)
    (hR : Reachable (fun _ _ _ => True) b) (h : TwoBids b k) :
    ∃ b2, Reachable (fun _ _ _ => True) b2 ∧ LoneBid b2 (k + 1) ∧
      b.CancelOrder 0 (k % 2) 0 = .ok b2 ∧ b2.m_nextMarketOrderId = b.m_nextMarketOrderId := by
  obtain ⟨lp, o, o2, hS, hprice, -, hp2, hc1, hd1, hc2, hd2, hslot, hslot2, hidx, hfree, hsp⟩ := h
  have hne : o ≠ o2 := by
    have := hS.onodup
    simp [SideList.orders] at this
    exact this
  have hom : o ∈ SideList.orders (([(lp, [o, o2])] : SideList) ++ ([] : SideList)) := by
    simp [SideList.orders]
  obtain ⟨b3, own2, other2, hb3, hS3, hr, -, hE⟩ := RemoveOrder_listed (Or.inl rfl) hS hom
  have hklt : k % 2 < ME_MAX_ORDER_IDS :=
    lt_of_lt_of_le (Nat.mod_lt _ (by decide)) (show 2 ≤ ME_MAX_ORDER_IDS by decide)
  have hcl : (0 : Nat) < ME_MAX_NUM_CLIENTS := by decide
  have hrun : b.CancelOrder 0 (k % 2) 0 = .ok ((b3.SendMarketUpdate ⟨.CANCEL,
      (b.order o).marketOrderId, 0, (b.order o).side, (b.order o).price, 0,
      (b.order o).priority⟩).SendClientResponse ⟨.CANCELED, 0, 0, k % 2,
      (b.order o).marketOrderId, (b.order o).side, (b.order o).price, Qty_INVALID,
      (b.order o).qty⟩) := by
    simp [CancelOrder, hcl, hklt, arrayAt, hslot, hb3, bind, Except.bind, pure, Except.pure]
  have hshape : own2 = [(lp, [o2])] ∧ other2 = [] := by
    rcases hE with ⟨⟨A, lp2, os1, os2, B, hL, hown2⟩, ho2⟩ | ⟨-, A, lp2, os1, os2, B, hL, -⟩
    · obtain ⟨rfl, hx, rfl⟩ := singleton_split hL
      simp only [Prod.mk.injEq] at hx
      obtain ⟨rfl, hos⟩ := hx
      have : os1 = [] ∧ os2 = [o2] := by
        cases os1 with
        | nil =>
          simp only [List.nil_append, List.cons.injEq, true_and] at hos
          exact ⟨rfl, hos⟩
        | cons a os1 =>
          simp only [List.cons_append, List.cons.injEq] at hos
          obtain ⟨-, hos⟩ := hos
          cases os1 with
          | nil =>
            simp only [List.nil_append, List.cons.injEq] at hos
            exact absurd hos.1 hne
          | cons c os1 =>
            simp at hos
      obtain ⟨rfl, rfl⟩ := this
      refine ⟨?_, ho2⟩
      rw [hown2]
      simp
    · simp at hL
  obtain ⟨rfl, rfl⟩ := hshape
  have hf2 : ∀ (f : SMEOrder → Nat), (∀ x, f x.unlink = f x) →
      f (b3.order o2) = f (b.order o2) := by
    intro f hf
    rw [← hf (b3.order o2), hr.order o2 (Ne.symm hne), hf]
  have hne2 : k % 2 ≠ (k + 1) % 2 := by omega
  have hci := hr.cidOid
  rw [hc1, hd1] at hci
  refine ⟨_, Reachable.cancel 0 (k % 2) 0 hR hrun, ⟨lp, o2,
    Struct_SendClientResponse (Struct_SendMarketUpdate hS3 _) _, ?_, ?_, ?_, ?_, ?_, ?_, ?_, ?_⟩,
    hrun, hr.nextId⟩
  · show (b3.level lp).price = 100
    rw [hr.price]
    exact hprice
  · show (b3.order o2).priority = k + 1
    rw [hf2 SMEOrder.priority (fun _ => rfl), hp2]
    exact Nat.mod_eq_of_lt hk
  · show (b3.order o2).clientId = 0
    rw [hf2 SMEOrder.clientId (fun _ => rfl)]
    exact hc2
  · show (b3.order o2).clientOrderId = (k + 1) % 2
    rw [hf2 SMEOrder.clientOrderId (fun _ => rfl)]
    exact hd2
  · show b3.m_cidOidToOrder 0 ((k + 1) % 2) = some o2
    rw [hci]
    simp [Function.update, Ne.symm hne2, hslot2]
  · intro c d p hp
    change b3.m_cidOidToOrder c d = some p at hp
    rw [hci] at hp
    by_cases hc : c = 0
    · subst hc
      by_cases hd : d = k % 2
      · subst hd
        simp [Function.update] at hp
      · simp [Function.update, hd] at hp
        rcases hidx 0 d p hp with ⟨-, -, e⟩ | h2
        · exact absurd e hd
        · exact h2
    · simp [Function.update, hc] at hp
      rcases hidx c d p hp with ⟨-, e, -⟩ | ⟨-, e, -⟩ <;> exact absurd e hc
  · intro q hq hqo2
    show b3.ofree q = true
    by_cases hqo : q = o
    · rw [hqo]
      exact RemoveOrder_frees hb3
    · rw [hr.free q hqo]
      exact hfree q hq hqo hqo2
  · exact CMemoryPool.PoolLe_spare hr.lpool hsp

/-- A CANCEL of the head order of a book with two bids in one level: the call returns and the
tail order stays alone, with its priority. -/
theorem TwoBids_cancel {b : CMEOrderBook} {k : Nat} (hk : k + 1 < 2 ^ 64)
    (hR : Reachable (fun _ _ _ => True) b) (h : TwoBids b k) :
    ∃ b2, Reachable (fun _ _ _ => True) b2 ∧ LoneBid b2 (k + 1) := by
  obtain ⟨b2, hR2, hL, -⟩ := TwoBids_cancel_run hk hR h
  exact ⟨b2, hR2, hL⟩

/-- The book of scenario S1 holds a lone bid of priority 1. -/
theorem LoneBid_bookS1 : LoneBid bookS1 1 := by
  obtain ⟨-, hpost⟩ := AddOrder_spec (Or.inl rfl) (Struct_init 0 .BUY) (NoCollision_init 0 100)
    0 1 0 10
  obtain ⟨b1, -, hcr, -, -, -, hcase⟩ := hpost bookS1 run_scenarioS1
  have hL : crossLeaves .BUY 100 10 (snapshots (CMEOrderBook.init 0) []) = 10 := rfl
  have hD : SideList.dropOrders (crossDone .BUY 100 10 (snapshots (CMEOrderBook.init 0) []))
      [] = [] := rfl
  rw [hL] at hcase
  rw [hD] at hcr hcase
  have hb1 : b1 = (CMEOrderBook.init 0).GenerateNewMarketOrderId.2.SendClientResponse
      ⟨.ACCEPTED, 0, 0, 1, (CMEOrderBook.init 0).m_nextMarketOrderId, .BUY, 100, 0, 10⟩ := by
    cases hcr
    rfl
  rcases hcase with ⟨h0, -⟩ | ⟨-, o, prio, own2, -, -, -, -, hrp, hpl, hS2, hunl, -, -, hfrf,
    hci, -, -⟩
  · exact absurd h0 (by decide)
  have hprio : prio = 1 := by
    rcases hrp with ⟨x, hx, -⟩ | ⟨-, e⟩
    · simp at hx
    · exact e
  have hown2 : ∃ lp, own2 = [(lp, [o])] := by
    rcases hpl with ⟨A, lp2, os, B, hown, -⟩ | ⟨A, B, pNew, hown, -, -, -, e⟩
    · simp at hown
    · have hA : A = [] ∧ B = [] := by
        cases A with
        | nil => exact ⟨rfl, by simpa using hown.symm⟩
        | cons a A => simp at hown
      obtain ⟨rfl, rfl⟩ := hA
      exact ⟨pNew, e⟩
  obtain ⟨lp, rfl⟩ := hown2
  have hf : ∀ (f : SMEOrder → Nat), (∀ x, f x.unlink = f x) →
      f (bookS1.order o) = f ⟨0, 0, 1, (CMEOrderBook.init 0).m_nextMarketOrderId, .BUY, 100, 10,
        prio, none, none⟩ := by
    intro f hf
    rw [← hf (bookS1.order o), hunl]
  have hpr : (bookS1.order o).price = 100 := by
    have h1 : (bookS1.order o).unlink.price = 100 := by rw [hunl]
    exact h1
  have hlvl := hS2.ownOK.lvl (lp, [o]) (List.mem_singleton.2 rfl)
  have hci1 : b1.m_cidOidToOrder = fun _ _ => none := by rw [hb1]; rfl
  refine ⟨lp, o, hS2, ?_, ?_, ?_, ?_, ?_, ?_, ?_, Spare_bookS1_levels⟩
  · rw [← (hlvl.ord o (by simp)).price]
    exact hpr
  · rw [hf SMEOrder.priority (fun _ => rfl)]
    exact hprio
  · exact hf SMEOrder.clientId (fun _ => rfl)
  · exact hf SMEOrder.clientOrderId (fun _ => rfl)
  · rw [hci, hci1]
    simp [Function.update]
  · intro c d p hp
    rw [hci, hci1] at hp
    by_cases hc : c = 0
    · subst hc
      by_cases hd : d = 1
      · subst hd
        simp [Function.update] at hp
        exact ⟨hp.symm, rfl, rfl⟩
      · simp [Function.update, hd] at hp
    · simp [Function.update, hc] at hp
  · intro q _ hqo
    rw [hfrf q hqo, hb1]
    rfl

/-- Every priority below `2 ^ 64` is the priority of the lone bid of some book that NEW and
CANCEL requests reach from the empty book. -/
theorem LoneBid_reached (n : Nat) (hn : n + 1 < 2 ^ 64) :
    ∃ b, Reachable (fun _ _ _ => True) b ∧ LoneBid b (n + 1) := by
  induction n with
  | zero =>
    exact ⟨bookS1, Reachable.add 0 1 0 .BUY 100 10 (Reachable.init 0) (Or.inl rfl) (by decide)
      (NoCollision_init 0 100) trivial run_scenarioS1, LoneBid_bookS1⟩
  | succ n ih =>
    obtain ⟨b, hR, hL⟩ := ih (by omega)
    obtain ⟨b2, hR2, hT⟩ := LoneBid_add hR hL
    exact TwoBids_cancel hn hR2 hT

/-- After the first NEW request on an empty book every busy slot of the order pool holds an
order with the ids of that request. -/
theorem first_order_ids {t cid coid tid qty : Nat} {side : ESide} {price : Int}
    {b2 : CMEOrderBook} (hs : side = .BUY ∨ side = .SELL)
    (h : (CMEOrderBook.init t).AddOrder cid coid tid side price qty = .ok b2) (q : Nat)
    (hq : b2.ofree q = false) :
    (b2.order q).clientId = cid ∧ (b2.order q).clientOrderId = coid := by
  obtain ⟨-, hpost⟩ := AddOrder_spec hs (Struct_init t side) (NoCollision_init t price)
    cid coid tid qty
  obtain ⟨b1, -, hcr, -, -, -, hcase⟩ := hpost b2 h
  have hD : SideList.dropOrders (crossDone side price qty (snapshots (CMEOrderBook.init t) []))
      [] = [] := rfl
  rw [hD] at hcr hcase
  have hb1 : b1 = (CMEOrderBook.init t).GenerateNewMarketOrderId.2.SendClientResponse
      ⟨.ACCEPTED, cid, tid, coid, (CMEOrderBook.init t).m_nextMarketOrderId, side, price, 0,
        qty⟩ := by
    cases hcr
    rfl
  have hfree1 : ∀ p, b1.ofree p = true := fun p => by rw [hb1]; rfl
  rcases hcase with ⟨-, e⟩ | ⟨-, o, prio, own2, -, -, -, -, -, -, -, hunl, -, -, hfrf, -⟩
  · rw [e, hfree1] at hq
    exact Bool.noConfusion hq
  · by_cases hqo : q = o
    · subst hqo
      constructor
      · have h1 : (b2.order q).unlink.clientId = cid := by rw [hunl]
        exact h1
      · have h1 : (b2.order q).unlink.clientOrderId = coid := by rw [hunl]
        exact h1
    · rw [hfrf q hqo, hfree1] at hq
      exact Bool.noConfusion hq

theorem NoReuse_init (t cid coid : Nat) : NoReuse (CMEOrderBook.init t) cid coid := by
  intro bids asks o hS hm _
  obtain ⟨s, p, hok⟩ := hS.order_ok hm
  exact Bool.noConfusion hok.busy

theorem NoReuse_bookS4a : NoReuse bookS4a 0 2 := by
  intro bids asks o hS hm _
  obtain ⟨s, p, hok⟩ := hS.order_ok hm
  have hrun : (CMEOrderBook.init 0).AddOrder 0 1 0 .BUY 100 5 = .ok bookS4a := rfl
  rw [(first_order_ids (Or.inl rfl) hrun o hok.busy).2]
  decide

/-- A history in which no NEW request reuses the ids of a resting order finds the slot of its
ids in the client-order index empty at every NEW request. -/
theorem Reachable.slot_empty {b : CMEOrderBook} (hR : Reachable NoReuse b) :
    Reachable (fun b cid coid => b.m_cidOidToOrder cid coid = none) b := by
  induction hR with
  | init t => exact Reachable.init t
  | @add b0 b2 cid coid tid side price qty _ hs hq hcol hadm hrun ih =>
    refine Reachable.add cid coid tid side price qty ih hs hq hcol ?_ hrun
    obtain ⟨bids, asks, hS, hc, -⟩ := Reachable.inv ih
    cases hslot : b0.m_cidOidToOrder cid coid with
    | none => rfl
    | some p =>
      obtain ⟨hm, h1, h2⟩ := hc cid coid p hslot
      exact absurd h2 (hadm bids asks p hS hm h1)
  | cancel cid oid tid _ hrun ih => exact Reachable.cancel cid oid tid ih hrun

end Exchange

namespace Exchange

open Common CMEOrderBook

/-- C7. Residual resting. When `CheckForMatch` leaves a quantity `rest` that is not 0, an
`AddOrder` call that returns on a well-formed book has put one new order with that quantity at
the tail of the level of its price on its own side, or alone in a new level when its side had
none at that price; its priority is one more, on 64 bits, than that of the last order of the
level, and 1 in a new level; and the call has sent one ADD update with the market order id,
side, price, quantity `rest` and that priority. When `rest` is 0 the book is the one the
matching left and no ADD update is sent. Scenario S3 ends with ADD (market order 2, SELL, 100,
quantity 5, priority 1). -/
theorem residual_rests {b : CMEOrderBook} {side : ESide} {own other : SideList} {price : Int}
    (hs : side = .BUY ∨ side = .SELL) (h : Struct b side own other) (hcol : NoCollision b price)
    (cid coid tid qty : Nat) :
    (cid < ME_MAX_NUM_CLIENTS → coid < ME_MAX_ORDER_IDS → Spare b.m_orderPool →
      Spare b.m_ordersAtPricePool →
      ∃ b2, b.AddOrder cid coid tid side price qty = .ok b2) ∧
    (∀ b2, b.AddOrder cid coid tid side price qty = .ok b2 →
      ∃ (b1 : CMEOrderBook) (rest : Nat) (other2 : SideList) (news : List Emitted),
        (b.GenerateNewMarketOrderId.2.SendClientResponse ⟨.ACCEPTED, cid, tid, coid,
          b.m_nextMarketOrderId, side, price, 0, qty⟩).CheckForMatch cid coid tid
          side price qty b.m_nextMarketOrderId = .ok (b1, rest) ∧
        Struct b1 side own other2 ∧
        b1.emitted = b.emitted ++ news ∧ (∀ u, Emitted.update u ∈ news → u.type ≠ .ADD) ∧
        (rest = 0 → b2 = b1) ∧
        (rest ≠ 0 → ∃ o prio own2,
          o ∉ SideList.orders (own ++ other2) ∧ b1.ofree o = true ∧
          Placed b1 side price o own own2 ∧ RestPriority b1 price own prio ∧
          Struct b2 side own2 other2 ∧
          (b2.order o).unlink = ⟨tid, cid, coid, b.m_nextMarketOrderId, side, price,
            rest, prio, none, none⟩ ∧
          b2.ofree o = false ∧
          (∀ q, q ≠ o → (b2.order q).unlink = (b1.order q).unlink) ∧
          b2.emitted = b1.emitted ++ [.update ⟨.ADD, b.m_nextMarketOrderId, tid, side,
            price, rest, prio⟩])) ∧
    emittedOf scenarioS3 = some
      [.response ⟨.ACCEPTED, 0, 0, 1, 1, .BUY, 100, 0, 10⟩,
        .update ⟨.ADD, 1, 0, .BUY, 100, 10, 1⟩,
        .response ⟨.ACCEPTED, 1, 0, 2, 2, .SELL, 100, 0, 15⟩,
        .response ⟨.FILLED, 1, 0, 2, 2, .SELL, 100, 10, 5⟩,
        .response ⟨.FILLED, 0, 0, 1, 1, .BUY, 100, 10, 0⟩,
        .update ⟨.TRADE, OrderId_INVALID, 0, .SELL, 100, 10, Priority_INVALID⟩,
        .update ⟨.CANCEL, 1, 0, .BUY, 100, 10, Priority_INVALID⟩,
        .update ⟨.ADD, 2, 0, .SELL, 100, 5, 1⟩] := by
  refine ⟨(AddOrder_spec hs h hcol cid coid tid qty).1, fun b2 hrun => ?_, by decide⟩
  obtain ⟨b1, hS1, -, hem, -, hcfm, hcase⟩ :=
    (AddOrder_spec hs h hcol cid coid tid qty).2 b2 hrun
  refine ⟨b1, _, _, _, hcfm, hS1, hem, fun u hu => ?_, fun h0 => ?_, fun hne => ?_⟩
  · rcases List.mem_cons.1 hu with he | hm
    · exact Emitted.noConfusion he
    · obtain ⟨f, -, hf⟩ := List.mem_flatMap.1 hm
      exact matchRecords_no_add _ _ _ _ _ _ _ u hf
  · rcases hcase with ⟨-, e⟩ | ⟨hL, -⟩
    · exact e
    · exact absurd h0 hL
  · rcases hcase with ⟨hL, -⟩ |
      ⟨-, o, prio, own2, -, -, ho, hfree, hrp, hpl, hS2, hu, hbusy, hfr, -, -, he2, -⟩
    · exact absurd hL hne
    · exact ⟨o, prio, own2, ho, hfree, hpl, hrp, hS2, hu, hbusy, hfr, he2⟩

theorem residual_rests_at_S3 :
    Struct bookS1 .SELL [] [(0, [0])] ∧ NoCollision bookS1 100 ∧
  ((1 < ME_MAX_NUM_CLIENTS → 2 < ME_MAX_ORDER_IDS → Spare bookS1.m_orderPool →
      Spare bookS1.m_ordersAtPricePool →
      ∃ b2, bookS1.AddOrder 1 2 0 ESide.SELL 100 15 = .ok b2) ∧
    (∀ b2, bookS1.AddOrder 1 2 0 ESide.SELL 100 15 = .ok b2 →
      ∃ (b1 : CMEOrderBook) (rest : Nat) (other2 : SideList) (news : List Emitted),
        (bookS1.GenerateNewMarketOrderId.2.SendClientResponse ⟨.ACCEPTED, 1, 0, 2,
          bookS1.m_nextMarketOrderId, ESide.SELL, 100, 0, 15⟩).CheckForMatch 1 2 0
          ESide.SELL 100 15 bookS1.m_nextMarketOrderId = .ok (b1, rest) ∧
        Struct b1 ESide.SELL ([] : SideList) other2 ∧
        b1.emitted = bookS1.emitted ++ news ∧ (∀ u, Emitted.update u ∈ news → u.type ≠ .ADD) ∧
        (rest = 0 → b2 = b1) ∧
        (rest ≠ 0 → ∃ o prio own2,
          o ∉ SideList.orders (([] : SideList) ++ other2) ∧ b1.ofree o = true ∧
          Placed b1 ESide.SELL 100 o ([] : SideList) own2 ∧ RestPriority b1 100 ([] : SideList) prio ∧
          Struct b2 ESide.SELL own2 other2 ∧
          (b2.order o).unlink = ⟨0, 1, 2, bookS1.m_nextMarketOrderId, ESide.SELL, 100,
            rest, prio, none, none⟩ ∧
          b2.ofree o = false ∧
          (∀ q, q ≠ o → (b2.order q).unlink = (b1.order q).unlink) ∧
          b2.emitted = b1.emitted ++ [.update ⟨.ADD, bookS1.m_nextMarketOrderId, 0, ESide.SELL,
            100, rest, prio⟩])) ∧
    emittedOf scenarioS3 = some
      [.response ⟨.ACCEPTED, 0, 0, 1, 1, .BUY, 100, 0, 10⟩,
        .update ⟨.ADD, 1, 0, .BUY, 100, 10, 1⟩,
        .response ⟨.ACCEPTED, 1, 0, 2, 2, .SELL, 100, 0, 15⟩,
        .response ⟨.FILLED, 1, 0, 2, 2, .SELL, 100, 10, 5⟩,
        .response ⟨.FILLED, 0, 0, 1, 1, .BUY, 100, 10, 0⟩,
        .update ⟨.TRADE, OrderId_INVALID, 0, .SELL, 100, 10, Priority_INVALID⟩,
        .update ⟨.CANCEL, 1, 0, .BUY, 100, 10, Priority_INVALID⟩,
        .update ⟨.ADD, 2, 0, .SELL, 100, 5, 1⟩]) :=
  ⟨Struct_bookS1.struct_swap (Or.inl rfl), NoCollision_bookS1,
    residual_rests (Or.inr rfl) (Struct_bookS1.struct_swap (Or.inl rfl)) NoCollision_bookS1 1 2 0 15⟩

/-- C3. One match. A match of an aggressor that has `L` left against the head order `o` of the
best opposite level, of quantity `q`, fills `min L q`; it returns and sends, in this sequence,
the FILLED response to the aggressor with the price of `o`, the fill and `L` minus the fill,
the FILLED response to the owner of `o` with the ids, side and price of `o`, the fill and `q`
minus the fill, the TRADE update with the side of the aggressor, the price of `o`, the fill and
no order id and no priority, and a CANCEL update for `o` when nothing is left of it, or else a
MODIFY update with the remaining quantity and the priority of `o`. -/
theorem match_records {b : CMEOrderBook} {side : ESide} {own B : SideList} {lp o : Nat}
    {os : List Nat} (hs : side = .BUY ∨ side = .SELL)
    (h : Struct b side own ((lp, o :: os) :: B)) (tid cid coid moid L : Nat) :
    ∃ b2, b.Match tid cid side coid moid o L =
        .ok (b2, L - min L (b.order o).qty) ∧
      b2.emitted = b.emitted ++
        [.response ⟨.FILLED, cid, tid, coid, moid, side, (b.order o).price,
            min L (b.order o).qty, L - min L (b.order o).qty⟩,
          .response ⟨.FILLED, (b.order o).clientId, tid, (b.order o).clientOrderId,
            (b.order o).marketOrderId, (b.order o).side, (b.order o).price,
            min L (b.order o).qty, (b.order o).qty - min L (b.order o).qty⟩,
          .update ⟨.TRADE, OrderId_INVALID, tid, side, (b.order o).price,
            min L (b.order o).qty, Priority_INVALID⟩,
          .update (if (b.order o).qty - min L (b.order o).qty = 0 then
            ⟨.CANCEL, (b.order o).marketOrderId, tid, (b.order o).side,
              (b.order o).price, (b.order o).qty, Priority_INVALID⟩
          else
            ⟨.MODIFY, (b.order o).marketOrderId, tid, (b.order o).side,
              (b.order o).price, (b.order o).qty - min L (b.order o).qty,
              (b.order o).priority⟩)] := by
  obtain ⟨b2, hm, hem, -⟩ := Match_spec hs h tid cid coid moid L
  have hlv : L - min L (b.order o).qty = L - (b.order o).qty := by
    rcases Nat.le_total L (b.order o).qty with hle | hle
    · rw [Nat.min_eq_left hle]
      omega
    · rw [Nat.min_eq_right hle]
  refine ⟨b2, by rw [hlv]; exact hm, ?_⟩
  rw [hem]
  rfl

theorem match_records_at_S2 :
    Struct bookS1 .SELL [] [(0, [0])] ∧
  (∃ b2, bookS1.Match 0 1 ESide.SELL 1 2 0 4 =
        .ok (b2, 4 - min 4 (bookS1.order 0).qty) ∧
      b2.emitted = bookS1.emitted ++
        [.response ⟨.FILLED, 1, 0, 1, 2, ESide.SELL, (bookS1.order 0).price,
            min 4 (bookS1.order 0).qty, 4 - min 4 (bookS1.order 0).qty⟩,
          .response ⟨.FILLED, (bookS1.order 0).clientId, 0, (bookS1.order 0).clientOrderId,
            (bookS1.order 0).marketOrderId, (bookS1.order 0).side, (bookS1.order 0).price,
            min 4 (bookS1.order 0).qty, (bookS1.order 0).qty - min 4 (bookS1.order 0).qty⟩,
          .update ⟨.TRADE, OrderId_INVALID, 0, ESide.SELL, (bookS1.order 0).price,
            min 4 (bookS1.order 0).qty, Priority_INVALID⟩,
          .update (if (bookS1.order 0).qty - min 4 (bookS1.order 0).qty = 0 then
            ⟨.CANCEL, (bookS1.order 0).marketOrderId, 0, (bookS1.order 0).side,
              (bookS1.order 0).price, (bookS1.order 0).qty, Priority_INVALID⟩
          else
            ⟨.MODIFY, (bookS1.order 0).marketOrderId, 0, (bookS1.order 0).side,
              (bookS1.order 0).price, (bookS1.order 0).qty - min 4 (bookS1.order 0).qty,
              (bookS1.order 0).priority⟩)]) :=
  ⟨Struct_bookS1.struct_swap (Or.inl rfl),
    match_records (Or.inr rfl) (Struct_bookS1.struct_swap (Or.inl rfl)) 0 1 1 2 4⟩

theorem SideOK.best_prev {b : CMEOrderBook} {s : ESide} {L : SideList} (h : SideOK b s L)
    {best : Nat} (hb : b.bestOf s = some best) :
    ∃ last, (b.level best).pPrevEntry = some last ∧ L.levels.getLast? = some last := by
  have hbest := h.best
  rw [hb] at hbest
  cases hl : L.levels with
  | nil =>
    rw [hl] at hbest
    exact Option.noConfusion hbest
  | cons a l =>
    rw [hl] at hbest
    simp only [List.head?_cons, Option.some.injEq] at hbest
    subst hbest
    have hc := h.cyc
    rw [hl] at hc
    obtain ⟨u, hu⟩ : ∃ u, (best :: l).getLast? = some u :=
      ⟨_, List.getLast?_eq_getLast _ (List.cons_ne_nil _ _)⟩
    exact ⟨u, (Cyc.last_head hc hu).2, hu⟩

theorem reach_bookS4 {Adm : CMEOrderBook → Nat → Nat → Prop}
    (h1 : Adm (CMEOrderBook.init 0) 0 1) (h2 : Adm bookS4a 0 2) : Reachable Adm bookS4 := by
  have r1 : Reachable Adm bookS4a :=
    Reachable.add 0 1 0 .BUY 100 5 (Reachable.init 0) (Or.inl rfl) (by decide)
      (NoCollision_init 0 100) h1 rfl
  have hcol : NoCollision bookS4a 100 := by
    intro lp hlp
    have e : bookS4a.m_priceOrdersAtPrice (PriceToIndex 100) = some 0 := by decide
    rw [e] at hlp
    cases hlp
    decide
  have r2 : Reachable Adm bookS4b :=
    Reachable.add 0 2 0 .BUY 100 3 r1 (Or.inl rfl) (by decide) hcol h2 rfl
  exact Reachable.cancel 0 1 0 r2 rfl

/-- C6. A CANCEL whose client id is inside the client-order index and whose order id is not,
here client 0 with order id `ME_MAX_ORDER_IDS` on the empty book: `CancelOrder` reads the row
of the client with `.at(order_id)` out of its range, so the call does not return and no
response is sent. The same request with the last order id inside the index is answered with
one CANCEL_REJECTED response. -/
theorem cancel_order_id_out_of_range :
    (CMEOrderBook.init 0).CancelOrder 0 ME_MAX_ORDER_IDS 0 = .error .outOfRange ∧
    emittedOf ((CMEOrderBook.init 0).CancelOrder 0 (ME_MAX_ORDER_IDS - 1) 0) = some
      [.response ⟨.CANCEL_REJECTED, 0, 0, ME_MAX_ORDER_IDS - 1, OrderId_INVALID, .INVALID,
        Price_INVALID, Qty_INVALID, Qty_INVALID⟩] :=
  ⟨rfl, by decide⟩

/-- C8. Structural invariant. Every book reached from the empty book by `AddOrder` calls (side
BUY or SELL, positive quantity, a price that collides with no live level) and `CancelOrder`
calls has a listing of its bids and one of its asks, best level first, for which `Struct`
holds: the orders of every level are a closed circular doubly-linked list that starts at
`pFirstMeOrder`, they carry the side and the price of their level, the levels of a side are a
closed circular doubly-linked list that starts at the best pointer, and their prices get
strictly less aggressive along it. Every resting quantity is positive, and `pPrevEntry` of the
best level is the last, least aggressive level. -/
theorem structural_invariant {b : CMEOrderBook} (hR : Reachable (fun _ _ _ => True) b) :
    ∃ bids asks, Struct b .BUY bids asks ∧ QtyPos b (bids ++ asks).orders ∧
      (∀ best, b.m_pBidsByPrice = some best →
        ∃ last, (b.level best).pPrevEntry = some last ∧ bids.levels.getLast? = some last) ∧
      (∀ best, b.m_pAsksByPrice = some best →
        ∃ last, (b.level best).pPrevEntry = some last ∧ asks.levels.getLast? = some last) := by
  obtain ⟨bids, asks, hS, -, hq, -⟩ := Reachable.inv hR
  exact ⟨bids, asks, hS, hq, fun best hb => hS.ownOK.best_prev hb,
    fun best hb => hS.otherOK.best_prev hb⟩

theorem structural_invariant_at_S4 :
    Reachable (fun _ _ _ => True) bookS4 ∧
    ∃ bids asks, Struct bookS4 .BUY bids asks ∧ QtyPos bookS4 (bids ++ asks).orders ∧
      (∀ best, bookS4.m_pBidsByPrice = some best →
        ∃ last, (bookS4.level best).pPrevEntry = some last ∧
          bids.levels.getLast? = some last) ∧
      (∀ best, bookS4.m_pAsksByPrice = some best →
        ∃ last, (bookS4.level best).pPrevEntry = some last ∧
          asks.levels.getLast? = some last) :=
  ⟨reach_bookS4 trivial trivial, structural_invariant (reach_bookS4 trivial trivial)⟩

/-- C9. Index invariant. In every book reached from the empty book by `CancelOrder` calls and
`AddOrder` calls (side BUY or SELL, positive quantity, a price that collides with no live level)
that reuse the client id and client order id of no order that is still resting: a slot of the
price index refers to a level exactly when that level is live and its price has that slot, so
the slot of a price that collides with no live level is non-null exactly when a level of that
price is live; and a slot of the client-order index refers to an order exactly when that order
rests and has the ids of the slot. -/
theorem index_invariant {b : CMEOrderBook}
    (hR : Reachable NoReuse b) :
    ∃ bids asks, Struct b .BUY bids asks ∧
      (∀ k lp, b.m_priceOrdersAtPrice k = some lp ↔
        lp ∈ (bids ++ asks).levels ∧ PriceToIndex (b.level lp).price = k) ∧
      (∀ price, NoCollision b price →
        ((∃ lp, b.m_priceOrdersAtPrice (PriceToIndex price) = some lp) ↔
          ∃ lp ∈ (bids ++ asks).levels, (b.level lp).price = price)) ∧
      (∀ c d o, b.m_cidOidToOrder c d = some o ↔
        o ∈ (bids ++ asks).orders ∧ (b.order o).clientId = c ∧
          (b.order o).clientOrderId = d) := by
  obtain ⟨bids, asks, hS, hc, -, hf, -⟩ := Reachable.inv (Reachable.slot_empty hR)
  have hfull := hf (fun _ _ _ h => h)
  refine ⟨bids, asks, hS, fun k lp => ⟨fun hk => hS.idx k lp hk, fun hk => ?_⟩,
    fun price hcol => ⟨fun hlp => ?_, fun hlp => ?_⟩,
    fun c d o => ⟨fun hcd => hc c d o hcd, fun hcd => ?_⟩⟩
  · rw [← hk.2]
    exact hS.idx_of_mem hk.1
  · obtain ⟨lp, hlp⟩ := hlp
    exact ⟨lp, (hS.idx _ lp hlp).1, hcol lp hlp⟩
  · obtain ⟨lp, hm, hp⟩ := hlp
    exact ⟨lp, hp ▸ hS.idx_of_mem hm⟩
  · have := hfull o hcd.1
    rw [hcd.2.1, hcd.2.2] at this
    exact this

theorem index_invariant_at_S4 :
    Reachable NoReuse bookS4 ∧
    ∃ bids asks, Struct bookS4 .BUY bids asks ∧
      (∀ k lp, bookS4.m_priceOrdersAtPrice k = some lp ↔
        lp ∈ (bids ++ asks).levels ∧ PriceToIndex (bookS4.level lp).price = k) ∧
      (∀ price, NoCollision bookS4 price →
        ((∃ lp, bookS4.m_priceOrdersAtPrice (PriceToIndex price) = some lp) ↔
          ∃ lp ∈ (bids ++ asks).levels, (bookS4.level lp).price = price)) ∧
      (∀ c d o, bookS4.m_cidOidToOrder c d = some o ↔
        o ∈ (bids ++ asks).orders ∧ (bookS4.order o).clientId = c ∧
          (bookS4.order o).clientOrderId = d) :=
  ⟨reach_bookS4 (NoReuse_init 0 0 1) NoReuse_bookS4a,
    index_invariant (reach_bookS4 (NoReuse_init 0 0 1) NoReuse_bookS4a)⟩

/-- C10, amended. Priority invariant. In every book reached from the empty book by
`CancelOrder` calls and `AddOrder` calls (side BUY or SELL, positive quantity, a price that
collides with no live level) made while the 64-bit counter of market order ids has not reached
its last value, the priorities strictly increase along the queue of every level, from
`pFirstMeOrder` to its `pPrevOrder`. -/
theorem priority_invariant {b : CMEOrderBook}
    (hR : Reachable (fun b _ _ => b.m_nextMarketOrderId + 1 < 2 ^ 64) b) :
    ∃ bids asks, Struct b .BUY bids asks ∧ PrioInc b bids ∧ PrioInc b asks := by
  obtain ⟨bids, asks, hS, -, -, -, hp⟩ := Reachable.inv hR
  obtain ⟨p1, p2, -, -⟩ := hp (fun _ _ _ h => h)
  exact ⟨bids, asks, hS, p1, p2⟩

theorem priority_invariant_at_S4 :
    Reachable (fun b _ _ => b.m_nextMarketOrderId + 1 < 2 ^ 64) bookS4 ∧
    ∃ bids asks, Struct bookS4 .BUY bids asks ∧ PrioInc bookS4 bids ∧ PrioInc bookS4 asks :=
  ⟨reach_bookS4 (by decide) (by decide),
    priority_invariant (reach_bookS4 (by decide) (by decide))⟩

/-- C10 as it is written fails at the wrap of the 64-bit priority: after `2 ^ 64 - 1` NEW
requests for one level, kept alive by cancelling the older order each time, the next order
rests with priority 0 behind an order of priority `2 ^ 64 - 1`, so that book, which NEW and
CANCEL requests reach from the empty book, has no listing with strictly increasing
priorities. -/
theorem priority_wraps :
    ¬ ∀ b, Reachable (fun _ _ _ => True) b →
      ∃ bids asks, Struct b .BUY bids asks ∧ PrioInc b bids ∧ PrioInc b asks := by
  intro hall
  obtain ⟨b, hR, hL⟩ := LoneBid_reached (2 ^ 64 - 2) (by norm_num)
  obtain ⟨b2, hR2, lp, o, o2, hS, -, hp1, hp2, -⟩ := LoneBid_add hR hL
  obtain ⟨bids, asks, hS2, hinc, -⟩ := hall b2 hR2
  have hne : o ≠ o2 := by
    have := hS.onodup
    simp [SideList.orders] at this
    exact this
  have hbest : b2.bestOf .BUY = some lp := hS.ownOK.best
  have hlvl := hS.ownOK.lvl (lp, [o, o2]) (List.mem_singleton.2 rfl)
  have hnext : b2.oNext o = some o2 := (Cyc.head_next hlvl.cyc).1
  cases bids with
  | nil =>
    have := hS2.ownOK.best
    rw [hbest] at this
    simp [SideList.levels] at this
  | cons x rest =>
    have hx1 : x.1 = lp := by
      have := hS2.ownOK.best
      rw [hbest] at this
      simp [SideList.levels] at this
      exact this.symm
    have hl := hS2.ownOK.lvl x (List.mem_cons_self _ _)
    rw [hx1] at hl
    have hfirst : x.2.head? = some o := by
      rw [← hl.first, hlvl.first]
      rfl
    have hpw := hinc x (List.mem_cons_self _ _)
    cases hos : x.2 with
    | nil =>
      rw [hos] at hfirst
      simp at hfirst
    | cons a os =>
      rw [hos] at hfirst hpw
      simp only [List.head?_cons, Option.some.injEq] at hfirst
      subst hfirst
      have hc := hl.cyc
      rw [hos] at hc
      cases os with
      | nil =>
        have h1 : b2.oNext a = some a := by
          simp only [Cyc, List.nil_append, List.chain_cons] at hc
          exact hc.1.1
        rw [hnext] at h1
        exact hne (Option.some.inj h1).symm
      | cons c os =>
        have h1 : b2.oNext a = some c := (Cyc.head_next hc).1
        rw [hnext] at h1
        have hc2 : o2 = c := Option.some.inj h1
        subst hc2
        simp only [List.map_cons, List.pairwise_cons] at hpw
        have hlt := hpw.1 (b2.order o2).priority (List.mem_cons_self _ _)
        rw [hp1, hp2] at hlt
        norm_num at hlt

end Exchange

namespace Exchange

open Common CMEOrderBook

/-- On a well-formed book whose best opposite order stops the aggressor, `CheckForMatch`
returns at once with the book as it is and the whole quantity left. -/
theorem CheckForMatch_stop {b : CMEOrderBook} {side : ESide} {own other : SideList}
    {price : Int} (hs : side = .BUY ∨ side = .SELL) (h : Struct b side own other)
    (hnc : ∀ q, other.orders.head? = some q → limitStops side price (b.order q).price = true)
    (cid coid tid qty moid : Nat) :
    b.CheckForMatch cid coid tid side price qty moid = .ok (b, qty) := by
  unfold CheckForMatch
  rw [if_pos hs]
  cases other with
  | nil =>
    have hb : b.oppositeBest side = none := by
      rw [oppositeBest_eq b hs, h.otherOK.best]
      rfl
    simp [CheckForMatchLoop, hb, pure, Except.pure]
  | cons x B =>
    obtain ⟨o, os, hx, hbest, hfirst⟩ := h.other_head
    have hb : b.oppositeBest side = some x.1 := by rw [oppositeBest_eq b hs, hbest]
    have hhead : (SideList.orders (x :: B)).head? = some o := by
      simp [SideList.orders, hx]
    have hstop := hnc o hhead
    by_cases hq : qty = 0
    · subst hq
      exact CheckForMatchLoop_zero _ _ _ _ _ _ _ _
    · simp [CheckForMatchLoop, hb, hq, deref, hfirst, hstop, bind, Except.bind, pure,
        Except.pure]

theorem split_unique {o : Nat} : ∀ {A A2 B B2 : SideList} {lp lp2 : Nat} {X X2 : List Nat},
    (SideList.orders (A ++ (lp, X) :: B)).Nodup → A ++ (lp, X) :: B = A2 ++ (lp2, X2) :: B2 →
    o ∈ X → o ∈ X2 → A = A2 ∧ lp = lp2 ∧ X = X2 ∧ B = B2
  | [], [], B, B2, lp, lp2, X, X2, _, e, _, _ => by
    simp only [List.nil_append, List.cons.injEq, Prod.mk.injEq] at e
    exact ⟨rfl, e.1.1, e.1.2, e.2⟩
  | [], a :: A2, B, B2, lp, lp2, X, X2, hnd, e, ho, ho2 => by
    simp only [List.nil_append, List.cons_append, List.cons.injEq] at e
    obtain ⟨-, rfl⟩ := e
    simp only [List.nil_append, SideList.orders, List.flatMap_cons, List.flatMap_append] at hnd
    exact absurd ho2 (fun hm => (List.nodup_append.1 hnd).2.2 ho
      (List.mem_append_right _ (List.mem_append_left _ hm)))
  | a :: A, [], B, B2, lp, lp2, X, X2, hnd, e, ho, ho2 => by
    simp only [List.nil_append, List.cons_append, List.cons.injEq] at e
    obtain ⟨rfl, -⟩ := e
    simp only [List.cons_append, SideList.orders, List.flatMap_cons, List.flatMap_append] at hnd
    exact absurd ho (fun hm => (List.nodup_append.1 hnd).2.2 ho2
      (List.mem_append_right _ (List.mem_append_left _ hm)))
  | a :: A, a2 :: A2, B, B2, lp, lp2, X, X2, hnd, e, ho, ho2 => by
    simp only [List.cons_append, List.cons.injEq] at e
    obtain ⟨rfl, e⟩ := e
    have hnd2 : (SideList.orders (A ++ (lp, X) :: B)).Nodup := by
      simp only [List.cons_append, SideList.orders, List.flatMap_cons] at hnd
      exact (List.nodup_append.1 hnd).2.1
    obtain ⟨rfl, h2⟩ := split_unique hnd2 e ho ho2
    exact ⟨rfl, h2⟩

theorem snoc_split {o : Nat} : ∀ {os1 os2 os : List Nat}, os1 ++ o :: os2 = os ++ [o] →
    o ∉ os → os1 = os ∧ os2 = []
  | [], os2, [], e, _ => by
    simp only [List.nil_append, List.cons.injEq, true_and] at e
    exact ⟨rfl, e⟩
  | [], os2, c :: os, e, hn => by
    simp only [List.nil_append, List.cons_append, List.cons.injEq] at e
    exact absurd (e.1 ▸ List.mem_cons_self _ _) hn
  | a :: os1, os2, [], e, _ => by
    simp at e
  | a :: os1, os2, c :: os, e, hn => by
    simp only [List.cons_append, List.cons.injEq] at e
    obtain ⟨rfl, e⟩ := e
    obtain ⟨rfl, h2⟩ := snoc_split e (fun hm => hn (List.mem_cons_of_mem _ hm))
    exact ⟨rfl, h2⟩

/-- Erasing from a listing the order that was just placed in it gives the listing back. -/
theorem placed_erased {b b1 : CMEOrderBook} {s : ESide} {price : Int} {o : Nat}
    {own own2 own3 other : SideList} (h : Struct b s own other)
    (hpl : Placed b1 s price o own own2) (hnd : own2.orders.Nodup) (hE : Erased o own2 own3) :
    own3 = own := by
  obtain ⟨A, lp, os1, os2, B, e2, rfl⟩ := hE
  rcases hpl with ⟨A2, lp2, os, B2, rfl, -, rfl⟩ | ⟨A2, B2, pNew, rfl, -, -, -, rfl⟩
  · rw [e2] at hnd
    obtain ⟨rfl, rfl, hX, rfl⟩ := split_unique (o := o) hnd e2.symm (by simp) (by simp)
    have hno : o ∉ os := by
      rw [← e2] at hnd
      simp only [SideList.orders, List.flatMap_append, List.flatMap_cons] at hnd
      have := (List.nodup_append.1 (List.nodup_append.1 hnd).2.1).1
      intro hm
      exact (List.nodup_append.1 this).2.2 hm (List.mem_singleton.2 rfl)
    obtain ⟨rfl, rfl⟩ := snoc_split hX hno
    have hne : os1 ≠ [] :=
      (h.ownOK.lvl (lp, os1) (List.mem_append_right _ (List.mem_cons_self _ _))).ne
    simp [hne]
  · rw [e2] at hnd
    obtain ⟨rfl, rfl, hX, rfl⟩ := split_unique (o := o) hnd e2.symm (by simp) (by simp)
    have : os1 = [] ∧ os2 = [] := @snoc_split o os1 os2 [] hX (List.not_mem_nil _)
    obtain ⟨rfl, rfl⟩ := this
    simp

/-- The links of a listed order are those its queue prescribes: two well-formed books with the
same listings give every listed order the same links. -/
theorem Struct.links_eq {b b2 : CMEOrderBook} {s : ESide} {own other : SideList}
    (h : Struct b s own other) (h2 : Struct b2 s own other) {q : Nat}
    (hq : q ∈ (own ++ other).orders) :
    (b2.order q).pNextOrder = (b.order q).pNextOrder ∧
      (b2.order q).pPrevOrder = (b.order q).pPrevOrder := by
  have key : ∀ (t : ESide) (L : SideList), SideOK b t L → SideOK b2 t L → q ∈ L.orders →
      (b2.order q).pNextOrder = (b.order q).pNextOrder ∧
        (b2.order q).pPrevOrder = (b.order q).pPrevOrder := by
    intro t L hL hL2 hm
    obtain ⟨x, hx, hqx⟩ := List.mem_flatMap.1 hm
    obtain ⟨P, R, hPR⟩ := List.append_of_mem hqx
    have c1 := (hL.lvl x hx).cyc
    have c2 := (hL2.lvl x hx).cyc
    rw [hPR] at c1 c2
    obtain ⟨n, hn⟩ : ∃ n, (R ++ P ++ [q]).head? = some n := by
      cases hRP : R ++ P with
      | nil => exact ⟨q, by simp⟩
      | cons w M => exact ⟨w, by simp⟩
    obtain ⟨p, hp⟩ : ∃ p, (q :: (R ++ P)).getLast? = some p :=
      ⟨_, List.getLast?_eq_getLast _ (List.cons_ne_nil _ _)⟩
    have n1 : b.oNext q = some n := Cyc.next_of_split c1 hn
    have n2 : b2.oNext q = some n := Cyc.next_of_split c2 hn
    have p1 : b.oPrev q = some p := Cyc.prev_of_split c1 hp
    have p2 : b2.oPrev q = some p := Cyc.prev_of_split c2 hp
    exact ⟨n2.trans n1.symm, p2.trans p1.symm⟩
  rw [SideList.orders_append] at hq
  rcases List.mem_append.1 hq with hm | hm
  · exact key s own h.ownOK h2.ownOK hm
  · exact key (opp s) other h.otherOK h2.otherOK hm

end Exchange

namespace Exchange

open Common CMEOrderBook

/-- The fields of a listed level are those its listing and its orders prescribe: two
well-formed books with the same listings and the same order prices have the same listed
levels. -/
theorem Struct.level_eq {b b2 : CMEOrderBook} {s : ESide} {own other : SideList}
    (h : Struct b s own other) (h2 : Struct b2 s own other)
    (hO : ∀ q ∈ (own ++ other).orders, (b2.order q).price = (b.order q).price) {lp : Nat}
    (hlp : lp ∈ (own ++ other).levels) : b2.level lp = b.level lp := by
  have key : ∀ (t : ESide) (L : SideList), SideOK b t L → SideOK b2 t L →
      (∀ q ∈ L.orders, (b2.order q).price = (b.order q).price) → lp ∈ L.levels →
      b2.level lp = b.level lp := by
    intro t L hL hL2 hP hm
    obtain ⟨x, hx, rfl⟩ := List.mem_map.1 hm
    have l1 := hL.lvl x hx
    have l2 := hL2.lvl x hx
    obtain ⟨q, hqx⟩ : ∃ q, q ∈ x.2 := List.exists_mem_of_ne_nil _ l1.ne
    have hpr : (b2.level x.1).price = (b.level x.1).price := by
      rw [← (l2.ord q hqx).price, ← (l1.ord q hqx).price]
      exact hP q (SideList.mem_orders hx hqx)
    obtain ⟨P, R, hPR⟩ := List.append_of_mem hm
    have c1 := hL.cyc
    have c2 := hL2.cyc
    rw [hPR] at c1 c2
    obtain ⟨n, hn⟩ : ∃ n, (R ++ P ++ [x.1]).head? = some n := by
      cases hRP : R ++ P with
      | nil => exact ⟨x.1, by simp⟩
      | cons w M => exact ⟨w, by simp⟩
    obtain ⟨p, hp⟩ : ∃ p, (x.1 :: (R ++ P)).getLast? = some p :=
      ⟨_, List.getLast?_eq_getLast _ (List.cons_ne_nil _ _)⟩
    have n1 : b.lNext x.1 = some n := Cyc.next_of_split c1 hn
    have n2 : b2.lNext x.1 = some n := Cyc.next_of_split c2 hn
    have p1 : b.lPrev x.1 = some p := Cyc.prev_of_split c1 hp
    have p2 : b2.lPrev x.1 = some p := Cyc.prev_of_split c2 hp
    refine SMEOrdersAtPrice.level_ext_links ?_ (n2.trans n1.symm) (p2.trans p1.symm)
    have hs1 := l1.side
    have hs2 := l2.side
    have hf1 := l1.first
    have hf2 := l2.first
    cases hx1 : b.level x.1
    cases hx2 : b2.level x.1
    rw [hx1] at hs1 hf1 hpr
    rw [hx2] at hs2 hf2 hpr
    simp only at hs1 hs2 hf1 hf2 hpr
    simp only [SMEOrdersAtPrice.unlink, SMEOrdersAtPrice.mk.injEq, and_true]
    exact ⟨hs2.trans hs1.symm, hpr, hf2.trans hf1.symm⟩
  rw [SideList.levels_append] at hlp
  rcases List.mem_append.1 hlp with hm | hm
  · exact key s own h.ownOK h2.ownOK
      (fun q hq => hO q (SideList.orders_append _ _ ▸ List.mem_append_left _ hq)) hm
  · exact key (opp s) other h.otherOK h2.otherOK
      (fun q hq => hO q (SideList.orders_append _ _ ▸ List.mem_append_right _ hq)) hm

/-- Two well-formed books with the same listings and the same listed levels have the same
price index. -/
theorem Struct.index_eq {b b2 : CMEOrderBook} {s : ESide} {own other : SideList}
    (h : Struct b s own other) (h2 : Struct b2 s own other)
    (hL : ∀ lp ∈ (own ++ other).levels, b2.level lp = b.level lp) :
    b2.m_priceOrdersAtPrice = b.m_priceOrdersAtPrice := by
  funext k
  cases hb : b.m_priceOrdersAtPrice k with
  | none =>
    cases hb2 : b2.m_priceOrdersAtPrice k with
    | none => rfl
    | some lp =>
      obtain ⟨hm, hk⟩ := h2.idx k lp hb2
      have := h.idx_of_mem hm
      rw [← hL lp hm, hk, hb] at this
      exact Option.noConfusion this
  | some lp =>
    obtain ⟨hm, hk⟩ := h.idx k lp hb
    have := h2.idx_of_mem hm
    rw [hL lp hm, hk] at this
    exact this

theorem crossDone_stop {b : CMEOrderBook} {side : ESide} {other : SideList} {price : Int}
    (hnc : ∀ q, other.orders.head? = some q → limitStops side price (b.order q).price = true)
    (qty : Nat) : crossDone side price qty (snapshots b other) = 0 := by
  unfold snapshots
  cases hO : other.orders with
  | nil => rfl
  | cons q r =>
    have := hnc q (by rw [hO]; rfl)
    simp [crossDone, SMEOrder.unlink, this]

end Exchange

namespace Exchange

open Common CMEOrderBook

theorem CidOk_bookS1 : CidOk bookS1 (SideList.orders (([(0, [0])] : SideList) ++ [])) := by
  have e : bookS1.m_cidOidToOrder =
      Function.update (fun _ _ => none) 0 (Function.update (fun _ => none) 1 (some 0)) := rfl
  intro c d p hp
  rw [e, update2_apply] at hp
  split at hp
  · rename_i hcd
    obtain ⟨rfl, rfl⟩ := hcd
    cases hp
    exact ⟨by decide, rfl, rfl⟩
  · exact Option.noConfusion hp

/-- C12. Cancel rejection. In every book state a CANCEL whose client id is outside the
client-order index, or whose ids are inside it and map to no order, returns with the book as
it was and one more record sent: a CANCEL_REJECTED response, and no market update. Scenario
S5, `CANCEL(cid=0, coid=999)` on the empty book, sends that one response. -/
theorem cancel_rejected (b : CMEOrderBook) (cid oid tid : Nat)
    (h : ME_MAX_NUM_CLIENTS ≤ cid ∨
      (cid < ME_MAX_NUM_CLIENTS ∧ oid < ME_MAX_ORDER_IDS ∧ b.m_cidOidToOrder cid oid = none)) :
    b.CancelOrder cid oid tid =
        .ok { b with emitted := b.emitted ++ [.response ⟨.CANCEL_REJECTED, cid, tid, oid,
          OrderId_INVALID, .INVALID, Price_INVALID, Qty_INVALID, Qty_INVALID⟩] } ∧
      emittedOf ((CMEOrderBook.init 0).CancelOrder 0 999 0) =
        some [.response ⟨.CANCEL_REJECTED, 0, 0, 999, OrderId_INVALID, .INVALID, Price_INVALID,
          Qty_INVALID, Qty_INVALID⟩] := by
  refine ⟨?_, by decide⟩
  rcases h with h | ⟨h1, h2, h3⟩
  · have hn : ¬ cid < ME_MAX_NUM_CLIENTS := Nat.not_lt.2 h
    simp [CancelOrder, hn, bind, Except.bind, pure, Except.pure, SendClientResponse]
  · simp [CancelOrder, h1, h2, h3, arrayAt, bind, Except.bind, pure, Except.pure,
      SendClientResponse]

theorem cancel_rejected_at_S5 :
    (ME_MAX_NUM_CLIENTS ≤ 0 ∨ (0 < ME_MAX_NUM_CLIENTS ∧ 999 < ME_MAX_ORDER_IDS ∧
      (CMEOrderBook.init 0).m_cidOidToOrder 0 999 = none)) ∧
    ((CMEOrderBook.init 0).CancelOrder 0 999 0 =
        .ok { CMEOrderBook.init 0 with emitted := (CMEOrderBook.init 0).emitted ++
          [.response ⟨.CANCEL_REJECTED, 0, 0, 999, OrderId_INVALID, .INVALID, Price_INVALID,
            Qty_INVALID, Qty_INVALID⟩] } ∧
      emittedOf ((CMEOrderBook.init 0).CancelOrder 0 999 0) =
        some [.response ⟨.CANCEL_REJECTED, 0, 0, 999, OrderId_INVALID, .INVALID, Price_INVALID,
          Qty_INVALID, Qty_INVALID⟩]) :=
  ⟨Or.inr ⟨by decide, by decide, rfl⟩,
    cancel_rejected (CMEOrderBook.init 0) 0 999 0 (Or.inr ⟨by decide, by decide, rfl⟩)⟩

/-- C13. A CANCEL whose client id is inside the client-order index and whose order id is not:
`CancelOrder` reads `co_itr.at(order_id)` out of range, in every book state, so the call does
not return and sends nothing. -/
theorem cancel_fatal (b : CMEOrderBook) {cid oid : Nat} (tid : Nat)
    (hc : cid < ME_MAX_NUM_CLIENTS) (ho : ME_MAX_ORDER_IDS ≤ oid) :
    b.CancelOrder cid oid tid = .error .outOfRange := by
  have hn : ¬ oid < ME_MAX_ORDER_IDS := Nat.not_lt.2 ho
  simp [CancelOrder, hc, hn, arrayAt, bind, Except.bind]

theorem cancel_fatal_at_S1 :
    0 < ME_MAX_NUM_CLIENTS ∧ ME_MAX_ORDER_IDS ≤ 2 ^ 40 ∧
      bookS1.CancelOrder 0 (2 ^ 40) 0 = .error .outOfRange :=
  ⟨by decide, by decide, cancel_fatal bookS1 0 (by decide) (by decide)⟩

end Exchange

namespace Exchange

open Common CMEOrderBook

end Exchange

namespace Exchange

open Common CMEOrderBook

theorem NoCollision_bookS1_above : NoCollision bookS1 101 := by
  intro lp hlp
  have e : bookS1.m_priceOrdersAtPrice (PriceToIndex 101) = none := by decide
  rw [e] at hlp
  exact Option.noConfusion hlp

end Exchange

namespace Trading

open Common Exchange

namespace CMarketDataConsumer

theorem IsMap_tail {e : Nat × SMEMarketUpdate} {q : QueuedMarketUpdates} (h : IsMap (e :: q)) :
    IsMap q :=
  ⟨(List.pairwise_cons.1 h.1).2, fun x hx => h.2 x (List.mem_cons_of_mem _ hx)⟩

theorem IsMap_nil : IsMap [] := ⟨List.Pairwise.nil, fun _ h => absurd h (List.not_mem_nil _)⟩

theorem mem_mapAssign {q : QueuedMarketUpdates} {key : Nat} {value : SMEMarketUpdate}
    {x : Nat × SMEMarketUpdate} (hx : x ∈ mapAssign q key value) :
    x = (key, value) ∨ x ∈ q := by
  induction q with
  | nil =>
    simp only [mapAssign, List.mem_singleton] at hx
    exact Or.inl hx
  | cons e q ih =>
    simp only [mapAssign] at hx
    split at hx
    · rcases List.mem_cons.1 hx with h | h
      · exact Or.inl h
      · exact Or.inr h
    · split at hx
      · rcases List.mem_cons.1 hx with h | h
        · exact Or.inl h
        · exact Or.inr (List.mem_cons_of_mem _ h)
      · rcases List.mem_cons.1 hx with h | h
        · exact Or.inr (h ▸ List.mem_cons_self _ _)
        · rcases ih h with h2 | h2
          · exact Or.inl h2
          · exact Or.inr (List.mem_cons_of_mem _ h2)

/-- Assignment keeps the container a map. -/
theorem IsMap_mapAssign {q : QueuedMarketUpdates} (h : IsMap q) {key : Nat} (hk : key < 2 ^ 64)
    (value : SMEMarketUpdate) : IsMap (mapAssign q key value) := by
  induction q with
  | nil =>
    exact ⟨List.pairwise_singleton _ _, fun x hx => by
      simp only [mapAssign, List.mem_singleton] at hx
      rw [hx]
      exact hk⟩
  | cons e q ih =>
    have ht := IsMap_tail h
    have hp := List.pairwise_cons.1 h.1
    simp only [mapAssign]
    split
    · rename_i hlt
      refine ⟨List.pairwise_cons.2 ⟨fun x hx => ?_, h.1⟩, fun x hx => ?_⟩
      · rcases List.mem_cons.1 hx with rfl | hx
        · exact hlt
        · exact lt_trans hlt (hp.1 x hx)
      · rcases List.mem_cons.1 hx with rfl | hx
        · exact hk
        · exact h.2 x hx
    · split
      · rename_i _ heq
        refine ⟨List.pairwise_cons.2 ⟨fun x hx => ?_, hp.2⟩, fun x hx => ?_⟩
        · rw [heq]
          exact hp.1 x hx
        · rcases List.mem_cons.1 hx with rfl | hx
          · exact hk
          · exact h.2 x (List.mem_cons_of_mem _ hx)
      · rename_i h1 h2
        have hgt : e.1 < key := by omega
        refine ⟨List.pairwise_cons.2 ⟨fun x hx => ?_, (ih ht).1⟩, fun x hx => ?_⟩
        · rcases mem_mapAssign hx with rfl | hx
          · exact hgt
          · exact hp.1 x hx
        · rcases List.mem_cons.1 hx with rfl | hx
          · exact h.2 _ (List.mem_cons_self _ _)
          · exact (ih ht).2 x hx

/-- The snapshot loop on keys that count up from `n` without a gap: it runs through and
collects the events. -/
theorem snapshotLoop_contiguous : ∀ (q : QueuedMarketUpdates) (n : Nat) (ev : List SMEMarketUpdate),
    q.map Prod.fst = List.range' n q.length → n + q.length ≤ 2 ^ 64 →
    snapshotLoop q n ev = (true, ev ++ events q)
  | [], n, ev, _, _ => by simp [snapshotLoop, events]
  | e :: q, n, ev, hk, hb => by
    simp only [List.map_cons, List.length_cons, List.range'_succ, List.cons.injEq] at hk
    have hlen : n + 1 + q.length ≤ 2 ^ 64 := by
      simp only [List.length_cons] at hb
      omega
    have hmod : (n + 1) % 2 ^ 64 = n + 1 ∨ q = [] := by
      by_cases hq : q = []
      · exact Or.inr hq
      · left
        have : 0 < q.length := List.length_pos.2 hq
        exact Nat.mod_eq_of_lt (by omega)
    rw [snapshotLoop, if_neg (not_not.2 hk.1)]
    rcases hmod with hmod | hq
    · rw [hmod, snapshotLoop_contiguous q (n + 1) _ hk.2 hlen]
      by_cases he : isEvent e.2
      · simp [events, he, List.filter_cons]
      · simp [events, he, List.filter_cons]
    · subst hq
      by_cases he : isEvent e.2
      · simp [snapshotLoop, events, he, List.filter_cons]
      · simp [snapshotLoop, events, he, List.filter_cons]

/-- When the snapshot loop runs through a map, its keys count up from `n` without a gap. -/
theorem snapshotLoop_true : ∀ (q : QueuedMarketUpdates) (n : Nat) (ev : List SMEMarketUpdate),
    q.Pairwise (fun a b => a.1 < b.1) → (∀ e ∈ q, e.1 < 2 ^ 64) →
    (snapshotLoop q n ev).1 = true → q.map Prod.fst = List.range' n q.length
  | [], _, _, _, _, _ => rfl
  | e :: q, n, ev, hs, hb, h => by
    rw [snapshotLoop] at h
    split at h
    · exact absurd h (by simp)
    · rename_i hk
      have hk : e.1 = n := not_not.1 hk
      have ih := snapshotLoop_true q _ _ (List.pairwise_cons.1 hs).2
        (fun x hx => hb x (List.mem_cons_of_mem _ hx)) h
      simp only [List.map_cons, List.length_cons, List.range'_succ, List.cons.injEq]
      refine ⟨hk, ?_⟩
      cases q with
      | nil => rfl
      | cons e2 q =>
        have h2 : e2.1 = (n + 1) % 2 ^ 64 := by
          simp only [List.map_cons, List.length_cons, List.range'_succ, List.cons.injEq] at ih
          exact ih.1
        have hlt : e.1 < e2.1 := (List.pairwise_cons.1 hs).1 e2 (List.mem_cons_self _ _)
        have hn : n + 1 < 2 ^ 64 := by
          by_contra hcon
          have h64 : e2.1 < 2 ^ 64 := hb e2 (List.mem_cons_of_mem _ (List.mem_cons_self _ _))
          have hbn : n < 2 ^ 64 := hk ▸ hb e (List.mem_cons_self _ _)
          have : n + 1 = 2 ^ 64 := by omega
          rw [this, Nat.mod_self] at h2
          omega
        rw [Nat.mod_eq_of_lt hn] at ih
        exact ih

end CMarketDataConsumer

end Trading

namespace Trading

open Common Exchange

namespace CMarketDataConsumer

theorem filter_ge_self {q : QueuedMarketUpdates} {n : Nat} (h : ∀ e ∈ q, n ≤ e.1) :
    q.filter (fun e => decide (n ≤ e.1)) = q :=
  List.filter_eq_self.2 fun e he => decide_eq_true (h e he)

/-- The incremental loop skips the entries before `n`; on a map they come first. -/
theorem incrementalLoop_skip : ∀ (q : QueuedMarketUpdates) (n : Nat) (ev : List SMEMarketUpdate),
    q.Pairwise (fun a b => a.1 < b.1) →
    incrementalLoop q n ev = incrementalLoop (q.filter fun e => decide (n ≤ e.1)) n ev
  | [], _, _, _ => rfl
  | e :: q, n, ev, hs => by
    by_cases hlt : e.1 < n
    · rw [incrementalLoop, if_pos hlt, List.filter_cons_of_neg (by simpa using hlt)]
      exact incrementalLoop_skip q n ev (List.pairwise_cons.1 hs).2
    · have hall : ∀ x ∈ e :: q, n ≤ x.1 := by
        intro x hx
        rcases List.mem_cons.1 hx with rfl | hx
        · omega
        · have := (List.pairwise_cons.1 hs).1 x hx
          omega
      rw [filter_ge_self hall]

/-- The incremental loop on keys that count up from `n` without a gap: it runs through,
collects the events and leaves the sequence number after the last key. -/
theorem incrementalLoop_contiguous : ∀ (q : QueuedMarketUpdates) (n : Nat)
    (ev : List SMEMarketUpdate), q.map Prod.fst = List.range' n q.length →
    n + q.length ≤ 2 ^ 64 →
    incrementalLoop q n ev = (true, if q = [] then n else (n + q.length) % 2 ^ 64, ev ++ events q)
  | [], n, ev, _, _ => by simp [incrementalLoop, events]
  | e :: q, n, ev, hk, hb => by
    simp only [List.map_cons, List.length_cons, List.range'_succ, List.cons.injEq] at hk
    simp only [List.length_cons] at hb
    have hev : (if isEvent e.2 then ev ++ [e.2] else ev) ++ events q = ev ++ events (e :: q) := by
      by_cases he : isEvent e.2
      · simp [events, he, List.filter_cons]
      · simp [events, he, List.filter_cons]
    rw [incrementalLoop, if_neg (by omega), if_neg (not_not.2 hk.1), if_neg (List.cons_ne_nil _ _)]
    by_cases hq : q = []
    · subst hq
      simp only [incrementalLoop, List.length_nil, Nat.add_zero]
      rw [← hev]
      simp [events]
    · have hpos : 0 < q.length := List.length_pos.2 hq
      have hmod : (n + 1) % 2 ^ 64 = n + 1 := Nat.mod_eq_of_lt (by omega)
      rw [hmod, incrementalLoop_contiguous q (n + 1) _ hk.2 (by omega), if_neg hq, hev]
      have : n + 1 + q.length = n + (q.length + 1) := by omega
      rw [this]
      rfl

/-- The incremental loop on a map with no key before `n` whose keys do not count up from `n`
without a gap: it stops at the first sequence number from `n` on that is not a key, and that
is the value it leaves behind. -/
theorem incrementalLoop_gap : ∀ (q : QueuedMarketUpdates) (n : Nat) (ev : List SMEMarketUpdate),
    q.Pairwise (fun a b => a.1 < b.1) → (∀ e ∈ q, e.1 < 2 ^ 64) → (∀ e ∈ q, n ≤ e.1) →
    q.map Prod.fst ≠ List.range' n q.length →
    ∃ m ev2, incrementalLoop q n ev = (false, m, ev2) ∧ n ≤ m ∧ m ∉ q.map Prod.fst ∧
      ∀ k, n ≤ k → k < m → k ∈ q.map Prod.fst
  | [], _, _, _, _, _, hne => absurd rfl hne
  | e :: q, n, ev, hs, hb, hge, hne => by
    have hp := List.pairwise_cons.1 hs
    by_cases hk : e.1 = n
    · have hne2 : q.map Prod.fst ≠ List.range' (n + 1) q.length := by
        intro h
        apply hne
        simp only [List.map_cons, List.length_cons, List.range'_succ, hk, h]
      have hq : q ≠ [] := by
        rintro rfl
        exact hne2 rfl
      obtain ⟨e2, he2⟩ := List.exists_mem_of_ne_nil q hq
      have hn : n + 1 < 2 ^ 64 := by
        have h1 := hp.1 e2 he2
        have h2 := hb e2 (List.mem_cons_of_mem _ he2)
        omega
      obtain ⟨m, ev2, hrun, hm1, hm2, hm3⟩ := incrementalLoop_gap q (n + 1)
        (if isEvent e.2 then ev ++ [e.2] else ev) hp.2
        (fun x hx => hb x (List.mem_cons_of_mem _ hx))
        (fun x hx => by have := hp.1 x hx; omega) hne2
      refine ⟨m, ev2, ?_, by omega, ?_, fun k hk1 hk2 => ?_⟩
      · rw [incrementalLoop, if_neg (by omega), if_neg (not_not.2 hk), Nat.mod_eq_of_lt hn]
        exact hrun
      · simp only [List.map_cons, List.mem_cons, not_or]
        exact ⟨by omega, hm2⟩
      · simp only [List.map_cons, List.mem_cons]
        by_cases hkn : k = n
        · exact Or.inl (hkn.trans hk.symm)
        · exact Or.inr (hm3 k (by omega) hk2)
    · have hgt : n < e.1 := by
        have := hge e (List.mem_cons_self _ _)
        omega
      refine ⟨n, ev, ?_, le_refl _, ?_, fun k hk1 hk2 => by omega⟩
      · rw [incrementalLoop, if_neg (by omega), if_pos hk]
      · simp only [List.map_cons, List.mem_cons, not_or]
        refine ⟨by omega, fun hm => ?_⟩
        obtain ⟨x, hx, hxn⟩ := List.mem_map.1 hm
        have := hp.1 x hx
        omega

theorem checkSnapshotSync_empty {c : CMarketDataConsumer} (h : c.m_snapshotQueuedMsgs = []) :
    c.checkSnapshotSync = c := by
  simp [checkSnapshotSync, h]

theorem checkSnapshotSync_not_start {c : CMarketDataConsumer} {first : Nat × SMEMarketUpdate}
    (h : c.m_snapshotQueuedMsgs.head? = some first) (ht : first.2.type ≠ .SNAPSHOT_START) :
    c.checkSnapshotSync = { c with m_snapshotQueuedMsgs := [] } := by
  simp [checkSnapshotSync, h, ht]

theorem checkSnapshotSync_gap {c : CMarketDataConsumer} {first : Nat × SMEMarketUpdate}
    (h : c.m_snapshotQueuedMsgs.head? = some first) (ht : first.2.type = .SNAPSHOT_START)
    (hl : (snapshotLoop c.m_snapshotQueuedMsgs 0 []).1 = false) :
    c.checkSnapshotSync = { c with m_snapshotQueuedMsgs := [] } := by
  simp [checkSnapshotSync, h, ht, hl]

theorem checkSnapshotSync_wait {c : CMarketDataConsumer} {first last : Nat × SMEMarketUpdate}
    (h : c.m_snapshotQueuedMsgs.head? = some first) (ht : first.2.type = .SNAPSHOT_START)
    (hl : (snapshotLoop c.m_snapshotQueuedMsgs 0 []).1 = true)
    (h2 : c.m_snapshotQueuedMsgs.getLast? = some last) (ht2 : last.2.type ≠ .SNAPSHOT_END) :
    c.checkSnapshotSync = c := by
  simp [checkSnapshotSync, h, ht, hl, h2, ht2]

/-- A cycle has at most `2 ^ 64` entries. -/
theorem Cycle_length {q : QueuedMarketUpdates} {cur : Nat} (h : Cycle q cur)
    (hb : ∀ e ∈ q, e.1 < 2 ^ 64) : q.length ≤ 2 ^ 64 := by
  obtain ⟨hk, -, -⟩ := h
  by_contra hcon
  have h2 : 2 ^ 64 ∈ q.map Prod.fst := by
    rw [hk, List.mem_range]
    omega
  obtain ⟨x, hx, hx2⟩ := List.mem_map.1 h2
  have := hb x hx
  omega

/-- Method `checkSnapshotSync` on a complete snapshot cycle: it runs the incremental loop from
the sequence number after the cursor, with the events of the cycle. -/
theorem checkSnapshotSync_cycle {c : CMarketDataConsumer} {cur : Nat}
    (h : Cycle c.m_snapshotQueuedMsgs cur) (hb : ∀ e ∈ c.m_snapshotQueuedMsgs, e.1 < 2 ^ 64) :
    c.checkSnapshotSync =
      if (incrementalLoop c.m_incrementalQueuedMsgs ((cur + 1) % 2 ^ 64)
          (events c.m_snapshotQueuedMsgs)).1 = false then
        { c with m_nextExpIncSeqNum := (incrementalLoop c.m_incrementalQueuedMsgs
            ((cur + 1) % 2 ^ 64) (events c.m_snapshotQueuedMsgs)).2.1
                 m_snapshotQueuedMsgs := [] }
      else
        { c with m_nextExpIncSeqNum := (incrementalLoop c.m_incrementalQueuedMsgs
            ((cur + 1) % 2 ^ 64) (events c.m_snapshotQueuedMsgs)).2.1
                 m_pIncomingMdUpdates := c.m_pIncomingMdUpdates ++
                   (incrementalLoop c.m_incrementalQueuedMsgs ((cur + 1) % 2 ^ 64)
                     (events c.m_snapshotQueuedMsgs)).2.2
                 m_snapshotQueuedMsgs := []
                 m_incrementalQueuedMsgs := []
                 m_isInRecovery := false
                 m_snapshotMcastSocket := false } := by
  have hlen := Cycle_length h hb
  obtain ⟨hk, ⟨first, hf, hft⟩, last, hl, hlt, hlo⟩ := h
  have hloop := snapshotLoop_contiguous c.m_snapshotQueuedMsgs 0 []
    (by rw [hk, List.range_eq_range']) (by omega)
  simp only [List.nil_append] at hloop
  simp only [checkSnapshotSync, hf, hft, hloop, hl, hlt, hlo, ne_eq, not_true_eq_false,
    if_false, Bool.not_true, Bool.false_eq_true, Bool.not_eq_true']

end CMarketDataConsumer

end Trading

namespace Trading

open Common Exchange

namespace CMarketDataConsumer

/-- C15. Consumer steady state. While the consumer is not in recovery: an incremental record
with the expected sequence number is written unchanged to the queue of the strategy and the
expected sequence number is incremented (on 64 bits), nothing else; an incremental record
with another sequence number puts the consumer in recovery, with the snapshot stream joined,
the snapshot container empty and the incremental container holding just that record under its
sequence number, and nothing is written to the queue; a callback of the snapshot socket leaves
the consumer as it is, whatever the buffer holds. A buffer of several incremental records is
handled record by record. -/
theorem steady_state (c : CMarketDataConsumer) (h : c.m_isInRecovery = false) :
    (∀ request : MDPMarketUpdate, request.seqNum = c.m_nextExpIncSeqNum →
      c.RecvCallback false [request] =
        { c with m_nextExpIncSeqNum := (c.m_nextExpIncSeqNum + 1) % 2 ^ 64
                 m_pIncomingMdUpdates :=
                   c.m_pIncomingMdUpdates ++ [request.me_market_update_] }) ∧
    (∀ request : MDPMarketUpdate, request.seqNum ≠ c.m_nextExpIncSeqNum →
      c.RecvCallback false [request] =
        { c with m_isInRecovery := true
                 m_snapshotQueuedMsgs := []
                 m_incrementalQueuedMsgs := [(request.seqNum, request.me_market_update_)]
                 m_snapshotMcastSocket := true }) ∧
    (∀ buffer : List MDPMarketUpdate, c.RecvCallback true buffer = c) ∧
    ∀ (request : MDPMarketUpdate) (rest : List MDPMarketUpdate),
      c.RecvCallback false (request :: rest) =
        (c.RecvCallback false [request]).RecvCallback false rest := by
  refine ⟨fun request hr => ?_, fun request hr => ?_, fun buffer => ?_, fun request rest => ?_⟩
  · simp [RecvCallback, recvRecord, h, hr]
  · simp [RecvCallback, recvRecord, h, hr, startSnapshotSync, queueMessage, mapAssign,
      checkSnapshotSync]
  · simp [RecvCallback, h]
  · simp [RecvCallback]

theorem steady_state_at_init :
    CMarketDataConsumer.init.m_isInRecovery = false ∧
    ((∀ request : MDPMarketUpdate, request.seqNum = CMarketDataConsumer.init.m_nextExpIncSeqNum →
      CMarketDataConsumer.init.RecvCallback false [request] =
        { CMarketDataConsumer.init with
            m_nextExpIncSeqNum := (CMarketDataConsumer.init.m_nextExpIncSeqNum + 1) % 2 ^ 64
            m_pIncomingMdUpdates :=
              CMarketDataConsumer.init.m_pIncomingMdUpdates ++ [request.me_market_update_] }) ∧
    (∀ request : MDPMarketUpdate, request.seqNum ≠ CMarketDataConsumer.init.m_nextExpIncSeqNum →
      CMarketDataConsumer.init.RecvCallback false [request] =
        { CMarketDataConsumer.init with
            m_isInRecovery := true
            m_snapshotQueuedMsgs := []
            m_incrementalQueuedMsgs := [(request.seqNum, request.me_market_update_)]
            m_snapshotMcastSocket := true }) ∧
    (∀ buffer : List MDPMarketUpdate, CMarketDataConsumer.init.RecvCallback true buffer =
      CMarketDataConsumer.init) ∧
    ∀ (request : MDPMarketUpdate) (rest : List MDPMarketUpdate),
      CMarketDataConsumer.init.RecvCallback false (request :: rest) =
        (CMarketDataConsumer.init.RecvCallback false [request]).RecvCallback false rest) :=
  ⟨rfl, steady_state CMarketDataConsumer.init rfl⟩

/-- What `checkSnapshotSync` does on a snapshot container that is a map: nothing, or it clears
the container, or the container is a complete cycle. -/
theorem checkSnapshotSync_cases (c : CMarketDataConsumer) (hm : IsMap c.m_snapshotQueuedMsgs) :
    c.checkSnapshotSync = c ∨ c.checkSnapshotSync = { c with m_snapshotQueuedMsgs := [] } ∨
      ∃ cur, Cycle c.m_snapshotQueuedMsgs cur := by
  cases hh : c.m_snapshotQueuedMsgs.head? with
  | none =>
    left
    exact checkSnapshotSync_empty (List.head?_eq_none_iff.1 hh)
  | some first =>
    by_cases ht : first.2.type = .SNAPSHOT_START
    swap
    · exact Or.inr (Or.inl (checkSnapshotSync_not_start hh ht))
    cases hl : (snapshotLoop c.m_snapshotQueuedMsgs 0 []).1 with
    | false => exact Or.inr (Or.inl (checkSnapshotSync_gap hh ht hl))
    | true =>
      have hne : c.m_snapshotQueuedMsgs ≠ [] := by
        intro e
        rw [e] at hh
        exact Option.noConfusion hh
      obtain ⟨last, hlast⟩ : ∃ last, c.m_snapshotQueuedMsgs.getLast? = some last :=
        ⟨_, List.getLast?_eq_getLast _ hne⟩
      by_cases ht2 : last.2.type = .SNAPSHOT_END
      · refine Or.inr (Or.inr ⟨last.2.orderId, ?_, ⟨first, hh, ht⟩, last, hlast, ht2, rfl⟩)
        rw [List.range_eq_range']
        exact snapshotLoop_true _ _ _ hm.1 hm.2 hl
      · exact Or.inl (checkSnapshotSync_wait hh ht hl hlast ht2)

/-- C16. Recovery gating on the snapshot container. Unless the container is a complete
cycle, with the keys 0, 1, ..., n, SNAPSHOT_START first and SNAPSHOT_END last,
`checkSnapshotSync` leaves the consumer as it is or only clears the snapshot container, so it
writes nothing to the queue of the strategy and stays in recovery. It clears the container
when the first entry is not SNAPSHOT_START and when the keys are not 0, 1, ..., n. It leaves
the consumer as it is when the keys are 0, 1, ..., n, the first entry is SNAPSHOT_START and
the last one is not SNAPSHOT_END. -/
theorem snapshot_gating (c : CMarketDataConsumer) (hm : IsMap c.m_snapshotQueuedMsgs) :
    ((¬ ∃ cur, Cycle c.m_snapshotQueuedMsgs cur) →
      (c.checkSnapshotSync = c ∨ c.checkSnapshotSync = { c with m_snapshotQueuedMsgs := [] }) ∧
      c.checkSnapshotSync.m_pIncomingMdUpdates = c.m_pIncomingMdUpdates ∧
      c.checkSnapshotSync.m_isInRecovery = c.m_isInRecovery) ∧
    (((∃ first, c.m_snapshotQueuedMsgs.head? = some first ∧
          first.2.type ≠ .SNAPSHOT_START) ∨
        c.m_snapshotQueuedMsgs.map Prod.fst ≠ List.range c.m_snapshotQueuedMsgs.length) →
      c.checkSnapshotSync = { c with m_snapshotQueuedMsgs := [] }) ∧
    ∀ first last,
      c.m_snapshotQueuedMsgs.map Prod.fst = List.range c.m_snapshotQueuedMsgs.length →
      c.m_snapshotQueuedMsgs.head? = some first → first.2.type = .SNAPSHOT_START →
      c.m_snapshotQueuedMsgs.getLast? = some last → last.2.type ≠ .SNAPSHOT_END →
      c.checkSnapshotSync = c := by
  refine ⟨fun hn => ?_, fun hbad => ?_, fun first last hk hf hft hl hlt => ?_⟩
  · rcases checkSnapshotSync_cases c hm with h | h | h
    · exact ⟨Or.inl h, by rw [h], by rw [h]⟩
    · exact ⟨Or.inr h, by rw [h], by rw [h]⟩
    · exact absurd h hn
  · rcases hbad with ⟨first, hf, hft⟩ | hgap
    · exact checkSnapshotSync_not_start hf hft
    · cases hh : c.m_snapshotQueuedMsgs.head? with
      | none =>
        rw [List.head?_eq_none_iff.1 hh] at hgap
        exact absurd rfl hgap
      | some first =>
        by_cases ht : first.2.type = .SNAPSHOT_START
        · cases hl : (snapshotLoop c.m_snapshotQueuedMsgs 0 []).1 with
          | false => exact checkSnapshotSync_gap hh ht hl
          | true =>
            have := snapshotLoop_true _ _ _ hm.1 hm.2 hl
            rw [← List.range_eq_range'] at this
            exact absurd this hgap
        · exact checkSnapshotSync_not_start hh ht
  · have hlen : c.m_snapshotQueuedMsgs.length ≤ 2 ^ 64 := by
      by_contra hcon
      have h2 : 2 ^ 64 ∈ c.m_snapshotQueuedMsgs.map Prod.fst := by
        rw [hk, List.mem_range]
        omega
      obtain ⟨x, hx, hx2⟩ := List.mem_map.1 h2
      have := hm.2 x hx
      omega
    have hloop := snapshotLoop_contiguous c.m_snapshotQueuedMsgs 0 []
      (by rw [hk, List.range_eq_range']) (by omega)
    exact checkSnapshotSync_wait hf hft (by rw [hloop]) hl hlt

end CMarketDataConsumer

end Trading

namespace Trading

open Common Exchange

namespace CMarketDataConsumer

theorem after_eq (q : QueuedMarketUpdates) (cur : Nat) :
    q.filter (fun e => decide (cur + 1 ≤ e.1)) = after q cur := by
  unfold after
  congr 1

theorem mem_after_keys {q : QueuedMarketUpdates} {cur k : Nat} :
    k ∈ (after q cur).map Prod.fst ↔ k ∈ q.map Prod.fst ∧ cur < k := by
  simp only [after, List.mem_map, List.mem_filter, decide_eq_true_eq]
  constructor
  · rintro ⟨x, ⟨hx, hc⟩, rfl⟩
    exact ⟨⟨x, hx, rfl⟩, hc⟩
  · rintro ⟨⟨x, hx, rfl⟩, hc⟩
    exact ⟨x, ⟨hx, hc⟩, rfl⟩

theorem IsMap_after {q : QueuedMarketUpdates} (h : IsMap q) (cur : Nat) : IsMap (after q cur) :=
  ⟨h.1.sublist (List.filter_sublist _), fun e he => h.2 e (List.mem_of_mem_filter he)⟩

/-- The incremental loop of `checkSnapshotSync` from the sequence number after the cursor,
when the queued incrementals after the cursor have a gap. -/
theorem incrementalLoop_after_gap {q : QueuedMarketUpdates} {cur : Nat} (hi : IsMap q)
    (hcur : cur + 1 < 2 ^ 64)
    (hgap : (after q cur).map Prod.fst ≠ List.range' (cur + 1) (after q cur).length)
    (ev : List SMEMarketUpdate) :
    ∃ m ev2, incrementalLoop q ((cur + 1) % 2 ^ 64) ev = (false, m, ev2) ∧ cur < m ∧
      m ∉ q.map Prod.fst ∧ ∀ k, cur < k → k < m → k ∈ q.map Prod.fst := by
  have ha := IsMap_after hi cur
  obtain ⟨m, ev2, hrun, h1, h2, h3⟩ := incrementalLoop_gap (after q cur) (cur + 1) ev ha.1 ha.2
    (fun e he => by
      have := (List.mem_filter.1 he).2
      simp only [decide_eq_true_eq] at this
      omega) hgap
  refine ⟨m, ev2, ?_, by omega, fun hm => h2 (mem_after_keys.2 ⟨hm, by omega⟩),
    fun k hk1 hk2 => (mem_after_keys.1 (h3 k (by omega) hk2)).1⟩
  rw [Nat.mod_eq_of_lt hcur, incrementalLoop_skip q _ _ hi.1, after_eq]
  exact hrun

/-- The incremental loop of `checkSnapshotSync` from the sequence number after the cursor,
when the queued incrementals after the cursor count up from it without a gap. -/
theorem incrementalLoop_after_contiguous {q : QueuedMarketUpdates} {cur : Nat} (hi : IsMap q)
    (hcur : cur + 1 < 2 ^ 64)
    (hcont : (after q cur).map Prod.fst = List.range' (cur + 1) (after q cur).length)
    (ev : List SMEMarketUpdate) :
    incrementalLoop q ((cur + 1) % 2 ^ 64) ev =
      (true, (cur + 1 + (after q cur).length) % 2 ^ 64, ev ++ events (after q cur)) := by
  have ha := IsMap_after hi cur
  have hlen : cur + 1 + (after q cur).length ≤ 2 ^ 64 := by
    by_contra hcon
    have h2 : 2 ^ 64 ∈ (after q cur).map Prod.fst := by
      rw [hcont, List.mem_range']
      exact ⟨2 ^ 64 - (cur + 1), by omega, by omega⟩
    obtain ⟨x, hx, hx2⟩ := List.mem_map.1 h2
    have := ha.2 x hx
    omega
  rw [Nat.mod_eq_of_lt hcur, incrementalLoop_skip q _ _ hi.1, after_eq,
    incrementalLoop_contiguous _ _ _ hcont hlen]
  by_cases hT : after q cur = []
  · rw [if_pos hT, hT]
    simp only [List.length_nil, Nat.add_zero, Nat.mod_eq_of_lt hcur]
  · rw [if_neg hT]

/-- C17, amended. Recovery on an incremental gap. When the snapshot container holds a complete
cycle with a cursor below the last 64-bit value and the queued incrementals after the cursor
do not count up from the cursor without a gap, `checkSnapshotSync` writes nothing to the queue
of the strategy, stays in recovery and keeps the queued incrementals, but it clears the
snapshot container, and it leaves `m_nextExpIncSeqNum` at the first sequence number after the
cursor that is not queued. -/
theorem incremental_gap (c : CMarketDataConsumer) {cur : Nat}
    (hc : Cycle c.m_snapshotQueuedMsgs cur) (hs : IsMap c.m_snapshotQueuedMsgs)
    (hi : IsMap c.m_incrementalQueuedMsgs) (hcur : cur + 1 < 2 ^ 64)
    (hgap : (after c.m_incrementalQueuedMsgs cur).map Prod.fst ≠
      List.range' (cur + 1) (after c.m_incrementalQueuedMsgs cur).length) :
    ∃ m, c.checkSnapshotSync = { c with m_nextExpIncSeqNum := m, m_snapshotQueuedMsgs := [] } ∧
      cur < m ∧ m ∉ c.m_incrementalQueuedMsgs.map Prod.fst ∧
      ∀ k, cur < k → k < m → k ∈ c.m_incrementalQueuedMsgs.map Prod.fst := by
  obtain ⟨m, ev2, hrun, h1, h2, h3⟩ :=
    incrementalLoop_after_gap hi hcur hgap (events c.m_snapshotQueuedMsgs)
  refine ⟨m, ?_, h1, h2, h3⟩
  rw [checkSnapshotSync_cycle hc hs.2, hrun]
  rfl

/-- C18, amended. Successful splice. When the snapshot container holds a complete cycle with
a cursor `cur` below the last 64-bit value and the queued incrementals after the cursor are
`cur + 1`, ..., `m` without a gap (none when `m = cur`), `checkSnapshotSync` writes to the
queue of the strategy the entries of the cycle other than SNAPSHOT_START and SNAPSHOT_END, in
the order of their keys, and then the incrementals `cur + 1`, ..., `m` other than
SNAPSHOT_START and SNAPSHOT_END, in the order of their keys, and nothing else; it sets
`m_nextExpIncSeqNum` to `m + 1` on 64 bits, empties both containers, leaves recovery and
leaves the snapshot stream. -/
theorem splice_success (c : CMarketDataConsumer) {cur : Nat}
    (hc : Cycle c.m_snapshotQueuedMsgs cur) (hs : IsMap c.m_snapshotQueuedMsgs)
    (hi : IsMap c.m_incrementalQueuedMsgs) (hcur : cur + 1 < 2 ^ 64)
    (hcont : (after c.m_incrementalQueuedMsgs cur).map Prod.fst =
      List.range' (cur + 1) (after c.m_incrementalQueuedMsgs cur).length) :
    c.checkSnapshotSync =
      { c with m_nextExpIncSeqNum :=
                 (cur + (after c.m_incrementalQueuedMsgs cur).length + 1) % 2 ^ 64
               m_pIncomingMdUpdates := c.m_pIncomingMdUpdates ++
                 (events c.m_snapshotQueuedMsgs ++ events (after c.m_incrementalQueuedMsgs cur))
               m_snapshotQueuedMsgs := []
               m_incrementalQueuedMsgs := []
               m_isInRecovery := false
               m_snapshotMcastSocket := false } := by
  have hrun := incrementalLoop_after_contiguous hi hcur hcont (events c.m_snapshotQueuedMsgs)
  rw [checkSnapshotSync_cycle hc hs.2, hrun]
  have : cur + 1 + (after c.m_incrementalQueuedMsgs cur).length =
      cur + (after c.m_incrementalQueuedMsgs cur).length + 1 := by omega
  rw [this]
  rfl

end CMarketDataConsumer

end Trading

namespace Trading

open Common Exchange

namespace CMarketDataConsumer

theorem IsMap_gap_snapshot : IsMap gapConsumer.m_snapshotQueuedMsgs := by
  unfold IsMap
  decide

theorem IsMap_gap_incremental : IsMap gapConsumer.m_incrementalQueuedMsgs := by
  unfold IsMap
  decide

theorem IsMap_splice_incremental : IsMap spliceConsumer.m_incrementalQueuedMsgs := by
  unfold IsMap
  decide

theorem Cycle_gap : Cycle gapConsumer.m_snapshotQueuedMsgs 5 :=
  ⟨rfl, ⟨_, rfl, rfl⟩, _, rfl, rfl, rfl⟩

theorem IsMap_waiting : IsMap waitingConsumer.m_snapshotQueuedMsgs := by
  unfold IsMap
  decide

theorem IsMap_broken : IsMap brokenConsumer.m_snapshotQueuedMsgs := by
  unfold IsMap
  decide

theorem IsMap_headless : IsMap headlessConsumer.m_snapshotQueuedMsgs := by
  unfold IsMap
  decide

theorem not_Cycle_waiting : ¬ ∃ cur, Cycle waitingConsumer.m_snapshotQueuedMsgs cur := by
  rintro ⟨cur, -, -, last, hl, ht, -⟩
  have e : waitingConsumer.m_snapshotQueuedMsgs.getLast? = some (1, clearUpdate 0) := rfl
  rw [e] at hl
  cases hl
  exact absurd ht (by decide)

theorem not_Cycle_broken : ¬ ∃ cur, Cycle brokenConsumer.m_snapshotQueuedMsgs cur := by
  rintro ⟨cur, hk, -⟩
  exact absurd hk (by decide)

/-- Three consumers whose snapshot container is not a complete cycle. `waitingConsumer`
holds records 0 and 1 with SNAPSHOT_START first and no SNAPSHOT_END yet:
`checkSnapshotSync` leaves it as it is. `brokenConsumer` holds records 0 and 2, and
`headlessConsumer` starts with a record that is not SNAPSHOT_START: the container is
cleared. None of them writes to the queue of the strategy or leaves recovery. -/
theorem snapshot_gating_at_incomplete :
    (IsMap waitingConsumer.m_snapshotQueuedMsgs ∧
      (¬ ∃ cur, Cycle waitingConsumer.m_snapshotQueuedMsgs cur) ∧
      waitingConsumer.m_snapshotQueuedMsgs.map Prod.fst =
        List.range waitingConsumer.m_snapshotQueuedMsgs.length ∧
      waitingConsumer.m_snapshotQueuedMsgs.head? = some (0, snapshotStart 5) ∧
      (snapshotStart 5).type = .SNAPSHOT_START ∧
      waitingConsumer.m_snapshotQueuedMsgs.getLast? = some (1, clearUpdate 0) ∧
      (clearUpdate 0).type ≠ .SNAPSHOT_END ∧
      waitingConsumer.checkSnapshotSync = waitingConsumer ∧
      waitingConsumer.checkSnapshotSync.m_pIncomingMdUpdates =
        waitingConsumer.m_pIncomingMdUpdates ∧
      waitingConsumer.checkSnapshotSync.m_isInRecovery = waitingConsumer.m_isInRecovery ∧
      waitingConsumer.m_isInRecovery = true) ∧
    (IsMap brokenConsumer.m_snapshotQueuedMsgs ∧
      (¬ ∃ cur, Cycle brokenConsumer.m_snapshotQueuedMsgs cur) ∧
      brokenConsumer.m_snapshotQueuedMsgs.map Prod.fst ≠
        List.range brokenConsumer.m_snapshotQueuedMsgs.length ∧
      brokenConsumer.checkSnapshotSync = { brokenConsumer with m_snapshotQueuedMsgs := [] } ∧
      brokenConsumer.checkSnapshotSync.m_pIncomingMdUpdates =
        brokenConsumer.m_pIncomingMdUpdates ∧
      brokenConsumer.checkSnapshotSync.m_isInRecovery = brokenConsumer.m_isInRecovery ∧
      brokenConsumer.m_isInRecovery = true) ∧
    (IsMap headlessConsumer.m_snapshotQueuedMsgs ∧
      headlessConsumer.m_snapshotQueuedMsgs.head? = some (1, clearUpdate 0) ∧
      (clearUpdate 0).type ≠ .SNAPSHOT_START ∧
      headlessConsumer.checkSnapshotSync =
        { headlessConsumer with m_snapshotQueuedMsgs := [] }) :=
  ⟨⟨IsMap_waiting, not_Cycle_waiting, rfl, rfl, rfl, rfl, by decide,
      (snapshot_gating waitingConsumer IsMap_waiting).2.2 (0, snapshotStart 5)
        (1, clearUpdate 0) rfl rfl rfl rfl (by decide),
      ((snapshot_gating waitingConsumer IsMap_waiting).1 not_Cycle_waiting).2.1,
      ((snapshot_gating waitingConsumer IsMap_waiting).1 not_Cycle_waiting).2.2, rfl⟩,
    ⟨IsMap_broken, not_Cycle_broken, by decide,
      (snapshot_gating brokenConsumer IsMap_broken).2.1 (Or.inr (by decide)),
      ((snapshot_gating brokenConsumer IsMap_broken).1 not_Cycle_broken).2.1,
      ((snapshot_gating brokenConsumer IsMap_broken).1 not_Cycle_broken).2.2, rfl⟩,
    ⟨IsMap_headless, rfl, by decide,
      (snapshot_gating headlessConsumer IsMap_headless).2.1
        (Or.inl ⟨(1, clearUpdate 0), rfl, by decide⟩)⟩⟩

theorem incremental_gap_at_gap :
    Cycle gapConsumer.m_snapshotQueuedMsgs 5 ∧ IsMap gapConsumer.m_snapshotQueuedMsgs ∧
    IsMap gapConsumer.m_incrementalQueuedMsgs ∧
    (after gapConsumer.m_incrementalQueuedMsgs 5).map Prod.fst ≠
      List.range' (5 + 1) (after gapConsumer.m_incrementalQueuedMsgs 5).length ∧
    ∃ m, gapConsumer.checkSnapshotSync =
        { gapConsumer with m_nextExpIncSeqNum := m, m_snapshotQueuedMsgs := [] } ∧
      5 < m ∧ m ∉ gapConsumer.m_incrementalQueuedMsgs.map Prod.fst ∧
      ∀ k, 5 < k → k < m → k ∈ gapConsumer.m_incrementalQueuedMsgs.map Prod.fst :=
  ⟨Cycle_gap, IsMap_gap_snapshot, IsMap_gap_incremental, by decide,
    incremental_gap gapConsumer Cycle_gap IsMap_gap_snapshot IsMap_gap_incremental (by norm_num)
      (by decide)⟩

/-- C17 as it is written fails on `gapConsumer`, which holds a complete cycle with cursor 5
and, after the cursor, only incremental 7: `checkSnapshotSync` does not keep the cycle, it
clears the snapshot container; and when the missing incremental 6 arrives next, the consumer
writes nothing to the queue of the strategy and is still in recovery. -/
theorem gap_clears_snapshot :
    Cycle gapConsumer.m_snapshotQueuedMsgs 5 ∧
    gapConsumer.m_incrementalQueuedMsgs.map Prod.fst = [7] ∧
    gapConsumer.checkSnapshotSync.m_snapshotQueuedMsgs = [] ∧
    gapConsumer.checkSnapshotSync.m_snapshotQueuedMsgs ≠ gapConsumer.m_snapshotQueuedMsgs ∧
    (gapConsumer.checkSnapshotSync.RecvCallback false [⟨6, addUpdate 6⟩]).m_isInRecovery = true ∧
    (gapConsumer.checkSnapshotSync.RecvCallback false [⟨6, addUpdate 6⟩]).m_pIncomingMdUpdates =
      gapConsumer.m_pIncomingMdUpdates :=
  ⟨Cycle_gap, rfl, by decide, by decide, by decide, by decide⟩

theorem splice_success_at_splice :
    Cycle spliceConsumer.m_snapshotQueuedMsgs 5 ∧ IsMap spliceConsumer.m_snapshotQueuedMsgs ∧
    IsMap spliceConsumer.m_incrementalQueuedMsgs ∧
    (after spliceConsumer.m_incrementalQueuedMsgs 5).map Prod.fst =
      List.range' (5 + 1) (after spliceConsumer.m_incrementalQueuedMsgs 5).length ∧
    spliceConsumer.checkSnapshotSync =
      { spliceConsumer with
          m_nextExpIncSeqNum :=
            (5 + (after spliceConsumer.m_incrementalQueuedMsgs 5).length + 1) % 2 ^ 64
          m_pIncomingMdUpdates := spliceConsumer.m_pIncomingMdUpdates ++
            (events spliceConsumer.m_snapshotQueuedMsgs ++
              events (after spliceConsumer.m_incrementalQueuedMsgs 5))
          m_snapshotQueuedMsgs := []
          m_incrementalQueuedMsgs := []
          m_isInRecovery := false
          m_snapshotMcastSocket := false } :=
  ⟨Cycle_gap, IsMap_gap_snapshot, IsMap_splice_incremental, by decide,
    splice_success spliceConsumer Cycle_gap IsMap_gap_snapshot IsMap_splice_incremental
      (by norm_num) (by decide)⟩

/-- C18 as it is written fails in two places. On `sentinelConsumer`, whose only queued
incremental is number 6, right after the cursor 5, and is a SNAPSHOT_START, the splice
succeeds and incremental 6 is not written to the queue of the strategy. On `wrapConsumer`,
whose cursor is the last 64-bit value, so that no incremental comes after it, the queued
incremental 3 counts as a gap and the consumer stays in recovery. -/
theorem splice_skips_sentinels :
    (sentinelConsumer.m_incrementalQueuedMsgs = [(6, snapshotStart 0)] ∧
      sentinelConsumer.checkSnapshotSync.m_isInRecovery = false ∧
      sentinelConsumer.checkSnapshotSync.m_nextExpIncSeqNum = 7 ∧
      sentinelConsumer.checkSnapshotSync.m_pIncomingMdUpdates =
        sentinelConsumer.m_pIncomingMdUpdates ++ [clearUpdate 0]) ∧
    (Cycle wrapConsumer.m_snapshotQueuedMsgs (2 ^ 64 - 1) ∧
      after wrapConsumer.m_incrementalQueuedMsgs (2 ^ 64 - 1) = [] ∧
      wrapConsumer.checkSnapshotSync.m_isInRecovery = true ∧
      wrapConsumer.checkSnapshotSync.m_pIncomingMdUpdates = wrapConsumer.m_pIncomingMdUpdates) :=
  ⟨⟨rfl, by decide, by decide, by decide⟩,
    ⟨rfl, ⟨_, rfl, rfl⟩, _, rfl, rfl, rfl⟩, by decide, by decide, by decide⟩

end CMarketDataConsumer

end Trading

namespace Trading

open Common Exchange

namespace CMarketDataConsumer

theorem numbered_append (a b : List SMEMarketUpdate) (n : Nat) :
    numbered n (a ++ b) = numbered n a ++ numbered (n + a.length) b := by
  induction a generalizing n with
  | nil => simp [numbered]
  | cons u a ih =>
    have h : n + 1 + a.length = n + (a.length + 1) := by omega
    show (⟨n, u⟩ : MDPMarketUpdate) :: numbered (n + 1) (a ++ b) =
      ⟨n, u⟩ :: numbered (n + 1) a ++ numbered (n + (a.length + 1)) b
    rw [ih, h]
    rfl

theorem entriesFrom_cons (n : Nat) (u : SMEMarketUpdate) (us : List SMEMarketUpdate) :
    entriesFrom n (u :: us) = (n, u) :: entriesFrom (n + 1) us := rfl

theorem entriesFrom_append (a : List SMEMarketUpdate) (u : SMEMarketUpdate) (n : Nat) :
    entriesFrom n (a ++ [u]) = entriesFrom n a ++ [(n + a.length, u)] := by
  simp [entriesFrom, numbered_append, numbered]

theorem entriesFrom_keys : ∀ (us : List SMEMarketUpdate) (n : Nat),
    (entriesFrom n us).map Prod.fst = List.range' n us.length
  | [], _ => rfl
  | u :: us, n => by
    rw [entriesFrom_cons, List.map_cons, entriesFrom_keys us (n + 1)]
    rfl

theorem entriesFrom_length (us : List SMEMarketUpdate) (n : Nat) :
    (entriesFrom n us).length = us.length := by
  have := congrArg List.length (entriesFrom_keys us n)
  simpa using this

theorem entriesFrom_events : ∀ (us : List SMEMarketUpdate) (n : Nat),
    events (entriesFrom n us) = us.filter isEvent
  | [], _ => rfl
  | u :: us, n => by
    have ih := entriesFrom_events us (n + 1)
    unfold events at ih ⊢
    rw [entriesFrom_cons, List.map_cons]
    by_cases he : isEvent u
    · rw [List.filter_cons_of_pos he, List.filter_cons_of_pos he, ih]
    · rw [List.filter_cons_of_neg he, List.filter_cons_of_neg he, ih]

theorem mem_entriesFrom {us : List SMEMarketUpdate} {n : Nat} {e : Nat × SMEMarketUpdate}
    (he : e ∈ entriesFrom n us) : n ≤ e.1 ∧ e.1 < n + us.length ∧ e.2 ∈ us := by
  induction us generalizing n with
  | nil => exact absurd he (List.not_mem_nil _)
  | cons u us ih =>
    rw [entriesFrom_cons] at he
    rcases List.mem_cons.1 he with rfl | he
    · exact ⟨le_refl _, by simp, List.mem_cons_self _ _⟩
    · obtain ⟨h1, h2, h3⟩ := ih he
      exact ⟨by omega, by simp only [List.length_cons]; omega, List.mem_cons_of_mem _ h3⟩

theorem mapHas_false {q : QueuedMarketUpdates} {key : Nat} (h : ∀ e ∈ q, e.1 < key) :
    mapHas q key = false := by
  unfold mapHas
  rw [List.any_eq_false]
  intro e he
  have := h e he
  simp only [beq_iff_eq]
  omega

theorem mapAssign_append : ∀ {q : QueuedMarketUpdates} {key : Nat} (value : SMEMarketUpdate),
    (∀ e ∈ q, e.1 < key) → mapAssign q key value = q ++ [(key, value)]
  | [], _, _, _ => rfl
  | e :: q, key, value, h => by
    have h1 := h e (List.mem_cons_self _ _)
    rw [mapAssign, if_neg (by omega), if_neg (by omega),
      mapAssign_append value (fun x hx => h x (List.mem_cons_of_mem _ hx))]
    rfl

theorem receive_append (c : CMarketDataConsumer) (a b : List (Bool × MDPMarketUpdate)) :
    c.receive (a ++ b) = (c.receive a).receive b := by
  simp [receive, List.foldl_append]

theorem receive_singleton (c : CMarketDataConsumer) (a : Bool × MDPMarketUpdate) :
    c.receive [a] = c.RecvCallback a.1 [a.2] := rfl

/-- A consumer whose snapshot container holds a cycle that has begun and not ended: the keys
count up from 0, the first update is SNAPSHOT_START and none is SNAPSHOT_END.
`checkSnapshotSync` waits. -/
theorem checkSnapshotSync_open {c : CMarketDataConsumer} {L : List SMEMarketUpdate}
    (hq : c.m_snapshotQueuedMsgs = entriesFrom 0 L)
    (hstart : ∀ u, L.head? = some u → u.type = .SNAPSHOT_START)
    (hend : ∀ u ∈ L, u.type ≠ .SNAPSHOT_END) (hlen : L.length ≤ 2 ^ 64) :
    c.checkSnapshotSync = c := by
  cases L with
  | nil => exact checkSnapshotSync_empty hq
  | cons s L =>
    have hne : c.m_snapshotQueuedMsgs ≠ [] := by
      rw [hq, entriesFrom_cons]
      exact List.cons_ne_nil _ _
    obtain ⟨last, hlast⟩ : ∃ last, c.m_snapshotQueuedMsgs.getLast? = some last :=
      ⟨_, List.getLast?_eq_getLast _ hne⟩
    have hmem : last ∈ entriesFrom 0 (s :: L) := by
      rw [← hq]
      exact List.mem_of_getLast?_eq_some hlast
    have hloop := snapshotLoop_contiguous c.m_snapshotQueuedMsgs 0 []
      (by rw [hq, entriesFrom_keys, entriesFrom_length])
      (by rw [hq, entriesFrom_length]; omega)
    exact @checkSnapshotSync_wait c (0, s) last (by rw [hq]; rfl) (hstart s rfl)
      (by rw [hloop]) hlast (hend _ (mem_entriesFrom hmem).2.2)

/-- A consumer in recovery receives the records of a cycle that begins and does not end: it
queues them and nothing else changes. -/
theorem receive_open : ∀ (L : List SMEMarketUpdate) (c : CMarketDataConsumer),
    c.m_isInRecovery = true → c.m_snapshotQueuedMsgs = [] →
    (∀ u, L.head? = some u → u.type = .SNAPSHOT_START) →
    (∀ u ∈ L, u.type ≠ .SNAPSHOT_END) → L.length ≤ 2 ^ 64 →
    c.receive ((numbered 0 L).map fun r => (true, r)) =
      { c with m_snapshotQueuedMsgs := entriesFrom 0 L } := by
  intro L
  induction L using List.reverseRecOn with
  | nil =>
    intro c _ hq _ _ _
    cases c
    simp only at hq
    subst hq
    rfl
  | append_singleton L u ih =>
    intro c hr hq hstart hend hlen
    have hlen2 : L.length + 1 ≤ 2 ^ 64 := by simpa using hlen
    have ih2 := ih c hr hq
      (fun v hv => hstart v (by
        cases L with
        | nil => exact Option.noConfusion hv
        | cons a L => exact hv))
      (fun v hv => hend v (List.mem_append_left _ hv)) (by omega)
    rw [numbered_append, List.map_append, receive_append, ih2]
    simp only [numbered, List.map_cons, List.map_nil, Nat.zero_add, receive_singleton]
    have hlt : ∀ e ∈ entriesFrom 0 L, e.1 < L.length := fun e he => by
      have := (mem_entriesFrom he).2.1
      omega
    have hstep : ({ c with m_snapshotQueuedMsgs := entriesFrom 0 L } : CMarketDataConsumer).RecvCallback
        true [⟨L.length, u⟩] =
        CMarketDataConsumer.checkSnapshotSync
          { c with m_snapshotQueuedMsgs := entriesFrom 0 (L ++ [u]) } := by
      simp [RecvCallback, recvRecord, hr, queueMessage, mapHas_false hlt, mapAssign_append _ hlt,
        entriesFrom_append]
    rw [hstep]
    exact checkSnapshotSync_open rfl hstart hend hlen

end CMarketDataConsumer

end Trading

namespace Trading

open Common Exchange

namespace CMarketDataConsumer

/-- The snapshot socket delivers the next record of a cycle to a consumer in recovery: the
record joins the container and `checkSnapshotSync` runs. -/
theorem RecvCallback_snapshot_next {c : CMarketDataConsumer} {L : List SMEMarketUpdate}
    (hr : c.m_isInRecovery = true) (hq : c.m_snapshotQueuedMsgs = entriesFrom 0 L)
    (u : SMEMarketUpdate) :
    c.RecvCallback true [⟨L.length, u⟩] =
      CMarketDataConsumer.checkSnapshotSync
        { c with m_snapshotQueuedMsgs := entriesFrom 0 (L ++ [u]) } := by
  have hlt : ∀ e ∈ entriesFrom 0 L, e.1 < L.length := fun e he => by
    have := (mem_entriesFrom he).2.1
    omega
  simp [RecvCallback, recvRecord, hr, queueMessage, hq, mapHas_false hlt, mapAssign_append _ hlt,
    entriesFrom_append]

/-- The incremental socket delivers a record to a consumer in recovery whose snapshot cycle
has begun and not ended: the record is queued and nothing else changes. -/
theorem RecvCallback_incremental_open {c : CMarketDataConsumer} {L : List SMEMarketUpdate}
    (hr : c.m_isInRecovery = true) (hq : c.m_snapshotQueuedMsgs = entriesFrom 0 L)
    (hstart : ∀ u, L.head? = some u → u.type = .SNAPSHOT_START)
    (hend : ∀ u ∈ L, u.type ≠ .SNAPSHOT_END) (hlen : L.length ≤ 2 ^ 64)
    (r : MDPMarketUpdate) :
    c.RecvCallback false [r] =
      { c with m_incrementalQueuedMsgs :=
          mapAssign c.m_incrementalQueuedMsgs r.seqNum r.me_market_update_ } := by
  have hstep : c.RecvCallback false [r] = CMarketDataConsumer.checkSnapshotSync
      { c with m_incrementalQueuedMsgs :=
          mapAssign c.m_incrementalQueuedMsgs r.seqNum r.me_market_update_ } := by
    simp [RecvCallback, recvRecord, hr, queueMessage]
  rw [hstep]
  exact checkSnapshotSync_open hq hstart hend hlen

theorem isEvent_not_end {u : SMEMarketUpdate} (h : isEvent u = true) :
    u.type ≠ .SNAPSHOT_END := by
  intro he
  simp [isEvent, he] at h

theorem Cycle_entriesFrom (body : List SMEMarketUpdate) (cur : Nat) :
    Cycle (entriesFrom 0 ((snapshotStart cur :: body) ++ [snapshotEnd cur])) cur := by
  refine ⟨?_, ⟨(0, snapshotStart cur), rfl, rfl⟩,
    ⟨((snapshotStart cur :: body).length, snapshotEnd cur), ?_, rfl, rfl⟩⟩
  · rw [entriesFrom_keys, entriesFrom_length, List.range_eq_range']
  · rw [entriesFrom_append, List.getLast?_append]
    simp

theorem events_cycle {body : List SMEMarketUpdate} (cur : Nat)
    (hbody : ∀ u ∈ body, isEvent u = true) :
    events (entriesFrom 0 ((snapshotStart cur :: body) ++ [snapshotEnd cur])) = body := by
  have h0 : ¬ isEvent (snapshotStart cur) = true := by simp [isEvent, snapshotStart]
  have h2 : ¬ isEvent (snapshotEnd cur) = true := by simp [isEvent, snapshotEnd]
  rw [entriesFrom_events, List.filter_append, List.filter_cons_of_neg h0]
  have h1 : [snapshotEnd cur].filter isEvent = [] := by
    rw [List.filter_cons_of_neg h2]
    rfl
  rw [h1, List.append_nil]
  exact List.filter_eq_self.2 hbody

/-- The consumer of scenario S6 after the incrementals 1, 2, 3 and 7. -/
theorem receive_S6_head (inc : Nat → SMEMarketUpdate) :
    init.receive ([1, 2, 3, 7].map fun i => (false, ⟨i, inc i⟩)) =
      { m_nextExpIncSeqNum := 4
        m_pIncomingMdUpdates := [inc 1, inc 2, inc 3]
        m_isInRecovery := true
        m_snapshotQueuedMsgs := []
        m_incrementalQueuedMsgs := [(7, inc 7)]
        m_snapshotMcastSocket := true } := rfl

/-- The consumer of scenario S6 after the incrementals 1, 2, 3 and 7 and the records of the
cycle before its SNAPSHOT_END. -/
theorem receive_S6_open (inc : Nat → SMEMarketUpdate) {body : List SMEMarketUpdate}
    (hbody : ∀ u ∈ body, isEvent u = true) (hlen : body.length + 2 ≤ 2 ^ 64) :
    init.receive (([1, 2, 3, 7].map fun i => (false, ⟨i, inc i⟩)) ++
        (numbered 0 (snapshotStart 5 :: body)).map fun r => (true, r)) =
      { m_nextExpIncSeqNum := 4
        m_pIncomingMdUpdates := [inc 1, inc 2, inc 3]
        m_isInRecovery := true
        m_snapshotQueuedMsgs := entriesFrom 0 (snapshotStart 5 :: body)
        m_incrementalQueuedMsgs := [(7, inc 7)]
        m_snapshotMcastSocket := true } := by
  rw [receive_append, receive_S6_head,
    receive_open (snapshotStart 5 :: body) _ rfl rfl
      (fun u hu => by
        cases hu
        rfl)
      (fun u hu => by
        rcases List.mem_cons.1 hu with rfl | hu
        · simp [snapshotStart]
        · exact isEvent_not_end (hbody u hu))
      (by simp only [List.length_cons]; omega)]

end CMarketDataConsumer

end Trading

namespace Trading

open Common Exchange

namespace CMarketDataConsumer

/-- C19, amended. Scenario S6: a fresh consumer receives incrementals 1, 2, 3, then
incremental 7, then a snapshot cycle with cursor 5 whose body holds no SNAPSHOT_START and no
SNAPSHOT_END, and the incrementals 6, 7, 8, none of them a SNAPSHOT_START or SNAPSHOT_END.
When 6, 7, 8 arrive before the SNAPSHOT_END of the cycle, the consumer has forwarded exactly
the updates 1, 2, 3, then the snapshot body, then the incrementals 6, 7, 8, and it ends out of
recovery with next expected sequence number 9. When 6, 7, 8 arrive after the cycle, it has
forwarded the updates 1, 2, 3 only and it ends in recovery, with next expected sequence
number 6, no queued snapshot record, and 6, 7, 8 queued. -/
theorem scenario_S6 (inc : Nat → SMEMarketUpdate) (body : List SMEMarketUpdate)
    (hbody : ∀ u ∈ body, isEvent u = true) (hinc : ∀ i, isEvent (inc i) = true)
    (hlen : body.length + 2 ≤ 2 ^ 64) :
    init.receive (arrivalsS6Early inc body) =
      { m_nextExpIncSeqNum := 9
        m_pIncomingMdUpdates := [inc 1, inc 2, inc 3] ++ body ++ [inc 6, inc 7, inc 8]
        m_isInRecovery := false
        m_snapshotQueuedMsgs := []
        m_incrementalQueuedMsgs := []
        m_snapshotMcastSocket := false } ∧
    init.receive (arrivalsS6 inc body) =
      { m_nextExpIncSeqNum := 6
        m_pIncomingMdUpdates := [inc 1, inc 2, inc 3]
        m_isInRecovery := true
        m_snapshotQueuedMsgs := []
        m_incrementalQueuedMsgs := [(6, inc 6), (7, inc 7), (8, inc 8)]
        m_snapshotMcastSocket := true } := by
  have hstart : ∀ u, (snapshotStart 5 :: body).head? = some u → u.type = .SNAPSHOT_START :=
    fun u hu => by
      cases hu
      rfl
  have hend : ∀ u ∈ snapshotStart 5 :: body, u.type ≠ .SNAPSHOT_END := fun u hu => by
    rcases List.mem_cons.1 hu with rfl | hu
    · simp [snapshotStart]
    · exact isEvent_not_end (hbody u hu)
  have hl : (snapshotStart 5 :: body).length ≤ 2 ^ 64 := by
    simp only [List.length_cons]
    omega
  have hb : ∀ e ∈ entriesFrom 0 ((snapshotStart 5 :: body) ++ [snapshotEnd 5]),
      e.1 < 2 ^ 64 := fun e he => by
    have := (mem_entriesFrom he).2.1
    simp only [List.length_append, List.length_cons, List.length_nil] at this
    omega
  constructor
  · unfold arrivalsS6Early
    rw [receive_append, receive_append, receive_S6_open inc hbody hlen]
    have h3 : ∀ (c : CMarketDataConsumer), c.receive ([6, 7, 8].map fun i => (false, ⟨i, inc i⟩)) =
        ((c.RecvCallback false [⟨6, inc 6⟩]).RecvCallback false [⟨7, inc 7⟩]).RecvCallback false
          [⟨8, inc 8⟩] := fun _ => rfl
    have e6 := @RecvCallback_incremental_open
      { m_nextExpIncSeqNum := 4
        m_pIncomingMdUpdates := [inc 1, inc 2, inc 3]
        m_isInRecovery := true
        m_snapshotQueuedMsgs := entriesFrom 0 (snapshotStart 5 :: body)
        m_incrementalQueuedMsgs := [(7, inc 7)]
        m_snapshotMcastSocket := true } _ rfl rfl hstart hend hl ⟨6, inc 6⟩
    have e7 := @RecvCallback_incremental_open
      { m_nextExpIncSeqNum := 4
        m_pIncomingMdUpdates := [inc 1, inc 2, inc 3]
        m_isInRecovery := true
        m_snapshotQueuedMsgs := entriesFrom 0 (snapshotStart 5 :: body)
        m_incrementalQueuedMsgs := [(6, inc 6), (7, inc 7)]
        m_snapshotMcastSocket := true } _ rfl rfl hstart hend hl ⟨7, inc 7⟩
    have e8 := @RecvCallback_incremental_open
      { m_nextExpIncSeqNum := 4
        m_pIncomingMdUpdates := [inc 1, inc 2, inc 3]
        m_isInRecovery := true
        m_snapshotQueuedMsgs := entriesFrom 0 (snapshotStart 5 :: body)
        m_incrementalQueuedMsgs := [(6, inc 6), (7, inc 7)]
        m_snapshotMcastSocket := true } _ rfl rfl hstart hend hl ⟨8, inc 8⟩
    rw [h3, e6]
    erw [e7]
    erw [e8]
    rw [receive_singleton]
    have hk : body.length + 1 = (snapshotStart 5 :: body).length := rfl
    simp only [hk]
    rw [RecvCallback_snapshot_next rfl rfl, checkSnapshotSync_cycle (Cycle_entriesFrom body 5) hb]
    simp only [events_cycle 5 hbody]
    simp [mapAssign, incrementalLoop, hinc]
  · unfold arrivalsS6
    have hsplit : snapshotStart 5 :: body ++ [snapshotEnd 5] =
        (snapshotStart 5 :: body) ++ [snapshotEnd 5] := rfl
    rw [hsplit, numbered_append, List.map_append, ← List.append_assoc, receive_append,
      receive_append, receive_S6_open inc hbody hlen]
    simp only [Nat.zero_add, numbered, List.map_cons, List.map_nil, receive_singleton]
    rw [RecvCallback_snapshot_next rfl rfl, checkSnapshotSync_cycle (Cycle_entriesFrom body 5) hb]
    simp only [events_cycle 5 hbody]
    simp [mapAssign, incrementalLoop, receive, RecvCallback, recvRecord, queueMessage,
      checkSnapshotSync, mapHas]

/-- Scenario S6 with ADD incrementals and the snapshot body CLEAR, ADD. -/
theorem scenario_S6_at_adds :
    (∀ u ∈ [clearUpdate 0, addUpdate 4], isEvent u = true) ∧
    (∀ i, isEvent (addUpdate i) = true) ∧
    init.receive (arrivalsS6Early addUpdate [clearUpdate 0, addUpdate 4]) =
      { m_nextExpIncSeqNum := 9
        m_pIncomingMdUpdates := [addUpdate 1, addUpdate 2, addUpdate 3] ++
          [clearUpdate 0, addUpdate 4] ++ [addUpdate 6, addUpdate 7, addUpdate 8]
        m_isInRecovery := false
        m_snapshotQueuedMsgs := []
        m_incrementalQueuedMsgs := []
        m_snapshotMcastSocket := false } ∧
    init.receive (arrivalsS6 addUpdate [clearUpdate 0, addUpdate 4]) =
      { m_nextExpIncSeqNum := 6
        m_pIncomingMdUpdates := [addUpdate 1, addUpdate 2, addUpdate 3]
        m_isInRecovery := true
        m_snapshotQueuedMsgs := []
        m_incrementalQueuedMsgs := [(6, addUpdate 6), (7, addUpdate 7), (8, addUpdate 8)]
        m_snapshotMcastSocket := true } :=
  ⟨by decide, fun _ => rfl,
    scenario_S6 addUpdate [clearUpdate 0, addUpdate 4] (by decide) (fun _ => rfl) (by decide)⟩

/-- C19 as it is written fails: after scenario S6 in the order given (incrementals 1, 2, 3,
then 7, then the complete cycle with cursor 5, then 6, 7, 8) the consumer is still in recovery,
its next expected sequence number is 6 and not 9, and the strategy queue holds the updates
1, 2, 3 only. -/
theorem scenario_S6_stays_in_recovery :
    (init.receive (arrivalsS6 addUpdate [clearUpdate 0, addUpdate 4])).m_isInRecovery = true ∧
    (init.receive (arrivalsS6 addUpdate [clearUpdate 0, addUpdate 4])).m_nextExpIncSeqNum = 6 ∧
    (init.receive (arrivalsS6 addUpdate [clearUpdate 0, addUpdate 4])).m_pIncomingMdUpdates =
      [addUpdate 1, addUpdate 2, addUpdate 3] := by
  refine ⟨?_, ?_, ?_⟩ <;> rfl

end CMarketDataConsumer

end Trading

namespace Common

namespace CMemoryPool

variable {T : Type}

/-- What a completed `Allocate` did to the store, whatever the pool: the slot it returns was
free and now holds the new object, busy. -/
theorem Allocate_store {p : CMemoryPool T} {v : T} {r : Nat × CMemoryPool T}
    (h : p.Allocate v = .ok r) :
    (p.m_store r.1).isFree = true ∧ r.2.m_store = Function.update p.m_store r.1 ⟨v, false⟩ := by
  unfold Allocate at h
  by_cases hf : (p.m_store p.m_nextFreeIndex).isFree = true
  · rw [if_pos hf] at h
    unfold UpdateNextFreeIndex at h
    simp only at h
    split at h
    · rename_i p1 heq
      split at heq
      · simp only [Except.ok.injEq] at heq h
        subst heq
        subst h
        exact ⟨hf, rfl⟩
      · exact absurd heq (by simp)
    · exact absurd h (by simp)
  · rw [if_neg hf] at h
    exact absurd h (by simp)

/-- What a completed `Deallocate` did: the slot was busy and is released. -/
theorem Deallocate_store {p p2 : CMemoryPool T} {i : Nat} (h : p.Deallocate i = .ok p2) :
    (p.m_store i).isFree = false ∧ p2 = p.release i := by
  rw [Deallocate_def] at h
  by_cases h1 : i < p.numElems
  · rw [if_pos h1] at h
    by_cases h2 : (p.m_store i).isFree = true
    · rw [if_pos h2] at h
      exact absurd h (by simp)
    · rw [if_neg h2] at h
      simp only [Except.ok.injEq] at h
      exact ⟨by simpa using h2, h.symm⟩
  · rw [if_neg h1] at h
    exact absurd h (by simp)

end CMemoryPool

end Common

namespace Exchange

open Common

theorem arrayAt_ok {n i : Nat} {x : Unit} (h : arrayAt n i = .ok x) : i < n := by
  unfold arrayAt at h
  by_cases hi : i < n
  · exact hi
  · rw [if_neg hi] at h
    exact absurd h (by simp)

theorem arrayAt_lt {n i : Nat} (h : i < n) : arrayAt n i = .ok () := by
  unfold arrayAt
  rw [if_pos h]

namespace CSnapshotSynthesizer

theorem ImageOK_fresh : ImageOK fresh :=
  ⟨fun _ _ _ h => Option.noConfusion h, fun _ _ _ h => Option.noConfusion h,
    fun _ _ _ _ _ h => Option.noConfusion h, fun _ _ _ h => Option.noConfusion h⟩

theorem image_fresh : image fresh = noOrders := rfl

theorem tickerOrders_setOrder (s : CSnapshotSynthesizer) (t id : Nat) (v : Option Nat)
    (t2 id2 : Nat) :
    (s.setOrder t id v).m_tickerOrders t2 id2 =
      if t2 = t ∧ id2 = id then v else s.m_tickerOrders t2 id2 := by
  unfold setOrder
  exact update2_apply _ _ _ _ _ _

theorem update2_fun {α : Type} (m : Nat → Nat → α) (c d : Nat) (v : α) (c2 d2 : Nat) :
    Function.update m c (Function.update (m c) d v) c2 d2 =
      if c2 = c ∧ d2 = d then v else m c2 d2 := by
  by_cases hc : c2 = c
  · subst hc
    by_cases hd : d2 = d
    · subst hd
      simp
    · simp [hd]
  · simp [hc]

/-- An ADD that the `switch` takes. -/
theorem applyUpdate_add {s s2 : CSnapshotSynthesizer} {u : SMEMarketUpdate} (hok : ImageOK s)
    (ht : u.tickerId < ME_MAX_TICKERS) (hty : u.type = .ADD) (h : s.applyUpdate u = .ok s2) :
    ImageOK s2 ∧ s2.m_lastIncSeqNum = s.m_lastIncSeqNum ∧ image s2 = imageStep (image s) u := by
  unfold applyUpdate at h
  rw [hty] at h
  simp only [bind, Except.bind] at h
  cases ha : arrayAt ME_MAX_ORDER_IDS u.orderId with
  | error e =>
    rw [ha] at h
    exact absurd h (by simp)
  | ok x =>
    rw [ha] at h
    have hid := arrayAt_ok ha
    simp only at h
    cases hslot : s.m_tickerOrders u.tickerId u.orderId with
    | some q =>
      rw [hslot] at h
      exact absurd h (by simp)
    | none =>
      rw [hslot] at h
      simp only at h
      cases hal : s.m_orderPool.Allocate u with
      | error e =>
        rw [hal] at h
        exact absurd h (by simp)
      | ok r =>
        rw [hal] at h
        simp only [pure, Except.pure, Except.ok.injEq] at h
        obtain ⟨hfree, hstore⟩ := CMemoryPool.Allocate_store hal
        have hne : ∀ t id p, s.m_tickerOrders t id = some p → p ≠ r.1 := by
          intro t id p hp he
          have := hok.busy t id p hp
          rw [he, hfree] at this
          exact Bool.noConfusion this
        have hto : ∀ t id, s2.m_tickerOrders t id =
            if t = u.tickerId ∧ id = u.orderId then some r.1 else s.m_tickerOrders t id := by
          intro t id
          rw [← h]
          exact tickerOrders_setOrder _ _ _ _ _ _
        have hpool : s2.m_orderPool = r.2 := by rw [← h]; rfl
        have hobj : ∀ q, s2.m_orderPool.obj q = if q = r.1 then u else s.m_orderPool.obj q := by
          intro q
          rw [hpool]
          unfold CMemoryPool.obj
          rw [hstore, Function.update_apply]
          split <;> rfl
        have hfr : ∀ q, (s2.m_orderPool.m_store q).isFree =
            if q = r.1 then false else (s.m_orderPool.m_store q).isFree := by
          intro q
          rw [hpool, hstore, Function.update_apply]
          split <;> rfl
        refine ⟨⟨?_, ?_, ?_, ?_⟩, by rw [← h]; rfl, ?_⟩
        · intro t id p hp
          rw [hto] at hp
          split at hp
          · rename_i hc
            rw [hc.1, hc.2]
            exact ⟨ht, hid⟩
          · exact hok.bounds t id p hp
        · intro t id p hp
          rw [hto] at hp
          rw [hfr]
          split at hp
          · simp only [Option.some.injEq] at hp
            rw [if_pos hp.symm]
          · rw [if_neg (hne t id p hp)]
            exact hok.busy t id p hp
        · intro t id t2 id2 p hp hp2
          rw [hto] at hp hp2
          split at hp
          · rename_i hc
            simp only [Option.some.injEq] at hp
            split at hp2
            · rename_i hc2
              exact ⟨hc.1.trans hc2.1.symm, hc.2.trans hc2.2.symm⟩
            · exact absurd hp.symm (hne t2 id2 p hp2)
          · split at hp2
            · simp only [Option.some.injEq] at hp2
              exact absurd hp2.symm (hne t id p hp)
            · exact hok.inj t id t2 id2 p hp hp2
        · intro t id p hp
          rw [hto] at hp
          rw [hobj]
          split at hp
          · rename_i hc
            simp only [Option.some.injEq] at hp
            rw [if_pos hp.symm]
            exact ⟨hty, hc.1.symm, hc.2.symm⟩
          · rw [if_neg (hne t id p hp)]
            exact hok.keyed t id p hp
        · funext t id
          unfold imageStep
          rw [hty]
          simp only
          rw [update2_fun]
          unfold image
          rw [hto]
          split
          · simp only [Option.map_some', hobj, if_true]
          · cases hq : s.m_tickerOrders t id with
            | none => rfl
            | some q =>
              simp only [Option.map_some', hobj, if_neg (hne t id q hq)]

end CSnapshotSynthesizer

end Exchange

namespace Exchange

open Common

namespace CSnapshotSynthesizer

/-- A MODIFY that the `switch` takes. -/
theorem applyUpdate_modify {s s2 : CSnapshotSynthesizer} {u : SMEMarketUpdate} (hok : ImageOK s)
    (hty : u.type = .MODIFY) (h : s.applyUpdate u = .ok s2) :
    ImageOK s2 ∧ s2.m_lastIncSeqNum = s.m_lastIncSeqNum ∧ image s2 = imageStep (image s) u := by
  unfold applyUpdate at h
  rw [hty] at h
  simp only [bind, Except.bind] at h
  cases ha : arrayAt ME_MAX_ORDER_IDS u.orderId with
  | error e =>
    rw [ha] at h
    exact absurd h (by simp)
  | ok x =>
    rw [ha] at h
    simp only at h
    cases hslot : s.m_tickerOrders u.tickerId u.orderId with
    | none =>
      rw [hslot] at h
      exact absurd h (by simp)
    | some p =>
      rw [hslot] at h
      simp only at h
      by_cases h1 : (s.m_orderPool.obj p).orderId ≠ u.orderId
      · rw [if_pos h1] at h
        exact absurd h (by simp)
      rw [if_neg h1] at h
      by_cases h2 : (s.m_orderPool.obj p).side ≠ u.side
      · rw [if_pos h2] at h
        exact absurd h (by simp)
      rw [if_neg h2] at h
      simp only [pure, Except.pure, Except.ok.injEq] at h
      have hto : s2.m_tickerOrders = s.m_tickerOrders := by rw [← h]
      have hobj : ∀ q, s2.m_orderPool.obj q =
          if q = p then { s.m_orderPool.obj p with qty := u.qty, price := u.price }
          else s.m_orderPool.obj q := by
        intro q
        rw [← h]
        simp only [CMemoryPool.obj, CMemoryPool.modify, Function.update_apply]
        split
        · rfl
        · rfl
      have hfr : ∀ q, (s2.m_orderPool.m_store q).isFree = (s.m_orderPool.m_store q).isFree := by
        intro q
        rw [← h]
        simp only [CMemoryPool.modify, Function.update_apply]
        split
        · first
          | rfl
          | (rename_i hq
             rw [hq])
        · rfl
      refine ⟨⟨?_, ?_, ?_, ?_⟩, by rw [← h], ?_⟩
      · intro t id q hq
        rw [hto] at hq
        exact hok.bounds t id q hq
      · intro t id q hq
        rw [hto] at hq
        rw [hfr]
        exact hok.busy t id q hq
      · intro t id t2 id2 q hq hq2
        rw [hto] at hq hq2
        exact hok.inj t id t2 id2 q hq hq2
      · intro t id q hq
        rw [hto] at hq
        rw [hobj]
        split
        · rename_i he
          rw [he] at hq
          exact hok.keyed t id p hq
        · exact hok.keyed t id q hq
      · funext t id
        unfold imageStep
        rw [hty]
        simp only
        rw [update2_fun]
        unfold image
        rw [hto]
        split
        · rename_i hc
          rw [hc.1, hc.2, hslot]
          simp only [Option.map_some', hobj, if_true]
        · rename_i hc
          cases hq : s.m_tickerOrders t id with
          | none => rfl
          | some q =>
            have hqp : q ≠ p := fun he => hc (hok.inj t id u.tickerId u.orderId p (he ▸ hq) hslot)
            simp only [Option.map_some', hobj, if_neg hqp]

/-- A CANCEL that the `switch` takes. -/
theorem applyUpdate_cancel {s s2 : CSnapshotSynthesizer} {u : SMEMarketUpdate} (hok : ImageOK s)
    (hty : u.type = .CANCEL) (h : s.applyUpdate u = .ok s2) :
    ImageOK s2 ∧ s2.m_lastIncSeqNum = s.m_lastIncSeqNum ∧ image s2 = imageStep (image s) u := by
  unfold applyUpdate at h
  rw [hty] at h
  simp only [bind, Except.bind] at h
  cases ha : arrayAt ME_MAX_ORDER_IDS u.orderId with
  | error e =>
    rw [ha] at h
    exact absurd h (by simp)
  | ok x =>
    rw [ha] at h
    simp only at h
    cases hslot : s.m_tickerOrders u.tickerId u.orderId with
    | none =>
      rw [hslot] at h
      exact absurd h (by simp)
    | some p =>
      rw [hslot] at h
      simp only at h
      by_cases h1 : (s.m_orderPool.obj p).orderId ≠ u.orderId
      · rw [if_pos h1] at h
        exact absurd h (by simp)
      rw [if_neg h1] at h
      by_cases h2 : (s.m_orderPool.obj p).side ≠ u.side
      · rw [if_pos h2] at h
        exact absurd h (by simp)
      rw [if_neg h2] at h
      cases hde : s.m_orderPool.Deallocate p with
      | error e =>
        rw [hde] at h
        exact absurd h (by simp)
      | ok pool =>
        rw [hde] at h
        simp only [pure, Except.pure, Except.ok.injEq] at h
        obtain ⟨-, hpool⟩ := CMemoryPool.Deallocate_store hde
        have hto : ∀ t id, s2.m_tickerOrders t id =
            if t = u.tickerId ∧ id = u.orderId then none else s.m_tickerOrders t id := by
          intro t id
          rw [← h]
          exact tickerOrders_setOrder _ _ _ _ _ _
        have hp2 : s2.m_orderPool = s.m_orderPool.release p := by rw [← h, ← hpool]; rfl
        have hobj : ∀ q, s2.m_orderPool.obj q = s.m_orderPool.obj q := by
          intro q
          rw [hp2]
          simp only [CMemoryPool.obj, CMemoryPool.release, Function.update_apply]
          split
          · first
            | rfl
            | (rename_i hq
               rw [hq])
          · rfl
        have hfr : ∀ q, q ≠ p →
            (s2.m_orderPool.m_store q).isFree = (s.m_orderPool.m_store q).isFree := by
          intro q hq
          rw [hp2]
          simp only [CMemoryPool.release, Function.update_apply, if_neg hq]
        have hother : ∀ t id q, ¬ (t = u.tickerId ∧ id = u.orderId) →
            s.m_tickerOrders t id = some q → q ≠ p := fun t id q hc hq he =>
          hc (hok.inj t id u.tickerId u.orderId p (he ▸ hq) hslot)
        refine ⟨⟨?_, ?_, ?_, ?_⟩, by rw [← h]; rfl, ?_⟩
        · intro t id q hq
          rw [hto] at hq
          split at hq
          · exact Option.noConfusion hq
          · exact hok.bounds t id q hq
        · intro t id q hq
          rw [hto] at hq
          split at hq
          · exact Option.noConfusion hq
          · rename_i hc
            rw [hfr q (hother t id q hc hq)]
            exact hok.busy t id q hq
        · intro t id t2 id2 q hq hq2
          rw [hto] at hq hq2
          split at hq
          · exact Option.noConfusion hq
          · split at hq2
            · exact Option.noConfusion hq2
            · exact hok.inj t id t2 id2 q hq hq2
        · intro t id q hq
          rw [hto] at hq
          split at hq
          · exact Option.noConfusion hq
          · rw [hobj]
            exact hok.keyed t id q hq
        · funext t id
          unfold imageStep
          rw [hty]
          simp only
          rw [update2_fun]
          unfold image
          rw [hto]
          split
          · rfl
          · cases hq : s.m_tickerOrders t id with
            | none => rfl
            | some q => simp only [Option.map_some', hobj]

/-- The `switch` of `AddToSnapshot`, when it returns: the image stays well formed and changes
by `imageStep`; the sequence number is not touched. -/
theorem applyUpdate_spec {s s2 : CSnapshotSynthesizer} {u : SMEMarketUpdate} (hok : ImageOK s)
    (ht : u.tickerId < ME_MAX_TICKERS) (h : s.applyUpdate u = .ok s2) :
    ImageOK s2 ∧ s2.m_lastIncSeqNum = s.m_lastIncSeqNum ∧ image s2 = imageStep (image s) u := by
  cases hty : u.type with
  | ADD => exact applyUpdate_add hok ht hty h
  | MODIFY => exact applyUpdate_modify hok hty h
  | CANCEL => exact applyUpdate_cancel hok hty h
  | INVALID =>
    simp only [applyUpdate, hty, pure, Except.pure, Except.ok.injEq] at h
    subst h
    exact ⟨hok, rfl, by simp only [imageStep, hty]⟩
  | CLEAR =>
    simp only [applyUpdate, hty, pure, Except.pure, Except.ok.injEq] at h
    subst h
    exact ⟨hok, rfl, by simp only [imageStep, hty]⟩
  | TRADE =>
    simp only [applyUpdate, hty, pure, Except.pure, Except.ok.injEq] at h
    subst h
    exact ⟨hok, rfl, by simp only [imageStep, hty]⟩
  | SNAPSHOT_START =>
    simp only [applyUpdate, hty, pure, Except.pure, Except.ok.injEq] at h
    subst h
    exact ⟨hok, rfl, by simp only [imageStep, hty]⟩
  | SNAPSHOT_END =>
    simp only [applyUpdate, hty, pure, Except.pure, Except.ok.injEq] at h
    subst h
    exact ⟨hok, rfl, by simp only [imageStep, hty]⟩

/-- Method `AddToSnapshot`, when it returns: the image stays well formed and changes by
`imageStep`, and the record carried the sequence number after the last one, which it
becomes. -/
theorem AddToSnapshot_spec {s s2 : CSnapshotSynthesizer} {r : MDPMarketUpdate} (hok : ImageOK s)
    (h : s.AddToSnapshot r = .ok s2) :
    ImageOK s2 ∧ image s2 = imageStep (image s) r.me_market_update_ ∧
      r.seqNum = (s.m_lastIncSeqNum + 1) % 2 ^ 64 ∧ s2.m_lastIncSeqNum = r.seqNum := by
  unfold AddToSnapshot at h
  simp only [bind, Except.bind] at h
  cases ha : arrayAt ME_MAX_TICKERS r.me_market_update_.tickerId with
  | error e =>
    rw [ha] at h
    exact absurd h (by simp)
  | ok x =>
    rw [ha] at h
    simp only at h
    cases hap : s.applyUpdate r.me_market_update_ with
    | error e =>
      rw [hap] at h
      exact absurd h (by simp)
    | ok s1 =>
      rw [hap] at h
      simp only at h
      obtain ⟨hok1, hseq, himg⟩ := applyUpdate_spec hok (arrayAt_ok ha) hap
      by_cases hs : r.seqNum ≠ (s1.m_lastIncSeqNum + 1) % 2 ^ 64
      · rw [if_pos hs] at h
        exact absurd h (by simp)
      · rw [if_neg hs] at h
        simp only [pure, Except.pure, Except.ok.injEq] at h
        subst h
        refine ⟨⟨hok1.bounds, hok1.busy, hok1.inj, hok1.keyed⟩, himg, ?_, rfl⟩
        rw [← hseq]
        exact not_not.1 hs

theorem drain_append : ∀ (a b : List MDPMarketUpdate) (s : CSnapshotSynthesizer),
    s.drain (a ++ b) = match s.drain a with
      | .ok s1 => s1.drain b
      | .error e => .error e
  | [], _, _ => rfl
  | r :: a, b, s => by
    simp only [List.cons_append, drain]
    cases s.AddToSnapshot r with
    | error e => rfl
    | ok s1 => exact drain_append a b s1

/-- The loop of `Run`, when it returns: the image stays well formed and is the fold of
`imageStep` over the updates. -/
theorem drain_spec : ∀ (rs : List MDPMarketUpdate) {s s2 : CSnapshotSynthesizer},
    ImageOK s → s.drain rs = .ok s2 →
    ImageOK s2 ∧
      image s2 = (rs.map fun r => r.me_market_update_).foldl imageStep (image s)
  | [], s, s2, hok, h => by
    simp only [drain, Except.ok.injEq] at h
    subst h
    exact ⟨hok, rfl⟩
  | r :: rs, s, s2, hok, h => by
    simp only [drain] at h
    cases ha : s.AddToSnapshot r with
    | error e =>
      rw [ha] at h
      exact absurd h (by simp)
    | ok s1 =>
      rw [ha] at h
      obtain ⟨hok1, himg, -, -⟩ := AddToSnapshot_spec hok ha
      obtain ⟨hok2, himg2⟩ := drain_spec rs hok1 h
      exact ⟨hok2, by rw [himg2, himg]; rfl⟩

end CSnapshotSynthesizer

end Exchange

namespace Exchange

open Common

namespace CSnapshotSynthesizer

/-- Where the claim's reading of an update and the synthesizer agree: on every update but a
CLEAR and a MODIFY that carries another price than the one of its order. -/
theorem imageStep_eq_specApply {img : OrderSets} {u : SMEMarketUpdate} (hc : u.type ≠ .CLEAR)
    (hp : u.type = .MODIFY → ∀ o, img u.tickerId u.orderId = some o → o.price = u.price) :
    imageStep img u = specApply img u := by
  cases hty : u.type with
  | CLEAR => exact absurd hty hc
  | MODIFY =>
    simp only [imageStep, specApply, hty]
    cases ho : img u.tickerId u.orderId with
    | none => rfl
    | some o =>
      have := hp hty o ho
      simp only [Option.map_some', this]
  | ADD => simp only [imageStep, specApply, hty]
  | CANCEL => simp only [imageStep, specApply, hty]
  | INVALID => simp only [imageStep, specApply, hty]
  | TRADE => simp only [imageStep, specApply, hty]
  | SNAPSHOT_START => simp only [imageStep, specApply, hty]
  | SNAPSHOT_END => simp only [imageStep, specApply, hty]

theorem specReplay_cons (st : OrderSets) (u : SMEMarketUpdate) (us : List SMEMarketUpdate) :
    specReplay st (u :: us) = specReplay (specApply st u) us := rfl

theorem specReplay_append (st : OrderSets) (a b : List SMEMarketUpdate) :
    specReplay st (a ++ b) = specReplay (specReplay st a) b := by
  simp [specReplay, List.foldl_append]

theorem KeepsPrices_init {a : List SMEMarketUpdate} {u : SMEMarketUpdate}
    (h : KeepsPrices (a ++ [u])) : KeepsPrices a := by
  intro i v hv hty o ho
  have hi : i < a.length := (List.getElem?_eq_some_iff.1 hv).1
  refine h i v ?_ hty o ?_
  · rw [List.getElem?_append_left hi]
    exact hv
  · rw [List.take_append_of_le_length (le_of_lt hi)]
    exact ho

/-- On a list without CLEAR whose MODIFY updates keep the prices, the synthesizer's image
and the claim's interpretation coincide. -/
theorem foldl_imageStep_eq (pre : List SMEMarketUpdate) :
    (∀ u ∈ pre, u.type ≠ .CLEAR) → KeepsPrices pre →
    pre.foldl imageStep noOrders = specReplay noOrders pre := by
  induction pre using List.reverseRecOn with
  | nil => intro _ _; rfl
  | append_singleton a u ih =>
    intro hc hp
    have iha := ih (fun v hv => hc v (List.mem_append_left _ hv)) (KeepsPrices_init hp)
    rw [List.foldl_append, specReplay_append, iha]
    show imageStep (specReplay noOrders a) u = specApply (specReplay noOrders a) u
    refine imageStep_eq_specApply (hc u (by simp)) fun hty o ho => ?_
    refine hp a.length u ?_ hty o ?_
    · simp
    · rw [List.take_left']
      · exact ho
      · rfl

/-- The claim's operations act on each ticker by itself. -/
theorem specApply_congr {st st2 : OrderSets} {t : Nat} (h : st t = st2 t) (u : SMEMarketUpdate) :
    specApply st u t = specApply st2 u t := by
  unfold specApply
  by_cases ht : t = u.tickerId
  · subst ht
    cases u.type <;> simp [h]
  · cases u.type <;> simp [Function.update_noteq ht, h]

theorem specReplay_congr : ∀ (us : List SMEMarketUpdate) {st st2 : OrderSets} {t : Nat},
    st t = st2 t → specReplay st us t = specReplay st2 us t
  | [], _, _, _, h => h
  | u :: us, _, _, _, h => specReplay_congr us (specApply_congr h u)

theorem specApply_other {st : OrderSets} {t : Nat} {u : SMEMarketUpdate} (h : u.tickerId ≠ t) :
    specApply st u t = st t := by
  unfold specApply
  have ht : t ≠ u.tickerId := fun e => h e.symm
  cases u.type <;> simp [Function.update_noteq ht]

theorem specReplay_other : ∀ (us : List SMEMarketUpdate) (st : OrderSets) {t : Nat},
    (∀ u ∈ us, u.tickerId ≠ t) → specReplay st us t = st t
  | [], _, _, _ => rfl
  | u :: us, st, t, h => by
    show specReplay (specApply st u) us t = st t
    rw [specReplay_other us _ fun v hv => h v (List.mem_cons_of_mem _ hv),
      specApply_other (h u (List.mem_cons_self _ _))]

/-- Inserting the stored updates of one ticker, by order id. -/
theorem specReplay_records {g : Nat → Option SMEMarketUpdate} {t : Nat}
    (hg : ∀ id o, g id = some o → o.type = .ADD ∧ o.tickerId = t ∧ o.orderId = id) :
    ∀ (n : Nat) (st : OrderSets) (id : Nat),
      specReplay st ((List.range n).filterMap g) t id =
        if id < n then (g id).orElse fun _ => st t id else st t id
  | 0, st, id => by simp [specReplay]
  | n + 1, st, id => by
    rw [List.range_succ, List.filterMap_append, specReplay_append]
    have ih := specReplay_records hg n st
    cases hn : g n with
    | none =>
      simp only [List.filterMap_cons, hn, List.filterMap_nil]
      show specReplay st ((List.range n).filterMap g) t id = _
      rw [ih]
      by_cases h1 : id < n
      · rw [if_pos h1, if_pos (by omega)]
      · rw [if_neg h1]
        by_cases h2 : id = n
        · rw [if_pos (by omega), h2, hn]
          rfl
        · rw [if_neg (by omega)]
    | some o =>
      obtain ⟨hty, hti, hid⟩ := hg n o hn
      simp only [List.filterMap_cons, hn, List.filterMap_nil]
      show specApply (specReplay st ((List.range n).filterMap g)) o t id = _
      unfold specApply
      rw [hty]
      simp only
      rw [hti, hid, update2_fun]
      by_cases h2 : id = n
      · rw [if_pos ⟨rfl, h2⟩, if_pos (by omega), h2, hn]
        rfl
      · rw [if_neg (fun hc => h2 hc.2), ih]
        by_cases h1 : id < n
        · rw [if_pos h1, if_pos (by omega)]
        · rw [if_neg h1, if_neg (by omega)]

theorem tickerId_of_mem_tickerRecords {s : CSnapshotSynthesizer} (hok : ImageOK s) {t : Nat}
    {u : SMEMarketUpdate} (h : u ∈ s.tickerRecords t) :
    u.tickerId = t ∧ (u.type = .CLEAR ∨ u.type = .ADD) := by
  unfold tickerRecords at h
  rcases List.mem_cons.1 h with rfl | h
  · exact ⟨rfl, Or.inl rfl⟩
  · obtain ⟨id, -, hid⟩ := List.mem_filterMap.1 h
    cases hp : s.m_tickerOrders t id with
    | none =>
      rw [hp] at hid
      exact Option.noConfusion hid
    | some p =>
      rw [hp] at hid
      simp only [Option.map_some', Option.some.injEq] at hid
      subst hid
      have := hok.keyed t id p hp
      exact ⟨this.2.1, Or.inr this.1⟩

/-- The records of one ticker of a snapshot cycle, interpreted from any state, leave that
ticker with the orders of the image. -/
theorem specReplay_tickerRecords {s : CSnapshotSynthesizer} (hok : ImageOK s) (st : OrderSets)
    (t : Nat) : specReplay st (s.tickerRecords t) t = image s t := by
  funext id
  unfold tickerRecords
  rw [specReplay_cons]
  have hg : ∀ id o, (s.m_tickerOrders t id).map s.m_orderPool.obj = some o →
      o.type = .ADD ∧ o.tickerId = t ∧ o.orderId = id := by
    intro id o ho
    cases hp : s.m_tickerOrders t id with
    | none =>
      rw [hp] at ho
      exact Option.noConfusion ho
    | some p =>
      rw [hp] at ho
      simp only [Option.map_some', Option.some.injEq] at ho
      subst ho
      exact hok.keyed t id p hp
  rw [specReplay_records (g := fun order_id =>
    (s.m_tickerOrders t order_id).map s.m_orderPool.obj) hg]
  have hclr : specApply st (clearUpdate t) t id = none := by
    simp [specApply, clearUpdate]
  rw [hclr]
  unfold image
  cases hp : s.m_tickerOrders t id with
  | none => simp
  | some p =>
    rw [if_pos (hok.bounds t id p hp).2]
    rfl

/-- The body of a snapshot cycle, interpreted from any state, leaves every ticker of the
exchange with the orders of the image. -/
theorem specReplay_body {s : CSnapshotSynthesizer} (hok : ImageOK s) :
    ∀ (n : Nat) (st : OrderSets) (t : Nat), t < n →
      specReplay st ((List.range n).flatMap s.tickerRecords) t = image s t
  | 0, _, _, h => absurd h (Nat.not_lt_zero _)
  | n + 1, st, t, h => by
    rw [List.range_succ, List.flatMap_append, specReplay_append]
    simp only [List.flatMap_cons, List.flatMap_nil, List.append_nil]
    by_cases hn : t = n
    · subst hn
      exact specReplay_tickerRecords hok _ _
    · rw [specReplay_other _ _ fun u hu => by
        rw [(tickerId_of_mem_tickerRecords hok hu).1]
        exact fun e => hn e.symm]
      exact specReplay_body hok n st t (by omega)

theorem numbered_updates : ∀ (us : List SMEMarketUpdate) (n : Nat),
    (numbered n us).map (fun r => r.me_market_update_) = us
  | [], _ => rfl
  | u :: us, n => by
    show u :: (numbered (n + 1) us).map (fun r => r.me_market_update_) = u :: us
    rw [numbered_updates us (n + 1)]

end CSnapshotSynthesizer

end Exchange

namespace Trading

open Common Exchange Exchange.CSnapshotSynthesizer

/-- The body of the cycle that `PublishSnapshot` sends: for each instrument in turn, its
CLEAR and its stored updates. -/
theorem cycleBody_PublishSnapshot {s : CSnapshotSynthesizer} (hok : ImageOK s) :
    cycleBody s.PublishSnapshot = (List.range ME_MAX_TICKERS).flatMap s.tickerRecords := by
  unfold cycleBody PublishSnapshot
  rw [numbered_updates]
  have h0 : ¬ CMarketDataConsumer.isEvent (snapshotStart s.m_lastIncSeqNum) = true := by
    simp [CMarketDataConsumer.isEvent, snapshotStart]
  have h2 : ¬ CMarketDataConsumer.isEvent (snapshotEnd s.m_lastIncSeqNum) = true := by
    simp [CMarketDataConsumer.isEvent, snapshotEnd]
  have h1 : [snapshotEnd s.m_lastIncSeqNum].filter CMarketDataConsumer.isEvent = [] := by
    rw [List.filter_cons_of_neg h2]
    rfl
  rw [List.cons_append, List.filter_cons_of_neg h0, List.filter_append, h1, List.append_nil]
  refine List.filter_eq_self.2 fun u hu => ?_
  obtain ⟨t, -, ht⟩ := List.mem_flatMap.1 hu
  rcases (tickerId_of_mem_tickerRecords hok ht).2 with h | h <;>
    simp [CMarketDataConsumer.isEvent, h]

/-- The sequence number that the synthesizer is left with by the loop of `Run`. -/
theorem drain_last : ∀ (pre : List SMEMarketUpdate) (n : Nat) {s s2 : CSnapshotSynthesizer},
    ImageOK s → s.drain (numbered n pre) = .ok s2 → pre ≠ [] →
    s2.m_lastIncSeqNum = n + pre.length - 1
  | [], _, _, _, _, _, hne => absurd rfl hne
  | u :: pre, n, s, s2, hok, h, _ => by
    simp only [numbered, drain] at h
    cases ha : s.AddToSnapshot ⟨n, u⟩ with
    | error e =>
      rw [ha] at h
      exact absurd h (by simp)
    | ok s1 =>
      rw [ha] at h
      obtain ⟨hok1, -, -, hlast⟩ := AddToSnapshot_spec hok ha
      cases pre with
      | nil =>
        simp only [numbered, drain, Except.ok.injEq] at h
        subst h
        simpa using hlast
      | cons v pre =>
        have := drain_last (v :: pre) (n + 1) hok1 h (List.cons_ne_nil _ _)
        rw [this]
        simp only [List.length_cons]
        omega

theorem accepts_ok {us : List SMEMarketUpdate} (h : accepts us = true) :
    ∃ s, fresh.drain (numbered 1 us) = .ok s := by
  unfold accepts at h
  cases hd : fresh.drain (numbered 1 us) with
  | error e =>
    rw [hd] at h
    exact absurd h (by simp [Except.toBool])
  | ok s => exact ⟨s, rfl⟩

/-- After a stream that the synthesizer takes, the body of the published cycle, interpreted
from any state, leaves every ticker of the exchange with what `imageStep` makes of the
stream. -/
theorem body_of_accepted {us : List SMEMarketUpdate} {s : CSnapshotSynthesizer}
    (h : fresh.drain (numbered 1 us) = .ok s) (start : OrderSets) {t : Nat}
    (ht : t < ME_MAX_TICKERS) :
    specReplay start (cycleBody s.PublishSnapshot) t = us.foldl imageStep noOrders t := by
  obtain ⟨hok, himg⟩ := drain_spec _ ImageOK_fresh h
  rw [numbered_updates, image_fresh] at himg
  rw [cycleBody_PublishSnapshot hok, specReplay_body hok _ _ _ ht, himg]

/-- C20, amended. Splice equivalence. For every incremental stream `us` that the snapshot
synthesizer takes from its fresh state, numbered from 1, and every cursor `c` up to its
length, such that the first `c` updates hold no CLEAR and each MODIFY among them carries the
price of the order it modifies: the synthesizer has taken the first `c` updates with `c` as
its last sequence number, and interpreting the body of the snapshot cycle it publishes then
(the CLEAR and ADD entries of each ticker) followed by the updates after `c` as order-set
operations (CLEAR empties a ticker, ADD inserts, MODIFY updates the quantity, CANCEL removes,
every other type does nothing) yields, from any starting state, for every ticker below
`ME_MAX_TICKERS`, the same live orders as interpreting the whole stream from the empty
state. -/
theorem splice_equivalence (us : List SMEMarketUpdate) (c : Nat) (hc : c ≤ us.length)
    (hacc : accepts us = true) (hclear : ∀ u ∈ us.take c, u.type ≠ .CLEAR)
    (hprice : KeepsPrices (us.take c)) :
    ∃ sc, fresh.drain (numbered 1 (us.take c)) = .ok sc ∧ sc.m_lastIncSeqNum = c ∧
      ∀ (start : OrderSets) (t : Nat), t < ME_MAX_TICKERS →
        specReplay start (cycleBody sc.PublishSnapshot ++ us.drop c) t =
          specReplay noOrders us t := by
  obtain ⟨sk, hk⟩ := accepts_ok hacc
  have hsplit : numbered 1 us =
      numbered 1 (us.take c) ++ numbered (1 + (us.take c).length) (us.drop c) := by
    rw [← CMarketDataConsumer.numbered_append, List.take_append_drop]
  rw [hsplit, drain_append] at hk
  cases hd : fresh.drain (numbered 1 (us.take c)) with
  | error e =>
    rw [hd] at hk
    exact absurd hk (by simp)
  | ok sc =>
    refine ⟨sc, rfl, ?_, fun start t ht => ?_⟩
    · by_cases h0 : us.take c = []
      · rw [h0] at hd
        simp only [numbered, drain, Except.ok.injEq] at hd
        subst hd
        have := congrArg List.length h0
        rw [List.length_take, Nat.min_eq_left hc] at this
        rw [this]
        rfl
      · rw [drain_last _ _ ImageOK_fresh hd h0, List.length_take, Nat.min_eq_left hc]
        omega
    · rw [specReplay_append]
      conv_rhs => rw [← List.take_append_drop c us, specReplay_append]
      refine specReplay_congr _ ?_
      rw [body_of_accepted hd start ht, foldl_imageStep_eq _ hclear hprice]

theorem KeepsPrices_modify : KeepsPrices ([addOne, modifyOne, addTwo].take 2) := by
  intro i u hu hty o ho
  match i with
  | 0 =>
    simp only [List.take, List.getElem?_cons_zero, Option.some.injEq] at hu
    subst hu
    exact absurd hty (by decide)
  | 1 =>
    simp only [List.take, List.getElem?_cons_succ, List.getElem?_cons_zero,
      Option.some.injEq] at hu
    subst hu
    have h1 : specReplay noOrders (List.take 1 (List.take 2 [addOne, modifyOne, addTwo]))
        modifyOne.tickerId modifyOne.orderId = some addOne := by decide
    rw [h1] at ho
    simp only [Option.some.injEq] at ho
    subst ho
    rfl
  | n + 2 => simp [List.take] at hu

/-- The stream ADD, MODIFY at the price of the order, ADD of another order, with the cursor
after the MODIFY. -/
theorem splice_equivalence_at_modify :
    accepts [addOne, modifyOne, addTwo] = true ∧
    (∀ u ∈ [addOne, modifyOne, addTwo].take 2, u.type ≠ .CLEAR) ∧
    ∃ sc, fresh.drain (numbered 1 ([addOne, modifyOne, addTwo].take 2)) = .ok sc ∧
      sc.m_lastIncSeqNum = 2 ∧
      ∀ (start : OrderSets) (t : Nat), t < ME_MAX_TICKERS →
        specReplay start (cycleBody sc.PublishSnapshot ++ [addOne, modifyOne, addTwo].drop 2) t =
          specReplay noOrders [addOne, modifyOne, addTwo] t :=
  ⟨by decide, by decide,
    splice_equivalence [addOne, modifyOne, addTwo] 2 (by decide) (by decide) (by decide)
      KeepsPrices_modify⟩

/-- C20 as it is written fails on two streams that the synthesizer takes, with the cursor at
the end of the stream. After ADD, CLEAR the published body still inserts the order, which the
interpretation of the stream has removed: the synthesizer ignores a CLEAR. After ADD, MODIFY
with the price 101 the published body inserts the order at 101, and the interpretation of the
stream, whose MODIFY updates the quantity only, has it at 100. -/
theorem splice_differs_on_clear_and_price :
    (accepts [addOne, clearUpdate 0] = true ∧
      ∃ s, fresh.drain (numbered 1 [addOne, clearUpdate 0]) = .ok s ∧
        specReplay noOrders (cycleBody s.PublishSnapshot) 0 1 = some addOne ∧
        specReplay noOrders [addOne, clearUpdate 0] 0 1 = none) ∧
    (accepts [addOne, repriceOne] = true ∧
      ∃ s, fresh.drain (numbered 1 [addOne, repriceOne]) = .ok s ∧
        specReplay noOrders (cycleBody s.PublishSnapshot) 0 1 =
          some { addOne with qty := 5, price := 101 } ∧
        specReplay noOrders [addOne, repriceOne] 0 1 = some { addOne with qty := 5 }) := by
  have a1 : accepts [addOne, clearUpdate 0] = true := by decide
  have a2 : accepts [addOne, repriceOne] = true := by decide
  obtain ⟨s1, h1⟩ := accepts_ok a1
  obtain ⟨s2, h2⟩ := accepts_ok a2
  refine ⟨⟨a1, s1, h1, ?_, by decide⟩, a2, s2, h2, ?_, by decide⟩
  · rw [body_of_accepted h1 noOrders (by decide)]
    decide
  · rw [body_of_accepted h2 noOrders (by decide)]
    decide

end Trading

namespace Common

namespace CLockFreeQueue

variable {T : Type}

theorem Holds_init {n : Nat} (hn : 0 < n) (hn2 : n < 2 ^ 64) (dflt : T) :
    Holds (init n dflt) [] :=
  ⟨hn, hn2, rfl, Nat.zero_le _, hn, by simp [init], fun j h => absurd h (Nat.not_lt_zero _)⟩

theorem ring_index_inj {n r j k : Nat} (hj : j < n) (hk : k < n)
    (h : (r + j) % n = (r + k) % n) : j = k := by
  have h1 : (r + j) ≡ (r + k) [MOD n] := h
  have h2 : j ≡ k [MOD n] := Nat.ModEq.add_left_cancel' r h1
  have h3 : j % n = k % n := h2
  rwa [Nat.mod_eq_of_lt hj, Nat.mod_eq_of_lt hk] at h3

/-- A write to a queue that is not full appends the record to the unread ones. -/
theorem write_holds {q : CLockFreeQueue T} {pending : List T} (h : Holds q pending)
    (hlt : pending.length < q.capacity) (v : T) : Holds (q.write v) (pending ++ [v]) := by
  have hcap : (q.write v).capacity = q.capacity := rfl
  have hrd : (q.write v).m_nextReadIndex = q.m_nextReadIndex := rfl
  refine ⟨h.pos, h.size_t, ?_, ?_, h.rd, ?_, ?_⟩
  · show (q.m_numElements + 1) % 2 ^ 64 = (pending ++ [v]).length
    rw [h.count, List.length_append, List.length_singleton, Nat.mod_eq_of_lt]
    have := h.size_t
    omega
  · rw [List.length_append, List.length_singleton, hcap]
    omega
  · show (q.m_nextWriteIndex + 1) % q.capacity = _
    rw [hrd, hcap, h.wr, List.length_append, List.length_singleton, Nat.add_mod,
      Nat.mod_mod, ← Nat.add_mod, Nat.add_assoc]
  · intro j hj
    rw [hrd, hcap]
    show Function.update q.m_store q.m_nextWriteIndex v _ = _
    rw [List.length_append, List.length_singleton] at hj
    by_cases hjl : j = pending.length
    · subst hjl
      rw [← h.wr, Function.update_same]
      simp
    · have hj2 : j < pending.length := by omega
      rw [Function.update_noteq, h.slot j hj2]
      · simp [List.getElem_append_left hj2]
      · rw [h.wr]
        intro he
        exact hjl (ring_index_inj (by omega) hlt he)

/-- A read of a queue that holds a record observes the oldest unread one and leaves the
others. -/
theorem read_holds {q : CLockFreeQueue T} {p : T} {rest : List T} (h : Holds q (p :: rest)) :
    ∃ q2, q.read = .ok (some p, q2) ∧ Holds q2 rest := by
  have hc : q.m_numElements = rest.length + 1 := h.count
  have h0 := h.slot 0 (by simp)
  simp only [Nat.add_zero, Nat.mod_eq_of_lt h.rd, List.get_eq_getElem,
    List.getElem_cons_zero] at h0
  refine ⟨{ q with m_nextReadIndex := (q.m_nextReadIndex + 1) % q.capacity
                   m_numElements := q.m_numElements - 1 }, ?_, ?_⟩
  · simp [read, UpdateReadIndex, GetNextToRead, size, hc, h0]
  · refine ⟨h.pos, h.size_t, ?_, ?_, Nat.mod_lt _ h.pos, ?_, ?_⟩
    · show q.m_numElements - 1 = rest.length
      omega
    · have := h.le
      simp only [List.length_cons] at this
      show rest.length ≤ q.capacity
      omega
    · show q.m_nextWriteIndex = ((q.m_nextReadIndex + 1) % q.capacity + rest.length) % q.capacity
      rw [h.wr, List.length_cons, Nat.add_mod ((q.m_nextReadIndex + 1) % q.capacity),
        Nat.mod_mod, ← Nat.add_mod]
      congr 1
      omega
    · intro j hj
      show q.m_store (((q.m_nextReadIndex + 1) % q.capacity + j) % q.capacity) = _
      have := h.slot (j + 1) (by simp only [List.length_cons]; omega)
      rw [Nat.add_mod ((q.m_nextReadIndex + 1) % q.capacity), Nat.mod_mod, ← Nat.add_mod]
      have e : q.m_nextReadIndex + 1 + j = q.m_nextReadIndex + (j + 1) := by omega
      rw [e, this]
      simp

theorem Admissible_take {n : Nat} : ∀ (ops : List (QueueOp T)) (unread k : Nat),
    QueueOp.Admissible n unread ops → QueueOp.Admissible n unread (ops.take k)
  | [], _, _, _ => by simp [QueueOp.Admissible]
  | _ :: _, _, 0, _ => by simp [QueueOp.Admissible]
  | .write v :: ops, unread, k + 1, h => by
    simp only [List.take_succ_cons, QueueOp.Admissible] at h ⊢
    exact ⟨h.1, Admissible_take ops _ k h.2⟩
  | .read :: ops, unread, k + 1, h => by
    simp only [List.take_succ_cons, QueueOp.Admissible] at h ⊢
    exact ⟨h.1, Admissible_take ops _ k h.2⟩

/-- The ring queue against the list it stands for: an admissible sequence of operations runs
to its end, the reads observe the unread and written records in order, and the queue holds the
ones that are left. -/
theorem run_holds : ∀ (ops : List (QueueOp T)) {q : CLockFreeQueue T} {pending : List T},
    Holds q pending → QueueOp.Admissible q.capacity pending.length ops →
    ∃ q2 ds, q.run ops = .ok (q2, ds) ∧
      ds = ((pending ++ QueueOp.written ops).take (QueueOp.reads ops)).map some ∧
      Holds q2 ((pending ++ QueueOp.written ops).drop (QueueOp.reads ops)) ∧
      q2.capacity = q.capacity
  | [], q, pending, h, _ => ⟨q, [], rfl, by simp [QueueOp.reads], by
      simpa [QueueOp.reads, QueueOp.written] using h, rfl⟩
  | .write v :: ops, q, pending, h, ha => by
    simp only [QueueOp.Admissible] at ha
    have hw := write_holds h (by omega) v
    obtain ⟨q2, ds, hrun, hds, hh, hcap⟩ := run_holds ops hw (by
      simpa [List.length_append] using ha.2)
    refine ⟨q2, ds, hrun, ?_, ?_, hcap⟩
    · simpa [QueueOp.written, QueueOp.reads] using hds
    · simpa [QueueOp.written, QueueOp.reads] using hh
  | .read :: ops, q, pending, h, ha => by
    simp only [QueueOp.Admissible] at ha
    cases pending with
    | nil => exact absurd ha.1 (by simp)
    | cons p rest =>
      obtain ⟨q1, hread, hr⟩ := read_holds h
      have hc1 : q1.capacity = q.capacity := by
        simp only [read, UpdateReadIndex] at hread
        split at hread
        · rename_i q2 heq
          split at heq
          · exact absurd heq (by simp)
          · simp only [Except.ok.injEq, Prod.mk.injEq] at hread heq
            rw [← hread.2, ← heq]
        · exact absurd hread (by simp)
      obtain ⟨q2, ds, hrun, hds, hh, hcap⟩ := run_holds ops hr (by
        rw [hc1]
        simpa using ha.2)
      refine ⟨q2, some p :: ds, ?_, ?_, ?_, hcap.trans hc1⟩
      · simp only [run, hread, hrun]
      · simp [QueueOp.written, QueueOp.reads, hds]
      · simpa [QueueOp.written, QueueOp.reads] using hh

theorem reads_le_of_admissible {n : Nat} : ∀ (ops : List (QueueOp T)) (unread : Nat),
    QueueOp.Admissible n unread ops →
    QueueOp.reads ops ≤ unread + (QueueOp.written ops).length
  | [], _, _ => by simp [QueueOp.reads]
  | .write v :: ops, unread, h => by
    simp only [QueueOp.Admissible] at h
    have := reads_le_of_admissible ops _ h.2
    simp only [QueueOp.reads, QueueOp.written, List.length_cons]
    omega
  | .read :: ops, unread, h => by
    simp only [QueueOp.Admissible] at h
    have := reads_le_of_admissible ops _ h.2
    simp only [QueueOp.reads, QueueOp.written]
    omega

/-- C25. Ring queue FIFO, sequential model. On a queue of capacity `n` with `1 ≤ n` (a
`size_t`), for every sequence of writes and reads in which no write makes the unread records
more than `n` and every read finds an unread record, after each operation: the operations
so far have run without a fault, the reads have observed, in order, the first written records
(the i-th read the i-th written record), `size()` is the number of writes minus the number of
reads, and `GetNextToRead` returns `nullptr` exactly when `size()` is 0. -/
theorem ring_fifo (n : Nat) (hn : 1 ≤ n) (hn2 : n < 2 ^ 64) (dflt : T) (ops : List (QueueOp T))
    (hadm : QueueOp.Admissible n 0 ops) (k : Nat) :
    ∃ q ds, (init n dflt).run (ops.take k) = .ok (q, ds) ∧
      ds = ((QueueOp.written (ops.take k)).take (QueueOp.reads (ops.take k))).map some ∧
      q.size = (QueueOp.written (ops.take k)).length - QueueOp.reads (ops.take k) ∧
      QueueOp.reads (ops.take k) ≤ (QueueOp.written (ops.take k)).length ∧
      (q.GetNextToRead = none ↔ q.size = 0) := by
  have ha := Admissible_take ops 0 k hadm
  obtain ⟨q, ds, hrun, hds, hh, -⟩ := run_holds (ops.take k) (Holds_init hn hn2 dflt) ha
  simp only [List.nil_append] at hds hh
  refine ⟨q, ds, hrun, hds, ?_, ?_, ?_⟩
  · show q.m_numElements = _
    rw [hh.count, List.length_drop]
  · simpa using reads_le_of_admissible _ _ ha
  · simp [GetNextToRead]

/-- Three writes and two reads on a queue of capacity 2. -/
theorem ring_fifo_at_five :
    QueueOp.Admissible 2 0 [QueueOp.write 10, .write 20, .read, .write 30, .read] ∧
    ∃ q ds, (init 2 0).run ([QueueOp.write 10, .write 20, .read, .write 30, .read].take 5) =
        .ok (q, ds) ∧
      ds = ((QueueOp.written ([QueueOp.write 10, .write 20, .read, .write 30, .read].take 5)).take
        (QueueOp.reads ([QueueOp.write 10, .write 20, .read, .write 30, .read].take 5))).map
          some ∧
      q.size = (QueueOp.written
          ([QueueOp.write 10, .write 20, .read, .write 30, .read].take 5)).length -
        QueueOp.reads ([QueueOp.write 10, .write 20, .read, .write 30, .read].take 5) ∧
      QueueOp.reads ([QueueOp.write 10, .write 20, .read, .write 30, .read].take 5) ≤
        (QueueOp.written ([QueueOp.write 10, .write 20, .read, .write 30, .read].take 5)).length ∧
      (q.GetNextToRead = none ↔ q.size = 0) :=
  ⟨by simp [QueueOp.Admissible],
    ring_fifo 2 (by decide) (by norm_num) (0 : Nat) _ (by simp [QueueOp.Admissible]) 5⟩

/-- C26. What the code does on an overrun: a write to a queue that holds as many unread
records as its capacity is not detected. The write is carried out, the oldest unread record is
overwritten by the new one, so that the next read observes the new record and the oldest one
is lost, and `size()` is the capacity plus one. -/
theorem overrun_overwrites {q : CLockFreeQueue T} {p : T} {rest : List T}
    (h : Holds q (p :: rest)) (hfull : (p :: rest).length = q.capacity)
    (hsz : q.capacity + 1 < 2 ^ 64) (v : T) :
    (q.write v).size = q.capacity + 1 ∧
    (q.write v).m_store q.m_nextReadIndex = v ∧
    ∃ q2, (q.write v).read = .ok (some v, q2) := by
  have hw : q.m_nextWriteIndex = q.m_nextReadIndex := by
    rw [h.wr, hfull, Nat.add_mod_right, Nat.mod_eq_of_lt h.rd]
  have hc : q.m_numElements = q.capacity := by rw [h.count, hfull]
  have h1 : (q.write v).m_store q.m_nextReadIndex = v := by
    show Function.update q.m_store q.m_nextWriteIndex v q.m_nextReadIndex = v
    rw [hw, Function.update_same]
  have h2 : (q.write v).m_numElements = q.capacity + 1 := by
    show (q.m_numElements + 1) % 2 ^ 64 = _
    rw [hc, Nat.mod_eq_of_lt hsz]
  refine ⟨h2, h1, ?_⟩
  have h3 : (q.write v).m_nextReadIndex = q.m_nextReadIndex := rfl
  simp [read, UpdateReadIndex, GetNextToRead, size, h2, h3, h1]

/-- A queue of capacity 1 after the writes of 10 and then 20: the read observes 20. -/
theorem overrun_overwrites_at_one :
    Holds ((init 1 0).write 10) [10] ∧
    (((init 1 0).write 10).write 20).size = 1 + 1 ∧
    (((init 1 0).write 10).write 20).m_store ((init 1 0).write 10).m_nextReadIndex = 20 ∧
    ∃ q2, (((init 1 0).write 10).write 20).read = .ok (some 20, q2) :=
  ⟨write_holds (Holds_init (by decide) (by norm_num) 0) (by decide) 10,
    overrun_overwrites (p := 10) (write_holds (Holds_init (by decide) (by norm_num) 0)
      (by decide) 10) rfl (by decide) 20⟩

end CLockFreeQueue

end Common

namespace Common

namespace CMemoryPool

variable {T : Type}

open Exchange

/-- The cursor search, when it returns: the slot it returns is free, it is the first free one
on the way forward from the start of the search, and the way does not pass by `init`. -/
theorem UpdateNextFreeIndexLoop_first (p : CMemoryPool T) (init : Nat) (hn : 0 < p.numElems) :
    ∀ (fuel next k : Nat), next < p.numElems →
      UpdateNextFreeIndexLoop p init fuel next = .ok k →
      ∃ d, k = (next + d) % p.numElems ∧ (p.m_store k).isFree = true ∧
        (∀ e, e < d → (p.m_store ((next + e) % p.numElems)).isFree = false) ∧
        ∀ e, 0 < e → e ≤ d → (next + e) % p.numElems ≠ init
  | 0, _, _, _, h => by simp [UpdateNextFreeIndexLoop] at h
  | fuel + 1, next, k, hlt, h => by
    unfold UpdateNextFreeIndexLoop at h
    by_cases hf : (p.m_store next).isFree = true
    · simp only [hf, if_true, Except.ok.injEq] at h
      subst h
      exact ⟨0, by rw [Nat.add_zero, Nat.mod_eq_of_lt hlt], hf, fun e he => by omega,
        fun e h1 h2 => by omega⟩
    · simp only [hf, Bool.false_eq_true, if_false] at h
      have hw : (if next + 1 = p.numElems then 0 else next + 1) = (next + 1) % p.numElems := by
        have := succ_wrap next p.numElems hn
        rwa [Nat.mod_eq_of_lt hlt] at this
      rw [hw] at h
      by_cases hi : init = (next + 1) % p.numElems
      · rw [if_pos hi] at h
        exact absurd h (by simp)
      · rw [if_neg hi] at h
        obtain ⟨d, hk, hfree, hbusy, hpass⟩ :=
          UpdateNextFreeIndexLoop_first p init hn fuel _ k (Nat.mod_lt _ hn) h
        have hshift : ∀ e, ((next + 1) % p.numElems + e) % p.numElems =
            (next + (e + 1)) % p.numElems := by
          intro e
          rw [Nat.add_mod ((next + 1) % p.numElems), Nat.mod_mod, ← Nat.add_mod]
          congr 1
          omega
        refine ⟨d + 1, by rw [hk, hshift], hfree, fun e he => ?_, fun e h1 h2 => ?_⟩
        · cases e with
          | zero =>
            rw [Nat.add_zero, Nat.mod_eq_of_lt hlt]
            simpa using hf
          | succ e =>
            rw [← hshift]
            exact hbusy e (by omega)
        · cases e with
          | zero => omega
          | succ e =>
            cases e with
            | zero => exact fun he => hi he.symm
            | succ e =>
              rw [← hshift]
              exact hpass (e + 1) (by omega) (by omega)

/-- The cursor search on a pool without a free slot on the way: it is fatal when it is back
at its start. -/
theorem UpdateNextFreeIndexLoop_exhausted (p : CMemoryPool T) (init : Nat)
    (hn : 0 < p.numElems) :
    ∀ (d fuel next : Nat), 0 < d → d ≤ fuel → next < p.numElems →
      (next + d) % p.numElems = init →
      (∀ e, e < d → (p.m_store ((next + e) % p.numElems)).isFree = false) →
      (∀ e, 0 < e → e < d → (next + e) % p.numElems ≠ init) →
      UpdateNextFreeIndexLoop p init fuel next = .error .assertFailed
  | 0, _, _, h, _, _, _, _, _ => by omega
  | _ + 1, 0, _, _, h, _, _, _, _ => by omega
  | d + 1, fuel + 1, next, _, hfuel, hlt, hback, hbusy, hpass => by
    unfold UpdateNextFreeIndexLoop
    have hf : (p.m_store next).isFree = false := by
      have := hbusy 0 (by omega)
      rwa [Nat.add_zero, Nat.mod_eq_of_lt hlt] at this
    have hw : (if next + 1 = p.numElems then 0 else next + 1) = (next + 1) % p.numElems := by
      have := succ_wrap next p.numElems hn
      rwa [Nat.mod_eq_of_lt hlt] at this
    simp only [hf, Bool.false_eq_true, if_false, hw]
    have hshift : ∀ e, ((next + 1) % p.numElems + e) % p.numElems =
        (next + (e + 1)) % p.numElems := by
      intro e
      rw [Nat.add_mod ((next + 1) % p.numElems), Nat.mod_mod, ← Nat.add_mod]
      congr 1
      omega
    by_cases hd : d = 0
    · subst hd
      rw [if_pos hback.symm]
    · have hne : init ≠ (next + 1) % p.numElems := fun he =>
        hpass 1 (by omega) (by omega) he.symm
      rw [if_neg hne]
      refine UpdateNextFreeIndexLoop_exhausted p init hn d fuel _ (by omega) (by omega)
        (Nat.mod_lt _ hn) (by rw [hshift]; exact hback) (fun e he => ?_) (fun e h1 h2 => ?_)
      · rw [hshift]
        exact hbusy (e + 1) (by omega)
      · rw [hshift]
        exact hpass (e + 1) (by omega) (by omega)

theorem ring_reach {n i j : Nat} (hi : i < n) (hj : j < n) :
    ∃ e, e < n ∧ (i + e) % n = j := by
  by_cases h : i ≤ j
  · exact ⟨j - i, by omega, by
      rw [Nat.mod_eq_of_lt (by omega)]
      omega⟩
  · exact ⟨j + n - i, by omega, by
      rw [Nat.mod_eq_sub_mod (by omega), Nat.mod_eq_of_lt (by omega)]
      omega⟩

/-- Without a free slot besides the cursor's, `Allocate` is fatal. -/
theorem Allocate_exhausted {p : CMemoryPool T} {n : Nat} (v : T) (hp : PoolOK p n)
    (hs : ¬ Spare p) : p.Allocate v = .error .assertFailed := by
  have hn : p.numElems = n := hp.1
  have hc : p.m_nextFreeIndex < p.numElems := by
    rw [hn]
    exact hp.2.1
  have hpos : 0 < p.numElems := by omega
  unfold Allocate
  rw [if_pos hp.2.2]
  unfold UpdateNextFreeIndex
  simp only
  have hloop := UpdateNextFreeIndexLoop_exhausted
    ({ p with m_store := Function.update p.m_store p.m_nextFreeIndex ⟨v, false⟩ } :
      CMemoryPool T) p.m_nextFreeIndex hpos p.numElems (p.numElems + 1) p.m_nextFreeIndex hpos
    (by omega) hc (by rw [Nat.add_mod_right, Nat.mod_eq_of_lt hc])
    (fun e he => by
      show ((Function.update p.m_store p.m_nextFreeIndex ⟨v, false⟩)
        ((p.m_nextFreeIndex + e) % p.numElems)).isFree = false
      by_cases hz : (p.m_nextFreeIndex + e) % p.numElems = p.m_nextFreeIndex
      · rw [hz, Function.update_same]
      · rw [Function.update_noteq hz]
        cases hfr : (p.m_store ((p.m_nextFreeIndex + e) % p.numElems)).isFree with
        | false => rfl
        | true => exact absurd ⟨_, Nat.mod_lt _ hpos, hz, hfr⟩ hs)
    (fun e h1 h2 => add_mod_ne _ _ _ hc h1 h2)
  rw [hloop]

/-- A completed `Allocate` had a free slot besides the cursor's. -/
theorem Spare_of_Allocate {p : CMemoryPool T} {n : Nat} {v : T} {r : Nat × CMemoryPool T}
    (hp : PoolOK p n) (h : p.Allocate v = .ok r) : Spare p := by
  by_contra hs
  rw [Allocate_exhausted v hp hs] at h
  exact Except.noConfusion h

/-- The cursor after a completed `Allocate`: the first free slot on the way forward from the
slot that was handed out. -/
theorem Allocate_cursor {p : CMemoryPool T} {n : Nat} {v : T} {r : Nat × CMemoryPool T}
    (hp : PoolOK p n) (h : p.Allocate v = .ok r) :
    ∃ d, 0 < d ∧ d < n ∧ r.2.m_nextFreeIndex = (r.1 + d) % n ∧
      (r.2.m_store r.2.m_nextFreeIndex).isFree = true ∧
      ∀ e, e < d → (r.2.m_store ((r.1 + e) % n)).isFree = false := by
  have hn : p.numElems = n := hp.1
  have hc : p.m_nextFreeIndex < p.numElems := by
    rw [hn]
    exact hp.2.1
  have hpos : 0 < p.numElems := by omega
  unfold Allocate at h
  rw [if_pos hp.2.2] at h
  unfold UpdateNextFreeIndex at h
  simp only at h
  split at h
  · rename_i p1 heq
    split at heq
    · rename_i k hk
      simp only [Except.ok.injEq] at heq h
      subst heq
      subst h
      obtain ⟨d, hkd, hfree, hbusy, hpass⟩ := UpdateNextFreeIndexLoop_first
        ({ p with m_store := Function.update p.m_store p.m_nextFreeIndex ⟨v, false⟩ } :
          CMemoryPool T) p.m_nextFreeIndex hpos _ _ k hc hk
      have hd0 : 0 < d := by
        rcases Nat.eq_zero_or_pos d with h0 | h0
        · subst h0
          rw [Nat.add_zero] at hkd
          have hk2 : k = p.m_nextFreeIndex := by
            rw [hkd]
            exact Nat.mod_eq_of_lt hc
          rw [hk2] at hfree
          simp at hfree
        · exact h0
      have hdn : d < p.numElems := by
        by_contra hge
        exact hpass p.numElems hpos (by omega) (by
          show (p.m_nextFreeIndex + p.numElems) % p.numElems = p.m_nextFreeIndex
          rw [Nat.add_mod_right, Nat.mod_eq_of_lt hc])
      refine ⟨d, hd0, by omega, ?_, hfree, fun e he => ?_⟩
      · show k = (p.m_nextFreeIndex + d) % n
        rw [hkd, ← hn]
      · rw [← hn]
        exact hbusy e he
    · exact absurd heq (by simp)
  · exact absurd h (by simp)

theorem busyCount_lt {p : CMemoryPool T} {n : Nat} (hp : PoolOK p n) : p.busyCount ≤ n - 1 := by
  unfold busyCount
  rw [hp.1, ← List.countP_eq_length_filter]
  have hsum := List.length_eq_countP_add_countP (fun i => !(p.m_store i).isFree) (List.range n)
  rw [List.length_range] at hsum
  have hpos : 0 < (List.range n).countP fun a => ¬ (!(p.m_store a).isFree) = true :=
    List.countP_pos_iff.2 ⟨p.m_nextFreeIndex, List.mem_range.2 hp.2.1, by simp [hp.2.2]⟩
  omega

theorem PoolOK_run : ∀ (ops : List (PoolOp T)) {p p2 : CMemoryPool T} {n : Nat}
    {rets : List (Option Nat)}, PoolOK p n → p.run ops = .ok (p2, rets) → PoolOK p2 n
  | [], p, p2, n, rets, hp, h => by
    simp only [run, Except.ok.injEq, Prod.mk.injEq] at h
    rw [← h.1]
    exact hp
  | .allocate v :: ops, p, p2, n, rets, hp, h => by
    simp only [run] at h
    cases ha : p.Allocate v with
    | error e =>
      rw [ha] at h
      exact absurd h (by simp)
    | ok r =>
      rw [ha] at h
      simp only at h
      cases hr : r.2.run ops with
      | error e =>
        rw [hr] at h
        exact absurd h (by simp)
      | ok x =>
        rw [hr] at h
        simp only [Except.ok.injEq, Prod.mk.injEq] at h
        have := PoolOK_run ops (Allocate_ok ha hp).2.2.2 hr
        rw [← h.1]
        exact this
  | .deallocate i :: ops, p, p2, n, rets, hp, h => by
    simp only [run] at h
    cases ha : p.Deallocate i with
    | error e =>
      rw [ha] at h
      exact absurd h (by simp)
    | ok p1 =>
      rw [ha] at h
      simp only at h
      cases hr : p1.run ops with
      | error e =>
        rw [hr] at h
        exact absurd h (by simp)
      | ok x =>
        rw [hr] at h
        simp only [Except.ok.injEq, Prod.mk.injEq] at h
        have hp1 : PoolOK p1 n := by
          rw [(Deallocate_store ha).2]
          exact PoolOK_release hp i
        have := PoolOK_run ops hp1 hr
        rw [← h.1]
        exact this

end CMemoryPool

end Common

namespace Common

namespace CMemoryPool

variable {T : Type}

open Exchange

/-- A slot that is busy and that a later `Allocate` of the sequence returns has been released
by a `Deallocate` before. -/
theorem run_reissue : ∀ (ops : List (PoolOp T)) {p p2 : CMemoryPool T} {n : Nat}
    {rets : List (Option Nat)}, PoolOK p n → p.run ops = .ok (p2, rets) →
    ∀ (b i : Nat), rets[b]? = some (some i) → (p.m_store i).isFree = false →
      ∃ c : Nat, c < b ∧ ops[c]? = some (PoolOp.deallocate i)
  | [], p, p2, n, rets, _, h, b, i, hb, _ => by
    simp only [run, Except.ok.injEq, Prod.mk.injEq] at h
    rw [← h.2] at hb
    simp at hb
  | .allocate v :: ops, p, p2, n, rets, hp, h, b, i, hb, hbusy => by
    simp only [run] at h
    cases ha : p.Allocate v with
    | error e =>
      rw [ha] at h
      exact absurd h (by simp)
    | ok r =>
      rw [ha] at h
      simp only at h
      cases hr : r.2.run ops with
      | error e =>
        rw [hr] at h
        exact absurd h (by simp)
      | ok x =>
        rw [hr] at h
        simp only [Except.ok.injEq, Prod.mk.injEq] at h
        obtain ⟨h1, -, hfr, hp1⟩ := Allocate_ok ha hp
        rw [← h.2] at hb
        cases b with
        | zero =>
          simp only [List.getElem?_cons_zero, Option.some.injEq] at hb
          rw [← hb, h1, hp.2.2] at hbusy
          exact Bool.noConfusion hbusy
        | succ b =>
          simp only [List.getElem?_cons_succ] at hb
          have hbusy1 : (r.2.m_store i).isFree = false := by
            rw [hfr]
            split
            · rfl
            · exact hbusy
          obtain ⟨c, hc, hop⟩ := run_reissue ops hp1 hr b i hb hbusy1
          exact ⟨c + 1, by omega, by simpa using hop⟩
  | .deallocate j :: ops, p, p2, n, rets, hp, h, b, i, hb, hbusy => by
    simp only [run] at h
    cases ha : p.Deallocate j with
    | error e =>
      rw [ha] at h
      exact absurd h (by simp)
    | ok p1 =>
      rw [ha] at h
      simp only at h
      cases hr : p1.run ops with
      | error e =>
        rw [hr] at h
        exact absurd h (by simp)
      | ok x =>
        rw [hr] at h
        simp only [Except.ok.injEq, Prod.mk.injEq] at h
        rw [← h.2] at hb
        cases b with
        | zero => simp at hb
        | succ b =>
          simp only [List.getElem?_cons_succ] at hb
          by_cases hji : j = i
          · exact ⟨0, by omega, by simp [hji]⟩
          · have hp1e := (Deallocate_store ha).2
            have hp1 : PoolOK p1 n := by
              rw [hp1e]
              exact PoolOK_release hp j
            have hbusy1 : (p1.m_store i).isFree = false := by
              rw [hp1e]
              simp only [release, Function.update_apply]
              rw [if_neg fun e => hji e.symm]
              exact hbusy
            obtain ⟨c, hc, hop⟩ := run_reissue ops hp1 hr b i hb hbusy1
            exact ⟨c + 1, by omega, by simpa using hop⟩

/-- A slot that two calls of `Allocate` of the sequence return has been released by a
`Deallocate` in between. -/
theorem run_no_reissue : ∀ (ops : List (PoolOp T)) {p p2 : CMemoryPool T} {n : Nat}
    {rets : List (Option Nat)}, PoolOK p n → p.run ops = .ok (p2, rets) →
    ∀ (a b i : Nat), a < b → rets[a]? = some (some i) → rets[b]? = some (some i) →
      ∃ c : Nat, a < c ∧ c < b ∧ ops[c]? = some (PoolOp.deallocate i)
  | [], p, p2, n, rets, _, h, a, b, i, _, ha, _ => by
    simp only [run, Except.ok.injEq, Prod.mk.injEq] at h
    rw [← h.2] at ha
    simp at ha
  | .allocate v :: ops, p, p2, n, rets, hp, h, a, b, i, hab, hra, hrb => by
    simp only [run] at h
    cases hal : p.Allocate v with
    | error e =>
      rw [hal] at h
      exact absurd h (by simp)
    | ok r =>
      rw [hal] at h
      simp only at h
      cases hr : r.2.run ops with
      | error e =>
        rw [hr] at h
        exact absurd h (by simp)
      | ok x =>
        rw [hr] at h
        simp only [Except.ok.injEq, Prod.mk.injEq] at h
        obtain ⟨-, -, hfr, hp1⟩ := Allocate_ok hal hp
        rw [← h.2] at hra hrb
        obtain ⟨b, rfl⟩ : ∃ b2, b = b2 + 1 := ⟨b - 1, by omega⟩
        simp only [List.getElem?_cons_succ] at hrb
        cases a with
        | zero =>
          simp only [List.getElem?_cons_zero, Option.some.injEq] at hra
          have hbusy1 : (r.2.m_store i).isFree = false := by
            rw [hfr, if_pos hra.symm]
          obtain ⟨c, hc, hop⟩ := run_reissue ops hp1 hr b i hrb hbusy1
          exact ⟨c + 1, by omega, by omega, by simpa using hop⟩
        | succ a =>
          simp only [List.getElem?_cons_succ] at hra
          obtain ⟨c, hc1, hc2, hop⟩ := run_no_reissue ops hp1 hr a b i (by omega) hra hrb
          exact ⟨c + 1, by omega, by omega, by simpa using hop⟩
  | .deallocate j :: ops, p, p2, n, rets, hp, h, a, b, i, hab, hra, hrb => by
    simp only [run] at h
    cases hal : p.Deallocate j with
    | error e =>
      rw [hal] at h
      exact absurd h (by simp)
    | ok p1 =>
      rw [hal] at h
      simp only at h
      cases hr : p1.run ops with
      | error e =>
        rw [hr] at h
        exact absurd h (by simp)
      | ok x =>
        rw [hr] at h
        simp only [Except.ok.injEq, Prod.mk.injEq] at h
        rw [← h.2] at hra hrb
        obtain ⟨b, rfl⟩ : ∃ b2, b = b2 + 1 := ⟨b - 1, by omega⟩
        simp only [List.getElem?_cons_succ] at hrb
        cases a with
        | zero => simp at hra
        | succ a =>
          simp only [List.getElem?_cons_succ] at hra
          have hp1 : PoolOK p1 n := by
            rw [(Deallocate_store hal).2]
            exact PoolOK_release hp j
          obtain ⟨c, hc1, hc2, hop⟩ := run_no_reissue ops hp1 hr a b i (by omega) hra hrb
          exact ⟨c + 1, by omega, by omega, by simpa using hop⟩

/-- C27. Pool allocate/release effect. In a pool whose cursor is on a free slot: `Allocate(v)`
completes when a slot besides the one at the cursor is free; a completed `Allocate(v)`
returns the slot at the cursor, which then holds `v` and is busy, every other
slot keeps its object and its flag, and the cursor is afterwards on a free slot, the first one
on the way forward, with wrap-around, from the slot handed out; `Deallocate` of a busy slot
completes, marks that slot free, keeps its object and changes no other slot and not the
cursor; and in every sequence of completed calls, a slot that two calls of `Allocate` return
is released by a `Deallocate` in between. -/
theorem allocate_release_effect {p : CMemoryPool T} {n : Nat} (hp : PoolOK p n) :
    (∀ v : T, Spare p → ∃ r, p.Allocate v = .ok r) ∧
    (∀ (v : T) (r : Nat × CMemoryPool T), p.Allocate v = .ok r →
      r.1 = p.m_nextFreeIndex ∧ r.2.m_store r.1 = ⟨v, false⟩ ∧
      (∀ q, q ≠ r.1 → r.2.m_store q = p.m_store q) ∧ r.2.numElems = p.numElems ∧
      ∃ d, 0 < d ∧ d < n ∧ r.2.m_nextFreeIndex = (r.1 + d) % n ∧
        (r.2.m_store r.2.m_nextFreeIndex).isFree = true ∧
        ∀ e, e < d → (r.2.m_store ((r.1 + e) % n)).isFree = false) ∧
    (∀ i, i < n → (p.m_store i).isFree = false →
      ∃ p2, p.Deallocate i = .ok p2 ∧ p2.m_store i = ⟨(p.m_store i).object, true⟩ ∧
        (∀ q, q ≠ i → p2.m_store q = p.m_store q) ∧
        p2.m_nextFreeIndex = p.m_nextFreeIndex ∧ p2.numElems = p.numElems) ∧
    ∀ (ops : List (PoolOp T)) (p2 : CMemoryPool T) (rets : List (Option Nat)),
      p.run ops = .ok (p2, rets) →
      ∀ (a b i : Nat), a < b → rets[a]? = some (some i) → rets[b]? = some (some i) →
        ∃ c : Nat, a < c ∧ c < b ∧ ops[c]? = some (PoolOp.deallocate i) := by
  refine ⟨fun v hs => Allocate_total v hp hs, fun v r h => ?_, fun i hi hb => ?_,
    fun ops p2 rets h => run_no_reissue ops hp h⟩
  · obtain ⟨hfree, hstore⟩ := Allocate_store h
    have h1 := (Allocate_ok h hp).1
    have hn : r.2.numElems = p.numElems := (Allocate_ok h hp).2.2.2.1.trans hp.1.symm
    refine ⟨h1, by rw [hstore, Function.update_same], fun q hq => by
      rw [hstore, Function.update_noteq hq], hn, Allocate_cursor hp h⟩
  · refine ⟨p.release i, Deallocate_eq p (by rw [hp.1]; exact hi) hb, ?_, fun q hq => ?_,
      rfl, rfl⟩
    · simp [release]
    · simp [release, Function.update_noteq hq]

/-- C28. Pool exhaustion. In a pool of capacity `n` whose cursor is on a free slot (so
`1 ≤ n`), `Allocate` completes exactly when a slot other than the one at the cursor, which
it takes, is free; when there is none, the cursor search comes back to its start and the
call is fatal. After a completed call at most `n - 1` slots are busy, and with `n = 1` no
call completes. -/
theorem pool_exhaustion {p : CMemoryPool T} {n : Nat} (hp : PoolOK p n) (v : T) :
    ((∃ r, p.Allocate v = .ok r) ↔ Spare p) ∧
    (¬ Spare p → p.Allocate v = .error .assertFailed) ∧
    (∀ r, p.Allocate v = .ok r → r.2.busyCount ≤ n - 1) ∧
    (n = 1 → p.Allocate v = .error .assertFailed) := by
  refine ⟨⟨fun ⟨r, h⟩ => Spare_of_Allocate hp h, Allocate_total v hp⟩,
    Allocate_exhausted v hp, fun r h => busyCount_lt (Allocate_ok h hp).2.2.2, fun h1 => ?_⟩
  refine Allocate_exhausted v hp ?_
  rintro ⟨j, hj, hjc, -⟩
  have := hp.2.1
  rw [hp.1] at hj
  omega

theorem PoolOK_poolOne : PoolOK poolOne 3 := ⟨rfl, by decide, rfl⟩

theorem Spare_poolOne : Spare poolOne := ⟨2, by decide, by decide, rfl⟩

/-- The pool of three numbers whose slot 0 is busy with 7 and whose cursor is on slot 1:
`Allocate(8)` completes and hands out slot 1, and `Deallocate` of the busy slot 0
completes. -/
theorem allocate_release_effect_at_three :
    (init 3 (0 : Nat)).Allocate 7 = .ok (0, poolOne) ∧
    PoolOK poolOne 3 ∧ Spare poolOne ∧ poolOne.m_nextFreeIndex = 1 ∧
    poolOne.m_store 0 = ⟨7, false⟩ ∧ (0 < 3 ∧ (poolOne.m_store 0).isFree = false) ∧
    (∃ r, poolOne.Allocate 8 = .ok r ∧
      r.1 = poolOne.m_nextFreeIndex ∧ r.2.m_store r.1 = ⟨8, false⟩ ∧
      (∀ q, q ≠ r.1 → r.2.m_store q = poolOne.m_store q) ∧ r.2.numElems = poolOne.numElems ∧
      ∃ d, 0 < d ∧ d < 3 ∧ r.2.m_nextFreeIndex = (r.1 + d) % 3 ∧
        (r.2.m_store r.2.m_nextFreeIndex).isFree = true ∧
        ∀ e, e < d → (r.2.m_store ((r.1 + e) % 3)).isFree = false) ∧
    (∃ p2, poolOne.Deallocate 0 = .ok p2 ∧
      p2.m_store 0 = ⟨(poolOne.m_store 0).object, true⟩ ∧
      (∀ q, q ≠ 0 → p2.m_store q = poolOne.m_store q) ∧
      p2.m_nextFreeIndex = poolOne.m_nextFreeIndex ∧ p2.numElems = poolOne.numElems) ∧
    (∃ r, poolOne.Allocate 8 = .ok r ∧ r.1 = 1 ∧ r.2.m_nextFreeIndex = 2) ∧
    ∀ (ops : List (PoolOp Nat)) (p2 : CMemoryPool Nat) (rets : List (Option Nat)),
      poolOne.run ops = .ok (p2, rets) →
      ∀ (a b i : Nat), a < b → rets[a]? = some (some i) → rets[b]? = some (some i) →
        ∃ c : Nat, a < c ∧ c < b ∧ ops[c]? = some (PoolOp.deallocate i) :=
  have hT := allocate_release_effect PoolOK_poolOne
  ⟨rfl, PoolOK_poolOne, Spare_poolOne, rfl, rfl, ⟨by decide, rfl⟩,
    (hT.1 8 Spare_poolOne).elim fun r hr => ⟨r, hr, hT.2.1 8 r hr⟩,
    hT.2.2.1 0 (by decide) rfl, ⟨_, rfl, rfl, rfl⟩, hT.2.2.2⟩

/-- A fresh pool of capacity 1: its only slot is the one at the cursor, and `Allocate` is
fatal. -/
theorem pool_exhaustion_at_one :
    PoolOK (init 1 (0 : Nat)) 1 ∧
    ((∃ r, (init 1 (0 : Nat)).Allocate 7 = .ok r) ↔ Spare (init 1 (0 : Nat))) ∧
    (¬ Spare (init 1 (0 : Nat)) → (init 1 (0 : Nat)).Allocate 7 = .error .assertFailed) ∧
    (∀ r, (init 1 (0 : Nat)).Allocate 7 = .ok r → r.2.busyCount ≤ 1 - 1) ∧
    (1 = 1 → (init 1 (0 : Nat)).Allocate 7 = .error .assertFailed) :=
  ⟨⟨rfl, by decide, rfl⟩, pool_exhaustion ⟨rfl, by decide, rfl⟩ 7⟩

end CMemoryPool

end Common

namespace Exchange

open Common

namespace CMarketDataPublisher

/-- The loop of `Run`: it sends the updates numbered by the 64-bit increment from the next
sequence number on, and writes the same records to the queue of the synthesizer. -/
theorem Run_eq : ∀ (us : List SMEMarketUpdate) (p : CMarketDataPublisher),
    (p.Run us).m_incrementalSocket = p.m_incrementalSocket ++ wire p.m_nextIncSeqNum us ∧
    (p.Run us).m_snapshotMdUpdates =
      (wire p.m_nextIncSeqNum us).foldl CLockFreeQueue.write p.m_snapshotMdUpdates ∧
    (p.Run us).m_nextIncSeqNum = (p.m_nextIncSeqNum + us.length) % 2 ^ 64 ∨
      us = [] ∧ p.Run us = p
  | [], p => Or.inr ⟨rfl, rfl⟩
  | u :: us, p => by
    left
    have hstep : p.Run (u :: us) = (p.publish u).Run us := rfl
    rw [hstep]
    rcases Run_eq us (p.publish u) with ⟨h1, h2, h3⟩ | ⟨h0, h1⟩
    · refine ⟨?_, ?_, ?_⟩
      · rw [h1]
        show p.m_incrementalSocket ++ [⟨p.m_nextIncSeqNum, u⟩] ++ _ = _
        simp [wire, publish]
      · rw [h2]
        rfl
      · rw [h3]
        show ((p.m_nextIncSeqNum + 1) % 2 ^ 64 + us.length) % 2 ^ 64 = _
        rw [Nat.mod_add_mod, List.length_cons]
        congr 1
        omega
    · subst h0
      rw [h1]
      exact ⟨rfl, rfl, rfl⟩

theorem wire_eq_numbered : ∀ (us : List SMEMarketUpdate) (n : Nat), n + us.length ≤ 2 ^ 64 →
    wire n us = numbered n us
  | [], _, _ => rfl
  | u :: us, n, h => by
    simp only [List.length_cons] at h
    cases us with
    | nil => rfl
    | cons v vs =>
      simp only [List.length_cons] at h
      show (⟨n, u⟩ : MDPMarketUpdate) :: wire ((n + 1) % 2 ^ 64) (v :: vs) =
        ⟨n, u⟩ :: numbered (n + 1) (v :: vs)
      rw [Nat.mod_eq_of_lt (by omega), wire_eq_numbered (v :: vs) (n + 1) (by
        simp only [List.length_cons]
        omega)]

theorem wire_getElem : ∀ (us : List SMEMarketUpdate) (n i : Nat) (u : SMEMarketUpdate),
    n < 2 ^ 64 → us[i]? = some u → (wire n us)[i]? = some ⟨(n + i) % 2 ^ 64, u⟩
  | [], _, _, _, _, h => by simp at h
  | v :: us, n, 0, u, hn, h => by
    simp only [List.getElem?_cons_zero, Option.some.injEq] at h
    subst h
    rw [Nat.add_zero, Nat.mod_eq_of_lt hn]
    simp only [wire, List.getElem?_cons_zero]
  | v :: us, n, i + 1, u, hn, h => by
    simp only [List.getElem?_cons_succ] at h
    have := wire_getElem us ((n + 1) % 2 ^ 64) i u (Nat.mod_lt _ (by norm_num)) h
    simp only [wire, List.getElem?_cons_succ, this, Nat.mod_add_mod]
    congr 3
    omega

theorem Holds_foldl_write {T : Type} : ∀ (vs : List T) {q : CLockFreeQueue T}
    {pending : List T}, CLockFreeQueue.Holds q pending →
    pending.length + vs.length ≤ q.capacity →
    CLockFreeQueue.Holds (vs.foldl CLockFreeQueue.write q) (pending ++ vs)
  | [], q, pending, h, _ => by simpa using h
  | v :: vs, q, pending, h, hl => by
    simp only [List.length_cons] at hl
    have := Holds_foldl_write vs (CLockFreeQueue.write_holds h (by omega) v) (by
      show (pending ++ [v]).length + vs.length ≤ q.capacity
      simp only [List.length_append, List.length_singleton]
      omega)
    simpa using this

/-- C24, amended. Publisher sequencing. For every sequence of fewer than `2 ^ 64` market
updates that the publisher, from its initial state, reads from the queue of the matching
engine, it sends update `i` on the incremental stream with the sequence number `i`, counting
from 1, and writes to the queue of the synthesizer the records `(i, update i)` in the same
order, with the update unchanged; when the sequence is not longer than the capacity of that
queue, the queue holds these records unread, oldest first. -/
theorem publisher_sequencing (us : List SMEMarketUpdate) (hlen : us.length < 2 ^ 64) :
    (init.Run us).m_incrementalSocket = numbered 1 us ∧
    (init.Run us).m_snapshotMdUpdates =
      (numbered 1 us).foldl CLockFreeQueue.write init.m_snapshotMdUpdates ∧
    (init.Run us).m_nextIncSeqNum = (us.length + 1) % 2 ^ 64 ∧
    (us.length ≤ ME_MAX_MARKET_UPDATES →
      CLockFreeQueue.Holds (init.Run us).m_snapshotMdUpdates (numbered 1 us)) := by
  have hw : wire 1 us = numbered 1 us := wire_eq_numbered us 1 (by omega)
  have hq : (init.Run us).m_snapshotMdUpdates =
      (numbered 1 us).foldl CLockFreeQueue.write init.m_snapshotMdUpdates := by
    rcases Run_eq us init with ⟨-, h2, -⟩ | ⟨h0, h1⟩
    · rw [h2]
      show (wire 1 us).foldl _ _ = _
      rw [hw]
    · subst h0
      rfl
  refine ⟨?_, hq, ?_, fun hcap => ?_⟩
  · rcases Run_eq us init with ⟨h1, -, -⟩ | ⟨h0, h1⟩
    · rw [h1]
      show [] ++ wire 1 us = _
      rw [hw, List.nil_append]
    · subst h0
      rfl
  · rcases Run_eq us init with ⟨-, -, h3⟩ | ⟨h0, h1⟩
    · rw [h3]
      show (1 + us.length) % 2 ^ 64 = _
      rw [Nat.add_comm]
    · subst h0
      rfl
  · rw [hq]
    have hlen2 : (numbered 1 us).length = us.length := by
      have := congrArg List.length (CSnapshotSynthesizer.numbered_updates us 1)
      simpa using this
    have := Holds_foldl_write (numbered 1 us)
      (CLockFreeQueue.Holds_init (T := MDPMarketUpdate) (n := ME_MAX_MARKET_UPDATES)
        (by decide) (by decide) MDPMarketUpdate.dflt)
      (by
        show 0 + (numbered 1 us).length ≤ ME_MAX_MARKET_UPDATES
        rw [hlen2]
        omega)
    simpa using this

/-- The publisher after the two updates ADD, MODIFY. -/
theorem publisher_sequencing_at_two :
    [Trading.addOne, Trading.modifyOne].length < 2 ^ 64 ∧
    (init.Run [Trading.addOne, Trading.modifyOne]).m_incrementalSocket =
      numbered 1 [Trading.addOne, Trading.modifyOne] ∧
    (init.Run [Trading.addOne, Trading.modifyOne]).m_snapshotMdUpdates =
      (numbered 1 [Trading.addOne, Trading.modifyOne]).foldl CLockFreeQueue.write
        init.m_snapshotMdUpdates ∧
    (init.Run [Trading.addOne, Trading.modifyOne]).m_nextIncSeqNum =
      ([Trading.addOne, Trading.modifyOne].length + 1) % 2 ^ 64 ∧
    ([Trading.addOne, Trading.modifyOne].length ≤ ME_MAX_MARKET_UPDATES →
      CLockFreeQueue.Holds (init.Run [Trading.addOne, Trading.modifyOne]).m_snapshotMdUpdates
        (numbered 1 [Trading.addOne, Trading.modifyOne])) :=
  ⟨by decide, publisher_sequencing [Trading.addOne, Trading.modifyOne] (by decide)⟩

/-- C24 as it is written fails at the wrap of the 64-bit sequence number: of `2 ^ 64` updates
read from the queue of the matching engine, the last one is sent with the sequence number 0,
not `2 ^ 64`, which is less than the sequence number `2 ^ 64 - 1` of the update before
it. -/
theorem publisher_sequence_wraps :
    (init.Run (List.replicate (2 ^ 64) SMEMarketUpdate.dflt)).m_incrementalSocket[2 ^ 64 - 1]? =
      some ⟨0, SMEMarketUpdate.dflt⟩ ∧
    (init.Run (List.replicate (2 ^ 64) SMEMarketUpdate.dflt)).m_incrementalSocket[2 ^ 64 - 2]? =
      some ⟨2 ^ 64 - 1, SMEMarketUpdate.dflt⟩ := by
  have hne : List.replicate (2 ^ 64) SMEMarketUpdate.dflt ≠ [] := by
    intro h
    have := congrArg List.length h
    rw [List.length_replicate] at this
    exact absurd this (by norm_num)
  rcases Run_eq (List.replicate (2 ^ 64) SMEMarketUpdate.dflt) init with ⟨h1, -, -⟩ | ⟨h0, -⟩
  · rw [h1]
    show ([] ++ wire 1 _)[2 ^ 64 - 1]? = _ ∧ ([] ++ wire 1 _)[2 ^ 64 - 2]? = _
    rw [List.nil_append]
    constructor
    · rw [wire_getElem _ 1 (2 ^ 64 - 1) SMEMarketUpdate.dflt (by norm_num)
        (by rw [List.getElem?_replicate]; norm_num)]
      norm_num
    · rw [wire_getElem _ 1 (2 ^ 64 - 2) SMEMarketUpdate.dflt (by norm_num)
        (by rw [List.getElem?_replicate]; norm_num)]
      norm_num
  · exact absurd h0 hne

end CMarketDataPublisher

end Exchange

namespace Exchange

open Common

namespace CFIFOSequencer

theorem pending_AddClientRequest {s s2 : CFIFOSequencer} {rx_time : Int}
    {request : SMEClientRequest} (h : s.AddClientRequest rx_time request = .ok s2) :
    s.m_pendingSize < ME_MAX_PENDING_REQUESTS ∧ s2.pending = s.pending ++ [⟨rx_time, request⟩] ∧
      s2.m_pendingSize = s.m_pendingSize + 1 ∧ s2.m_pIncomingRequests = s.m_pIncomingRequests := by
  unfold AddClientRequest at h
  by_cases hge : s.m_pendingSize ≥ ME_MAX_PENDING_REQUESTS
  · rw [if_pos hge] at h
    exact absurd h (by simp)
  · rw [if_neg hge] at h
    have hlt : s.m_pendingSize < ME_MAX_PENDING_REQUESTS := by omega
    simp only [bind, Except.bind, arrayAt_lt hlt, pure, Except.pure, Except.ok.injEq] at h
    subst h
    refine ⟨hlt, ?_, rfl, rfl⟩
    unfold pending
    simp only [List.range_succ, List.map_append, List.map_cons, List.map_nil,
      Function.update_same]
    congr 1
    refine List.map_congr_left fun i hi => ?_
    rw [Function.update_noteq (by
      have := List.mem_range.1 hi
      omega)]

theorem AddClientRequest_total (s : CFIFOSequencer) (rx_time : Int) (request : SMEClientRequest)
    (h : s.m_pendingSize < ME_MAX_PENDING_REQUESTS) :
    ∃ s2, s.AddClientRequest rx_time request = .ok s2 := by
  unfold AddClientRequest
  rw [if_neg (by omega)]
  simp only [bind, Except.bind, arrayAt_lt h]
  exact ⟨_, rfl⟩

/-- Adding requests while there is room: they are appended to the pending ones. -/
theorem addAll_spec : ∀ (added : List SRecvTimeClientRequest) (s : CFIFOSequencer),
    s.m_pendingSize + added.length ≤ ME_MAX_PENDING_REQUESTS →
    ∃ s2, s.addAll added = .ok s2 ∧ s2.pending = s.pending ++ added ∧
      s2.m_pendingSize = s.m_pendingSize + added.length ∧
      s2.m_pIncomingRequests = s.m_pIncomingRequests
  | [], s, _ => ⟨s, rfl, by simp, rfl, rfl⟩
  | r :: rs, s, h => by
    simp only [List.length_cons] at h
    obtain ⟨s1, h1⟩ := AddClientRequest_total s r.recvTime r.request_ (by omega)
    obtain ⟨-, hp, hs, hq⟩ := pending_AddClientRequest h1
    obtain ⟨s2, h2, hp2, hs2, hq2⟩ := addAll_spec rs s1 (by omega)
    refine ⟨s2, by simp only [addAll, h1, h2], ?_, ?_, hq2.trans hq⟩
    · rw [hp2, hp]
      simp
    · rw [hs2, hs, List.length_cons]
      omega

theorem publishLoop_spec (arr : Nat → SRecvTimeClientRequest) :
    ∀ (is : List Nat) (q : CLockFreeQueue SMEClientRequest),
      (∀ i ∈ is, i < ME_MAX_PENDING_REQUESTS) →
      publishLoop arr is q =
        .ok ((is.map fun i => (arr i).request_).foldl CLockFreeQueue.write q)
  | [], _, _ => rfl
  | i :: is, q, h => by
    simp only [publishLoop, arrayAt_lt (h i (List.mem_cons_self _ _))]
    exact publishLoop_spec arr is _ fun j hj => h j (List.mem_cons_of_mem _ hj)

/-- Method `SequenceAndPublish` with a `std::sort` that meets its contract: the requests of
the sorted pending entries are written to the queue, and the buffer is empty. -/
theorem SequenceAndPublish_spec {sort : List SRecvTimeClientRequest → List SRecvTimeClientRequest}
    (hsort : StdSort sort) (s : CFIFOSequencer) (hs : s.m_pendingSize ≤ ME_MAX_PENDING_REQUESTS) :
    ∃ s2, s.SequenceAndPublish sort = .ok s2 ∧
      s2.m_pIncomingRequests = ((sort s.pending).map fun r => r.request_).foldl
        CLockFreeQueue.write s.m_pIncomingRequests ∧
      s2.m_pendingSize = 0 := by
  unfold SequenceAndPublish
  by_cases h0 : s.m_pendingSize = 0
  · rw [if_pos h0]
    refine ⟨s, rfl, ?_, h0⟩
    have hp : s.pending = [] := by
      unfold pending
      rw [h0]
      rfl
    have : sort s.pending = [] := by
      have := (hsort s.pending).1
      rw [hp] at this ⊢
      exact List.Perm.eq_nil this
    rw [this]
    rfl
  · rw [if_neg h0]
    simp only
    have hlen : (sort s.pending).length = s.m_pendingSize := by
      rw [(hsort s.pending).1.length_eq]
      simp [pending]
    rw [publishLoop_spec _ _ _ fun i hi => by
      have := List.mem_range.1 hi
      omega]
    refine ⟨_, rfl, ?_, rfl⟩
    show List.foldl _ _ _ = _
    congr 1
    apply List.ext_getElem
    · simp [hlen]
    · intro i h1 h2
      simp only [List.length_map, List.length_range] at h1
      simp only [List.getElem_map, List.getElem_range, if_pos h1]
      rw [List.getD_eq_getElem _ _ (by omega)]

theorem StdSort_sortKeeping : StdSort sortKeeping := by
  intro l
  haveI : IsTotal SRecvTimeClientRequest byTime := ⟨fun a b => Int.le_total _ _⟩
  haveI : IsTrans SRecvTimeClientRequest byTime := ⟨fun a b c h1 h2 => Int.le_trans h1 h2⟩
  refine ⟨List.perm_insertionSort byTime l, ?_⟩
  have := List.sorted_insertionSort byTime l
  refine List.Pairwise.imp ?_ this
  intro a b hab
  simp only [SRecvTimeClientRequest.lt, decide_eq_false_iff_not, not_lt]
  exact hab

theorem StdSort_sortReversing : StdSort sortReversing := by
  intro l
  haveI : IsTotal SRecvTimeClientRequest byTime := ⟨fun a b => Int.le_total _ _⟩
  haveI : IsTrans SRecvTimeClientRequest byTime := ⟨fun a b c h1 h2 => Int.le_trans h1 h2⟩
  refine ⟨(List.perm_insertionSort byTime l.reverse).trans (List.reverse_perm l), ?_⟩
  have := List.sorted_insertionSort byTime l.reverse
  refine List.Pairwise.imp ?_ this
  intro a b hab
  simp only [SRecvTimeClientRequest.lt, decide_eq_false_iff_not, not_lt]
  exact hab

/-- C29. Sequencer ordering. With a `std::sort` that meets its contract, for every list of
at most `ME_MAX_PENDING_REQUESTS` requests added with `AddClientRequest` to a sequencer whose
buffer is empty, the calls return and `SequenceAndPublish` then writes to the queue the
requests of a permutation of exactly the added entries in which the receive times do not
decrease, writes nothing else, and leaves the buffer empty. -/
theorem sequencer_ordering {sort : List SRecvTimeClientRequest → List SRecvTimeClientRequest}
    (hsort : StdSort sort) (s0 : CFIFOSequencer) (h0 : s0.m_pendingSize = 0)
    (added : List SRecvTimeClientRequest) (hlen : added.length ≤ ME_MAX_PENDING_REQUESTS) :
    ∃ s, s0.addAll added = .ok s ∧
      ∃ (s2 : CFIFOSequencer) (out : List SRecvTimeClientRequest), s.SequenceAndPublish sort = .ok s2 ∧ out.Perm added ∧
        out.Pairwise (fun a b => a.recvTime ≤ b.recvTime) ∧
        s2.m_pIncomingRequests = (out.map fun r => r.request_).foldl CLockFreeQueue.write
          s0.m_pIncomingRequests ∧
        s2.m_pendingSize = 0 := by
  obtain ⟨s, hadd, hp, hs, hq⟩ := addAll_spec added s0 (by omega)
  have hp0 : s0.pending = [] := by
    unfold pending
    rw [h0]
    rfl
  rw [hp0, List.nil_append] at hp
  obtain ⟨s2, hrun, hq2, hz⟩ := SequenceAndPublish_spec hsort s (by omega)
  refine ⟨s, hadd, s2, sort s.pending, hrun, ?_, ?_, ?_, hz⟩
  · rw [← hp]
    exact (hsort s.pending).1
  · refine List.Pairwise.imp ?_ (hsort s.pending).2
    intro a b hab
    simpa [SRecvTimeClientRequest.lt] using hab
  · rw [hq2, hq]

/-- The requests received at the times 3, 1, 2 are written in the order of the times 1, 2,
3. -/
theorem sequencer_ordering_at_three :
    StdSort sortKeeping ∧
    (∃ s, (init (CLockFreeQueue.init 8 SMEClientRequest.dflt)).addAll
        [⟨3, newRequest 3⟩, ⟨1, newRequest 1⟩, ⟨2, newRequest 2⟩] = .ok s ∧
      ∃ (s2 : CFIFOSequencer) (out : List SRecvTimeClientRequest), s.SequenceAndPublish sortKeeping = .ok s2 ∧
        out.Perm [⟨3, newRequest 3⟩, ⟨1, newRequest 1⟩, ⟨2, newRequest 2⟩] ∧
        out.Pairwise (fun a b => a.recvTime ≤ b.recvTime) ∧
        s2.m_pIncomingRequests = (out.map fun r => r.request_).foldl CLockFreeQueue.write
          (init (CLockFreeQueue.init 8 SMEClientRequest.dflt)).m_pIncomingRequests ∧
        s2.m_pendingSize = 0) ∧
    sortKeeping [⟨3, newRequest 3⟩, ⟨1, newRequest 1⟩, ⟨2, newRequest 2⟩] =
      [⟨1, newRequest 1⟩, ⟨2, newRequest 2⟩, ⟨3, newRequest 3⟩] :=
  ⟨StdSort_sortKeeping,
    sequencer_ordering StdSort_sortKeeping _ rfl
      [⟨3, newRequest 3⟩, ⟨1, newRequest 1⟩, ⟨2, newRequest 2⟩] (by decide), by decide⟩

/-- C30. What the code does on a tie: the order of two requests with the same receive time
is the one that `std::sort` leaves, which its contract does not fix. With a sort that meets
the contract and reverses equal elements, the request added second is written first. -/
theorem tie_order_not_kept :
    StdSort sortReversing ∧
    ∃ s s2, (init (CLockFreeQueue.init 8 SMEClientRequest.dflt)).addAll
        [⟨2, newRequest 1⟩, ⟨2, newRequest 2⟩] = .ok s ∧
      s.SequenceAndPublish sortReversing = .ok s2 ∧
      s2.m_pIncomingRequests =
        (((CLockFreeQueue.init 8 SMEClientRequest.dflt).write (newRequest 2)).write
          (newRequest 1)) := by
  refine ⟨StdSort_sortReversing, ?_⟩
  obtain ⟨s, hadd, hp, hs, hq⟩ := addAll_spec [⟨2, newRequest 1⟩, ⟨2, newRequest 2⟩]
    (init (CLockFreeQueue.init 8 SMEClientRequest.dflt)) (by decide)
  obtain ⟨s2, hrun, hq2, -⟩ := SequenceAndPublish_spec StdSort_sortReversing s (by
    rw [hs]
    decide)
  refine ⟨s, s2, hadd, hrun, ?_⟩
  rw [hq2, hq, hp]
  have : sortReversing ((init (CLockFreeQueue.init 8 SMEClientRequest.dflt)).pending ++
      [⟨2, newRequest 1⟩, ⟨2, newRequest 2⟩]) = [⟨2, newRequest 2⟩, ⟨2, newRequest 1⟩] := by
    decide
  rw [this]
  rfl

end CFIFOSequencer

end Exchange

namespace Exchange

open Common

namespace CSnapshotSynthesizer

theorem numbered_seqNums : ∀ (us : List SMEMarketUpdate) (n : Nat),
    (numbered n us).map (fun r => r.seqNum) = List.range' n us.length
  | [], _ => rfl
  | u :: us, n => by
    show n :: (numbered (n + 1) us).map (fun r => r.seqNum) = _
    rw [numbered_seqNums us (n + 1)]
    rfl

theorem numbered_head (u : SMEMarketUpdate) (us : List SMEMarketUpdate) (n : Nat) :
    (numbered n (u :: us)).head? = some ⟨n, u⟩ := rfl

theorem numbered_getLast (us : List SMEMarketUpdate) (u : SMEMarketUpdate) (n : Nat) :
    (numbered n (us ++ [u])).getLast? = some ⟨n + us.length, u⟩ := by
  rw [Trading.CMarketDataConsumer.numbered_append]
  simp [numbered]

theorem filterMap_live {α : Type} (f : Nat → Option α) : ∀ (l : List Nat),
    l.filterMap f = (l.filter fun i => (f i).isSome).filterMap f
  | [] => rfl
  | i :: l => by
    cases h : f i with
    | none =>
      rw [List.filterMap_cons_none h, List.filter_cons_of_neg (by simp [h]), filterMap_live f l]
    | some a =>
      rw [List.filterMap_cons_some h, List.filter_cons_of_pos (by simp [h]),
        List.filterMap_cons_some h, filterMap_live f l]

theorem isSome_image (s : CSnapshotSynthesizer) (t : Nat) :
    (fun i => (s.image t i).isSome) = fun i => (s.m_tickerOrders t i).isSome := by
  funext i
  unfold image
  cases s.m_tickerOrders t i <;> rfl

theorem image_def (s : CSnapshotSynthesizer) (t : Nat) :
    (fun order_id => (s.m_tickerOrders t order_id).map s.m_orderPool.obj) = s.image t := rfl

theorem tickerRecords_eq (s : CSnapshotSynthesizer) (t : Nat) :
    s.tickerRecords t = clearUpdate t :: (s.liveIds t).filterMap (s.image t) := by
  unfold tickerRecords liveIds
  rw [image_def, filterMap_live (s.image t), isSome_image]

theorem mem_liveIds {s : CSnapshotSynthesizer} {t id : Nat} :
    id ∈ s.liveIds t ↔ id < ME_MAX_ORDER_IDS ∧ ∃ o, s.image t id = some o := by
  unfold liveIds image
  rw [List.mem_filter, List.mem_range]
  cases s.m_tickerOrders t id <;> simp

theorem liveIds_records {s : CSnapshotSynthesizer} (hok : ImageOK s) (t : Nat) :
    ((s.liveIds t).filterMap (s.image t)).map (fun o => o.orderId) = s.liveIds t := by
  have h : ∀ l : List Nat, (∀ id ∈ l, ∃ o, s.image t id = some o) →
      (l.filterMap (s.image t)).map (fun o => o.orderId) = l := by
    intro l
    induction l with
    | nil => intro _; rfl
    | cons id l ih =>
      intro hl
      obtain ⟨o, ho⟩ := hl id (List.mem_cons_self _ _)
      rw [List.filterMap_cons_some ho, List.map_cons,
        ih fun j hj => hl j (List.mem_cons_of_mem _ hj)]
      congr 1
      unfold image at ho
      cases hp : s.m_tickerOrders t id with
      | none =>
        rw [hp] at ho
        exact Option.noConfusion ho
      | some p =>
        rw [hp] at ho
        simp only [Option.map_some', Option.some.injEq] at ho
        rw [← ho]
        exact (hok.keyed t id p hp).2.2
  exact h _ fun id hid => (mem_liveIds.1 hid).2

theorem sum_map_succ (f : Nat → Nat) : ∀ (l : List Nat),
    (l.map fun t => f t + 1).sum = (l.map f).sum + l.length
  | [] => rfl
  | a :: l => by
    simp only [List.map_cons, List.sum_cons, List.length_cons, sum_map_succ f l]
    omega

theorem filterMap_length {α : Type} (f : Nat → Option α) : ∀ (l : List Nat),
    (∀ i ∈ l, ∃ a, f i = some a) → (l.filterMap f).length = l.length
  | [], _ => rfl
  | i :: l, h => by
    obtain ⟨a, ha⟩ := h i (List.mem_cons_self _ _)
    rw [List.filterMap_cons_some ha, List.length_cons, List.length_cons,
      filterMap_length f l fun j hj => h j (List.mem_cons_of_mem _ hj)]

theorem body_length (s : CSnapshotSynthesizer) :
    ((List.range ME_MAX_TICKERS).flatMap s.tickerRecords).length =
      ME_MAX_TICKERS + s.liveCount := by
  rw [List.length_flatMap]
  have : (List.map (List.length ∘ s.tickerRecords) (List.range ME_MAX_TICKERS)) =
      (List.range ME_MAX_TICKERS).map fun t => (s.liveIds t).length + 1 := by
    refine List.map_congr_left fun t _ => ?_
    show (s.tickerRecords t).length = _
    rw [tickerRecords_eq, List.length_cons,
      filterMap_length _ _ fun i hi => (mem_liveIds.1 hi).2]
  rw [this, sum_map_succ, List.length_range]
  unfold liveCount
  omega

/-- C21. Snapshot cycle layout. For every synthesizer state with a well-formed image,
`PublishSnapshot` sends records with the sequence numbers 0, 1, ..., n - 1 in this order,
where n is 2 plus `ME_MAX_TICKERS` plus the number of live orders of the image. The first
record is SNAPSHOT_START and the last one SNAPSHOT_END, both with the last incremental
sequence number as order id. Between them come, for each ticker id in ascending order, one
CLEAR with that ticker id and then one record per live order of that ticker: the stored
update of the order, of type ADD, with the ticker id, the order id, side, price, quantity and
priority of the order, each live order once. -/
theorem snapshot_cycle_layout (s : CSnapshotSynthesizer) (hok : ImageOK s) :
    s.PublishSnapshot.map (fun r => r.seqNum) =
      List.range (2 + ME_MAX_TICKERS + s.liveCount) ∧
    s.PublishSnapshot.head? = some ⟨0, snapshotStart s.m_lastIncSeqNum⟩ ∧
    s.PublishSnapshot.getLast? =
      some ⟨1 + ME_MAX_TICKERS + s.liveCount, snapshotEnd s.m_lastIncSeqNum⟩ ∧
    (snapshotStart s.m_lastIncSeqNum).type = .SNAPSHOT_START ∧
    (snapshotStart s.m_lastIncSeqNum).orderId = s.m_lastIncSeqNum ∧
    (snapshotEnd s.m_lastIncSeqNum).type = .SNAPSHOT_END ∧
    (snapshotEnd s.m_lastIncSeqNum).orderId = s.m_lastIncSeqNum ∧
    s.PublishSnapshot.map (fun r => r.me_market_update_) =
      snapshotStart s.m_lastIncSeqNum ::
        (List.range ME_MAX_TICKERS).flatMap (fun t =>
          clearUpdate t :: (s.liveIds t).filterMap (s.image t)) ++
        [snapshotEnd s.m_lastIncSeqNum] ∧
    (∀ t, (clearUpdate t).type = .CLEAR ∧ (clearUpdate t).tickerId = t) ∧
    (∀ t, ((s.liveIds t).filterMap (s.image t)).map (fun o => o.orderId) = s.liveIds t ∧
      (s.liveIds t).Nodup) ∧
    (∀ t, ∀ o ∈ (s.liveIds t).filterMap (s.image t),
      o.type = .ADD ∧ o.tickerId = t ∧ s.image t o.orderId = some o) ∧
    ∀ t id o, s.image t id = some o → t < ME_MAX_TICKERS ∧ id ∈ s.liveIds t := by
  have hlen : (snapshotStart s.m_lastIncSeqNum ::
      (List.range ME_MAX_TICKERS).flatMap s.tickerRecords ++
        [snapshotEnd s.m_lastIncSeqNum]).length = 2 + ME_MAX_TICKERS + s.liveCount := by
    rw [List.length_append, List.length_cons, body_length, List.length_singleton]
    omega
  have himg : ∀ t id o, s.image t id = some o →
      ∃ p, s.m_tickerOrders t id = some p ∧ s.m_orderPool.obj p = o := by
    intro t id o ho
    unfold image at ho
    cases hp : s.m_tickerOrders t id with
    | none =>
      rw [hp] at ho
      exact Option.noConfusion ho
    | some p =>
      rw [hp] at ho
      exact ⟨p, rfl, by simpa using ho⟩
  refine ⟨?_, rfl, ?_, rfl, rfl, rfl, rfl, ?_, fun t => ⟨rfl, rfl⟩,
    fun t => ⟨liveIds_records hok t, (List.nodup_range _).filter _⟩, ?_, ?_⟩
  · unfold PublishSnapshot
    rw [numbered_seqNums, hlen, List.range_eq_range']
  · unfold PublishSnapshot
    rw [numbered_getLast, List.length_cons, body_length]
    have e : 0 + (ME_MAX_TICKERS + s.liveCount + 1) = 1 + ME_MAX_TICKERS + s.liveCount := by
      omega
    rw [e]
  · unfold PublishSnapshot
    rw [numbered_updates]
    have e : (List.range ME_MAX_TICKERS).flatMap s.tickerRecords =
        (List.range ME_MAX_TICKERS).flatMap fun t =>
          clearUpdate t :: (s.liveIds t).filterMap (s.image t) :=
      List.flatMap_congr fun t _ => tickerRecords_eq s t
    rw [e]
  · intro t o ho
    obtain ⟨id, hid, hio⟩ := List.mem_filterMap.1 ho
    obtain ⟨p, hp, hobj⟩ := himg t id o hio
    have hk := hok.keyed t id p hp
    rw [hobj] at hk
    refine ⟨hk.1, hk.2.1, ?_⟩
    rw [hk.2.2]
    exact hio
  · intro t id o ho
    obtain ⟨p, hp, -⟩ := himg t id o ho
    have hb := hok.bounds t id p hp
    exact ⟨hb.1, mem_liveIds.2 ⟨hb.2, o, ho⟩⟩

end CSnapshotSynthesizer

end Exchange

namespace Exchange

open Common

namespace CSnapshotSynthesizer

theorem SynthOK_fresh : SynthOK fresh :=
  ⟨ImageOK_fresh, ⟨rfl, by decide, rfl⟩, fun _ _ _ h => Option.noConfusion h⟩

theorem image_none {s : CSnapshotSynthesizer} {t id : Nat} :
    s.image t id = none ↔ s.m_tickerOrders t id = none := by
  unfold image
  cases s.m_tickerOrders t id <;> simp

theorem image_some {s : CSnapshotSynthesizer} {t id : Nat} {o : SMEMarketUpdate}
    (h : s.image t id = some o) :
    ∃ p, s.m_tickerOrders t id = some p ∧ s.m_orderPool.obj p = o := by
  unfold image at h
  cases hp : s.m_tickerOrders t id with
  | none =>
    rw [hp] at h
    exact Option.noConfusion h
  | some p =>
    rw [hp] at h
    exact ⟨p, rfl, by simpa using h⟩

/-- The `switch` of `AddToSnapshot` on an ADD of an order id inside the row whose pointer is
`nullptr`: it is the allocation. -/
theorem applyUpdate_add_eq {s : CSnapshotSynthesizer} {u : SMEMarketUpdate} (hty : u.type = .ADD)
    (hid : u.orderId < ME_MAX_ORDER_IDS) (hslot : s.m_tickerOrders u.tickerId u.orderId = none) :
    s.applyUpdate u =
      match s.m_orderPool.Allocate u with
      | .ok r => .ok ({ s with m_orderPool := r.2 }.setOrder u.tickerId u.orderId (some r.1))
      | .error e => .error e := by
  unfold applyUpdate
  rw [hty]
  simp only [bind, Except.bind, arrayAt_lt hid, hslot]
  cases s.m_orderPool.Allocate u <;> rfl

theorem applyUpdate_live_eq {s : CSnapshotSynthesizer} {u : SMEMarketUpdate} {p : Nat}
    (hslot : s.m_tickerOrders u.tickerId u.orderId = some p)
    (hid : u.orderId < ME_MAX_ORDER_IDS)
    (h1 : (s.m_orderPool.obj p).orderId = u.orderId) (h2 : (s.m_orderPool.obj p).side = u.side) :
    (u.type = .MODIFY → s.applyUpdate u =
      .ok { s with m_orderPool := s.m_orderPool.modify p fun o =>
        { o with qty := u.qty, price := u.price } }) ∧
    (u.type = .CANCEL → s.applyUpdate u =
      match s.m_orderPool.Deallocate p with
      | .ok pool => .ok ({ s with m_orderPool := pool }.setOrder u.tickerId u.orderId none)
      | .error e => .error e) := by
  constructor
  · intro hty
    unfold applyUpdate
    rw [hty]
    simp only [bind, Except.bind, arrayAt_lt hid, hslot, h1, h2, ne_eq, not_true_eq_false,
      if_false, pure, Except.pure]
  · intro hty
    unfold applyUpdate
    rw [hty]
    simp only [bind, Except.bind, arrayAt_lt hid, hslot, h1, h2, ne_eq, not_true_eq_false,
      if_false, pure, Except.pure]
    cases s.m_orderPool.Deallocate p <;> rfl

theorem applyUpdate_other_eq {s : CSnapshotSynthesizer} {u : SMEMarketUpdate}
    (h : u.type ≠ .ADD ∧ u.type ≠ .MODIFY ∧ u.type ≠ .CANCEL) : s.applyUpdate u = .ok s := by
  unfold applyUpdate
  cases hty : u.type <;> simp_all [pure, Except.pure]

theorem AddToSnapshot_eq {s : CSnapshotSynthesizer} {r : MDPMarketUpdate}
    (ht : r.me_market_update_.tickerId < ME_MAX_TICKERS) :
    s.AddToSnapshot r =
      match s.applyUpdate r.me_market_update_ with
      | .ok s1 =>
        if r.seqNum ≠ (s1.m_lastIncSeqNum + 1) % 2 ^ 64 then .error .assertFailed
        else .ok { s1 with m_lastIncSeqNum := r.seqNum }
      | .error e => .error e := by
  unfold AddToSnapshot
  simp only [bind, Except.bind, arrayAt_lt ht]
  cases s.applyUpdate r.me_market_update_ <;> rfl

/-- The `switch` of `AddToSnapshot` keeps a synthesizer well formed. -/
theorem applyUpdate_synthOK {s s2 : CSnapshotSynthesizer} {u : SMEMarketUpdate} (hs : SynthOK s)
    (ht : u.tickerId < ME_MAX_TICKERS) (h : s.applyUpdate u = .ok s2) : SynthOK s2 := by
  have himg := (applyUpdate_spec hs.image ht h).1
  by_cases hadd : u.type = .ADD
  · by_cases hid : u.orderId < ME_MAX_ORDER_IDS
    · cases hslot : s.m_tickerOrders u.tickerId u.orderId with
      | some q =>
        simp [applyUpdate, hadd, bind, Except.bind, arrayAt_lt hid, hslot] at h
      | none =>
        rw [applyUpdate_add_eq hadd hid hslot] at h
        cases hal : s.m_orderPool.Allocate u with
        | error e =>
          rw [hal] at h
          exact absurd h (by simp)
        | ok r =>
          rw [hal] at h
          simp only [Except.ok.injEq] at h
          obtain ⟨h1, -, -, hp⟩ := CMemoryPool.Allocate_ok hal hs.pool
          refine ⟨himg, by rw [← h]; exact hp, fun t id p hp2 => ?_⟩
          rw [← h, tickerOrders_setOrder] at hp2
          split at hp2
          · simp only [Option.some.injEq] at hp2
            rw [← hp2, h1]
            exact hs.pool.2.1
          · exact hs.slot_lt t id p hp2
    · simp [applyUpdate, hadd, bind, Except.bind, arrayAt, hid] at h
  · by_cases hmc : u.type = .MODIFY ∨ u.type = .CANCEL
    · by_cases hid : u.orderId < ME_MAX_ORDER_IDS
      · cases hslot : s.m_tickerOrders u.tickerId u.orderId with
        | none =>
          rcases hmc with hty | hty <;>
            simp [applyUpdate, hty, bind, Except.bind, arrayAt_lt hid, hslot] at h
        | some p =>
          have hk := hs.image.keyed _ _ p hslot
          by_cases hside : (s.m_orderPool.obj p).side = u.side
          · obtain ⟨hm, hc⟩ := applyUpdate_live_eq hslot hid hk.2.2 hside
            rcases hmc with hty | hty
            · rw [hm hty] at h
              simp only [Except.ok.injEq] at h
              refine ⟨himg, by rw [← h]; exact CMemoryPool.PoolOK_modify hs.pool _ _,
                fun t id q hq => hs.slot_lt t id q (by rw [← h] at hq; exact hq)⟩
            · rw [hc hty] at h
              cases hde : s.m_orderPool.Deallocate p with
              | error e =>
                rw [hde] at h
                exact absurd h (by simp)
              | ok pool =>
                rw [hde] at h
                simp only [Except.ok.injEq] at h
                have hpe := (CMemoryPool.Deallocate_store hde).2
                refine ⟨himg, by rw [← h, hpe]; exact CMemoryPool.PoolOK_release hs.pool p,
                  fun t id q hq => ?_⟩
                rw [← h, tickerOrders_setOrder] at hq
                split at hq
                · exact Option.noConfusion hq
                · exact hs.slot_lt t id q hq
          · rcases hmc with hty | hty <;>
              simp [applyUpdate, hty, bind, Except.bind, arrayAt_lt hid, hslot, hk.2.2,
                hside] at h
      · rcases hmc with hty | hty <;>
          simp [applyUpdate, hty, bind, Except.bind, arrayAt, hid] at h
    · rw [applyUpdate_other_eq ⟨hadd, fun e => hmc (Or.inl e), fun e => hmc (Or.inr e)⟩] at h
      simp only [Except.ok.injEq] at h
      rw [← h]
      exact hs

/-- Method `AddToSnapshot` keeps a synthesizer well formed. -/
theorem AddToSnapshot_synthOK {s s2 : CSnapshotSynthesizer} {r : MDPMarketUpdate}
    (hs : SynthOK s) (h : s.AddToSnapshot r = .ok s2) : SynthOK s2 := by
  by_cases ht : r.me_market_update_.tickerId < ME_MAX_TICKERS
  · rw [AddToSnapshot_eq ht] at h
    cases hap : s.applyUpdate r.me_market_update_ with
    | error e =>
      rw [hap] at h
      exact absurd h (by simp)
    | ok s1 =>
      rw [hap] at h
      simp only at h
      have h1 := applyUpdate_synthOK hs ht hap
      split at h
      · exact absurd h (by simp)
      · simp only [Except.ok.injEq] at h
        rw [← h]
        exact ⟨⟨h1.image.bounds, h1.image.busy, h1.image.inj, h1.image.keyed⟩, h1.pool,
          h1.slot_lt⟩
  · simp [AddToSnapshot, bind, Except.bind, arrayAt, ht] at h

theorem drain_synthOK : ∀ (rs : List MDPMarketUpdate) {s s2 : CSnapshotSynthesizer},
    SynthOK s → s.drain rs = .ok s2 → SynthOK s2
  | [], s, s2, hs, h => by
    simp only [drain, Except.ok.injEq] at h
    rw [← h]
    exact hs
  | r :: rs, s, s2, hs, h => by
    simp only [drain] at h
    cases ha : s.AddToSnapshot r with
    | error e =>
      rw [ha] at h
      exact absurd h (by simp)
    | ok s1 =>
      rw [ha] at h
      exact drain_synthOK rs (AddToSnapshot_synthOK hs ha) h

end CSnapshotSynthesizer

end Exchange

namespace Exchange

open Common

namespace CSnapshotSynthesizer

theorem toBool_error {α : Type} {x : Except Fault α} {e : Fault} (h : x = .error e) :
    x.toBool = false := by
  rw [h]
  rfl

theorem AddToSnapshot_ticker {s : CSnapshotSynthesizer} {r : MDPMarketUpdate}
    (h : ME_MAX_TICKERS ≤ r.me_market_update_.tickerId) :
    s.AddToSnapshot r = .error .outOfRange := by
  unfold AddToSnapshot
  simp only [bind, Except.bind, arrayAt, if_neg (Nat.not_lt.2 h)]

/-- A failure of the `switch` is a failure of `AddToSnapshot`. -/
theorem AddToSnapshot_of_switch {s : CSnapshotSynthesizer} {r : MDPMarketUpdate} {e : Fault}
    (h : s.applyUpdate r.me_market_update_ = .error e) : (s.AddToSnapshot r).toBool = false := by
  by_cases ht : r.me_market_update_.tickerId < ME_MAX_TICKERS
  · rw [AddToSnapshot_eq ht, h]
    rfl
  · exact toBool_error (AddToSnapshot_ticker (Nat.not_lt.1 ht))

/-- The result of `AddToSnapshot` when the `switch` returns and the sequence number is the
next one. -/
theorem AddToSnapshot_next {s s1 : CSnapshotSynthesizer} {r : MDPMarketUpdate} (hs : SynthOK s)
    (ht : r.me_market_update_.tickerId < ME_MAX_TICKERS)
    (hseq : r.seqNum = (s.m_lastIncSeqNum + 1) % 2 ^ 64)
    (h : s.applyUpdate r.me_market_update_ = .ok s1) :
    s.AddToSnapshot r = .ok { s1 with m_lastIncSeqNum := r.seqNum } ∧
    SynthOK { s1 with m_lastIncSeqNum := r.seqNum } ∧
    image { s1 with m_lastIncSeqNum := r.seqNum } =
      imageStep (image s) r.me_market_update_ := by
  obtain ⟨-, hlast, himg⟩ := applyUpdate_spec hs.image ht h
  have hrun : s.AddToSnapshot r = .ok { s1 with m_lastIncSeqNum := r.seqNum } := by
    rw [AddToSnapshot_eq ht, h]
    simp only
    rw [if_neg (by rw [hlast]; exact not_not.2 hseq)]
  exact ⟨hrun, AddToSnapshot_synthOK hs hrun, himg⟩

/-- An ADD that the synthesizer takes: the allocation in its pool and the state after it. -/
theorem AddToSnapshot_add {s : CSnapshotSynthesizer} {r : MDPMarketUpdate} (hs : SynthOK s)
    (ht : r.me_market_update_.tickerId < ME_MAX_TICKERS)
    (hseq : r.seqNum = (s.m_lastIncSeqNum + 1) % 2 ^ 64)
    (hty : r.me_market_update_.type = .ADD)
    (hid : r.me_market_update_.orderId < ME_MAX_ORDER_IDS)
    (hnone : s.image r.me_market_update_.tickerId r.me_market_update_.orderId = none)
    (hsp : Spare s.m_orderPool) :
    ∃ a s2, s.m_orderPool.Allocate r.me_market_update_ = .ok a ∧
      s.AddToSnapshot r = .ok s2 ∧ s2.m_orderPool = a.2 ∧ SynthOK s2 ∧
      s2.m_lastIncSeqNum = r.seqNum ∧
      image s2 = Function.update (image s) r.me_market_update_.tickerId
        (Function.update (image s r.me_market_update_.tickerId) r.me_market_update_.orderId
          (some r.me_market_update_)) := by
  obtain ⟨a, ha⟩ := CMemoryPool.Allocate_total r.me_market_update_ hs.pool hsp
  have hap := applyUpdate_add_eq hty hid (image_none.1 hnone)
  rw [ha] at hap
  obtain ⟨hrun, hok, himg⟩ := AddToSnapshot_next hs ht hseq hap
  refine ⟨a, _, ha, hrun, rfl, hok, rfl, ?_⟩
  rw [himg]
  simp only [imageStep, hty]

/-- C22, amended. Synthesizer ingest. On a well-formed synthesizer, for a record whose
sequence number is the last one plus 1 (on 64 bits) and whose ticker id is below
`ME_MAX_TICKERS`: an ADD of an order id below `ME_MAX_ORDER_IDS` that is not live, when the
pool has a free slot besides the one at its cursor, stores the update under its ticker id and
order id; a MODIFY of a live id that carries the side of the stored update replaces the
quantity and the price of the stored update and nothing else; a CANCEL of a live id that
carries the side of the stored update removes it; TRADE, CLEAR, SNAPSHOT_START, SNAPSHOT_END
and INVALID leave the image as it is; in all these cases the call returns, the synthesizer
stays well formed and the last sequence number becomes the one of the record. The call is
fatal for an ADD of a live id, for a MODIFY or CANCEL of an id that is not live, for another
sequence number, for a ticker id that is not below `ME_MAX_TICKERS`, for an ADD, MODIFY or
CANCEL with an order id that is not below `ME_MAX_ORDER_IDS`, for a MODIFY or CANCEL that
carries another side than the stored update, and for an ADD when the pool has no free slot
besides the one at its cursor. -/
theorem ingest_transition (s : CSnapshotSynthesizer) (hs : SynthOK s) (r : MDPMarketUpdate) :
    (r.seqNum = (s.m_lastIncSeqNum + 1) % 2 ^ 64 →
      r.me_market_update_.tickerId < ME_MAX_TICKERS →
      (r.me_market_update_.type = .ADD → r.me_market_update_.orderId < ME_MAX_ORDER_IDS →
        s.image r.me_market_update_.tickerId r.me_market_update_.orderId = none →
        Spare s.m_orderPool →
        ∃ s2, s.AddToSnapshot r = .ok s2 ∧ SynthOK s2 ∧ s2.m_lastIncSeqNum = r.seqNum ∧
          image s2 = Function.update (image s) r.me_market_update_.tickerId
            (Function.update (image s r.me_market_update_.tickerId)
              r.me_market_update_.orderId (some r.me_market_update_))) ∧
      (r.me_market_update_.type = .MODIFY → ∀ o,
        s.image r.me_market_update_.tickerId r.me_market_update_.orderId = some o →
        o.side = r.me_market_update_.side →
        ∃ s2, s.AddToSnapshot r = .ok s2 ∧ SynthOK s2 ∧ s2.m_lastIncSeqNum = r.seqNum ∧
          image s2 = Function.update (image s) r.me_market_update_.tickerId
            (Function.update (image s r.me_market_update_.tickerId)
              r.me_market_update_.orderId
              (some { o with qty := r.me_market_update_.qty
                             price := r.me_market_update_.price }))) ∧
      (r.me_market_update_.type = .CANCEL → ∀ o,
        s.image r.me_market_update_.tickerId r.me_market_update_.orderId = some o →
        o.side = r.me_market_update_.side →
        ∃ s2, s.AddToSnapshot r = .ok s2 ∧ SynthOK s2 ∧ s2.m_lastIncSeqNum = r.seqNum ∧
          image s2 = Function.update (image s) r.me_market_update_.tickerId
            (Function.update (image s r.me_market_update_.tickerId)
              r.me_market_update_.orderId none)) ∧
      (r.me_market_update_.type ≠ .ADD → r.me_market_update_.type ≠ .MODIFY →
        r.me_market_update_.type ≠ .CANCEL →
        ∃ s2, s.AddToSnapshot r = .ok s2 ∧ SynthOK s2 ∧ s2.m_lastIncSeqNum = r.seqNum ∧
          image s2 = image s)) ∧
    (r.me_market_update_.type = .ADD →
      s.image r.me_market_update_.tickerId r.me_market_update_.orderId ≠ none →
      (s.AddToSnapshot r).toBool = false) ∧
    (r.me_market_update_.type = .MODIFY ∨ r.me_market_update_.type = .CANCEL →
      s.image r.me_market_update_.tickerId r.me_market_update_.orderId = none →
      (s.AddToSnapshot r).toBool = false) ∧
    (r.seqNum ≠ (s.m_lastIncSeqNum + 1) % 2 ^ 64 → (s.AddToSnapshot r).toBool = false) ∧
    (ME_MAX_TICKERS ≤ r.me_market_update_.tickerId → (s.AddToSnapshot r).toBool = false) ∧
    (r.me_market_update_.type = .ADD ∨ r.me_market_update_.type = .MODIFY ∨
        r.me_market_update_.type = .CANCEL →
      ME_MAX_ORDER_IDS ≤ r.me_market_update_.orderId → (s.AddToSnapshot r).toBool = false) ∧
    (r.me_market_update_.type = .MODIFY ∨ r.me_market_update_.type = .CANCEL → ∀ o,
      s.image r.me_market_update_.tickerId r.me_market_update_.orderId = some o →
      o.side ≠ r.me_market_update_.side → (s.AddToSnapshot r).toBool = false) ∧
    (r.me_market_update_.type = .ADD → ¬ Spare s.m_orderPool →
      (s.AddToSnapshot r).toBool = false) := by
  refine ⟨fun hseq ht => ⟨fun hty hid hnone hsp => ?_, fun hty o ho hside => ?_,
    fun hty o ho hside => ?_, fun h1 h2 h3 => ?_⟩, fun hty hlive => ?_, fun hty hnone => ?_,
    fun hseq => ?_, fun ht => toBool_error (AddToSnapshot_ticker ht), fun hty hid => ?_,
    fun hty o ho hside => ?_, fun hty hsp => ?_⟩
  · obtain ⟨a, s2, -, hrun, -, hok, hlast, himg⟩ :=
      AddToSnapshot_add hs ht hseq hty hid hnone hsp
    exact ⟨s2, hrun, hok, hlast, himg⟩
  · obtain ⟨p, hp, hobj⟩ := image_some ho
    have hk := hs.image.keyed _ _ p hp
    have hap := (applyUpdate_live_eq hp (hs.image.bounds _ _ p hp).2 hk.2.2
      (by rw [hobj]; exact hside)).1 hty
    obtain ⟨hrun, hok, himg⟩ := AddToSnapshot_next hs ht hseq hap
    refine ⟨_, hrun, hok, rfl, ?_⟩
    rw [himg]
    simp only [imageStep, hty, ho, Option.map_some']
  · obtain ⟨p, hp, hobj⟩ := image_some ho
    have hk := hs.image.keyed _ _ p hp
    have hap := (applyUpdate_live_eq hp (hs.image.bounds _ _ p hp).2 hk.2.2
      (by rw [hobj]; exact hside)).2 hty
    rw [CMemoryPool.Deallocate_eq _ (by rw [hs.pool.1]; exact hs.slot_lt _ _ p hp)
      (hs.image.busy _ _ p hp)] at hap
    obtain ⟨hrun, hok, himg⟩ := AddToSnapshot_next hs ht hseq hap
    refine ⟨_, hrun, hok, rfl, ?_⟩
    rw [himg]
    simp only [imageStep, hty]
  · obtain ⟨hrun, hok, himg⟩ := AddToSnapshot_next hs ht hseq
      (applyUpdate_other_eq ⟨h1, h2, h3⟩)
    refine ⟨_, hrun, hok, rfl, ?_⟩
    rw [himg]
    unfold imageStep
    cases hty : r.me_market_update_.type <;> simp_all
  · cases hslot : s.m_tickerOrders r.me_market_update_.tickerId r.me_market_update_.orderId with
    | none => exact absurd (image_none.2 hslot) hlive
    | some p =>
      by_cases hid : r.me_market_update_.orderId < ME_MAX_ORDER_IDS
      · exact AddToSnapshot_of_switch (e := .assertFailed) (by
          simp [applyUpdate, hty, bind, Except.bind, arrayAt_lt hid, hslot])
      · exact AddToSnapshot_of_switch (e := .outOfRange) (by
          simp [applyUpdate, hty, bind, Except.bind, arrayAt, hid])
  · have hslot := image_none.1 hnone
    by_cases hid : r.me_market_update_.orderId < ME_MAX_ORDER_IDS
    · rcases hty with hty | hty <;>
        exact AddToSnapshot_of_switch (e := .assertFailed) (by
          simp [applyUpdate, hty, bind, Except.bind, arrayAt_lt hid, hslot])
    · rcases hty with hty | hty <;>
        exact AddToSnapshot_of_switch (e := .outOfRange) (by
          simp [applyUpdate, hty, bind, Except.bind, arrayAt, hid])
  · by_cases ht : r.me_market_update_.tickerId < ME_MAX_TICKERS
    · rw [AddToSnapshot_eq ht]
      cases hap : s.applyUpdate r.me_market_update_ with
      | error e => rfl
      | ok s1 =>
        simp only
        rw [if_pos (by rw [(applyUpdate_spec hs.image ht hap).2.1]; exact hseq)]
        rfl
    · exact toBool_error (AddToSnapshot_ticker (Nat.not_lt.1 ht))
  · rcases hty with hty | hty | hty <;>
      exact AddToSnapshot_of_switch (e := .outOfRange) (by
        simp [applyUpdate, hty, bind, Except.bind, arrayAt, Nat.not_lt.2 hid])
  · obtain ⟨p, hp, hobj⟩ := image_some ho
    have hk := hs.image.keyed _ _ p hp
    have hid := (hs.image.bounds _ _ p hp).2
    have hside2 : (s.m_orderPool.obj p).side ≠ r.me_market_update_.side := by
      rw [hobj]
      exact hside
    rcases hty with hty | hty <;>
      exact AddToSnapshot_of_switch (e := .assertFailed) (by
        simp [applyUpdate, hty, bind, Except.bind, arrayAt_lt hid, hp, hk.2.2, hside2])
  · by_cases hid : r.me_market_update_.orderId < ME_MAX_ORDER_IDS
    · cases hslot : s.m_tickerOrders r.me_market_update_.tickerId
          r.me_market_update_.orderId with
      | some p =>
        exact AddToSnapshot_of_switch (e := .assertFailed) (by
          simp [applyUpdate, hty, bind, Except.bind, arrayAt_lt hid, hslot])
      | none =>
        refine AddToSnapshot_of_switch (e := .assertFailed) ?_
        rw [applyUpdate_add_eq hty hid hslot,
          CMemoryPool.Allocate_exhausted r.me_market_update_ hs.pool hsp]
    · exact AddToSnapshot_of_switch (e := .outOfRange) (by
        simp [applyUpdate, hty, bind, Except.bind, arrayAt, hid])

end CSnapshotSynthesizer

end Exchange

namespace Exchange

open Common

namespace CSnapshotSynthesizer

theorem Spare_fresh : Spare fresh.m_orderPool :=
  ⟨1, by decide, by decide, rfl⟩

/-- The fresh synthesizer after the ADDs of the order ids 0, ..., k - 1 of ticker 0: the
slots below `k` of the pool are busy, the others free, and the cursor is `k`. -/
theorem fill_pool : ∀ k, k ≤ ME_MAX_ORDER_IDS - 1 →
    ∃ s, fresh.drain (numbered 1 ((List.range k).map addAt)) = .ok s ∧ SynthOK s ∧
      s.m_lastIncSeqNum = k ∧ s.m_orderPool.m_nextFreeIndex = k ∧
      (∀ i, i < ME_MAX_ORDER_IDS → ((s.m_orderPool.m_store i).isFree = true ↔ k ≤ i)) ∧
      ∀ t id, s.image t id ≠ none → t = 0 ∧ id < k
  | 0, _ => ⟨fresh, rfl, SynthOK_fresh, rfl, rfl, fun i _ => ⟨fun _ => Nat.zero_le i, fun _ => rfl⟩,
      fun t id h => absurd rfl h⟩
  | k + 1, hk => by
    have hN : ME_MAX_ORDER_IDS = 1048576 := rfl
    obtain ⟨s, hrun, hs, hlast, hcur, hfree, hlive⟩ := fill_pool k (by omega)
    have hnone : s.image (addAt k).tickerId (addAt k).orderId = none := by
      by_contra hne
      have := (hlive 0 k hne).2
      omega
    have hsp : Spare s.m_orderPool :=
      ⟨k + 1, by rw [hs.pool.1]; omega, by rw [hcur]; omega, (hfree (k + 1) (by omega)).2 (by omega)⟩
    have hseq : (1 + k : Nat) = (s.m_lastIncSeqNum + 1) % 2 ^ 64 := by
      rw [hlast, Nat.mod_eq_of_lt (by omega)]
      omega
    obtain ⟨a, s2, ha, hrun2, hpool, hok, hlast2, himg⟩ :=
      AddToSnapshot_add (s := s) (r := ⟨1 + k, addAt k⟩) hs
        (show 0 < ME_MAX_TICKERS by decide) hseq rfl
        (show k < ME_MAX_ORDER_IDS by omega) hnone hsp
    obtain ⟨ha1, -, haf, -⟩ := CMemoryPool.Allocate_ok ha hs.pool
    obtain ⟨d, hd0, hdn, hdc, -, hdb⟩ := CMemoryPool.Allocate_cursor hs.pool ha
    have hd1 : d = 1 := by
      by_contra hne
      have hb := hdb 1 (by omega)
      rw [ha1, hcur, Nat.mod_eq_of_lt (by omega), haf, if_neg (by rw [ha1, hcur]; omega),
        (hfree (k + 1) (by omega)).2 (by omega)] at hb
      exact Bool.noConfusion hb
    refine ⟨s2, ?_, hok, ?_, ?_, fun i hi => ?_, fun t id hne => ?_⟩
    · rw [List.range_succ, List.map_append, Trading.CMarketDataConsumer.numbered_append,
        drain_append, hrun, List.length_map, List.length_range]
      show drain s [⟨1 + k, addAt k⟩] = _
      simp only [drain, hrun2]
    · rw [hlast2]
      exact Nat.add_comm 1 k
    · rw [hpool, hdc, hd1, ha1, hcur, Nat.mod_eq_of_lt (by omega)]
    · rw [hpool, haf, ha1, hcur]
      by_cases hik : i = k
      · rw [if_pos hik]
        constructor
        · intro h
          exact Bool.noConfusion h
        · intro h
          omega
      · rw [if_neg hik, hfree i hi]
        omega
    · have e : Function.update (image s) 0 (Function.update (image s 0) k (some (addAt k))) t id ≠
          none := by
        rw [himg] at hne
        exact hne
      by_cases ht : t = 0
      · by_cases hid : id = k
        · exact ⟨ht, by omega⟩
        · rw [ht, Function.update_same, Function.update_noteq hid] at e
          have := hlive _ _ e
          exact ⟨ht, by omega⟩
      · rw [Function.update_noteq ht] at e
        have := hlive _ _ e
        exact ⟨this.1, by omega⟩

/-- C21 at the synthesizer that has taken one ADD: the image is well formed, the order is
live, and the cycle has the sequence numbers of the layout. -/
theorem snapshot_cycle_layout_at_one_order :
    ∃ s, fresh.AddToSnapshot ⟨1, Trading.addOne⟩ = .ok s ∧ ImageOK s ∧
      s.image 0 1 = some Trading.addOne ∧
      s.PublishSnapshot.map (fun r => r.seqNum) =
        List.range (2 + ME_MAX_TICKERS + s.liveCount) := by
  obtain ⟨a, s2, -, hrun, -, hok, -, himg⟩ :=
    AddToSnapshot_add (s := fresh) (r := ⟨1, Trading.addOne⟩) SynthOK_fresh (by decide) rfl rfl
      (by decide) rfl Spare_fresh
  refine ⟨s2, hrun, hok.image, ?_, (snapshot_cycle_layout s2 hok.image).1⟩
  rw [himg]
  show Function.update (image fresh) 0 (Function.update (image fresh 0) 1 _) 0 1 = _
  rw [Function.update_same, Function.update_same]

/-- C22, amended, at the fresh synthesizer: it is well formed, the ADD of order 1 with the
sequence number 1 is taken, and a TRADE for ticker 0 with the sequence number 1 leaves the
image as it is. -/
theorem ingest_transition_at_fresh :
    SynthOK fresh ∧
    (∃ s2, fresh.AddToSnapshot ⟨1, Trading.addOne⟩ = .ok s2 ∧ SynthOK s2 ∧
      s2.m_lastIncSeqNum = 1 ∧
      image s2 = Function.update (image fresh) 0
        (Function.update (image fresh 0) 1 (some Trading.addOne))) ∧
    (fresh.AddToSnapshot ⟨2, Trading.addOne⟩).toBool = false :=
  ⟨SynthOK_fresh,
    ((ingest_transition fresh SynthOK_fresh ⟨1, Trading.addOne⟩).1 rfl (by decide)).1 rfl
      (by decide) rfl Spare_fresh,
    (ingest_transition fresh SynthOK_fresh ⟨2, Trading.addOne⟩).2.2.2.1 (by decide)⟩

/-- C22 as it is written fails: a TRADE with the next sequence number and the ticker id
`ME_MAX_TICKERS` is fatal; an ADD of an order id that is not live is fatal when the id is
`ME_MAX_ORDER_IDS`; a MODIFY of a live id is fatal when it carries the other side; and after
the ADDs of the order ids 0, ..., `ME_MAX_ORDER_IDS` - 2 the ADD of the order id
`ME_MAX_ORDER_IDS` - 1, which is not live, with the next sequence number, is fatal. -/
theorem ingest_needs_more :
    (fresh.AddToSnapshot ⟨1, ⟨.TRADE, OrderId_INVALID, ME_MAX_TICKERS, .BUY, 100, 1,
      Priority_INVALID⟩⟩).toBool = false ∧
    (fresh.image 0 ME_MAX_ORDER_IDS = none ∧
      (fresh.AddToSnapshot ⟨1, addAt ME_MAX_ORDER_IDS⟩).toBool = false) ∧
    (∃ s, fresh.AddToSnapshot ⟨1, Trading.addOne⟩ = .ok s ∧
      s.image 0 1 = some Trading.addOne ∧
      (s.AddToSnapshot ⟨2, ⟨.MODIFY, 1, 0, .SELL, 100, 5, 1⟩⟩).toBool = false) ∧
    ∃ s, fresh.drain (numbered 1 ((List.range (ME_MAX_ORDER_IDS - 1)).map addAt)) = .ok s ∧
      s.m_lastIncSeqNum + 1 = ME_MAX_ORDER_IDS ∧
      s.image 0 (ME_MAX_ORDER_IDS - 1) = none ∧
      (s.AddToSnapshot ⟨ME_MAX_ORDER_IDS, addAt (ME_MAX_ORDER_IDS - 1)⟩).toBool = false := by
  have hN : ME_MAX_ORDER_IDS = 1048576 := rfl
  refine ⟨toBool_error (AddToSnapshot_ticker (Nat.le_refl _)), ⟨rfl, ?_⟩, ?_, ?_⟩
  · exact AddToSnapshot_of_switch (e := .outOfRange) (by
      simp [applyUpdate, addAt, bind, Except.bind, arrayAt])
  · obtain ⟨a, s2, -, hrun, -, hok, -, himg⟩ :=
      AddToSnapshot_add (s := fresh) (r := ⟨1, Trading.addOne⟩) SynthOK_fresh (by decide) rfl rfl
        (by decide) rfl Spare_fresh
    have hlive : s2.image 0 1 = some Trading.addOne := by
      rw [himg]
      show Function.update (image fresh) 0 (Function.update (image fresh 0) 1 _) 0 1 = _
      rw [Function.update_same, Function.update_same]
    obtain ⟨p, hp, hobj⟩ := image_some hlive
    have hk := hok.image.keyed _ _ p hp
    refine ⟨s2, hrun, hlive, AddToSnapshot_of_switch (e := .assertFailed) ?_⟩
    have hside : (s2.m_orderPool.obj p).side ≠ ESide.SELL := by
      rw [hobj]
      decide
    have hlt : (1 : Nat) < ME_MAX_ORDER_IDS := by decide
    simp [applyUpdate, bind, Except.bind, arrayAt_lt hlt, hp, hk.2.2, hside]
  · obtain ⟨s, hrun, hs, hlast, hcur, hfree, hlive⟩ := fill_pool (ME_MAX_ORDER_IDS - 1) le_rfl
    have hnone : s.image 0 (ME_MAX_ORDER_IDS - 1) = none := by
      by_contra hne
      have := (hlive _ _ hne).2
      omega
    refine ⟨s, hrun, by omega, hnone, ?_⟩
    have hsp : ¬ Spare s.m_orderPool := by
      rintro ⟨j, hj, hjc, hjf⟩
      rw [hs.pool.1] at hj
      have := (hfree j hj).1 hjf
      rw [hcur] at hjc
      omega
    refine AddToSnapshot_of_switch (e := .assertFailed) ?_
    rw [applyUpdate_add_eq rfl (show (addAt (ME_MAX_ORDER_IDS - 1)).orderId < ME_MAX_ORDER_IDS
      from by show ME_MAX_ORDER_IDS - 1 < ME_MAX_ORDER_IDS; omega) (image_none.1 hnone),
      CMemoryPool.Allocate_exhausted _ hs.pool hsp]

end CSnapshotSynthesizer

end Exchange

namespace Exchange

open Common CMEOrderBook

theorem bookS1_nextId : bookS1.m_nextMarketOrderId = 2 := rfl

/-- The lone bid with priority `n + 1` is reached with `n + 2` as the next market order id:
the book has then taken `n + 1` NEW requests. -/
theorem LoneBid_nextId (n : Nat) (hn : n + 2 < 2 ^ 64) :
    ∃ b, Reachable (fun _ _ _ => True) b ∧ LoneBid b (n + 1) ∧ b.m_nextMarketOrderId = n + 2 := by
  induction n with
  | zero =>
    exact ⟨bookS1, Reachable.add 0 1 0 .BUY 100 10 (Reachable.init 0) (Or.inl rfl) (by decide)
      (NoCollision_init 0 100) trivial run_scenarioS1, LoneBid_bookS1, bookS1_nextId⟩
  | succ n ih =>
    obtain ⟨b, hR, hL, hid⟩ := ih (by omega)
    obtain ⟨b2, hR2, hT, -, hid2, -⟩ := LoneBid_add_run hR hL
    obtain ⟨b3, hR3, hL3, -, hid3⟩ := TwoBids_cancel_run (by omega) hR2 hT
    refine ⟨b3, hR3, hL3, ?_⟩
    rw [hid3, hid2, hid, Nat.mod_eq_of_lt (by omega)]

namespace CSnapshotSynthesizer

/-- An ADD whose order id is not below `ME_MAX_ORDER_IDS` stops the synthesizer, whatever its
state: the run of a stream with such an update does not return. -/
theorem drain_large_id {u : SMEMarketUpdate} (hty : u.type = .ADD)
    (hid : ME_MAX_ORDER_IDS ≤ u.orderId) : ∀ (us : List SMEMarketUpdate), u ∈ us →
    ∀ (s : CSnapshotSynthesizer) (n : Nat), (s.drain (numbered n us)).toBool = false
  | [], h, _, _ => absurd h (List.not_mem_nil _)
  | v :: us, h, s, n => by
    show (match s.AddToSnapshot ⟨n, v⟩ with
      | .ok s1 => drain s1 (numbered (n + 1) us)
      | .error e => .error e).toBool = false
    cases hrun : s.AddToSnapshot ⟨n, v⟩ with
    | error e => rfl
    | ok s1 =>
      rcases List.mem_cons.1 h with e | hmem
      · subst e
        have hf : (s.AddToSnapshot ⟨n, u⟩).toBool = false :=
          AddToSnapshot_of_switch (e := .outOfRange) (by
            simp [applyUpdate, hty, bind, Except.bind, arrayAt, Nat.not_lt.2 hid])
        rw [hrun] at hf
        exact Bool.noConfusion hf
      · exact drain_large_id hty hid us hmem s1 (n + 1)

theorem mem_updatesOf {u : SMEMarketUpdate} {es : List Emitted} (h : Emitted.update u ∈ es) :
    u ∈ updatesOf es :=
  List.mem_filterMap.2 ⟨_, h, rfl⟩

/-- C23 fails on the code, in two ways. The synthesizer keeps its image in rows of
`ME_MAX_ORDER_IDS` entries that it indexes with the market order id, and the book numbers its
orders without a bound: after `ME_MAX_ORDER_IDS` - 1 NEW requests of client 0 for a bid at
100, with the client order ids 0 and 1 in turn and each older bid cancelled, the book holds
one bid and the next market order id is `ME_MAX_ORDER_IDS`; one more NEW request returns, and
the fresh synthesizer does not take the stream of the updates of that book. And the
constructor does not write `m_tickerOrders`: a synthesizer built in storage whose pointers are
not null does not take the one update of scenario S1, the ADD of order 1. -/
theorem image_breaks_at_capacity :
    (∃ b b2, Reachable (fun _ _ _ => True) b ∧ LoneBid b (ME_MAX_ORDER_IDS - 1) ∧
      b.m_nextMarketOrderId = ME_MAX_ORDER_IDS ∧
      b.AddOrder 0 (ME_MAX_ORDER_IDS % 2) 0 .BUY 100 1 = .ok b2 ∧
      Reachable (fun _ _ _ => True) b2 ∧
      accepts (updatesOf b2.emitted) = false) ∧
    updatesOf bookS1.emitted = [Trading.addOne] ∧
    ((init fun _ _ => some 0).drain (numbered 1 (updatesOf bookS1.emitted))).toBool = false := by
  refine ⟨?_, rfl, rfl⟩
  obtain ⟨b, hR, hL, hid⟩ := LoneBid_nextId (ME_MAX_ORDER_IDS - 2) (by decide)
  obtain ⟨b2, hR2, -, hrun, -, hem⟩ := LoneBid_add_run hR hL
  refine ⟨b, b2, hR, hL, hid, hrun, hR2, ?_⟩
  exact drain_large_id (u := ⟨.ADD, b.m_nextMarketOrderId, 0, .BUY, 100, 1,
    (ME_MAX_ORDER_IDS - 2 + 1 + 1) % 2 ^ 64⟩) rfl (by rw [hid]; decide) _ (mem_updatesOf hem) _ _

end CSnapshotSynthesizer

end Exchange

namespace Exchange

open Common

namespace CSnapshotSynthesizer

theorem Pointed_fresh : Pointed fresh := fun _ _ h => Bool.noConfusion h

theorem Mirror_fresh (t : Nat) (view : Nat → SMEMarketUpdate) :
    Mirror t 1 0 [] view (fun _ => False) fresh ∅ where
  ok := SynthOK_fresh
  pointed := Pointed_fresh
  live := fun _ h => h.elim
  only := fun _ _ _ h => Option.noConfusion h
  inj := fun _ _ h => h.elim
  ids_mem := fun id => ⟨fun h => absurd h (Finset.not_mem_empty id), fun h => absurd rfl h⟩
  ids_lt := fun id h => absurd h (Finset.not_mem_empty id)
  count := Nat.le_refl 0
  run := rfl
  last := rfl

variable {t m c : Nat} {us : List SMEMarketUpdate} {view : Nat → SMEMarketUpdate}
  {R : Nat → Prop} {s : CSnapshotSynthesizer} {ids : Finset Nat}

theorem Mirror.step_run (h : Mirror t m c us view R s ids) {u : SMEMarketUpdate}
    {s2 : CSnapshotSynthesizer} (hstep : s.AddToSnapshot ⟨1 + us.length, u⟩ = .ok s2) :
    fresh.drain (numbered 1 (us ++ [u])) = .ok s2 := by
  rw [Trading.CMarketDataConsumer.numbered_append, drain_append, h.run]
  show drain s [⟨1 + us.length, u⟩] = _
  simp only [drain, hstep]

theorem Mirror.step_seq (h : Mirror t m c us view R s ids) (hlen : us.length + 1 < 2 ^ 64) :
    1 + us.length = (s.m_lastIncSeqNum + 1) % 2 ^ 64 := by
  rw [h.last, Nat.mod_eq_of_lt hlen]
  exact Nat.add_comm 1 _

theorem Mirror.mirror_congr (h : Mirror t m c us view R s ids) {Q : Nat → Prop}
    {w : Nat → SMEMarketUpdate} {c2 : Nat} (hR : ∀ q, Q q ↔ R q)
    (hv : ∀ q, R q → w q = view q) (hc : c ≤ c2) : Mirror t m c2 us w Q s ids where
  ok := h.ok
  pointed := h.pointed
  live := fun q hq => by
    rw [hv q ((hR q).1 hq)]
    exact h.live q ((hR q).1 hq)
  only := fun t2 id u hu => by
    obtain ⟨e, q, hq, hid⟩ := h.only t2 id u hu
    exact ⟨e, q, (hR q).2 hq, by rw [hv q hq]; exact hid⟩
  inj := fun q q2 hq hq2 e => by
    rw [hv q ((hR q).1 hq), hv q2 ((hR q2).1 hq2)] at e
    exact h.inj q q2 ((hR q).1 hq) ((hR q2).1 hq2) e
  ids_mem := h.ids_mem
  ids_lt := h.ids_lt
  count := le_trans h.count hc
  run := h.run
  last := h.last

/-- The live order ids of a mirror are fewer than `m`, so that its pool has room. -/
theorem Mirror.mirror_spare (h : Mirror t m c us view R s ids) (hm : m < ME_MAX_ORDER_IDS) :
    Spare s.m_orderPool := by
  have hids : ids.card ≤ m - 1 := by
    have hsub : ids ⊆ Finset.Ico 1 m := fun id hid => Finset.mem_Ico.2 (h.ids_lt id hid)
    have := Finset.card_le_card hsub
    rwa [Nat.card_Ico] at this
  have hbusy : ((Finset.range ME_MAX_ORDER_IDS).filter
      fun p => ¬ (s.m_orderPool.m_store p).isFree = true).card ≤ ids.card := by
    apply Finset.card_le_card_of_surjOn (fun id => (s.m_tickerOrders t id).getD 0)
    intro p hp
    have hp2 := Finset.mem_filter.1 (Finset.mem_coe.1 hp)
    obtain ⟨t2, id, hptr⟩ := h.pointed p (Finset.mem_range.1 hp2.1)
      (Bool.not_eq_true _ ▸ hp2.2)
    have himg : s.image t2 id = some (s.m_orderPool.obj p) := by
      unfold image
      rw [hptr]
      rfl
    obtain ⟨e, -⟩ := h.only _ _ _ himg
    subst e
    refine ⟨id, Finset.mem_coe.2 ((h.ids_mem id).2 ?_), ?_⟩
    · rw [himg]
      exact Option.some_ne_none _
    · show (s.m_tickerOrders t2 id).getD 0 = p
      rw [hptr]
      rfl
  have hsum := Finset.filter_card_add_filter_neg_card_eq_card
    (s := Finset.range ME_MAX_ORDER_IDS) (fun p => (s.m_orderPool.m_store p).isFree = true)
  rw [Finset.card_range] at hsum
  have hfree : 1 < ((Finset.range ME_MAX_ORDER_IDS).filter
      fun p => (s.m_orderPool.m_store p).isFree = true).card := by
    have hN : ME_MAX_ORDER_IDS = 1048576 := rfl
    generalize ((Finset.range ME_MAX_ORDER_IDS).filter
      fun p => (s.m_orderPool.m_store p).isFree = true).card = x at hsum
    generalize ((Finset.range ME_MAX_ORDER_IDS).filter
      fun p => ¬ (s.m_orderPool.m_store p).isFree = true).card = y at hsum hbusy
    omega
  obtain ⟨j, hj, hjc⟩ := Finset.exists_mem_ne hfree s.m_orderPool.m_nextFreeIndex
  have hj2 := Finset.mem_filter.1 hj
  exact ⟨j, by rw [h.ok.pool.1]; exact Finset.mem_range.1 hj2.1, hjc, hj2.2⟩

/-- A mirror takes an update that is no ADD, MODIFY or CANCEL and stays as it is. -/
theorem Mirror.mirror_other (h : Mirror t m c us view R s ids) (ht : t < ME_MAX_TICKERS)
    {u : SMEMarketUpdate} (hut : u.tickerId = t) (h1 : u.type ≠ .ADD) (h2 : u.type ≠ .MODIFY)
    (h3 : u.type ≠ .CANCEL) (hlen : us.length + 1 < 2 ^ 64) :
    ∃ s2, Mirror t m (c + 1) (us ++ [u]) view R s2 ids := by
  obtain ⟨hrun, hok, -⟩ := AddToSnapshot_next (r := ⟨1 + us.length, u⟩) h.ok
    (by rw [hut]; exact ht) (h.step_seq hlen) (applyUpdate_other_eq ⟨h1, h2, h3⟩)
  refine ⟨_, ⟨hok, h.pointed, h.live, h.only, h.inj, h.ids_mem, h.ids_lt, ?_,
    h.step_run hrun, ?_⟩⟩
  · have := h.count
    rw [List.length_append, List.length_singleton]
    omega
  · rw [List.length_append, List.length_singleton]
    exact Nat.add_comm 1 _

/-- A mirror takes the ADD of a new order with the order id `m`. -/
theorem Mirror.mirror_add (h : Mirror t m c us view R s ids) (ht : t < ME_MAX_TICKERS)
    (hm : m < ME_MAX_ORDER_IDS) (hm1 : 1 ≤ m) {u : SMEMarketUpdate} (hty : u.type = .ADD)
    (hut : u.tickerId = t) (hid : u.orderId = m) {o : Nat} {Q : Nat → Prop}
    {w : Nat → SMEMarketUpdate} (hR2 : ∀ q, Q q ↔ q = o ∨ R q)
    (hvo : w o = u) (hv : ∀ q, R q → w q = view q) (hlen : us.length + 1 < 2 ^ 64) :
    ∃ s2, Mirror t (m + 1) (c + 3) (us ++ [u]) w Q s2 (insert m ids) := by
  have hnot : m ∉ ids := fun hmem => Nat.lt_irrefl m (h.ids_lt m hmem).2
  have hnone : s.image u.tickerId u.orderId = none := by
    rw [hut, hid]
    by_contra hne
    exact hnot ((h.ids_mem m).2 hne)
  have hslot := image_none.1 hnone
  obtain ⟨a, ha⟩ := CMemoryPool.Allocate_total u h.ok.pool (h.mirror_spare hm)
  have hap := applyUpdate_add_eq hty (by rw [hid]; exact hm) hslot
  rw [ha] at hap
  obtain ⟨hrun, hok, himg⟩ := AddToSnapshot_next (r := ⟨1 + us.length, u⟩) h.ok
    (by rw [hut]; exact ht) (h.step_seq hlen) hap
  obtain ⟨ha1, -, haf, -⟩ := CMemoryPool.Allocate_ok ha h.ok.pool
  have himg2 : ∀ t2 id2, image { ({ s with m_orderPool := a.2 }.setOrder u.tickerId u.orderId
      (some a.1)) with m_lastIncSeqNum := 1 + us.length } t2 id2 =
      if t2 = t ∧ id2 = m then some u else s.image t2 id2 := by
    intro t2 id2
    have := congrFun (congrFun himg t2) id2
    rw [this]
    simp only [imageStep, hty]
    rw [update2_fun, hut, hid]
  have hold : ∀ q, R q → (view q).orderId ≠ m := by
    intro q hq e
    apply hnot
    refine (h.ids_mem m).2 ?_
    rw [← e, h.live q hq]
    exact Option.some_ne_none _
  refine ⟨_, ⟨hok, ?_, ?_, ?_, ?_, ?_, ?_, ?_, h.step_run hrun, ?_⟩⟩
  · intro p hp hb
    have hb2 : (a.2.m_store p).isFree = false := hb
    by_cases hpa : p = a.1
    · refine ⟨u.tickerId, u.orderId, ?_⟩
      show ({ s with m_orderPool := a.2 }.setOrder u.tickerId u.orderId (some a.1)).m_tickerOrders
        u.tickerId u.orderId = some p
      rw [tickerOrders_setOrder, if_pos ⟨rfl, rfl⟩, hpa]
    · rw [haf, if_neg hpa] at hb2
      obtain ⟨t2, id2, hptr⟩ := h.pointed p hp hb2
      refine ⟨t2, id2, ?_⟩
      show ({ s with m_orderPool := a.2 }.setOrder u.tickerId u.orderId (some a.1)).m_tickerOrders
        t2 id2 = some p
      rw [tickerOrders_setOrder, if_neg]
      · exact hptr
      · rintro ⟨e1, e2⟩
        rw [e1, e2, hslot] at hptr
        exact Option.noConfusion hptr
  · intro q hq
    rw [himg2]
    rcases (hR2 q).1 hq with e | hq
    · rw [e, hvo, if_pos ⟨rfl, hid⟩]
    · rw [hv q hq, if_neg (fun e => hold q hq e.2)]
      exact h.live q hq
  · intro t2 id2 x hx
    rw [himg2] at hx
    by_cases hc : t2 = t ∧ id2 = m
    · exact ⟨hc.1, o, (hR2 o).2 (Or.inl rfl), by rw [hvo, hid, hc.2]⟩
    · rw [if_neg hc] at hx
      obtain ⟨e, q, hq, hqid⟩ := h.only t2 id2 x hx
      exact ⟨e, q, (hR2 q).2 (Or.inr hq), by rw [hv q hq]; exact hqid⟩
  · intro q q2 hq hq2 e
    rcases (hR2 q).1 hq with e1 | hq <;> rcases (hR2 q2).1 hq2 with e2 | hq2
    · rw [e1, e2]
    · rw [e1, hvo, hid, hv q2 hq2] at e
      exact absurd e.symm (hold q2 hq2)
    · rw [e2, hvo, hid, hv q hq] at e
      exact absurd e (hold q hq)
    · rw [hv q hq, hv q2 hq2] at e
      exact h.inj q q2 hq hq2 e
  · intro id2
    rw [himg2, Finset.mem_insert]
    by_cases hc : id2 = m
    · rw [if_pos ⟨rfl, hc⟩]
      exact ⟨fun _ => Option.some_ne_none _, fun _ => Or.inl hc⟩
    · rw [if_neg (fun e => hc e.2)]
      exact ⟨fun hx => hx.elim (fun e => absurd e hc) (h.ids_mem id2).1,
        fun hx => Or.inr ((h.ids_mem id2).2 hx)⟩
  · intro id2 hid2
    rcases Finset.mem_insert.1 hid2 with e | hmem
    · rw [e]
      exact ⟨hm1, Nat.lt_succ_self m⟩
    · have := h.ids_lt id2 hmem
      exact ⟨this.1, Nat.lt_succ_of_lt this.2⟩
  · have := h.count
    rw [List.length_append, List.length_singleton, Finset.card_insert_of_not_mem hnot]
    omega
  · show 1 + us.length = (us ++ [u]).length
    rw [List.length_append, List.length_singleton]
    exact Nat.add_comm 1 _

/-- A mirror takes the MODIFY of one of its orders, with the side of the order. -/
theorem Mirror.mirror_modify (h : Mirror t m c us view R s ids) (ht : t < ME_MAX_TICKERS)
    {u : SMEMarketUpdate} {o : Nat} (ho : R o) (hty : u.type = .MODIFY) (hut : u.tickerId = t)
    (hid : u.orderId = (view o).orderId) (hside : u.side = (view o).side)
    {w : Nat → SMEMarketUpdate}
    (hvo : w o = { view o with qty := u.qty, price := u.price })
    (hv : ∀ q, R q → q ≠ o → w q = view q) (hlen : us.length + 1 < 2 ^ 64) :
    ∃ s2, Mirror t m (c + 1) (us ++ [u]) w R s2 ids := by
  have hlive : s.image u.tickerId u.orderId = some (view o) := by
    rw [hut, hid]
    exact h.live o ho
  obtain ⟨p, hp, hobj⟩ := image_some hlive
  have hk := h.ok.image.keyed _ _ p hp
  have hap := (applyUpdate_live_eq hp (h.ok.image.bounds _ _ p hp).2 hk.2.2
    (by rw [hobj]; exact hside.symm)).1 hty
  obtain ⟨hrun, hok, himg⟩ := AddToSnapshot_next (r := ⟨1 + us.length, u⟩) h.ok
    (by rw [hut]; exact ht) (h.step_seq hlen) hap
  have himg2 : ∀ t2 id2, image { ({ s with m_orderPool := s.m_orderPool.modify p fun x =>
      { x with qty := u.qty, price := u.price } } : CSnapshotSynthesizer) with
      m_lastIncSeqNum := 1 + us.length } t2 id2 =
      if t2 = t ∧ id2 = (view o).orderId then some (w o) else s.image t2 id2 := by
    intro t2 id2
    have := congrFun (congrFun himg t2) id2
    rw [this]
    simp only [imageStep, hty]
    rw [update2_fun, hlive, hut, hid, hvo]
    rfl
  have hvid : ∀ q, R q → (w q).orderId = (view q).orderId := by
    intro q hq
    by_cases e : q = o
    · rw [e, hvo]
    · rw [hv q hq e]
  refine ⟨_, ⟨hok, ?_, ?_, ?_, ?_, ?_, h.ids_lt, ?_, h.step_run hrun, ?_⟩⟩
  · intro q hq hb
    have hb2 : ((s.m_orderPool.modify p fun x =>
        { x with qty := u.qty, price := u.price }).m_store q).isFree = false := hb
    rw [CMemoryPool.isFree_modify] at hb2
    exact h.pointed q hq hb2
  · intro q hq
    rw [himg2, hvid q hq]
    by_cases e : q = o
    · rw [e, if_pos ⟨rfl, rfl⟩]
    · rw [if_neg (fun hc => e (h.inj q o hq ho hc.2)), hv q hq e]
      exact h.live q hq
  · intro t2 id2 x hx
    rw [himg2] at hx
    by_cases hc : t2 = t ∧ id2 = (view o).orderId
    · exact ⟨hc.1, o, ho, by rw [hvid o ho, hc.2]⟩
    · rw [if_neg hc] at hx
      obtain ⟨e, q, hq, hqid⟩ := h.only t2 id2 x hx
      exact ⟨e, q, hq, by rw [hvid q hq]; exact hqid⟩
  · intro q q2 hq hq2 e
    rw [hvid q hq, hvid q2 hq2] at e
    exact h.inj q q2 hq hq2 e
  · intro id2
    rw [himg2, h.ids_mem id2]
    by_cases hc : id2 = (view o).orderId
    · rw [if_pos ⟨rfl, hc⟩, hc, h.live o ho]
      exact ⟨fun _ => Option.some_ne_none _, fun _ => Option.some_ne_none _⟩
    · rw [if_neg (fun e => hc e.2)]
  · have := h.count
    rw [List.length_append, List.length_singleton]
    omega
  · show 1 + us.length = (us ++ [u]).length
    rw [List.length_append, List.length_singleton]
    exact Nat.add_comm 1 _

/-- A mirror takes the CANCEL of one of its orders, with the side of the order, and loses
that order. -/
theorem Mirror.mirror_cancel (h : Mirror t m (c + 1) us view R s ids) (ht : t < ME_MAX_TICKERS)
    {u : SMEMarketUpdate} {o : Nat} (ho : R o) (hty : u.type = .CANCEL) (hut : u.tickerId = t)
    (hid : u.orderId = (view o).orderId) (hside : u.side = (view o).side)
    {Q : Nat → Prop} {w : Nat → SMEMarketUpdate} (hR2 : ∀ q, Q q ↔ R q ∧ q ≠ o)
    (hv : ∀ q, R q → q ≠ o → w q = view q) (hlen : us.length + 1 < 2 ^ 64) :
    ∃ s2, Mirror t m c (us ++ [u]) w Q s2 (ids.erase (view o).orderId) := by
  have hlive : s.image u.tickerId u.orderId = some (view o) := by
    rw [hut, hid]
    exact h.live o ho
  obtain ⟨p, hp, hobj⟩ := image_some hlive
  have hk := h.ok.image.keyed _ _ p hp
  have hap := (applyUpdate_live_eq hp (h.ok.image.bounds _ _ p hp).2 hk.2.2
    (by rw [hobj]; exact hside.symm)).2 hty
  rw [CMemoryPool.Deallocate_eq _ (by rw [h.ok.pool.1]; exact h.ok.slot_lt _ _ p hp)
    (h.ok.image.busy _ _ p hp)] at hap
  obtain ⟨hrun, hok, himg⟩ := AddToSnapshot_next (r := ⟨1 + us.length, u⟩) h.ok
    (by rw [hut]; exact ht) (h.step_seq hlen) hap
  have himg2 : ∀ t2 id2, image { ({ s with m_orderPool := s.m_orderPool.release p }.setOrder
      u.tickerId u.orderId none) with m_lastIncSeqNum := 1 + us.length } t2 id2 =
      if t2 = t ∧ id2 = (view o).orderId then none else s.image t2 id2 := by
    intro t2 id2
    have := congrFun (congrFun himg t2) id2
    rw [this]
    simp only [imageStep, hty]
    rw [update2_fun, hut, hid]
  have hmem : (view o).orderId ∈ ids := by
    refine (h.ids_mem _).2 ?_
    rw [h.live o ho]
    exact Option.some_ne_none _
  refine ⟨_, ⟨hok, ?_, ?_, ?_, ?_, ?_, ?_, ?_, h.step_run hrun, ?_⟩⟩
  · intro q hq hb
    have hb2 : ((s.m_orderPool.release p).m_store q).isFree = false := hb
    rw [CMemoryPool.isFree_release] at hb2
    by_cases hqp : q = p
    · rw [if_pos hqp] at hb2
      exact Bool.noConfusion hb2
    · rw [if_neg hqp] at hb2
      obtain ⟨t2, id2, hptr⟩ := h.pointed q hq hb2
      refine ⟨t2, id2, ?_⟩
      show ({ s with m_orderPool := s.m_orderPool.release p }.setOrder u.tickerId u.orderId
        none).m_tickerOrders t2 id2 = some q
      rw [tickerOrders_setOrder, if_neg]
      · exact hptr
      · rintro ⟨e1, e2⟩
        rw [e1, e2, hp] at hptr
        exact hqp (Option.some.inj hptr).symm
  · intro q hq
    obtain ⟨hq1, hqo⟩ := (hR2 q).1 hq
    rw [himg2, hv q hq1 hqo, if_neg (fun hc => hqo (h.inj q o hq1 ho hc.2))]
    exact h.live q hq1
  · intro t2 id2 x hx
    rw [himg2] at hx
    by_cases hc : t2 = t ∧ id2 = (view o).orderId
    · rw [if_pos hc] at hx
      exact Option.noConfusion hx
    · rw [if_neg hc] at hx
      obtain ⟨e, q, hq, hqid⟩ := h.only t2 id2 x hx
      have hqo : q ≠ o := by
        intro e2
        apply hc
        rw [e2] at hqid
        exact ⟨e, hqid.symm⟩
      exact ⟨e, q, (hR2 q).2 ⟨hq, hqo⟩, by rw [hv q hq hqo]; exact hqid⟩
  · intro q q2 hq hq2 e
    obtain ⟨hq1, hqo⟩ := (hR2 q).1 hq
    obtain ⟨hq3, hqo2⟩ := (hR2 q2).1 hq2
    rw [hv q hq1 hqo, hv q2 hq3 hqo2] at e
    exact h.inj q q2 hq1 hq3 e
  · intro id2
    rw [himg2, Finset.mem_erase, h.ids_mem id2]
    by_cases hc : id2 = (view o).orderId
    · rw [if_pos ⟨rfl, hc⟩]
      exact ⟨fun hx => absurd hc hx.1, fun hx => absurd rfl hx⟩
    · rw [if_neg (fun e => hc e.2)]
      exact ⟨fun hx => hx.2, fun hx => ⟨hc, hx⟩⟩
  · intro id2 hid2
    exact h.ids_lt id2 (Finset.mem_of_mem_erase hid2)
  · have := h.count
    have hpos : 0 < ids.card := Finset.card_pos.2 ⟨_, hmem⟩
    rw [List.length_append, List.length_singleton, Finset.card_erase_of_mem hmem]
    omega
  · show 1 + us.length = (us ++ [u]).length
    rw [List.length_append, List.length_singleton]
    exact Nat.add_comm 1 _

end CSnapshotSynthesizer

end Exchange

namespace Exchange

open Common CMEOrderBook CSnapshotSynthesizer

theorem updatesOf_append (a b : List Emitted) :
    updatesOf (a ++ b) = updatesOf a ++ updatesOf b := by
  unfold updatesOf
  rw [List.filterMap_append]

theorem updatesOf_matchRecords (t cid : Nat) (side : ESide) (coid moid : Nat) (o : SMEOrder)
    (L : Nat) :
    updatesOf (matchRecords t cid side coid moid o L) =
      [tradeUpdate t side o L, lifecycleUpdate t o L] := rfl

theorem orderRecord_congr {t : Nat} {o o2 : SMEOrder} (h : o2.unlink = o.unlink) :
    orderRecord t o2 = orderRecord t o := by
  have e : ∀ x : SMEOrder, orderRecord t x = orderRecord t x.unlink := fun _ => rfl
  rw [e o2, h, ← e o]

/-- The matching loop under a mirror: the synthesizer takes the TRADE and the CANCEL or MODIFY
of every match and mirrors the book after the loop. -/
theorem CheckForMatchLoop_mirror {side : ESide} {own : SideList}
    (hs : side = .BUY ∨ side = .SELL) (cid coid t : Nat) (ht : t < ME_MAX_TICKERS) (price : Int)
    (moid m : Nat) :
    ∀ (fuel : Nat) (b : CMEOrderBook) (L : Nat) (other : SideList) (c : Nat)
      (s : CSnapshotSynthesizer) (ids : Finset Nat),
      Struct b side own other → other.orders.length < fuel →
      Mirror t m c (updatesOf b.emitted) (fun q => orderRecord t (b.order q))
        (fun q => q ∈ (own ++ other).orders) s ids →
      c + 2 < 2 ^ 64 →
      ∃ b2 L2 s2 ids2, CheckForMatchLoop cid coid t side price moid fuel b L = .ok (b2, L2) ∧
        Mirror t m (c + 2) (updatesOf b2.emitted) (fun q => orderRecord t (b2.order q))
          (fun q => q ∈ (own ++ other.dropOrders
            (crossDone side price L (snapshots b other))).orders) s2 ids2
  | 0, _, _, _, _, _, _, _, hf, _, _ => by omega
  | fuel + 1, b, L, other, c, s, ids, h, hf, hM, hc => by
    have hkeep : ∀ k, k = 0 → Mirror t m (c + 2) (updatesOf b.emitted)
        (fun q => orderRecord t (b.order q))
        (fun q => q ∈ (own ++ other.dropOrders k).orders) s ids := by
      intro k hk
      subst hk
      exact hM.mirror_congr (fun q => by simp [SideList.dropOrders]) (fun _ _ => rfl) (by omega)
    by_cases hL : L = 0
    · subst hL
      exact ⟨b, 0, s, ids, CheckForMatchLoop_zero _ _ _ _ _ _ _ _,
        hkeep _ (crossDone_zero _ _ _)⟩
    cases other with
    | nil =>
      have hb : b.oppositeBest side = none := by
        rw [oppositeBest_eq b hs, h.otherOK.best]
        rfl
      refine ⟨b, L, s, ids, ?_, hkeep _ ?_⟩
      · simp [CheckForMatchLoop, hb, pure, Except.pure]
      · simp [snapshots, SideList.orders, crossDone]
    | cons x B =>
      obtain ⟨lp, os0⟩ := x
      obtain ⟨o, os, hx, hbest, hfirst⟩ := h.other_head
      simp only at hx hbest hfirst
      subst hx
      have hb : b.oppositeBest side = some lp := by
        rw [oppositeBest_eq b hs, hbest]
      by_cases hstop : limitStops side price (b.order o).price = true
      · have hstop2 : limitStops side price (b.order o).unlink.price = true := hstop
        refine ⟨b, L, s, ids, ?_, hkeep _ ?_⟩
        · simp [CheckForMatchLoop, hb, hL, hfirst, hstop, bind, Except.bind, pure, Except.pure]
        · rw [snapshots_cons]
          simp [crossDone, hstop2]
      · have hstop2 : ¬ limitStops side price (b.order o).unlink.price = true := hstop
        obtain ⟨b1, hm, hem, -, -, -, hord, -, hfullc, hpartc, -⟩ :=
          Match_spec hs h t cid coid moid L
        have hrun : CheckForMatchLoop cid coid t side price moid (fuel + 1) b L =
            CheckForMatchLoop cid coid t side price moid fuel b1 (L - (b.order o).qty) := by
          simp [CheckForMatchLoop, hb, hL, hfirst, hstop, hm, bind, Except.bind, pure,
            Except.pure]
        have hups : updatesOf b1.emitted =
            (updatesOf b.emitted ++ [tradeUpdate t side (b.order o).unlink L]) ++
              [lifecycleUpdate t (b.order o).unlink L] := by
          rw [hem, updatesOf_append, updatesOf_matchRecords]
          simp
        have hcount := hM.count
        have hom : o ∈ (own ++ (lp, o :: os) :: B).orders := by
          rw [SideList.orders_append, popped_orders]
          simp
        obtain ⟨s1, hM1⟩ := hM.mirror_other ht (u := tradeUpdate t side (b.order o).unlink L) rfl
          (by simp [tradeUpdate]) (by simp [tradeUpdate]) (by simp [tradeUpdate]) (by omega)
        have hlen1 : (updatesOf b.emitted ++ [tradeUpdate t side (b.order o).unlink L]).length +
            1 < 2 ^ 64 := by
          rw [List.length_append, List.length_singleton]
          omega
        rw [hrun, snapshots_cons]
        by_cases hfull : (b.order o).qty ≤ L
        · obtain ⟨hS1, -⟩ := hfullc hfull
          have hcd : crossDone side price L ((b.order o).unlink ::
              snapshots b (if os = [] then B else (lp, os) :: B)) =
              crossDone side price (L - (b.order o).qty)
                (snapshots b (if os = [] then B else (lp, os) :: B)) + 1 := by
            simp [crossDone, hL, hstop, hfull, SMEOrder.unlink]
          have hmem := @erased_other_mem o own ((lp, o :: os) :: B) _ (popped_erased lp o os B) h.onodup
          have hlc : lifecycleUpdate t (b.order o).unlink L =
              ⟨.CANCEL, (b.order o).marketOrderId, t, (b.order o).side, (b.order o).price,
                (b.order o).qty, Priority_INVALID⟩ := by
            have hz : (b.order o).unlink.qty - min L (b.order o).unlink.qty = 0 := by
              show (b.order o).qty - min L (b.order o).qty = 0
              omega
            unfold lifecycleUpdate
            rw [if_pos hz]
            rfl
          obtain ⟨s2, hM2⟩ := hM1.mirror_cancel ht (u := lifecycleUpdate t (b.order o).unlink L)
            (o := o) hom (by rw [hlc]) (by rw [hlc]) (by rw [hlc]; rfl) (by rw [hlc]; rfl)
            (Q := fun q => q ∈ (own ++ (if os = [] then B else (lp, os) :: B)).orders)
            (w := fun q => orderRecord t (b1.order q)) hmem
            (fun q _ hqo => orderRecord_congr (hord q hqo)) hlen1
          rw [← hups] at hM2
          have hnd := h.onodup
          rw [SideList.orders_append, popped_orders] at hnd
          have hnotin : o ∉ SideList.orders (if os = [] then B else (lp, os) :: B) := by
            intro hm
            have := (List.nodup_append.1 hnd).2.1
            exact (List.nodup_cons.1 this).1 hm
          have hsn : snapshots b1 (if os = [] then B else (lp, os) :: B) =
              snapshots b (if os = [] then B else (lp, os) :: B) :=
            snapshots_congr (fun q hq => hord q (fun e => hnotin (e ▸ hq)))
          have hlen : (SideList.orders (if os = [] then B else (lp, os) :: B)).length < fuel := by
            rw [popped_orders] at hf
            simp only [List.length_cons] at hf
            omega
          obtain ⟨b2, L2, s3, ids3, hr2, hM3⟩ :=
            CheckForMatchLoop_mirror hs cid coid t ht price moid m fuel b1
              (L - (b.order o).qty) _ c s2 _ hS1 hlen hM2 hc
          rw [hsn] at hM3
          refine ⟨b2, L2, s3, ids3, hr2, ?_⟩
          rw [hcd, dropOrders_succ]
          exact hM3
        · have hlt : L < (b.order o).qty := by omega
          obtain ⟨-, -, -, hself⟩ := hpartc hlt
          have hz : L - (b.order o).qty = 0 := by omega
          have hcd : crossDone side price L ((b.order o).unlink ::
              snapshots b (if os = [] then B else (lp, os) :: B)) = 0 := by
            simp [crossDone, hL, hstop, hfull, SMEOrder.unlink]
          have hfuel : ∃ f, fuel = f + 1 := by
            rw [popped_orders] at hf
            simp only [List.length_cons] at hf
            exact ⟨fuel - 1, by omega⟩
          obtain ⟨f, rfl⟩ := hfuel
          have hlc : lifecycleUpdate t (b.order o).unlink L =
              ⟨.MODIFY, (b.order o).marketOrderId, t, (b.order o).side, (b.order o).price,
                (b.order o).qty - L, (b.order o).priority⟩ := by
            have hz2 : ¬ (b.order o).unlink.qty - min L (b.order o).unlink.qty = 0 := by
              show ¬ (b.order o).qty - min L (b.order o).qty = 0
              omega
            have hmin : min L (b.order o).qty = L := Nat.min_eq_left (Nat.le_of_lt hlt)
            unfold lifecycleUpdate
            rw [if_neg hz2]
            show (⟨.MODIFY, (b.order o).marketOrderId, t, (b.order o).side, (b.order o).price,
              (b.order o).qty - min L (b.order o).qty, (b.order o).priority⟩ :
                SMEMarketUpdate) = _
            rw [hmin]
          obtain ⟨s2, hM2⟩ := hM1.mirror_modify ht (u := lifecycleUpdate t (b.order o).unlink L)
            (o := o) hom (by rw [hlc]) (by rw [hlc]) (by rw [hlc]; rfl) (by rw [hlc]; rfl)
            (w := fun q => orderRecord t (b1.order q))
            (by
              show orderRecord t (b1.order o) = _
              rw [hself, hlc]
              rfl)
            (fun q _ hqo => orderRecord_congr (hord q hqo)) hlen1
          rw [← hups] at hM2
          rw [hz, hcd, CheckForMatchLoop_zero]
          refine ⟨b1, 0, s2, ids, rfl, ?_⟩
          exact hM2.mirror_congr (fun q => by simp [SideList.dropOrders]) (fun _ _ => rfl) (le_refl _)

end Exchange

namespace Exchange

open Common CMEOrderBook CSnapshotSynthesizer

theorem updatesOf_response (es : List Emitted) (r : SMEClientResponse) :
    updatesOf (es ++ [.response r]) = updatesOf es := by
  rw [updatesOf_append]
  exact List.append_nil _

theorem updatesOf_update (es : List Emitted) (u : SMEMarketUpdate) :
    updatesOf (es ++ [.update u]) = updatesOf es ++ [u] := by
  rw [updatesOf_append]
  rfl

namespace CSnapshotSynthesizer

theorem Mirror.mirror_weaken {t m c : Nat} {us : List SMEMarketUpdate} {view : Nat → SMEMarketUpdate}
    {R : Nat → Prop} {s : CSnapshotSynthesizer} {ids : Finset Nat}
    (h : Mirror t m c us view R s ids) {m2 c2 : Nat} (hm : m ≤ m2) (hc : c ≤ c2) :
    Mirror t m2 c2 us view R s ids :=
  ⟨h.ok, h.pointed, h.live, h.only, h.inj, h.ids_mem,
    fun id hid => ⟨(h.ids_lt id hid).1, lt_of_lt_of_le (h.ids_lt id hid).2 hm⟩,
    le_trans h.count hc, h.run, h.last⟩

end CSnapshotSynthesizer

/-- A call of `AddOrder` that returns, under a mirror: the synthesizer takes the updates of
the call and mirrors the book after it. -/
theorem AddOrder_mirror {b b2 : CMEOrderBook} {side : ESide} {own other : SideList}
    {price : Int} {cid coid t qty c : Nat} {s : CSnapshotSynthesizer} {ids : Finset Nat}
    (hs : side = .BUY ∨ side = .SELL) (ht : t < ME_MAX_TICKERS) (h : Struct b side own other)
    (hcol : NoCollision b price) (hc : CidOk b (own ++ other).orders)
    (hM : Mirror t b.m_nextMarketOrderId c (updatesOf b.emitted)
      (fun q => orderRecord t (b.order q)) (fun q => q ∈ (own ++ other).orders) s ids)
    (hn : b.m_nextMarketOrderId < ME_MAX_ORDER_IDS) (h1 : 1 ≤ b.m_nextMarketOrderId)
    (hcb : c + 5 < 2 ^ 64) (hrun : b.AddOrder cid coid t side price qty = .ok b2) :
    ∃ own2 other2 s2 ids2, Struct b2 side own2 other2 ∧ CidOk b2 (own2 ++ other2).orders ∧
      Mirror t (b.m_nextMarketOrderId + 1) (c + 5) (updatesOf b2.emitted)
        (fun q => orderRecord t (b2.order q)) (fun q => q ∈ (own2 ++ other2).orders) s2 ids2 ∧
      b2.m_nextMarketOrderId = b.m_nextMarketOrderId + 1 := by
  have hN : ME_MAX_ORDER_IDS = 1048576 := rfl
  obtain ⟨b1, hS1, hcr, -, -, hcfm, hcase⟩ :=
    (AddOrder_spec hs h hcol cid coid t qty).2 b2 hrun
  have hn1 : b1.m_nextMarketOrderId = b.m_nextMarketOrderId + 1 := by
    rw [hcr.nextId]
    show (b.m_nextMarketOrderId + 1) % 2 ^ 64 = _
    exact Nat.mod_eq_of_lt (by omega)
  have hc1 := hcr.crossed_cidOk hc
  generalize hb0 : b.GenerateNewMarketOrderId.2.SendClientResponse ⟨.ACCEPTED, cid, t,
    coid, b.m_nextMarketOrderId, side, price, 0, qty⟩ = b0 at hcfm
  have hS0 : Struct b0 side own other := by
    subst hb0
    exact h.congr (fun _ _ => ⟨rfl, rfl⟩) rfl rfl rfl (fun _ _ => ⟨rfl, rfl⟩) h.lpool h.opool
  have hsn : snapshots b0 other = snapshots b other := by
    subst hb0
    rfl
  have hM0 : Mirror t b.m_nextMarketOrderId c (updatesOf b0.emitted)
      (fun q => orderRecord t (b0.order q)) (fun q => q ∈ (own ++ other).orders) s ids := by
    subst hb0
    have e : updatesOf (b.GenerateNewMarketOrderId.2.SendClientResponse ⟨.ACCEPTED, cid, t,
        coid, b.m_nextMarketOrderId, side, price, 0, qty⟩).emitted = updatesOf b.emitted :=
      updatesOf_response _ _
    rw [e]
    exact hM
  obtain ⟨b1', L2, s1, ids1, hloop, hM1⟩ :=
    CheckForMatchLoop_mirror hs cid coid t ht price (b.m_nextMarketOrderId % 2 ^ 32)
      b.m_nextMarketOrderId (ME_MAX_ORDER_IDS + 1) b0 qty other c s ids hS0
      (Nat.lt_succ_of_le hS0.other_orders_length) hM0 (by omega)
  rw [hsn] at hM1
  have hcfm2 : CheckForMatchLoop cid coid t side price (b.m_nextMarketOrderId % 2 ^ 32)
      (ME_MAX_ORDER_IDS + 1) b0 qty =
      .ok (b1, crossLeaves side price qty (snapshots b other)) := by
    rw [← hcfm]
    simp [CheckForMatch, hs]
  rw [hcfm2] at hloop
  simp only [Except.ok.injEq, Prod.mk.injEq] at hloop
  obtain ⟨rfl, -⟩ := hloop
  have hcount := hM1.count
  rcases hcase with ⟨-, rfl⟩ | ⟨hL, o, prio, own2, -, -, ho, -, hrp, hpl, hS2, hu, -, hfr, -,
    hci, hem2, hn2⟩
  · exact ⟨own, _, s1, ids1, hS1, hc1, hM1.mirror_weaken (Nat.le_succ _) (by omega), hn1⟩
  · obtain ⟨r1, -⟩ := rest_step (n := b.m_nextMarketOrderId) hS1 ho hpl hrp hu hL hfr hci
    obtain ⟨s2, hM2⟩ := hM1.mirror_add ht hn h1
      (u := ⟨.ADD, b.m_nextMarketOrderId, t, side, price,
        crossLeaves side price qty (snapshots b other), prio⟩) rfl rfl rfl (o := o)
      (Q := fun q => q ∈ (own2 ++
        other.dropOrders (crossDone side price qty (snapshots b other))).orders)
      (w := fun q => orderRecord t (b2.order q))
      (fun q => (hpl.mem_all q).trans Or.comm)
      (by
        show orderRecord t (b2.order o) = _
        have e : orderRecord t (b2.order o) = orderRecord t (b2.order o).unlink := rfl
        rw [e, hu]
        rfl)
      (fun q hq => orderRecord_congr (hfr q (fun e => ho (e ▸ hq)))) (by omega)
    rw [← updatesOf_update, ← hem2] at hM2
    exact ⟨own2, _, s2, _, hS2, r1 hc1, hM2, hn2.trans hn1⟩

/-- A call of `CancelOrder` that returns, under a mirror: the synthesizer takes the update of
the call, if there is one, and mirrors the book after it. -/
theorem CancelOrder_mirror {b b2 : CMEOrderBook} {s0 : ESide} {own other : SideList}
    {cid oid t m c : Nat} {s : CSnapshotSynthesizer} {ids : Finset Nat}
    (hs : s0 = .BUY ∨ s0 = .SELL) (ht : t < ME_MAX_TICKERS) (h : Struct b s0 own other)
    (hc : CidOk b (own ++ other).orders)
    (hM : Mirror t m c (updatesOf b.emitted) (fun q => orderRecord t (b.order q))
      (fun q => q ∈ (own ++ other).orders) s ids)
    (hcb : c + 1 < 2 ^ 64) (hrun : b.CancelOrder cid oid t = .ok b2) :
    ∃ own2 other2 s2 ids2, Struct b2 s0 own2 other2 ∧ CidOk b2 (own2 ++ other2).orders ∧
      Mirror t m c (updatesOf b2.emitted) (fun q => orderRecord t (b2.order q))
        (fun q => q ∈ (own2 ++ other2).orders) s2 ids2 ∧
      b2.m_nextMarketOrderId = b.m_nextMarketOrderId := by
  have hcount := hM.count
  rcases (CancelOrder_spec hs h hc cid oid t).2 b2 hrun with ⟨rfl, -⟩ |
    ⟨o, b3, own2, other2, -, -, hom, hr, hem3, hS3, hE, rfl⟩
  · refine ⟨own, other, s, ids, Struct_SendClientResponse h _, hc, ?_, rfl⟩
    have e : updatesOf (b.SendClientResponse ⟨.CANCEL_REJECTED, cid, t, oid, OrderId_INVALID,
        .INVALID, Price_INVALID, Qty_INVALID, Qty_INVALID⟩).emitted = updatesOf b.emitted :=
      updatesOf_response _ _
    rw [e]
    exact hM
  · have hmem : ∀ q, q ∈ (own2 ++ other2).orders ↔ q ∈ (own ++ other).orders ∧ q ≠ o := by
      rcases hE with ⟨hE, rfl⟩ | ⟨rfl, hE⟩
      · exact erased_own_mem hE h.onodup
      · exact erased_other_mem hE h.onodup
    obtain ⟨s2, hM2⟩ := (hM.mirror_weaken (Nat.le_refl m) (Nat.le_succ c)).mirror_cancel ht
      (u := ⟨.CANCEL, (b.order o).marketOrderId, t, (b.order o).side, (b.order o).price, 0,
        (b.order o).priority⟩) (o := o) hom rfl rfl rfl rfl
      (Q := fun q => q ∈ (own2 ++ other2).orders)
      (w := fun q => orderRecord t (b3.order q)) hmem
      (fun q _ hqo => orderRecord_congr (hr.order q hqo)) (by omega)
    refine ⟨own2, other2, s2, ids.erase (b.order o).marketOrderId,
      Struct_SendClientResponse (Struct_SendMarketUpdate hS3 _) _,
      hr.removed_cidOk hmem hc, ?_, hr.nextId⟩
    have e : updatesOf ((b3.SendMarketUpdate ⟨.CANCEL, (b.order o).marketOrderId, t,
        (b.order o).side, (b.order o).price, 0, (b.order o).priority⟩).SendClientResponse
        ⟨.CANCELED, cid, t, oid, (b.order o).marketOrderId, (b.order o).side,
          (b.order o).price, Qty_INVALID, (b.order o).qty⟩).emitted =
        updatesOf b.emitted ++ [⟨.CANCEL, (b.order o).marketOrderId, t, (b.order o).side,
          (b.order o).price, 0, (b.order o).priority⟩] := by
      show updatesOf ((b3.emitted ++ [.update _]) ++ [.response _]) = _
      rw [updatesOf_response, updatesOf_update, hem3]
    rw [e]
    exact hM2

/-- The mirror of every book that the requests for one instrument reach below the capacity of
the market order ids. -/
theorem Served.mirror {t : Nat} (ht : t < ME_MAX_TICKERS) {b : CMEOrderBook}
    (h : Served t b) :
    ∃ bids asks s ids c, Struct b .BUY bids asks ∧ CidOk b (bids ++ asks).orders ∧
      Mirror t b.m_nextMarketOrderId c (updatesOf b.emitted)
        (fun q => orderRecord t (b.order q)) (fun q => q ∈ (bids ++ asks).orders) s ids ∧
      1 ≤ b.m_nextMarketOrderId ∧ b.m_nextMarketOrderId ≤ ME_MAX_ORDER_IDS ∧
      c ≤ 5 * (b.m_nextMarketOrderId - 1) := by
  have hN : ME_MAX_ORDER_IDS = 1048576 := rfl
  induction h with
  | init =>
    refine ⟨[], [], fresh, ∅, 0, Struct_init t .BUY, ?_, ?_, Nat.le_refl 1,
      show 1 ≤ ME_MAX_ORDER_IDS by decide, Nat.zero_le _⟩
    · intro c d p hp
      simp [CMEOrderBook.init] at hp
    · exact (Mirror_fresh t _).mirror_congr (fun q => by simp [SideList.orders]) (fun _ _ => rfl)
        (Nat.le_refl 0)
  | add cid coid side price qty _ hside hcol hn hrun ih =>
    obtain ⟨bids, asks, s, ids, c, hS, hc, hM, h1, hle, hcb⟩ := ih
    rcases hside with rfl | rfl
    · obtain ⟨own2, other2, s2, ids2, hS2, hc2, hM2, hn2⟩ :=
        AddOrder_mirror (Or.inl rfl) ht hS hcol hc hM hn h1 (by omega) hrun
      refine ⟨own2, other2, s2, ids2, c + 5, hS2, hc2, ?_, by omega, by omega, by omega⟩
      rw [hn2]
      exact hM2
    · obtain ⟨own2, other2, s2, ids2, hS2, hc2, hM2, hn2⟩ :=
        AddOrder_mirror (Or.inr rfl) ht (hS.struct_swap (Or.inl rfl)) hcol hc.cidOk_swap
          (hM.mirror_congr (fun q => mem_orders_swap asks bids q) (fun _ _ => rfl) (Nat.le_refl c))
          hn h1 (by omega) hrun
      refine ⟨other2, own2, s2, ids2, c + 5, hS2.struct_swap (Or.inr rfl), hc2.cidOk_swap, ?_,
        by omega, by omega, by omega⟩
      rw [hn2]
      exact hM2.mirror_congr (fun q => mem_orders_swap other2 own2 q) (fun _ _ => rfl) (Nat.le_refl _)
  | cancel cid oid _ hrun ih =>
    obtain ⟨bids, asks, s, ids, c, hS, hc, hM, h1, hle, hcb⟩ := ih
    obtain ⟨own2, other2, s2, ids2, hS2, hc2, hM2, hn2⟩ :=
      CancelOrder_mirror (Or.inl rfl) ht hS hc hM (by omega) hrun
    refine ⟨own2, other2, s2, ids2, c, hS2, hc2, ?_, by omega, by omega, by omega⟩
    rw [hn2]
    exact hM2

theorem run_scenarioS3 : bookS1.AddOrder 1 2 0 .SELL 100 15 = .ok bookS3 := rfl

theorem Served_bookS3 : Served 0 bookS3 :=
  Served.add 1 2 .SELL 100 15
    (Served.add 0 1 .BUY 100 10 Served.init (Or.inl rfl) (NoCollision_init 0 100)
      (by decide) run_scenarioS1)
    (Or.inr rfl) NoCollision_bookS1 (by decide) run_scenarioS3

/-- C23, as far as it holds: image equals book while the market order ids are below
`ME_MAX_ORDER_IDS` and the synthesizer starts with an image of null pointers. For every
book of an instrument `t` below `ME_MAX_TICKERS` that NEW and CANCEL requests for `t` reach
from the empty book (prices that collide with no live level, every new order with a market
order id below `ME_MAX_ORDER_IDS`), the fresh synthesizer takes the market updates of the
book, numbered 1, 2, ... in the order they were sent, without a fault, and its image then
holds, under the market order id of each resting order of the book, the record of that order
with its side, price, remaining quantity and priority, and nothing else. -/
theorem image_equals_book {t : Nat} (ht : t < ME_MAX_TICKERS) {b : CMEOrderBook}
    (h : Served t b) :
    ∃ bids asks s, Struct b .BUY bids asks ∧
      fresh.drain (numbered 1 (updatesOf b.emitted)) = .ok s ∧
      accepts (updatesOf b.emitted) = true ∧
      (∀ q ∈ (bids ++ asks).orders,
        s.image t (b.order q).marketOrderId = some (orderRecord t (b.order q))) ∧
      ∀ t2 id u, s.image t2 id = some u →
        t2 = t ∧ ∃ q ∈ (bids ++ asks).orders, (b.order q).marketOrderId = id ∧
          u = orderRecord t (b.order q) := by
  obtain ⟨bids, asks, s, ids, c, hS, -, hM, -⟩ := h.mirror ht
  refine ⟨bids, asks, s, hS, hM.run, ?_, hM.live, fun t2 id u hu => ?_⟩
  · unfold accepts
    rw [hM.run]
    rfl
  · obtain ⟨e, q, hq, hid⟩ := hM.only t2 id u hu
    refine ⟨e, q, hq, hid, ?_⟩
    have hl := hM.live q hq
    rw [e] at hu
    rw [hid, hu] at hl
    exact Option.some.inj hl

/-- C23 at scenario S3, a bid of 10 at 100 that a sell of 15 at 100 fills
completely, the rest of 5 resting as an ask: the synthesizer takes the ADD, the TRADE, the
CANCEL and the ADD, and holds the ask. -/
theorem image_equals_book_at_S3 :
    (0 : Nat) < ME_MAX_TICKERS ∧ Served 0 bookS3 ∧
    ∃ bids asks s, Struct bookS3 .BUY bids asks ∧
      fresh.drain (numbered 1 (updatesOf bookS3.emitted)) = .ok s ∧
      accepts (updatesOf bookS3.emitted) = true ∧
      (∀ q ∈ (bids ++ asks).orders,
        s.image 0 (bookS3.order q).marketOrderId = some (orderRecord 0 (bookS3.order q))) ∧
      ∀ t2 id u, s.image t2 id = some u →
        t2 = 0 ∧ ∃ q ∈ (bids ++ asks).orders, (bookS3.order q).marketOrderId = id ∧
          u = orderRecord 0 (bookS3.order q) :=
  ⟨by decide, Served_bookS3, image_equals_book (by decide) Served_bookS3⟩

end Exchange

namespace Exchange

open Common CMEOrderBook

/-- C40. Method `PriceToIndex` is total and in range: for every price, negative prices and
`Price_INVALID` included, the index is less than `ME_MAX_PRICE_LEVELS = 256` and is the
non-negative residue of the price modulo 256, and the lookup `GetOrdersAtPrice`, which uses the
bounds-checked `at`, never fails: it returns the slot of that index. -/
theorem priceToIndex_in_range (b : CMEOrderBook) (price : Int) :
    PriceToIndex price < 256 ∧ (PriceToIndex price : Int) = price % 256 ∧
    ME_MAX_PRICE_LEVELS = 256 ∧
    b.GetOrdersAtPrice price = .ok (b.m_priceOrdersAtPrice (PriceToIndex price)) ∧
    PriceToIndex Price_INVALID = 255 ∧ PriceToIndex (-1) = 255 ∧ PriceToIndex (-256) = 0 := by
  refine ⟨PriceToIndex_lt price, ?_, rfl, GetOrdersAtPrice_eq b price, by decide, by decide,
    by decide⟩
  unfold PriceToIndex ME_MAX_PRICE_LEVELS
  omega

/-- C33. A NEW with `qty = 0`, on every book state and for every side: `AddOrder` completes,
the only record it emits is the ACCEPTED response with `execQty = 0` and `leavesQty = 0`
(no FILLED response, no market update), and the book is the one before but for the next market
order id, which advances: levels, orders, best pointers and both indices are unchanged. -/
theorem new_with_zero_qty (b : CMEOrderBook) (cid coid tid : Nat) (side : ESide) (price : Int) :
    b.AddOrder cid coid tid side price 0 = .ok
      { b with
        m_nextMarketOrderId := (b.m_nextMarketOrderId + 1) % 2 ^ 64
        emitted := b.emitted ++ [.response ⟨.ACCEPTED, cid, tid, coid, b.m_nextMarketOrderId,
          side, price, 0, 0⟩] } := by
  rw [AddOrder_eq]
  unfold CheckForMatch
  by_cases hs : side = .BUY ∨ side = .SELL
  · rw [if_pos hs, CheckForMatchLoop_zero]
    rfl
  · rw [if_neg hs]
    rfl

end Exchange

namespace Common

namespace CMemoryPool

variable {T : Type}

open Exchange

/-- A completed sequence of calls: the calls of every prefix completed, and the rest ran from
the pool that the prefix left. -/
theorem run_prefix : ∀ (ops1 ops2 : List (PoolOp T)) {p p2 : CMemoryPool T}
    {rets : List (Option Nat)}, p.run (ops1 ++ ops2) = .ok (p2, rets) →
    ∃ p1 r1 r2, p.run ops1 = .ok (p1, r1) ∧ p1.run ops2 = .ok (p2, r2) ∧ rets = r1 ++ r2
  | [], ops2, p, p2, rets, h => ⟨p, [], rets, rfl, h, rfl⟩
  | .allocate v :: ops, ops2, p, p2, rets, h => by
    rw [List.cons_append] at h
    simp only [run] at h ⊢
    cases ha : p.Allocate v with
    | error e =>
      rw [ha] at h
      exact absurd h (by simp)
    | ok r =>
      rw [ha] at h
      simp only at h ⊢
      cases hr : r.2.run (ops ++ ops2) with
      | error e =>
        rw [hr] at h
        exact absurd h (by simp)
      | ok x =>
        rw [hr] at h
        simp only [Except.ok.injEq, Prod.mk.injEq] at h
        obtain ⟨p1, r1, r2, h1, h2, h3⟩ := run_prefix ops ops2 (show r.2.run (ops ++ ops2) =
          .ok (x.1, x.2) from hr)
        rw [h1]
        refine ⟨p1, some r.1 :: r1, r2, rfl, ?_, ?_⟩
        · rw [h2, h.1]
        · rw [← h.2, h3]
          rfl
  | .deallocate i :: ops, ops2, p, p2, rets, h => by
    rw [List.cons_append] at h
    simp only [run] at h ⊢
    cases ha : p.Deallocate i with
    | error e =>
      rw [ha] at h
      exact absurd h (by simp)
    | ok q =>
      rw [ha] at h
      simp only at h ⊢
      cases hr : q.run (ops ++ ops2) with
      | error e =>
        rw [hr] at h
        exact absurd h (by simp)
      | ok x =>
        rw [hr] at h
        simp only [Except.ok.injEq, Prod.mk.injEq] at h
        obtain ⟨p1, r1, r2, h1, h2, h3⟩ := run_prefix ops ops2 (show q.run (ops ++ ops2) =
          .ok (x.1, x.2) from hr)
        rw [h1]
        refine ⟨p1, none :: r1, r2, rfl, ?_, ?_⟩
        · rw [h2, h.1]
        · rw [← h.2, h3]
          rfl

/-- C39. Pool cursor invariant. From a fresh pool of capacity `N ≥ 1`, in every sequence of
completed calls (`Allocate`, and `Deallocate` of a busy slot), the calls of every prefix
`ops1` completed and left a pool whose cursor is in range and on a free slot: an `Allocate`
that follows passes the check of the slot at the cursor and goes on to the cursor search, so
it completes when another slot is free, and is fatal only by exhaustion of the pool. -/
theorem cursor_on_free_slot {N : Nat} (hN : 1 ≤ N) (dflt : T) (ops1 ops2 : List (PoolOp T))
    (h : ((init N dflt).run (ops1 ++ ops2)).toBool = true) :
    ∃ p1 r1, (init N dflt).run ops1 = .ok (p1, r1) ∧ p1.numElems = N ∧
      p1.m_nextFreeIndex < N ∧ (p1.m_store p1.m_nextFreeIndex).isFree = true ∧
      ∀ v : T,
        p1.Allocate v =
          (UpdateNextFreeIndex
            { p1 with m_store := Function.update p1.m_store p1.m_nextFreeIndex ⟨v, false⟩ }).map
            (fun p2 => (p1.m_nextFreeIndex, p2)) ∧
        (Spare p1 → ∃ r, p1.Allocate v = .ok r) ∧
        (¬ Spare p1 → p1.Allocate v = .error .assertFailed) := by
  obtain ⟨x, hx⟩ : ∃ x, (init N dflt).run (ops1 ++ ops2) = .ok x := by
    cases hrun : (init N dflt).run (ops1 ++ ops2) with
    | error e =>
      rw [hrun] at h
      exact absurd h (by simp [Except.toBool])
    | ok x => exact ⟨x, rfl⟩
  obtain ⟨p1, r1, r2, h1, -, -⟩ := run_prefix ops1 ops2 (show (init N dflt).run (ops1 ++ ops2) =
    .ok (x.1, x.2) from hx)
  have hp : PoolOK p1 N := PoolOK_run ops1 (show PoolOK (init N dflt) N from ⟨rfl, hN, rfl⟩) h1
  refine ⟨p1, r1, h1, hp.1, hp.2.1, hp.2.2, fun v => ⟨?_, Allocate_total v hp,
    Allocate_exhausted v hp⟩⟩
  unfold Allocate
  rw [if_pos hp.2.2]
  cases UpdateNextFreeIndex
    { p1 with m_store := Function.update p1.m_store p1.m_nextFreeIndex ⟨v, false⟩ } <;> rfl

/-- A pool of three numbers: an allocation, the release of its slot, and two allocations. -/
theorem cursor_on_free_slot_at_three :
    1 ≤ 3 ∧
    ((init 3 (0 : Nat)).run ([.allocate 7, .deallocate 0] ++ [.allocate 8, .allocate 9])).toBool =
      true ∧
    ∃ p1 r1, (init 3 (0 : Nat)).run [.allocate 7, .deallocate 0] = .ok (p1, r1) ∧
      p1.numElems = 3 ∧
      p1.m_nextFreeIndex < 3 ∧ (p1.m_store p1.m_nextFreeIndex).isFree = true ∧
      ∀ v : Nat,
        p1.Allocate v =
          (UpdateNextFreeIndex
            { p1 with m_store := Function.update p1.m_store p1.m_nextFreeIndex ⟨v, false⟩ }).map
            (fun p2 => (p1.m_nextFreeIndex, p2)) ∧
        (Spare p1 → ∃ r, p1.Allocate v = .ok r) ∧
        (¬ Spare p1 → p1.Allocate v = .error .assertFailed) :=
  ⟨by decide, rfl, cursor_on_free_slot (show 1 ≤ 3 by decide) (0 : Nat)
    [.allocate 7, .deallocate 0] [.allocate 8, .allocate 9] (by rfl)⟩

end CMemoryPool

end Common

namespace Trading

open Common Exchange

namespace CMarketDataConsumer

/-- Assignment of a key that the map does not hold: the new entry is added and every entry
stays. -/
theorem mapAssign_perm : ∀ (q : QueuedMarketUpdates) (key : Nat) (value : SMEMarketUpdate),
    mapHas q key = false → (mapAssign q key value).Perm ((key, value) :: q)
  | [], _, _, _ => List.Perm.refl _
  | e :: q, key, value, h => by
    simp only [mapHas, List.any_cons, Bool.or_eq_false_iff, beq_eq_false_iff_ne, ne_eq] at h
    unfold mapAssign
    split
    · exact List.Perm.refl _
    · rw [if_neg (fun hk => h.1 hk.symm)]
      exact ((mapAssign_perm q key value h.2).cons e).trans (List.Perm.swap _ _ _)

/-- C35. Snapshot duplicate detection. In recovery a received record goes to `queueMessage`.
There, for a record of the snapshot stream whose sequence number is a key of the snapshot
queue, `checkSnapshotSync` runs on a snapshot queue that holds the new record alone; for one
with a new sequence number it runs on the queue with the record added and every earlier entry
kept; and for a record of the incremental stream it runs on the snapshot queue as it was, the
record being assigned in the incremental queue. -/
theorem snapshot_duplicate_detection (c : CMarketDataConsumer) (request : MDPMarketUpdate)
    (hr : c.m_isInRecovery = true) :
    (∀ is_snapshot, c.recvRecord is_snapshot request = c.queueMessage is_snapshot request) ∧
    (mapHas c.m_snapshotQueuedMsgs request.seqNum = true →
      c.queueMessage true request = checkSnapshotSync
        { c with m_snapshotQueuedMsgs := [(request.seqNum, request.me_market_update_)] }) ∧
    (mapHas c.m_snapshotQueuedMsgs request.seqNum = false →
      c.queueMessage true request = checkSnapshotSync
        { c with m_snapshotQueuedMsgs :=
            mapAssign c.m_snapshotQueuedMsgs request.seqNum request.me_market_update_ } ∧
      (mapAssign c.m_snapshotQueuedMsgs request.seqNum request.me_market_update_).Perm
        ((request.seqNum, request.me_market_update_) :: c.m_snapshotQueuedMsgs)) ∧
    c.queueMessage false request = checkSnapshotSync
      { c with m_incrementalQueuedMsgs :=
          mapAssign c.m_incrementalQueuedMsgs request.seqNum request.me_market_update_ } := by
  refine ⟨fun s => ?_, fun h => ?_, fun h => ⟨?_, mapAssign_perm _ _ _ h⟩, rfl⟩
  · cases c
    simp only at hr
    subst hr
    simp [recvRecord]
  · simp only [queueMessage, h, if_true]
    rfl
  · simp [queueMessage, h]

/-- The consumer `consumerS`, which holds snapshot records 0 and 1, receives a second snapshot
record 1: the splice check runs on that record alone. -/
theorem snapshot_duplicate_detection_at_repeat :
    consumerS.m_isInRecovery = true ∧ mapHas consumerS.m_snapshotQueuedMsgs requestS.seqNum = true ∧
    consumerS.queueMessage true requestS = checkSnapshotSync
      { consumerS with m_snapshotQueuedMsgs := [(requestS.seqNum, requestS.me_market_update_)] } ∧
    (consumerS.queueMessage true requestS).m_snapshotQueuedMsgs = [] :=
  ⟨rfl, rfl, (snapshot_duplicate_detection consumerS requestS rfl).2.1 rfl, by decide⟩

end CMarketDataConsumer

end Trading

namespace Exchange

open Common CMEOrderBook

/-- C37, as far as it holds. A NEW that returns on a well-formed book emits the ACCEPTED
response with the book's next market order id, then for every match the four records of the
match, and then the ADD update with that id when a residual rests. The FILLED response to the
aggressor carries the id reduced modulo `2 ^ 32`, because `CheckForMatch` takes it through a
parameter of type `Qty`: it is the id of the ACCEPTED response and of the ADD update exactly
when the next market order id is below `2 ^ 32`. -/
theorem aggressor_id_consistency {b b2 : CMEOrderBook} {side : ESide} {own other : SideList}
    {price : Int} (hs : side = .BUY ∨ side = .SELL) (h : Struct b side own other)
    (hcol : NoCollision b price) (cid coid tid qty : Nat)
    (hrun : b.AddOrder cid coid tid side price qty = .ok b2) :
    ∃ rest : List Emitted,
      b2.emitted = b.emitted ++ .response ⟨.ACCEPTED, cid, tid, coid, b.m_nextMarketOrderId,
          side, price, 0, qty⟩ ::
        ((crossFills side price qty (snapshots b other)).flatMap
          (fun f => matchRecords tid cid side coid (b.m_nextMarketOrderId % 2 ^ 32) f.1 f.2) ++
          rest) ∧
      (rest = [] ∨ ∃ prio, rest = [.update ⟨.ADD, b.m_nextMarketOrderId, tid, side, price,
        crossLeaves side price qty (snapshots b other), prio⟩]) ∧
      (∀ f ∈ crossFills side price qty (snapshots b other),
        (aggressorFilled tid cid side coid (b.m_nextMarketOrderId % 2 ^ 32) f.1
          f.2).marketOrderId = b.m_nextMarketOrderId % 2 ^ 32) ∧
      (b.m_nextMarketOrderId % 2 ^ 32 = b.m_nextMarketOrderId ↔
        b.m_nextMarketOrderId < 2 ^ 32) := by
  obtain ⟨b1, -, -, hem1, -, -, hcase⟩ := (AddOrder_spec hs h hcol cid coid tid qty).2 b2 hrun
  have hlast : (b.m_nextMarketOrderId % 2 ^ 32 = b.m_nextMarketOrderId ↔
      b.m_nextMarketOrderId < 2 ^ 32) :=
    ⟨fun e => e ▸ Nat.mod_lt _ (by decide), Nat.mod_eq_of_lt⟩
  rcases hcase with ⟨-, rfl⟩ | ⟨-, o, prio, own2, -, -, -, -, -, -, -, -, -, -, -, -, hem, -⟩
  · exact ⟨[], by rw [hem1, List.append_nil], Or.inl rfl, fun _ _ => rfl, hlast⟩
  · refine ⟨_, ?_, Or.inr ⟨prio, rfl⟩, fun _ _ => rfl, hlast⟩
    rw [hem, hem1, List.append_assoc, List.cons_append]

/-- Scenario S3: the SELL of 15 at 100 that meets the bid of scenario S1 has market order
id 2. -/
theorem aggressor_id_consistency_at_S3 :
    Struct bookS1 .SELL [] [(0, [0])] ∧ NoCollision bookS1 100 ∧
    bookS1.AddOrder 1 2 0 .SELL 100 15 = .ok bookS3 ∧
    ∃ rest : List Emitted,
      bookS3.emitted = bookS1.emitted ++ .response ⟨.ACCEPTED, 1, 0, 2,
          bookS1.m_nextMarketOrderId, .SELL, 100, 0, 15⟩ ::
        ((crossFills .SELL 100 15 (snapshots bookS1 [(0, [0])])).flatMap
          (fun f => matchRecords 0 1 .SELL 2 (bookS1.m_nextMarketOrderId % 2 ^ 32) f.1 f.2) ++
          rest) ∧
      (rest = [] ∨ ∃ prio, rest = [.update ⟨.ADD, bookS1.m_nextMarketOrderId, 0, .SELL, 100,
        crossLeaves .SELL 100 15 (snapshots bookS1 [(0, [0])]), prio⟩]) ∧
      (∀ f ∈ crossFills .SELL 100 15 (snapshots bookS1 [(0, [0])]),
        (aggressorFilled 0 1 .SELL 2 (bookS1.m_nextMarketOrderId % 2 ^ 32) f.1
          f.2).marketOrderId = bookS1.m_nextMarketOrderId % 2 ^ 32) ∧
      (bookS1.m_nextMarketOrderId % 2 ^ 32 = bookS1.m_nextMarketOrderId ↔
        bookS1.m_nextMarketOrderId < 2 ^ 32) :=
  ⟨Struct_bookS1.struct_swap (Or.inl rfl), NoCollision_bookS1, run_scenarioS3,
    aggressor_id_consistency (Or.inr rfl) (Struct_bookS1.struct_swap (Or.inl rfl))
      NoCollision_bookS1 1 2 0 15 run_scenarioS3⟩

/-- C37 fails on the code. A book reached by `2 ^ 32 - 1` NEW requests (one resting bid of
client 0 at price 100 at a time) has `2 ^ 32` as its next market order id. The SELL of
client 1 at price 100 that matches the resting bid returns; its ACCEPTED response carries the
market order id `2 ^ 32`, and the FILLED response to client 1 carries the market order
id 0. -/
theorem aggressor_id_truncated :
    ∃ b b2, Reachable (fun _ _ _ => True) b ∧ b.m_nextMarketOrderId = 2 ^ 32 ∧
      b.AddOrder 1 0 0 .SELL 100 1 = .ok b2 ∧
      Emitted.response ⟨.ACCEPTED, 1, 0, 0, 2 ^ 32, .SELL, 100, 0, 1⟩ ∈ b2.emitted ∧
      ∃ r : SMEClientResponse, Emitted.response r ∈ b2.emitted ∧ r.type = .FILLED ∧
        r.clientId = 1 ∧ r.clientOrderId = 0 ∧ r.side = .SELL ∧ r.price = 100 ∧
        r.marketOrderId = 0 := by
  obtain ⟨b, hR, hL, hid⟩ := LoneBid_nextId (2 ^ 32 - 2) (by norm_num)
  have hid2 : b.m_nextMarketOrderId = 2 ^ 32 := by
    rw [hid]
    norm_num
  obtain ⟨lp, o, hS, hprice, -, -, -, -, -, hfree, hsp⟩ := hL
  have hmem : ((lp, [o]) : Nat × List Nat) ∈ ([(lp, [o])] : SideList) := List.mem_singleton.2 rfl
  have hlvl : LevelOK b .BUY lp [o] := hS.ownOK.lvl (lp, [o]) hmem
  have hcol : NoCollision b 100 := by
    intro q hq
    have := (hS.idx _ q hq).1
    simp [SideList.levels] at this
    rw [this]
    exact hprice
  have hspo : Spare b.m_orderPool := by
    obtain ⟨hn, -, hcf⟩ := hS.opool
    obtain ⟨j, hj, hjo, hjc⟩ := spare_slot o b.m_orderPool.m_nextFreeIndex
    have hjN : j < ME_MAX_ORDER_IDS := lt_of_lt_of_le hj (show 3 ≤ ME_MAX_ORDER_IDS by decide)
    exact ⟨j, by rw [hn]; exact hjN, hjc, hfree j hjN hjo⟩
  have hS2 : Struct b .SELL [] [(lp, [o])] := hS.struct_swap (Or.inl rfl)
  obtain ⟨b2, hrun⟩ := (AddOrder_spec (Or.inr rfl) hS2 hcol 1 0 0 1).1 (by decide) (by decide)
    hspo hsp
  have hop : (b.order o).price = 100 := by
    rw [← hprice]
    exact (hlvl.ord o (List.mem_singleton.2 rfl)).price
  have hfills : crossFills .SELL 100 1 (snapshots b [(lp, [o])]) = [((b.order o).unlink, 1)] := by
    have hup : (b.order o).unlink.price = 100 := hop
    simp [snapshots, SideList.orders, crossFills, limitStops, hup]
  obtain ⟨b1, -, -, hem1, -, -, hcase⟩ := (AddOrder_spec (Or.inr rfl) hS2 hcol 1 0 0 1).2 b2 hrun
  rw [hfills, hid2] at hem1
  have hsub : ∀ e ∈ b1.emitted, e ∈ b2.emitted := by
    rcases hcase with ⟨-, rfl⟩ | ⟨-, o2, prio, own2, -, -, -, -, -, -, -, -, -, -, -, -, hem, -⟩
    · exact fun e he => he
    · intro e he
      rw [hem]
      exact List.mem_append_left _ he
  refine ⟨b, b2, hR, hid2, hrun, ?_, aggressorFilled 0 1 .SELL 0 (2 ^ 32 % 2 ^ 32)
    (b.order o).unlink 1, ?_, rfl, rfl, rfl, rfl, hop,
    show 2 ^ 32 % 2 ^ 32 = 0 by norm_num⟩
  · apply hsub
    rw [hem1]
    simp
  · apply hsub
    rw [hem1]
    simp [matchRecords]

end Exchange

namespace Exchange

open Common CMEOrderBook

theorem run_scenarioCollide : scenarioCollide = .ok bookCollide := rfl

/-- C31 fails on the code. Nothing in the code keeps two live prices out of one slot of the
level index: after a bid at 100 and a bid at 356 on the empty book, both calls having
returned, the two prices have the index 100, the lookup for the price 356 returns the level
of the price 100, and the order at 356 rests in that level, behind the order at 100. -/
theorem level_index_collides :
    scenarioCollide = .ok bookCollide ∧
    PriceToIndex 100 = PriceToIndex 356 ∧
    bookCollide.GetOrdersAtPrice 356 = .ok (some 0) ∧
    (bookCollide.level 0).price = 100 ∧
    bookCollide.m_pBidsByPrice = some 0 ∧
    (bookCollide.level 0).pFirstMeOrder = some 0 ∧
    (bookCollide.order 0).price = 100 ∧ (bookCollide.order 0).pNextOrder = some 1 ∧
    (bookCollide.order 1).price = 356 ∧ (bookCollide.order 1).pNextOrder = some 0 ∧
    bookCollide.m_cidOidToOrder 0 2 = some 1 := by
  refine ⟨rfl, by decide, rfl, by decide, by decide, by decide, by decide, by decide,
    by decide, by decide, by decide⟩

end Exchange

namespace Exchange

open Common CMEOrderBook

theorem Reachable_bookS1 : Reachable (fun _ _ _ => True) bookS1 :=
  Reachable.add 0 1 0 .BUY 100 10 (Reachable.init 0) (Or.inl rfl) (by decide)
    (NoCollision_init 0 100) trivial run_scenarioS1

/-- C31, as far as it holds. In every book reached from the empty book by returning calls of
`AddOrder` and `CancelOrder` in which every NEW came with a price that collides with no live
level, two live levels with different prices sit in different slots of the level index, the
lookup for the price of a live level returns that level, and every resting order has the
price of its level. -/
theorem level_index_injective {b : CMEOrderBook} (hR : Reachable (fun _ _ _ => True) b) :
    ∃ bids asks, Struct b .BUY bids asks ∧
      (∀ l1 ∈ (bids ++ asks).levels, ∀ l2 ∈ (bids ++ asks).levels,
        (b.level l1).price ≠ (b.level l2).price →
        PriceToIndex (b.level l1).price ≠ PriceToIndex (b.level l2).price) ∧
      (∀ l ∈ (bids ++ asks).levels, b.GetOrdersAtPrice (b.level l).price = .ok (some l)) ∧
      (∀ x ∈ bids ++ asks, ∀ o ∈ x.2, (b.order o).price = (b.level x.1).price) ∧
      ∀ price lp, b.GetOrdersAtPrice price = .ok (some lp) →
        lp ∈ (bids ++ asks).levels ∧ PriceToIndex (b.level lp).price = PriceToIndex price := by
  obtain ⟨bids, asks, hS, -⟩ := hR.inv
  refine ⟨bids, asks, hS, fun l1 h1 l2 h2 hne he => hne ?_, fun l hl => ?_, fun x hx o ho => ?_,
    fun price lp h => ?_⟩
  · rw [hS.idx_inj h1 h2 he]
  · rw [GetOrdersAtPrice_eq, hS.idx_of_mem hl]
  · rcases List.mem_append.1 hx with h1 | h1
    · exact ((hS.ownOK.lvl x h1).ord o ho).price
    · exact ((hS.otherOK.lvl x h1).ord o ho).price
  · rw [GetOrdersAtPrice_eq] at h
    exact hS.idx _ lp (Except.ok.inj h)

/-- The book of scenario S1, one bid at 100. -/
theorem level_index_injective_at_S1 :
    Reachable (fun _ _ _ => True) bookS1 ∧
    ∃ bids asks, Struct bookS1 .BUY bids asks ∧
      (∀ l1 ∈ (bids ++ asks).levels, ∀ l2 ∈ (bids ++ asks).levels,
        (bookS1.level l1).price ≠ (bookS1.level l2).price →
        PriceToIndex (bookS1.level l1).price ≠ PriceToIndex (bookS1.level l2).price) ∧
      (∀ l ∈ (bids ++ asks).levels,
        bookS1.GetOrdersAtPrice (bookS1.level l).price = .ok (some l)) ∧
      (∀ x ∈ bids ++ asks, ∀ o ∈ x.2, (bookS1.order o).price = (bookS1.level x.1).price) ∧
      ∀ price lp, bookS1.GetOrdersAtPrice price = .ok (some lp) →
        lp ∈ (bids ++ asks).levels ∧
          PriceToIndex (bookS1.level lp).price = PriceToIndex price :=
  ⟨Reachable_bookS1, level_index_injective Reachable_bookS1⟩

end Exchange

namespace Exchange

open Common CMEOrderBook

theorem Uncrossed.uncrossed_swap {b : CMEOrderBook} {s : ESide} {own other : SideList}
    (hs : s = .BUY ∨ s = .SELL) (h : Uncrossed b s own other) :
    Uncrossed b (opp s) other own := by
  intro y hy x hx
  have := h x hx y hy
  rcases hs with rfl | rfl
  · simpa [better, opp] using this
  · simpa [better, opp] using this

/-- A listed order has the price of its level. -/
theorem Struct.order_price {b : CMEOrderBook} {s : ESide} {own other : SideList}
    (h : Struct b s own other) {x : Nat × List Nat} (hx : x ∈ own ++ other) {q : Nat}
    (hq : q ∈ x.2) : (b.order q).price = (b.level x.1).price := by
  rcases List.mem_append.1 hx with h1 | h1
  · exact ((h.ownOK.lvl x h1).ord q hq).price
  · exact ((h.otherOK.lvl x h1).ord q hq).price

/-- A level that two books list with a common order which has the same fields in both has the
same price in both. -/
theorem level_price_transfer {b1 b2 : CMEOrderBook} {s : ESide} {own1 other1 own2 other2 : SideList}
    (h1 : Struct b1 s own1 other1) (h2 : Struct b2 s own2 other2) {x y : Nat × List Nat}
    (hx : x ∈ own2 ++ other2) (hy : y ∈ own1 ++ other1) {q : Nat} (hqx : q ∈ x.2) (hqy : q ∈ y.2)
    (hu : (b2.order q).unlink = (b1.order q).unlink) :
    (b2.level x.1).price = (b1.level y.1).price := by
  rw [← h2.order_price hx hqx, ← h1.order_price hy hqy]
  have : (b2.order q).unlink.price = (b1.order q).unlink.price := by rw [hu]
  exact this

theorem Struct.level_ne {b : CMEOrderBook} {s : ESide} {own other : SideList}
    (h : Struct b s own other) {x : Nat × List Nat} (hx : x ∈ own ++ other) : x.2 ≠ [] := by
  rcases List.mem_append.1 hx with h1 | h1
  · exact (h.ownOK.lvl x h1).ne
  · exact (h.otherOK.lvl x h1).ne

theorem mem_orders_of_mem {L : SideList} {x : Nat × List Nat} (hx : x ∈ L) {q : Nat}
    (hq : q ∈ x.2) : q ∈ L.orders :=
  List.mem_flatMap.2 ⟨x, hx, hq⟩

/-- When the head order of the opposite listing stops the aggressor, every opposite level has
a price beyond the aggressor's limit. -/
theorem Struct.other_beyond {b : CMEOrderBook} {side : ESide} {own other : SideList}
    {price : Int} (hs : side = .BUY ∨ side = .SELL) (h : Struct b side own other)
    (hstop : ∀ q, other.orders.head? = some q → limitStops side price (b.order q).price = true) :
    ∀ y ∈ other, better side (b.level y.1).price price := by
  cases other with
  | nil => exact fun x hx => absurd hx (List.not_mem_nil _)
  | cons x0 B =>
    obtain ⟨o, os, hx0, -, -⟩ := h.other_head
    have hl0 := h.otherOK.lvl x0 (by simp)
    have hq0 : (SideList.orders (x0 :: B)).head? = some o := by
      simp [SideList.orders, hx0]
    have hstop0 := hstop o hq0
    have hp0 : (b.order o).price = (b.level x0.1).price :=
      (hl0.ord o (by rw [hx0]; simp)).price
    rw [hp0] at hstop0
    have hsorted := h.otherOK.sorted
    rw [List.pairwise_cons] at hsorted
    intro x hx
    rcases List.mem_cons.1 hx with rfl | hxB
    · rcases hs with rfl | rfl
      · simpa [limitStops, better] using hstop0
      · simpa [limitStops, better] using hstop0
    · have hb := hsorted.1 x hxB
      rcases hs with rfl | rfl
      · simp [limitStops] at hstop0
        simp [better, opp] at hb ⊢
        omega
      · simp [limitStops] at hstop0
        simp [better, opp] at hb ⊢
        omega

/-- A returning `AddOrder` keeps the book uncrossed. -/
theorem AddOrder_uncrossed {b b2 : CMEOrderBook} {side : ESide} {own other : SideList}
    {price : Int} {cid coid tid qty : Nat} (hs : side = .BUY ∨ side = .SELL)
    (h : Struct b side own other) (hcol : NoCollision b price)
    (hc : CidOk b (own ++ other).orders) (hu : Uncrossed b side own other)
    (hrun : b.AddOrder cid coid tid side price qty = .ok b2) :
    ∃ own2 other2, Struct b2 side own2 other2 ∧ CidOk b2 (own2 ++ other2).orders ∧
      Uncrossed b2 side own2 other2 := by
  obtain ⟨b1, hS1, hcr, -, hexit, -, hcase⟩ :=
    (AddOrder_spec hs h hcol cid coid tid qty).2 b2 hrun
  have hc1 := hcr.crossed_cidOk hc
  have hsh := hcr.crossed_shrunk
  have hlp : ∀ q, (b1.level q).price = (b.level q).price := fun q => hcr.level_price q
  have hU1 : Uncrossed b1 side own
      (other.dropOrders (crossDone side price qty (snapshots b other))) := by
    intro x hx y hy
    obtain ⟨y0, hy0, e, -⟩ := hsh y hy
    rw [hlp, hlp, e]
    exact hu x hx y0 hy0
  rcases hcase with ⟨-, rfl⟩ | ⟨hL, o, prio, own2, -, -, ho, -, hrp, hpl, hS2, hun, -, hfr, -,
    hci, -, -⟩
  · exact ⟨own, _, hS1, hc1, hU1⟩
  · obtain ⟨r1, -⟩ := rest_step (n := b.m_nextMarketOrderId) hS1 ho hpl hrp hun hL hfr hci
    refine ⟨own2, _, hS2, r1 hc1, ?_⟩
    have hbey := Struct.other_beyond hs hS1 (hexit.resolve_left hL)
    have hoth : ∀ y ∈ other.dropOrders (crossDone side price qty (snapshots b other)),
        (b2.level y.1).price = (b1.level y.1).price := by
      intro y hy
      have hne := hS1.level_ne (List.mem_append_right _ hy)
      obtain ⟨q, hq⟩ := List.exists_mem_of_ne_nil _ hne
      have hqo : q ≠ o := by
        rintro rfl
        exact ho (mem_orders_of_mem (List.mem_append_right _ hy) hq)
      exact level_price_transfer hS1 hS2 (List.mem_append_right _ hy)
        (List.mem_append_right _ hy) hq hq (hfr q hqo)
    have hown : ∀ x ∈ own, ∀ x2 ∈ own2, x2.1 = x.1 → (∃ q, q ∈ x.2 ∧ q ∈ x2.2) →
        (b2.level x2.1).price = (b1.level x.1).price := by
      intro x hx x2 hx2 _ hq
      obtain ⟨q, hq1, hq2⟩ := hq
      have hqo : q ≠ o := by
        rintro rfl
        exact ho (mem_orders_of_mem (List.mem_append_left _ hx) hq1)
      exact level_price_transfer hS1 hS2 (List.mem_append_left _ hx2)
        (List.mem_append_left _ hx) hq2 hq1 (hfr q hqo)
    have hkeep : ∀ x ∈ own, x ∈ own2 → ∀ y ∈ other.dropOrders
        (crossDone side price qty (snapshots b other)),
        better side (b2.level y.1).price (b2.level x.1).price := by
      intro x hx hx2 y hy
      obtain ⟨q, hq⟩ := List.exists_mem_of_ne_nil _ (hS1.level_ne (List.mem_append_left _ hx))
      rw [hoth y hy, hown x hx x hx2 rfl ⟨q, hq, hq⟩]
      exact hU1 x hx y hy
    intro x hx y hy
    rcases hpl with ⟨A, lp, os, B, rfl, -, rfl⟩ | ⟨A, B, pNew, rfl, -, -, -, rfl⟩
    · rcases List.mem_append.1 hx with hxA | hxB
      · exact hkeep x (List.mem_append_left _ hxA) (List.mem_append_left _ hxA) y hy
      · rcases List.mem_cons.1 hxB with rfl | hxB
        · have hm : ((lp, os) : Nat × List Nat) ∈ A ++ (lp, os) :: B :=
            List.mem_append_right _ (List.mem_cons_self _ _)
          obtain ⟨q, hq⟩ := List.exists_mem_of_ne_nil _
            (hS1.level_ne (List.mem_append_left _ hm))
          rw [hoth y hy, hown (lp, os) hm (lp, os ++ [o]) hx rfl
            ⟨q, hq, List.mem_append_left _ hq⟩]
          exact hU1 (lp, os) hm y hy
        · exact hkeep x (List.mem_append_right _ (List.mem_cons_of_mem _ hxB))
            (List.mem_append_right _ (List.mem_cons_of_mem _ hxB)) y hy
    · rcases List.mem_append.1 hx with hxA | hxB
      · exact hkeep x (List.mem_append_left _ hxA) (List.mem_append_left _ hxA) y hy
      · rcases List.mem_cons.1 hxB with rfl | hxB
        · have hp : (b2.level pNew).price = price := by
            rw [← hS2.order_price (List.mem_append_left _ hx) (List.mem_singleton.2 rfl)]
            have : (b2.order o).unlink.price = price := by rw [hun]
            exact this
          rw [hoth y hy, hp]
          exact hbey y hy
        · exact hkeep x (List.mem_append_right _ hxB)
            (List.mem_append_right _ (List.mem_cons_of_mem _ hxB)) y hy

/-- A returning `CancelOrder` keeps the book uncrossed. -/
theorem CancelOrder_uncrossed {b b2 : CMEOrderBook} {s : ESide} {own other : SideList}
    {cid oid tid : Nat} (hs : s = .BUY ∨ s = .SELL) (h : Struct b s own other)
    (hc : CidOk b (own ++ other).orders) (hu : Uncrossed b s own other)
    (hrun : b.CancelOrder cid oid tid = .ok b2) :
    ∃ own2 other2, Struct b2 s own2 other2 ∧ CidOk b2 (own2 ++ other2).orders ∧
      Uncrossed b2 s own2 other2 := by
  rcases (CancelOrder_spec hs h hc cid oid tid).2 b2 hrun with ⟨rfl, -⟩ |
    ⟨o, b3, own2, other2, -, -, hom, hr, -, hS3, hE, rfl⟩
  · exact ⟨own, other, Struct_SendClientResponse h _, hc, hu⟩
  · have hmem : ∀ q, q ∈ (own2 ++ other2).orders ↔ q ∈ (own ++ other).orders ∧ q ≠ o := by
      rcases hE with ⟨hE, rfl⟩ | ⟨rfl, hE⟩
      · exact erased_own_mem hE h.onodup
      · exact erased_other_mem hE h.onodup
    have hsh1 : Shrunk own own2 := by
      rcases hE with ⟨hE, rfl⟩ | ⟨rfl, hE⟩
      · exact hE.erased_shrunk
      · exact Shrunk.shrunk_refl _
    have hsh2 : Shrunk other other2 := by
      rcases hE with ⟨hE, rfl⟩ | ⟨rfl, hE⟩
      · exact Shrunk.shrunk_refl _
      · exact hE.erased_shrunk
    refine ⟨own2, other2, Struct_SendClientResponse (Struct_SendMarketUpdate hS3 _) _,
      hr.removed_cidOk hmem hc, ?_⟩
    intro x hx y hy
    obtain ⟨x0, hx0, ex, -⟩ := hsh1 x hx
    obtain ⟨y0, hy0, ey, -⟩ := hsh2 y hy
    have := hu x0 hx0 y0 hy0
    rw [← ex, ← ey, ← hr.price x.1, ← hr.price y.1] at this
    exact this

/-- Every reachable book is well formed and uncrossed. -/
theorem Reached.uncrossed {b : CMEOrderBook} (hR : Reached b) :
    ∃ bids asks, Struct b .BUY bids asks ∧ CidOk b (bids ++ asks).orders ∧
      Uncrossed b .BUY bids asks := by
  induction hR with
  | init t =>
    refine ⟨[], [], Struct_init t .BUY, ?_, ?_⟩
    · intro c d p hp
      simp [CMEOrderBook.init] at hp
    · intro x hx
      exact absurd hx (List.not_mem_nil _)
  | add cid coid tid side price qty _ hs hcol hrun ih =>
    obtain ⟨bids, asks, hS, hc, hu⟩ := ih
    rcases hs with rfl | rfl
    · exact AddOrder_uncrossed (Or.inl rfl) hS hcol hc hu hrun
    · obtain ⟨own2, other2, hS2, hc2, hu2⟩ := AddOrder_uncrossed (Or.inr rfl)
        (hS.struct_swap (Or.inl rfl)) hcol hc.cidOk_swap (hu.uncrossed_swap (Or.inl rfl)) hrun
      exact ⟨other2, own2, hS2.struct_swap (Or.inr rfl), hc2.cidOk_swap,
        hu2.uncrossed_swap (Or.inr rfl)⟩
  | cancel cid oid tid _ hrun ih =>
    obtain ⟨bids, asks, hS, hc, hu⟩ := ih
    exact CancelOrder_uncrossed (Or.inl rfl) hS hc hu hrun

/-- C36. The book is never crossed. In every book reached from the empty book by returning
calls of `AddOrder` (side BUY or SELL, a price that collides with no live level) and
`CancelOrder`: when both best pointers are set, the price of the best bid
level is strictly less than the price of the best ask level; every bid level is strictly
below every ask level, and so is every resting bid order below every resting ask order, so no
price is live on both sides. -/
theorem never_crossed {b : CMEOrderBook} (hR : Reached b) :
    (∀ lb la, b.m_pBidsByPrice = some lb → b.m_pAsksByPrice = some la →
      (b.level lb).price < (b.level la).price) ∧
    ∃ bids asks, Struct b .BUY bids asks ∧
      (∀ x ∈ bids, ∀ y ∈ asks, (b.level x.1).price < (b.level y.1).price) ∧
      (∀ x ∈ bids, ∀ y ∈ asks, ∀ p ∈ x.2, ∀ q ∈ y.2, (b.order p).price < (b.order q).price) := by
  obtain ⟨bids, asks, hS, -, hu⟩ := hR.uncrossed
  have hlt : ∀ x ∈ bids, ∀ y ∈ asks, (b.level x.1).price < (b.level y.1).price := by
    intro x hx y hy
    simpa [better] using hu x hx y hy
  refine ⟨fun lb la hb ha => ?_, bids, asks, hS, hlt, fun x hx y hy p hp q hq => ?_⟩
  · have h1 : bids.levels.head? = some lb := by
      rw [← hS.ownOK.best]
      simpa [bestOf] using hb
    have h2 : asks.levels.head? = some la := by
      rw [← hS.otherOK.best]
      simpa [bestOf, opp] using ha
    obtain ⟨x, hx, rfl⟩ := List.mem_map.1 (List.mem_of_mem_head? h1)
    obtain ⟨y, hy, rfl⟩ := List.mem_map.1 (List.mem_of_mem_head? h2)
    exact hlt x hx y hy
  · rw [hS.order_price (List.mem_append_left _ hx) hp,
      hS.order_price (List.mem_append_right _ hy) hq]
    exact hlt x hx y hy

theorem run_bookSpread : bookS1.AddOrder 1 1 0 .SELL 101 4 = .ok bookSpread := rfl

theorem Reached_bookSpread : Reached bookSpread :=
  Reached.add 1 1 0 .SELL 101 4
    (Reached.add 0 1 0 .BUY 100 10 (Reached.init 0) (Or.inl rfl) (NoCollision_init 0 100)
      run_scenarioS1)
    (Or.inr rfl) NoCollision_bookS1_above run_bookSpread

/-- The book with a bid at 100 and an ask at 101. -/
theorem never_crossed_at_spread :
    Reached bookSpread ∧
    bookSpread.m_pBidsByPrice = some 0 ∧ bookSpread.m_pAsksByPrice = some 1 ∧
    (bookSpread.level 0).price = 100 ∧ (bookSpread.level 1).price = 101 ∧
    (∀ lb la, bookSpread.m_pBidsByPrice = some lb → bookSpread.m_pAsksByPrice = some la →
      (bookSpread.level lb).price < (bookSpread.level la).price) ∧
    ∃ bids asks, Struct bookSpread .BUY bids asks ∧
      (∀ x ∈ bids, ∀ y ∈ asks, (bookSpread.level x.1).price < (bookSpread.level y.1).price) ∧
      (∀ x ∈ bids, ∀ y ∈ asks, ∀ p ∈ x.2, ∀ q ∈ y.2,
        (bookSpread.order p).price < (bookSpread.order q).price) :=
  ⟨Reached_bookSpread, by decide, by decide, by decide, by decide,
    never_crossed Reached_bookSpread⟩

end Exchange

namespace Exchange

open Common CMEOrderBook

theorem NoCollision_bookS4a : NoCollision bookS4a 100 := by
  intro lp hlp
  have e : bookS4a.m_priceOrdersAtPrice (PriceToIndex 100) = some 0 := by decide
  rw [e] at hlp
  cases hlp
  decide

theorem run_bookS4a : (CMEOrderBook.init 0).AddOrder 0 1 0 .BUY 100 5 = .ok bookS4a := rfl

theorem run_bookS4b : bookS4a.AddOrder 0 2 0 .BUY 100 3 = .ok bookS4b := rfl

/-- The book of scenario S4 after its first request: one bid level with one order. -/
theorem Struct_bookS4a : Struct bookS4a .BUY [(0, [0])] [] := by
  obtain ⟨b1, -, -, -, -, -, hcase⟩ :=
    (AddOrder_spec (Or.inl rfl) (Struct_init 0 .BUY) (NoCollision_init 0 100) 0 1 0 5).2
      bookS4a run_bookS4a
  have hL : crossLeaves .BUY 100 5 (snapshots (CMEOrderBook.init 0) []) = 5 := by decide
  rw [hL] at hcase
  rcases hcase with ⟨h0, -⟩ | ⟨-, o, prio, own2, -, -, -, -, -, hpl, hS2, -⟩
  · exact absurd h0 (by decide)
  · have hd : SideList.dropOrders (crossDone .BUY 100 5 (snapshots (CMEOrderBook.init 0) []))
        [] = [] := by decide
    rw [hd] at hS2
    rcases hpl with ⟨A, lp, os, B, e1, -, -⟩ | ⟨A, B, pNew, e1, -, -, -, e2⟩
    · exact absurd e1 (by simp)
    · obtain ⟨rfl, rfl⟩ := List.append_eq_nil.1 e1.symm
      subst e2
      have hb := hS2.ownOK.best
      have e3 : bookS4a.bestOf .BUY = some 0 := by decide
      rw [e3] at hb
      have hp : pNew = 0 := by
        simp [SideList.levels] at hb
        exact hb.symm
      subst hp
      have hf := (hS2.ownOK.lvl (0, [o]) (by simp)).first
      have e4 : (bookS4a.level 0).pFirstMeOrder = some 0 := by decide
      rw [e4] at hf
      have ho : o = 0 := by
        simp at hf
        exact hf.symm
      subst ho
      exact hS2

/-- The book of scenario S4 after its second request: one bid level with two orders. -/
theorem Struct_bookS4b : Struct bookS4b .BUY [(0, [0, 1])] [] := by
  obtain ⟨b1, -, -, -, -, -, hcase⟩ :=
    (AddOrder_spec (Or.inl rfl) Struct_bookS4a NoCollision_bookS4a 0 2 0 3).2
      bookS4b run_bookS4b
  have hL : crossLeaves .BUY 100 3 (snapshots bookS4a []) = 3 := by decide
  rw [hL] at hcase
  rcases hcase with ⟨h0, -⟩ | ⟨-, o, prio, own2, -, -, -, -, -, hpl, hS2, -⟩
  · exact absurd h0 (by decide)
  · have hd : SideList.dropOrders (crossDone .BUY 100 3 (snapshots bookS4a [])) [] = [] := by
      decide
    rw [hd] at hS2
    rcases hpl with ⟨A, lp, os, B, e1, -, e2⟩ | ⟨A, B, pNew, e1, -, -, -, e2⟩
    · obtain ⟨rfl, hx, rfl⟩ := singleton_split e1
      cases hx
      subst e2
      have hl := hS2.ownOK.lvl (0, [0] ++ [o]) (by simp)
      have hc := hl.cyc
      have e4 : (bookS4b.order 0).pNextOrder = some 1 := by decide
      have hn : bookS4b.oNext 0 = some o := by
        have := hc
        simp only [List.singleton_append, Cyc, List.cons_append, List.nil_append,
          List.chain_cons] at this
        exact this.1.1
      have ho : o = 1 := by
        rw [oNext, e4] at hn
        exact (Option.some.inj hn).symm
      subst ho
      exact hS2
    · subst e2
      have hlen := hS2.ownOK.best
      have hl := hS2.lnodup
      have hx : ∀ x ∈ A ++ (pNew, [o]) :: B, (bookS4b.level x.1).pFirstMeOrder = x.2.head? :=
        fun x hx => (hS2.ownOK.lvl x hx).first
      have hb0 : (pNew, [o]) ∈ A ++ (pNew, [o]) :: B := by simp
      have hA : A = [] ∨ B = [] := by
        rcases A with _ | ⟨a, A⟩
        · exact Or.inl rfl
        · rcases B with _ | ⟨c, B⟩
          · exact Or.inr rfl
          · simp at e1
      have hidx := (hS2.ownOK.lvl (pNew, [o]) hb0).idx
      have hord := (hS2.ownOK.lvl (pNew, [o]) hb0).ord o (List.mem_singleton.2 rfl)
      have hAB : ∀ x ∈ A ++ B, x = (0, [0]) := by
        intro x hx
        rw [← e1] at hx
        exact List.mem_singleton.1 hx
      have h0 : ((0, [0]) : Nat × List Nat) ∈ A ++ (pNew, [o]) :: B := by
        have : ((0, [0]) : Nat × List Nat) ∈ A ++ B := by
          rw [← e1]
          exact List.mem_singleton.2 rfl
        rcases List.mem_append.1 this with h | h
        · exact List.mem_append_left _ h
        · exact List.mem_append_right _ (List.mem_cons_of_mem _ h)
      have hf0 := hx (0, [0]) h0
      have e5 : (bookS4b.level 0).pFirstMeOrder = some 0 := by decide
      have hc0 := (hS2.ownOK.lvl (0, [0]) h0).cyc
      have e4 : (bookS4b.order 0).pNextOrder = some 1 := by decide
      have hn : bookS4b.oNext 0 = some 0 := by
        have := hc0
        simp only [Cyc, List.nil_append, List.chain_cons] at this
        exact this.1.1
      rw [oNext, e4] at hn
      exact absurd (Option.some.inj hn) (by decide)

end Exchange

namespace Trading

open Common Exchange

namespace CMarketOrderBook

/-- The first loop of the CLEAR case over entries that are all null changes nothing. -/
theorem clearOrdersLoop_null (f : Nat → Option Nat) :
    ∀ (ids : List Nat) (pool : CMemoryPool SMarketOrder), (∀ i ∈ ids, f i = none) →
      clearOrdersLoop f ids pool = .ok pool
  | [], _, _ => rfl
  | i :: ids, pool, h => by
    unfold clearOrdersLoop
    rw [h i (List.mem_cons_self _ _)]
    exact clearOrdersLoop_null f ids pool fun j hj => h j (List.mem_cons_of_mem _ hj)

/-- The first loop of the CLEAR case when one entry of the array is set: the order it points
to is returned to the pool. -/
theorem clearOrdersLoop_single (f : Nat → Option Nat) (k order : Nat)
    (pool pool2 : CMemoryPool SMarketOrder) (hk : f k = some order)
    (hnull : ∀ i, i ≠ k → f i = none) (hd : pool.Deallocate order = .ok pool2) :
    ∀ ids : List Nat, ids.Nodup → k ∈ ids → clearOrdersLoop f ids pool = .ok pool2
  | [], _, hmem => absurd hmem (List.not_mem_nil _)
  | i :: ids, hnd, hmem => by
    rw [List.nodup_cons] at hnd
    unfold clearOrdersLoop
    by_cases hik : i = k
    · subst hik
      rw [hk]
      simp only [hd]
      exact clearOrdersLoop_null f ids pool2 fun j hj => hnull j fun e => hnd.1 (e ▸ hj)
    · rw [hnull i hik]
      exact clearOrdersLoop_single f k order pool pool2 hk hnull hd ids hnd.2
        ((List.mem_cons.1 hmem).resolve_left fun e => hik e.symm)

theorem run_bookAdded : (fresh 0).OnMarketUpdate addBid1 = .ok bookAdded := rfl

theorem bookAdded_oidToOrder :
    bookAdded.m_oidToOrder = Function.update (fun _ => none) 1 (some 0) := rfl

theorem run_bookCleared : bookAdded.OnMarketUpdate clearAll = .ok bookCleared := by
  have h1 : clearOrdersLoop bookAdded.m_oidToOrder (List.range ME_MAX_ORDER_IDS)
      bookAdded.m_orderPool = .ok (bookAdded.m_orderPool.release 0) := by
    refine clearOrdersLoop_single _ 1 0 _ _ ?_ ?_ ?_ _ (List.nodup_range _)
      (List.mem_range.2 (by decide))
    · rw [bookAdded_oidToOrder, Function.update_same]
    · intro i hi
      rw [bookAdded_oidToOrder, Function.update_noteq hi]
    · rfl
  have h2 : bookAdded.clearBook = .ok bookCleared := by
    unfold clearBook
    rw [h1]
    rfl
  have h3 : bookAdded.OnMarketUpdate clearAll =
      (bookAdded.clearBook >>= fun b => b.UpdateBBO false false) := rfl
  rw [h3, h2]
  rfl

theorem run_bookReadded : bookCleared.OnMarketUpdate addBid2 = .ok bookReadded := rfl

/-- Method `UpdateBBO` writes `m_pBbo` only. -/
theorem UpdateBBO_fields {b b2 : CMarketOrderBook} {x y : Bool}
    (h : b.UpdateBBO x y = .ok b2) :
    b2.m_oidToOrder = b.m_oidToOrder ∧ b2.m_pBidsByPrice = b.m_pBidsByPrice ∧
    b2.m_pAsksByPrice = b.m_pAsksByPrice ∧ b2.m_priceOrdersAtPrice = b.m_priceOrdersAtPrice ∧
    b2.m_orderPool = b.m_orderPool ∧ b2.m_ordersAtPricePool = b.m_ordersAtPricePool := by
  unfold UpdateBBO at h
  simp only [bind, Except.bind, pure, Except.pure] at h
  split at h
  · cases h
  · rename_i b1 hb1
    have e1 : b1.m_oidToOrder = b.m_oidToOrder ∧ b1.m_pBidsByPrice = b.m_pBidsByPrice ∧
        b1.m_pAsksByPrice = b.m_pAsksByPrice ∧
        b1.m_priceOrdersAtPrice = b.m_priceOrdersAtPrice ∧
        b1.m_orderPool = b.m_orderPool ∧ b1.m_ordersAtPricePool = b.m_ordersAtPricePool := by
      split at hb1
      · split at hb1
        · split at hb1
          · cases hb1
          · cases hb1
            exact ⟨rfl, rfl, rfl, rfl, rfl, rfl⟩
        · cases hb1
          exact ⟨rfl, rfl, rfl, rfl, rfl, rfl⟩
      · cases hb1
        exact ⟨rfl, rfl, rfl, rfl, rfl, rfl⟩
    obtain ⟨a1, a2, a3, a4, a5, a6⟩ := e1
    rw [← a1, ← a2, ← a3, ← a4, ← a5, ← a6]
    split at h
    · split at h
      · split at h
        · cases h
        · cases h
          exact ⟨rfl, rfl, rfl, rfl, rfl, rfl⟩
      · cases h
        exact ⟨rfl, rfl, rfl, rfl, rfl, rfl⟩
    · cases h
      exact ⟨rfl, rfl, rfl, rfl, rfl, rfl⟩

/-- The CLEAR case when it returns: the array of the orders and the best pointers are null,
and the index of the levels is the one before. -/
theorem clearBook_fields {b b2 : CMarketOrderBook} (h : b.clearBook = .ok b2) :
    (∀ i, b2.m_oidToOrder i = none) ∧ b2.m_pBidsByPrice = none ∧ b2.m_pAsksByPrice = none ∧
    b2.m_priceOrdersAtPrice = b.m_priceOrdersAtPrice := by
  have key : ∀ (r : Except Fault (CMemoryPool SMarketOrder))
      (r1 : Except Fault (CMemoryPool SMarketOrdersAtPrice))
      (k : CMemoryPool SMarketOrdersAtPrice → Except Fault (CMemoryPool SMarketOrdersAtPrice)),
      (r >>= fun orderPool => r1 >>= fun pool => k pool >>= fun pool =>
        (pure { b with
          m_orderPool := orderPool
          m_oidToOrder := fun _ => none
          m_ordersAtPricePool := pool
          m_pBidsByPrice := none
          m_pAsksByPrice := none } : Except Fault CMarketOrderBook)) = .ok b2 →
      (∀ i, b2.m_oidToOrder i = none) ∧ b2.m_pBidsByPrice = none ∧ b2.m_pAsksByPrice = none ∧
      b2.m_priceOrdersAtPrice = b.m_priceOrdersAtPrice := by
    intro r r1 k hr
    cases r with
    | error e => cases hr
    | ok orderPool =>
      cases r1 with
      | error e => cases hr
      | ok pool =>
        change (k pool >>= fun pool => (pure _ : Except Fault CMarketOrderBook)) = .ok b2 at hr
        generalize k pool = r2 at hr
        cases r2 with
        | error e => cases hr
        | ok pool2 =>
          cases hr
          exact ⟨fun _ => rfl, rfl, rfl, rfl⟩
  exact key _ _ _ h

end CMarketOrderBook

open CMarketOrderBook

/-- C38, as far as it holds. After `OnMarketUpdate` has processed a CLEAR update and
returned, no entry of the array of the orders is set and both best pointers are null; the
index of the levels, `m_priceOrdersAtPrice`, is what it was before the CLEAR. -/
theorem clear_resets_orders {b b2 : CMarketOrderBook} {u : SMEMarketUpdate}
    (hu : u.type = .CLEAR) (h : b.OnMarketUpdate u = .ok b2) :
    (∀ i, b2.m_oidToOrder i = none) ∧ b2.m_pBidsByPrice = none ∧ b2.m_pAsksByPrice = none ∧
    b2.m_priceOrdersAtPrice = b.m_priceOrdersAtPrice := by
  unfold OnMarketUpdate at h
  simp only [hu] at h
  generalize hr : b.clearBook = r at h
  cases r with
  | error e => cases h
  | ok b1 =>
    obtain ⟨c1, c2, c3, c4⟩ := clearBook_fields hr
    obtain ⟨a1, a2, a3, a4, -, -⟩ := UpdateBBO_fields (show b1.UpdateBBO _ _ = .ok b2 from h)
    exact ⟨fun i => by rw [a1]; exact c1 i, a2.trans c2, a3.trans c3, a4.trans c4⟩

/-- The book with one bid at 100 and the CLEAR of its ticker. -/
theorem clear_resets_orders_at_one_bid :
    clearAll.type = .CLEAR ∧ bookAdded.OnMarketUpdate clearAll = .ok bookCleared ∧
    (∀ i, bookCleared.m_oidToOrder i = none) ∧ bookCleared.m_pBidsByPrice = none ∧
    bookCleared.m_pAsksByPrice = none ∧
    bookCleared.m_priceOrdersAtPrice = bookAdded.m_priceOrdersAtPrice :=
  ⟨rfl, run_bookCleared, clear_resets_orders rfl run_bookCleared⟩

/-- C38 fails on the code. The CLEAR case of `OnMarketUpdate` never writes
`m_priceOrdersAtPrice`. On a fresh book with null arrays, after the ADD of a bid at 100 and a
CLEAR, both of which return, the slot of the price 100 in the index still points to level 0,
which is back in the pool, whereas the fresh book has a null pointer there. The ADD of a bid
at 100 that follows returns: it finds that level through the index, links its order to the
order that was cleared, and creates no level, so both best pointers stay null and the order
cannot be reached from them. On the fresh book the same ADD creates level 0 and the best bid
pointer refers to it. -/
theorem clear_keeps_level_index :
    (fresh 0).OnMarketUpdate addBid1 = .ok bookAdded ∧
    bookAdded.OnMarketUpdate clearAll = .ok bookCleared ∧
    bookCleared.OnMarketUpdate addBid2 = .ok bookReadded ∧
    bookCleared.m_pBidsByPrice = none ∧ bookCleared.m_pAsksByPrice = none ∧
    (∀ i, bookCleared.m_oidToOrder i = none) ∧
    bookCleared.m_priceOrdersAtPrice (PriceToIndex 100) = some 0 ∧
    (bookCleared.m_ordersAtPricePool.m_store 0).isFree = true ∧
    (fresh 0).m_priceOrdersAtPrice (PriceToIndex 100) = none ∧
    bookReadded.m_oidToOrder 2 = some 1 ∧
    (bookReadded.order 1).orderId = 2 ∧ (bookReadded.order 1).price = 100 ∧
    (bookReadded.m_orderPool.m_store 1).isFree = false ∧
    (bookReadded.order 1).pNextOrder = some 0 ∧
    (bookReadded.m_orderPool.m_store 0).isFree = true ∧
    (bookReadded.m_ordersAtPricePool.m_store 0).isFree = true ∧
    bookReadded.m_pBidsByPrice = none ∧ bookReadded.m_pAsksByPrice = none ∧
    ∃ b, (fresh 0).OnMarketUpdate addBid2 = .ok b ∧ b.m_pBidsByPrice = some 0 ∧
      (b.level 0).price = 100 ∧ (b.level 0).pFirstMktOrder = some 0 ∧
      (b.order 0).orderId = 2 ∧ (b.m_ordersAtPricePool.m_store 0).isFree = false :=
  ⟨run_bookAdded, run_bookCleared, run_bookReadded, rfl, rfl, fun _ => rfl, by decide,
    by decide, rfl, by decide, by decide, by decide, by decide, by decide, by decide, by decide,
    by decide, by decide, _, rfl, by decide, by decide, by decide, by decide, by decide⟩

end Trading

namespace Exchange

open Common CMEOrderBook

/-- C7 fails on the code. On the book of scenario S1, whose only live level is the bid level
at 100, a NEW BUY at 356 with quantity 10 returns with the residual 10: no level is live at
356, yet `AddOrder` creates none. The lookup by `356 % 256` finds the level at 100, the order
is linked at its tail behind the order at 100, and the one ADD update carries the price 356
with priority 2, the priority after the last order of the level at 100, not 1. -/
theorem residual_rests_in_foreign_level :
    bookS1.AddOrder 0 2 0 .BUY 356 10 = .ok bookCollide ∧
    bookS1.m_pBidsByPrice = some 0 ∧ (bookS1.level 0).pNextEntry = some 0 ∧
    (bookS1.level 0).price = 100 ∧ bookS1.m_pAsksByPrice = none ∧
    bookCollide.emitted = bookS1.emitted ++
      [.response ⟨.ACCEPTED, 0, 0, 2, 2, .BUY, 356, 0, 10⟩,
        .update ⟨.ADD, 2, 0, .BUY, 356, 10, 2⟩] ∧
    bookCollide.m_pBidsByPrice = some 0 ∧ (bookCollide.level 0).pNextEntry = some 0 ∧
    (bookCollide.level 0).price = 100 ∧ bookCollide.m_pAsksByPrice = none ∧
    (∀ q, bookCollide.lfree q = bookS1.lfree q) ∧
    bookCollide.lfree 1 = true ∧
    (bookCollide.level 0).pFirstMeOrder = some 0 ∧
    (bookCollide.order 0).pNextOrder = some 1 ∧ (bookCollide.order 1).pNextOrder = some 0 ∧
    (bookCollide.order 1).price = 356 ∧ (bookCollide.order 1).qty = 10 ∧
    (bookCollide.order 1).priority = 2 ∧ (bookCollide.order 0).priority = 1 ∧
    bookCollide.ofree 1 = false :=
  ⟨rfl, by decide, by decide, by decide, by decide, by decide, by decide, by decide, by decide,
    by decide, fun _ => rfl, by decide, by decide, by decide, by decide, by decide, by decide,
    by decide, by decide, by decide⟩

end Exchange

namespace Exchange

open Common

/-- A sequence of two steps that returns: the first step returned, and the second returned
from its result. -/
theorem bind_ok {ε α β : Type} {x : Except ε α} {f : α → Except ε β} {y : β}
    (h : (x >>= f) = .ok y) : ∃ a, x = .ok a ∧ f a = .ok y := by
  cases x with
  | error e => cases h
  | ok a => exact ⟨a, rfl, h⟩

namespace CMEOrderBook

/-- Method `AddOrdersAtPrice` sends nothing and leaves the counter of market order ids. -/
theorem AddOrdersAtPrice_sent {b b2 : CMEOrderBook} {pNew : Nat}
    (h : b.AddOrdersAtPrice pNew = .ok b2) :
    b2.emitted = b.emitted ∧ b2.m_nextMarketOrderId = b.m_nextMarketOrderId := by
  unfold AddOrdersAtPrice at h
  simp only [setOrdersAtPrice_eq, bind, Except.bind, pure, Except.pure] at h
  split at h
  · simp only [Except.ok.injEq] at h
    subst h
    simp
  · split at h
    · exact absurd h (by simp)
    · repeat' first
        | (cases h
           done)
        | (cases h
           simp)
        | split at h

/-- Method `RemoveOrdersAtPrice` sends nothing and leaves the counter of market order ids. -/
theorem RemoveOrdersAtPrice_sent {b b2 : CMEOrderBook} {side : ESide} {price : Int}
    (h : b.RemoveOrdersAtPrice side price = .ok b2) :
    b2.emitted = b.emitted ∧ b2.m_nextMarketOrderId = b.m_nextMarketOrderId := by
  unfold RemoveOrdersAtPrice at h
  simp only [GetOrdersAtPrice_eq] at h
  obtain ⟨oap, -, h⟩ := bind_ok h
  obtain ⟨oap2, -, h⟩ := bind_ok h
  obtain ⟨b1, hb1, h⟩ := bind_ok h
  have e1 : b1.emitted = b.emitted ∧ b1.m_nextMarketOrderId = b.m_nextMarketOrderId := by
    split at hb1
    · cases hb1
      simp
    · obtain ⟨prev, -, hb1⟩ := bind_ok hb1
      obtain ⟨next, -, hb1⟩ := bind_ok hb1
      cases hb1
      split <;> simp
  simp only [setOrdersAtPrice_eq] at h
  obtain ⟨b3, hb3, h⟩ := bind_ok h
  cases hb3
  obtain ⟨pool, -, h⟩ := bind_ok h
  cases h
  exact e1

theorem setCidOid_sent {b b2 : CMEOrderBook} {c d : Nat} {v : Option Nat}
    (h : b.setCidOid c d v = .ok b2) :
    b2.emitted = b.emitted ∧ b2.m_nextMarketOrderId = b.m_nextMarketOrderId := by
  obtain ⟨hc, hd⟩ := setCidOid_bounds h
  rw [setCidOid_eq b v hc hd] at h
  cases h
  exact ⟨rfl, rfl⟩

/-- Method `RemoveOrder` sends nothing and leaves the counter of market order ids. -/
theorem RemoveOrder_sent {b b2 : CMEOrderBook} {o : Nat} (h : b.RemoveOrder o = .ok b2) :
    b2.emitted = b.emitted ∧ b2.m_nextMarketOrderId = b.m_nextMarketOrderId := by
  unfold RemoveOrder at h
  simp only [GetOrdersAtPrice_eq] at h
  obtain ⟨oap, -, h⟩ := bind_ok h
  obtain ⟨b1, hb1, h⟩ := bind_ok h
  have e1 : b1.emitted = b.emitted ∧ b1.m_nextMarketOrderId = b.m_nextMarketOrderId := by
    split at hb1
    · exact RemoveOrdersAtPrice_sent hb1
    · obtain ⟨pb, -, hb1⟩ := bind_ok hb1
      obtain ⟨pa, -, hb1⟩ := bind_ok hb1
      obtain ⟨l, -, hb1⟩ := bind_ok hb1
      cases hb1
      split <;> simp
  obtain ⟨b3, hb3, h⟩ := bind_ok h
  obtain ⟨pool, -, h⟩ := bind_ok h
  cases h
  obtain ⟨e3, e4⟩ := setCidOid_sent hb3
  exact ⟨e3.trans e1.1, e4.trans e1.2⟩

/-- The overload `AddOrder(SMEOrder*)` sends nothing and leaves the counter of market order
ids. -/
theorem AddOrderPtr_sent {b b2 : CMEOrderBook} {o : Nat} (h : b.AddOrderPtr o = .ok b2) :
    b2.emitted = b.emitted ∧ b2.m_nextMarketOrderId = b.m_nextMarketOrderId := by
  unfold AddOrderPtr at h
  simp only [GetOrdersAtPrice_eq, bind, Except.bind, pure, Except.pure] at h
  split at h
  · cases h
  · rename_i b1 heq
    have e1 : b1.emitted = b.emitted ∧ b1.m_nextMarketOrderId = b.m_nextMarketOrderId := by
      split at heq
      · split at heq
        · cases heq
        · obtain ⟨a1, a2⟩ := AddOrdersAtPrice_sent heq
          rw [a1, a2]
          simp
      · split at heq
        · cases heq
        · split at heq
          · cases heq
          · simp only [Except.ok.injEq] at heq
            subst heq
            simp
    obtain ⟨e3, e4⟩ := setCidOid_sent h
    exact ⟨e3.trans e1.1, e4.trans e1.2⟩

/-- Method `Match` leaves the counter of market order ids and sends two FILLED responses and
two updates. -/
theorem Match_sent {b b2 : CMEOrderBook} {tid cid coid moid itr L L2 : Nat} {side : ESide}
    (h : b.Match tid cid side coid moid itr L = .ok (b2, L2)) :
    b2.m_nextMarketOrderId = b.m_nextMarketOrderId ∧
    ∃ news, b2.emitted = b.emitted ++ news ∧
      ∀ r, Emitted.response r ∈ news → r.type ≠ .ACCEPTED := by
  rw [Match_eq] at h
  simp only at h
  have hpre := matchPre_emitted b tid cid side coid moid itr L
  have hn : (b.matchPre tid cid side coid moid itr L).m_nextMarketOrderId =
      b.m_nextMarketOrderId := rfl
  have hty : ∀ r, Emitted.response r ∈
      [Emitted.response (aggressorFilled tid cid side coid moid (b.order itr).unlink L),
        .response (restingFilled tid (b.order itr).unlink L),
        .update (tradeUpdate tid side (b.order itr).unlink L)] → r.type ≠ .ACCEPTED := by
    intro r hr
    simp only [List.mem_cons, Emitted.response.injEq, List.mem_singleton, reduceCtorEq,
      or_false, List.not_mem_nil] at hr
    rcases hr with rfl | rfl
    · simp [aggressorFilled]
    · simp [restingFilled]
  split at h
  · obtain ⟨b3, hb3, h⟩ := bind_ok h
    cases h
    obtain ⟨e1, e2⟩ := RemoveOrder_sent hb3
    refine ⟨e2.trans hn, _, by rw [e1, emitted_SendMarketUpdate, hpre, List.append_assoc],
      fun r hr => ?_⟩
    rcases List.mem_append.1 hr with h1 | h1
    · exact hty r h1
    · simp at h1
  · cases h
    refine ⟨hn, _, by rw [emitted_SendMarketUpdate, hpre, List.append_assoc], fun r hr => ?_⟩
    rcases List.mem_append.1 hr with h1 | h1
    · exact hty r h1
    · simp at h1

/-- The matching loop leaves the counter of market order ids and sends no ACCEPTED
response. -/
theorem CheckForMatchLoop_sent (cid coid tid : Nat) (side : ESide) (price : Int) (moid : Nat) :
    ∀ (fuel : Nat) (b : CMEOrderBook) (L : Nat) (b2 : CMEOrderBook) (L2 : Nat),
      CheckForMatchLoop cid coid tid side price moid fuel b L = .ok (b2, L2) →
      b2.m_nextMarketOrderId = b.m_nextMarketOrderId ∧
      ∃ news, b2.emitted = b.emitted ++ news ∧
        ∀ r, Emitted.response r ∈ news → r.type ≠ .ACCEPTED
  | 0, b, L, b2, L2, h => by cases h
  | fuel + 1, b, L, b2, L2, h => by
    unfold CheckForMatchLoop at h
    split at h
    · obtain ⟨lvl, -, h⟩ := bind_ok h
      obtain ⟨itr, -, h⟩ := bind_ok h
      split at h
      · cases h
        exact ⟨rfl, [], by simp, fun r hr => absurd hr (List.not_mem_nil _)⟩
      · obtain ⟨r, hr, h⟩ := bind_ok h
        obtain ⟨n1, news1, e1, t1⟩ := Match_sent (show b.Match tid cid side coid moid itr L =
          .ok (r.1, r.2) from hr)
        obtain ⟨n2, news2, e2, t2⟩ := CheckForMatchLoop_sent cid coid tid side price moid fuel
          r.1 r.2 b2 L2 h
        refine ⟨n2.trans n1, news1 ++ news2, by rw [e2, e1, List.append_assoc], fun x hx => ?_⟩
        rcases List.mem_append.1 hx with h1 | h1
        · exact t1 x h1
        · exact t2 x h1
    · cases h
      exact ⟨rfl, [], by simp, fun r hr => absurd hr (List.not_mem_nil _)⟩

/-- The resting phase of `AddOrder` leaves the counter of market order ids and sends one ADD
update. -/
theorem restResidual_sent {b b2 : CMEOrderBook} {cid coid tid moid L : Nat} {side : ESide}
    {price : Int} (h : b.restResidual cid coid tid side price moid L = .ok b2) :
    b2.m_nextMarketOrderId = b.m_nextMarketOrderId ∧
    ∃ prio, b2.emitted = b.emitted ++ [.update ⟨.ADD, moid, tid, side, price, L, prio⟩] := by
  unfold restResidual at h
  obtain ⟨prio, -, h⟩ := bind_ok h
  obtain ⟨a, -, h⟩ := bind_ok h
  obtain ⟨b3, hb3, h⟩ := bind_ok h
  cases h
  obtain ⟨e1, e2⟩ := AddOrderPtr_sent hb3
  exact ⟨e2, prio, by rw [emitted_SendMarketUpdate, e1]⟩

/-- Method `AddOrder`, on every book: a call that returns has advanced the counter of market
order ids by the 64-bit increment and has sent the ACCEPTED response with the value of the
counter before, followed by records among which no response is an ACCEPTED. -/
theorem AddOrder_sent {b b2 : CMEOrderBook} {cid coid tid qty : Nat} {side : ESide}
    {price : Int} (h : b.AddOrder cid coid tid side price qty = .ok b2) :
    b2.m_nextMarketOrderId = (b.m_nextMarketOrderId + 1) % 2 ^ 64 ∧
    ∃ news, b2.emitted = b.emitted ++ .response ⟨.ACCEPTED, cid, tid, coid,
        b.m_nextMarketOrderId, side, price, 0, qty⟩ :: news ∧
      ∀ r, Emitted.response r ∈ news → r.type ≠ .ACCEPTED := by
  rw [AddOrder_eq] at h
  obtain ⟨r, hr, h⟩ := bind_ok h
  have h1 : r.1.m_nextMarketOrderId = (b.m_nextMarketOrderId + 1) % 2 ^ 64 ∧
      ∃ news, r.1.emitted = (b.emitted ++ [.response ⟨.ACCEPTED, cid, tid, coid,
          b.m_nextMarketOrderId, side, price, 0, qty⟩]) ++ news ∧
        ∀ x, Emitted.response x ∈ news → x.type ≠ .ACCEPTED := by
    unfold CheckForMatch at hr
    split at hr
    · exact CheckForMatchLoop_sent cid coid tid side price _ _ _ _ r.1 r.2 hr
    · cases hr
      exact ⟨rfl, [], by rw [List.append_nil]; rfl,
        fun x hx => absurd hx (List.not_mem_nil _)⟩
  obtain ⟨n1, news1, e1, t1⟩ := h1
  split at h
  · obtain ⟨n2, prio, e2⟩ := restResidual_sent h
    refine ⟨n2.trans n1, news1 ++ [.update ⟨.ADD, b.m_nextMarketOrderId, tid, side, price,
      r.2, prio⟩], by rw [e2, e1]; simp, fun x hx => ?_⟩
    rcases List.mem_append.1 hx with h2 | h2
    · exact t1 x h2
    · simp at h2
  · cases h
    exact ⟨n1, news1, by rw [e1]; simp, t1⟩

/-- Method `CancelOrder`, on every book: a call that returns has left the counter of market
order ids and has sent no ACCEPTED response. -/
theorem CancelOrder_sent {b b2 : CMEOrderBook} {cid oid tid : Nat}
    (h : b.CancelOrder cid oid tid = .ok b2) :
    b2.m_nextMarketOrderId = b.m_nextMarketOrderId ∧
    ∃ news, b2.emitted = b.emitted ++ news ∧
      ∀ r, Emitted.response r ∈ news → r.type ≠ .ACCEPTED := by
  unfold CancelOrder at h
  obtain ⟨x, -, h⟩ := bind_ok h
  split at h
  · cases h
    refine ⟨rfl, _, emitted_SendClientResponse _ _, fun r hr => ?_⟩
    simp only [List.mem_singleton, Emitted.response.injEq] at hr
    subst hr
    simp
  · rename_i o
    obtain ⟨b3, hb3, h⟩ := bind_ok h
    cases h
    obtain ⟨e1, e2⟩ := RemoveOrder_sent hb3
    refine ⟨e2, _, by
      rw [emitted_SendClientResponse, emitted_SendMarketUpdate, e1, List.append_assoc],
      fun r hr => ?_⟩
    simp only [List.cons_append, List.nil_append, List.mem_cons, reduceCtorEq,
      Emitted.response.injEq, List.mem_singleton, false_or, List.not_mem_nil, or_false] at hr
    subst hr
    simp

end CMEOrderBook

end Exchange

namespace Exchange

open Common CMEOrderBook

theorem acceptedIds_append (t : Nat) (l1 l2 : List SMEClientResponse) :
    acceptedIds t (l1 ++ l2) = acceptedIds t l1 ++ acceptedIds t l2 := by
  simp [acceptedIds]

theorem responsesOf_cons_response (r : SMEClientResponse) (es : List Emitted) :
    responsesOf (.response r :: es) = r :: responsesOf es := rfl

theorem mem_responsesOf {r : SMEClientResponse} {es : List Emitted} :
    r ∈ responsesOf es ↔ Emitted.response r ∈ es := by
  unfold responsesOf
  rw [List.mem_filterMap]
  constructor
  · rintro ⟨e, he, h⟩
    cases e with
    | response x =>
      simp only [Option.some.injEq] at h
      subst h
      exact he
    | update u => cases h
  · intro h
    exact ⟨_, h, rfl⟩

/-- Responses without an ACCEPTED one carry no accepted id. -/
theorem acceptedIds_none (t : Nat) {es : List Emitted}
    (h : ∀ r, Emitted.response r ∈ es → r.type ≠ .ACCEPTED) :
    acceptedIds t (responsesOf es) = [] := by
  unfold acceptedIds
  rw [List.map_eq_nil_iff, List.filter_eq_nil_iff]
  intro r hr
  have := h r (mem_responsesOf.1 hr)
  simp [this]

theorem range_map_succ (k : Nat) :
    (List.range (k + 1)).map (fun i => (1 + i) % 2 ^ 64) =
      (List.range k).map (fun i => (1 + i) % 2 ^ 64) ++ [(1 + k) % 2 ^ 64] := by
  rw [List.range_succ, List.map_append]
  rfl

namespace CMatchingEngine

/-- One request: the accepted ids of a ticker stay the consecutive values of its counter. -/
theorem ProcessClientRequest_ids {e e2 : CMatchingEngine} {r : SMEClientRequest}
    (h : e.ProcessClientRequest r = .ok e2) (t k : Nat)
    (hids : acceptedIds t e.m_pOutgoingOgwResponses =
      (List.range k).map (fun i => (1 + i) % 2 ^ 64))
    (hnext : (e.m_tickerOrderBook t).m_nextMarketOrderId = (1 + k) % 2 ^ 64) :
    acceptedIds t e2.m_pOutgoingOgwResponses =
        (List.range (k + newCount t [r])).map (fun i => (1 + i) % 2 ^ 64) ∧
      (e2.m_tickerOrderBook t).m_nextMarketOrderId = (1 + (k + newCount t [r])) % 2 ^ 64 := by
  unfold ProcessClientRequest at h
  split at h
  swap
  · cases h
  simp only at h
  split at h
  · rename_i hty
    obtain ⟨b2, hb2, h⟩ := bind_ok h
    cases h
    obtain ⟨hn, news, hem, hna⟩ := AddOrder_sent hb2
    have hresp : (e.afterCall r.tickerId (e.m_tickerOrderBook r.tickerId)
        b2).m_pOutgoingOgwResponses = e.m_pOutgoingOgwResponses ++
          (⟨.ACCEPTED, r.clientId, r.tickerId, r.orderId,
            (e.m_tickerOrderBook r.tickerId).m_nextMarketOrderId, r.side, r.price, 0, r.qty⟩ ::
            responsesOf news) := by
      simp only [afterCall]
      rw [hem, List.drop_left]
      rfl
    rw [hresp, acceptedIds_append, hids]
    by_cases ht : r.tickerId = t
    · have hc : newCount t [r] = 1 := by simp [newCount, hty, ht]
      rw [hc, range_map_succ]
      constructor
      · congr 1
        have : acceptedIds t (⟨.ACCEPTED, r.clientId, r.tickerId, r.orderId,
            (e.m_tickerOrderBook r.tickerId).m_nextMarketOrderId, r.side, r.price, 0, r.qty⟩ ::
            responsesOf news) = (e.m_tickerOrderBook r.tickerId).m_nextMarketOrderId ::
              acceptedIds t (responsesOf news) := by
          simp [acceptedIds, ht]
        rw [this, acceptedIds_none t hna, ht, hnext]
      · simp only [afterCall]
        rw [← ht, Function.update_same, hn, ht, hnext]
        omega
    · have hc : newCount t [r] = 0 := by simp [newCount, ht]
      rw [hc]
      constructor
      · have : acceptedIds t (⟨.ACCEPTED, r.clientId, r.tickerId, r.orderId,
            (e.m_tickerOrderBook r.tickerId).m_nextMarketOrderId, r.side, r.price, 0, r.qty⟩ ::
            responsesOf news) = acceptedIds t (responsesOf news) := by
          simp [acceptedIds, ht]
        rw [this, acceptedIds_none t hna, List.append_nil]
        rfl
      · simp only [afterCall]
        rw [Function.update_noteq (fun e => ht e.symm)]
        exact hnext
  · rename_i hty
    obtain ⟨b2, hb2, h⟩ := bind_ok h
    cases h
    obtain ⟨hn, news, hem, hna⟩ := CancelOrder_sent hb2
    have hc : newCount t [r] = 0 := by simp [newCount, hty]
    rw [hc]
    constructor
    · simp only [afterCall]
      rw [hem, List.drop_left, acceptedIds_append, acceptedIds_none t hna, List.append_nil]
      exact hids
    · simp only [afterCall]
      by_cases ht : r.tickerId = t
      · rw [← ht, Function.update_same, hn, ht]
        exact hnext
      · rw [Function.update_noteq (fun e => ht e.symm)]
        exact hnext
  · cases h

theorem newCount_cons (t : Nat) (r : SMEClientRequest) (rs : List SMEClientRequest) :
    newCount t (r :: rs) = newCount t [r] + newCount t rs := by
  unfold newCount
  by_cases h : r.type = .NEW ∧ r.tickerId = t
  · simp [List.filter_cons, h]
    omega
  · simp [List.filter_cons, h]

/-- A run of requests: the accepted ids of a ticker stay the consecutive values of its
counter. -/
theorem processAll_ids : ∀ (rs : List SMEClientRequest) {e e2 : CMatchingEngine},
    e.processAll rs = .ok e2 → ∀ (t k : Nat),
    acceptedIds t e.m_pOutgoingOgwResponses =
      (List.range k).map (fun i => (1 + i) % 2 ^ 64) →
    (e.m_tickerOrderBook t).m_nextMarketOrderId = (1 + k) % 2 ^ 64 →
    acceptedIds t e2.m_pOutgoingOgwResponses =
        (List.range (k + newCount t rs)).map (fun i => (1 + i) % 2 ^ 64) ∧
      (e2.m_tickerOrderBook t).m_nextMarketOrderId = (1 + (k + newCount t rs)) % 2 ^ 64
  | [], e, e2, h, t, k, hids, hnext => by
    cases h
    exact ⟨hids, hnext⟩
  | r :: rs, e, e2, h, t, k, hids, hnext => by
    unfold processAll at h
    split at h
    · rename_i e1 he1
      obtain ⟨h1, h2⟩ := ProcessClientRequest_ids he1 t k hids hnext
      have := processAll_ids rs h t _ h1 h2
      rw [newCount_cons, ← Nat.add_assoc]
      exact this
    · cases h

theorem range_map_nodup {k : Nat} (hk : k ≤ 2 ^ 64) :
    ((List.range k).map (fun i => (1 + i) % 2 ^ 64)).Nodup := by
  refine (List.nodup_map_iff_inj_on (List.nodup_range k)).2 ?_
  intro i hi j hj hij
  have h1 := List.mem_range.1 hi
  have h2 := List.mem_range.1 hj
  have hij2 : (1 + i) % 2 ^ 64 = (1 + j) % 2 ^ 64 := hij
  omega

end CMatchingEngine

open CMatchingEngine

/-- C32, amended. Market order ids are unique per ticker. For every sequence of requests
that one matching engine has processed from its construction, and every ticker, the ACCEPTED
responses for that ticker carry, in their order, the ids 1, 2, 3, ... of the 64-bit counter
of the ticker's book, one for each NEW request for the ticker; so when the ticker has
received at most `2 ^ 64` NEW requests, any two accepted orders of the ticker have different
market order ids. -/
theorem market_order_ids_per_ticker (rs : List SMEClientRequest) (e : CMatchingEngine)
    (h : CMatchingEngine.init.processAll rs = .ok e) (t : Nat) :
    acceptedIds t e.m_pOutgoingOgwResponses =
      (List.range (newCount t rs)).map (fun i => (1 + i) % 2 ^ 64) ∧
    (acceptedIds t e.m_pOutgoingOgwResponses).length = newCount t rs ∧
    (newCount t rs ≤ 2 ^ 64 → (acceptedIds t e.m_pOutgoingOgwResponses).Nodup) := by
  have h0 := (processAll_ids rs h t 0 rfl rfl).1
  rw [Nat.zero_add] at h0
  refine ⟨h0, by rw [h0, List.length_map, List.length_range], fun hk => ?_⟩
  rw [h0]
  exact range_map_nodup hk

theorem run_engineThree : CMatchingEngine.init.processAll requestsThree = .ok engineThree :=
  rfl

/-- Two NEW requests for ticker 0 around one for ticker 1: ticker 0 hands out the ids 1
and 2, ticker 1 the id 1. -/
theorem market_order_ids_per_ticker_at_three :
    CMatchingEngine.init.processAll requestsThree = .ok engineThree ∧
    newCount 0 requestsThree = 2 ∧ newCount 0 requestsThree ≤ 2 ^ 64 ∧
    acceptedIds 0 engineThree.m_pOutgoingOgwResponses = [1, 2] ∧
    acceptedIds 1 engineThree.m_pOutgoingOgwResponses = [1] ∧
    (acceptedIds 0 engineThree.m_pOutgoingOgwResponses =
        (List.range (newCount 0 requestsThree)).map (fun i => (1 + i) % 2 ^ 64) ∧
      (acceptedIds 0 engineThree.m_pOutgoingOgwResponses).length = newCount 0 requestsThree ∧
      (newCount 0 requestsThree ≤ 2 ^ 64 →
        (acceptedIds 0 engineThree.m_pOutgoingOgwResponses).Nodup)) ∧
    (acceptedIds 0 engineThree.m_pOutgoingOgwResponses).Nodup :=
  ⟨run_engineThree, by decide, by decide, by decide, by decide,
    market_order_ids_per_ticker requestsThree engineThree run_engineThree 0,
    (market_order_ids_per_ticker requestsThree engineThree run_engineThree 0).2.2 (by decide)⟩

end Exchange

namespace Exchange

open Common CMEOrderBook

/-- A NEW with the quantity 0 changes the next market order id and the emitted records
only. -/
theorem AddOrder_zero (b : CMEOrderBook) (cid coid tid : Nat) (side : ESide) (price : Int) :
    b.AddOrder cid coid tid side price 0 = .ok
      { b with
        m_nextMarketOrderId := (b.m_nextMarketOrderId + 1) % 2 ^ 64
        emitted := b.emitted ++ [.response ⟨.ACCEPTED, cid, tid, coid, b.m_nextMarketOrderId,
          side, price, 0, 0⟩] } := by
  rw [AddOrder_eq]
  unfold CheckForMatch
  by_cases hs : side = .BUY ∨ side = .SELL
  · rw [if_pos hs, CheckForMatchLoop_zero]
    rfl
  · rw [if_neg hs]
    rfl

theorem newCount_append (t : Nat) (l1 l2 : List SMEClientRequest) :
    newCount t (l1 ++ l2) = newCount t l1 + newCount t l2 := by
  simp [newCount]

theorem newCount_replicate_zeroNew : ∀ n : Nat, newCount 0 (List.replicate n zeroNew) = n
  | 0 => rfl
  | n + 1 => by
    rw [List.replicate_succ, CMatchingEngine.newCount_cons, newCount_replicate_zeroNew n]
    have : newCount 0 [zeroNew] = 1 := by decide
    rw [this]
    omega

theorem newCount_requestsWrap : newCount 0 requestsWrap = 2 ^ 64 + 1 := by
  unfold requestsWrap
  rw [CMatchingEngine.newCount_cons, newCount_append, newCount_replicate_zeroNew]
  have h1 : newCount 0 [(⟨.NEW, 0, 0, 1, .BUY, 100, 10⟩ : SMEClientRequest)] = 1 := by decide
  have h2 : newCount 0 [(⟨.NEW, 1, 0, 1, .SELL, 101, 5⟩ : SMEClientRequest)] = 1 := by decide
  rw [h1, h2]
  norm_num

theorem requestsWrap_all_new : ∀ r ∈ requestsWrap, r.type = .NEW ∧ r.tickerId = 0 := by
  intro r hr
  unfold requestsWrap at hr
  rcases List.mem_cons.1 hr with rfl | hr
  · exact ⟨rfl, rfl⟩
  rcases List.mem_append.1 hr with hr | hr
  · rw [List.eq_of_mem_replicate hr]
    exact ⟨rfl, rfl⟩
  · rw [List.mem_singleton.1 hr]
    exact ⟨rfl, rfl⟩

namespace CMatchingEngine

theorem processAll_append : ∀ (l1 l2 : List SMEClientRequest) {e e1 : CMatchingEngine},
    e.processAll l1 = .ok e1 → e.processAll (l1 ++ l2) = e1.processAll l2
  | [], l2, e, e1, h => by
    cases h
    rfl
  | r :: l1, l2, e, e1, h => by
    rw [List.cons_append]
    cases he : e.ProcessClientRequest r with
    | ok e0 =>
      simp only [processAll, he] at h ⊢
      exact processAll_append l1 l2 h
    | error f =>
      simp only [processAll, he] at h
      cases h

/-- The responses that a request adds come after the ones in the queue. -/
theorem ProcessClientRequest_grows {e e2 : CMatchingEngine} {r : SMEClientRequest}
    (h : e.ProcessClientRequest r = .ok e2) :
    ∀ x, x ∈ e.m_pOutgoingOgwResponses → x ∈ e2.m_pOutgoingOgwResponses := by
  unfold ProcessClientRequest at h
  split at h
  swap
  · cases h
  simp only at h
  split at h
  · obtain ⟨b2, -, h⟩ := bind_ok h
    cases h
    exact fun x hx => List.mem_append_left _ hx
  · obtain ⟨b2, -, h⟩ := bind_ok h
    cases h
    exact fun x hx => List.mem_append_left _ hx
  · cases h

theorem processAll_grows : ∀ (rs : List SMEClientRequest) {e e2 : CMatchingEngine},
    e.processAll rs = .ok e2 →
    ∀ x, x ∈ e.m_pOutgoingOgwResponses → x ∈ e2.m_pOutgoingOgwResponses
  | [], e, e2, h => by
    cases h
    exact fun x hx => hx
  | r :: rs, e, e2, h => by
    unfold processAll at h
    split at h
    · rename_i e1 he1
      exact fun x hx => processAll_grows rs h x (ProcessClientRequest_grows he1 x hx)
    · cases h

/-- A completed NEW request has put its ACCEPTED response, with the next market order id of
the book of its ticker, into the queue. -/
theorem ProcessClientRequest_accepted {e e2 : CMatchingEngine} {r : SMEClientRequest}
    (hty : r.type = .NEW) (h : e.ProcessClientRequest r = .ok e2) :
    (⟨.ACCEPTED, r.clientId, r.tickerId, r.orderId,
      (e.m_tickerOrderBook r.tickerId).m_nextMarketOrderId, r.side, r.price, 0, r.qty⟩ :
        SMEClientResponse) ∈ e2.m_pOutgoingOgwResponses := by
  unfold ProcessClientRequest at h
  split at h
  swap
  · cases h
  simp only at h
  rw [hty] at h
  simp only at h
  obtain ⟨b2, hb2, h⟩ := bind_ok h
  cases h
  obtain ⟨-, news, hem, -⟩ := AddOrder_sent hb2
  simp only [afterCall]
  rw [hem, List.drop_left]
  exact List.mem_append_right _ (List.mem_cons_self _ _)

/-- The book of ticker 0 is the book of scenario S1 but for the next market order id and
the emitted records: a NEW with the quantity 0 completes and keeps it so. -/
theorem ProcessClientRequest_zeroNew {e : CMatchingEngine} {nx : Nat} {em : List Emitted}
    (h : e.m_tickerOrderBook 0 = { bookS1 with m_nextMarketOrderId := nx, emitted := em }) :
    ∃ e2 nx2 em2, e.ProcessClientRequest zeroNew = .ok e2 ∧
      e2.m_tickerOrderBook 0 = { bookS1 with m_nextMarketOrderId := nx2, emitted := em2 } := by
  refine ⟨e.afterCall 0 (e.m_tickerOrderBook 0)
    { e.m_tickerOrderBook 0 with
      m_nextMarketOrderId := ((e.m_tickerOrderBook 0).m_nextMarketOrderId + 1) % 2 ^ 64
      emitted := (e.m_tickerOrderBook 0).emitted ++
        [.response ⟨.ACCEPTED, 0, 0, 0, (e.m_tickerOrderBook 0).m_nextMarketOrderId,
          .BUY, 100, 0, 0⟩] }, (nx + 1) % 2 ^ 64,
    em ++ [.response ⟨.ACCEPTED, 0, 0, 0, nx, .BUY, 100, 0, 0⟩], ?_, ?_⟩
  · unfold ProcessClientRequest
    rw [if_pos (show zeroNew.tickerId < ME_MAX_TICKERS by decide)]
    show ((e.m_tickerOrderBook 0).AddOrder 0 0 0 .BUY 100 0 >>= fun b2 =>
      pure (e.afterCall 0 (e.m_tickerOrderBook 0) b2)) = _
    rw [AddOrder_zero]
    rfl
  · simp only [afterCall, Function.update_same]
    rw [h]

theorem processAll_zeroNew : ∀ (n : Nat) {e : CMatchingEngine} {nx : Nat} {em : List Emitted},
    e.m_tickerOrderBook 0 = { bookS1 with m_nextMarketOrderId := nx, emitted := em } →
    ∃ e2 nx2 em2, e.processAll (List.replicate n zeroNew) = .ok e2 ∧
      e2.m_tickerOrderBook 0 = { bookS1 with m_nextMarketOrderId := nx2, emitted := em2 }
  | 0, e, nx, em, h => ⟨e, nx, em, rfl, h⟩
  | n + 1, e, nx, em, h => by
    obtain ⟨e1, nx1, em1, h1, hb1⟩ := ProcessClientRequest_zeroNew h
    obtain ⟨e2, nx2, em2, h2, hb2⟩ := processAll_zeroNew n hb1
    refine ⟨e2, nx2, em2, ?_, hb2⟩
    rw [List.replicate_succ]
    unfold processAll
    rw [h1]
    exact h2

/-- On such a book an ask of client 1 at 101 completes. -/
theorem ProcessClientRequest_ask {e : CMatchingEngine} {nx : Nat} {em : List Emitted}
    (h : e.m_tickerOrderBook 0 = { bookS1 with m_nextMarketOrderId := nx, emitted := em }) :
    ∃ e2, e.ProcessClientRequest ⟨.NEW, 1, 0, 1, .SELL, 101, 5⟩ = .ok e2 := by
  have hS : Struct { bookS1 with m_nextMarketOrderId := nx, emitted := em } .SELL []
      [(0, [0])] :=
    (Struct_bookS1.struct_swap (Or.inl rfl)).congr (fun _ _ => ⟨rfl, rfl⟩) rfl rfl rfl
      (fun _ _ => ⟨rfl, rfl⟩) Struct_bookS1.lpool Struct_bookS1.opool
  have hcol : ∀ lp, ({ bookS1 with m_nextMarketOrderId := nx, emitted := em } :
      CMEOrderBook).m_priceOrdersAtPrice (PriceToIndex 101) = some lp →
      (({ bookS1 with m_nextMarketOrderId := nx, emitted := em } : CMEOrderBook).level lp).price
        = 101 := NoCollision_bookS1_above
  obtain ⟨b2, hb2⟩ := (AddOrder_spec (Or.inr rfl) hS hcol 1 1 0 5).1
    (by decide) (by decide) Spare_bookS1_orders Spare_bookS1_levels
  refine ⟨e.afterCall 0 (e.m_tickerOrderBook 0) b2, ?_⟩
  unfold ProcessClientRequest
  rw [if_pos (show (0 : Nat) < ME_MAX_TICKERS by decide)]
  show ((e.m_tickerOrderBook 0).AddOrder 1 1 0 .SELL 101 5 >>= fun b2 =>
    pure (e.afterCall 0 (e.m_tickerOrderBook 0) b2)) = _
  rw [h, hb2]
  rfl

end CMatchingEngine

open CMatchingEngine

/-- The 64-bit counter of one book wraps: after `2 ^ 64 + 1` NEW requests for ticker 0, all
completed, the first and the last accepted order carry the market order id 1. -/
theorem wrap_collides :
    ∃ e, CMatchingEngine.init.processAll requestsWrap = .ok e ∧
      (acceptedIds 0 e.m_pOutgoingOgwResponses)[0]? = some 1 ∧
      (acceptedIds 0 e.m_pOutgoingOgwResponses)[2 ^ 64]? = some 1 ∧
      ¬ (acceptedIds 0 e.m_pOutgoingOgwResponses).Nodup ∧
      (⟨.ACCEPTED, 0, 0, 1, 1, .BUY, 100, 0, 10⟩ : SMEClientResponse) ∈
        e.m_pOutgoingOgwResponses ∧
      (⟨.ACCEPTED, 1, 0, 1, 1, .SELL, 101, 0, 5⟩ : SMEClientResponse) ∈
        e.m_pOutgoingOgwResponses := by
  -- the first request leaves the book of scenario S1
  have h1 : ∃ e1, CMatchingEngine.init.processAll [⟨.NEW, 0, 0, 1, .BUY, 100, 10⟩] = .ok e1 ∧
      e1.m_tickerOrderBook 0 = bookS1 ∧
      (⟨.ACCEPTED, 0, 0, 1, 1, .BUY, 100, 0, 10⟩ : SMEClientResponse) ∈
        e1.m_pOutgoingOgwResponses := ⟨_, rfl, rfl, by decide⟩
  obtain ⟨e1, hr1, hb1, hm1⟩ := h1
  have hb1x : e1.m_tickerOrderBook 0 = { bookS1 with
      m_nextMarketOrderId := bookS1.m_nextMarketOrderId, emitted := bookS1.emitted } := hb1
  obtain ⟨e2, nx2, em2, hr2, hb2⟩ := processAll_zeroNew (2 ^ 64 - 1) hb1x
  obtain ⟨e3, hr3⟩ := ProcessClientRequest_ask hb2
  have hpre : CMatchingEngine.init.processAll
      (⟨.NEW, 0, 0, 1, .BUY, 100, 10⟩ :: List.replicate (2 ^ 64 - 1) zeroNew) = .ok e2 := by
    rw [← List.singleton_append, processAll_append _ _ hr1]
    exact hr2
  have hrun : CMatchingEngine.init.processAll requestsWrap = .ok e3 := by
    unfold requestsWrap
    rw [← List.cons_append, processAll_append _ _ hpre]
    unfold processAll
    rw [hr3]
    rfl
  have hids := (processAll_ids requestsWrap hrun 0 0 rfl rfl).1
  rw [Nat.zero_add, newCount_requestsWrap] at hids
  have hnext := (processAll_ids _ hpre 0 0 rfl rfl).2
  rw [Nat.zero_add, newCount_cons, newCount_replicate_zeroNew] at hnext
  have hc : newCount 0 [(⟨.NEW, 0, 0, 1, .BUY, 100, 10⟩ : SMEClientRequest)] = 1 := by decide
  rw [hc] at hnext
  have hnext1 : (e2.m_tickerOrderBook 0).m_nextMarketOrderId = 1 := by
    rw [hnext]
    norm_num
  have g0 : (acceptedIds 0 e3.m_pOutgoingOgwResponses)[0]? = some 1 := by
    rw [hids, List.getElem?_map, List.getElem?_range (by norm_num)]
    rfl
  have g1 : (acceptedIds 0 e3.m_pOutgoingOgwResponses)[2 ^ 64]? = some 1 := by
    rw [hids, List.getElem?_map, List.getElem?_range (by norm_num)]
    show some ((1 + 2 ^ 64) % 2 ^ 64) = some 1
    norm_num
  refine ⟨e3, hrun, g0, g1, ?_, ?_, ?_⟩
  · intro hnd
    have hlen : (2 : Nat) ^ 64 < (acceptedIds 0 e3.m_pOutgoingOgwResponses).length := by
      rw [hids, List.length_map, List.length_range]
      norm_num
    exact List.nodup_iff_getElem?_ne_getElem?.1 hnd 0 (2 ^ 64) (by norm_num) hlen
      (g0.trans g1.symm)
  · have hrest : e1.processAll (List.replicate (2 ^ 64 - 1) zeroNew ++
        [⟨.NEW, 1, 0, 1, .SELL, 101, 5⟩]) = .ok e3 := by
      rw [processAll_append _ _ hr2]
      unfold processAll
      rw [hr3]
      rfl
    exact processAll_grows _ hrest _ hm1
  · have := ProcessClientRequest_accepted rfl hr3
    rw [show (e2.m_tickerOrderBook
      (⟨.NEW, 1, 0, 1, .SELL, 101, 5⟩ : SMEClientRequest).tickerId).m_nextMarketOrderId = 1
      from hnext1] at this
    exact this

/-- C32 as it is written fails on the code. Every order book of the matching engine has its
own counter of market order ids, which starts at 1: a fresh engine that processes a NEW for
ticker 0 and a NEW for ticker 1 accepts both, and both ACCEPTED responses, as both ADD
updates, carry the market order id 1. Within one ticker the counter has 64 bits: of
`2 ^ 64 + 1` NEW requests for ticker 0, all completed, the first and the last are accepted
with the market order id 1. -/
theorem market_order_ids_collide :
    (∃ e, CMatchingEngine.init.processAll
        [⟨.NEW, 0, 0, 1, .BUY, 100, 10⟩, ⟨.NEW, 1, 1, 1, .BUY, 100, 10⟩] = .ok e ∧
      e.m_pOutgoingOgwResponses =
        [⟨.ACCEPTED, 0, 0, 1, 1, .BUY, 100, 0, 10⟩, ⟨.ACCEPTED, 1, 1, 1, 1, .BUY, 100, 0, 10⟩] ∧
      e.m_pOutgoingMdUpdates =
        [⟨.ADD, 1, 0, .BUY, 100, 10, 1⟩, ⟨.ADD, 1, 1, .BUY, 100, 10, 1⟩] ∧
      (e.m_tickerOrderBook 0).m_nextMarketOrderId = 2 ∧
      (e.m_tickerOrderBook 1).m_nextMarketOrderId = 2) ∧
    (∀ r ∈ requestsWrap, r.type = .NEW ∧ r.tickerId = 0) ∧
    newCount 0 requestsWrap = 2 ^ 64 + 1 ∧
    ∃ e, CMatchingEngine.init.processAll requestsWrap = .ok e ∧
      (acceptedIds 0 e.m_pOutgoingOgwResponses)[0]? = some 1 ∧
      (acceptedIds 0 e.m_pOutgoingOgwResponses)[2 ^ 64]? = some 1 ∧
      ¬ (acceptedIds 0 e.m_pOutgoingOgwResponses).Nodup ∧
      (⟨.ACCEPTED, 0, 0, 1, 1, .BUY, 100, 0, 10⟩ : SMEClientResponse) ∈
        e.m_pOutgoingOgwResponses ∧
      (⟨.ACCEPTED, 1, 0, 1, 1, .SELL, 101, 0, 5⟩ : SMEClientResponse) ∈
        e.m_pOutgoingOgwResponses :=
  ⟨⟨_, rfl, by decide, by decide, by decide, by decide⟩, requestsWrap_all_new,
    newCount_requestsWrap, wrap_collides⟩

end Exchange
